import Mathlib

/-!
# Cost partitioning over abstractions: distance engines, saturators, bucketed costs

A shallow embedding of the parts of `src/search/transition_cost_partitioning` and
`src/search/cost_saturation` that the verified properties talk about.

Conventions of the embedding
* C++ `int` is `Int`; the sentinel `INF` is `numeric_limits<int>::max()`.
  Finite arithmetic is unbounded in the model; the source asserts
  `is_sum_within_range` wherever it adds or subtracts finite values.
* `vector<T>` is `List T`; `v[i]` is `vget v i` (`List.getD` with default `0`),
  `v[i] = x` is `List.set`.
* Loops whose number of iterations is not bounded by the syntax (the Dijkstra
  `while`, the Bellman-Ford `do/while`) take a `fuel : Nat` and return `none`
  when it runs out.
-/

namespace transition_cost_partitioning

/-! ## types.h, utils.cc -/

/-- Positive infinity: `numeric_limits<int>::max()` for a 32 bit `int`. -/
def INF : Int := 2147483647

/-- Read `v[i]` of a `vector<int>`. -/
def vget (v : List Int) (i : Nat) : Int := v.getD i 0

/-- Read `v[i]` of a `vector<bool>`. -/
def bget (v : List Bool) (i : Nat) : Bool := v.getD i false

/-- The function `left_addition` of utils.cc. -/
def left_addition (a b : Int) : Int :=
  if a = -INF ∨ a = INF then a
  else if b = -INF ∨ b = INF then b
  else a + b

/-- The function `left_subtraction` of utils.cc. -/
def left_subtraction (a b : Int) : Int :=
  if a = INF ∨ a = -INF then a
  else if b = INF ∨ b = -INF then INF
  else a - b

/-- The function `path_addition` of utils.cc. -/
def path_addition (a b : Int) : Int :=
  if a = INF ∨ b = INF then INF
  else if a = -INF ∨ b = -INF then -INF
  else a + b

/-- The function `compute_reachability_cost_function` of utils.cc. -/
def compute_reachability_cost_function (costs : List Int) : List Int :=
  costs.map fun c => if c = -INF ∨ c = INF then INF else 1

/-! ## abstraction.h, explicit_abstraction.cc -/

/-- A directed arc of the forward or backward graph. -/
structure Successor where
  transition_id : Nat
  op_id : Nat
  target_id : Nat
deriving DecidableEq, Repr

/-- A labelled state-changing transition. -/
structure Transition where
  transition_id : Nat
  op_id : Nat
  source_id : Nat
  target_id : Nat
deriving DecidableEq, Repr

/-- The data members of `ExplicitAbstraction` (with those of its base class
`Abstraction`) that the distance engines and the saturators read.
`num_operators` is `task_info.get_num_operators()`. -/
structure ExplicitAbstraction where
  num_operators : Nat
  num_states : Nat
  init_state_id : Nat
  goal_states : List Nat
  backward_graph : List (List Successor)
  has_loop : List Bool
deriving Repr

/-- The transitions in the order `ExplicitAbstraction::for_each_transition` calls back. -/
def ExplicitAbstraction.for_each_transition (a : ExplicitAbstraction) : List Transition :=
  (List.range a.num_states).flatMap fun target_id =>
    (a.backward_graph.getD target_id []).map fun s =>
      { transition_id := s.transition_id, op_id := s.op_id,
        source_id := s.target_id, target_id := target_id }

/-- The static function `generate_forward_graph` of explicit_abstraction.cc:
arcs are appended to `forward_graph[source_id]` in the order the backward graph lists them. -/
def generate_forward_graph (backward_graph : List (List Successor)) : List (List Successor) :=
  (List.range backward_graph.length).foldl
    (fun fg target_id =>
      (backward_graph.getD target_id []).foldl
        (fun fg s =>
          fg.set s.target_id
            (fg.getD s.target_id [] ++
              [{ transition_id := s.transition_id, op_id := s.op_id, target_id := target_id }]))
        fg)
    (List.replicate backward_graph.length [])

/-- Modelled from the spec: `priority_queues::AdaptiveQueue<int>` (algorithms/priority_queues.h
is not part of the sources at hand), the "standard monotone priority queue" of the Dijkstra
engine: a bag of `(key, value)` entries. -/
abbrev AdaptiveQueue := List (Int × Nat)

/-- Modelled from the spec: `AdaptiveQueue::push`. -/
def AdaptiveQueue.push (q : AdaptiveQueue) (key : Int) (value : Nat) : AdaptiveQueue :=
  q ++ [(key, value)]

/-- Modelled from the spec: the entry `AdaptiveQueue::pop` takes out, one of least key
(the first of them). -/
def AdaptiveQueue.top : AdaptiveQueue → Option (Int × Nat)
  | [] => none
  | e :: q =>
    match AdaptiveQueue.top q with
    | none => some e
    | some m => if m.1 < e.1 then some m else some e

/-- Modelled from the spec: `AdaptiveQueue::pop`, the least entry and the queue without it;
`none` when the queue is empty. -/
def AdaptiveQueue.pop (q : AdaptiveQueue) : Option ((Int × Nat) × AdaptiveQueue) :=
  match AdaptiveQueue.top q with
  | none => none
  | some m => some (m, q.erase m)

/-- The body of the `for` loop of `dijkstra_search_ocf` for one arc out of `state`. -/
def dijkstra_relax_ocf (ocf : List Int) (state_distance : Int)
    (acc : List Int × AdaptiveQueue) (transition : Successor) : List Int × AdaptiveQueue :=
  let successor := transition.target_id
  let cost := vget ocf transition.op_id
  let successor_distance := if cost = INF then INF else state_distance + cost
  if vget acc.1 successor > successor_distance then
    (acc.1.set successor successor_distance, AdaptiveQueue.push acc.2 successor_distance successor)
  else acc

/-- The static function `dijkstra_search_ocf` of explicit_abstraction.cc; one unit of fuel
per iteration of the `while` loop. -/
def dijkstra_search_ocf (graph : List (List Successor)) (ocf : List Int) :
    Nat → AdaptiveQueue → List Int → Option (List Int)
  | 0, _, _ => none
  | fuel + 1, queue, distances =>
    match AdaptiveQueue.pop queue with
    | none => some distances
    | some ((distance, state), queue) =>
      let state_distance := vget distances state
      if state_distance < distance then
        dijkstra_search_ocf graph ocf fuel queue distances
      else
        let r := (graph.getD state []).foldl (dijkstra_relax_ocf ocf state_distance)
          (distances, queue)
        dijkstra_search_ocf graph ocf fuel r.2 r.1

/-- The initial distances and queue of a goal-distance computation: every goal gets
distance `0` and is pushed. -/
def init_goal_distances (a : ExplicitAbstraction) : List Int × AdaptiveQueue :=
  a.goal_states.foldl
    (fun acc goal_state => (acc.1.set goal_state 0, AdaptiveQueue.push acc.2 0 goal_state))
    (List.replicate a.num_states INF, [])

/-- The method `ExplicitAbstraction::compute_goal_distances_for_non_negative_costs_ocf`. -/
def ExplicitAbstraction.compute_goal_distances_for_non_negative_costs_ocf
    (a : ExplicitAbstraction) (fuel : Nat) (ocf : List Int) : Option (List Int) :=
  let i := init_goal_distances a
  dijkstra_search_ocf a.backward_graph ocf fuel i.2 i.1

/-- The tail of the reachability methods: `reachable[i] = (state_distances[i] != INF)`. -/
def distances_to_reachability (num_states : Nat) (state_distances : List Int) : List Bool :=
  (List.range num_states).map fun source_id => decide (vget state_distances source_id ≠ INF)

/-- The method `ExplicitAbstraction::compute_reachability_from_state_ocf`. -/
def ExplicitAbstraction.compute_reachability_from_state_ocf
    (a : ExplicitAbstraction) (fuel : Nat) (ocf : List Int) (state_id : Nat) :
    Option (List Bool) :=
  (dijkstra_search_ocf (generate_forward_graph a.backward_graph) ocf fuel [(0, state_id)]
    ((List.replicate a.num_states INF).set state_id 0)).map
    (distances_to_reachability a.num_states)

/-- The method `ExplicitAbstraction::compute_reachability_to_state_ocf`. -/
def ExplicitAbstraction.compute_reachability_to_state_ocf
    (a : ExplicitAbstraction) (fuel : Nat) (ocf : List Int) (state_id : Nat) :
    Option (List Bool) :=
  (dijkstra_search_ocf a.backward_graph ocf fuel [(0, state_id)]
    ((List.replicate a.num_states INF).set state_id 0)).map
    (distances_to_reachability a.num_states)

/-! ## abstraction.cc: Bellman-Ford -/

/-- The variables the Bellman-Ford callback captures by reference. -/
structure BellmanFordState where
  distances : List Int
  negative_weight_cycle_found : Bool
  distances_changed : Bool
deriving DecidableEq, Repr

/-- The callback of `compute_goal_distances_for_negative_costs_ocf` for one transition;
`reach_to` is the virtual method `compute_reachability_to_state_ocf` of the abstraction
(in `cost_saturation`: `compute_reachability_to_state`), which the base class calls. -/
def bellman_ford_callback (reach_to : Nat → List Int → Nat → Option (List Bool))
    (fuel : Nat) (ocf : List Int)
    (last_round : Bool) (st : BellmanFordState) (transition : Transition) :
    Option BellmanFordState :=
  let src := transition.target_id
  let target := transition.source_id
  let cost := vget ocf transition.op_id
  let new_distance := path_addition (vget st.distances src) cost
  if new_distance < vget st.distances target then
    if last_round then
      match reach_to fuel (compute_reachability_cost_function ocf) target with
      | none => none
      | some can_reach_target =>
        some { distances :=
                 can_reach_target.foldl
                   (fun d b => if b then d.set target (-INF) else d) st.distances
               negative_weight_cycle_found := true
               distances_changed := st.distances_changed }
    else
      some { distances := st.distances.set target new_distance
             negative_weight_cycle_found := st.negative_weight_cycle_found
             distances_changed := true }
  else some st

/-- One call of `for_each_transition` with the Bellman-Ford callback. -/
def bellman_ford_pass (a : ExplicitAbstraction)
    (reach_to : Nat → List Int → Nat → Option (List Bool)) (fuel : Nat) (ocf : List Int)
    (last_round : Bool) (st : BellmanFordState) : Option BellmanFordState :=
  a.for_each_transition.foldlM (bellman_ford_callback reach_to fuel ocf last_round) st

/-- The loop `for (int i = 0; i < num_states; ++i)` from round `i` on, with `remaining`
rounds to go (`i + remaining = num_states`); it breaks after a pass that changed nothing. -/
def bellman_ford_rounds (a : ExplicitAbstraction)
    (reach_to : Nat → List Int → Nat → Option (List Bool)) (fuel : Nat) (ocf : List Int) :
    Nat → Nat → List Int → Bool → Option (List Int × Bool)
  | _, 0, distances, found => some (distances, found)
  | i, remaining + 1, distances, found =>
    match bellman_ford_pass a reach_to fuel ocf (decide (i + 1 = a.num_states))
        { distances := distances, negative_weight_cycle_found := found,
          distances_changed := false } with
    | none => none
    | some st =>
      if st.distances_changed then
        bellman_ford_rounds a reach_to fuel ocf (i + 1) remaining st.distances
          st.negative_weight_cycle_found
      else some (st.distances, st.negative_weight_cycle_found)

/-- The head of the `do` body: reset every distance but `-INF` to `INF`, then set the
distance of every goal to `0`. -/
def bellman_ford_reset (a : ExplicitAbstraction) (distances : List Int) : List Int :=
  a.goal_states.foldl (fun d goal => d.set goal 0)
    (distances.map fun d => if d ≠ -INF then INF else d)

/-- The `do ... while (negative_weight_cycle_found)` loop; one unit of fuel per iteration. -/
def bellman_ford_restart (a : ExplicitAbstraction)
    (reach_to : Nat → List Int → Nat → Option (List Bool)) (ocf : List Int) :
    Nat → List Int → Option (List Int)
  | 0, _ => none
  | fuel + 1, distances =>
    match bellman_ford_rounds a reach_to (fuel + 1) ocf 0 a.num_states
        (bellman_ford_reset a distances) false with
    | none => none
    | some (distances, found) =>
      if found then bellman_ford_restart a reach_to ocf fuel distances else some distances

/-- The method `Abstraction::compute_goal_distances_for_negative_costs_ocf`. -/
def ExplicitAbstraction.compute_goal_distances_for_negative_costs_ocf
    (a : ExplicitAbstraction) (fuel : Nat) (ocf : List Int) : Option (List Int) :=
  bellman_ford_restart a a.compute_reachability_to_state_ocf ocf fuel
    (List.replicate a.num_states INF)

/-- The method `Abstraction::compute_goal_distances_ocf`. -/
def ExplicitAbstraction.compute_goal_distances_ocf
    (a : ExplicitAbstraction) (fuel : Nat) (ocf : List Int) : Option (List Int) :=
  if ocf.all (fun c => decide (c ≥ 0)) then
    a.compute_goal_distances_for_non_negative_costs_ocf fuel ocf
  else
    a.compute_goal_distances_for_negative_costs_ocf fuel ocf

/-! ## cost_function_state_dependent.cc

A `BDD` is the characteristic function of a set of concrete states; the model is a
`Finset σ` over the finite, inhabited type `σ` of concrete states: `make_one` is
`Finset.univ`, `make_zero` is `∅`, `+` is `∪`, `*` is `∩`, `!` is the complement and
`bdd_builder.intersect l r` is `l ∩ r ≠ ∅`. -/

/-- The type `map<int, BDD>`: the entries in ascending order of their keys. -/
abbrev BucketMap (σ : Type) := List (Int × Finset σ)

/-- The steps `find` then `+=` or `emplace` on a `map<int, BDD>`. -/
def map_add {σ : Type} [DecidableEq σ] (cost_value : Int) (cost_value_bdd : Finset σ) :
    BucketMap σ → BucketMap σ
  | [] => [(cost_value, cost_value_bdd)]
  | e :: rest =>
    if cost_value = e.1 then (e.1, e.2 ∪ cost_value_bdd) :: rest
    else if cost_value < e.1 then (cost_value, cost_value_bdd) :: e :: rest
    else e :: map_add cost_value cost_value_bdd rest

/-- The steps `find` then `+=` or `emplace` on an `unordered_map<int, BDD>`; the model
iterates an `unordered_map` in the order of first insertion. -/
def unordered_map_add {σ : Type} [DecidableEq σ] (cost_value : Int)
    (cost_value_bdd : Finset σ) : List (Int × Finset σ) → List (Int × Finset σ)
  | [] => [(cost_value, cost_value_bdd)]
  | e :: rest =>
    if cost_value = e.1 then (e.1, e.2 ∪ cost_value_bdd) :: rest
    else e :: unordered_map_add cost_value cost_value_bdd rest

/-- The static function `insert_cost_value` on a `map<int, BDD>`. -/
def insert_cost_value {σ : Type} [DecidableEq σ] (cost_value : Int)
    (cost_value_bdd : Finset σ) (new_sd_costs : BucketMap σ) : BucketMap σ :=
  if cost_value_bdd = ∅ then new_sd_costs
  else map_add cost_value cost_value_bdd new_sd_costs

/-- The static function `insert_cost_value` on an `unordered_map<int, BDD>`. -/
def insert_cost_value_unordered {σ : Type} [DecidableEq σ] (cost_value : Int)
    (cost_value_bdd : Finset σ) (new_sd_costs : List (Int × Finset σ)) :
    List (Int × Finset σ) :=
  if cost_value_bdd = ∅ then new_sd_costs
  else unordered_map_add cost_value cost_value_bdd new_sd_costs

/-- The static function `remove_states`. -/
def remove_states {σ : Type} [DecidableEq σ] [Fintype σ] (context : Finset σ) :
    BucketMap σ → BucketMap σ
  | [] => []
  | e :: rest =>
    if e.1 = INF then e :: remove_states context rest
    else if context ∩ e.2 ≠ ∅ then
      if e.2 ∩ contextᶜ ≠ ∅ then (e.1, e.2 ∩ contextᶜ) :: remove_states context rest
      else remove_states context rest
    else e :: remove_states context rest

/-- The loop of `limit_buckets` from the entry of index `index` on: entries before index
`MAX_BUCKETS - 1` stay, the entry at that index takes up all later ones. (For
`MAX_BUCKETS < 1` the source adds to an iterator that was never set.) -/
def limit_buckets_from {σ : Type} [DecidableEq σ] (MAX_BUCKETS : Int) :
    Int → BucketMap σ → BucketMap σ
  | _, [] => []
  | index, e :: rest =>
    if index = MAX_BUCKETS - 1 then [(e.1, rest.foldl (fun acc x => acc ∪ x.2) e.2)]
    else e :: limit_buckets_from MAX_BUCKETS (index + 1) rest

/-- The static function `limit_buckets`. -/
def limit_buckets {σ : Type} [DecidableEq σ] (remaining_costs_values : BucketMap σ)
    (MAX_BUCKETS : Int) : BucketMap σ :=
  if (remaining_costs_values.length : Int) > MAX_BUCKETS then
    limit_buckets_from MAX_BUCKETS 0 remaining_costs_values
  else remaining_costs_values

/-- The data members of `CostFunctionStateDependent`; `operator_costs` is what
`task_info.get_operator_cost` reads and its length is `task_info.get_num_operators()`. -/
structure CostFunctionStateDependent (σ : Type) where
  operator_costs : List Int
  max_buckets : Int
  remaining_sd_costs : List (BucketMap σ)
  useless_operators : List Bool

/-- The number `task_info.get_num_operators()`. -/
def CostFunctionStateDependent.num_operators {σ : Type}
    (c : CostFunctionStateDependent σ) : Nat := c.operator_costs.length

/-- The buckets `remaining_sd_costs[op_id]`. -/
def CostFunctionStateDependent.buckets {σ : Type}
    (c : CostFunctionStateDependent σ) (op_id : Nat) : BucketMap σ :=
  c.remaining_sd_costs.getD op_id []

/-- The method `verify_cost_function_state_space(int op_id)`, on the buckets of one
operator: `false` where the source aborts. -/
def verify_bucket_map {σ : Type} [DecidableEq σ] [Fintype σ] (m : BucketMap σ) : Bool :=
  let rec go : BucketMap σ → Finset σ → Bool
    | [], result => decide (result = Finset.univ)
    | e :: rest, result =>
      if result ∩ e.2 ≠ ∅ then false
      else if e.2 = ∅ then false
      else go rest (result ∪ e.2)
  go m ∅

/-- The method `CostFunctionStateDependent::verify_cost_function_state_space()`. -/
def CostFunctionStateDependent.verify_cost_function_state_space {σ : Type}
    [DecidableEq σ] [Fintype σ] (c : CostFunctionStateDependent σ) : Bool :=
  (List.range c.remaining_sd_costs.length).all fun op_id => verify_bucket_map (c.buckets op_id)

/-- The method `CostFunctionStateDependent::reinitialize`. -/
def CostFunctionStateDependent.reinitialize {σ : Type} [Fintype σ]
    (c : CostFunctionStateDependent σ) : CostFunctionStateDependent σ :=
  { c with
    remaining_sd_costs :=
      (List.range c.num_operators).map fun op_id =>
        if bget c.useless_operators op_id then [(INF, Finset.univ)]
        else [(vget c.operator_costs op_id, Finset.univ)] }

/-- The constructor of `CostFunctionStateDependent`. -/
def CostFunctionStateDependent.create {σ : Type} [Fintype σ]
    (operator_costs : List Int) (max_buckets : Int) : CostFunctionStateDependent σ :=
  CostFunctionStateDependent.reinitialize
    { operator_costs := operator_costs
      max_buckets := max_buckets
      remaining_sd_costs := []
      useless_operators := List.replicate operator_costs.length false }

/-- The rebuilt map of `reduce_operator_costs(int op_id, int saturated)` for a saturated
value other than `-INF`. -/
def reduce_bucket_map {σ : Type} [DecidableEq σ] (saturated : Int) (m : BucketMap σ) :
    BucketMap σ :=
  m.foldl
    (fun new_sd_costs p =>
      if p.1 = INF then insert_cost_value INF p.2 new_sd_costs
      else insert_cost_value (max 0 (left_subtraction p.1 saturated)) p.2 new_sd_costs)
    []

/-- The method `CostFunctionStateDependent::reduce_operator_costs(int op_id, int saturated)`. -/
def CostFunctionStateDependent.reduce_operator_costs_op {σ : Type} [DecidableEq σ]
    [Fintype σ] (c : CostFunctionStateDependent σ) (op_id : Nat) (saturated : Int) :
    CostFunctionStateDependent σ :=
  if saturated = -INF then
    { c with
      remaining_sd_costs := c.remaining_sd_costs.set op_id [(INF, Finset.univ)]
      useless_operators := c.useless_operators.set op_id true }
  else
    { c with
      remaining_sd_costs :=
        c.remaining_sd_costs.set op_id (reduce_bucket_map saturated (c.buckets op_id)) }

/-- The method `CostFunctionStateDependent::reduce_operator_costs(const vector<int> &socf)`. -/
def CostFunctionStateDependent.reduce_operator_costs {σ : Type} [DecidableEq σ]
    [Fintype σ] (c : CostFunctionStateDependent σ) (socf : List Int) :
    CostFunctionStateDependent σ :=
  (List.range c.num_operators).foldl
    (fun c op_id =>
      let saturated := vget socf op_id
      if saturated = 0 ∨ saturated = INF then c
      else c.reduce_operator_costs_op op_id saturated)
    c

/-- The members of `AbstractTransitionCostFunction`. -/
structure AbstractTransitionCostFunction where
  sd_costs : List Int
  si : List Bool
  si_costs : List Int
deriving DecidableEq, Repr

/-- The method
`CostFunctionStateDependent::reduce_operator_costs(AbstractTransitionCostFunction &tcf)`. -/
def CostFunctionStateDependent.reduce_operator_costs_tcf {σ : Type} [DecidableEq σ]
    [Fintype σ] (c : CostFunctionStateDependent σ) (tcf : AbstractTransitionCostFunction) :
    CostFunctionStateDependent σ :=
  (List.range c.num_operators).foldl
    (fun c op_id =>
      if !bget tcf.si op_id then c
      else
        let saturated := vget tcf.si_costs op_id
        if saturated = 0 ∨ saturated = INF then c
        else c.reduce_operator_costs_op op_id saturated)
    c

/-- Step 1 of `reduce_transition_costs_finite`: the saturated values of the transitions of
operators outside `si`, each with the union of the fingerprints of its transitions.
`transitions` is what `abstraction.for_each_transition` enumerates and
`make_transition_bdd` the fingerprint the abstraction builds for a transition. -/
def compute_stcf_dds {σ : Type} [DecidableEq σ] (num_operators : Nat)
    (transitions : List Transition) (make_transition_bdd : Transition → Finset σ)
    (tcf : AbstractTransitionCostFunction) : List (List (Int × Finset σ)) :=
  transitions.foldl
    (fun stcf_dds transition =>
      if bget tcf.si transition.op_id then stcf_dds
      else
        let saturated := vget tcf.sd_costs transition.transition_id
        if saturated = -INF ∨ saturated = 0 ∨ saturated = INF then stcf_dds
        else
          stcf_dds.set transition.op_id
            (insert_cost_value_unordered saturated (make_transition_bdd transition)
              (stcf_dds.getD transition.op_id [])))
    (List.replicate num_operators [])

/-- The inner loop of step 2 for one old bucket `remaining`: every saturated entry that
meets what is left of the bucket moves the intersection to the key
`left_subtraction(remaining.first, saturated.first)`; returns what is left of the bucket
and the new map. -/
def move_changed_states {σ : Type} [DecidableEq σ] [Fintype σ]
    (stcf_dd : List (Int × Finset σ)) (remaining : Int × Finset σ)
    (new_sd_costs : BucketMap σ) : Finset σ × BucketMap σ :=
  stcf_dd.foldl
    (fun acc saturated =>
      if acc.1 ∩ saturated.2 ≠ ∅ then
        (acc.1 ∩ saturated.2ᶜ,
          insert_cost_value (left_subtraction remaining.1 saturated.1)
            (acc.1 ∩ saturated.2) acc.2)
      else acc)
    (remaining.2, new_sd_costs)

/-- The loop "move states of changed cost values": the old buckets after the loop and the
new map. -/
def move_changed_buckets {σ : Type} [DecidableEq σ] [Fintype σ]
    (stcf_dd : List (Int × Finset σ)) :
    BucketMap σ → BucketMap σ → BucketMap σ × BucketMap σ
  | [], new_sd_costs => ([], new_sd_costs)
  | remaining :: rest, new_sd_costs =>
    let r := move_changed_states stcf_dd remaining new_sd_costs
    let rr := move_changed_buckets stcf_dd rest r.2
    ((remaining.1, r.1) :: rr.1, rr.2)

/-- Step 2 of `reduce_transition_costs_finite` for an operator outside `si`. -/
def subtract_stcf_dd {σ : Type} [DecidableEq σ] [Fintype σ] (max_buckets : Int)
    (stcf_dd : List (Int × Finset σ)) (remaining : BucketMap σ) : BucketMap σ :=
  let moved := move_changed_buckets stcf_dd remaining []
  let new_sd_costs :=
    moved.1.foldl (fun new_sd_costs r => insert_cost_value r.1 r.2 new_sd_costs) moved.2
  limit_buckets new_sd_costs max_buckets

/-- The method `CostFunctionStateDependent::reduce_transition_costs_finite`. -/
def CostFunctionStateDependent.reduce_transition_costs_finite {σ : Type} [DecidableEq σ]
    [Fintype σ] (c : CostFunctionStateDependent σ) (transitions : List Transition)
    (make_transition_bdd : Transition → Finset σ) (tcf : AbstractTransitionCostFunction) :
    CostFunctionStateDependent σ :=
  let stcf_dds := compute_stcf_dds c.num_operators transitions make_transition_bdd tcf
  { c with
    remaining_sd_costs :=
      (List.range c.num_operators).map fun op_id =>
        if bget tcf.si op_id then c.buckets op_id
        else subtract_stcf_dd c.max_buckets (stcf_dds.getD op_id []) (c.buckets op_id) }

/-- The method `CostFunctionStateDependent::reduce_transition_costs_negative_infinity`;
`reachability_bdds` is the result of `bdd_builder.make_negative_infinity_bdds`. -/
def CostFunctionStateDependent.reduce_transition_costs_negative_infinity {σ : Type}
    [DecidableEq σ] [Fintype σ] (c : CostFunctionStateDependent σ)
    (reachability_bdds : List (Finset σ)) : CostFunctionStateDependent σ :=
  (List.range c.num_operators).foldl
    (fun c op_id =>
      if bget c.useless_operators op_id then c
      else
        let reachability_bdd := reachability_bdds.getD op_id ∅
        { c with
          remaining_sd_costs :=
            c.remaining_sd_costs.set op_id
              (insert_cost_value INF reachability_bdd
                (remove_states reachability_bdd (c.buckets op_id))) })
    c

/-- The cost of concrete state `s` in a bucket map: the key of the first bucket that holds
`s`, `none` if no bucket does. -/
def bucket_cost {σ : Type} [DecidableEq σ] (m : BucketMap σ) (s : σ) : Option Int :=
  (m.find? fun e => decide (s ∈ e.2)).map Prod.fst

/-- The buckets of one operator form a partition of the concrete states: every bucket is
nonempty, the buckets are pairwise disjoint and every state is in a bucket. -/
def BucketPartition {σ : Type} [DecidableEq σ] [Fintype σ] (m : BucketMap σ) : Prop :=
  (∀ e ∈ m, e.2 ≠ ∅) ∧ m.Pairwise (fun e f => Disjoint e.2 f.2) ∧
    ∀ s : σ, ∃ e ∈ m, s ∈ e.2

/-- The bucket partition invariant of a `CostFunctionStateDependent`: there is one bucket
map per operator and each is a partition of the concrete states. -/
def CostFunctionStateDependent.Partitioned {σ : Type} [DecidableEq σ] [Fintype σ]
    (c : CostFunctionStateDependent σ) : Prop :=
  c.remaining_sd_costs.length = c.num_operators ∧
    ∀ op_id, op_id < c.num_operators → BucketPartition (c.buckets op_id)

/-- The union of the buckets of a bucket map. -/
def bucket_union {σ : Type} [DecidableEq σ] (m : List (Int × Finset σ)) : Finset σ :=
  m.foldr (fun e acc => e.2 ∪ acc) ∅

/-- The keys of a `map<int, BDD>` are strictly ascending. -/
def KeysAscending {σ : Type} (m : BucketMap σ) : Prop :=
  m.Pairwise (fun e f => e.1 < f.1)

/-- No bucket is the empty set. -/
def BucketsNonempty {σ : Type} (m : BucketMap σ) : Prop :=
  ∀ e ∈ m, e.2 ≠ ∅

/-- The buckets are pairwise disjoint. -/
def BucketsDisjoint {σ : Type} (m : List (Int × Finset σ)) : Prop :=
  m.Pairwise (fun e f => Disjoint e.2 f.2)

/-- The state of a `CostFunctionStateDependent` is well formed: one bucket map and one
useless flag per operator, each map with ascending keys (it is a `std::map`) and each a
partition of the concrete states. -/
def CostFunctionStateDependent.WellFormed {σ : Type} [DecidableEq σ] [Fintype σ]
    (c : CostFunctionStateDependent σ) : Prop :=
  c.remaining_sd_costs.length = c.num_operators ∧
    c.useless_operators.length = c.num_operators ∧
    ∀ op_id, op_id < c.num_operators →
      KeysAscending (c.buckets op_id) ∧ BucketPartition (c.buckets op_id)

/-- A bucket map in the form every operation leaves it in: ascending keys, no empty
bucket, pairwise disjoint buckets. -/
def Canon {σ : Type} (m : BucketMap σ) : Prop :=
  KeysAscending m ∧ BucketsNonempty m ∧ BucketsDisjoint m

/-- The key `reduce_operator_costs(int, int)` moves the bucket of key `old_cost_value` to. -/
def reduce_key (saturated : Int) (old_cost_value : Int) : Int :=
  if old_cost_value = INF then INF else max 0 (left_subtraction old_cost_value saturated)

/-! ## Predicates on distance vectors -/

/-- The abstraction is well formed: the backward graph has one list per state and names
only states and operators that exist, and so do the goal states and the initial state. -/
def ExplicitAbstraction.WellFormed (a : ExplicitAbstraction) : Prop :=
  a.backward_graph.length = a.num_states ∧
  (∀ v, ∀ s ∈ a.backward_graph.getD v [], s.target_id < a.num_states ∧
    s.op_id < a.num_operators) ∧
  (∀ g ∈ a.goal_states, g < a.num_states) ∧
  a.init_state_id < a.num_states ∧
  a.has_loop.length = a.num_operators

/-- The distance vector `d` is goal aware: no goal has a positive distance. -/
def GoalAware (a : ExplicitAbstraction) (d : List Int) : Prop :=
  ∀ g ∈ a.goal_states, vget d g ≤ 0

/-- The distance vector `d` admits no relaxation: for every transition the distance of
the source is at most `path_addition` of the distance of the target and the cost. -/
def Feasible (a : ExplicitAbstraction) (costs : List Int) (d : List Int) : Prop :=
  ∀ t ∈ a.for_each_transition,
    vget d t.source_id ≤ path_addition (vget d t.target_id) (vget costs t.op_id)

/-- A walk to a goal: `PathTo a costs vs c` says that `vs` is the list of states of a walk
along transitions of cost other than `INF` from the head of `vs` to a goal state, and `c`
is the sum of the costs of its transitions. -/
inductive PathTo (a : ExplicitAbstraction) (costs : List Int) : List Nat → Int → Prop
  | goal (g : Nat) : g ∈ a.goal_states → PathTo a costs [g] 0
  | step (t : Transition) (vs : List Nat) (c : Int) :
      t ∈ a.for_each_transition → vget costs t.op_id ≠ INF →
      PathTo a costs (t.target_id :: vs) c →
      PathTo a costs (t.source_id :: t.target_id :: vs) (c + vget costs t.op_id)

/-- Every entry of the cost function is nonnegative and at most `INF`. -/
def NonnegativeCosts (costs : List Int) : Prop :=
  ∀ c ∈ costs, 0 ≤ c ∧ c ≤ INF

/-- All arcs out of `v` in `graph` are relaxed in `d`. -/
def ArcsRelaxed (graph : List (List Successor)) (ocf : List Int) (d : List Int)
    (v : Nat) : Prop :=
  ∀ s ∈ graph.getD v [], vget ocf s.op_id ≠ INF →
    vget d s.target_id ≤ vget d v + vget ocf s.op_id

/-- The sum of the entries of a distance vector, the variant of the Dijkstra loop. -/
def distance_sum (d : List Int) : Nat := (d.map Int.toNat).sum

/-- The invariant of the `while` loop of `dijkstra_search_ocf` on `n` states: the distances
are between `0` and `INF`, every state of finite distance is either waiting in the queue
with its distance or has all its arcs relaxed, and every finite distance is realized
(`R v c`: there is a walk of cost `c` that justifies the distance `c` of `v`). -/
structure DijkstraInvariant (graph : List (List Successor)) (ocf : List Int)
    (R : Nat → Int → Prop) (n : Nat) (q : AdaptiveQueue) (d : List Int) : Prop where
  len : d.length = n
  bounds : ∀ v, 0 ≤ vget d v ∧ vget d v ≤ INF
  pend : ∀ v, v < n → vget d v ≠ INF → (vget d v, v) ∈ q ∨ ArcsRelaxed graph ocf d v
  real : ∀ v, v < n → vget d v ≠ INF → R v (vget d v)

/-- The vector `d` is a vector of goal distances for nonnegative costs: entries between
`0` and `INF`, goals at `0`, no relaxable transition, every finite entry the cost of a
walk to a goal. -/
structure GoalDistances (a : ExplicitAbstraction) (ocf : List Int) (d : List Int) :
    Prop where
  len : d.length = a.num_states
  bounds : ∀ v, 0 ≤ vget d v ∧ vget d v ≤ INF
  goals : ∀ g ∈ a.goal_states, vget d g = 0
  feasible : Feasible a ocf d
  real : ∀ v, v < a.num_states → vget d v ≠ INF → ∃ vs, PathTo a ocf (v :: vs) (vget d v)


/-- The Bellman-Ford callback would lower the distance of the source of `t`. -/
def Relaxable (costs : List Int) (d : List Int) (t : Transition) : Prop :=
  path_addition (vget d t.target_id) (vget costs t.op_id) < vget d t.source_id

instance (costs : List Int) (d : List Int) (t : Transition) :
    Decidable (Relaxable costs d t) := by
  unfold Relaxable
  exact inferInstance

/-- Every entry of `d` is between `0` and `INF` and every finite entry is the cost of a
walk to a goal. -/
structure Realized (a : ExplicitAbstraction) (costs : List Int) (d : List Int) : Prop where
  len : d.length = a.num_states
  bounds : ∀ v, 0 ≤ vget d v ∧ vget d v ≤ INF
  real : ∀ v, v < a.num_states → vget d v ≠ INF → ∃ vs, PathTo a costs (v :: vs) (vget d v)

/-- The vector `d` lies below the cost of every walk to a goal of at most `i` transitions. -/
def WalkBounded (a : ExplicitAbstraction) (costs : List Int) (d : List Int) (i : Nat) :
    Prop :=
  ∀ v vs c, PathTo a costs (v :: vs) c → vs.length ≤ i → vget d v ≤ c

/-- A region `G` of states with a potential `φ` for the costs: the region is closed under
transitions of cost other than `INF`; a transition out of the region into a state that
reaches a goal costs at least the drop of the potential and not `-INF`; the potential is at
most `0` at goals and at least `0` at states that reach a goal; and no walk from the region
that visits no state twice costs `INF` or more. -/
structure RegionCertificate (a : ExplicitAbstraction) (costs : List Int) (G : Nat → Prop)
    (φ : Nat → Int) : Prop where
  closed : ∀ t ∈ a.for_each_transition, vget costs t.op_id ≠ INF → G t.source_id →
    G t.target_id
  potential : ∀ t ∈ a.for_each_transition, vget costs t.op_id ≠ INF → G t.source_id →
    (∃ vs c, PathTo a costs (t.target_id :: vs) c) →
    φ t.source_id - φ t.target_id ≤ vget costs t.op_id ∧ vget costs t.op_id ≠ -INF
  goal : ∀ g ∈ a.goal_states, G g → φ g ≤ 0
  nonneg : ∀ v, G v → (∃ vs c, PathTo a costs (v :: vs) c) → 0 ≤ φ v
  no_overflow : ∀ v vs c, G v → PathTo a costs (v :: vs) c → (v :: vs).Nodup → c < INF

/-- Inside the region `G` every entry of `d` is `INF` or the cost of a walk to a goal. -/
structure RegionRealized (a : ExplicitAbstraction) (costs : List Int) (G : Nat → Prop)
    (d : List Int) : Prop where
  len : d.length = a.num_states
  upper : ∀ v, G v → vget d v ≤ INF
  real : ∀ v, G v → v < a.num_states →
    vget d v = INF ∨ ∃ vs, PathTo a costs (v :: vs) (vget d v)

/-- Inside the region `G` the vector `d` lies below the cost of every walk to a goal that
visits no state twice and has at most `i` transitions. -/
def RegionWalkBounded (a : ExplicitAbstraction) (costs : List Int) (G : Nat → Prop)
    (d : List Int) (i : Nat) : Prop :=
  ∀ v vs c, G v → PathTo a costs (v :: vs) c → (v :: vs).Nodup → vs.length ≤ i →
    vget d v ≤ c

/-- No walk to a goal that visits no state twice costs `INF` or more: the path sums of
the cost function stay inside the range of the finite values. -/
def NoOverflow (a : ExplicitAbstraction) (costs : List Int) : Prop :=
  ∀ v vs c, PathTo a costs (v :: vs) c → (v :: vs).Nodup → c < INF

/-! ## explicit_abstraction.cc: saturated costs, transition cost functions

`ABORT` ends a run: the functions that can reach one return `none` there. The `assert`
statements of the source are left out. -/

/-- The method `Abstraction::get_reachability_from_init`; `operator_costs` is
`task_info.get_operator_costs()`. -/
def ExplicitAbstraction.get_reachability_from_init (a : ExplicitAbstraction) (fuel : Nat)
    (operator_costs : List Int) : Option (List Bool) :=
  a.compute_reachability_from_state_ocf fuel operator_costs a.init_state_id

/-- The method `Abstraction::is_goal_state`. -/
def ExplicitAbstraction.is_goal_state (a : ExplicitAbstraction) (state_id : Nat) : Bool :=
  decide (state_id ∈ a.goal_states)

/-- The method `ExplicitAbstraction::compute_saturated_costs_ocf`. -/
def ExplicitAbstraction.compute_saturated_costs_ocf (a : ExplicitAbstraction)
    (h_values : List Int) : List Int :=
  let socf := (List.range a.num_operators).map fun op_id =>
    if bget a.has_loop op_id then (0 : Int) else -INF
  (List.range a.backward_graph.length).foldl
    (fun socf target =>
      let target_h := vget h_values target
      if target_h = INF ∨ target_h = -INF then socf
      else
        (a.backward_graph.getD target []).foldl
          (fun socf transition =>
            let src_h := vget h_values transition.target_id
            if src_h = INF ∨ src_h = -INF then socf
            else
              socf.set transition.op_id
                (max (vget socf transition.op_id) (src_h - target_h)))
          socf)
    socf

/-- The method `AbstractTransitionCostFunction::is_nonnegative`. -/
def AbstractTransitionCostFunction.is_nonnegative (tcf : AbstractTransitionCostFunction) :
    Bool :=
  tcf.sd_costs.all (fun c => decide (c ≥ 0)) && tcf.si_costs.all (fun c => decide (c ≥ 0))

/-- The method `ExplicitAbstraction::compute_saturated_costs_tcf`. -/
def ExplicitAbstraction.compute_saturated_costs_tcf (a : ExplicitAbstraction)
    (h_values : List Int) (stcf : AbstractTransitionCostFunction) :
    AbstractTransitionCostFunction :=
  let filled : AbstractTransitionCostFunction :=
    { sd_costs := stcf.sd_costs.map fun _ => -INF
      si := stcf.si.map fun _ => true
      si_costs := stcf.si_costs.map fun _ => -INF }
  let stcf := (List.range a.backward_graph.length).foldl
    (fun stcf target =>
      let target_h := vget h_values target
      if target_h = INF ∨ target_h = -INF then stcf
      else
        (a.backward_graph.getD target []).foldl
          (fun (stcf : AbstractTransitionCostFunction) transition =>
            let src_h := vget h_values transition.target_id
            if src_h = INF ∨ src_h = -INF then stcf
            else
              let op_id := transition.op_id
              let needed := src_h - target_h
              { sd_costs := stcf.sd_costs.set transition.transition_id needed
                si :=
                  if bget stcf.si op_id = true ∧ needed ≠ vget stcf.si_costs op_id ∧
                      vget stcf.si_costs op_id ≠ -INF
                  then stcf.si.set op_id false else stcf.si
                si_costs := stcf.si_costs.set op_id (max needed (vget stcf.si_costs op_id)) })
          stcf)
    filled
  (List.range a.num_operators).foldl
    (fun (stcf : AbstractTransitionCostFunction) op_id =>
      if bget a.has_loop op_id then
        { sd_costs := stcf.sd_costs
          si :=
            if vget stcf.si_costs op_id ≠ 0 ∧ vget stcf.si_costs op_id ≠ -INF
            then stcf.si.set op_id false else stcf.si
          si_costs := stcf.si_costs.set op_id (max 0 (vget stcf.si_costs op_id)) }
      else stcf)
    stcf

/-- The body of the `for` loop of `dijkstra_search_tcf(graph, tcf, queue, distances)` for
one arc out of `state`. -/
def dijkstra_relax_tcf (sd_costs : List Int) (state_distance : Int)
    (acc : List Int × AdaptiveQueue) (transition : Successor) : List Int × AdaptiveQueue :=
  let successor := transition.target_id
  let cost := vget sd_costs transition.transition_id
  let successor_distance := if cost = INF then INF else state_distance + cost
  if vget acc.1 successor > successor_distance then
    (acc.1.set successor successor_distance, AdaptiveQueue.push acc.2 successor_distance successor)
  else acc

/-- The static function `dijkstra_search_tcf(graph, tcf, queue, distances)`; one unit of
fuel per iteration of the `while` loop. -/
def dijkstra_search_tcf (graph : List (List Successor)) (sd_costs : List Int) :
    Nat → AdaptiveQueue → List Int → Option (List Int)
  | 0, _, _ => none
  | fuel + 1, queue, distances =>
    match AdaptiveQueue.pop queue with
    | none => some distances
    | some ((distance, state), queue) =>
      let state_distance := vget distances state
      if distance > state_distance then
        dijkstra_search_tcf graph sd_costs fuel queue distances
      else
        let r := (graph.getD state []).foldl (dijkstra_relax_tcf sd_costs state_distance)
          (distances, queue)
        dijkstra_search_tcf graph sd_costs fuel r.2 r.1

/-- The method `ExplicitAbstraction::compute_goal_distances_for_non_negative_costs_tcf(tcf)`,
which is `Abstraction::compute_goal_distances_tcf(tcf)`. -/
def ExplicitAbstraction.compute_goal_distances_tcf (a : ExplicitAbstraction) (fuel : Nat)
    (tcf : AbstractTransitionCostFunction) : Option (List Int) :=
  let i := init_goal_distances a
  dijkstra_search_tcf a.backward_graph tcf.sd_costs fuel i.2 i.1

/-- The method `ExplicitAbstraction::compute_reachability_from_state_tcf`. -/
def ExplicitAbstraction.compute_reachability_from_state_tcf (a : ExplicitAbstraction)
    (fuel : Nat) (tcf : AbstractTransitionCostFunction) (state_id : Nat) :
    Option (List Bool) :=
  (dijkstra_search_tcf (generate_forward_graph a.backward_graph) tcf.sd_costs fuel
    [(0, state_id)] ((List.replicate a.num_states INF).set state_id 0)).map
    (distances_to_reachability a.num_states)

/-- The method `CostFunctionStateDependent::determine_remaining_costs_operator(op_id)`: the
least key of the bucket map. -/
def CostFunctionStateDependent.determine_remaining_costs_operator {σ : Type}
    (c : CostFunctionStateDependent σ) (op_id : Nat) : Int :=
  match c.buckets op_id with
  | [] => 0
  | p :: _ => p.1

/-- The loop of `determine_remaining_costs_transition(abstraction, transition)`: the key of
the first bucket that meets the fingerprint, the last key if none does, `cost` on the
empty map. -/
def first_intersecting_key {σ : Type} [DecidableEq σ] (transition_bdd : Finset σ) :
    Int → BucketMap σ → Int
  | cost, [] => cost
  | _, p :: rest =>
    if p.2 ∩ transition_bdd ≠ ∅ then p.1
    else first_intersecting_key transition_bdd p.1 rest

/-- The loop of `determine_remaining_costs_transition(abstraction, transition, required)`:
as `first_intersecting_key`, but a key of at least `required` ends the loop too. -/
def first_intersecting_key_required {σ : Type} [DecidableEq σ] (transition_bdd : Finset σ)
    (required : Int) : Int → BucketMap σ → Int
  | cost, [] => cost
  | _, p :: rest =>
    if p.1 ≥ required then p.1
    else if p.2 ∩ transition_bdd ≠ ∅ then p.1
    else first_intersecting_key_required transition_bdd required p.1 rest

/-- The method
`CostFunctionStateDependent::determine_remaining_costs_transition(abstraction, transition)`;
`make_transition_bdd` is the fingerprint the abstraction builds for a transition. -/
def CostFunctionStateDependent.determine_remaining_costs_transition {σ : Type}
    [DecidableEq σ] (c : CostFunctionStateDependent σ) (a : ExplicitAbstraction)
    (make_transition_bdd : Transition → Finset σ) (transition : Transition) : Int :=
  if a.is_goal_state transition.source_id then 0
  else first_intersecting_key (make_transition_bdd transition) (-1) (c.buckets transition.op_id)

/-- The method `CostFunctionStateDependent::determine_remaining_costs_transition(abstraction,
transition, required)`. -/
def CostFunctionStateDependent.determine_remaining_costs_transition_required {σ : Type}
    [DecidableEq σ] (c : CostFunctionStateDependent σ) (a : ExplicitAbstraction)
    (make_transition_bdd : Transition → Finset σ) (transition : Transition)
    (required : Int) : Int :=
  if a.is_goal_state transition.source_id then 0
  else first_intersecting_key_required (make_transition_bdd transition) required (-1)
    (c.buckets transition.op_id)

/-- The method
`CostFunctionStateDependent::determine_remaining_abstract_transition_cost_function`. -/
def CostFunctionStateDependent.determine_remaining_abstract_transition_cost_function
    {σ : Type} [DecidableEq σ] (c : CostFunctionStateDependent σ) (a : ExplicitAbstraction)
    (make_transition_bdd : Transition → Finset σ) (tcf : AbstractTransitionCostFunction) :
    AbstractTransitionCostFunction :=
  { tcf with
    sd_costs := a.for_each_transition.foldl
      (fun sd_costs transition =>
        sd_costs.set transition.transition_id
          (c.determine_remaining_costs_transition a make_transition_bdd transition))
      tcf.sd_costs }

/-- The body of the `for` loop of `dijkstra_search_tcf(abstraction, graph, sdac, tcf, queue,
distances)` for one arc out of `state`; the accumulator holds the distances, the queue and
`sd_costs`. -/
def dijkstra_relax_sdac {σ : Type} [DecidableEq σ] (a : ExplicitAbstraction)
    (sdac : CostFunctionStateDependent σ) (make_transition_bdd : Transition → Finset σ)
    (state : Nat) (state_distance : Int) (acc : List Int × AdaptiveQueue × List Int)
    (transition : Successor) : List Int × AdaptiveQueue × List Int :=
  let distances := acc.1
  let successor := transition.target_id
  let required := vget distances successor - vget distances state
  let op_id := transition.op_id
  let cost :=
    if required > 0 then
      let cost := sdac.determine_remaining_costs_operator op_id
      if cost < required then
        sdac.determine_remaining_costs_transition_required a make_transition_bdd
          { transition_id := transition.transition_id, op_id := op_id,
            source_id := successor, target_id := state } required
      else cost
    else 0
  let sd_costs := acc.2.2.set transition.transition_id cost
  let successor_distance := if cost = INF then INF else state_distance + cost
  if vget distances successor > successor_distance then
    (distances.set successor successor_distance,
      AdaptiveQueue.push acc.2.1 successor_distance successor, sd_costs)
  else (distances, acc.2.1, sd_costs)

/-- The `while` loop of `dijkstra_search_tcf(abstraction, graph, sdac, tcf, queue,
distances)`; it returns the distances and `sd_costs`. -/
def dijkstra_search_sdac {σ : Type} [DecidableEq σ] (a : ExplicitAbstraction)
    (graph : List (List Successor)) (sdac : CostFunctionStateDependent σ)
    (make_transition_bdd : Transition → Finset σ) :
    Nat → AdaptiveQueue → List Int → List Int → Option (List Int × List Int)
  | 0, _, _, _ => none
  | fuel + 1, queue, distances, sd_costs =>
    match AdaptiveQueue.pop queue with
    | none => some (distances, sd_costs)
    | some ((distance, state), queue) =>
      let state_distance := vget distances state
      if distance > state_distance then
        dijkstra_search_sdac a graph sdac make_transition_bdd fuel queue distances sd_costs
      else
        let r := (graph.getD state []).foldl
          (dijkstra_relax_sdac a sdac make_transition_bdd state state_distance)
          (distances, queue, sd_costs)
        dijkstra_search_sdac a graph sdac make_transition_bdd fuel r.2.1 r.1 r.2.2

/-- The method
`ExplicitAbstraction::compute_goal_distances_for_non_negative_costs_tcf(sdac, tcf)`, which
is `Abstraction::compute_goal_distances_tcf(sdac, tcf)`: the distances and the transition
cost function with the costs the search looked up. -/
def ExplicitAbstraction.compute_goal_distances_sdac {σ : Type} [DecidableEq σ]
    (a : ExplicitAbstraction) (fuel : Nat) (sdac : CostFunctionStateDependent σ)
    (make_transition_bdd : Transition → Finset σ) (tcf : AbstractTransitionCostFunction) :
    Option (List Int × AbstractTransitionCostFunction) :=
  let i := init_goal_distances a
  (dijkstra_search_sdac a a.backward_graph sdac make_transition_bdd fuel i.2 i.1
    (tcf.sd_costs.map fun _ => 0)).map
    fun r => (r.1, { tcf with sd_costs := r.2 })

/-! ## saturator.cc, saturator_cap.cc -/

/-- The enumeration `Reachable`. -/
inductive Reachable where
  | ALL
  | FROM_INIT
  | FROM_STATE
deriving DecidableEq, Repr

/-- The options of `SaturatorCap`, with those of its base class `Saturator`. -/
structure SaturatorCap where
  use_general_costs : Bool
  recompute_h_values : Bool
  reachable : Reachable
  cap : Bool
  spd : Bool
  saturate_negative_infinity : Bool
deriving DecidableEq, Repr

/-- The struct `SaturatorResultOcf`. -/
structure SaturatorResultOcf where
  socf : List Int
  h_values : List Int
  saturate_negative_infinity : Bool
deriving DecidableEq, Repr

/-- The struct `SaturatorResultTcf`. -/
structure SaturatorResultTcf where
  stcf : AbstractTransitionCostFunction
  h_values : List Int
  saturate_negative_infinity : Bool
deriving DecidableEq, Repr

/-- The static function `cap_h_values`. -/
def cap_h_values (max_value : Int) (h_values : List Int) : List Int :=
  h_values.map fun h => if h ≠ INF then min h max_value else h

/-- The loop `if (!reachability[i] && h_values[i] != INF) h_values[i] = -INF` over the
states. -/
def prune_unreachable (num_states : Nat) (reachability : List Bool) (h_values : List Int) :
    List Int :=
  (List.range num_states).foldl
    (fun h_values i =>
      if bget reachability i = false ∧ vget h_values i ≠ INF then h_values.set i (-INF)
      else h_values)
    h_values

/-- The loop of `saturate_ocf` under `!use_general_costs`: every entry is raised to at
least `0`; `none` (`ABORT`) when an entry then exceeds the remaining cost. -/
def clamp_saturated_costs (ocf : List Int) (socf : List Int) : Option (List Int) :=
  (List.range socf.length).foldlM
    (fun socf op_id =>
      let remaining := vget ocf op_id
      let saturated := max 0 (vget socf op_id)
      if saturated > remaining then none else some (socf.set op_id saturated))
    socf

/-- The method `Saturator::get_saturator_result_ocf`. -/
def SaturatorCap.get_saturator_result_ocf (s : SaturatorCap) (a : ExplicitAbstraction)
    (fuel : Nat) (ocf : List Int) (socf : List Int) (h_values : List Int)
    (saturate_negative_infinity : Bool) : Option SaturatorResultOcf :=
  let socf := (List.range ocf.length).foldl
    (fun socf op_id => if vget ocf op_id = INF then socf.set op_id INF else socf) socf
  if s.recompute_h_values then
    match a.compute_goal_distances_ocf fuel socf with
    | none => none
    | some new_h_values =>
      let new_h_values :=
        if s.reachable ≠ Reachable.ALL then
          (List.range a.num_states).foldl
            (fun new_h_values source_id =>
              if vget h_values source_id = -INF then new_h_values.set source_id (-INF)
              else new_h_values)
            new_h_values
        else new_h_values
      some { socf := socf, h_values := new_h_values,
             saturate_negative_infinity := saturate_negative_infinity }
  else
    some { socf := socf, h_values := h_values,
           saturate_negative_infinity := saturate_negative_infinity }

/-- The method `SaturatorCap::saturate_ocf`; `operator_costs` is
`task_info.get_operator_costs()`, which `get_reachability_from_init` reads. -/
def SaturatorCap.saturate_ocf (s : SaturatorCap) (a : ExplicitAbstraction) (fuel : Nat)
    (operator_costs : List Int) (ocf : List Int) (h_values : List Int) (state_id : Nat) :
    Option SaturatorResultOcf :=
  let state_h := vget h_values state_id
  let capped : Option (List Int) :=
    if s.cap then
      if ocf.all (fun c => decide (c ≥ 0 ∨ c = -INF)) then some (cap_h_values state_h h_values)
      else none
    else some h_values
  capped.bind fun h_values =>
  let pruned : Option (List Int) :=
    match s.reachable with
    | Reachable.FROM_STATE =>
      (a.compute_reachability_from_state_ocf fuel
        (compute_reachability_cost_function ocf) state_id).map
        fun reachability => prune_unreachable a.num_states reachability h_values
    | Reachable.FROM_INIT =>
      (a.get_reachability_from_init fuel operator_costs).map
        fun reachability => prune_unreachable a.num_states reachability h_values
    | Reachable.ALL => some h_values
  pruned.bind fun h_values =>
  let socf := a.compute_saturated_costs_ocf h_values
  let clamped : Option (List Int) :=
    if s.use_general_costs then some socf
    else if ocf.all (fun c => decide (c ≥ 0)) then clamp_saturated_costs ocf socf
    else none
  clamped.bind fun socf =>
  s.get_saturator_result_ocf a fuel ocf socf h_values s.saturate_negative_infinity

/-- The method `SaturatorCap::saturate_tcf`; `make_transition_bdd` is the fingerprint the
abstraction builds for a transition, `operator_costs` is `task_info.get_operator_costs()`. -/
def SaturatorCap.saturate_tcf {σ : Type} [DecidableEq σ] (s : SaturatorCap)
    (a : ExplicitAbstraction) (fuel : Nat) (operator_costs : List Int)
    (make_transition_bdd : Transition → Finset σ) (tcf : AbstractTransitionCostFunction)
    (sdac : CostFunctionStateDependent σ) (h_values : List Int) (state_id : Nat) :
    Option SaturatorResultTcf :=
  let is_first_saturator_in_chain := h_values.isEmpty
  let first : Option (List Int × AbstractTransitionCostFunction) :=
    if h_values.isEmpty then
      if s.spd then a.compute_goal_distances_sdac fuel sdac make_transition_bdd tcf
      else
        let tcf := sdac.determine_remaining_abstract_transition_cost_function a
          make_transition_bdd tcf
        (a.compute_goal_distances_tcf fuel tcf).map fun h_values => (h_values, tcf)
    else some (h_values, tcf)
  first.bind fun (h_values, tcf) =>
  let state_h := vget h_values state_id
  let capped : Option (List Int) :=
    if s.cap then
      if !is_first_saturator_in_chain && !tcf.is_nonnegative then none
      else some (cap_h_values state_h h_values)
    else some h_values
  capped.bind fun h_values =>
  let pruned : Option (List Int) :=
    match s.reachable with
    | Reachable.FROM_INIT =>
      (a.get_reachability_from_init fuel operator_costs).map
        fun reachability => prune_unreachable a.num_states reachability h_values
    | Reachable.FROM_STATE =>
      (a.compute_reachability_from_state_tcf fuel tcf state_id).map
        fun reachability => prune_unreachable a.num_states reachability h_values
    | Reachable.ALL => some h_values
  pruned.bind fun h_values =>
  some { stcf := a.compute_saturated_costs_tcf h_values tcf, h_values := h_values,
         saturate_negative_infinity := s.saturate_negative_infinity }

/-! ## Predicates on saturated costs -/

/-- The value `x` is neither `INF` nor `-INF`. -/
def IsFinite (x : Int) : Prop := x ≠ INF ∧ x ≠ -INF

instance (x : Int) : Decidable (IsFinite x) := by
  unfold IsFinite
  exact inferInstance

/-- What the two nested loops of `compute_saturated_costs_ocf` do for one transition. -/
def saturate_step (h_values : List Int) (socf : List Int) (t : Transition) : List Int :=
  if IsFinite (vget h_values t.target_id) ∧ IsFinite (vget h_values t.source_id) then
    socf.set t.op_id (max (vget socf t.op_id) (vget h_values t.source_id - vget h_values t.target_id))
  else socf

/-- The abstraction with every arc turned round and `state_id` as its only goal: its goal
distances are the distances from `state_id` that the reachability methods compute. -/
def ExplicitAbstraction.reversed (a : ExplicitAbstraction) (state_id : Nat) :
    ExplicitAbstraction :=
  { a with
    goal_states := [state_id]
    backward_graph := generate_forward_graph a.backward_graph }

/-! ## transition_cost_partitioning: cost_partitioning_heuristic.cc

The class `CostPartitioningHeuristic`; the functions of `cost_saturation` below fill and
evaluate the class of this name. -/

/-- The struct `LookupTable` of a cost-partitioning heuristic. -/
structure LookupTable where
  abstraction_id : Nat
  h_values : List Int
deriving DecidableEq, Repr

/-- The class `CostPartitioningHeuristic`: its lookup tables in stored order. -/
structure CostPartitioningHeuristic where
  lookup_tables : List LookupTable
deriving DecidableEq, Repr

/-- The method `CostPartitioningHeuristic::get_lookup_table_index`; `none` is `-1`. -/
def CostPartitioningHeuristic.get_lookup_table_index (cp : CostPartitioningHeuristic)
    (abstraction_id : Nat) : Option Nat :=
  let i := cp.lookup_tables.findIdx fun table => decide (table.abstraction_id = abstraction_id)
  if i < cp.lookup_tables.length then some i else none

/-- The loop of `add_h_values` that sums an old and a new lookup table. -/
def sum_lookup_tables (old_h_values h_values : List Int) : List Int :=
  (List.range h_values.length).foldl
    (fun old i => old.set i (left_addition (vget old i) (vget h_values i)))
    old_h_values

/-- The method `CostPartitioningHeuristic::add_h_values`. -/
def CostPartitioningHeuristic.add_h_values (cp : CostPartitioningHeuristic)
    (abstraction_id : Nat) (h_values : List Int) : CostPartitioningHeuristic :=
  if h_values.any (fun h => decide (h ≠ 0)) then
    match cp.get_lookup_table_index abstraction_id with
    | none =>
      { lookup_tables := cp.lookup_tables ++ [{ abstraction_id := abstraction_id,
                                                 h_values := h_values }] }
    | some lookup_table_id =>
      { lookup_tables := cp.lookup_tables.modify
          (fun table => { table with h_values := sum_lookup_tables table.h_values h_values })
          lookup_table_id }
  else cp

/-- The loop of `compute_heuristic` from the given tables on, with the sum so far. -/
def compute_heuristic_from (abstract_state_ids : List Nat) : List LookupTable → Int → Int
  | [], sum_h => max 0 sum_h
  | lookup_table :: rest, sum_h =>
    let state_id := abstract_state_ids.getD lookup_table.abstraction_id 0
    let h := vget lookup_table.h_values state_id
    if h = -INF ∨ h = INF then h
    else compute_heuristic_from abstract_state_ids rest (sum_h + h)

/-- The method `CostPartitioningHeuristic::compute_heuristic`. -/
def CostPartitioningHeuristic.compute_heuristic (cp : CostPartitioningHeuristic)
    (abstract_state_ids : List Nat) : Int :=
  compute_heuristic_from abstract_state_ids cp.lookup_tables 0

/-! ## cost_saturation: abstraction.cc, explicit_abstraction.cc

The class `cost_saturation::ExplicitAbstraction` is modelled by `ExplicitAbstraction` too:
its `Successor` is the pair `(op, state)` (no transition id), `get_num_states()` is
`backward_graph.size()` and `get_num_operators()` is `looping_operators.size()`, which a
well-formed abstraction has equal to the fields `num_states` and `num_operators`;
`looping_operators` is the field `has_loop`. The functions `dijkstra_search`,
`compute_goal_distances_for_non_negative_costs` and `compute_saturated_costs` have the
bodies of `dijkstra_search_ocf`, `compute_goal_distances_for_non_negative_costs_ocf` and
`compute_saturated_costs_ocf`. -/

/-- The function `get_forward_graph` of cost_saturation/abstraction.cc. -/
def get_forward_graph (a : ExplicitAbstraction) : List (List Successor) :=
  a.for_each_transition.foldl
    (fun forward_graph t =>
      forward_graph.set t.source_id
        (forward_graph.getD t.source_id [] ++
          [{ transition_id := t.transition_id, op_id := t.op_id, target_id := t.target_id }]))
    (List.replicate a.num_states [])

/-- The body of the `for` loop of the reachability searches for one arc: the stack `open`
(its back is the head of the list) and the marks. -/
def reachability_visit (costs : List Int) (acc : List Nat × List Bool)
    (successor : Successor) : List Nat × List Bool :=
  if bget acc.2 successor.target_id = false ∧ vget costs successor.op_id ≠ INF then
    (successor.target_id :: acc.1, acc.2.set successor.target_id true)
  else acc

/-- The loop `while (!open.empty())` of `compute_reachability_from_state` and
`compute_reachability_to_state`; one unit of fuel per iteration. -/
def reachability_search (graph : List (List Successor)) (costs : List Int) :
    Nat → List Nat → List Bool → Option (List Bool)
  | 0, _, _ => none
  | _ + 1, [], reachable => some reachable
  | fuel + 1, current_state :: open_, reachable =>
    let r := (graph.getD current_state []).foldl (reachability_visit costs) (open_, reachable)
    reachability_search graph costs fuel r.1 r.2

/-- The method `cost_saturation::ExplicitAbstraction::compute_reachability_from_state`. -/
def ExplicitAbstraction.compute_reachability_from_state (a : ExplicitAbstraction)
    (fuel : Nat) (costs : List Int) (state_id : Nat) : Option (List Bool) :=
  reachability_search (get_forward_graph a) costs fuel [state_id]
    ((List.replicate a.num_states false).set state_id true)

/-- The method `cost_saturation::ExplicitAbstraction::compute_reachability_to_state`. -/
def ExplicitAbstraction.compute_reachability_to_state (a : ExplicitAbstraction)
    (fuel : Nat) (costs : List Int) (state_id : Nat) : Option (List Bool) :=
  reachability_search a.backward_graph costs fuel [state_id]
    ((List.replicate a.num_states false).set state_id true)

/-- The method `cost_saturation::Abstraction::compute_goal_distances_for_general_costs`. -/
def ExplicitAbstraction.compute_goal_distances_for_general_costs (a : ExplicitAbstraction)
    (fuel : Nat) (costs : List Int) : Option (List Int) :=
  bellman_ford_restart a a.compute_reachability_to_state costs fuel
    (List.replicate a.num_states INF)

/-- The method `cost_saturation::Abstraction::compute_goal_distances`. -/
def ExplicitAbstraction.compute_goal_distances (a : ExplicitAbstraction) (fuel : Nat)
    (costs : List Int) : Option (List Int) :=
  if costs.all (fun c => decide (c ≥ 0)) then
    a.compute_goal_distances_for_non_negative_costs_ocf fuel costs
  else
    a.compute_goal_distances_for_general_costs fuel costs

namespace cost_saturation

/-! ## cost_saturation: saturator.cc, saturator_cap.cc, utils.cc -/

/-- The struct `cost_saturation::SaturatorResult`. -/
structure SaturatorResult where
  saturated_costs : List Int
  h_values : List Int
deriving DecidableEq, Repr

/-- The data members of `cost_saturation::SaturatorCap`, with those of its base class. -/
structure SaturatorCap where
  use_general_costs : Bool
  recompute_h_values : Bool
  reachable : Reachable
  cap : Bool
  unreachable_from_init : List (List Nat)
deriving DecidableEq, Repr

/-- The list of the states that a reachability vector does not mark. -/
def unreachable_states (num_states : Nat) (reachable_from_init : List Bool) : List Nat :=
  (List.range num_states).filter fun state_id => !bget reachable_from_init state_id

/-- The method `SaturatorCap::initialize`; `initial_state_ids` holds
`abstraction->get_abstract_state_id(initial_state)` for every abstraction. -/
def SaturatorCap.initialize (s : SaturatorCap) (abstractions : List ExplicitAbstraction)
    (fuel : Nat) (costs : List Int) (initial_state_ids : List Nat) : Option SaturatorCap :=
  if s.reachable = Reachable.FROM_INIT then
    ((abstractions.zip initial_state_ids).foldlM
      (fun (unreachable_from_init : List (List Nat)) (p : ExplicitAbstraction × Nat) =>
        (p.1.compute_reachability_from_state fuel costs p.2).map fun reachable_from_init =>
          unreachable_from_init ++ [unreachable_states p.1.num_states reachable_from_init])
      s.unreachable_from_init).map
      fun unreachable_from_init => { s with unreachable_from_init := unreachable_from_init }
  else some s

/-- The loop of `saturate` over the states that are unreachable from the initial state. -/
def prune_listed (unreachable : List Nat) (h_values : List Int) : List Int :=
  unreachable.foldl
    (fun h_values unreachable_state =>
      if vget h_values unreachable_state ≠ INF then h_values.set unreachable_state (-INF)
      else h_values)
    h_values

/-- The method `cost_saturation::Saturator::get_saturator_result`. -/
def SaturatorCap.get_saturator_result (s : SaturatorCap) (a : ExplicitAbstraction)
    (fuel : Nat) (costs : List Int) (saturated_costs : List Int) (h_values : List Int)
    (state_h : Int) : Option SaturatorResult :=
  let saturated_costs := (List.range costs.length).foldl
    (fun saturated_costs i =>
      if vget costs i = INF then saturated_costs.set i INF else saturated_costs)
    saturated_costs
  if s.recompute_h_values = true ∧ state_h > 0 then
    match a.compute_goal_distances fuel saturated_costs with
    | none => none
    | some new_h_values =>
      some { saturated_costs := saturated_costs,
             h_values := (List.range a.num_states).foldl
               (fun new_h_values source_id =>
                 if vget h_values source_id = -INF then new_h_values.set source_id (-INF)
                 else new_h_values)
               new_h_values }
  else
    some { saturated_costs := saturated_costs, h_values := h_values }

/-- The method `cost_saturation::SaturatorCap::saturate`. -/
def SaturatorCap.saturate (s : SaturatorCap) (a : ExplicitAbstraction)
    (abstraction_id : Nat) (fuel : Nat) (costs : List Int) (h_values : List Int)
    (state_id : Nat) : Option SaturatorResult :=
  let state_h := vget h_values state_id
  let capped : Option (List Int) :=
    if s.cap then
      if costs.all (fun c => decide (c ≥ 0 ∨ c = -INF)) then
        some (cap_h_values state_h h_values)
      else none
    else some h_values
  capped.bind fun h_values =>
  let pruned : Option (List Int) :=
    match s.reachable with
    | Reachable.FROM_INIT =>
      some (prune_listed (s.unreachable_from_init.getD abstraction_id []) h_values)
    | Reachable.FROM_STATE =>
      (a.compute_reachability_from_state fuel
        (compute_reachability_cost_function costs) state_id).map
        fun reachable_from_state => prune_unreachable a.num_states reachable_from_state h_values
    | Reachable.ALL => some h_values
  pruned.bind fun h_values =>
  let saturated_costs := a.compute_saturated_costs_ocf h_values
  let clamped : Option (List Int) :=
    if s.use_general_costs then some saturated_costs
    else if costs.all (fun c => decide (c ≥ 0)) then
      some (saturated_costs.map fun c => max 0 c)
    else none
  clamped.bind fun saturated_costs =>
  s.get_saturator_result a fuel costs saturated_costs h_values state_h

/-- The function `cost_saturation::reduce_costs`; `none` is the `ABORT`. The difference
`remaining - saturated` is the exact one, the value of the source where the subtraction of
`int` does not overflow. -/
def reduce_costs (remaining_costs saturated_costs : List Int) : Option (List Int) :=
  (List.range remaining_costs.length).foldlM
    (fun remaining_costs i =>
      let remaining := vget remaining_costs i
      let saturated := vget saturated_costs i
      if saturated > remaining then none
      else if remaining = INF ∨ remaining = -INF then some remaining_costs
      else if saturated = -INF then some (remaining_costs.set i INF)
      else some (remaining_costs.set i (remaining - saturated)))
    remaining_costs

/-- The body of the loop of `compute_saturated_cost_partitioning_with_saturators` for one
abstraction of the order; the state is the heuristic built so far and the remaining
costs. An abstraction id outside the vector of abstractions ends the run. -/
def saturate_abstraction (abstractions : List ExplicitAbstraction)
    (saturators : List SaturatorCap) (fuel : Nat) (abstract_state_ids : List Nat)
    (acc : CostPartitioningHeuristic × List Int) (abstraction_id : Nat) :
    Option (CostPartitioningHeuristic × List Int) :=
  match abstractions[abstraction_id]? with
  | none => none
  | some abstraction =>
    let state_id := abstract_state_ids.getD abstraction_id 0
    let saturated_costs := acc.2
    (abstraction.compute_goal_distances fuel saturated_costs).bind fun h_values =>
    (saturators.foldlM
      (fun (r : SaturatorResult) (saturator : SaturatorCap) =>
        saturator.saturate abstraction abstraction_id fuel r.saturated_costs r.h_values
          state_id)
      { saturated_costs := saturated_costs, h_values := h_values }).bind fun result =>
    (reduce_costs acc.2 result.saturated_costs).map fun remaining_costs =>
      (acc.1.add_h_values abstraction_id result.h_values, remaining_costs)

/-- The function `compute_saturated_cost_partitioning_with_saturators`: the heuristic and
the remaining costs it leaves in its reference parameter. -/
def compute_saturated_cost_partitioning_with_saturators
    (abstractions : List ExplicitAbstraction) (order : List Nat)
    (saturators : List SaturatorCap) (fuel : Nat) (remaining_costs : List Int)
    (abstract_state_ids : List Nat) : Option (CostPartitioningHeuristic × List Int) :=
  order.foldlM (saturate_abstraction abstractions saturators fuel abstract_state_ids)
    ({ lookup_tables := [] }, remaining_costs)

end cost_saturation

/-! ## Planning tasks and homomorphic abstractions -/

/-- A planning task as a labelled transition system over the concrete states `S`:
the costs of its operators, its transitions `s -op-> s'` and its goal states. -/
structure PlanningTask (S : Type) where
  operator_costs : List Int
  transition : S → Nat → S → Prop
  is_goal : S → Prop

/-- The relation `Plan task s ops c`: the operator sequence `ops` leads from `s` to a goal
state, and `c` is the sum of the costs of its operators. -/
inductive Plan {S : Type} (task : PlanningTask S) : S → List Nat → Int → Prop
  | goal (s : S) : task.is_goal s → Plan task s [] 0
  | step (s : S) (op : Nat) (s' : S) (ops : List Nat) (c : Int) :
      task.transition s op s' → Plan task s' ops c →
      Plan task s (op :: ops) (c + vget task.operator_costs op)

/-- The abstraction `a` with the abstraction function `α` is a homomorphic image of the
task: one operator of the abstraction per operator of the task, every concrete state is
mapped to a state of the abstraction, every concrete transition is mapped to a transition
of the abstraction with the same operator, or to a self-loop of an operator that the
abstraction records as looping, and goal states are mapped to goal states. -/
structure Homomorphic {S : Type} (task : PlanningTask S) (a : ExplicitAbstraction)
    (α : S → Nat) : Prop where
  operators : a.num_operators = task.operator_costs.length
  state : ∀ s, α s < a.num_states
  transition : ∀ s op s', task.transition s op s' →
    op < a.num_operators ∧
    ((α s = α s' ∧ bget a.has_loop op = true) ∨
      ∃ t ∈ a.for_each_transition, t.op_id = op ∧ t.source_id = α s ∧ t.target_id = α s')
  goal : ∀ s, task.is_goal s → α s ∈ a.goal_states

/-- The function template `get_abstract_state_ids` of cost_saturation/utils.h, on the
abstraction functions `get_abstract_state_id` of the (useful) abstractions. -/
def get_abstract_state_ids {S : Type} (abstraction_functions : List (S → Nat))
    (state : S) : List Nat :=
  abstraction_functions.map fun get_abstract_state_id => get_abstract_state_id state

/-- The sum of the entries of a cost function over a sequence of operators. -/
def operator_sum (costs : List Int) (ops : List Nat) : Int :=
  (ops.map fun op => vget costs op).sum

/-- The lookup tables hold finite values at the given abstract state ids, of sum `S`: the
loop of `compute_heuristic` passes them and adds `S` to its sum. -/
def TablesSum (abstract_state_ids : List Nat) (tables : List LookupTable) (S : Int) : Prop :=
  ∀ rest sum_h, compute_heuristic_from abstract_state_ids (tables ++ rest) sum_h
    = compute_heuristic_from abstract_state_ids rest (sum_h + S)

/-- The first infinite value of the lookup tables at the given abstract state ids is
`-INF`: the loop of `compute_heuristic` returns `-INF`, whatever tables follow. -/
def TablesNegInf (abstract_state_ids : List Nat) (tables : List LookupTable) : Prop :=
  ∀ rest sum_h, compute_heuristic_from abstract_state_ids (tables ++ rest) sum_h = -INF

/-- The invariant of the loop of `compute_saturated_cost_partitioning_with_saturators`
for a plan `ops` of cost `c` from a state with the abstract state ids `ids`, after the
abstractions `processed`: the remaining costs are nonnegative and, where finite, at most
`B`; every lookup table belongs to a processed abstraction; and either the evaluation of
the tables at `ids` returns `-INF`, or the tables hold finite values at `ids` whose sum,
together with the remaining costs of the operators of the plan, is at most `c`. -/
structure PartitionInvariant (costs : List Int) (B : Int) (processed : List Nat)
    (ids : List Nat) (ops : List Nat) (c : Int)
    (st : CostPartitioningHeuristic × List Int) : Prop where
  len : st.2.length = costs.length
  nonneg : ∀ op, 0 ≤ vget st.2 op
  bounded : ∀ op, vget st.2 op = INF ∨ vget st.2 op ≤ B
  tables : ∀ table ∈ st.1.lookup_tables, table.abstraction_id ∈ processed
  value : TablesNegInf ids st.1.lookup_tables ∨
    ∃ S, TablesSum ids st.1.lookup_tables S ∧ 0 ≤ S ∧
      (∀ op ∈ ops, vget st.2 op ≠ INF) ∧ S + operator_sum st.2 ops ≤ c

/-! ## Concrete abstractions -/

/-- Two goal states on a cycle: transitions `0 → 1` (operator 0) and `1 → 0` (operator 1). -/
def goal_cycle_abstraction : ExplicitAbstraction :=
  { num_operators := 2, num_states := 2, init_state_id := 0, goal_states := [0, 1],
    backward_graph := [[⟨1, 1, 1⟩], [⟨0, 0, 0⟩]],
    has_loop := [false, false] }

/-- The cycle `0 → 1 → 2 → 3 → 0`, the transition out of state `i` labelled by operator `i`,
with the given goal states. -/
def four_cycle_abstraction (goal_states : List Nat) : ExplicitAbstraction :=
  { num_operators := 4, num_states := 4, init_state_id := 0, goal_states := goal_states,
    backward_graph := [[⟨3, 3, 3⟩], [⟨0, 0, 0⟩], [⟨1, 1, 1⟩], [⟨2, 2, 2⟩]],
    has_loop := [false, false, false, false] }

/-- Two states, the goal `1` and the dead end `0`; the only operator induces a self-loop
and labels no state-changing transition. -/
def looping_operator_abstraction : ExplicitAbstraction :=
  { num_operators := 1, num_states := 2, init_state_id := 0, goal_states := [1],
    backward_graph := [[], []], has_loop := [true] }

/-- Two states, `0` initial and goal; the only transition leads from state `1` to state `0`
(operator 0), so state `1` is not reachable from the initial state. -/
def unreachable_state_abstraction : ExplicitAbstraction :=
  { num_operators := 1, num_states := 2, init_state_id := 0, goal_states := [0],
    backward_graph := [[⟨0, 0, 1⟩], []], has_loop := [false] }

/-- One state, initial and goal, and no operator. -/
def single_state_abstraction : ExplicitAbstraction :=
  { num_operators := 0, num_states := 1, init_state_id := 0, goal_states := [0],
    backward_graph := [[]], has_loop := [] }

/-- The task with the states `0`, `1`, `2`, the goal `2`, and the operators `0` of cost `3`
from state `0` to state `1` and `1` of cost `4` from state `1` to state `2`. -/
def chain_task : PlanningTask (Fin 3) :=
  { operator_costs := [3, 4],
    transition := fun s op s' => (s = 0 ∧ op = 0 ∧ s' = 1) ∨ (s = 1 ∧ op = 1 ∧ s' = 2),
    is_goal := fun s => s = 2 }

/-- The abstraction of `chain_task` that merges the states `1` and `2`: operator `0` leads
from state `0` to the goal state `1`, operator `1` is a self-loop. -/
def chain_merged_abstraction : ExplicitAbstraction :=
  { num_operators := 2, num_states := 2, init_state_id := 0, goal_states := [1],
    backward_graph := [[], [⟨0, 0, 0⟩]], has_loop := [false, true] }

/-- The abstraction function of `chain_merged_abstraction`. -/
def chain_merged_function (s : Fin 3) : Nat := if s = 0 then 0 else 1

/-- The abstraction of `chain_task` that keeps every state. -/
def chain_identity_abstraction : ExplicitAbstraction :=
  { num_operators := 2, num_states := 3, init_state_id := 0, goal_states := [2],
    backward_graph := [[], [⟨0, 0, 0⟩], [⟨1, 1, 1⟩]], has_loop := [false, false] }

/-- The abstraction function of `chain_identity_abstraction`. -/
def chain_identity_function (s : Fin 3) : Nat := s.val


/-- A bucketed cost function over two concrete states (`Bool`), freshly built for the
given operator costs with `MAX_BUCKETS = 10`. -/
def two_state_cost_function (operator_costs : List Int) : CostFunctionStateDependent Bool :=
  CostFunctionStateDependent.create operator_costs 10
/-! ## transition_cost_partitioning: cost_partitioning_heuristic.cc, utils.cc (continued) -/

/-- The method `CostPartitioningHeuristic::add`. -/
def CostPartitioningHeuristic.add (cp other : CostPartitioningHeuristic) :
    CostPartitioningHeuristic :=
  other.lookup_tables.foldl
    (fun cp table => cp.add_h_values table.abstraction_id table.h_values) cp

/-- The `for` loop of `compute_max_h_with_statistics` from the heuristic of index
`current_id` on; `best_id = none` is `-1`. -/
def compute_max_h_loop (abstract_state_ids : List Nat) :
    List CostPartitioningHeuristic → Int → Option Nat → Nat → Int × Option Nat
  | [], max_h, best_id, _ => (max_h, best_id)
  | cp_heuristic :: rest, max_h, best_id, current_id =>
    let sum_h := cp_heuristic.compute_heuristic abstract_state_ids
    let max_h' := if sum_h > max_h then sum_h else max_h
    let best_id' := if sum_h > max_h then some current_id else best_id
    if sum_h = INF then (max_h', best_id')
    else compute_max_h_loop abstract_state_ids rest max_h' best_id' (current_id + 1)

/-- The call `v.resize(n, 0)` of a `vector<int>` of counters. -/
def resize_counters (v : List Nat) (n : Nat) : List Nat :=
  v.take n ++ List.replicate (n - v.length) 0

/-- The function `compute_max_h_with_statistics`: the value it returns and the vector
`num_best_order` it leaves. -/
def compute_max_h_with_statistics (cp_heuristics : List CostPartitioningHeuristic)
    (abstract_state_ids : List Nat) (num_best_order : List Nat) : Int × List Nat :=
  let r := compute_max_h_loop abstract_state_ids cp_heuristics 0 none 0
  let num_best_order := resize_counters num_best_order cp_heuristics.length
  (r.1,
    match r.2 with
    | none => num_best_order
    | some best_id => num_best_order.set best_id (num_best_order.getD best_id 0 + 1))

/-! ## cost_saturation: max_cost_partitioning_heuristic.cc -/

/-- The constant `COST_FACTOR` of types.h. -/
def COST_FACTOR : Int := 1000

/-- The last two statements of `MaxCostPartitioningHeuristic::compute_heuristic(state)`:
`DEAD_END` for `max_h == INF`, else
`static_cast<int>(ceil((max_h / static_cast<double>(COST_FACTOR)) - epsilon))` with
`epsilon = 0.01`. The `double` expression is evaluated in ℚ; `rounding` is the rounding
error that the `double` evaluation of `max_h / 1000.0 - 0.01` adds to the exact value
(for a 32 bit `max_h` it is below `10^-9` in absolute value). `DEAD_END` is the constant
of the base class `Heuristic`. -/
def unscale_heuristic_value (DEAD_END : Int) (rounding : ℚ) (max_h : Int) : Int :=
  if max_h = INF then DEAD_END
  else ⌈(max_h : ℚ) / (COST_FACTOR : ℚ) + rounding - 1 / 100⌉

/-- The method `MaxCostPartitioningHeuristic::compute_heuristic(const State &state)`: the
value it returns and the vector `num_best_order` it leaves. -/
def MaxCostPartitioningHeuristic.compute_heuristic {S : Type} (DEAD_END : Int)
    (rounding : ℚ) (cp_heuristics : List CostPartitioningHeuristic)
    (abstraction_functions : List (S → Nat)) (num_best_order : List Nat) (state : S) :
    Int × List Nat :=
  let abstract_state_ids := get_abstract_state_ids abstraction_functions state
  let r := compute_max_h_with_statistics cp_heuristics abstract_state_ids num_best_order
  (unscale_heuristic_value DEAD_END rounding r.1, r.2)

/-! ## The words of the specification on the evaluation of a cost partitioning -/

/-- The values `h_values[abstract_state_ids[abstraction_id]]` that the lookup tables hold
for the given abstract state ids, in stored table order. -/
def looked_up_values (abstract_state_ids : List Nat) (tables : List LookupTable) :
    List Int :=
  tables.map fun table => vget table.h_values (abstract_state_ids.getD table.abstraction_id 0)

/-- The left-addition fold `h_1 ⊕ h_2 ⊕ ... ⊕ h_n` of a list of values (`0` for the empty
list). -/
def left_addition_fold (hs : List Int) : Int :=
  hs.foldl left_addition 0

/-- The maximum `max(0, max_i values_i)` of a list of values floored at `0`. -/
def max_floored (values : List Int) : Int :=
  values.foldl max 0

/-- The heuristics that a sequence of `add_h_values` and `add` calls builds from the empty
heuristic when no vector of heuristic values has a negative finite entry. -/
inductive Accumulated : CostPartitioningHeuristic → Prop
  | empty : Accumulated ⟨[]⟩
  | add_h_values (cp : CostPartitioningHeuristic) (abstraction_id : Nat)
      (h_values : List Int) :
      Accumulated cp → (∀ h ∈ h_values, 0 ≤ h ∨ h = -INF) →
      Accumulated (cp.add_h_values abstraction_id h_values)
  | add (cp other : CostPartitioningHeuristic) :
      Accumulated cp → Accumulated other → Accumulated (cp.add other)

/-! ## The words of the specification on the bucketed cost function -/

/-- The key `k` is the smallest key of the bucket map `m` whose bucket has a nonempty
intersection with the fingerprint. -/
def IsLeastIntersectingKey {σ : Type} [DecidableEq σ] (m : BucketMap σ)
    (fingerprint : Finset σ) (k : Int) : Prop :=
  (∃ e ∈ m, e.1 = k ∧ e.2 ∩ fingerprint ≠ ∅) ∧
    ∀ e ∈ m, e.2 ∩ fingerprint ≠ ∅ → k ≤ e.1

/-- A bucketed cost function over three concrete states (`Fin 3`), freshly built for the
given operator costs with `MAX_BUCKETS = 2`. -/
def three_state_cost_function (operator_costs : List Int) :
    CostFunctionStateDependent (Fin 3) :=
  CostFunctionStateDependent.create operator_costs 2

/-! ## utils.cc: the range check of the arithmetic on costs -/

/-- The constant `numeric_limits<int>::max()` of a 32 bit `int`. -/
def INT_MAX : Int := 2147483647

/-- The constant `numeric_limits<int>::min()` of a 32 bit `int`. -/
def INT_MIN : Int := -2147483648

/-- The value is one an `int` can hold. -/
def IsInt (x : Int) : Prop := INT_MIN ≤ x ∧ x ≤ INT_MAX

instance (x : Int) : Decidable (IsInt x) := by
  unfold IsInt
  exact inferInstance

/-- The function `is_sum_within_range` of utils.cc; on `int` operands neither of the two
differences it computes leaves the range of `int`. -/
def is_sum_within_range (a b : Int) : Bool :=
  decide ((b ≥ 0 ∧ a ≤ INT_MAX - b) ∨ (b < 0 ∧ a ≥ INT_MIN - b))

/-- The value an `int` holds after an operation with the exact result `x`: the
representative of `x` modulo `2^32` in the range of `int`. -/
def wrap_int (x : Int) : Int := (x + 2147483648) % 4294967296 - 2147483648

/-- The function `left_addition` of utils.cc with its assertion: `none` is the failed
`assert(is_sum_within_range(a, b))`. -/
def left_addition_asserted (a b : Int) : Option Int :=
  if a = -INF ∨ a = INF then some a
  else if b = -INF ∨ b = INF then some b
  else if is_sum_within_range a b then some (wrap_int (a + b))
  else none

/-- The function `left_subtraction` of utils.cc with its assertion: `none` is the failed
`assert(is_sum_within_range(a, b))`. -/
def left_subtraction_asserted (a b : Int) : Option Int :=
  if a = INF ∨ a = -INF then some a
  else if b = INF ∨ b = -INF then some INF
  else if is_sum_within_range a b then some (wrap_int (a - b))
  else none

/-- The function `path_addition` of utils.cc with its assertion: `none` is the failed
`assert(is_sum_within_range(a, b))`. -/
def path_addition_asserted (a b : Int) : Option Int :=
  if a = INF ∨ b = INF then some INF
  else if a = -INF ∨ b = -INF then some (-INF)
  else if is_sum_within_range a b then some (wrap_int (a + b))
  else none

/-- The function `reduce_costs` of transition_cost_partitioning/utils.cc; `none` is the
`ABORT`. The statement `remaining -= saturated` is a subtraction of `int`: the entry
becomes the representative of the difference in the range of `int`. -/
def reduce_costs (remaining_costs saturated_costs : List Int) : Option (List Int) :=
  (List.range remaining_costs.length).foldlM
    (fun remaining_costs op_id =>
      let remaining := vget remaining_costs op_id
      let saturated := vget saturated_costs op_id
      if saturated > remaining then none
      else if remaining = INF ∨ remaining = -INF then some remaining_costs
      else if saturated = -INF then some (remaining_costs.set op_id INF)
      else some (remaining_costs.set op_id (wrap_int (remaining - saturated))))
    remaining_costs
/-! ## task_info.h, task_info.cc -/

/-- The data members of `TaskInfo` that are tables over operators and variables. -/
structure TaskInfo where
  num_variables : Nat
  num_operators : Nat
  operator_costs : List Int
  domain_size : List Nat
  mentioned_variables : List Bool
  pre_eff_variables : List Bool
  precondition_variables : List Bool
  effect_variables : List Bool
deriving DecidableEq, Repr

/-- The method `TaskInfo::get_index`. -/
def TaskInfo.get_index (task_info : TaskInfo) (op_id var : Nat) : Nat :=
  op_id * task_info.num_variables + var

/-- The method `TaskInfo::operator_mentions_variable`. -/
def TaskInfo.operator_mentions_variable (task_info : TaskInfo) (op_id var : Nat) : Bool :=
  bget task_info.mentioned_variables (task_info.get_index op_id var)

/-- The method `TaskInfo::operator_induces_self_loop`. -/
def TaskInfo.operator_induces_self_loop (task_info : TaskInfo) (pattern : List Nat)
    (op_id : Nat) : Bool :=
  pattern.all fun var => !bget task_info.pre_eff_variables (task_info.get_index op_id var)

/-! ## projection.h, projection.cc -/

/-- The struct `FactPair`; in `abstract_facts` the member `var` holds an index into the
pattern. -/
structure FactPair where
  var : Nat
  value : Nat
deriving DecidableEq, Repr

/-- The struct `AbstractForwardOperator`. -/
structure AbstractForwardOperator where
  precondition_hash : Nat
  hash_effect : Int
deriving DecidableEq, Repr, Inhabited

/-- The struct `AbstractBackwardOperator`. -/
structure AbstractBackwardOperator where
  concrete_operator_id : Nat
  hash_effect : Int
deriving DecidableEq, Repr, Inhabited

/-- The data members of `Projection` and of its base class that the enumeration of the
transitions reads. -/
structure Projection where
  task_info : TaskInfo
  num_transitions : Nat
  num_states : Nat
  init_state_id : Nat
  goal_states : List Nat
  pattern : List Nat
  hash_multipliers : List Nat
  pattern_domain_sizes : List Nat
  abstract_forward_operators : List AbstractForwardOperator
  abstract_backward_operators : List AbstractBackwardOperator
  transition_id_offset : List Nat
deriving DecidableEq, Repr

/-- The method `Projection::increment_to_next_state` on the member `abstract_facts`: the
facts it leaves and the value it returns. -/
def increment_to_next_state (pattern_domain_sizes : List Nat) :
    List FactPair → List FactPair × Bool
  | [] => ([], false)
  | fact :: rest =>
    if ((fact.value + 1 : Nat) : Int) > (pattern_domain_sizes.getD fact.var 0 : Int) - 1 then
      let r := increment_to_next_state pattern_domain_sizes rest
      ({ fact with value := 0 } :: r.1, r.2)
    else ({ fact with value := fact.value + 1 } :: rest, true)

/-- The method `Projection::operator_induces_self_loop`. -/
def Projection.operator_induces_self_loop (p : Projection) (op_id : Nat) : Bool :=
  p.task_info.operator_induces_self_loop p.pattern op_id

/-- The facts `abstract_facts` that `for_each_transition` starts from for an operator: one
fact of value `0` for every pattern variable that the operator does not mention. -/
def Projection.unmentioned_facts (p : Projection) (concrete_op_id : Nat) : List FactPair :=
  (List.range p.pattern.length).filterMap fun i =>
    if !p.task_info.operator_mentions_variable concrete_op_id (p.pattern.getD i 0) then
      some { var := i, value := 0 }
    else none

/-- The loop `while (has_next_match)` of `Projection::for_each_transition` for one abstract
operator: the transitions passed to the callback and the next transition id; one unit of
fuel per iteration. -/
def Projection.enumerate_matches (p : Projection) (op : AbstractForwardOperator)
    (concrete_op_id : Nat) : Nat → List FactPair → Nat → Option (List Transition × Nat)
  | 0, _, _ => none
  | fuel + 1, abstract_facts, transition_id =>
    let state := abstract_facts.foldl
      (fun state fact => state + p.hash_multipliers.getD fact.var 0 * fact.value)
      op.precondition_hash
    let transition : Transition :=
      { transition_id := transition_id, op_id := concrete_op_id, source_id := state,
        target_id := ((state : Int) + op.hash_effect).toNat }
    let r := increment_to_next_state p.pattern_domain_sizes abstract_facts
    if r.2 then
      (p.enumerate_matches op concrete_op_id fuel r.1 (transition_id + 1)).map
        fun rest => (transition :: rest.1, rest.2)
    else some ([transition], transition_id + 1)

/-- The method `Projection::for_each_transition(callback)`: the transitions it passes to
the callback, in order; `fuel` bounds the iterations of each `while` loop. -/
def Projection.for_each_transition (p : Projection) (fuel : Nat) : Option (List Transition) :=
  ((List.range p.abstract_forward_operators.length).foldlM
    (fun (acc : List Transition × Nat) op_id =>
      let op := p.abstract_forward_operators.getD op_id default
      let concrete_op_id := (p.abstract_backward_operators.getD op_id default).concrete_operator_id
      (p.enumerate_matches op concrete_op_id fuel (p.unmentioned_facts concrete_op_id)
        acc.2).map fun r => (acc.1 ++ r.1, r.2))
    ([], 0)).map Prod.fst

/-- The callback of `Projection::compute_saturated_costs_ocf` for one transition. -/
def saturated_costs_ocf_callback (h_values : List Int) (socf : List Int)
    (transition : Transition) : List Int :=
  let source_h := vget h_values transition.source_id
  let target_h := vget h_values transition.target_id
  if source_h = INF ∨ target_h = INF ∨ source_h = -INF ∨ target_h = -INF then socf
  else
    socf.set transition.op_id (max (vget socf transition.op_id) (source_h - target_h))

/-- The method `Projection::compute_saturated_costs_ocf`. -/
def Projection.compute_saturated_costs_ocf (p : Projection) (fuel : Nat)
    (h_values : List Int) : Option (List Int) :=
  let num_operators := p.task_info.num_operators
  let socf := (List.range num_operators).foldl
    (fun socf op_id => if p.operator_induces_self_loop op_id then socf.set op_id 0 else socf)
    (List.replicate num_operators (-INF))
  (p.for_each_transition fuel).map fun transitions =>
    transitions.foldl (saturated_costs_ocf_callback h_values) socf

/-- The callback of `Projection::compute_saturated_costs_tcf` for one transition. -/
def saturated_costs_tcf_callback (h_values : List Int) (stcf : AbstractTransitionCostFunction)
    (transition : Transition) : AbstractTransitionCostFunction :=
  let source_h := vget h_values transition.source_id
  let target_h := vget h_values transition.target_id
  if source_h = INF ∨ target_h = INF ∨ source_h = -INF ∨ target_h = -INF then stcf
  else
    let op_id := transition.op_id
    let needed := source_h - target_h
    { sd_costs := stcf.sd_costs.set transition.transition_id needed
      si :=
        if bget stcf.si op_id = true ∧ needed ≠ vget stcf.si_costs op_id ∧
            vget stcf.si_costs op_id ≠ -INF
        then stcf.si.set op_id false else stcf.si
      si_costs := stcf.si_costs.set op_id (max needed (vget stcf.si_costs op_id)) }

/-- The loop over the operators that ends `compute_saturated_costs_tcf` in both
realizations: a looping operator gets a nonnegative cost. -/
def saturated_costs_tcf_loops (num_operators : Nat) (operator_induces_self_loop : Nat → Bool)
    (stcf : AbstractTransitionCostFunction) : AbstractTransitionCostFunction :=
  (List.range num_operators).foldl
    (fun (stcf : AbstractTransitionCostFunction) op_id =>
      if operator_induces_self_loop op_id then
        { sd_costs := stcf.sd_costs
          si :=
            if vget stcf.si_costs op_id ≠ 0 ∧ vget stcf.si_costs op_id ≠ -INF
            then stcf.si.set op_id false else stcf.si
          si_costs := stcf.si_costs.set op_id (max 0 (vget stcf.si_costs op_id)) }
      else stcf)
    stcf

/-- The method `Projection::compute_saturated_costs_tcf`. -/
def Projection.compute_saturated_costs_tcf (p : Projection) (fuel : Nat)
    (h_values : List Int) (stcf : AbstractTransitionCostFunction) :
    Option AbstractTransitionCostFunction :=
  let filled : AbstractTransitionCostFunction :=
    { sd_costs := stcf.sd_costs.map fun _ => -INF
      si := stcf.si.map fun _ => true
      si_costs := stcf.si_costs.map fun _ => -INF }
  (p.for_each_transition fuel).map fun transitions =>
    saturated_costs_tcf_loops p.task_info.num_operators p.operator_induces_self_loop
      (transitions.foldl (saturated_costs_tcf_callback h_values) filled)

/-- The fuel that lets every `while` loop of `for_each_transition` run to its end: the
number of assignments to the unmentioned pattern variables, with the digit `value` of a
fact running to `pattern_domain_sizes[var] - 1`. -/
def odometer_measure (pattern_domain_sizes : List Nat) : List FactPair → Nat
  | [] => 0
  | fact :: rest =>
    (pattern_domain_sizes.getD fact.var 0 - 1 - fact.value)
      + (pattern_domain_sizes.getD fact.var 0 - 1 + 1) * odometer_measure pattern_domain_sizes rest

/-- Fuel that suffices for `for_each_transition`. -/
def Projection.enumeration_fuel (p : Projection) : Nat :=
  ((List.range p.abstract_forward_operators.length).map fun op_id =>
    odometer_measure p.pattern_domain_sizes
      (p.unmentioned_facts
        (p.abstract_backward_operators.getD op_id default).concrete_operator_id)).foldl max 0
    + 1

/-- A projection of two binary variables: operator `0` changes variable `0` from `0` to `1`
and does not mention variable `1`, so it labels the transitions `0 → 1` and `2 → 3`. -/
def two_variable_projection : Projection :=
  { task_info :=
      { num_variables := 2, num_operators := 1, operator_costs := [1], domain_size := [2, 2],
        mentioned_variables := [true, false], pre_eff_variables := [true, false],
        precondition_variables := [true, false], effect_variables := [true, false] },
    num_transitions := 2, num_states := 4, init_state_id := 0, goal_states := [3],
    pattern := [0, 1], hash_multipliers := [1, 2], pattern_domain_sizes := [2, 2],
    abstract_forward_operators := [⟨0, 1⟩],
    abstract_backward_operators := [⟨0, -1⟩],
    transition_id_offset := [0] }

/-- The transition system of `two_variable_projection` as an explicit abstraction. -/
def two_variable_abstraction : ExplicitAbstraction :=
  { num_operators := 1, num_states := 4, init_state_id := 0, goal_states := [3],
    backward_graph := [[], [⟨0, 0, 0⟩], [], [⟨1, 0, 2⟩]], has_loop := [false] }

/-! ## Predicates on saturated transition costs -/

/-- The transition runs between two states of finite heuristic value. -/
def Transition.IsFiniteFor (t : Transition) (h_values : List Int) : Prop :=
  IsFinite (vget h_values t.target_id) ∧ IsFinite (vget h_values t.source_id)

instance (t : Transition) (h_values : List Int) : Decidable (t.IsFiniteFor h_values) := by
  unfold Transition.IsFiniteFor
  exact inferInstance

/-- The differences `h[src] - h[tgt]` over the transitions of the list that are labelled
`op` and run between states of finite heuristic value, in the order of the list. -/
def needed_costs (h_values : List Int) (transitions : List Transition) (op : Nat) :
    List Int :=
  (transitions.filter fun t => decide (t.op_id = op ∧ t.IsFiniteFor h_values)).map
    fun t => vget h_values t.source_id - vget h_values t.target_id

/-- Two enumerations describe the same transition system: the same labelled arcs. -/
def SameTransitions (l1 l2 : List Transition) : Prop :=
  ∀ op s t, (∃ x ∈ l1, x.op_id = op ∧ x.source_id = s ∧ x.target_id = t) ↔
    (∃ x ∈ l2, x.op_id = op ∧ x.source_id = s ∧ x.target_id = t)

/-- The transition ids of an enumeration are pairwise distinct and index the vector
`sd_costs`. -/
def TransitionIdsValid (transitions : List Transition)
    (stcf : AbstractTransitionCostFunction) : Prop :=
  (transitions.map fun t => t.transition_id).Nodup ∧
  ∀ t ∈ transitions, t.transition_id < stcf.sd_costs.length

instance (transitions : List Transition) (stcf : AbstractTransitionCostFunction) :
    Decidable (TransitionIdsValid transitions stcf) := by
  unfold TransitionIdsValid
  exact inferInstance

/-- The vector that `compute_saturated_costs_tcf` starts from. -/
def filled_transition_cost_function (stcf : AbstractTransitionCostFunction) :
    AbstractTransitionCostFunction :=
  { sd_costs := stcf.sd_costs.map fun _ => -INF
    si := stcf.si.map fun _ => true
    si_costs := stcf.si_costs.map fun _ => -INF }

/-- No needed cost of a transition between states of finite value is `-INF` or less, the
value that `compute_saturated_costs_tcf` reads as "no transition seen yet". -/
def NeededCostsAboveNegInf (h_values : List Int) (transitions : List Transition) : Prop :=
  ∀ t ∈ transitions, t.IsFiniteFor h_values →
    -INF < vget h_values t.source_id - vget h_values t.target_id

instance (h_values : List Int) (transitions : List Transition) :
    Decidable (NeededCostsAboveNegInf h_values transitions) := by
  unfold NeededCostsAboveNegInf
  exact inferInstance

/-- Three states, the goal `1`; operator `0` labels the transitions `0 → 1` (id `0`) and
`2 → 1` (id `1`), and state `2` is not reachable from state `0`. -/
def two_sources_abstraction : ExplicitAbstraction :=
  { num_operators := 1, num_states := 3, init_state_id := 0, goal_states := [1],
    backward_graph := [[], [⟨0, 0, 0⟩, ⟨1, 0, 2⟩], []], has_loop := [false] }

/-! ## saturator.cc: the loops of `get_saturator_result_ocf` -/

/-- The first loop of `Saturator::get_saturator_result_ocf` and of
`cost_saturation::Saturator::get_saturator_result`: an operator of cost `INF` gets the
saturated cost `INF`. -/
def copy_infinite_costs (ocf socf : List Int) : List Int :=
  (List.range ocf.length).foldl
    (fun socf op_id => if vget ocf op_id = INF then socf.set op_id INF else socf) socf

/-- The second loop of `Saturator::get_saturator_result_ocf` and of
`cost_saturation::Saturator::get_saturator_result`: a state of value `-INF` keeps it. -/
def keep_negative_infinity (num_states : Nat) (h_values new_h_values : List Int) : List Int :=
  (List.range num_states).foldl
    (fun new_h_values source_id =>
      if vget h_values source_id = -INF then new_h_values.set source_id (-INF)
      else new_h_values)
    new_h_values

/-! ## saturator_lp.cc

The LP solver is a parameter of the saturators: `lp_solve` maps the variables and the
constraints of the problem that `load_problem` receives to the vector that
`extract_solution` returns, and `lp_infty` is the value of `get_infinity`. A `double` is a
rational number here. -/

/-- How a run of a saturator ends: it returns a value, it ends in an `ABORT`, or the fuel
of a loop of the model is used up. -/
inductive Outcome (α : Type) where
  | returned (value : α)
  | aborted
  | out_of_fuel
deriving DecidableEq, Repr

/-- The value a returned run has. -/
def Outcome.value {α : Type} : Outcome α → Option α
  | Outcome.returned value => some value
  | _ => none

/-- The constant `UNDEFINED` of types.h. -/
def UNDEFINED : Int := -1

/-- Modelled from the spec: a variable of the LP of the saturator, with its bounds and its
coefficient in the objective (`lp::LPVariable`). -/
structure LPVariable where
  lower_bound : ℚ
  upper_bound : ℚ
  objective_coefficient : ℚ
deriving DecidableEq, Inhabited

/-- Modelled from the spec: a constraint of the LP of the saturator, a lower and an upper
bound for a weighted sum of variables (`lp::LPConstraint`). -/
structure LPConstraint where
  lower_bound : ℚ
  upper_bound : ℚ
  indices : List Int
  coefficients : List ℚ
deriving DecidableEq

/-- Modelled from the spec: one more summand of a constraint (`LPConstraint::insert`). -/
def LPConstraint.insert (c : LPConstraint) (index : Int) (coefficient : ℚ) : LPConstraint :=
  { c with indices := c.indices ++ [index], coefficients := c.coefficients ++ [coefficient] }

/-- The assignment `lp_variables[col].objective_coefficient = 1.`. -/
def set_objective_coefficient (lp_variables : List LPVariable) (col : Int) :
    List LPVariable :=
  lp_variables.set col.toNat
    { lp_variables.getD col.toNat default with objective_coefficient := 1 }

/-- The function `round` of `<cmath>` on a rational number: the nearest integer, halves
away from zero. -/
def round_half_away (d : ℚ) : Int :=
  if 0 ≤ d.num then (2 * d.num + d.den) / (2 * d.den)
  else -((2 * (-d.num) + d.den) / (2 * d.den))

/-- The function `convert_to_int` of saturator_lp.cc; `none` is the `ABORT`. -/
def convert_to_int (d : ℚ) : Option Int :=
  let d := round_half_away d
  if ¬ (d > -INF ∧ d < INF) then none else some d

/-- A loop that fills a vector and ends the run at the first `ABORT`. -/
def collect_entries : List (Option Int) → Option (List Int)
  | [] => some []
  | none :: _ => none
  | some x :: rest => (collect_entries rest).map fun xs => x :: xs

/-- The enum `ObjectiveType`. -/
inductive ObjectiveType where
  | TRANSITIONS
  | OPERATORS
deriving DecidableEq, Repr

/-- The data members of `SaturatorLP`, with those of its base class; the constructor sets
`reachable = Reachable::FROM_STATE`. -/
structure SaturatorLP where
  use_general_costs : Bool
  recompute_h_values : Bool
  objective_type : ObjectiveType
  spd : Bool
  saturate_negative_infinity : Bool
deriving DecidableEq, Repr

/-- The members of the base class `Saturator` of a `SaturatorLP`, as the record that the
inherited method `get_saturator_result_ocf` reads. -/
def SaturatorLP.base (s : SaturatorLP) : SaturatorCap :=
  { use_general_costs := s.use_general_costs, recompute_h_values := s.recompute_h_values,
    reachable := Reachable.FROM_STATE, cap := false, spd := s.spd,
    saturate_negative_infinity := s.saturate_negative_infinity }

/-- The first loop of `get_variables` and of `get_variables_transition`: the LP variables
of the abstract goal distances and the vector `distance_variables`. -/
def get_distance_variables (a : ExplicitAbstraction) (goal_distances : List Int)
    (reachability : List Bool) (state_id : Nat) (state_h_value : Int) (lp_infty : ℚ) :
    List LPVariable × List Int :=
  (List.range a.num_states).foldl
    (fun (acc : List LPVariable × List Int) source_id =>
      if vget goal_distances source_id = INF ∨ vget goal_distances source_id = -INF ∨
          bget reachability source_id = false then acc
      else
        let lower : ℚ := if source_id = state_id then state_h_value else -lp_infty
        let upper : ℚ :=
          if source_id = state_id then state_h_value
          else if source_id ∈ a.goal_states then 0 else lp_infty
        (acc.1 ++ [{ lower_bound := lower, upper_bound := upper, objective_coefficient := 0 }],
          acc.2.set source_id acc.1.length))
    ([], List.replicate a.num_states UNDEFINED)

/-- The function `get_variables` of saturator_lp.cc: the LP variables and the vectors
`distance_variables` and `operator_cost_variables` it fills. -/
def get_variables (a : ExplicitAbstraction) (costs goal_distances : List Int)
    (reachability : List Bool) (use_general_costs : Bool) (state_id : Nat)
    (state_h_value : Int) (lp_infty : ℚ) : List LPVariable × List Int × List Int :=
  let d := get_distance_variables a goal_distances reachability state_id state_h_value lp_infty
  let r := a.for_each_transition.foldl
    (fun (acc : List LPVariable × List Int) transition =>
      if vget goal_distances transition.source_id = INF ∨
          vget goal_distances transition.source_id = -INF ∨
          vget goal_distances transition.target_id = INF ∨
          vget goal_distances transition.target_id = -INF ∨
          bget reachability transition.source_id = false ∨
          vget costs transition.op_id = INF ∨ vget costs transition.op_id = -INF then acc
      else if acc.2.getD transition.op_id 0 ≠ UNDEFINED then acc
      else
        let operator_loops := bget a.has_loop transition.op_id
        let lower : ℚ := if !use_general_costs || operator_loops then 0 else -lp_infty
        let upper : ℚ := vget costs transition.op_id
        (acc.1 ++ [{ lower_bound := lower, upper_bound := upper, objective_coefficient := 0 }],
          acc.2.set transition.op_id acc.1.length))
    (d.1, List.replicate costs.length UNDEFINED)
  (r.1, d.2, r.2)

/-- The function `get_constraints` of saturator_lp.cc: the constraints, and the LP variables
with the objective coefficients it sets. -/
def get_constraints (a : ExplicitAbstraction) (costs goal_distances : List Int)
    (reachable_from_state : List Bool) (lp_infty : ℚ) (lp_variables : List LPVariable)
    (distance_variables operator_cost_variables : List Int) :
    List LPConstraint × List LPVariable :=
  a.for_each_transition.foldl
    (fun (acc : List LPConstraint × List LPVariable) transition =>
      if vget goal_distances transition.source_id = INF ∨
          vget goal_distances transition.source_id = -INF ∨
          vget goal_distances transition.target_id = INF ∨
          vget goal_distances transition.target_id = -INF ∨
          bget reachable_from_state transition.source_id = false ∨
          vget costs transition.op_id = INF ∨ vget costs transition.op_id = -INF then acc
      else
        let from_col := distance_variables.getD transition.source_id 0
        let op_col := operator_cost_variables.getD transition.op_id 0
        let to_col := distance_variables.getD transition.target_id 0
        let constraint : LPConstraint :=
          { lower_bound := 0, upper_bound := lp_infty, indices := [], coefficients := [] }
        let constraint := ((constraint.insert op_col 1).insert to_col 1).insert from_col (-1)
        (acc.1 ++ [constraint], set_objective_coefficient acc.2 op_col))
    ([], lp_variables)

/-- The function `get_variables_transition` of saturator_lp.cc: the LP variables and the
vectors `distance_variables`, `operator_cost_variables` and `transition_cost_variables`. -/
def get_variables_transition (a : ExplicitAbstraction) (tcf goal_distances : List Int)
    (reachability : List Bool) (use_general_costs : Bool) (state_id : Nat)
    (state_h_value : Int) (lp_infty : ℚ) (objective_type : ObjectiveType)
    (num_transitions : Nat) : List LPVariable × List Int × List Int × List Int :=
  let d := get_distance_variables a goal_distances reachability state_id state_h_value lp_infty
  let r := a.for_each_transition.foldl
    (fun (acc : List LPVariable × List Int × List Int) transition =>
      let op_id := transition.op_id
      let transition_id := transition.transition_id
      let source_id := transition.source_id
      let target_id := transition.target_id
      if vget goal_distances source_id = INF ∨ vget goal_distances source_id = -INF ∨
          vget goal_distances target_id = INF ∨ vget goal_distances target_id = -INF ∨
          bget reachability source_id = false ∨
          vget tcf transition_id = INF ∨ vget tcf transition_id = -INF then acc
      else
        let transition_cost_variables := acc.2.2.set transition_id acc.1.length
        let lower : ℚ := if !use_general_costs then 0 else -lp_infty
        let upper : ℚ := vget tcf transition_id
        let lp_variables := acc.1 ++
          [{ lower_bound := lower, upper_bound := upper, objective_coefficient := 0 }]
        if objective_type = ObjectiveType.OPERATORS then
          if acc.2.1.getD op_id 0 ≠ UNDEFINED then
            (lp_variables, acc.2.1, transition_cost_variables)
          else
            let operator_loops := bget a.has_loop op_id
            let lower : ℚ := if !use_general_costs || operator_loops then 0 else -lp_infty
            let upper : ℚ := lp_infty
            (lp_variables ++
              [{ lower_bound := lower, upper_bound := upper, objective_coefficient := 0 }],
              acc.2.1.set op_id lp_variables.length, transition_cost_variables)
        else (lp_variables, acc.2.1, transition_cost_variables))
    (d.1, List.replicate a.num_operators UNDEFINED, List.replicate num_transitions UNDEFINED)
  (r.1, d.2, r.2.1, r.2.2)

/-- The function `get_constraints_transition` of saturator_lp.cc: the constraints, and the
LP variables with the objective coefficients it sets. -/
def get_constraints_transition (a : ExplicitAbstraction) (tcf goal_distances : List Int)
    (reachable_from_state : List Bool) (lp_infty : ℚ) (objective_type : ObjectiveType)
    (lp_variables : List LPVariable)
    (distance_variables operator_cost_variables transition_cost_variables : List Int) :
    List LPConstraint × List LPVariable :=
  a.for_each_transition.foldl
    (fun (acc : List LPConstraint × List LPVariable) transition =>
      let op_id := transition.op_id
      let transition_id := transition.transition_id
      let source_id := transition.source_id
      let target_id := transition.target_id
      if vget goal_distances source_id = INF ∨ vget goal_distances source_id = -INF ∨
          vget goal_distances target_id = INF ∨ vget goal_distances target_id = -INF ∨
          bget reachable_from_state source_id = false ∨
          bget reachable_from_state target_id = false ∨
          vget tcf transition_id = INF ∨ vget tcf transition_id = -INF then acc
      else
        let from_col := distance_variables.getD source_id 0
        let transition_col := transition_cost_variables.getD transition_id 0
        let to_col := distance_variables.getD target_id 0
        let constraint : LPConstraint :=
          { lower_bound := 0, upper_bound := lp_infty, indices := [], coefficients := [] }
        let constraint :=
          ((constraint.insert transition_col 1).insert to_col 1).insert from_col (-1)
        if objective_type = ObjectiveType.TRANSITIONS then
          (acc.1 ++ [constraint], set_objective_coefficient acc.2 transition_col)
        else
          let op_col := operator_cost_variables.getD op_id 0
          let constraint2 : LPConstraint :=
            { lower_bound := 0, upper_bound := lp_infty, indices := [], coefficients := [] }
          let constraint2 := (constraint2.insert op_col 1).insert transition_col (-1)
          (acc.1 ++ [constraint, constraint2], set_objective_coefficient acc.2 op_col))
    ([], lp_variables)

/-- The loop of `SaturatorLP::saturate_ocf` that extracts the heuristic values; `none` is
the `ABORT` of `convert_to_int`. -/
def extract_h_values_ocf (num_states : Nat) (distance_variables : List Int)
    (reachability : List Bool) (h_values : List Int) (solution : List ℚ) :
    Option (List Int) :=
  collect_entries ((List.range num_states).map fun source_id =>
    let distance_col := distance_variables.getD source_id 0
    if distance_col = UNDEFINED then
      if bget reachability source_id = false ∧ vget h_values source_id ≠ INF then some (-INF)
      else some INF
    else convert_to_int (solution.getD distance_col.toNat 0))

/-- The loop of `SaturatorLP::saturate_tcf` that extracts the heuristic values; `none` is
an `ABORT`. -/
def extract_h_values_tcf (num_states : Nat) (distance_variables : List Int)
    (h_values : List Int) (solution : List ℚ) : Option (List Int) :=
  collect_entries ((List.range num_states).map fun source_id =>
    let distance_col := distance_variables.getD source_id 0
    if distance_col = UNDEFINED then
      if vget h_values source_id = INF then some INF else some (-INF)
    else
      (convert_to_int (solution.getD distance_col.toNat 0)).bind fun new_h_value =>
        if new_h_value = -INF ∨ new_h_value = INF then none else some new_h_value)

/-- The method `SaturatorLP::saturate_ocf`. In the branch `h == INF` the `ABORT` comes
before the `return`. -/
def SaturatorLP.saturate_ocf (s : SaturatorLP) (a : ExplicitAbstraction) (fuel : Nat)
    (lp_infty : ℚ) (lp_solve : List LPVariable → List LPConstraint → List ℚ)
    (ocf : List Int) (h_values : List Int) (state_id : Nat) : Outcome SaturatorResultOcf :=
  let num_states := a.num_states
  let h := vget h_values state_id
  match a.compute_reachability_from_state_ocf fuel
      (compute_reachability_cost_function ocf) state_id with
  | none => Outcome.out_of_fuel
  | some reachability =>
    if h = INF then Outcome.aborted
    else if h = -INF then Outcome.aborted
    else
      let v := get_variables a ocf h_values reachability s.use_general_costs state_id h lp_infty
      let c := get_constraints a ocf h_values reachability lp_infty v.1 v.2.1 v.2.2
      let solution := lp_solve c.2 c.1
      match extract_h_values_ocf num_states v.2.1 reachability h_values solution with
      | none => Outcome.aborted
      | some new_h_values =>
        let socf := a.compute_saturated_costs_ocf new_h_values
        match s.base.get_saturator_result_ocf a fuel ocf socf new_h_values
            s.saturate_negative_infinity with
        | none => Outcome.out_of_fuel
        | some result => Outcome.returned result

/-- The method `SaturatorLP::saturate_tcf`; `num_transitions` is
`abstraction.get_num_transitions()`. -/
def SaturatorLP.saturate_tcf {σ : Type} [DecidableEq σ] (s : SaturatorLP)
    (a : ExplicitAbstraction) (fuel : Nat) (lp_infty : ℚ)
    (lp_solve : List LPVariable → List LPConstraint → List ℚ) (num_transitions : Nat)
    (make_transition_bdd : Transition → Finset σ) (tcf : AbstractTransitionCostFunction)
    (sdac : CostFunctionStateDependent σ) (h_values : List Int) (state_id : Nat) :
    Outcome SaturatorResultTcf :=
  let first : Option (List Int × AbstractTransitionCostFunction) :=
    if h_values.isEmpty then
      if s.spd then a.compute_goal_distances_sdac fuel sdac make_transition_bdd tcf
      else
        let tcf := sdac.determine_remaining_abstract_transition_cost_function a
          make_transition_bdd tcf
        (a.compute_goal_distances_tcf fuel tcf).map fun h_values => (h_values, tcf)
    else some (h_values, tcf)
  match first with
  | none => Outcome.out_of_fuel
  | some (h_values, tcf) =>
    let num_states := a.num_states
    let state_h := vget h_values state_id
    match a.compute_reachability_from_state_tcf fuel tcf state_id with
    | none => Outcome.out_of_fuel
    | some reachability =>
      if state_h = INF then
        let h_values :=
          (List.replicate num_states (if s.use_general_costs then -INF else 0)).set
            state_id INF
        Outcome.returned { stcf := tcf, h_values := h_values,
                           saturate_negative_infinity := s.saturate_negative_infinity }
      else if state_h = -INF then Outcome.aborted
      else
        let v := get_variables_transition a tcf.sd_costs h_values reachability
          s.use_general_costs state_id state_h lp_infty s.objective_type num_transitions
        let c := get_constraints_transition a tcf.sd_costs h_values reachability lp_infty
          s.objective_type v.1 v.2.1 v.2.2.1 v.2.2.2
        let solution := lp_solve c.2 c.1
        match extract_h_values_tcf num_states v.2.1 h_values solution with
        | none => Outcome.aborted
        | some new_h_values =>
          Outcome.returned { stcf := a.compute_saturated_costs_tcf h_values tcf,
                             h_values := new_h_values,
                             saturate_negative_infinity := s.saturate_negative_infinity }

namespace cost_saturation

/-- The data members of `cost_saturation::SaturatorLP`, those of its base class. -/
structure SaturatorLP where
  use_general_costs : Bool
  recompute_h_values : Bool
deriving DecidableEq, Repr

/-- The members of the base class of a `cost_saturation::SaturatorLP`, as the record that
the inherited method `get_saturator_result` reads. -/
def SaturatorLP.base (s : SaturatorLP) : SaturatorCap :=
  { use_general_costs := s.use_general_costs, recompute_h_values := s.recompute_h_values,
    reachable := Reachable.ALL, cap := false, unreachable_from_init := [] }

/-- The function `get_variables` of cost_saturation/saturator_lp.cc. -/
def get_variables (a : ExplicitAbstraction) (costs : List Int) (use_general_costs : Bool)
    (state_id : Nat) (state_h_value : Int) (lp_infty : ℚ) : List LPVariable :=
  let distances : List LPVariable := (List.range a.num_states).map fun i =>
    let lower : ℚ := if i = state_id then state_h_value else -lp_infty
    let upper : ℚ :=
      if i = state_id then state_h_value else if i ∈ a.goal_states then 0 else lp_infty
    { lower_bound := lower, upper_bound := upper, objective_coefficient := 0 }
  let operators : List LPVariable := (List.range costs.length).map fun op_id =>
    let operator_loops := bget a.has_loop op_id
    let lower : ℚ := if !use_general_costs || operator_loops then 0 else -lp_infty
    let upper : ℚ := vget costs op_id
    let coefficient : ℚ :=
      if vget costs op_id = -INF ∨ vget costs op_id = INF then 0
      else if operator_loops then 1 else 0
    { lower_bound := lower, upper_bound := upper, objective_coefficient := coefficient }
  distances ++ operators

/-- The function `get_constraints` of cost_saturation/saturator_lp.cc: the constraints, and
the LP variables with the objective coefficients it sets. -/
def get_constraints (a : ExplicitAbstraction) (costs goal_distances : List Int)
    (reachable_from_state : List Bool) (lp_infty : ℚ) (lp_variables : List LPVariable) :
    List LPConstraint × List LPVariable :=
  a.for_each_transition.foldl
    (fun (acc : List LPConstraint × List LPVariable) transition =>
      if vget goal_distances transition.source_id = INF ∨
          vget goal_distances transition.source_id = -INF ∨
          vget goal_distances transition.target_id = INF ∨
          vget goal_distances transition.target_id = -INF ∨
          bget reachable_from_state transition.source_id = false ∨
          vget costs transition.op_id = INF ∨ vget costs transition.op_id = -INF then acc
      else
        let from_col : Int := transition.source_id
        let op_col : Int := a.num_states + transition.op_id
        let to_col : Int := transition.target_id
        let constraint : LPConstraint :=
          { lower_bound := 0, upper_bound := lp_infty, indices := [], coefficients := [] }
        let constraint := ((constraint.insert op_col 1).insert to_col 1).insert from_col (-1)
        (acc.1 ++ [constraint], set_objective_coefficient acc.2 op_col))
    ([], lp_variables)

/-- The method `cost_saturation::SaturatorLP::saturate`. -/
def SaturatorLP.saturate (s : SaturatorLP) (a : ExplicitAbstraction) (fuel : Nat)
    (lp_infty : ℚ) (lp_solve : List LPVariable → List LPConstraint → List ℚ)
    (costs : List Int) (h_values : List Int) (state_id : Nat) : Outcome SaturatorResult :=
  let num_states := a.num_states
  let num_operators := costs.length
  let h := vget h_values state_id
  match a.compute_reachability_from_state fuel
      (compute_reachability_cost_function costs) state_id with
  | none => Outcome.out_of_fuel
  | some reachable_from_state =>
    if h = INF then
      let saturated_costs :=
        List.replicate num_operators (if s.use_general_costs then -INF else 0)
      let h_values :=
        (List.replicate num_states (if s.use_general_costs then -INF else 0)).set state_id INF
      Outcome.returned { saturated_costs := saturated_costs, h_values := h_values }
    else if h = -INF then Outcome.aborted
    else
      let lp_variables := get_variables a costs s.use_general_costs state_id h lp_infty
      let c := get_constraints a costs h_values reachable_from_state lp_infty lp_variables
      let solution := lp_solve c.2 c.1
      let saturated : Option (List Int) :=
        collect_entries ((List.range num_operators).map fun i =>
          if (c.2.getD (num_states + i) default).objective_coefficient ≠ 0 then
            convert_to_int (solution.getD (num_states + i) 0)
          else some (if s.use_general_costs then -INF else 0))
      match saturated with
      | none => Outcome.aborted
      | some saturated_costs =>
        let new_h : Option (List Int) :=
          collect_entries ((List.range num_states).map fun i =>
            if vget h_values i = INF then some INF
            else if bget reachable_from_state i = false then some (-INF)
            else convert_to_int (solution.getD i 0))
        match new_h with
        | none => Outcome.aborted
        | some new_h_values =>
          match s.base.get_saturator_result a fuel costs saturated_costs new_h_values h with
          | none => Outcome.out_of_fuel
          | some result => Outcome.returned result

end cost_saturation

/-! ## Reachability from a state along traversable transitions -/

/-- The state is reachable from `state_id` along transitions that `traversable` admits. -/
inductive ReachableAlong (a : ExplicitAbstraction) (traversable : Transition → Prop)
    (state_id : Nat) : Nat → Prop
  | start : ReachableAlong a traversable state_id state_id
  | step (t : Transition) : t ∈ a.for_each_transition → traversable t →
      ReachableAlong a traversable state_id t.source_id →
      ReachableAlong a traversable state_id t.target_id

/-- A graph whose arcs carry their transition id in the place of the operator: a search
that reads `sd_costs[transition_id]` on the graph is a search that reads `ocf[op_id]` on
this one. -/
def by_transition_id (graph : List (List Successor)) : List (List Successor) :=
  graph.map fun arcs => arcs.map fun s =>
    { transition_id := s.transition_id, op_id := s.transition_id, target_id := s.target_id }

/-- The abstraction with every arc turned round and labelled by its transition id, and
`state_id` as its only goal: its goal distances under `sd_costs` are the distances from
`state_id` that `compute_reachability_from_state_tcf` computes. -/
def ExplicitAbstraction.reversed_by_transition (a : ExplicitAbstraction) (state_id : Nat) :
    ExplicitAbstraction :=
  { a with
    num_operators := (a.for_each_transition.map fun t => t.transition_id).foldl max 0 + 1
    goal_states := [state_id]
    backward_graph := by_transition_id (generate_forward_graph a.backward_graph)
    has_loop := List.replicate
      ((a.for_each_transition.map fun t => t.transition_id).foldl max 0 + 1) false }

/-- The step of the cap saturator that updates the heuristic values for
`reachable = FROM_STATE` in `saturate_ocf`. -/
def update_reachability_ocf (a : ExplicitAbstraction) (fuel : Nat) (ocf h_values : List Int)
    (state_id : Nat) : Option (List Int) :=
  (a.compute_reachability_from_state_ocf fuel
    (compute_reachability_cost_function ocf) state_id).map
    fun reachability => prune_unreachable a.num_states reachability h_values

/-- The step of the cap saturator that updates the heuristic values for
`reachable = FROM_STATE` in `saturate_tcf`. -/
def update_reachability_tcf (a : ExplicitAbstraction) (fuel : Nat)
    (tcf : AbstractTransitionCostFunction) (h_values : List Int) (state_id : Nat) :
    Option (List Int) :=
  (a.compute_reachability_from_state_tcf fuel tcf state_id).map
    fun reachability => prune_unreachable a.num_states reachability h_values


/-! ## Concrete abstractions for the minimality of saturated costs -/

/-- Three states, the goal `1`: operator `0` labels the transition `0 → 1` and operator
`1` the transition `2 → 1`. -/
def two_operator_abstraction : ExplicitAbstraction :=
  { num_operators := 2, num_states := 3, init_state_id := 0, goal_states := [1],
    backward_graph := [[], [⟨0, 0, 0⟩, ⟨1, 1, 2⟩], []], has_loop := [false, false] }

/-- Four states, the goal `1`, three routes from state `0` to the goal: operator `0`
labels `0 → 1`, operator `1` labels `0 → 2` and `3 → 1`, operator `2` labels `2 → 1` and
operator `3` labels `0 → 3`. -/
def three_routes_abstraction : ExplicitAbstraction :=
  { num_operators := 4, num_states := 4, init_state_id := 0, goal_states := [1],
    backward_graph :=
      [[], [⟨0, 0, 0⟩, ⟨1, 1, 3⟩, ⟨2, 2, 2⟩], [⟨3, 1, 0⟩], [⟨4, 3, 0⟩]],
    has_loop := [false, false, false, false] }

/-! ## task_proxy.h: the planning task a projection is built from -/

/-- Modelled from the spec: an operator of the task as `OperatorProxy` presents it
(task_proxy.h is not among the sources): its precondition facts and its effect facts, a
fact being a pair of a variable and a value; effects carry no conditions. -/
structure OperatorProxy where
  preconditions : List FactPair
  effects : List FactPair
deriving DecidableEq, Repr, Inhabited

/-- Modelled from the spec: a planning task as `TaskProxy` presents it (task_proxy.h is not
among the sources): the domain size of every variable, the operators with their costs, the
goal facts and the values of the initial state. -/
structure TaskProxy where
  domain_sizes : List Nat
  operators : List OperatorProxy
  operator_costs : List Int
  goals : List FactPair
  initial_state : List Nat
deriving DecidableEq, Repr

/-! ## task_info.cc: the tables of the task -/

/-- The static function `get_variables` of task_info.cc: the variables of the preconditions
and effects of an operator, sorted, each once. -/
def TaskInfo.get_variables (op : OperatorProxy) : List Nat :=
  (((op.preconditions.map fun fact => fact.var)
    ++ op.effects.map fun fact => fact.var).dedup).insertionSort (fun x y => x ≤ y)

/-- The static function `get_changed_variables` of task_info.cc: the variables of the
effects whose value differs from the value of a precondition on the same variable, sorted.
The map `var_to_precondition` holds the value of the last precondition on a variable. -/
def TaskInfo.get_changed_variables (op : OperatorProxy) : List Nat :=
  ((op.effects.filter fun fact =>
      match op.preconditions.reverse.find? (fun pre => decide (pre.var = fact.var)) with
      | some pre => decide (pre.value ≠ fact.value)
      | none => false).map fun fact => fact.var).insertionSort (fun x y => x ≤ y)

/-- One of the four loops of the constructor of `TaskInfo` that fill a table: the entry
`get_index(op_id, var)` becomes `true` for every variable `var` of the list `vars op`. -/
def TaskInfo.fill_table (num_variables : Nat) (operators : List OperatorProxy)
    (vars : OperatorProxy → List Nat) : List Bool :=
  (List.range operators.length).foldl
    (fun table op_id =>
      (vars (operators.getD op_id default)).foldl
        (fun table var => table.set (op_id * num_variables + var) true) table)
    (List.replicate (operators.length * num_variables) false)

/-- The constructor of `TaskInfo`, for the members of the model. -/
def TaskInfo.create (task : TaskProxy) : TaskInfo :=
  { num_variables := task.domain_sizes.length
    num_operators := task.operators.length
    operator_costs := task.operator_costs
    domain_size := task.domain_sizes
    mentioned_variables :=
      TaskInfo.fill_table task.domain_sizes.length task.operators TaskInfo.get_variables
    pre_eff_variables :=
      TaskInfo.fill_table task.domain_sizes.length task.operators
        TaskInfo.get_changed_variables
    precondition_variables :=
      TaskInfo.fill_table task.domain_sizes.length task.operators
        fun op => op.preconditions.map fun fact => fact.var
    effect_variables :=
      TaskInfo.fill_table task.domain_sizes.length task.operators
        fun op => op.effects.map fun fact => fact.var }

/-- The method `TaskInfo::operator_is_active`. -/
def TaskInfo.operator_is_active (task_info : TaskInfo) (pattern : List Nat) (op_id : Nat) :
    Bool :=
  pattern.any fun var => bget task_info.effect_variables (task_info.get_index op_id var)

/-- The method `TaskInfo::get_num_transitions_from_concrete_operator`. -/
def TaskInfo.get_num_transitions_from_concrete_operator (task_info : TaskInfo)
    (pattern : List Nat) (op_id : Nat) : Int :=
  let r := pattern.foldl
    (fun (acc : Int × Bool) var =>
      let index := task_info.get_index op_id var
      if bget task_info.pre_eff_variables index then (acc.1, true)
      else if bget task_info.effect_variables index then
        (acc.1 * ((task_info.domain_size.getD var 0 : Int) - 1), true)
      else if !bget task_info.precondition_variables index then
        (acc.1 * (task_info.domain_size.getD var 0 : Int), acc.2)
      else acc)
    ((1 : Int), false)
  if r.2 then r.1 else 0

/-- The method `TaskInfo::get_num_transitions_from_abstract_operator`. -/
def TaskInfo.get_num_transitions_from_abstract_operator (task_info : TaskInfo)
    (pattern : List Nat) (op_id : Nat) : Nat :=
  (List.range pattern.length).foldl
    (fun num_transitions i =>
      let var := pattern.getD i 0
      if !task_info.operator_mentions_variable op_id var then
        num_transitions * task_info.domain_size.getD var 0
      else num_transitions)
    1

/-! ## abstraction_function.cc, projection.cc: hashing and transition ids -/

/-- The method `ProjectionFunction::get_abstract_state_id`; a concrete state is the list
of the values of the variables. -/
def ProjectionFunction.get_abstract_state_id (pattern : List Nat)
    (hash_multipliers : List Nat) (concrete_state : List Nat) : Nat :=
  (List.range pattern.length).foldl
    (fun index i =>
      index + hash_multipliers.getD i 0 * concrete_state.getD (pattern.getD i 0) 0)
    0

/-- The method `Projection::compute_state`: the facts of the pattern variables in the
abstract state, for descending positions in the pattern. -/
def Projection.compute_state (p : Projection) (state_id : Nat) : List FactPair :=
  (List.range p.pattern.length).reverse.map fun i =>
    { var := p.pattern.getD i 0
      value := (state_id / p.hash_multipliers.getD i 0) % p.pattern_domain_sizes.getD i 0 }

/-- The method `Projection::get_num_transitions(int op_id)`. -/
def Projection.get_num_transitions (p : Projection) (op_id : Nat) : Int :=
  p.task_info.get_num_transitions_from_concrete_operator p.pattern op_id

/-- The value of an `int` after its conversion to the 64 bit `size_t`. -/
def to_size_t (x : Int) : Int := x % 18446744073709551616

/-- Step 1 of `Projection::get_transition_id`: the loop over the pattern positions from
the last to the first, on the variable `state` and the member `abstract_facts` (pairs of a
pattern position and a value). The division `state / hash_multipliers[i]` is one of an
`int` by a `size_t`, so `state` is converted to `size_t` and the quotient back to `int`;
`state -= val * hash_multipliers[i]` is computed in `size_t` and stored in an `int`. -/
def Projection.extract_abstract_facts (p : Projection) (concrete_op_id : Nat) (state : Int) :
    Int × List (Nat × Int) :=
  (List.range p.pattern.length).reverse.foldl
    (fun (acc : Int × List (Nat × Int)) i =>
      let var := p.pattern.getD i 0
      if !p.task_info.operator_mentions_variable concrete_op_id var then
        let val := wrap_int (to_size_t acc.1 / (p.hash_multipliers.getD i 0 : Int))
        (wrap_int (acc.1 - val * (p.hash_multipliers.getD i 0 : Int)), acc.2 ++ [(i, val)])
      else acc)
    (state, [])

/-- The method `Projection::get_transition_id`. -/
def Projection.get_transition_id (p : Projection) (source_id : Nat) (abs_op_id : Nat) :
    Int :=
  let precondition_hash :=
    (p.abstract_forward_operators.getD abs_op_id default).precondition_hash
  let concrete_op_id :=
    (p.abstract_backward_operators.getD abs_op_id default).concrete_operator_id
  let abstract_facts :=
    (p.extract_abstract_facts concrete_op_id ((source_id : Int) - precondition_hash)).2
  ((List.range abstract_facts.length).foldl
    (fun (acc : Int × Int) i =>
      let fact := abstract_facts.getD (abstract_facts.length - 1 - i) (0, 0)
      (acc.1 + acc.2 * fact.2, acc.2 * (p.pattern_domain_sizes.getD fact.1 0 : Int)))
    ((p.transition_id_offset.getD abs_op_id 0 : Int), (1 : Int))).1

/-- The method `Projection::for_each_transition(si, callback)`: the transitions it passes
to the callback, in order; `fuel` bounds the iterations of each `while` loop. -/
def Projection.for_each_transition_si (p : Projection) (si : List Bool) (fuel : Nat) :
    Option (List Transition) :=
  ((List.range p.abstract_forward_operators.length).foldlM
    (fun (acc : List Transition × Nat) op_id =>
      let op := p.abstract_forward_operators.getD op_id default
      let concrete_op_id := (p.abstract_backward_operators.getD op_id default).concrete_operator_id
      if bget si concrete_op_id then
        some (acc.1, acc.2
          + p.task_info.get_num_transitions_from_abstract_operator p.pattern concrete_op_id)
      else
        (p.enumerate_matches op concrete_op_id fuel (p.unmentioned_facts concrete_op_id)
          acc.2).map fun r => (acc.1 ++ r.1, r.2))
    ([], 0)).map Prod.fst

/-! ## pdbs/match_tree.h -/

/-- Modelled from the spec: `pdbs::MatchTree` (pdbs/match_tree.h is not among the sources),
built for a pattern with its hash multipliers: the inserted abstract operators, each with
the facts (pattern position and value) that a state has to hold for the operator to be
applicable. -/
structure MatchTree where
  hash_multipliers : List Nat
  pattern_domain_sizes : List Nat
  entries : List (Nat × List FactPair)
deriving DecidableEq, Repr

/-- Modelled from the spec: `MatchTree::insert`. -/
def MatchTree.insert (tree : MatchTree) (op_id : Nat) (preconditions : List FactPair) :
    MatchTree :=
  { tree with entries := tree.entries ++ [(op_id, preconditions)] }

/-- Modelled from the spec: `MatchTree::get_applicable_operator_ids`: the inserted
operators all of whose facts hold in the abstract state `state_index`. -/
def MatchTree.get_applicable_operator_ids (tree : MatchTree) (state_index : Nat) : List Nat :=
  (tree.entries.filter fun e =>
    e.2.all fun fact =>
      decide ((state_index / tree.hash_multipliers.getD fact.var 0)
        % tree.pattern_domain_sizes.getD fact.var 0 = fact.value)).map Prod.fst

/-! ## projection.cc: reachability over transition costs -/

/-- The body of the `for` loop of `Projection::compute_reachability_to_state_tcf` for one
applicable abstract operator; the accumulator holds `reachable` and the vector `open` (its
back is the head of the list). -/
def Projection.reachability_to_state_tcf_step (p : Projection) (sd_costs : List Int)
    (current_state : Nat) (acc : List Bool × List Nat) (op_id : Nat) :
    List Bool × List Nat :=
  let predecessor :=
    ((current_state : Int)
      + (p.abstract_backward_operators.getD op_id default).hash_effect).toNat
  let cost := vget sd_costs (p.get_transition_id current_state op_id).toNat
  if !bget acc.1 predecessor && decide (cost ≠ INF) then
    (acc.1.set predecessor true, predecessor :: acc.2)
  else acc

/-- The `while` loop of `Projection::compute_reachability_to_state_tcf`; one unit of fuel
per iteration. -/
def Projection.reachability_to_state_tcf_loop (p : Projection)
    (match_tree_backward : MatchTree) (sd_costs : List Int) :
    Nat → List Nat → List Bool → Option (List Bool)
  | 0, _, _ => none
  | _ + 1, [], reachable => some reachable
  | fuel + 1, current_state :: open_states, reachable =>
    let r := (match_tree_backward.get_applicable_operator_ids current_state).foldl
      (p.reachability_to_state_tcf_step sd_costs current_state) (reachable, open_states)
    p.reachability_to_state_tcf_loop match_tree_backward sd_costs fuel r.2 r.1

/-- The method `Projection::compute_reachability_to_state_tcf`. -/
def Projection.compute_reachability_to_state_tcf (p : Projection)
    (match_tree_backward : MatchTree) (fuel : Nat) (tcf : AbstractTransitionCostFunction)
    (state_id : Nat) : Option (List Bool) :=
  p.reachability_to_state_tcf_loop match_tree_backward tcf.sd_costs fuel [state_id]
    ((List.replicate p.num_states false).set state_id true)

/-- The body of the `for` loop of `Projection::compute_goal_distances_for_non_negative_costs_tcf(tcf)`
for one applicable abstract operator: the cost is read at the id of the transition out of
the predecessor `state + op.hash_effect`. -/
def Projection.dijkstra_relax_tcf (p : Projection) (sd_costs : List Int) (state : Nat)
    (state_distance : Int) (acc : List Int × AdaptiveQueue) (abs_op_id : Nat) :
    List Int × AdaptiveQueue :=
  let successor :=
    ((state : Int) + (p.abstract_backward_operators.getD abs_op_id default).hash_effect).toNat
  let cost := vget sd_costs (p.get_transition_id successor abs_op_id).toNat
  let successor_distance := if cost = INF then INF else state_distance + cost
  if vget acc.1 successor > successor_distance then
    (acc.1.set successor successor_distance,
      AdaptiveQueue.push acc.2 successor_distance successor)
  else acc

/-! ## projection_factory.cc -/

/-- The static function `get_abstract_preconditions`. -/
def get_abstract_preconditions (prev_pairs pre_pairs : List FactPair)
    (hash_multipliers : List Nat) : List Int :=
  pre_pairs.foldl (fun abstract_preconditions fact =>
      abstract_preconditions.set fact.var (fact.value : Int))
    (prev_pairs.foldl (fun abstract_preconditions fact =>
        abstract_preconditions.set fact.var (fact.value : Int))
      (List.replicate hash_multipliers.length (-1)))

/-- The static function `compute_hash_effect`. -/
def compute_hash_effect (preconditions effects : List FactPair)
    (hash_multipliers : List Nat) (forward : Bool) : Int :=
  (List.range preconditions.length).foldl
    (fun hash_effect i =>
      let var := (preconditions.getD i ⟨0, 0⟩).var
      let old_val : Int := (preconditions.getD i ⟨0, 0⟩).value
      let new_val : Int := (effects.getD i ⟨0, 0⟩).value
      let effect :=
        if !forward then (old_val - new_val) * (hash_multipliers.getD var 0 : Int)
        else (new_val - old_val) * (hash_multipliers.getD var 0 : Int)
      hash_effect + effect)
    0

/-- The static function `multiply_out` from position `pos` on, as a function of the
effects without precondition that are left: the arguments `(prevail, preconditions,
effects)` of the calls of the callback, in order. `domain_sizes` holds the domain size of
every variable of the task. -/
def multiply_out (pattern : List Nat) (domain_sizes : List Nat) :
    List FactPair → List FactPair → List FactPair → List FactPair →
      List (List FactPair × List FactPair × List FactPair)
  | [], prev_pairs, pre_pairs, eff_pairs =>
    if eff_pairs ≠ [] then [(prev_pairs, pre_pairs, eff_pairs)] else []
  | e :: effects_without_pre, prev_pairs, pre_pairs, eff_pairs =>
    (List.range (domain_sizes.getD (pattern.getD e.var 0) 0)).flatMap fun i =>
      if i ≠ e.value then
        multiply_out pattern domain_sizes effects_without_pre prev_pairs
          (pre_pairs ++ [⟨e.var, i⟩]) (eff_pairs ++ [⟨e.var, e.value⟩])
      else
        multiply_out pattern domain_sizes effects_without_pre (prev_pairs ++ [⟨e.var, i⟩])
          pre_pairs eff_pairs

/-- The vector `variable_to_pattern_index` of `convert_abstraction`: `-1` for a variable
outside the pattern. -/
def variable_to_pattern_index (num_variables : Nat) (pattern : List Nat) : List Int :=
  (List.range pattern.length).foldl
    (fun v i => v.set (pattern.getD i 0) (i : Int)) (List.replicate num_variables (-1))

/-- The static function `build_abstract_operators`: the arguments `(prevail,
preconditions, effects)` of the calls of the callback, in order. -/
def build_abstract_operators (op : OperatorProxy) (pattern : List Nat)
    (variable_to_pattern_index : List Int) (domain_sizes : List Nat) :
    List (List FactPair × List FactPair × List FactPair) :=
  let has_precondition_on_var := fun (var : Nat) =>
    op.preconditions.any fun pre => decide (pre.var = var)
  let has_precond_and_effect_on_var := fun (var : Nat) =>
    has_precondition_on_var var &&
      op.effects.any fun eff =>
        decide (eff.var = var) && decide (variable_to_pattern_index.getD eff.var (-1) ≠ -1)
  let eff_pairs := op.effects.filterMap fun eff =>
    if variable_to_pattern_index.getD eff.var (-1) ≠ -1 ∧ has_precondition_on_var eff.var then
      some (⟨(variable_to_pattern_index.getD eff.var (-1)).toNat, eff.value⟩ : FactPair)
    else none
  let effects_without_pre := op.effects.filterMap fun eff =>
    if variable_to_pattern_index.getD eff.var (-1) ≠ -1 ∧ ¬ has_precondition_on_var eff.var then
      some (⟨(variable_to_pattern_index.getD eff.var (-1)).toNat, eff.value⟩ : FactPair)
    else none
  let pre_pairs := op.preconditions.filterMap fun pre =>
    if variable_to_pattern_index.getD pre.var (-1) ≠ -1 ∧ has_precond_and_effect_on_var pre.var
    then some (⟨(variable_to_pattern_index.getD pre.var (-1)).toNat, pre.value⟩ : FactPair)
    else none
  let prev_pairs := op.preconditions.filterMap fun pre =>
    if variable_to_pattern_index.getD pre.var (-1) ≠ -1 ∧
        ¬ has_precond_and_effect_on_var pre.var
    then some (⟨(variable_to_pattern_index.getD pre.var (-1)).toNat, pre.value⟩ : FactPair)
    else none
  multiply_out pattern domain_sizes effects_without_pre prev_pairs pre_pairs eff_pairs

/-- The static function `is_consistent`. -/
def is_consistent (state_index : Nat) (hash_multipliers : List Nat)
    (pattern_domain_sizes : List Nat) (abstract_facts : List FactPair) : Bool :=
  abstract_facts.all fun abstract_goal =>
    decide ((state_index / hash_multipliers.getD abstract_goal.var 0)
      % pattern_domain_sizes.getD abstract_goal.var 0 = abstract_goal.value)

/-- The static function `compute_goal_states`; the set lists its states in ascending
order. -/
def compute_goal_states (num_states : Nat) (goals : List FactPair)
    (hash_multipliers : List Nat) (pattern_domain_sizes : List Nat)
    (variable_to_pattern_index : List Int) : List Nat :=
  let abstract_goals := goals.filterMap fun goal =>
    if variable_to_pattern_index.getD goal.var (-1) ≠ -1 then
      some (⟨(variable_to_pattern_index.getD goal.var (-1)).toNat, goal.value⟩ : FactPair)
    else none
  (List.range num_states).filter fun state_index =>
    is_consistent state_index hash_multipliers pattern_domain_sizes abstract_goals

/-- Modelled from the spec: `utils::is_product_within_limit` (utils/math.h is not among the
sources), on nonnegative factors. -/
def is_product_within_limit (factor1 factor2 limit : Int) : Bool :=
  decide (factor1 * factor2 ≤ limit)

/-- The first loop of `convert_abstraction`: the hash multipliers and the number of
states; `none` is the exit "Given pattern is too large". -/
def compute_hash_multipliers (domain_sizes : List Nat) (pattern : List Nat) :
    Option (List Nat × Nat) :=
  pattern.foldlM
    (fun (acc : List Nat × Nat) pattern_var_id =>
      if is_product_within_limit acc.2 (domain_sizes.getD pattern_var_id 0) INT_MAX then
        some (acc.1 ++ [acc.2], acc.2 * domain_sizes.getD pattern_var_id 0)
      else none)
    ([], 1)

/-- What the callback of `convert_abstraction` builds up: the abstract operators, the two
match trees, the offsets of the transition ids and the number of transitions so far. -/
structure AbstractOperators where
  abstract_forward_operators : List AbstractForwardOperator
  abstract_backward_operators : List AbstractBackwardOperator
  match_tree_forward : MatchTree
  match_tree_backward : MatchTree
  transition_id_offset : List Nat
  total_num_transitions : Nat
deriving DecidableEq, Repr

/-- The order `operator<` of `FactPair`: by variable, then by value. -/
def FactPair.le (a b : FactPair) : Prop :=
  a.var < b.var ∨ (a.var = b.var ∧ a.value ≤ b.value)

instance (a b : FactPair) : Decidable (FactPair.le a b) := by
  unfold FactPair.le
  exact inferInstance

/-- The sum `precondition_hash` that the callback of `convert_abstraction` computes from
the abstract preconditions. -/
def compute_precondition_hash (hash_multipliers : List Nat)
    (abstract_preconditions : List Int) : Int :=
  (List.range hash_multipliers.length).foldl
    (fun precondition_hash pos =>
      let pre_val := abstract_preconditions.getD pos (-1)
      if pre_val ≠ -1 then precondition_hash + (hash_multipliers.getD pos 0 : Int) * pre_val
      else precondition_hash)
    0

/-- The callback that `convert_abstraction` passes to `build_abstract_operators`, for one
call. -/
def add_abstract_operator (task_info : TaskInfo) (pattern : List Nat)
    (hash_multipliers : List Nat) (concrete_operator_id : Nat) (acc : AbstractOperators)
    (call : List FactPair × List FactPair × List FactPair) : AbstractOperators :=
  let prevail := call.1
  let preconditions := call.2.1
  let effects := call.2.2
  let abs_op_id := acc.abstract_backward_operators.length
  let regression_preconditions := (prevail ++ effects).insertionSort FactPair.le
  let abstract_preconditions := get_abstract_preconditions prevail preconditions hash_multipliers
  let precondition_hash := compute_precondition_hash hash_multipliers abstract_preconditions
  let prevails_and_preconditions := (prevail ++ preconditions).insertionSort FactPair.le
  { abstract_forward_operators :=
      acc.abstract_forward_operators ++
        [⟨precondition_hash.toNat,
          compute_hash_effect preconditions effects hash_multipliers true⟩]
    abstract_backward_operators :=
      acc.abstract_backward_operators ++
        [⟨concrete_operator_id,
          compute_hash_effect preconditions effects hash_multipliers false⟩]
    match_tree_forward := acc.match_tree_forward.insert abs_op_id prevails_and_preconditions
    match_tree_backward := acc.match_tree_backward.insert abs_op_id regression_preconditions
    transition_id_offset := acc.transition_id_offset ++ [acc.total_num_transitions]
    total_num_transitions :=
      acc.total_num_transitions
        + task_info.get_num_transitions_from_abstract_operator pattern concrete_operator_id }

/-- The loop of `convert_abstraction` over the operators of the task. -/
def compute_abstract_operators (task : TaskProxy) (task_info : TaskInfo) (pattern : List Nat)
    (hash_multipliers : List Nat) : AbstractOperators :=
  (List.range task.operators.length).foldl
    (fun acc op_id =>
      (build_abstract_operators (task.operators.getD op_id default) pattern
        (variable_to_pattern_index task.domain_sizes.length pattern)
        task.domain_sizes).foldl
        (add_abstract_operator task_info pattern hash_multipliers op_id) acc)
    { abstract_forward_operators := []
      abstract_backward_operators := []
      match_tree_forward :=
        ⟨hash_multipliers, pattern.map fun var => task.domain_sizes.getD var 0, []⟩
      match_tree_backward :=
        ⟨hash_multipliers, pattern.map fun var => task.domain_sizes.getD var 0, []⟩
      transition_id_offset := []
      total_num_transitions := 0 }

/-- The method `ProjectionFactory::convert_abstraction`: the projection with its two match
trees; `none` is the exit "Given pattern is too large". -/
def ProjectionFactory.convert_abstraction (task : TaskProxy) (pattern : List Nat)
    (task_info : TaskInfo) : Option (Projection × MatchTree × MatchTree) :=
  (compute_hash_multipliers task.domain_sizes pattern).map fun hm =>
    let hash_multipliers := hm.1
    let num_states := hm.2
    let pattern_domain_sizes := pattern.map fun var => task.domain_sizes.getD var 0
    let ops := compute_abstract_operators task task_info pattern hash_multipliers
    ({ task_info := task_info
       num_transitions := ops.total_num_transitions
       num_states := num_states
       init_state_id :=
         ProjectionFunction.get_abstract_state_id pattern hash_multipliers task.initial_state
       goal_states :=
         compute_goal_states num_states task.goals hash_multipliers pattern_domain_sizes
           (variable_to_pattern_index task.domain_sizes.length pattern)
       pattern := pattern
       hash_multipliers := hash_multipliers
       pattern_domain_sizes := pattern_domain_sizes
       abstract_forward_operators := ops.abstract_forward_operators
       abstract_backward_operators := ops.abstract_backward_operators
       transition_id_offset := ops.transition_id_offset },
      ops.match_tree_forward, ops.match_tree_backward)

/-! ## Predicates on tasks and patterns -/

/-- The operator is one of a task in the normal form of the planner: its facts name
variables of the task with values of their domains, it has at most one precondition and at
most one effect on a variable, an effect changes the value its precondition asks for, and
the preconditions on variables with an effect come in the order of these effects. -/
def OperatorProxy.WellFormed (op : OperatorProxy) (domain_sizes : List Nat) : Prop :=
  (∀ fact ∈ op.preconditions ++ op.effects,
    fact.var < domain_sizes.length ∧ fact.value < domain_sizes.getD fact.var 0) ∧
  (op.preconditions.map fun fact => fact.var).Nodup ∧
  (op.effects.map fun fact => fact.var).Nodup ∧
  (∀ pre ∈ op.preconditions, ∀ eff ∈ op.effects, pre.var = eff.var → pre.value ≠ eff.value) ∧
  ((op.preconditions.filter fun pre => op.effects.any fun eff => decide (eff.var = pre.var)).map
      fun fact => fact.var)
    = ((op.effects.filter fun eff =>
        op.preconditions.any fun pre => decide (pre.var = eff.var)).map fun fact => fact.var)

instance (op : OperatorProxy) (domain_sizes : List Nat) :
    Decidable (op.WellFormed domain_sizes) := by
  unfold OperatorProxy.WellFormed
  exact inferInstance

/-- The task is in the normal form of the planner: every variable has a value and every
operator is well formed. -/
def TaskProxy.WellFormed (task : TaskProxy) : Prop :=
  (∀ d ∈ task.domain_sizes, 1 ≤ d) ∧ ∀ op ∈ task.operators, op.WellFormed task.domain_sizes

instance (task : TaskProxy) : Decidable task.WellFormed := by
  unfold TaskProxy.WellFormed
  exact inferInstance

/-- The pattern is one `convert_abstraction` accepts: sorted, without repetition, not
empty, of variables of the task. -/
def PatternValid (domain_sizes : List Nat) (pattern : List Nat) : Prop :=
  pattern.Pairwise (fun x y => x < y) ∧ pattern ≠ [] ∧ ∀ var ∈ pattern, var < domain_sizes.length

instance (domain_sizes : List Nat) (pattern : List Nat) :
    Decidable (PatternValid domain_sizes pattern) := by
  unfold PatternValid
  exact inferInstance

/-- The concrete state with the given facts, every other variable at `0`. -/
def state_with_facts (num_variables : Nat) (facts : List FactPair) : List Nat :=
  facts.foldl (fun state fact => state.set fact.var fact.value) (List.replicate num_variables 0)

/-! ## Concrete tasks -/

/-- Two binary variables and one operator without precondition that sets both to `1`. -/
def two_effects_task : TaskProxy :=
  { domain_sizes := [2, 2]
    operators := [⟨[], [⟨0, 1⟩, ⟨1, 1⟩]⟩]
    operator_costs := [1]
    goals := [⟨0, 1⟩, ⟨1, 1⟩]
    initial_state := [0, 0] }

/-- Two binary variables; operator `0` changes variable `1` from `0` to `1`, operator `1`
changes variable `0` from `0` to `1`. -/
def two_switches_task : TaskProxy :=
  { domain_sizes := [2, 2]
    operators := [⟨[⟨1, 0⟩], [⟨1, 1⟩]⟩, ⟨[⟨0, 0⟩], [⟨0, 1⟩]⟩]
    operator_costs := [1, 1]
    goals := [⟨0, 1⟩, ⟨1, 1⟩]
    initial_state := [0, 0] }

/-- The transition system of the projection of `two_switches_task` to both variables as an
explicit abstraction, with the transition ids of the projection: `0 → 2` (id `0`) and
`1 → 3` (id `1`) of operator `0`, `0 → 1` (id `2`) and `2 → 3` (id `3`) of operator `1`. -/
def two_switches_abstraction : ExplicitAbstraction :=
  { num_operators := 2, num_states := 4, init_state_id := 0, goal_states := [3],
    backward_graph := [[], [⟨2, 1, 0⟩], [⟨0, 0, 0⟩], [⟨1, 0, 1⟩, ⟨3, 1, 2⟩]],
    has_loop := [false, false] }

/-- The method `ExplicitAbstraction::compute_reachability_to_state_tcf`. -/
def ExplicitAbstraction.compute_reachability_to_state_tcf (a : ExplicitAbstraction)
    (fuel : Nat) (tcf : AbstractTransitionCostFunction) (state_id : Nat) :
    Option (List Bool) :=
  (dijkstra_search_tcf a.backward_graph tcf.sd_costs fuel [(0, state_id)]
    ((List.replicate a.num_states INF).set state_id 0)).map
    (distances_to_reachability a.num_states)

/-- The projection of `two_switches_task` to both variables, as `convert_abstraction`
builds it. -/
def two_switches_projection : Projection :=
  { task_info :=
      { num_variables := 2, num_operators := 2, operator_costs := [1, 1],
        domain_size := [2, 2],
        mentioned_variables := [false, true, true, false],
        pre_eff_variables := [false, true, true, false],
        precondition_variables := [false, true, true, false],
        effect_variables := [false, true, true, false] },
    num_transitions := 4, num_states := 4, init_state_id := 0, goal_states := [3],
    pattern := [0, 1], hash_multipliers := [1, 2], pattern_domain_sizes := [2, 2],
    abstract_forward_operators := [⟨0, 2⟩, ⟨0, 1⟩],
    abstract_backward_operators := [⟨0, -2⟩, ⟨1, -1⟩],
    transition_id_offset := [0, 2] }

/-- The forward match tree of `two_switches_projection`. -/
def two_switches_match_tree_forward : MatchTree :=
  ⟨[1, 2], [2, 2], [(0, [⟨1, 0⟩]), (1, [⟨0, 0⟩])]⟩

/-- The backward match tree of `two_switches_projection`. -/
def two_switches_match_tree_backward : MatchTree :=
  ⟨[1, 2], [2, 2], [(0, [⟨1, 1⟩]), (1, [⟨0, 1⟩])]⟩

/-! ## Auxiliary notions for the hashing of projections -/

/-- The sum of `hash_multipliers[j] * value j` over the pattern positions `j < i`: the
loop of `get_abstract_state_id` after `i` iterations, on the values `value j` of the
pattern variables. -/
def partial_hash (hash_multipliers : List Nat) (value : Nat → Nat) (i : Nat) : Nat :=
  (List.range i).foldl (fun index j => index + hash_multipliers.getD j 0 * value j) 0

/-- The hash multipliers of a pattern with the domain sizes `sizes`: the multiplier of a
position is the product of the domain sizes of the positions before it. -/
def HashMultipliers (hash_multipliers sizes : List Nat) : Prop :=
  hash_multipliers.length = sizes.length ∧
    ∀ i, i < sizes.length → hash_multipliers.getD i 0 = (sizes.take i).prod

/-- The number that the facts of an odometer stand for: the value of the first fact counts
once, the value of each later fact as often as the domain sizes of the facts before it
multiply to. -/
def odometer_value (pattern_domain_sizes : List Nat) : List FactPair → Nat
  | [] => 0
  | fact :: rest =>
    fact.value + pattern_domain_sizes.getD fact.var 0 * odometer_value pattern_domain_sizes rest

/-- The number of assignments to the facts of an odometer. -/
def odometer_size (pattern_domain_sizes : List Nat) : List FactPair → Nat
  | [] => 1
  | fact :: rest =>
    pattern_domain_sizes.getD fact.var 0 * odometer_size pattern_domain_sizes rest

/-- The pattern positions whose variable the operator does not mention, ascending. -/
def Projection.unmentioned_positions (p : Projection) (concrete_op_id : Nat) : List Nat :=
  (List.range p.pattern.length).filter fun i =>
    !p.task_info.operator_mentions_variable concrete_op_id (p.pattern.getD i 0)

/-- The members of a projection fit together as `convert_abstraction` builds them: the hash
multipliers belong to the domain sizes of the pattern variables, which are those of the
task and not zero, the states are the assignments to the pattern and their number fits an
`int`, there is one backward operator and one offset for every forward operator, and the
offset of an abstract operator is the number of transitions of the abstract operators
before it. -/
structure Projection.Consistent (p : Projection) : Prop where
  multipliers : HashMultipliers p.hash_multipliers p.pattern_domain_sizes
  sizes : p.pattern_domain_sizes = p.pattern.map fun var => p.task_info.domain_size.getD var 0
  positive : ∀ d ∈ p.pattern_domain_sizes, 1 ≤ d
  states : p.num_states = p.pattern_domain_sizes.prod
  in_range : (p.num_states : Int) ≤ INT_MAX
  backward : p.abstract_backward_operators.length = p.abstract_forward_operators.length
  offsets : p.transition_id_offset.length = p.abstract_forward_operators.length
  offset : ∀ a, a < p.abstract_forward_operators.length →
    p.transition_id_offset.getD a 0
      = ((List.range a).map fun b =>
          p.task_info.get_num_transitions_from_abstract_operator p.pattern
            (p.abstract_backward_operators.getD b default).concrete_operator_id).sum
  transitions : p.num_transitions
    = ((List.range p.abstract_forward_operators.length).map fun b =>
        p.task_info.get_num_transitions_from_abstract_operator p.pattern
          (p.abstract_backward_operators.getD b default).concrete_operator_id).sum

/-- The state that `for_each_transition` computes from the facts of the odometer. -/
def Projection.match_state (p : Projection) (op : AbstractForwardOperator)
    (abstract_facts : List FactPair) : Nat :=
  abstract_facts.foldl
    (fun state fact => state + p.hash_multipliers.getD fact.var 0 * fact.value)
    op.precondition_hash

/-- The transitions that `for_each_transition(callback)` passes to the callback while it
processes the abstract operator `abs_op_id`: the loop over the abstract operators before
it, then the `while` loop for `abs_op_id`. -/
def Projection.transitions_of_abstract_operator (p : Projection) (fuel : Nat)
    (abs_op_id : Nat) : Option (List Transition) :=
  ((List.range abs_op_id).foldlM
    (fun (acc : List Transition × Nat) op_id =>
      let op := p.abstract_forward_operators.getD op_id default
      let concrete_op_id := (p.abstract_backward_operators.getD op_id default).concrete_operator_id
      (p.enumerate_matches op concrete_op_id fuel (p.unmentioned_facts concrete_op_id)
        acc.2).map fun r => (acc.1 ++ r.1, r.2))
    ([], 0)).bind fun acc =>
      (p.enumerate_matches (p.abstract_forward_operators.getD abs_op_id default)
        (p.abstract_backward_operators.getD abs_op_id default).concrete_operator_id fuel
        (p.unmentioned_facts
          (p.abstract_backward_operators.getD abs_op_id default).concrete_operator_id)
        acc.2).map Prod.fst

/-- The value that a list of facts gives to the position `i`: the value of its first fact
on `i`, and `0` when it has none. -/
def facts_value (facts : List FactPair) (i : Nat) : Nat :=
  ((facts.find? fun fact => decide (fact.var = i)).map fun fact => fact.value).getD 0

/-! ## Auxiliary notions for the abstract operators of a projection -/

/-- The arguments `(prevail, preconditions, effects)` of a call of the callback of
`build_abstract_operators` fit a pattern with the domain sizes `sizes` and an operator that
mentions the pattern positions `mentioned`: the effects change the values of the
preconditions, fact by fact, there is an effect, no two preconditions share a position,
and all facts are on positions the operator mentions with values of their domains. -/
structure AbstractCall (sizes : List Nat) (mentioned : Nat → Prop)
    (call : List FactPair × List FactPair × List FactPair) : Prop where
  changes : List.Forall₂ (fun pre eff : FactPair => pre.var = eff.var ∧ pre.value ≠ eff.value)
    call.2.1 call.2.2
  nonempty : call.2.2 ≠ []
  nodup : (call.2.1.map fun f => f.var).Nodup
  pre_valid : ∀ f ∈ call.1 ++ call.2.1,
    f.var < sizes.length ∧ f.value < sizes.getD f.var 0 ∧ mentioned f.var
  eff_valid : ∀ f ∈ call.2.2, f.value < sizes.getD f.var 0

/-- What the loop of `convert_abstraction` over the operators keeps true of the abstract
operators built so far: there are as many forward operators and offsets as backward
operators, the offset of an abstract operator is the number of transitions of those before
it, the total is the number of transitions of all of them, and every abstract operator
comes from a call of the callback for its operator of the task. -/
structure AbstractOperators.Consistent (task : TaskProxy) (task_info : TaskInfo)
    (pattern : List Nat) (hash_multipliers : List Nat) (acc : AbstractOperators) : Prop where
  forward : acc.abstract_forward_operators.length = acc.abstract_backward_operators.length
  offsets : acc.transition_id_offset.length = acc.abstract_backward_operators.length
  offset : ∀ a, a < acc.abstract_backward_operators.length →
    acc.transition_id_offset.getD a 0
      = ((List.range a).map fun b =>
          task_info.get_num_transitions_from_abstract_operator pattern
            (acc.abstract_backward_operators.getD b default).concrete_operator_id).sum
  total : acc.total_num_transitions
    = ((List.range acc.abstract_backward_operators.length).map fun b =>
        task_info.get_num_transitions_from_abstract_operator pattern
          (acc.abstract_backward_operators.getD b default).concrete_operator_id).sum
  calls : ∀ a, a < acc.abstract_backward_operators.length →
    (acc.abstract_backward_operators.getD a default).concrete_operator_id
      < task.operators.length ∧
    ∃ call ∈ build_abstract_operators
        (task.operators.getD
          (acc.abstract_backward_operators.getD a default).concrete_operator_id default)
        pattern (variable_to_pattern_index task.domain_sizes.length pattern) task.domain_sizes,
      acc.abstract_forward_operators.getD a default
        = ⟨(compute_precondition_hash hash_multipliers
              (get_abstract_preconditions call.1 call.2.1 hash_multipliers)).toNat,
            compute_hash_effect call.2.1 call.2.2 hash_multipliers true⟩

/-! ## projection.cc: reachability from a state -/

/-- The body of the `for` loop of `Projection::compute_reachability_from_state_ocf` for one
applicable abstract operator; the accumulator holds `reachable` and the vector `open` (its
back is the head of the list). -/
def Projection.reachability_from_state_ocf_step (p : Projection) (ocf : List Int)
    (current_state : Nat) (acc : List Bool × List Nat) (op_id : Nat) :
    List Bool × List Nat :=
  let successor :=
    ((current_state : Int)
      + (p.abstract_forward_operators.getD op_id default).hash_effect).toNat
  if !bget acc.1 successor &&
      decide (vget ocf (p.abstract_backward_operators.getD op_id default).concrete_operator_id
        ≠ INF) then
    (acc.1.set successor true, successor :: acc.2)
  else acc

/-- The `while` loop of `Projection::compute_reachability_from_state_ocf`; one unit of fuel
per iteration. -/
def Projection.reachability_from_state_ocf_loop (p : Projection)
    (match_tree_forward : MatchTree) (ocf : List Int) :
    Nat → List Nat → List Bool → Option (List Bool)
  | 0, _, _ => none
  | _ + 1, [], reachable => some reachable
  | fuel + 1, current_state :: open_states, reachable =>
    let r := (match_tree_forward.get_applicable_operator_ids current_state).foldl
      (p.reachability_from_state_ocf_step ocf current_state) (reachable, open_states)
    p.reachability_from_state_ocf_loop match_tree_forward ocf fuel r.2 r.1

/-- The method `Projection::compute_reachability_from_state_ocf`. -/
def Projection.compute_reachability_from_state_ocf (p : Projection)
    (match_tree_forward : MatchTree) (fuel : Nat) (ocf : List Int) (state_id : Nat) :
    Option (List Bool) :=
  p.reachability_from_state_ocf_loop match_tree_forward ocf fuel [state_id]
    ((List.replicate p.num_states false).set state_id true)

/-- The body of the `for` loop of `Projection::compute_reachability_from_state_tcf` for one
applicable abstract operator: the cost is read at the id of the transition of the operator
out of the current state. -/
def Projection.reachability_from_state_tcf_step (p : Projection) (sd_costs : List Int)
    (current_state : Nat) (acc : List Bool × List Nat) (op_id : Nat) :
    List Bool × List Nat :=
  let successor :=
    ((current_state : Int)
      + (p.abstract_forward_operators.getD op_id default).hash_effect).toNat
  let cost := vget sd_costs (p.get_transition_id current_state op_id).toNat
  if !bget acc.1 successor && decide (cost ≠ INF) then
    (acc.1.set successor true, successor :: acc.2)
  else acc

/-- The `while` loop of `Projection::compute_reachability_from_state_tcf`; one unit of fuel
per iteration. -/
def Projection.reachability_from_state_tcf_loop (p : Projection)
    (match_tree_forward : MatchTree) (sd_costs : List Int) :
    Nat → List Nat → List Bool → Option (List Bool)
  | 0, _, _ => none
  | _ + 1, [], reachable => some reachable
  | fuel + 1, current_state :: open_states, reachable =>
    let r := (match_tree_forward.get_applicable_operator_ids current_state).foldl
      (p.reachability_from_state_tcf_step sd_costs current_state) (reachable, open_states)
    p.reachability_from_state_tcf_loop match_tree_forward sd_costs fuel r.2 r.1

/-- The method `Projection::compute_reachability_from_state_tcf`. -/
def Projection.compute_reachability_from_state_tcf (p : Projection)
    (match_tree_forward : MatchTree) (fuel : Nat) (tcf : AbstractTransitionCostFunction)
    (state_id : Nat) : Option (List Bool) :=
  p.reachability_from_state_tcf_loop match_tree_forward tcf.sd_costs fuel [state_id]
    ((List.replicate p.num_states false).set state_id true)

/-- The step of the cap saturator that updates the heuristic values for
`reachable = FROM_STATE` in `saturate_ocf`, on a projection. -/
def Projection.update_reachability_ocf (p : Projection) (match_tree_forward : MatchTree)
    (fuel : Nat) (ocf h_values : List Int) (state_id : Nat) : Option (List Int) :=
  (p.compute_reachability_from_state_ocf match_tree_forward fuel
    (compute_reachability_cost_function ocf) state_id).map
    fun reachability => prune_unreachable p.num_states reachability h_values

/-- The step of the cap saturator that updates the heuristic values for
`reachable = FROM_STATE` in `saturate_tcf`, on a projection. -/
def Projection.update_reachability_tcf (p : Projection) (match_tree_forward : MatchTree)
    (fuel : Nat) (tcf : AbstractTransitionCostFunction) (h_values : List Int)
    (state_id : Nat) : Option (List Int) :=
  (p.compute_reachability_from_state_tcf match_tree_forward fuel tcf state_id).map
    fun reachability => prune_unreachable p.num_states reachability h_values

/-- One variable with the values `0`, `1`, `2`; operator `0` changes it from `0` to `1`,
operator `1` from `1` to `2`; the goal is the value `2`. -/
def one_variable_chain_task : TaskProxy :=
  { domain_sizes := [3]
    operators := [⟨[⟨0, 0⟩], [⟨0, 1⟩]⟩, ⟨[⟨0, 1⟩], [⟨0, 2⟩]⟩]
    operator_costs := [1, 1]
    goals := [⟨0, 2⟩]
    initial_state := [0] }
/-! ## An abstraction with a dead end -/

/-- Three states, the goal `1`: operator `0` labels the transition `0 → 1` (id `0`) and
operator `1` the transition `1 → 2` (id `1`); no transition leaves state `2`, so no goal
state can be reached from it. -/
def dead_end_abstraction : ExplicitAbstraction :=
  { num_operators := 2, num_states := 3, init_state_id := 0, goal_states := [1],
    backward_graph := [[], [⟨0, 0, 0⟩], [⟨1, 1, 1⟩]], has_loop := [false, false] }

/-! # Theorems -/

/-! ## Lists -/

theorem getD_set_eq {α : Type} (l : List α) (i j : Nat) (a d : α) :
    (l.set i a).getD j d = if i = j ∧ i < l.length then a else l.getD j d := by
  rw [List.getD_eq_getElem?_getD, List.getD_eq_getElem?_getD, List.getElem?_set]
  by_cases h : i = j
  · by_cases h2 : i < l.length
    · subst h
      simp [h2]
    · have h3 : l[i]? = none := by
        rw [List.getElem?_eq_none_iff]; omega
      subst h
      simp [h2, h3]
  · simp [h]

theorem getD_map_range {α : Type} (f : Nat → α) (n j : Nat) (d : α) :
    ((List.range n).map f).getD j d = if j < n then f j else d := by
  rw [List.getD_eq_getElem?_getD]
  by_cases h : j < n
  · simp [h]
  · have h3 : (List.map f (List.range n))[j]? = none := by
      rw [List.getElem?_eq_none_iff]; simp; omega
    simp [h, h3]

/-! ## Bellman-Ford on cycles of negative cost -/

/-- With the goal `1`, the four-state cycle of costs `1, 1, 1, -4` gets `-INF` everywhere. -/
theorem four_cycle_goal_one_all_neg_inf :
    (four_cycle_abstraction [1]).compute_goal_distances_ocf 5 [1, 1, 1, -4]
      = some [-INF, -INF, -INF, -INF] := by
  rfl

theorem goal_cycle_restart_none (fuel : Nat) :
    ∀ d, bellman_ford_reset goal_cycle_abstraction d = [0, 0] →
      bellman_ford_restart goal_cycle_abstraction
        goal_cycle_abstraction.compute_reachability_to_state_ocf [-1, -1] fuel d = none := by
  induction fuel with
  | zero => intro d _; rfl
  | succ n ih =>
    intro d hd
    rw [bellman_ford_restart, hd]
    match n, ih with
    | 0, _ => rfl
    | 1, _ => rfl
    | m + 2, ih =>
      have h : bellman_ford_rounds goal_cycle_abstraction
          goal_cycle_abstraction.compute_reachability_to_state_ocf (m + 2 + 1) [-1, -1] 0
          goal_cycle_abstraction.num_states [0, 0] false = some ([-INF, -INF], true) := rfl
      rw [h]
      exact ih [-INF, -INF] rfl

theorem four_cycle_restart_none (fuel : Nat) :
    ∀ d, bellman_ford_reset (four_cycle_abstraction [0, 1, 2, 3]) d = [0, 0, 0, 0] →
      bellman_ford_restart (four_cycle_abstraction [0, 1, 2, 3])
        (four_cycle_abstraction [0, 1, 2, 3]).compute_reachability_to_state_ocf [1, 1, 1, -4] fuel d
        = none := by
  induction fuel with
  | zero => intro d _; rfl
  | succ n ih =>
    intro d hd
    rw [bellman_ford_restart, hd]
    match n, ih with
    | 0, _ => rfl
    | 1, _ => rfl
    | 2, _ => rfl
    | 3, _ => rfl
    | m + 4, ih =>
      have h : bellman_ford_rounds (four_cycle_abstraction [0, 1, 2, 3])
          (four_cycle_abstraction [0, 1, 2, 3]).compute_reachability_to_state_ocf (m + 4 + 1)
          [1, 1, 1, -4] 0 (four_cycle_abstraction [0, 1, 2, 3]).num_states [0, 0, 0, 0] false
            = some ([-1, -2, -INF, -INF], true) := rfl
      rw [h]
      exact ih [-1, -2, -INF, -INF] rfl

/-- C5 (the code at the failing input): on the four-state cycle `0 → 1 → 2 → 3 → 0` with
costs `1, 1, 1, -4`, when every state of the cycle is a goal, `compute_goal_distances_ocf`
returns for no amount of fuel, so no state of the cycle gets the distance `-INF`. -/
theorem bellman_ford_four_goal_cycle_never_returns (fuel : Nat) :
    (four_cycle_abstraction [0, 1, 2, 3]).compute_goal_distances_ocf fuel [1, 1, 1, -4]
      = none := by
  have h : (four_cycle_abstraction [0, 1, 2, 3]).compute_goal_distances_ocf fuel [1, 1, 1, -4]
      = bellman_ford_restart (four_cycle_abstraction [0, 1, 2, 3])
        (four_cycle_abstraction [0, 1, 2, 3]).compute_reachability_to_state_ocf [1, 1, 1, -4] fuel
          [INF, INF, INF, INF] := rfl
  rw [h]
  exact four_cycle_restart_none fuel _ rfl

/-- C6 (the code at the failing input): on two goal states joined by a cycle of costs
`-1, -1` the restart loop of `compute_goal_distances_for_negative_costs_ocf` never ends:
the function returns for no amount of fuel. -/
theorem bellman_ford_goal_cycle_never_returns (fuel : Nat) :
    goal_cycle_abstraction.compute_goal_distances_for_negative_costs_ocf fuel [-1, -1]
      = none := by
  have h : goal_cycle_abstraction.compute_goal_distances_for_negative_costs_ocf fuel [-1, -1]
      = bellman_ford_restart goal_cycle_abstraction
        goal_cycle_abstraction.compute_reachability_to_state_ocf [-1, -1] fuel [INF, INF] := rfl
  rw [h]
  exact goal_cycle_restart_none fuel _ rfl
/-! ## Bucket maps: insertion -/

section buckets
variable {σ : Type} [DecidableEq σ]

theorem bucket_union_nil : bucket_union ([] : List (Int × Finset σ)) = ∅ := rfl

theorem bucket_union_cons (e : Int × Finset σ) (m : List (Int × Finset σ)) :
    bucket_union (e :: m) = e.2 ∪ bucket_union m := rfl

theorem mem_bucket_union {m : List (Int × Finset σ)} {s : σ} :
    s ∈ bucket_union m ↔ ∃ e ∈ m, s ∈ e.2 := by
  induction m with
  | nil => simp [bucket_union_nil]
  | cons e m ih => simp [bucket_union_cons, ih]

theorem disjoint_bucket_union {m : List (Int × Finset σ)} {b : Finset σ} :
    Disjoint b (bucket_union m) ↔ ∀ e ∈ m, Disjoint b e.2 := by
  induction m with
  | nil => simp [bucket_union_nil]
  | cons e m ih => simp [bucket_union_cons, Finset.disjoint_union_right, ih]

theorem bucketsDisjoint_cons {e : Int × Finset σ} {m : List (Int × Finset σ)} :
    BucketsDisjoint (e :: m) ↔ Disjoint e.2 (bucket_union m) ∧ BucketsDisjoint m := by
  unfold BucketsDisjoint
  rw [List.pairwise_cons, disjoint_bucket_union]

theorem bucket_union_map_add (k : Int) (b : Finset σ) (m : BucketMap σ) :
    bucket_union (map_add k b m) = bucket_union m ∪ b := by
  induction m with
  | nil => simp [map_add, bucket_union_cons, bucket_union_nil]
  | cons e m ih =>
    unfold map_add
    split_ifs with h1 h2
    · simp only [bucket_union_cons]
      ext s; simp only [Finset.mem_union]; tauto
    · simp only [bucket_union_cons]
      ext s; simp only [Finset.mem_union]; tauto
    · simp only [bucket_union_cons, ih]
      ext s; simp only [Finset.mem_union]; tauto

theorem bucket_union_insert_cost_value (k : Int) (b : Finset σ) (m : BucketMap σ) :
    bucket_union (insert_cost_value k b m) = bucket_union m ∪ b := by
  unfold insert_cost_value
  split_ifs with h
  · simp [h]
  · exact bucket_union_map_add k b m

theorem keys_map_add {k : Int} {b : Finset σ} {m : BucketMap σ} {e : Int × Finset σ}
    (he : e ∈ map_add k b m) : e.1 = k ∨ ∃ f ∈ m, f.1 = e.1 := by
  induction m with
  | nil =>
    simp only [map_add, List.mem_singleton] at he
    left; rw [he]
  | cons f m ih =>
    unfold map_add at he
    split_ifs at he with h1 h2
    · rcases List.mem_cons.1 he with h | h
      · left; rw [h]; exact h1.symm
      · right; exact ⟨e, List.mem_cons_of_mem _ h, rfl⟩
    · rcases List.mem_cons.1 he with h | h
      · left; rw [h]
      · right; exact ⟨e, h, rfl⟩
    · rcases List.mem_cons.1 he with h | h
      · right; exact ⟨f, List.mem_cons_self _ _, by rw [h]⟩
      · rcases ih h with h' | ⟨g, hg, hge⟩
        · left; exact h'
        · right; exact ⟨g, List.mem_cons_of_mem _ hg, hge⟩

theorem keysAscending_map_add {k : Int} {b : Finset σ} {m : BucketMap σ}
    (hm : KeysAscending m) : KeysAscending (map_add k b m) := by
  induction m with
  | nil => simp [map_add, KeysAscending]
  | cons f m ih =>
    unfold KeysAscending at hm ⊢
    rw [List.pairwise_cons] at hm
    unfold map_add
    split_ifs with h1 h2
    · rw [List.pairwise_cons]
      exact ⟨fun g hg => hm.1 g hg, hm.2⟩
    · rw [List.pairwise_cons, List.pairwise_cons]
      refine ⟨?_, hm.1, hm.2⟩
      intro g hg
      rcases List.mem_cons.1 hg with h | h
      · rw [h]; exact h2
      · exact lt_trans h2 (hm.1 g h)
    · rw [List.pairwise_cons]
      refine ⟨?_, ih hm.2⟩
      intro g hg
      rcases keys_map_add hg with h | ⟨g', hg', hge⟩
      · rw [h]; omega
      · rw [← hge]; exact hm.1 g' hg'

theorem bucketsNonempty_map_add {k : Int} {b : Finset σ} {m : BucketMap σ}
    (hm : BucketsNonempty m) (hb : b ≠ ∅) : BucketsNonempty (map_add k b m) := by
  induction m with
  | nil =>
    intro e he
    simp only [map_add, List.mem_singleton] at he
    rw [he]; exact hb
  | cons f m ih =>
    have hf : f.2 ≠ ∅ := hm f (List.mem_cons_self _ _)
    have hm' : BucketsNonempty m := fun e he => hm e (List.mem_cons_of_mem _ he)
    intro e he
    unfold map_add at he
    split_ifs at he with h1 h2
    · rcases List.mem_cons.1 he with h | h
      · rw [h]
        intro h0
        apply hf
        rw [← Finset.subset_empty, ← h0]
        exact Finset.subset_union_left
      · exact hm' e h
    · rcases List.mem_cons.1 he with h | h
      · rw [h]; exact hb
      · exact hm e h
    · rcases List.mem_cons.1 he with h | h
      · rw [h]; exact hf
      · exact ih hm' e h

/-- Adding `b` under key `k` keeps the buckets disjoint when `b` is disjoint from the
buckets of all other keys. -/
theorem bucketsDisjoint_map_add {k : Int} {b : Finset σ} {m : BucketMap σ}
    (hk : KeysAscending m) (hm : BucketsDisjoint m)
    (hb : ∀ e ∈ m, e.1 ≠ k → Disjoint e.2 b) : BucketsDisjoint (map_add k b m) := by
  induction m with
  | nil => simp [map_add, BucketsDisjoint]
  | cons f m ih =>
    unfold KeysAscending at hk
    rw [List.pairwise_cons] at hk
    rw [bucketsDisjoint_cons] at hm
    have hb' : ∀ e ∈ m, e.1 ≠ k → Disjoint e.2 b :=
      fun e he => hb e (List.mem_cons_of_mem _ he)
    unfold map_add
    split_ifs with h1 h2
    · rw [bucketsDisjoint_cons]
      refine ⟨?_, hm.2⟩
      rw [disjoint_bucket_union]
      intro e he
      rw [Finset.disjoint_union_left]
      refine ⟨(disjoint_bucket_union.1 hm.1) e he, ?_⟩
      have : e.1 ≠ k := by have := hk.1 e he; omega
      exact (hb' e he this).symm
    · rw [bucketsDisjoint_cons, bucketsDisjoint_cons]
      refine ⟨?_, hm⟩
      rw [disjoint_bucket_union]
      intro e he
      have : e.1 ≠ k := by
        rcases List.mem_cons.1 he with h | h
        · rw [h]; omega
        · have := hk.1 e h; omega
      exact (hb e he this).symm
    · rw [bucketsDisjoint_cons]
      refine ⟨?_, ih hk.2 hm.2 hb'⟩
      rw [bucket_union_map_add, Finset.disjoint_union_right]
      exact ⟨hm.1, hb f (List.mem_cons_self _ _) (fun h => h1 h.symm)⟩

theorem keysAscending_insert_cost_value {k : Int} {b : Finset σ} {m : BucketMap σ}
    (hm : KeysAscending m) : KeysAscending (insert_cost_value k b m) := by
  unfold insert_cost_value
  split_ifs
  · exact hm
  · exact keysAscending_map_add hm

theorem bucketsNonempty_insert_cost_value {k : Int} {b : Finset σ} {m : BucketMap σ}
    (hm : BucketsNonempty m) : BucketsNonempty (insert_cost_value k b m) := by
  unfold insert_cost_value
  split_ifs with h
  · exact hm
  · exact bucketsNonempty_map_add hm h

theorem bucketsDisjoint_insert_cost_value {k : Int} {b : Finset σ} {m : BucketMap σ}
    (hk : KeysAscending m) (hm : BucketsDisjoint m)
    (hb : ∀ e ∈ m, e.1 ≠ k → Disjoint e.2 b) :
    BucketsDisjoint (insert_cost_value k b m) := by
  unfold insert_cost_value
  split_ifs
  · exact hm
  · exact bucketsDisjoint_map_add hk hm hb

end buckets
/-! ## Bucket maps: rebuilding a map by insertion -/

section buckets_canon
variable {σ : Type} [DecidableEq σ]

omit [DecidableEq σ] in
theorem canon_nil : Canon ([] : BucketMap σ) :=
  ⟨List.Pairwise.nil, fun _ h => absurd h (List.not_mem_nil _), List.Pairwise.nil⟩

theorem canon_insert_cost_value {k : Int} {b : Finset σ} {m : BucketMap σ}
    (hm : Canon m) (hb : ∀ e ∈ m, e.1 ≠ k → Disjoint e.2 b) :
    Canon (insert_cost_value k b m) :=
  ⟨keysAscending_insert_cost_value hm.1, bucketsNonempty_insert_cost_value hm.2.1,
    bucketsDisjoint_insert_cost_value hm.1 hm.2.2 hb⟩

theorem canon_insert_cost_value_of_disjoint {k : Int} {b : Finset σ} {m : BucketMap σ}
    (hm : Canon m) (hb : Disjoint b (bucket_union m)) :
    Canon (insert_cost_value k b m) :=
  canon_insert_cost_value hm (fun e he _ => ((disjoint_bucket_union.1 hb) e he).symm)

/-- Rebuilding a map by inserting pairwise disjoint sets gives a canonical map with the
same union. -/
theorem canon_foldl_insert (g : Int → Int) (m : List (Int × Finset σ)) :
    ∀ init : BucketMap σ, Canon init → BucketsDisjoint m →
      Disjoint (bucket_union m) (bucket_union init) →
      Canon (m.foldl (fun new_sd_costs p => insert_cost_value (g p.1) p.2 new_sd_costs) init) ∧
      bucket_union (m.foldl (fun new_sd_costs p => insert_cost_value (g p.1) p.2 new_sd_costs)
        init) = bucket_union init ∪ bucket_union m := by
  induction m with
  | nil => intro init hi _ _; simp [bucket_union_nil, hi]
  | cons p rest ih =>
    intro init hi hm hd
    rw [bucketsDisjoint_cons] at hm
    rw [bucket_union_cons, Finset.disjoint_union_left] at hd
    have h1 : Canon (insert_cost_value (g p.1) p.2 init) :=
      canon_insert_cost_value_of_disjoint hi hd.1
    have h2 : Disjoint (bucket_union rest) (bucket_union (insert_cost_value (g p.1) p.2 init)) := by
      rw [bucket_union_insert_cost_value, Finset.disjoint_union_right]
      exact ⟨hd.2, hm.1.symm⟩
    obtain ⟨h3, h4⟩ := ih _ h1 hm.2 h2
    rw [List.foldl_cons]
    refine ⟨h3, ?_⟩
    rw [h4, bucket_union_insert_cost_value, bucket_union_cons, Finset.union_assoc]

theorem reduce_bucket_map_eq (saturated : Int) (m : BucketMap σ) :
    reduce_bucket_map saturated m
      = m.foldl (fun new_sd_costs p =>
          insert_cost_value (reduce_key saturated p.1) p.2 new_sd_costs) [] := by
  unfold reduce_bucket_map
  congr 1
  funext new_sd_costs p
  unfold reduce_key
  split_ifs <;> rfl

theorem canon_reduce_bucket_map (saturated : Int) {m : BucketMap σ}
    (hm : BucketsDisjoint m) :
    Canon (reduce_bucket_map saturated m) ∧
      bucket_union (reduce_bucket_map saturated m) = bucket_union m := by
  rw [reduce_bucket_map_eq]
  have h := canon_foldl_insert (reduce_key saturated) m [] canon_nil hm
    (by simp [bucket_union_nil])
  refine ⟨h.1, ?_⟩
  rw [h.2, bucket_union_nil, Finset.empty_union]

/-! ## The cost of a concrete state -/

theorem bucket_cost_nil (x : σ) : bucket_cost ([] : BucketMap σ) x = none := rfl

theorem bucket_cost_cons (e : Int × Finset σ) (m : BucketMap σ) (x : σ) :
    bucket_cost (e :: m) x = if x ∈ e.2 then some e.1 else bucket_cost m x := by
  unfold bucket_cost
  rw [List.find?_cons]
  by_cases h : x ∈ e.2 <;> simp [h]

theorem bucket_cost_eq_none {m : BucketMap σ} {x : σ} (h : x ∉ bucket_union m) :
    bucket_cost m x = none := by
  induction m with
  | nil => rfl
  | cons e m ih =>
    rw [bucket_union_cons, Finset.mem_union, not_or] at h
    rw [bucket_cost_cons, if_neg h.1, ih h.2]

theorem bucket_cost_isSome {m : BucketMap σ} {x : σ} (h : x ∈ bucket_union m) :
    ∃ k, bucket_cost m x = some k := by
  induction m with
  | nil => simp [bucket_union_nil] at h
  | cons e m ih =>
    rw [bucket_cost_cons]
    by_cases hx : x ∈ e.2
    · exact ⟨e.1, by rw [if_pos hx]⟩
    · rw [if_neg hx]
      rw [bucket_union_cons, Finset.mem_union] at h
      exact ih (h.resolve_left hx)

theorem bucket_cost_map_add {k : Int} {b : Finset σ} {m : BucketMap σ}
    (hb : Disjoint b (bucket_union m)) (x : σ) :
    bucket_cost (map_add k b m) x = if x ∈ b then some k else bucket_cost m x := by
  induction m with
  | nil => simp [map_add, bucket_cost_cons, bucket_cost_nil]
  | cons e m ih =>
    rw [bucket_union_cons, Finset.disjoint_union_right] at hb
    have hxe : x ∈ b → x ∉ e.2 := fun h1 h2 => (Finset.disjoint_left.1 hb.1) h1 h2
    by_cases hx : x ∈ b
    · rw [if_pos hx]
      unfold map_add
      split_ifs with h1 h2
      · rw [bucket_cost_cons, if_pos (Finset.mem_union_right _ hx), h1]
      · rw [bucket_cost_cons, if_pos hx]
      · rw [bucket_cost_cons, if_neg (hxe hx), ih hb.2, if_pos hx]
    · rw [if_neg hx]
      unfold map_add
      split_ifs with h1 h2
      · rw [bucket_cost_cons, bucket_cost_cons]
        by_cases h4 : x ∈ e.2
        · rw [if_pos (Finset.mem_union_left _ h4), if_pos h4]
        · rw [if_neg (by simp [hx, h4]), if_neg h4]
      · rw [bucket_cost_cons, if_neg hx]
      · rw [bucket_cost_cons, bucket_cost_cons, ih hb.2, if_neg hx]

theorem bucket_cost_insert_cost_value {k : Int} {b : Finset σ} {m : BucketMap σ}
    (hb : Disjoint b (bucket_union m)) (x : σ) :
    bucket_cost (insert_cost_value k b m) x = if x ∈ b then some k else bucket_cost m x := by
  unfold insert_cost_value
  split_ifs with h1 h2 h2
  · rw [h1] at h2; simp at h2
  · rfl
  · rw [bucket_cost_map_add hb, if_pos h2]
  · rw [bucket_cost_map_add hb, if_neg h2]

/-- The cost of a state after a map has been rebuilt by insertion under the keys `g k`. -/
theorem bucket_cost_foldl_insert (g : Int → Int) (x : σ) (m : List (Int × Finset σ)) :
    ∀ init : BucketMap σ, BucketsDisjoint m →
      Disjoint (bucket_union m) (bucket_union init) →
      bucket_cost
        (m.foldl (fun new_sd_costs p => insert_cost_value (g p.1) p.2 new_sd_costs) init) x
        = if x ∈ bucket_union init then bucket_cost init x else (bucket_cost m x).map g := by
  induction m with
  | nil =>
    intro init _ _
    by_cases h : x ∈ bucket_union init
    · simp [h]
    · simp [h, bucket_cost_nil, bucket_cost_eq_none h]
  | cons p rest ih =>
    intro init hm hd
    rw [bucketsDisjoint_cons] at hm
    rw [bucket_union_cons, Finset.disjoint_union_left] at hd
    have h2 : Disjoint (bucket_union rest) (bucket_union (insert_cost_value (g p.1) p.2 init)) := by
      rw [bucket_union_insert_cost_value, Finset.disjoint_union_right]
      exact ⟨hd.2, hm.1.symm⟩
    rw [List.foldl_cons, ih _ hm.2 h2, bucket_union_insert_cost_value,
      bucket_cost_insert_cost_value hd.1, bucket_cost_cons]
    by_cases hp : x ∈ p.2
    · have hi : x ∉ bucket_union init := fun h => (Finset.disjoint_left.1 hd.1) hp h
      simp [hp, hi]
    · by_cases hi : x ∈ bucket_union init
      · simp [hp, hi]
      · simp [hp, hi]

theorem bucket_cost_reduce_bucket_map (saturated : Int) {m : BucketMap σ}
    (hm : BucketsDisjoint m) (x : σ) :
    bucket_cost (reduce_bucket_map saturated m) x
      = (bucket_cost m x).map (reduce_key saturated) := by
  rw [reduce_bucket_map_eq, bucket_cost_foldl_insert (reduce_key saturated) x m [] hm
    (by simp [bucket_union_nil])]
  simp [bucket_union_nil]

end buckets_canon
/-! ## Bucket maps: subtracting saturated transition costs, limiting, removing states -/

section buckets_ops
variable {σ : Type} [DecidableEq σ] [Fintype σ]

/-- The invariant of the inner loop of step 2 of `reduce_transition_costs_finite`. -/
theorem move_changed_states_spec (k : Int) (stcf_dd : List (Int × Finset σ)) :
    ∀ (B : Finset σ) (new_sd_costs : BucketMap σ), Canon new_sd_costs →
      Disjoint B (bucket_union new_sd_costs) →
      Canon (move_changed_states stcf_dd (k, B) new_sd_costs).2 ∧
      Disjoint (move_changed_states stcf_dd (k, B) new_sd_costs).1
        (bucket_union (move_changed_states stcf_dd (k, B) new_sd_costs).2) ∧
      (move_changed_states stcf_dd (k, B) new_sd_costs).1 ⊆ B ∧
      (move_changed_states stcf_dd (k, B) new_sd_costs).1 ∪
        bucket_union (move_changed_states stcf_dd (k, B) new_sd_costs).2
          = B ∪ bucket_union new_sd_costs := by
  induction stcf_dd with
  | nil =>
    intro B n hn hd
    exact ⟨hn, hd, Finset.Subset.refl _, rfl⟩
  | cons sat rest ih =>
    intro B n hn hd
    have hstep : move_changed_states (sat :: rest) (k, B) n
        = if B ∩ sat.2 ≠ ∅ then
            move_changed_states rest (k, B ∩ sat.2ᶜ)
              (insert_cost_value (left_subtraction k sat.1) (B ∩ sat.2) n)
          else move_changed_states rest (k, B) n := by
      unfold move_changed_states
      rw [List.foldl_cons]
      split_ifs <;> rfl
    rw [hstep]
    split_ifs with h
    · have hI : Disjoint (B ∩ sat.2) (bucket_union n) :=
        Finset.disjoint_of_subset_left Finset.inter_subset_left hd
      have hn' := canon_insert_cost_value_of_disjoint (k := left_subtraction k sat.1) hn hI
      have hd' : Disjoint (B ∩ sat.2ᶜ)
          (bucket_union (insert_cost_value (left_subtraction k sat.1) (B ∩ sat.2) n)) := by
        rw [bucket_union_insert_cost_value, Finset.disjoint_union_right]
        refine ⟨Finset.disjoint_of_subset_left Finset.inter_subset_left hd, ?_⟩
        rw [Finset.disjoint_left]
        intro a ha ha'
        simp only [Finset.mem_inter, Finset.mem_compl] at ha ha'
        exact ha.2 ha'.2
      obtain ⟨h1, h2, h3, h4⟩ := ih (B ∩ sat.2ᶜ) _ hn' hd'
      refine ⟨h1, h2, h3.trans Finset.inter_subset_left, ?_⟩
      rw [h4, bucket_union_insert_cost_value]
      ext a
      simp only [Finset.mem_union, Finset.mem_inter, Finset.mem_compl]
      tauto
    · exact ih B n hn hd

/-- The invariant of the loop "move states of changed cost values". -/
theorem move_changed_buckets_spec (stcf_dd : List (Int × Finset σ)) (old : BucketMap σ) :
    ∀ new_sd_costs : BucketMap σ, Canon new_sd_costs → BucketsDisjoint old →
      Disjoint (bucket_union old) (bucket_union new_sd_costs) →
      Canon (move_changed_buckets stcf_dd old new_sd_costs).2 ∧
      BucketsDisjoint (move_changed_buckets stcf_dd old new_sd_costs).1 ∧
      Disjoint (bucket_union (move_changed_buckets stcf_dd old new_sd_costs).1)
        (bucket_union (move_changed_buckets stcf_dd old new_sd_costs).2) ∧
      bucket_union (move_changed_buckets stcf_dd old new_sd_costs).1 ⊆ bucket_union old ∧
      bucket_union (move_changed_buckets stcf_dd old new_sd_costs).1 ∪
        bucket_union (move_changed_buckets stcf_dd old new_sd_costs).2
          = bucket_union old ∪ bucket_union new_sd_costs := by
  induction old with
  | nil =>
    intro n hn _ hd
    exact ⟨hn, List.Pairwise.nil, hd, Finset.Subset.refl _, rfl⟩
  | cons remaining rest ih =>
    intro n hn ho hd
    rw [bucketsDisjoint_cons] at ho
    rw [bucket_union_cons, Finset.disjoint_union_left] at hd
    obtain ⟨a1, a2, a3, a4⟩ := move_changed_states_spec remaining.1 stcf_dd remaining.2 n hn hd.1
    have hrest : Disjoint (bucket_union rest)
        (bucket_union (move_changed_states stcf_dd remaining n).2) := by
      rw [Finset.disjoint_left]
      intro a ha ha'
      have : a ∈ remaining.2 ∪ bucket_union n := by
        rw [← a4]; exact Finset.mem_union_right _ ha'
      rcases Finset.mem_union.1 this with h | h
      · exact (Finset.disjoint_left.1 ho.1) h ha
      · exact (Finset.disjoint_left.1 hd.2) ha h
    obtain ⟨b1, b2, b3, b4, b5⟩ := ih _ a1 ho.2 hrest
    have hunf : move_changed_buckets stcf_dd (remaining :: rest) n
        = ((remaining.1, (move_changed_states stcf_dd remaining n).1) ::
            (move_changed_buckets stcf_dd rest (move_changed_states stcf_dd remaining n).2).1,
           (move_changed_buckets stcf_dd rest (move_changed_states stcf_dd remaining n).2).2) :=
      rfl
    rw [hunf]
    simp only [bucket_union_cons, bucketsDisjoint_cons]
    have hsub2 : ∀ a, a ∈ bucket_union
        (move_changed_buckets stcf_dd rest (move_changed_states stcf_dd remaining n).2).2 →
        a ∈ bucket_union rest ∨
          a ∈ bucket_union (move_changed_states stcf_dd remaining n).2 := by
      intro a ha
      have : a ∈ bucket_union rest ∪
          bucket_union (move_changed_states stcf_dd remaining n).2 := by
        rw [← b5]; exact Finset.mem_union_right _ ha
      exact Finset.mem_union.1 this
    refine ⟨b1, ⟨?_, b2⟩, ?_, ?_, ?_⟩
    · rw [Finset.disjoint_left]
      intro a ha ha'
      exact (Finset.disjoint_left.1 ho.1) (a3 ha) (b4 ha')
    · rw [Finset.disjoint_union_left]
      refine ⟨?_, b3⟩
      rw [Finset.disjoint_left]
      intro a ha ha'
      rcases hsub2 a ha' with h | h
      · exact (Finset.disjoint_left.1 ho.1) (a3 ha) h
      · exact (Finset.disjoint_left.1 a2) ha h
    · exact Finset.union_subset_union a3 b4
    · rw [Finset.union_assoc, b5, ← Finset.union_assoc,
        Finset.union_comm _ (bucket_union rest), Finset.union_assoc, a4]
      ext a
      simp only [Finset.mem_union]
      tauto

omit [Fintype σ] in
theorem foldl_union_eq (rest : List (Int × Finset σ)) :
    ∀ b : Finset σ, rest.foldl (fun acc x => acc ∪ x.2) b = b ∪ bucket_union rest := by
  induction rest with
  | nil => intro b; simp [bucket_union_nil]
  | cons e rest ih =>
    intro b
    rw [List.foldl_cons, ih, bucket_union_cons, Finset.union_assoc]

omit [Fintype σ] in
theorem limit_buckets_from_keys (MAX_BUCKETS : Int) (m : BucketMap σ) :
    ∀ index : Int, ∀ e ∈ limit_buckets_from MAX_BUCKETS index m, ∃ f ∈ m, f.1 = e.1 := by
  induction m with
  | nil => intro index e he; simp [limit_buckets_from] at he
  | cons f rest ih =>
    intro index e he
    unfold limit_buckets_from at he
    split_ifs at he with h
    · rw [List.mem_singleton] at he
      exact ⟨f, List.mem_cons_self _ _, by rw [he]⟩
    · rcases List.mem_cons.1 he with h' | h'
      · exact ⟨f, List.mem_cons_self _ _, by rw [h']⟩
      · obtain ⟨g, hg, hge⟩ := ih _ e h'
        exact ⟨g, List.mem_cons_of_mem _ hg, hge⟩

omit [Fintype σ] in
theorem canon_limit_buckets_from (MAX_BUCKETS : Int) (m : BucketMap σ) :
    ∀ index : Int, Canon m →
      Canon (limit_buckets_from MAX_BUCKETS index m) ∧
        bucket_union (limit_buckets_from MAX_BUCKETS index m) = bucket_union m := by
  induction m with
  | nil => intro index h; exact ⟨by simpa [limit_buckets_from] using h, rfl⟩
  | cons f rest ih =>
    intro index h
    obtain ⟨hk, hn, hd⟩ := h
    have hrest : Canon rest := by
      refine ⟨?_, fun e he => hn e (List.mem_cons_of_mem _ he), ?_⟩
      · exact (List.pairwise_cons.1 hk).2
      · exact (List.pairwise_cons.1 hd).2
    have hf : f.2 ≠ ∅ := hn f (List.mem_cons_self _ _)
    unfold limit_buckets_from
    split_ifs with h1
    · refine ⟨⟨List.pairwise_singleton _ _, ?_, List.pairwise_singleton _ _⟩, ?_⟩
      · intro e he
        rw [List.mem_singleton] at he
        rw [he, foldl_union_eq]
        intro h0
        apply hf
        rw [← Finset.subset_empty, ← h0]
        exact Finset.subset_union_left
      · rw [bucket_union_cons, bucket_union_cons, bucket_union_nil, foldl_union_eq]
        simp
    · obtain ⟨i1, i2⟩ := ih (index + 1) hrest
      refine ⟨⟨?_, ?_, ?_⟩, ?_⟩
      · unfold KeysAscending
        rw [List.pairwise_cons]
        refine ⟨?_, i1.1⟩
        intro e he
        obtain ⟨g, hg, hge⟩ := limit_buckets_from_keys MAX_BUCKETS rest _ e he
        rw [← hge]
        exact (List.pairwise_cons.1 hk).1 g hg
      · intro e he
        rcases List.mem_cons.1 he with h' | h'
        · rw [h']; exact hf
        · exact i1.2.1 e h'
      · rw [bucketsDisjoint_cons, i2]
        exact ⟨(bucketsDisjoint_cons.1 hd).1, i1.2.2⟩
      · rw [bucket_union_cons, bucket_union_cons, i2]

omit [Fintype σ] in
theorem canon_limit_buckets (MAX_BUCKETS : Int) {m : BucketMap σ} (h : Canon m) :
    Canon (limit_buckets m MAX_BUCKETS) ∧
      bucket_union (limit_buckets m MAX_BUCKETS) = bucket_union m := by
  unfold limit_buckets
  split_ifs
  · exact canon_limit_buckets_from MAX_BUCKETS m 0 h
  · exact ⟨h, rfl⟩

/-- Step 2 of `reduce_transition_costs_finite` keeps a partition a partition, whatever the
saturated values and their state sets are. -/
theorem canon_subtract_stcf_dd (max_buckets : Int) (stcf_dd : List (Int × Finset σ))
    {remaining : BucketMap σ} (h : BucketsDisjoint remaining) :
    Canon (subtract_stcf_dd max_buckets stcf_dd remaining) ∧
      bucket_union (subtract_stcf_dd max_buckets stcf_dd remaining)
        = bucket_union remaining := by
  obtain ⟨a1, a2, a3, _, a5⟩ := move_changed_buckets_spec stcf_dd remaining [] canon_nil h
    (by simp [bucket_union_nil])
  obtain ⟨b1, b2⟩ := canon_foldl_insert id
    (move_changed_buckets stcf_dd remaining []).1 _ a1 a2 a3
  obtain ⟨c1, c2⟩ := canon_limit_buckets max_buckets b1
  have hunf : subtract_stcf_dd max_buckets stcf_dd remaining
      = limit_buckets
          ((move_changed_buckets stcf_dd remaining []).1.foldl
            (fun new_sd_costs p => insert_cost_value (id p.1) p.2 new_sd_costs)
            (move_changed_buckets stcf_dd remaining []).2) max_buckets := rfl
  rw [hunf]
  refine ⟨c1, ?_⟩
  rw [c2, b2, Finset.union_comm, a5, bucket_union_nil, Finset.union_empty]

theorem remove_states_mem (context : Finset σ) (m : BucketMap σ) :
    ∀ e ∈ remove_states context m,
      ∃ f ∈ m, f.1 = e.1 ∧ e.2 ⊆ f.2 ∧ (e.1 ≠ INF → Disjoint e.2 context) ∧
        (f.2 ≠ ∅ → e.2 ≠ ∅) := by
  induction m with
  | nil => intro e he; simp [remove_states] at he
  | cons f rest ih =>
    intro e he
    have lift : (∃ g ∈ rest, g.1 = e.1 ∧ e.2 ⊆ g.2 ∧
        (e.1 ≠ INF → Disjoint e.2 context) ∧ (g.2 ≠ ∅ → e.2 ≠ ∅)) →
        ∃ g ∈ f :: rest, g.1 = e.1 ∧ e.2 ⊆ g.2 ∧
          (e.1 ≠ INF → Disjoint e.2 context) ∧ (g.2 ≠ ∅ → e.2 ≠ ∅) := by
      rintro ⟨g, hg, h⟩
      exact ⟨g, List.mem_cons_of_mem _ hg, h⟩
    unfold remove_states at he
    split_ifs at he with h1 h2 h3
    · rcases List.mem_cons.1 he with h | h
      · refine ⟨f, List.mem_cons_self _ _, by rw [h], by rw [h], ?_, by rw [h]; exact id⟩
        intro hne; rw [h] at hne; exact absurd h1 hne
      · exact lift (ih e h)
    · rcases List.mem_cons.1 he with h | h
      · refine ⟨f, List.mem_cons_self _ _, by rw [h], by rw [h]; exact Finset.inter_subset_left,
          ?_, ?_⟩
        · intro _
          rw [h, Finset.disjoint_left]
          intro a ha ha'
          simp only [Finset.mem_inter, Finset.mem_compl] at ha
          exact ha.2 ha'
        · intro _; rw [h]; exact h3
      · exact lift (ih e h)
    · exact lift (ih e he)
    · rcases List.mem_cons.1 he with h | h
      · refine ⟨f, List.mem_cons_self _ _, by rw [h], by rw [h], ?_, by rw [h]; exact id⟩
        intro _
        rw [h, Finset.disjoint_left]
        intro a ha ha'
        apply h2
        intro h0
        have : a ∈ context ∩ f.2 := Finset.mem_inter.2 ⟨ha', ha⟩
        rw [h0] at this
        exact absurd this (Finset.not_mem_empty a)
      · exact lift (ih e h)

theorem bucket_union_remove_states (context : Finset σ) (m : BucketMap σ) :
    bucket_union (remove_states context m) ∪ context = bucket_union m ∪ context := by
  induction m with
  | nil => rfl
  | cons f rest ih =>
    unfold remove_states
    split_ifs with h1 h2 h3
    · rw [bucket_union_cons, bucket_union_cons, Finset.union_assoc, ih, Finset.union_assoc]
    · rw [bucket_union_cons, bucket_union_cons, Finset.union_assoc, ih]
      ext a
      simp only [Finset.mem_union, Finset.mem_inter, Finset.mem_compl]
      tauto
    · rw [bucket_union_cons, ih]
      have hsub : f.2 ⊆ context := by
        intro a ha
        by_contra hc
        apply h3
        intro h0
        have : a ∈ f.2 ∩ contextᶜ := Finset.mem_inter.2 ⟨ha, Finset.mem_compl.2 hc⟩
        rw [h0] at this
        exact absurd this (Finset.not_mem_empty a)
      ext a
      simp only [Finset.mem_union]
      constructor
      · tauto
      · rintro ((h | h) | h)
        · exact Or.inr (hsub h)
        · exact Or.inl h
        · exact Or.inr h
    · rw [bucket_union_cons, bucket_union_cons, Finset.union_assoc, ih, Finset.union_assoc]

theorem canon_remove_states (context : Finset σ) {m : BucketMap σ} (h : Canon m) :
    Canon (remove_states context m) := by
  induction m with
  | nil => simpa [remove_states] using h
  | cons f rest ih =>
    obtain ⟨hk, hn, hd⟩ := h
    have hrest : Canon rest :=
      ⟨(List.pairwise_cons.1 hk).2, fun e he => hn e (List.mem_cons_of_mem _ he),
        (List.pairwise_cons.1 hd).2⟩
    have ih' := ih hrest
    have hkey : ∀ e ∈ remove_states context rest, f.1 < e.1 := by
      intro e he
      obtain ⟨g, hg, hge, _⟩ := remove_states_mem context rest e he
      rw [← hge]
      exact (List.pairwise_cons.1 hk).1 g hg
    have hdis : ∀ b : Finset σ, b ⊆ f.2 → ∀ e ∈ remove_states context rest, Disjoint b e.2 := by
      intro b hb e he
      obtain ⟨g, hg, _, hsub, _⟩ := remove_states_mem context rest e he
      exact Finset.disjoint_of_subset_left hb
        (Finset.disjoint_of_subset_right hsub ((List.pairwise_cons.1 hd).1 g hg))
    have hf : f.2 ≠ ∅ := hn f (List.mem_cons_self _ _)
    have key : ∀ b : Finset σ, b ⊆ f.2 → b ≠ ∅ →
        Canon ((f.1, b) :: remove_states context rest) := by
      intro b hb hb0
      refine ⟨List.pairwise_cons.2 ⟨hkey, ih'.1⟩, ?_, List.pairwise_cons.2 ⟨hdis b hb, ih'.2.2⟩⟩
      intro e he
      rcases List.mem_cons.1 he with h' | h'
      · rw [h']; exact hb0
      · exact ih'.2.1 e h'
    unfold remove_states
    split_ifs with h1 h2 h3
    · exact key f.2 (Finset.Subset.refl _) hf
    · exact key _ Finset.inter_subset_left h3
    · exact ih'
    · exact key f.2 (Finset.Subset.refl _) hf

/-- The map `reduce_transition_costs_negative_infinity` leaves for one operator is
canonical and keeps the union of the buckets. -/
theorem canon_remove_insert (context : Finset σ) {m : BucketMap σ} (h : Canon m) :
    Canon (insert_cost_value INF context (remove_states context m)) ∧
      bucket_union (insert_cost_value INF context (remove_states context m))
        = bucket_union m ∪ context := by
  refine ⟨canon_insert_cost_value (canon_remove_states context h) ?_, ?_⟩
  · intro e he hne
    obtain ⟨_, _, _, _, hdisj, _⟩ := remove_states_mem context m e he
    exact hdisj hne
  · rw [bucket_union_insert_cost_value, bucket_union_remove_states]

end buckets_ops
/-! ## The bucketed cost function: the partition invariant -/

section buckets_state
variable {σ : Type} [DecidableEq σ] [Fintype σ]

theorem bucketPartition_iff (m : BucketMap σ) :
    BucketPartition m ↔
      BucketsNonempty m ∧ BucketsDisjoint m ∧ bucket_union m = Finset.univ := by
  unfold BucketPartition BucketsNonempty BucketsDisjoint
  constructor
  · rintro ⟨h1, h2, h3⟩
    refine ⟨h1, h2, ?_⟩
    ext s
    simp only [Finset.mem_univ, iff_true]
    exact mem_bucket_union.2 (h3 s)
  · rintro ⟨h1, h2, h3⟩
    refine ⟨h1, h2, ?_⟩
    intro s
    exact mem_bucket_union.1 (by rw [h3]; exact Finset.mem_univ s)

theorem wellFormed_op_iff (m : BucketMap σ) :
    KeysAscending m ∧ BucketPartition m ↔ Canon m ∧ bucket_union m = Finset.univ := by
  rw [bucketPartition_iff]
  unfold Canon
  tauto

theorem canon_single [Inhabited σ] (k : Int) :
    Canon [(k, (Finset.univ : Finset σ))] ∧
      bucket_union [(k, (Finset.univ : Finset σ))] = Finset.univ := by
  refine ⟨⟨List.pairwise_singleton _ _, ?_, List.pairwise_singleton _ _⟩, ?_⟩
  · intro e he
    rw [List.mem_singleton] at he
    rw [he]
    exact Finset.univ_nonempty.ne_empty
  · simp [bucket_union_cons, bucket_union_nil]

/-- Replacing the bucket map of one operator by a canonical map that covers all states
keeps the state well formed. -/
theorem wellFormed_set {c : CostFunctionStateDependent σ} (hc : c.WellFormed)
    (op_id : Nat) (m : BucketMap σ) (hm : Canon m ∧ bucket_union m = Finset.univ)
    (u : List Bool) (hu : u.length = c.useless_operators.length) :
    CostFunctionStateDependent.WellFormed
      { operator_costs := c.operator_costs, max_buckets := c.max_buckets,
        remaining_sd_costs := c.remaining_sd_costs.set op_id m, useless_operators := u } := by
  obtain ⟨hlen, hulen, hops⟩ := hc
  refine ⟨by simpa [CostFunctionStateDependent.num_operators] using hlen,
    by simpa [CostFunctionStateDependent.num_operators, hu] using hulen, ?_⟩
  intro j hj
  have hj' : j < c.num_operators := hj
  show KeysAscending ((c.remaining_sd_costs.set op_id m).getD j []) ∧
    BucketPartition ((c.remaining_sd_costs.set op_id m).getD j [])
  rw [getD_set_eq]
  split_ifs with h
  · exact (wellFormed_op_iff m).2 hm
  · exact hops j hj'

theorem wellFormed_buckets {c : CostFunctionStateDependent σ} (hc : c.WellFormed)
    {op_id : Nat} (h : op_id < c.num_operators) :
    Canon (c.buckets op_id) ∧ bucket_union (c.buckets op_id) = Finset.univ :=
  (wellFormed_op_iff _).1 (hc.2.2 op_id h)

theorem wellFormed_map_range (operator_costs : List Int) (max_buckets : Int)
    (u : List Bool) (hu : u.length = operator_costs.length) (f : Nat → BucketMap σ)
    (hf : ∀ op_id, op_id < operator_costs.length →
      Canon (f op_id) ∧ bucket_union (f op_id) = Finset.univ) :
    CostFunctionStateDependent.WellFormed
      { operator_costs := operator_costs, max_buckets := max_buckets,
        remaining_sd_costs := (List.range operator_costs.length).map f,
        useless_operators := u } := by
  refine ⟨by simp [CostFunctionStateDependent.num_operators],
    by simpa [CostFunctionStateDependent.num_operators] using hu, ?_⟩
  intro j hj
  have hj' : j < operator_costs.length := hj
  show KeysAscending (((List.range operator_costs.length).map f).getD j []) ∧
    BucketPartition (((List.range operator_costs.length).map f).getD j [])
  rw [getD_map_range, if_pos hj']
  exact (wellFormed_op_iff _).2 (hf j hj')

theorem wellFormed_reinitialize [Inhabited σ] (c : CostFunctionStateDependent σ)
    (hu : c.useless_operators.length = c.num_operators) :
    (CostFunctionStateDependent.reinitialize c).WellFormed := by
  apply wellFormed_map_range _ _ _ hu
  intro op_id _
  split_ifs
  · exact canon_single INF
  · exact canon_single _

theorem wellFormed_create [Inhabited σ] (operator_costs : List Int) (max_buckets : Int) :
    (CostFunctionStateDependent.create operator_costs max_buckets :
      CostFunctionStateDependent σ).WellFormed :=
  wellFormed_reinitialize _ (by simp [CostFunctionStateDependent.num_operators])

theorem wellFormed_reduce_operator_costs_op [Inhabited σ]
    {c : CostFunctionStateDependent σ} (hc : c.WellFormed) (op_id : Nat)
    (hop : op_id < c.num_operators) (saturated : Int) :
    (c.reduce_operator_costs_op op_id saturated).WellFormed ∧
      (c.reduce_operator_costs_op op_id saturated).num_operators = c.num_operators := by
  unfold CostFunctionStateDependent.reduce_operator_costs_op
  split_ifs with h
  · exact ⟨wellFormed_set hc op_id _ (canon_single INF) _ (by simp), rfl⟩
  · refine ⟨wellFormed_set hc op_id _ ?_ _ rfl, rfl⟩
    have hb := wellFormed_buckets hc hop
    have := canon_reduce_bucket_map saturated hb.1.2.2
    exact ⟨this.1, by rw [this.2, hb.2]⟩

theorem foldl_invariant {X : Type} (P : X → Prop) (step : X → Nat → X) (l : List Nat)
    (hstep : ∀ i ∈ l, ∀ x, P x → P (step x i)) : ∀ x, P x → P (l.foldl step x) := by
  induction l with
  | nil => intro x hx; exact hx
  | cons a l ih =>
    intro x hx
    rw [List.foldl_cons]
    exact ih (fun i hi => hstep i (List.mem_cons_of_mem _ hi)) _
      (hstep a (List.mem_cons_self _ _) x hx)

theorem wellFormed_reduce_operator_costs [Inhabited σ]
    {c : CostFunctionStateDependent σ} (hc : c.WellFormed) (socf : List Int) :
    (c.reduce_operator_costs socf).WellFormed := by
  have h := foldl_invariant
    (fun x : CostFunctionStateDependent σ => x.WellFormed ∧ x.num_operators = c.num_operators)
    (fun c op_id =>
      if vget socf op_id = 0 ∨ vget socf op_id = INF then c
      else c.reduce_operator_costs_op op_id (vget socf op_id))
    (List.range c.num_operators)
    (by
      intro i hi x hx
      have hi' : i < x.num_operators := by rw [hx.2]; exact List.mem_range.1 hi
      beta_reduce
      split_ifs
      · exact hx
      · have := wellFormed_reduce_operator_costs_op hx.1 i hi' (vget socf i)
        exact ⟨this.1, by rw [this.2, hx.2]⟩)
    c ⟨hc, rfl⟩
  exact h.1

theorem wellFormed_reduce_operator_costs_tcf [Inhabited σ]
    {c : CostFunctionStateDependent σ} (hc : c.WellFormed)
    (tcf : AbstractTransitionCostFunction) :
    (c.reduce_operator_costs_tcf tcf).WellFormed := by
  have h := foldl_invariant
    (fun x : CostFunctionStateDependent σ => x.WellFormed ∧ x.num_operators = c.num_operators)
    (fun c op_id =>
      if !bget tcf.si op_id then c
      else
        if vget tcf.si_costs op_id = 0 ∨ vget tcf.si_costs op_id = INF then c
        else c.reduce_operator_costs_op op_id (vget tcf.si_costs op_id))
    (List.range c.num_operators)
    (by
      intro i hi x hx
      have hi' : i < x.num_operators := by rw [hx.2]; exact List.mem_range.1 hi
      beta_reduce
      split_ifs
      · exact hx
      · exact hx
      · have := wellFormed_reduce_operator_costs_op hx.1 i hi' (vget tcf.si_costs i)
        exact ⟨this.1, by rw [this.2, hx.2]⟩)
    c ⟨hc, rfl⟩
  exact h.1

theorem wellFormed_reduce_transition_costs_finite
    {c : CostFunctionStateDependent σ} (hc : c.WellFormed) (transitions : List Transition)
    (make_transition_bdd : Transition → Finset σ) (tcf : AbstractTransitionCostFunction) :
    (c.reduce_transition_costs_finite transitions make_transition_bdd tcf).WellFormed := by
  unfold CostFunctionStateDependent.reduce_transition_costs_finite
  apply wellFormed_map_range _ _ _ hc.2.1
  intro op_id hop
  have hb := wellFormed_buckets hc hop
  split_ifs
  · exact hb
  · have := canon_subtract_stcf_dd c.max_buckets
      ((compute_stcf_dds c.num_operators transitions make_transition_bdd tcf).getD op_id [])
      hb.1.2.2
    exact ⟨this.1, by rw [this.2, hb.2]⟩

theorem wellFormed_reduce_transition_costs_negative_infinity
    {c : CostFunctionStateDependent σ} (hc : c.WellFormed)
    (reachability_bdds : List (Finset σ)) :
    (c.reduce_transition_costs_negative_infinity reachability_bdds).WellFormed := by
  have h := foldl_invariant
    (fun x : CostFunctionStateDependent σ => x.WellFormed ∧ x.num_operators = c.num_operators)
    (fun c op_id =>
      if bget c.useless_operators op_id then c
      else
        { c with
          remaining_sd_costs :=
            c.remaining_sd_costs.set op_id
              (insert_cost_value INF (reachability_bdds.getD op_id ∅)
                (remove_states (reachability_bdds.getD op_id ∅) (c.buckets op_id))) })
    (List.range c.num_operators)
    (by
      intro i hi x hx
      have hi' : i < x.num_operators := by rw [hx.2]; exact List.mem_range.1 hi
      beta_reduce
      split_ifs
      · exact hx
      · have hb := wellFormed_buckets hx.1 hi'
        have := canon_remove_insert (reachability_bdds.getD i ∅) hb.1
        refine ⟨wellFormed_set hx.1 i _ ⟨this.1, ?_⟩ _ rfl, hx.2⟩
        rw [this.2, hb.2]; simp)
    c ⟨hc, rfl⟩
  exact h.1

end buckets_state
/-! ## C7, C8 -/

/-- C7: the bucket partition invariant. The constructor and `reinitialize` establish, and
`reduce_operator_costs` (both overloads), `reduce_transition_costs_finite` (for arbitrary
transition fingerprints and saturated costs) and `reduce_transition_costs_negative_infinity`
(for arbitrary state sets) preserve the well-formedness of the bucketed cost function, and
in a well-formed state the buckets of every operator are nonempty, pairwise disjoint and
their union is the set of all concrete states. -/
theorem bucket_partition_invariant {σ : Type} [DecidableEq σ] [Fintype σ] [Inhabited σ] :
    (∀ (operator_costs : List Int) (max_buckets : Int),
      (CostFunctionStateDependent.create operator_costs max_buckets :
        CostFunctionStateDependent σ).WellFormed) ∧
    (∀ c : CostFunctionStateDependent σ, c.WellFormed →
      (CostFunctionStateDependent.reinitialize c).WellFormed) ∧
    (∀ (c : CostFunctionStateDependent σ) (socf : List Int), c.WellFormed →
      (c.reduce_operator_costs socf).WellFormed) ∧
    (∀ (c : CostFunctionStateDependent σ) (tcf : AbstractTransitionCostFunction),
      c.WellFormed → (c.reduce_operator_costs_tcf tcf).WellFormed) ∧
    (∀ (c : CostFunctionStateDependent σ) (transitions : List Transition)
      (make_transition_bdd : Transition → Finset σ) (tcf : AbstractTransitionCostFunction),
      c.WellFormed → 1 ≤ c.max_buckets →
      (c.reduce_transition_costs_finite transitions make_transition_bdd tcf).WellFormed) ∧
    (∀ (c : CostFunctionStateDependent σ) (reachability_bdds : List (Finset σ)),
      c.WellFormed →
      (c.reduce_transition_costs_negative_infinity reachability_bdds).WellFormed) ∧
    (∀ c : CostFunctionStateDependent σ, c.WellFormed →
      ∀ op_id, op_id < c.num_operators →
        (∀ e ∈ c.buckets op_id, e.2.Nonempty) ∧
        (c.buckets op_id).Pairwise (fun e f => Disjoint e.2 f.2) ∧
        bucket_union (c.buckets op_id) = Finset.univ) := by
  refine ⟨wellFormed_create, fun c hc => wellFormed_reinitialize c hc.2.1,
    fun c socf hc => wellFormed_reduce_operator_costs hc socf,
    fun c tcf hc => wellFormed_reduce_operator_costs_tcf hc tcf,
    fun c transitions bdd tcf hc _ =>
      wellFormed_reduce_transition_costs_finite hc transitions bdd tcf,
    fun c bdds hc => wellFormed_reduce_transition_costs_negative_infinity hc bdds, ?_⟩
  intro c hc op_id hop
  obtain ⟨⟨_, hn, hd⟩, hu⟩ := wellFormed_buckets hc hop
  exact ⟨fun e he => Finset.nonempty_iff_ne_empty.2 (hn e he), hd, hu⟩

/-- The invariant of C7 at work: after a reduction by transition costs of a freshly built
cost function over two concrete states the buckets of operator `0` still partition the
states. -/
theorem bucket_partition_invariant_witness :
    (1 : Int) ≤ (two_state_cost_function [2, 3]).max_buckets ∧
    bucket_union
      (((two_state_cost_function [2, 3]).reduce_transition_costs_finite
        [⟨0, 0, 0, 1⟩] (fun _ => {true}) ⟨[1], [false, false], [1, 0]⟩).buckets 0)
      = Finset.univ :=
  ⟨by decide,
    ((bucket_partition_invariant.2.2.2.2.2.2 _
      (bucket_partition_invariant.2.2.2.2.1 (two_state_cost_function [2, 3])
        [⟨0, 0, 0, 1⟩] (fun _ => {true}) ⟨[1], [false, false], [1, 0]⟩
        (bucket_partition_invariant.1 [2, 3] 10) (by decide))) 0 (by decide)).2.2⟩

/-- The claim C8 as it stands fails: `reduce_transition_costs_finite` does not keep the
keys nonnegative for any saturated transition costs. Operator `0` has the single bucket
`(2, ⊤)`; its transition is given the saturated cost `5`, more than the remaining cost `2`
of the transition, and a fingerprint that meets the bucket; the states are filed under the
key `2 - 5 = -3`. -/
theorem reduce_transition_costs_finite_negative_key :
    (two_state_cost_function [2]).buckets 0 = [(2, Finset.univ)] ∧
    ((two_state_cost_function [2]).reduce_transition_costs_finite
        [⟨0, 0, 0, 1⟩] (fun _ => Finset.univ) ⟨[5], [false], [5]⟩).buckets 0
      = [(-3, Finset.univ)] := by
  decide
/-! ## C9: reduction by operator costs -/

section reduce_by_operator
variable {σ : Type} [DecidableEq σ] [Fintype σ]

omit [Fintype σ] in
theorem bucket_cost_of_mem {m : BucketMap σ} (hm : BucketsDisjoint m)
    {e : Int × Finset σ} (he : e ∈ m) {x : σ} (hx : x ∈ e.2) :
    bucket_cost m x = some e.1 := by
  induction m with
  | nil => exact absurd he (List.not_mem_nil _)
  | cons f rest ih =>
    rw [bucketsDisjoint_cons] at hm
    rw [bucket_cost_cons]
    rcases List.mem_cons.1 he with h | h
    · rw [← h, if_pos hx]
    · have : x ∉ f.2 := by
        intro hf
        exact (Finset.disjoint_left.1 hm.1) hf (mem_bucket_union.2 ⟨e, h, hx⟩)
      rw [if_neg this]
      exact ih hm.2 h

omit [Fintype σ] in
theorem mem_of_bucket_cost {m : BucketMap σ} {x : σ} {k : Int}
    (h : bucket_cost m x = some k) : ∃ e ∈ m, e.1 = k ∧ x ∈ e.2 := by
  induction m with
  | nil => simp [bucket_cost_nil] at h
  | cons f rest ih =>
    rw [bucket_cost_cons] at h
    by_cases hx : x ∈ f.2
    · rw [if_pos hx] at h
      exact ⟨f, List.mem_cons_self _ _, Option.some.inj h, hx⟩
    · rw [if_neg hx] at h
      obtain ⟨e, he, h1, h2⟩ := ih h
      exact ⟨e, List.mem_cons_of_mem _ he, h1, h2⟩

omit [DecidableEq σ] [Fintype σ] in
theorem buckets_set (c : CostFunctionStateDependent σ) (op_id j : Nat) (m : BucketMap σ)
    (u : List Bool) :
    CostFunctionStateDependent.buckets
      { operator_costs := c.operator_costs, max_buckets := c.max_buckets,
        remaining_sd_costs := c.remaining_sd_costs.set op_id m, useless_operators := u } j
      = if op_id = j ∧ op_id < c.remaining_sd_costs.length then m else c.buckets j :=
  getD_set_eq _ _ _ _ _

/-- What `reduce_operator_costs(int op_id, int saturated)` leaves in the bucket map of an
operator `j`. -/
theorem reduce_operator_costs_op_buckets (c : CostFunctionStateDependent σ)
    (op_id : Nat) (saturated : Int) (j : Nat) :
    (c.reduce_operator_costs_op op_id saturated).buckets j
      = if op_id = j ∧ op_id < c.remaining_sd_costs.length then
          (if saturated = -INF then [(INF, Finset.univ)]
           else reduce_bucket_map saturated (c.buckets op_id))
        else c.buckets j := by
  unfold CostFunctionStateDependent.reduce_operator_costs_op
  split_ifs with h1 h2 h3
  · exact (buckets_set c op_id j _ _).trans (if_pos h2)
  · exact (buckets_set c op_id j _ _).trans (if_neg h2)
  · exact (buckets_set c op_id j _ _).trans (if_pos h3)
  · exact (buckets_set c op_id j _ _).trans (if_neg h3)

/-- What `reduce_operator_costs(int op_id, int saturated)` leaves in the useless flag of an
operator `j`. -/
theorem reduce_operator_costs_op_useless (c : CostFunctionStateDependent σ)
    (op_id : Nat) (saturated : Int) (j : Nat) :
    bget (c.reduce_operator_costs_op op_id saturated).useless_operators j
      = if op_id = j ∧ op_id < c.useless_operators.length ∧ saturated = -INF then true
        else bget c.useless_operators j := by
  unfold CostFunctionStateDependent.reduce_operator_costs_op
  split_ifs with h1 h2 h3
  · show bget (c.useless_operators.set op_id true) j = true
    unfold bget
    rw [getD_set_eq, if_pos ⟨h2.1, h2.2.1⟩]
  · show bget (c.useless_operators.set op_id true) j = bget c.useless_operators j
    unfold bget
    rw [getD_set_eq]
    split_ifs with h4
    · exact absurd ⟨h4.1, h4.2, h1⟩ h2
    · rfl
  · exact absurd h3.2.2 h1
  · rfl

theorem reduce_operator_costs_op_frame (c : CostFunctionStateDependent σ)
    (op_id : Nat) (saturated : Int) :
    (c.reduce_operator_costs_op op_id saturated).operator_costs = c.operator_costs ∧
    (c.reduce_operator_costs_op op_id saturated).max_buckets = c.max_buckets ∧
    (c.reduce_operator_costs_op op_id saturated).remaining_sd_costs.length
      = c.remaining_sd_costs.length ∧
    (c.reduce_operator_costs_op op_id saturated).useless_operators.length
      = c.useless_operators.length := by
  unfold CostFunctionStateDependent.reduce_operator_costs_op
  split_ifs <;> simp

/-- The loop of `reduce_operator_costs(const vector<int> &socf)` over the first `k`
operators changes the entry of an operator `j < k` as the call for `j` alone does. -/
theorem reduce_operator_costs_upto (c : CostFunctionStateDependent σ) (socf : List Int)
    (k : Nat) :
    let ck := (List.range k).foldl
      (fun c op_id =>
        if vget socf op_id = 0 ∨ vget socf op_id = INF then c
        else c.reduce_operator_costs_op op_id (vget socf op_id)) c
    ck.operator_costs = c.operator_costs ∧ ck.max_buckets = c.max_buckets ∧
    ck.remaining_sd_costs.length = c.remaining_sd_costs.length ∧
    ck.useless_operators.length = c.useless_operators.length ∧
    ∀ j,
      ck.buckets j = (if j < k ∧ ¬(vget socf j = 0 ∨ vget socf j = INF) then
          (c.reduce_operator_costs_op j (vget socf j)).buckets j else c.buckets j) ∧
      bget ck.useless_operators j
        = (if j < k ∧ ¬(vget socf j = 0 ∨ vget socf j = INF) then
          bget (c.reduce_operator_costs_op j (vget socf j)).useless_operators j
          else bget c.useless_operators j) := by
  induction k with
  | zero =>
    simp
  | succ k ih =>
    intro ck
    obtain ⟨h1, h2, h3, h4, h5⟩ := ih
    have hck : ck = (fun (c : CostFunctionStateDependent σ) op_id =>
        if vget socf op_id = 0 ∨ vget socf op_id = INF then c
        else c.reduce_operator_costs_op op_id (vget socf op_id))
        ((List.range k).foldl
          (fun c op_id =>
            if vget socf op_id = 0 ∨ vget socf op_id = INF then c
            else c.reduce_operator_costs_op op_id (vget socf op_id)) c) k := by
      show List.foldl _ c (List.range (k + 1)) = _
      rw [List.range_succ, List.foldl_append]
      rfl
    generalize (List.range k).foldl
          (fun c op_id =>
            if vget socf op_id = 0 ∨ vget socf op_id = INF then c
            else c.reduce_operator_costs_op op_id (vget socf op_id)) c = cp at *
    rw [hck]
    beta_reduce
    by_cases hs : vget socf k = 0 ∨ vget socf k = INF
    · rw [if_pos hs]
      refine ⟨h1, h2, h3, h4, ?_⟩
      intro j
      obtain ⟨h6, h7⟩ := h5 j
      have e1 : (j < k + 1 ∧ ¬(vget socf j = 0 ∨ vget socf j = INF)) ↔
          (j < k ∧ ¬(vget socf j = 0 ∨ vget socf j = INF)) := by
        constructor
        · rintro ⟨a, b⟩
          refine ⟨?_, b⟩
          rcases Nat.lt_succ_iff_lt_or_eq.1 a with h | h
          · exact h
          · rw [h] at b; exact absurd hs b
        · rintro ⟨a, b⟩; exact ⟨by omega, b⟩
      rw [h6, h7]
      simp only [e1, and_self]
    · rw [if_neg hs]
      obtain ⟨f1, f2, f3, f4⟩ := reduce_operator_costs_op_frame cp k (vget socf k)
      refine ⟨f1.trans h1, f2.trans h2, f3.trans h3, f4.trans h4, ?_⟩
      intro j
      obtain ⟨h6, h7⟩ := h5 j
      obtain ⟨h6k, h7k⟩ := h5 k
      rw [if_neg (by omega)] at h6k h7k
      rw [reduce_operator_costs_op_buckets, reduce_operator_costs_op_useless]
      by_cases hj : j = k
      · rw [hj]
        have hc1 : k < k + 1 ∧ ¬(vget socf k = 0 ∨ vget socf k = INF) :=
          ⟨Nat.lt_succ_self _, hs⟩
        rw [if_pos hc1, if_pos hc1,
          reduce_operator_costs_op_buckets, reduce_operator_costs_op_useless, h3, h4, h6k, h7k]
        exact ⟨rfl, rfl⟩
      · have hkj : ¬ (k = j ∧ k < cp.remaining_sd_costs.length) := fun h => hj h.1.symm
        have hkj' : ¬ (k = j ∧ k < cp.useless_operators.length ∧ vget socf k = -INF) :=
          fun h => hj h.1.symm
        have e1 : (j < k + 1 ∧ ¬(vget socf j = 0 ∨ vget socf j = INF)) ↔
            (j < k ∧ ¬(vget socf j = 0 ∨ vget socf j = INF)) := by
          constructor
          · rintro ⟨a, b⟩; exact ⟨by omega, b⟩
          · rintro ⟨a, b⟩; exact ⟨by omega, b⟩
        rw [if_neg hkj, if_neg hkj', h6, h7]
        simp only [e1, and_self]

omit [Fintype σ] in
theorem reduce_key_finite {saturated k : Int} (hs1 : saturated ≠ INF)
    (hs2 : saturated ≠ -INF) (hk1 : k ≠ INF) (hk2 : k ≠ -INF) :
    reduce_key saturated k = max 0 (k - saturated) := by
  unfold reduce_key left_subtraction
  rw [if_neg hk1, if_neg (by tauto), if_neg (by tauto)]

/-- C9: `reduce_operator_costs` for one operator. With `saturated = -INF` the bucket map of
the operator becomes the single bucket `(+INF, all states)` and the operator is marked
useless. With a finite `saturated > 0` every concrete state of finite old cost `k` gets the
cost `max(0, k - saturated)`, a state of cost `+INF` keeps it, the new map has one bucket per
key and each new bucket is the union of the old buckets moved to its key. The entries of all
other operators are unchanged. The overload on a vector treats every operator as the call
with its own entry does (entries `0` and `+INF` are skipped). -/
theorem reduce_by_operator [Inhabited σ] (c : CostFunctionStateDependent σ)
    (hc : c.WellFormed) (op_id : Nat) (hop : op_id < c.num_operators) :
    ((c.reduce_operator_costs_op op_id (-INF)).buckets op_id = [(INF, Finset.univ)] ∧
      bget (c.reduce_operator_costs_op op_id (-INF)).useless_operators op_id = true) ∧
    (∀ saturated : Int, 0 < saturated → saturated ≠ INF →
      (∀ (x : σ) (k : Int), bucket_cost (c.buckets op_id) x = some k →
        (k ≠ INF → k ≠ -INF →
          bucket_cost ((c.reduce_operator_costs_op op_id saturated).buckets op_id) x
            = some (max 0 (k - saturated))) ∧
        (k = INF →
          bucket_cost ((c.reduce_operator_costs_op op_id saturated).buckets op_id) x
            = some INF)) ∧
      KeysAscending ((c.reduce_operator_costs_op op_id saturated).buckets op_id) ∧
      (∀ e' ∈ (c.reduce_operator_costs_op op_id saturated).buckets op_id, ∀ x : σ,
        x ∈ e'.2 ↔ ∃ e ∈ c.buckets op_id, x ∈ e.2 ∧ reduce_key saturated e.1 = e'.1) ∧
      (c.reduce_operator_costs_op op_id saturated).useless_operators
        = c.useless_operators) ∧
    (∀ (saturated : Int) (j : Nat), j ≠ op_id →
      (c.reduce_operator_costs_op op_id saturated).buckets j = c.buckets j ∧
      bget (c.reduce_operator_costs_op op_id saturated).useless_operators j
        = bget c.useless_operators j) ∧
    (∀ (socf : List Int) (j : Nat),
      ((vget socf j = 0 ∨ vget socf j = INF) →
        (c.reduce_operator_costs socf).buckets j = c.buckets j ∧
        bget (c.reduce_operator_costs socf).useless_operators j
          = bget c.useless_operators j) ∧
      (¬(vget socf j = 0 ∨ vget socf j = INF) → j < c.num_operators →
        (c.reduce_operator_costs socf).buckets j
          = (c.reduce_operator_costs_op j (vget socf j)).buckets j ∧
        bget (c.reduce_operator_costs socf).useless_operators j
          = bget (c.reduce_operator_costs_op j (vget socf j)).useless_operators j)) := by
  have hlen : op_id < c.remaining_sd_costs.length := by rw [hc.1]; exact hop
  have hulen : op_id < c.useless_operators.length := by rw [hc.2.1]; exact hop
  have hb := wellFormed_buckets hc hop
  refine ⟨⟨?_, ?_⟩, ?_, ?_, ?_⟩
  · rw [reduce_operator_costs_op_buckets, if_pos ⟨rfl, hlen⟩, if_pos rfl]
  · rw [reduce_operator_costs_op_useless, if_pos ⟨rfl, hulen, rfl⟩]
  · intro saturated hpos hinf
    have hninf : saturated ≠ -INF := by
      intro h; rw [h] at hpos; unfold INF at hpos; omega
    have hbuckets : (c.reduce_operator_costs_op op_id saturated).buckets op_id
        = reduce_bucket_map saturated (c.buckets op_id) := by
      rw [reduce_operator_costs_op_buckets, if_pos ⟨rfl, hlen⟩, if_neg hninf]
    rw [hbuckets]
    have hcanon := canon_reduce_bucket_map saturated hb.1.2.2
    refine ⟨?_, hcanon.1.1, ?_, ?_⟩
    · intro x k hk
      rw [bucket_cost_reduce_bucket_map saturated hb.1.2.2, hk]
      constructor
      · intro h1 h2
        rw [Option.map_some', reduce_key_finite hinf hninf h1 h2]
      · intro h1
        rw [Option.map_some', h1]
        rfl
    · intro e' he' x
      constructor
      · intro hx
        have h1 := bucket_cost_of_mem hcanon.1.2.2 he' hx
        rw [bucket_cost_reduce_bucket_map saturated hb.1.2.2] at h1
        cases hcost : bucket_cost (c.buckets op_id) x with
        | none => rw [hcost] at h1; simp at h1
        | some k =>
          rw [hcost, Option.map_some'] at h1
          obtain ⟨e, he, hek, hxe⟩ := mem_of_bucket_cost hcost
          exact ⟨e, he, hxe, by rw [hek]; exact Option.some.inj h1⟩
      · rintro ⟨e, he, hxe, hkey⟩
        have h1 := bucket_cost_of_mem hb.1.2.2 he hxe
        have h2 : bucket_cost (reduce_bucket_map saturated (c.buckets op_id)) x
            = some e'.1 := by
          rw [bucket_cost_reduce_bucket_map saturated hb.1.2.2, h1, Option.map_some', hkey]
        obtain ⟨f, hf, hfk, hxf⟩ := mem_of_bucket_cost h2
        have hfe : f = e' := by
          by_contra hne
          have hpair := hcanon.1.1
          unfold KeysAscending at hpair
          have := List.Pairwise.forall_of_forall (l := reduce_bucket_map saturated (c.buckets op_id))
            (R := fun a b : Int × Finset σ => a.1 ≠ b.1 ∨ a = b)
            (fun a b h => by
              rcases h with h | h
              · exact Or.inl (Ne.symm h)
              · exact Or.inr h.symm)
            (fun a _ => Or.inr rfl)
            (hpair.imp (fun h => Or.inl (ne_of_lt h)))
          rcases this hf he' with h | h
          · exact h hfk
          · exact hne h
        rw [← hfe]; exact hxf
    · unfold CostFunctionStateDependent.reduce_operator_costs_op
      rw [if_neg hninf]
  · intro saturated j hj
    rw [reduce_operator_costs_op_buckets, reduce_operator_costs_op_useless,
      if_neg (fun h => hj h.1.symm), if_neg (fun h => hj h.1.symm)]
    exact ⟨rfl, rfl⟩
  · intro socf j
    have h := (reduce_operator_costs_upto c socf c.num_operators).2.2.2.2 j
    constructor
    · intro hs
      rw [if_neg (fun h => h.2 hs), if_neg (fun h => h.2 hs)] at h
      exact h
    · intro hs hj
      rw [if_pos ⟨hj, hs⟩, if_pos ⟨hj, hs⟩] at h
      exact h

end reduce_by_operator
/-! ## C10: reducing twice -/

section reduce_twice
variable {σ : Type} [DecidableEq σ] [Fintype σ]

theorem foldl_comm_step {X : Type} (step : X → Nat → X)
    (hcomm : ∀ x i j, step (step x i) j = step (step x j) i) (a : Nat) (l : List Nat) :
    ∀ x, step (l.foldl step x) a = l.foldl step (step x a) := by
  induction l with
  | nil => intro x; rfl
  | cons b l ih =>
    intro x
    rw [List.foldl_cons, List.foldl_cons, ih, hcomm]

/-- A loop whose steps commute and are idempotent is idempotent. -/
theorem foldl_idempotent {X : Type} (step : X → Nat → X)
    (hcomm : ∀ x i j, step (step x i) j = step (step x j) i)
    (hidem : ∀ x i, step (step x i) i = step x i) (l : List Nat) :
    ∀ x, l.foldl step (l.foldl step x) = l.foldl step x := by
  induction l with
  | nil => intro x; rfl
  | cons a l ih =>
    intro x
    rw [List.foldl_cons, List.foldl_cons, foldl_comm_step step hcomm a l, hidem, ih]

/-- Collapsing the bucket map of an operator to `(+INF, ⊤)` and marking it useless. -/
theorem reduce_operator_costs_op_neg_inf (c : CostFunctionStateDependent σ) (op_id : Nat) :
    c.reduce_operator_costs_op op_id (-INF)
      = { operator_costs := c.operator_costs, max_buckets := c.max_buckets,
          remaining_sd_costs := c.remaining_sd_costs.set op_id [(INF, Finset.univ)],
          useless_operators := c.useless_operators.set op_id true } := by
  unfold CostFunctionStateDependent.reduce_operator_costs_op
  rw [if_pos rfl]

theorem set_set_comm {α : Type} (l : List α) (i j : Nat) (a : α) :
    (l.set i a).set j a = (l.set j a).set i a := by
  by_cases h : i = j
  · rw [h]
  · exact List.set_comm a a l h

/-- Reducing by an operator cost vector whose entries are all `0`, `+INF` or `-INF` is
idempotent. -/
theorem reduce_operator_costs_idempotent (c : CostFunctionStateDependent σ)
    (socf : List Int)
    (hsocf : ∀ op_id, vget socf op_id = 0 ∨ vget socf op_id = INF ∨ vget socf op_id = -INF) :
    (c.reduce_operator_costs socf).reduce_operator_costs socf
      = c.reduce_operator_costs socf := by
  have hn : (c.reduce_operator_costs socf).num_operators = c.num_operators := by
    have := (reduce_operator_costs_upto c socf c.num_operators).1
    exact congrArg List.length this
  have hstep : ∀ (x : CostFunctionStateDependent σ) (i : Nat),
      (if vget socf i = 0 ∨ vget socf i = INF then x
        else x.reduce_operator_costs_op i (vget socf i))
      = (if vget socf i = 0 ∨ vget socf i = INF then x
        else x.reduce_operator_costs_op i (-INF)) := by
    intro x i
    split_ifs with h
    · rfl
    · rcases hsocf i with h0 | h0 | h0
      · exact absurd (Or.inl h0) h
      · exact absurd (Or.inr h0) h
      · rw [h0]
  unfold CostFunctionStateDependent.reduce_operator_costs
  rw [show (List.range (List.foldl (fun c op_id =>
        if vget socf op_id = 0 ∨ vget socf op_id = INF then c
        else c.reduce_operator_costs_op op_id (vget socf op_id)) c
        (List.range c.num_operators)).num_operators) = List.range c.num_operators from
    congrArg List.range hn]
  apply foldl_idempotent
  · intro x i j
    rw [hstep, hstep, hstep x j, hstep]
    by_cases hi : vget socf i = 0 ∨ vget socf i = INF
    · simp only [if_pos hi]
    · by_cases hj : vget socf j = 0 ∨ vget socf j = INF
      · simp only [if_pos hj]
      · simp only [if_neg hi, if_neg hj, reduce_operator_costs_op_neg_inf]
        rw [set_set_comm x.remaining_sd_costs, set_set_comm x.useless_operators]
  · intro x i
    rw [hstep, hstep]
    by_cases hi : vget socf i = 0 ∨ vget socf i = INF
    · simp only [if_pos hi]
    · simp only [if_neg hi, reduce_operator_costs_op_neg_inf, List.set_set]

end reduce_twice
section reduce_twice_transitions
variable {σ : Type} [DecidableEq σ] [Fintype σ]

omit [Fintype σ] in
/-- When no transition of an operator outside `si` has a finite saturated cost other than
`0`, step 1 of `reduce_transition_costs_finite` collects nothing. -/
theorem compute_stcf_dds_empty (num_operators : Nat) (transitions : List Transition)
    (make_transition_bdd : Transition → Finset σ) (tcf : AbstractTransitionCostFunction)
    (h : ∀ t ∈ transitions, bget tcf.si t.op_id = false →
      vget tcf.sd_costs t.transition_id = -INF ∨ vget tcf.sd_costs t.transition_id = 0 ∨
        vget tcf.sd_costs t.transition_id = INF) :
    compute_stcf_dds num_operators transitions make_transition_bdd tcf
      = List.replicate num_operators [] := by
  unfold compute_stcf_dds
  generalize List.replicate num_operators ([] : List (Int × Finset σ)) = init
  induction transitions generalizing init with
  | nil => rfl
  | cons t rest ih =>
    rw [List.foldl_cons]
    have hrest := ih (fun t' ht' => h t' (List.mem_cons_of_mem _ ht'))
    have ht := h t (List.mem_cons_self _ _)
    by_cases hsi : bget tcf.si t.op_id = true
    · rw [if_pos hsi]; exact hrest init
    · rw [if_neg hsi, if_pos (ht (by simpa using hsi))]; exact hrest init

theorem move_changed_buckets_nil (m new_sd_costs : BucketMap σ) :
    move_changed_buckets [] m new_sd_costs = (m, new_sd_costs) := by
  induction m with
  | nil => rfl
  | cons r rest ih =>
    have hunf : move_changed_buckets [] (r :: rest) new_sd_costs
        = ((r.1, (move_changed_states [] r new_sd_costs).1) ::
            (move_changed_buckets [] rest (move_changed_states [] r new_sd_costs).2).1,
           (move_changed_buckets [] rest (move_changed_states [] r new_sd_costs).2).2) :=
      rfl
    have hst : move_changed_states [] r new_sd_costs = (r.2, new_sd_costs) := rfl
    rw [hunf, hst, ih]

omit [Fintype σ] in
theorem map_add_append {k : Int} {b : Finset σ} (init : BucketMap σ)
    (h : ∀ e ∈ init, e.1 < k) : map_add k b init = init ++ [(k, b)] := by
  induction init with
  | nil => rfl
  | cons e rest ih =>
    have he := h e (List.mem_cons_self _ _)
    unfold map_add
    rw [if_neg (by omega), if_neg (by omega), ih (fun f hf => h f (List.mem_cons_of_mem _ hf))]
    rfl

omit [Fintype σ] in
/-- Re-inserting the buckets of a map with ascending keys and no empty bucket, in order,
rebuilds the same map. -/
theorem foldl_insert_ordered (m : BucketMap σ) :
    ∀ init : BucketMap σ, KeysAscending (init ++ m) → BucketsNonempty m →
      m.foldl (fun new_sd_costs r => insert_cost_value r.1 r.2 new_sd_costs) init
        = init ++ m := by
  induction m with
  | nil => intro init _ _; simp
  | cons r rest ih =>
    intro init hk hn
    have hr : r.2 ≠ ∅ := hn r (List.mem_cons_self _ _)
    have hlt : ∀ e ∈ init, e.1 < r.1 := by
      intro e he
      unfold KeysAscending at hk
      rw [List.pairwise_append] at hk
      exact hk.2.2 e he r (List.mem_cons_self _ _)
    have hins : insert_cost_value r.1 r.2 init = init ++ [r] := by
      unfold insert_cost_value
      rw [if_neg hr, map_add_append init hlt]
    rw [List.foldl_cons, hins, ih (init ++ [r]) (by simpa using hk)
      (fun e he => hn e (List.mem_cons_of_mem _ he))]
    simp

omit [Fintype σ] in
theorem foldl_insert_ascending (m : List (Int × Finset σ)) :
    ∀ init : BucketMap σ, KeysAscending init → BucketsNonempty init →
      KeysAscending (m.foldl (fun new_sd_costs r => insert_cost_value r.1 r.2 new_sd_costs) init) ∧
      BucketsNonempty
        (m.foldl (fun new_sd_costs r => insert_cost_value r.1 r.2 new_sd_costs) init) := by
  induction m with
  | nil => intro init h1 h2; exact ⟨h1, h2⟩
  | cons r rest ih =>
    intro init h1 h2
    rw [List.foldl_cons]
    exact ih _ (keysAscending_insert_cost_value h1) (bucketsNonempty_insert_cost_value h2)

omit [Fintype σ] in
theorem limit_buckets_from_ascending (MAX_BUCKETS : Int) (m : BucketMap σ) :
    ∀ index : Int, KeysAscending m → BucketsNonempty m →
      KeysAscending (limit_buckets_from MAX_BUCKETS index m) ∧
        BucketsNonempty (limit_buckets_from MAX_BUCKETS index m) := by
  induction m with
  | nil => intro index h1 h2; exact ⟨by simpa [limit_buckets_from] using h1, by
      intro e he; simp [limit_buckets_from] at he⟩
  | cons f rest ih =>
    intro index hk hn
    have hf : f.2 ≠ ∅ := hn f (List.mem_cons_self _ _)
    unfold limit_buckets_from
    split_ifs with h1
    · refine ⟨List.pairwise_singleton _ _, ?_⟩
      intro e he
      rw [List.mem_singleton] at he
      rw [he, foldl_union_eq]
      intro h0
      apply hf
      rw [← Finset.subset_empty, ← h0]
      exact Finset.subset_union_left
    · obtain ⟨i1, i2⟩ := ih (index + 1) (List.pairwise_cons.1 hk).2
        (fun e he => hn e (List.mem_cons_of_mem _ he))
      refine ⟨?_, ?_⟩
      · unfold KeysAscending
        rw [List.pairwise_cons]
        refine ⟨?_, i1⟩
        intro e he
        obtain ⟨g, hg, hge⟩ := limit_buckets_from_keys MAX_BUCKETS rest _ e he
        rw [← hge]
        exact (List.pairwise_cons.1 hk).1 g hg
      · intro e he
        rcases List.mem_cons.1 he with h' | h'
        · rw [h']; exact hf
        · exact i2 e h'

omit [Fintype σ] in
theorem limit_buckets_from_length (MAX_BUCKETS : Int) (m : BucketMap σ) :
    ∀ index : Int, index ≤ MAX_BUCKETS - 1 →
      ((limit_buckets_from MAX_BUCKETS index m).length : Int) ≤ MAX_BUCKETS - index := by
  induction m with
  | nil => intro index h; simp [limit_buckets_from]; omega
  | cons f rest ih =>
    intro index h
    unfold limit_buckets_from
    split_ifs with h1
    · simp; omega
    · have := ih (index + 1) (by omega)
      simp only [List.length_cons]
      push_cast
      omega

omit [Fintype σ] in
theorem limit_buckets_idempotent (MAX_BUCKETS : Int) (h : 1 ≤ MAX_BUCKETS)
    (m : BucketMap σ) :
    limit_buckets (limit_buckets m MAX_BUCKETS) MAX_BUCKETS = limit_buckets m MAX_BUCKETS := by
  by_cases hlen : (m.length : Int) > MAX_BUCKETS
  · have h1 : limit_buckets m MAX_BUCKETS = limit_buckets_from MAX_BUCKETS 0 m := by
      unfold limit_buckets; rw [if_pos hlen]
    rw [h1]
    have h2 := limit_buckets_from_length MAX_BUCKETS m 0 (by omega)
    unfold limit_buckets
    rw [if_neg (by omega)]
  · have h1 : limit_buckets m MAX_BUCKETS = m := by
      unfold limit_buckets; rw [if_neg hlen]
    rw [h1, h1]

/-- Step 2 of `reduce_transition_costs_finite` with nothing to subtract. -/
theorem subtract_stcf_dd_nil (max_buckets : Int) (m : BucketMap σ) :
    subtract_stcf_dd max_buckets [] m
      = limit_buckets
          (m.foldl (fun new_sd_costs r => insert_cost_value r.1 r.2 new_sd_costs) [])
          max_buckets := by
  unfold subtract_stcf_dd
  rw [move_changed_buckets_nil]

theorem subtract_stcf_dd_nil_idempotent (max_buckets : Int) (h : 1 ≤ max_buckets)
    (m : BucketMap σ) :
    subtract_stcf_dd max_buckets [] (subtract_stcf_dd max_buckets [] m)
      = subtract_stcf_dd max_buckets [] m := by
  rw [subtract_stcf_dd_nil, subtract_stcf_dd_nil]
  obtain ⟨h1, h2⟩ := foldl_insert_ascending m [] List.Pairwise.nil
    (fun _ he => absurd he (List.not_mem_nil _))
  have h3 : KeysAscending (limit_buckets
      (m.foldl (fun new_sd_costs r => insert_cost_value r.1 r.2 new_sd_costs) [])
      max_buckets) ∧ BucketsNonempty (limit_buckets
      (m.foldl (fun new_sd_costs r => insert_cost_value r.1 r.2 new_sd_costs) [])
      max_buckets) := by
    unfold limit_buckets
    split_ifs
    · exact limit_buckets_from_ascending max_buckets _ 0 h1 h2
    · exact ⟨h1, h2⟩
  rw [foldl_insert_ordered _ [] (by simpa using h3.1) h3.2, List.nil_append,
    limit_buckets_idempotent max_buckets h]

theorem getD_replicate_nil {α : Type} (n j : Nat) :
    (List.replicate n ([] : List α)).getD j [] = [] := by
  rw [List.getD_eq_getElem?_getD]
  by_cases h : j < n
  · simp [List.getElem?_replicate, h]
  · simp [List.getElem?_replicate, h]

/-- Reducing by transition costs none of which is finite and nonzero (outside `si`) is
idempotent. -/
theorem reduce_transition_costs_finite_idempotent (c : CostFunctionStateDependent σ)
    (hmax : 1 ≤ c.max_buckets) (transitions : List Transition)
    (make_transition_bdd : Transition → Finset σ) (tcf : AbstractTransitionCostFunction)
    (h : ∀ t ∈ transitions, bget tcf.si t.op_id = false →
      vget tcf.sd_costs t.transition_id = -INF ∨ vget tcf.sd_costs t.transition_id = 0 ∨
        vget tcf.sd_costs t.transition_id = INF) :
    (c.reduce_transition_costs_finite transitions make_transition_bdd tcf).reduce_transition_costs_finite
        transitions make_transition_bdd tcf
      = c.reduce_transition_costs_finite transitions make_transition_bdd tcf := by
  unfold CostFunctionStateDependent.reduce_transition_costs_finite
  simp only [CostFunctionStateDependent.num_operators, compute_stcf_dds_empty _ _ _ _ h,
    getD_replicate_nil]
  congr 1
  apply List.map_congr_left
  intro op_id hop
  have hop' : op_id < c.operator_costs.length := List.mem_range.1 hop
  have hb : CostFunctionStateDependent.buckets
      { operator_costs := c.operator_costs, max_buckets := c.max_buckets,
        remaining_sd_costs := (List.range c.operator_costs.length).map fun op_id =>
          if bget tcf.si op_id then c.buckets op_id
          else subtract_stcf_dd c.max_buckets [] (c.buckets op_id),
        useless_operators := c.useless_operators } op_id
      = if bget tcf.si op_id then c.buckets op_id
        else subtract_stcf_dd c.max_buckets [] (c.buckets op_id) := by
    show List.getD _ op_id [] = _
    rw [getD_map_range, if_pos hop']
  rw [hb]
  split_ifs
  · rfl
  · exact subtract_stcf_dd_nil_idempotent c.max_buckets hmax _

end reduce_twice_transitions
/-- The statement of C9 on a cost function over two concrete states: reducing operator `0`
of cost `5` by the saturated value `3` leaves the state `true` with the cost
`max(0, 5 - 3)`. -/
theorem reduce_by_operator_witness :
    (two_state_cost_function [5, 7]).WellFormed ∧
    0 < (two_state_cost_function [5, 7]).num_operators ∧
    bucket_cost (((two_state_cost_function [5, 7]).reduce_operator_costs_op 0 3).buckets 0) true
      = some (max 0 (5 - 3)) :=
  ⟨wellFormed_create _ _, by decide,
    ((((reduce_by_operator (two_state_cost_function [5, 7]) (wellFormed_create _ _) 0
      (by decide)).2.1 3 (by decide) (by decide)).1 true 5 (by decide)).1
        (by decide) (by decide))⟩

/-- C10 (counterexample): one bucket `(10, ⊤)` and the saturated cost `3`: one reduction
leaves the cost `7`, two reductions leave the cost `4`. -/
theorem reduce_twice_counterexample :
    ((two_state_cost_function [10]).reduce_operator_costs [3]).buckets 0
      = [(7, Finset.univ)] ∧
    (((two_state_cost_function [10]).reduce_operator_costs [3]).reduce_operator_costs
      [3]).buckets 0 = [(4, Finset.univ)] ∧
    ((two_state_cost_function [10]).reduce_operator_costs [3]).reduce_operator_costs [3]
      ≠ (two_state_cost_function [10]).reduce_operator_costs [3] := by
  refine ⟨by decide, by decide, ?_⟩
  intro h
  have h2 := congrArg (fun c => CostFunctionStateDependent.buckets c 0) h
  revert h2
  decide

/-- C10 (amended): a second reduction with the same saturated cost function changes
nothing when no entry that is used is finite and nonzero: for an operator vector with all
entries `0`, `+INF` or `-INF`, and for transition costs that are `0`, `+INF` or `-INF` on
every transition of an operator outside `si`. (A finite nonzero entry is subtracted again by
the second reduction.) -/
theorem reduce_twice_same {σ : Type} [DecidableEq σ] [Fintype σ] :
    (∀ (c : CostFunctionStateDependent σ) (socf : List Int),
      (∀ op_id, vget socf op_id = 0 ∨ vget socf op_id = INF ∨ vget socf op_id = -INF) →
      (c.reduce_operator_costs socf).reduce_operator_costs socf
        = c.reduce_operator_costs socf) ∧
    (∀ (c : CostFunctionStateDependent σ) (transitions : List Transition)
      (make_transition_bdd : Transition → Finset σ) (tcf : AbstractTransitionCostFunction),
      1 ≤ c.max_buckets →
      (∀ t ∈ transitions, bget tcf.si t.op_id = false →
        vget tcf.sd_costs t.transition_id = -INF ∨ vget tcf.sd_costs t.transition_id = 0 ∨
          vget tcf.sd_costs t.transition_id = INF) →
      (c.reduce_transition_costs_finite transitions make_transition_bdd
          tcf).reduce_transition_costs_finite transitions make_transition_bdd tcf
        = c.reduce_transition_costs_finite transitions make_transition_bdd tcf) :=
  ⟨fun c socf h => reduce_operator_costs_idempotent c socf h,
    fun c transitions bdd tcf hmax h =>
      reduce_transition_costs_finite_idempotent c hmax transitions bdd tcf h⟩

/-- The amended C10 on a cost function over two concrete states and the operator vector
`[-INF, 0]`. -/
theorem reduce_twice_same_witness :
    (∀ op_id, vget [-INF, 0] op_id = 0 ∨ vget [-INF, 0] op_id = INF ∨
      vget [-INF, 0] op_id = -INF) ∧
    ((two_state_cost_function [5, 7]).reduce_operator_costs [-INF, 0]).reduce_operator_costs
        [-INF, 0]
      = (two_state_cost_function [5, 7]).reduce_operator_costs [-INF, 0] :=
  have h : ∀ op_id, vget [-INF, 0] op_id = 0 ∨ vget [-INF, 0] op_id = INF ∨
      vget [-INF, 0] op_id = -INF := by
    intro op_id
    match op_id with
    | 0 => exact Or.inr (Or.inr rfl)
    | 1 => exact Or.inl rfl
    | n + 2 => exact Or.inl rfl
  ⟨h, reduce_twice_same.1 (two_state_cost_function [5, 7]) [-INF, 0] h⟩
/-! ## Dijkstra: the loop invariant -/

section dijkstra

theorem vget_set (d : List Int) (i j : Nat) (x : Int) :
    vget (d.set i x) j = if i = j ∧ i < d.length then x else vget d j :=
  getD_set_eq d i j x 0

theorem vget_of_length_le {d : List Int} {i : Nat} (h : d.length ≤ i) : vget d i = 0 := by
  unfold vget
  rw [List.getD_eq_getElem?_getD, List.getElem?_eq_none_iff.2 h]
  rfl

theorem vget_of_lt {d : List Int} {i : Nat} (h : vget d i ≠ 0) : i < d.length := by
  by_contra hc
  exact h (vget_of_length_le (by omega))

theorem vget_mem {d : List Int} {i : Nat} (h : i < d.length) : vget d i ∈ d := by
  unfold vget
  rw [List.getD_eq_getElem?_getD, List.getElem?_eq_getElem h]
  exact List.getElem_mem h

theorem vget_nonneg_of_costs {costs : List Int} (h : NonnegativeCosts costs) (i : Nat) :
    0 ≤ vget costs i ∧ vget costs i ≤ INF := by
  by_cases hi : i < costs.length
  · exact h _ (vget_mem hi)
  · rw [vget_of_length_le (by omega)]
    exact ⟨le_refl _, by unfold INF; omega⟩

theorem AdaptiveQueue.top_mem : ∀ (q : AdaptiveQueue) (m : Int × Nat),
    AdaptiveQueue.top q = some m → m ∈ q := by
  intro q
  induction q with
  | nil => intro m h; simp [AdaptiveQueue.top] at h
  | cons e q ih =>
    intro m h
    unfold AdaptiveQueue.top at h
    cases htop : AdaptiveQueue.top q with
    | none =>
      rw [htop] at h
      simp only [Option.some.injEq] at h
      rw [← h]; exact List.mem_cons_self _ _
    | some m' =>
      rw [htop] at h
      simp only at h
      split_ifs at h with hlt
      · simp only [Option.some.injEq] at h
        rw [← h]; exact List.mem_cons_of_mem _ (ih m' htop)
      · simp only [Option.some.injEq] at h
        rw [← h]; exact List.mem_cons_self _ _

theorem AdaptiveQueue.top_eq_none : ∀ (q : AdaptiveQueue),
    AdaptiveQueue.top q = none → q = [] := by
  intro q h
  cases q with
  | nil => rfl
  | cons e q =>
    unfold AdaptiveQueue.top at h
    cases htop : AdaptiveQueue.top q with
    | none => rw [htop] at h; simp at h
    | some m' =>
      rw [htop] at h
      simp only at h
      split_ifs at h

theorem AdaptiveQueue.pop_some {q q' : AdaptiveQueue} {m : Int × Nat}
    (h : AdaptiveQueue.pop q = some (m, q')) : m ∈ q ∧ q' = q.erase m := by
  unfold AdaptiveQueue.pop at h
  cases htop : AdaptiveQueue.top q with
  | none => rw [htop] at h; simp at h
  | some m' =>
    rw [htop] at h
    simp only [Option.some.injEq, Prod.mk.injEq] at h
    rw [← h.1, ← h.2]
    exact ⟨AdaptiveQueue.top_mem q m' htop, rfl⟩

theorem AdaptiveQueue.pop_none {q : AdaptiveQueue} (h : AdaptiveQueue.pop q = none) :
    q = [] := by
  unfold AdaptiveQueue.pop at h
  cases htop : AdaptiveQueue.top q with
  | none => exact AdaptiveQueue.top_eq_none q htop
  | some m' => rw [htop] at h; simp at h

end dijkstra
section dijkstra_invariant

theorem distance_sum_set {d : List Int} {i : Nat} {x : Int} (hx : 0 ≤ x)
    (hlt : x < vget d i) : distance_sum (d.set i x) + 1 ≤ distance_sum d := by
  induction d generalizing i with
  | nil =>
    rw [vget_of_length_le (by simp)] at hlt
    omega
  | cons y d ih =>
    cases i with
    | zero =>
      have hy : vget (y :: d) 0 = y := rfl
      rw [hy] at hlt
      simp only [List.set_cons_zero, distance_sum, List.map_cons, List.sum_cons]
      omega
    | succ i =>
      have hy : vget (y :: d) (i + 1) = vget d i := rfl
      rw [hy] at hlt
      have := ih hlt
      simp only [List.set_cons_succ, distance_sum, List.map_cons, List.sum_cons] at this ⊢
      omega

variable {graph : List (List Successor)} {ocf : List Int} {R : Nat → Int → Prop} {n : Nat}

/-- What the `for` loop over the arcs of the popped state does to the distances and the
queue. -/
theorem dijkstra_relax_fold (hcost : NonnegativeCosts ocf) (sd : Int) (hsd : 0 ≤ sd)
    (l : List Successor) (hl : ∀ s ∈ l, s.target_id < n) :
    ∀ (d : List Int) (q : AdaptiveQueue), d.length = n →
      (∀ v, 0 ≤ vget d v ∧ vget d v ≤ INF) →
      ((l.foldl (dijkstra_relax_ocf ocf sd) (d, q)).1.length = n) ∧
      (∀ v, 0 ≤ vget (l.foldl (dijkstra_relax_ocf ocf sd) (d, q)).1 v ∧
        vget (l.foldl (dijkstra_relax_ocf ocf sd) (d, q)).1 v ≤ INF) ∧
      (∀ v, vget (l.foldl (dijkstra_relax_ocf ocf sd) (d, q)).1 v ≤ vget d v) ∧
      (∀ e ∈ q, e ∈ (l.foldl (dijkstra_relax_ocf ocf sd) (d, q)).2) ∧
      (∀ v, vget (l.foldl (dijkstra_relax_ocf ocf sd) (d, q)).1 v ≠ vget d v →
        (vget (l.foldl (dijkstra_relax_ocf ocf sd) (d, q)).1 v, v) ∈
          (l.foldl (dijkstra_relax_ocf ocf sd) (d, q)).2 ∧
        ∃ s ∈ l, s.target_id = v ∧ vget ocf s.op_id ≠ INF ∧
          vget (l.foldl (dijkstra_relax_ocf ocf sd) (d, q)).1 v = sd + vget ocf s.op_id) ∧
      (∀ s ∈ l, vget ocf s.op_id ≠ INF →
        vget (l.foldl (dijkstra_relax_ocf ocf sd) (d, q)).1 s.target_id
          ≤ sd + vget ocf s.op_id) ∧
      ((l.foldl (dijkstra_relax_ocf ocf sd) (d, q)).2.length +
        distance_sum (l.foldl (dijkstra_relax_ocf ocf sd) (d, q)).1
          ≤ q.length + distance_sum d) := by
  induction l with
  | nil =>
    intro d q hlen hb
    simp only [List.foldl_nil]
    exact ⟨hlen, hb, fun v => le_refl _, fun e he => he, fun v h => absurd rfl h,
      fun s hs => absurd hs (List.not_mem_nil _), le_refl _⟩
  | cons s rest ih =>
    intro d q hlen hb
    have hrest : ∀ s ∈ rest, s.target_id < n := fun x hx => hl x (List.mem_cons_of_mem _ hx)
    have hs : s.target_id < n := hl s (List.mem_cons_self _ _)
    have hc := vget_nonneg_of_costs hcost s.op_id
    rw [List.foldl_cons]
    by_cases hrelax : vget d s.target_id >
        (if vget ocf s.op_id = INF then INF else sd + vget ocf s.op_id)
    · -- the arc is relaxed
      have hfin : vget ocf s.op_id ≠ INF := by
        intro h
        rw [if_pos h] at hrelax
        have := (hb s.target_id).2
        omega
      rw [if_neg hfin] at hrelax
      have hstep : dijkstra_relax_ocf ocf sd (d, q) s
          = (d.set s.target_id (sd + vget ocf s.op_id),
              AdaptiveQueue.push q (sd + vget ocf s.op_id) s.target_id) := by
        unfold dijkstra_relax_ocf
        simp only [if_neg hfin]
        rw [if_pos hrelax]
      rw [hstep]
      have hlen' : (d.set s.target_id (sd + vget ocf s.op_id)).length = n := by
        rw [List.length_set]; exact hlen
      have hb' : ∀ v, 0 ≤ vget (d.set s.target_id (sd + vget ocf s.op_id)) v ∧
          vget (d.set s.target_id (sd + vget ocf s.op_id)) v ≤ INF := by
        intro v
        rw [vget_set]
        split_ifs with h
        · have := (hb s.target_id).2
          constructor <;> omega
        · exact hb v
      have hle' : ∀ v, vget (d.set s.target_id (sd + vget ocf s.op_id)) v ≤ vget d v := by
        intro v
        rw [vget_set]
        split_ifs with h
        · rw [← h.1]; omega
        · exact le_refl _
      obtain ⟨i1, i2, i3, i4, i5, i6, i7⟩ :=
        ih hrest (d.set s.target_id (sd + vget ocf s.op_id))
          (AdaptiveQueue.push q (sd + vget ocf s.op_id) s.target_id) hlen' hb'
      have hset : vget (d.set s.target_id (sd + vget ocf s.op_id)) s.target_id
          = sd + vget ocf s.op_id := by
        rw [vget_set, if_pos ⟨rfl, by rw [hlen]; exact hs⟩]
      refine ⟨i1, i2, fun v => (i3 v).trans (hle' v), ?_, ?_, ?_, ?_⟩
      · intro e he
        exact i4 e (List.mem_append_left _ he)
      · intro v hv
        by_cases hv2 : vget (List.foldl (dijkstra_relax_ocf ocf sd)
            (d.set s.target_id (sd + vget ocf s.op_id),
              AdaptiveQueue.push q (sd + vget ocf s.op_id) s.target_id) rest).1 v
            = vget (d.set s.target_id (sd + vget ocf s.op_id)) v
        · -- unchanged by the rest: it was changed by this step
          have hvs : s.target_id = v := by
            by_contra hne
            apply hv
            rw [hv2, vget_set, if_neg (fun h => hne h.1)]
          rw [hv2, ← hvs, hset]
          refine ⟨i4 _ (List.mem_append_right _ (List.mem_singleton.2 rfl)), s,
            List.mem_cons_self _ _, rfl, hfin, rfl⟩
        · obtain ⟨j1, x, hx, j2⟩ := i5 v hv2
          exact ⟨j1, x, List.mem_cons_of_mem _ hx, j2⟩
      · intro x hx hxfin
        rcases List.mem_cons.1 hx with h | h
        · rw [h]
          exact (i3 s.target_id).trans (le_of_eq hset)
        · exact i6 x h hxfin
      · have hsum := distance_sum_set (d := d) (i := s.target_id)
          (x := sd + vget ocf s.op_id) (by omega) hrelax
        have hpush : (AdaptiveQueue.push q (sd + vget ocf s.op_id) s.target_id).length
            = q.length + 1 := by
          unfold AdaptiveQueue.push; simp
        omega
    · -- the arc is not relaxed
      have hstep : dijkstra_relax_ocf ocf sd (d, q) s = (d, q) := by
        unfold dijkstra_relax_ocf
        simp only
        rw [if_neg hrelax]
      rw [hstep]
      obtain ⟨i1, i2, i3, i4, i5, i6, i7⟩ := ih hrest d q hlen hb
      refine ⟨i1, i2, i3, i4, ?_, ?_, i7⟩
      · intro v hv
        obtain ⟨j1, x, hx, j2⟩ := i5 v hv
        exact ⟨j1, x, List.mem_cons_of_mem _ hx, j2⟩
      · intro x hx hxfin
        rcases List.mem_cons.1 hx with h | h
        · rw [h]
          rw [h] at hxfin
          rw [if_neg hxfin] at hrelax
          have := i3 s.target_id
          omega
        · exact i6 x h hxfin

end dijkstra_invariant
section dijkstra_loop
variable {graph : List (List Successor)} {ocf : List Int} {R : Nat → Int → Prop} {n : Nat}

theorem dijkstra_search_ocf_succ (graph : List (List Successor)) (ocf : List Int)
    (fuel : Nat) (q : AdaptiveQueue) (d : List Int) :
    dijkstra_search_ocf graph ocf (fuel + 1) q d
      = match AdaptiveQueue.pop q with
        | none => some d
        | some ((distance, state), queue) =>
          if vget d state < distance then dijkstra_search_ocf graph ocf fuel queue d
          else
            dijkstra_search_ocf graph ocf fuel
              ((graph.getD state []).foldl (dijkstra_relax_ocf ocf (vget d state))
                (d, queue)).2
              ((graph.getD state []).foldl (dijkstra_relax_ocf ocf (vget d state))
                (d, queue)).1 := by
  rw [dijkstra_search_ocf]

/-- One iteration of the `while` loop keeps the invariant and decreases the variant. -/
theorem dijkstra_step (hcost : NonnegativeCosts ocf)
    (hgraph : ∀ v, ∀ s ∈ graph.getD v [], s.target_id < n)
    (hgraph' : ∀ v, n ≤ v → graph.getD v [] = [])
    (hR : ∀ v s c, s ∈ graph.getD v [] → vget ocf s.op_id ≠ INF → R v c →
      R s.target_id (c + vget ocf s.op_id))
    {q : AdaptiveQueue} {d : List Int} (hinv : DijkstraInvariant graph ocf R n q d)
    {k : Int} {s : Nat} (hmem : (k, s) ∈ q) :
    DijkstraInvariant graph ocf R n
      ((graph.getD s []).foldl (dijkstra_relax_ocf ocf (vget d s)) (d, q.erase (k, s))).2
      ((graph.getD s []).foldl (dijkstra_relax_ocf ocf (vget d s)) (d, q.erase (k, s))).1 ∧
    (∀ v, vget ((graph.getD s []).foldl (dijkstra_relax_ocf ocf (vget d s))
      (d, q.erase (k, s))).1 v ≤ vget d v) ∧
    ((graph.getD s []).foldl (dijkstra_relax_ocf ocf (vget d s)) (d, q.erase (k, s))).2.length
      + distance_sum ((graph.getD s []).foldl (dijkstra_relax_ocf ocf (vget d s))
          (d, q.erase (k, s))).1 + 1 ≤ q.length + distance_sum d := by
  obtain ⟨f1, f2, f3, f4, f5, f6, f7⟩ := dijkstra_relax_fold hcost (vget d s) (hinv.bounds s).1
    (graph.getD s []) (hgraph s) d (q.erase (k, s)) hinv.len hinv.bounds
  have hself : vget ((graph.getD s []).foldl (dijkstra_relax_ocf ocf (vget d s))
      (d, q.erase (k, s))).1 s = vget d s := by
    by_contra hne
    obtain ⟨_, x, _, _, _, hval⟩ := f5 s hne
    have h1 := f3 s
    have h2 := (vget_nonneg_of_costs hcost x.op_id).1
    omega
  refine ⟨⟨f1, f2, ?_, ?_⟩, f3, ?_⟩
  · intro v hv hvinf
    by_cases hvs : v = s
    · right
      rw [hvs]
      intro x hx hxfin
      rw [hself]
      exact f6 x hx hxfin
    · by_cases hch : vget ((graph.getD s []).foldl (dijkstra_relax_ocf ocf (vget d s))
          (d, q.erase (k, s))).1 v = vget d v
      · rw [hch] at hvinf ⊢
        rcases hinv.pend v hv hvinf with h | h
        · left
          apply f4
          exact (List.mem_erase_of_ne (by
            intro heq
            exact hvs (Prod.mk.inj heq).2)).2 h
        · right
          intro x hx hxfin
          have := h x hx hxfin
          rw [hch]
          exact (f3 x.target_id).trans this
      · left
        exact (f5 v hch).1
  · intro v hv hvinf
    by_cases hch : vget ((graph.getD s []).foldl (dijkstra_relax_ocf ocf (vget d s))
        (d, q.erase (k, s))).1 v = vget d v
    · rw [hch] at hvinf ⊢
      exact hinv.real v hv hvinf
    · obtain ⟨_, x, hx, hxv, hxfin, hval⟩ := f5 v hch
      rw [hval, ← hxv]
      have hsn : s < n := by
        by_contra hc
        rw [hgraph' s (by omega)] at hx
        exact absurd hx (List.not_mem_nil _)
      have hsinf : vget d s ≠ INF := by
        intro h
        have h1 := (f2 v).2
        have h2 := (vget_nonneg_of_costs hcost x.op_id).1
        have h3 : vget ((graph.getD s []).foldl (dijkstra_relax_ocf ocf (vget d s))
            (d, q.erase (k, s))).1 v < vget d v := lt_of_le_of_ne (f3 v) hch
        have h4 := (hinv.bounds v).2
        omega
      exact hR s x _ hx hxfin (hinv.real s hsn hsinf)
  · have : (q.erase (k, s)).length = q.length - 1 := List.length_erase_of_mem hmem
    have hpos : 0 < q.length := List.length_pos_of_mem hmem
    omega

/-- The `while` loop of `dijkstra_search_ocf`: whatever it returns satisfies the invariant
with an empty queue and lies below the start distances, and it does return when the fuel
exceeds the variant. -/
theorem dijkstra_loop (hcost : NonnegativeCosts ocf)
    (hgraph : ∀ v, ∀ s ∈ graph.getD v [], s.target_id < n)
    (hgraph' : ∀ v, n ≤ v → graph.getD v [] = [])
    (hR : ∀ v s c, s ∈ graph.getD v [] → vget ocf s.op_id ≠ INF → R v c →
      R s.target_id (c + vget ocf s.op_id)) :
    ∀ (fuel : Nat) (q : AdaptiveQueue) (d : List Int),
      DijkstraInvariant graph ocf R n q d →
      (∀ r, dijkstra_search_ocf graph ocf fuel q d = some r →
        DijkstraInvariant graph ocf R n [] r ∧ ∀ v, vget r v ≤ vget d v) ∧
      (q.length + distance_sum d < fuel →
        ∃ r, dijkstra_search_ocf graph ocf fuel q d = some r) := by
  intro fuel
  induction fuel with
  | zero =>
    intro q d _
    exact ⟨fun r h => by simp [dijkstra_search_ocf] at h, fun h => absurd h (Nat.not_lt_zero _)⟩
  | succ fuel ih =>
    intro q d hinv
    rw [dijkstra_search_ocf_succ]
    cases hpop : AdaptiveQueue.pop q with
    | none =>
      have hq : q = [] := AdaptiveQueue.pop_none hpop
      refine ⟨?_, fun _ => ⟨d, rfl⟩⟩
      intro r hr
      simp only [Option.some.injEq] at hr
      rw [← hr]
      exact ⟨by rw [hq] at hinv; exact hinv, fun v => le_refl _⟩
    | some mq =>
      obtain ⟨⟨k, s⟩, q'⟩ := mq
      obtain ⟨hmem, hq'⟩ := AdaptiveQueue.pop_some hpop
      simp only
      have hlen : (q.erase (k, s)).length = q.length - 1 := List.length_erase_of_mem hmem
      have hpos : 0 < q.length := List.length_pos_of_mem hmem
      split_ifs with hstale
      · -- a stale entry
        have hinv' : DijkstraInvariant graph ocf R n q' d := by
          refine ⟨hinv.len, hinv.bounds, ?_, hinv.real⟩
          intro v hv hvinf
          rcases hinv.pend v hv hvinf with h | h
          · left
            rw [hq']
            refine (List.mem_erase_of_ne ?_).2 h
            intro heq
            have h1 := (Prod.mk.inj heq).1
            have h2 := (Prod.mk.inj heq).2
            rw [h2] at h1
            omega
          · right; exact h
        obtain ⟨i1, i2⟩ := ih q' d hinv'
        refine ⟨i1, ?_⟩
        intro hfuel
        apply i2
        rw [hq', hlen]
        omega
      · rw [hq']
        obtain ⟨s1, s2, s3⟩ := dijkstra_step hcost hgraph hgraph' hR hinv hmem
        obtain ⟨i1, i2⟩ := ih _ _ s1
        refine ⟨?_, ?_⟩
        · intro r hr
          obtain ⟨j1, j2⟩ := i1 r hr
          exact ⟨j1, fun v => (j2 v).trans (s2 v)⟩
        · intro hfuel
          apply i2
          omega

end dijkstra_loop
/-! ## Goal distances by Dijkstra -/

section goal_distances

theorem mem_for_each_transition {a : ExplicitAbstraction} {t : Transition} :
    t ∈ a.for_each_transition ↔
      t.target_id < a.num_states ∧
        ∃ s ∈ a.backward_graph.getD t.target_id [],
          t = { transition_id := s.transition_id, op_id := s.op_id,
                source_id := s.target_id, target_id := t.target_id } := by
  unfold ExplicitAbstraction.for_each_transition
  simp only [List.mem_flatMap, List.mem_range, List.mem_map]
  constructor
  · rintro ⟨v, hv, s, hs, rfl⟩
    exact ⟨hv, s, hs, rfl⟩
  · rintro ⟨hv, s, hs, ht⟩
    exact ⟨t.target_id, hv, s, hs, ht.symm⟩

theorem transition_bounds {a : ExplicitAbstraction} (ha : a.WellFormed) {t : Transition}
    (ht : t ∈ a.for_each_transition) :
    t.source_id < a.num_states ∧ t.target_id < a.num_states ∧
      t.op_id < a.num_operators := by
  obtain ⟨hv, s, hs, heq⟩ := mem_for_each_transition.1 ht
  have := ha.2.1 t.target_id s hs
  rw [heq]
  exact ⟨this.1, hv, this.2⟩

theorem path_addition_nonneg {x y : Int} (hx : 0 ≤ x) (hy : 0 ≤ y) :
    path_addition x y = if x = INF ∨ y = INF then INF else x + y := by
  unfold path_addition
  split_ifs with h1 h2
  · rfl
  · unfold INF at h2; omega
  · rfl

theorem getD_of_length_le {α : Type} {l : List (List α)} {v : Nat} (h : l.length ≤ v) :
    l.getD v [] = [] := by
  rw [List.getD_eq_getElem?_getD, List.getElem?_eq_none_iff.2 h]
  rfl

theorem vget_replicate (n : Nat) (x : Int) (v : Nat) :
    vget (List.replicate n x) v = if v < n then x else 0 := by
  unfold vget
  rw [List.getD_eq_getElem?_getD, List.getElem?_replicate]
  split_ifs <;> rfl

theorem init_goal_distances_eq (a : ExplicitAbstraction) :
    init_goal_distances a
      = (a.goal_states.foldl (fun d g => d.set g 0) (List.replicate a.num_states INF),
          a.goal_states.map (fun g => ((0 : Int), g))) := by
  unfold init_goal_distances
  have h : ∀ (l : List Nat) (d : List Int) (q : AdaptiveQueue),
      l.foldl (fun acc goal_state =>
        (acc.1.set goal_state 0, AdaptiveQueue.push acc.2 0 goal_state)) (d, q)
        = (l.foldl (fun d g => d.set g 0) d, q ++ l.map (fun g => ((0 : Int), g))) := by
    intro l
    induction l with
    | nil => intro d q; simp
    | cons g l ih =>
      intro d q
      rw [List.foldl_cons, ih]
      simp [AdaptiveQueue.push]
  rw [h]
  simp

theorem vget_foldl_set_zero (l : List Nat) :
    ∀ (d : List Int) (v : Nat),
      vget (l.foldl (fun d g => d.set g 0) d) v
        = if v ∈ l ∧ v < d.length then 0 else vget d v := by
  induction l with
  | nil => intro d v; simp
  | cons g l ih =>
    intro d v
    rw [List.foldl_cons, ih, List.length_set, vget_set]
    by_cases h1 : v ∈ l ∧ v < d.length
    · rw [if_pos h1, if_pos ⟨List.mem_cons_of_mem _ h1.1, h1.2⟩]
    · rw [if_neg h1]
      by_cases h2 : g = v ∧ g < d.length
      · rw [if_pos h2, if_pos ⟨by rw [h2.1]; exact List.mem_cons_self _ _, by
          rw [← h2.1]; exact h2.2⟩]
      · rw [if_neg h2]
        have : ¬ (v ∈ g :: l ∧ v < d.length) := by
          rintro ⟨hm, hl⟩
          rcases List.mem_cons.1 hm with h | h
          · exact h2 ⟨h.symm, by rw [← h]; exact hl⟩
          · exact h1 ⟨h, hl⟩
        rw [if_neg this]

theorem length_foldl_set_zero (l : List Nat) :
    ∀ d : List Int, (l.foldl (fun d g => d.set g 0) d).length = d.length := by
  induction l with
  | nil => intro d; rfl
  | cons g l ih => intro d; rw [List.foldl_cons, ih, List.length_set]

theorem distance_sum_le (d : List Int) (hb : ∀ x ∈ d, x ≤ INF) :
    distance_sum d ≤ d.length * INF.toNat := by
  induction d with
  | nil => simp [distance_sum]
  | cons x d ih =>
    have h1 := hb x (List.mem_cons_self _ _)
    have h2 := ih (fun y hy => hb y (List.mem_cons_of_mem _ hy))
    simp only [distance_sum, List.map_cons, List.sum_cons, List.length_cons] at h2 ⊢
    have h3 : x.toNat ≤ INF.toNat := Int.toNat_le_toNat h1
    rw [Nat.add_mul]
    omega

/-- The start of a goal distance computation. -/
theorem init_goal_distances_invariant {a : ExplicitAbstraction} (ocf : List Int) :
    DijkstraInvariant a.backward_graph ocf (fun v c => ∃ vs, PathTo a ocf (v :: vs) c)
      a.num_states (init_goal_distances a).2 (init_goal_distances a).1 ∧
    (∀ g ∈ a.goal_states, vget (init_goal_distances a).1 g = 0) ∧
    (init_goal_distances a).2.length + distance_sum (init_goal_distances a).1
      ≤ a.goal_states.length + a.num_states * INF.toNat := by
  rw [init_goal_distances_eq]
  simp only
  have hval : ∀ v, vget (a.goal_states.foldl (fun d g => d.set g 0)
      (List.replicate a.num_states INF)) v
      = if v ∈ a.goal_states ∧ v < a.num_states then 0
        else if v < a.num_states then INF else 0 := by
    intro v
    rw [vget_foldl_set_zero, List.length_replicate, vget_replicate]
  have hlen : (a.goal_states.foldl (fun d g => d.set g 0)
      (List.replicate a.num_states INF)).length = a.num_states := by
    rw [length_foldl_set_zero, List.length_replicate]
  refine ⟨⟨hlen, ?_, ?_, ?_⟩, ?_, ?_⟩
  · intro v
    rw [hval]
    split_ifs <;> simp [INF]
  · intro v hv hne
    rw [hval] at hne ⊢
    by_cases hg : v ∈ a.goal_states ∧ v < a.num_states
    · rw [if_pos hg]
      left
      exact List.mem_map.2 ⟨v, hg.1, rfl⟩
    · rw [if_neg hg, if_pos hv] at hne
      exact absurd rfl hne
  · intro v hv hne
    rw [hval] at hne ⊢
    by_cases hg : v ∈ a.goal_states ∧ v < a.num_states
    · rw [if_pos hg]
      exact ⟨[], PathTo.goal v hg.1⟩
    · rw [if_neg hg, if_pos hv] at hne
      exact absurd rfl hne
  · intro g hg
    rw [hval]
    by_cases h : g < a.num_states
    · rw [if_pos ⟨hg, h⟩]
    · rw [if_neg (fun h' => h h'.2), if_neg h]
  · have h1 := distance_sum_le (a.goal_states.foldl (fun d g => d.set g 0)
        (List.replicate a.num_states INF)) (by
      intro x hx
      obtain ⟨i, hi, rfl⟩ := List.getElem_of_mem hx
      have := hval i
      have hv : vget (a.goal_states.foldl (fun d g => d.set g 0)
          (List.replicate a.num_states INF)) i
          = (a.goal_states.foldl (fun d g => d.set g 0)
              (List.replicate a.num_states INF))[i] := by
        unfold vget
        rw [List.getD_eq_getElem?_getD, List.getElem?_eq_getElem hi]
        rfl
      rw [← hv, this]
      split_ifs <;> simp [INF])
    rw [hlen] at h1
    simp only [List.length_map]
    omega

/-- Arcs of the backward graph are transitions, so a walk extends along them. -/
theorem pathTo_extend {a : ExplicitAbstraction} (ha : a.WellFormed) (ocf : List Int) :
    ∀ (v : Nat) (s : Successor) (c : Int), s ∈ a.backward_graph.getD v [] →
      vget ocf s.op_id ≠ INF → (∃ vs, PathTo a ocf (v :: vs) c) →
      ∃ vs, PathTo a ocf (s.target_id :: vs) (c + vget ocf s.op_id) := by
  rintro v s c hs hfin ⟨vs, hp⟩
  have hv : v < a.num_states := by
    by_contra hc
    rw [getD_of_length_le (by rw [ha.1]; omega)] at hs
    exact absurd hs (List.not_mem_nil _)
  have ht : (⟨s.transition_id, s.op_id, s.target_id, v⟩ : Transition)
      ∈ a.for_each_transition :=
    mem_for_each_transition.2 ⟨hv, s, hs, rfl⟩
  exact ⟨v :: vs, PathTo.step _ vs c ht hfin hp⟩

theorem feasible_of_arcsRelaxed {a : ExplicitAbstraction} {ocf d : List Int}
    (hcost : NonnegativeCosts ocf) (hb : ∀ v, 0 ≤ vget d v ∧ vget d v ≤ INF)
    (hrel : ∀ v, v < a.num_states → vget d v ≠ INF → ArcsRelaxed a.backward_graph ocf d v) :
    Feasible a ocf d := by
  intro t ht
  obtain ⟨hv, s, hs, heq⟩ := mem_for_each_transition.1 ht
  have hc := vget_nonneg_of_costs hcost t.op_id
  rw [path_addition_nonneg (hb _).1 hc.1]
  split_ifs with h
  · exact (hb _).2
  · rw [not_or] at h
    have hop : t.op_id = s.op_id := by rw [heq]
    have hsrc : t.source_id = s.target_id := by rw [heq]
    have := hrel t.target_id hv h.1 s hs (by rw [← hop]; exact h.2)
    rw [hsrc, hop]
    exact this

/-- C4, first half: the Dijkstra engine returns (for enough fuel) and what it returns is a
vector of goal distances. -/
theorem dijkstra_goal_distances {a : ExplicitAbstraction} (ha : a.WellFormed)
    {ocf : List Int} (hcost : NonnegativeCosts ocf) :
    (∀ fuel r, a.compute_goal_distances_for_non_negative_costs_ocf fuel ocf = some r →
      GoalDistances a ocf r) ∧
    (∀ fuel, a.goal_states.length + a.num_states * INF.toNat < fuel →
      ∃ r, a.compute_goal_distances_for_non_negative_costs_ocf fuel ocf = some r) := by
  obtain ⟨hinv, hgoal, hsum⟩ := init_goal_distances_invariant (a := a) ocf
  have hloop := fun fuel => @dijkstra_loop a.backward_graph ocf
    (fun v c => ∃ vs, PathTo a ocf (v :: vs) c) a.num_states hcost
    (fun v s hs => (ha.2.1 v s hs).1)
    (fun v hv => getD_of_length_le (by rw [ha.1]; exact hv))
    (pathTo_extend ha ocf) fuel _ _ hinv
  constructor
  · intro fuel r hr
    obtain ⟨h1, h2⟩ := (hloop fuel).1 r hr
    refine ⟨h1.len, h1.bounds, ?_, ?_, h1.real⟩
    · intro g hg
      have := h2 g
      rw [hgoal g hg] at this
      have := (h1.bounds g).1
      omega
    · apply feasible_of_arcsRelaxed hcost h1.bounds
      intro v hv hne
      rcases h1.pend v hv hne with h | h
      · exact absurd h (List.not_mem_nil _)
      · exact h
  · intro fuel hfuel
    exact (hloop fuel).2 (by omega)

end goal_distances
/-! ## Bellman-Ford: what holds of every result -/

section bellman_ford_general
variable {a : ExplicitAbstraction} {costs : List Int}
variable {reach_to : Nat → List Int → Nat → Option (List Bool)}

theorem feasible_iff_not_relaxable {d : List Int} :
    Feasible a costs d ↔ ∀ t ∈ a.for_each_transition, ¬ Relaxable costs d t := by
  unfold Feasible Relaxable
  constructor
  · intro h t ht; exact not_lt.2 (h t ht)
  · intro h t ht; exact not_lt.1 (h t ht)

theorem foldl_set_neg_inf (target : Nat) (can_reach_target : List Bool) :
    ∀ d : List Int,
      can_reach_target.foldl (fun d b => if b then d.set target (-INF) else d) d
        = if can_reach_target.any id then d.set target (-INF) else d := by
  induction can_reach_target with
  | nil => intro d; rfl
  | cons b rest ih =>
    intro d
    rw [List.foldl_cons, ih]
    cases b with
    | false => simp
    | true =>
      simp only [if_true, List.any_cons, id, Bool.true_or]
      split_ifs
      · rw [List.set_set]
      · rfl

/-- The Bellman-Ford callback, case by case. -/
theorem bellman_ford_callback_eq (fuel : Nat) (costs : List Int)
    (last_round : Bool) (st : BellmanFordState) (t : Transition) :
    bellman_ford_callback reach_to fuel costs last_round st t
      = if Relaxable costs st.distances t then
          if last_round then
            (reach_to fuel
              (compute_reachability_cost_function costs) t.source_id).map
              fun can_reach_target =>
                { distances :=
                    if can_reach_target.any id then st.distances.set t.source_id (-INF)
                    else st.distances
                  negative_weight_cycle_found := true
                  distances_changed := st.distances_changed }
          else
            some { distances := st.distances.set t.source_id
                     (path_addition (vget st.distances t.target_id) (vget costs t.op_id))
                   negative_weight_cycle_found := st.negative_weight_cycle_found
                   distances_changed := true }
        else some st := by
  unfold bellman_ford_callback Relaxable
  simp only
  split_ifs with h1 h2
  · cases hr : reach_to fuel
        (compute_reachability_cost_function costs) t.source_id with
    | none => rfl
    | some crt =>
      simp only [Option.map_some', foldl_set_neg_inf]
  · rfl
  · rfl

theorem bellman_ford_pass_cons (fuel : Nat) (costs : List Int)
    (last_round : Bool) (st : BellmanFordState) (t : Transition) (l : List Transition) :
    (t :: l).foldlM (bellman_ford_callback reach_to fuel costs last_round) st
      = (bellman_ford_callback reach_to fuel costs last_round st t).bind
          (fun st' => l.foldlM (bellman_ford_callback reach_to fuel costs last_round) st') := by
  rw [List.foldlM_cons]
  rfl

/-- What one call of the callback keeps: the length, goal awareness, the flags once set,
and the flag that the round does not touch. -/
theorem bellman_ford_callback_keeps {fuel : Nat} {last_round : Bool}
    {st st' : BellmanFordState} {t : Transition}
    (h : bellman_ford_callback reach_to fuel costs last_round st t = some st') :
    st'.distances.length = st.distances.length ∧
    (GoalAware a st.distances → GoalAware a st'.distances) ∧
    (st.distances_changed = true → st'.distances_changed = true) ∧
    (st.negative_weight_cycle_found = true → st'.negative_weight_cycle_found = true) ∧
    (st'.distances_changed = false → st'.negative_weight_cycle_found = false →
      st' = st ∧ ¬ Relaxable costs st.distances t) := by
  rw [bellman_ford_callback_eq] at h
  by_cases hrel : Relaxable costs st.distances t
  · rw [if_pos hrel] at h
    cases last_round with
    | true =>
      simp only [if_true] at h
      cases hr : reach_to fuel
          (compute_reachability_cost_function costs) t.source_id with
      | none => rw [hr] at h; simp at h
      | some crt =>
        rw [hr] at h
        simp only [Option.map_some', Option.some.injEq] at h
        rw [← h]
        refine ⟨?_, ?_, fun h => h, fun _ => rfl, ?_⟩
        · simp only; split_ifs
          · rw [List.length_set]
          · rfl
        · intro hg g hgm
          simp only
          split_ifs
          · rw [vget_set]
            split_ifs
            · unfold INF; omega
            · exact hg g hgm
          · exact hg g hgm
        · intro _ hf
          simp at hf
    | false =>
      simp only [Bool.false_eq_true, if_false, Option.some.injEq] at h
      rw [← h]
      refine ⟨by simp, ?_, fun _ => rfl, fun h => h, ?_⟩
      · intro hg g hgm
        simp only
        rw [vget_set]
        split_ifs with h1
        · have := hg g hgm
          unfold Relaxable at hrel
          rw [h1.1] at hrel
          omega
        · exact hg g hgm
      · intro hc _
        simp at hc
  · rw [if_neg hrel] at h
    simp only [Option.some.injEq] at h
    rw [← h]
    exact ⟨rfl, fun h => h, fun h => h, fun h => h, fun _ _ => ⟨rfl, hrel⟩⟩

/-- What a pass over a list of transitions keeps; a pass that ends with both flags down
has changed nothing and has found no relaxable transition. -/
theorem bellman_ford_pass_keeps {fuel : Nat} {last_round : Bool} (l : List Transition) :
    ∀ {st st' : BellmanFordState},
      l.foldlM (bellman_ford_callback reach_to fuel costs last_round) st = some st' →
      st'.distances.length = st.distances.length ∧
      (GoalAware a st.distances → GoalAware a st'.distances) ∧
      (st.distances_changed = true → st'.distances_changed = true) ∧
      (st.negative_weight_cycle_found = true → st'.negative_weight_cycle_found = true) ∧
      (st'.distances_changed = false → st'.negative_weight_cycle_found = false →
        st' = st ∧ ∀ t ∈ l, ¬ Relaxable costs st.distances t) := by
  induction l with
  | nil =>
    intro st st' h
    simp only [List.foldlM_nil] at h
    have : st = st' := Option.some.inj h
    rw [← this]
    exact ⟨rfl, fun h => h, fun h => h, fun h => h,
      fun _ _ => ⟨rfl, fun t ht => absurd ht (List.not_mem_nil _)⟩⟩
  | cons t l ih =>
    intro st st' h
    rw [bellman_ford_pass_cons] at h
    cases hcb : bellman_ford_callback reach_to fuel costs last_round st t with
    | none => rw [hcb] at h; simp at h
    | some st1 =>
      rw [hcb] at h
      simp only [Option.some_bind] at h
      obtain ⟨c1, c2, c3, c4, c5⟩ := bellman_ford_callback_keeps hcb
      obtain ⟨p1, p2, p3, p4, p5⟩ := ih h
      refine ⟨p1.trans c1, fun hg => p2 (c2 hg), fun hc => p3 (c3 hc),
        fun hf => p4 (c4 hf), ?_⟩
      intro hc hf
      obtain ⟨q1, q2⟩ := p5 hc hf
      rw [q1] at hc hf
      obtain ⟨r1, r2⟩ := c5 hc hf
      refine ⟨q1.trans r1, ?_⟩
      intro x hx
      rcases List.mem_cons.1 hx with hxt | hxl
      · rw [hxt]; exact r2
      · rw [← r1]; exact q2 x hxl

theorem bellman_ford_rounds_succ (a : ExplicitAbstraction) (fuel : Nat) (costs : List Int)
    (i remaining : Nat) (distances : List Int) (found : Bool) :
    bellman_ford_rounds a reach_to fuel costs i (remaining + 1) distances found
      = match bellman_ford_pass a reach_to fuel costs (decide (i + 1 = a.num_states))
            { distances := distances, negative_weight_cycle_found := found,
              distances_changed := false } with
        | none => none
        | some st =>
          if st.distances_changed then
            bellman_ford_rounds a reach_to fuel costs (i + 1) remaining st.distances
              st.negative_weight_cycle_found
          else some (st.distances, st.negative_weight_cycle_found) := by
  rw [bellman_ford_rounds]

/-- The last round never raises `distances_changed`. -/
theorem bellman_ford_last_pass_unchanged {fuel : Nat} (l : List Transition) :
    ∀ {st st' : BellmanFordState},
      l.foldlM (bellman_ford_callback reach_to fuel costs true) st = some st' →
      st'.distances_changed = st.distances_changed := by
  induction l with
  | nil =>
    intro st st' h
    simp only [List.foldlM_nil] at h
    rw [← Option.some.inj h]
  | cons t l ih =>
    intro st st' h
    rw [bellman_ford_pass_cons] at h
    cases hcb : bellman_ford_callback reach_to fuel costs true st t with
    | none => rw [hcb] at h; simp at h
    | some st1 =>
      rw [hcb] at h
      simp only [Option.some_bind] at h
      rw [ih h]
      rw [bellman_ford_callback_eq] at hcb
      by_cases h1 : Relaxable costs st.distances t
      · rw [if_pos h1, if_pos rfl] at hcb
        cases hr : reach_to fuel
            (compute_reachability_cost_function costs) t.source_id with
        | none => rw [hr] at hcb; simp at hcb
        | some crt =>
          rw [hr] at hcb
          simp only [Option.map_some', Option.some.injEq] at hcb
          rw [← hcb]
      · rw [if_neg h1] at hcb
        rw [← Option.some.inj hcb]

/-- Once a negative cycle is found in a restart, the rounds end with the flag up. -/
theorem bellman_ford_rounds_found {fuel : Nat} (remaining : Nat) :
    ∀ (i : Nat) (d : List Int) (r : List Int) (f : Bool),
      bellman_ford_rounds a reach_to fuel costs i remaining d true = some (r, f) → f = true := by
  induction remaining with
  | zero =>
    intro i d r f h
    simp only [bellman_ford_rounds, Option.some.injEq, Prod.mk.injEq] at h
    exact h.2.symm
  | succ remaining ih =>
    intro i d r f h
    rw [bellman_ford_rounds_succ] at h
    cases hp : bellman_ford_pass a reach_to fuel costs (decide (i + 1 = a.num_states))
        { distances := d, negative_weight_cycle_found := true,
          distances_changed := false } with
    | none => rw [hp] at h; simp at h
    | some st =>
      rw [hp] at h
      simp only at h
      unfold bellman_ford_pass at hp
      obtain ⟨_, _, _, p4, _⟩ := bellman_ford_pass_keeps (a := a) _ hp
      have hf : st.negative_weight_cycle_found = true := p4 rfl
      split_ifs at h with hch
      · rw [hf] at h
        exact ih _ _ _ _ h
      · simp only [Option.some.injEq, Prod.mk.injEq] at h
        rw [← h.2, hf]

/-- The rounds of one restart: when they end with no negative cycle found, the distances
admit no relaxation. -/
theorem bellman_ford_rounds_feasible {fuel : Nat} (remaining : Nat) :
    ∀ (i : Nat) (d : List Int) (r : List Int), 0 < remaining →
      i + remaining = a.num_states →
      bellman_ford_rounds a reach_to fuel costs i remaining d false = some (r, false) →
      Feasible a costs r ∧ r.length = d.length ∧ (GoalAware a d → GoalAware a r) := by
  induction remaining with
  | zero => intro i d r h; exact absurd h (Nat.lt_irrefl 0)
  | succ remaining ih =>
    intro i d r _ hsum h
    rw [bellman_ford_rounds_succ] at h
    cases hp : bellman_ford_pass a reach_to fuel costs (decide (i + 1 = a.num_states))
        { distances := d, negative_weight_cycle_found := false,
          distances_changed := false } with
    | none => rw [hp] at h; simp at h
    | some st =>
      rw [hp] at h
      simp only at h
      unfold bellman_ford_pass at hp
      obtain ⟨p1, p2, _, _, p5⟩ := bellman_ford_pass_keeps _ hp
      by_cases hch : st.distances_changed = true
      · rw [if_pos hch] at h
        have hrem : 0 < remaining := by
          by_contra hc
          have hlast : decide (i + 1 = a.num_states) = true := by
            simp only [decide_eq_true_eq]; omega
          rw [hlast] at hp
          have := bellman_ford_last_pass_unchanged _ hp
          rw [hch] at this
          simp at this
        have hfound : st.negative_weight_cycle_found = false := by
          by_contra hc
          have hc' : st.negative_weight_cycle_found = true := by
            cases hb : st.negative_weight_cycle_found with
            | true => rfl
            | false => exact absurd hb hc
          rw [hc'] at h
          have := bellman_ford_rounds_found _ _ _ _ _ h
          simp at this
        rw [hfound] at h
        obtain ⟨i1, i2, i3⟩ := ih (i + 1) st.distances r hrem (by omega) h
        exact ⟨i1, i2.trans p1, fun hg => i3 (p2 hg)⟩
      · rw [if_neg hch] at h
        simp only [Option.some.injEq, Prod.mk.injEq] at h
        have hch' : st.distances_changed = false := by
          cases hb : st.distances_changed with
          | true => exact absurd hb hch
          | false => rfl
        obtain ⟨q1, q2⟩ := p5 hch' h.2
        rw [← h.1]
        refine ⟨?_, p1, p2⟩
        rw [feasible_iff_not_relaxable, q1]
        exact q2

end bellman_ford_general
section bellman_ford_result
variable {a : ExplicitAbstraction} {costs : List Int}
variable {reach_to : Nat → List Int → Nat → Option (List Bool)}

theorem bellman_ford_reset_spec (a : ExplicitAbstraction) (d : List Int) :
    (bellman_ford_reset a d).length = d.length ∧
    (∀ v, vget (bellman_ford_reset a d) v
      = if v ∈ a.goal_states ∧ v < d.length then 0
        else if v < d.length then (if vget d v ≠ -INF then INF else vget d v) else 0) ∧
    GoalAware a (bellman_ford_reset a d) := by
  have hlen : (bellman_ford_reset a d).length = d.length := by
    unfold bellman_ford_reset
    rw [length_foldl_set_zero, List.length_map]
  have hval : ∀ v, vget (bellman_ford_reset a d) v
      = if v ∈ a.goal_states ∧ v < d.length then 0
        else if v < d.length then (if vget d v ≠ -INF then INF else vget d v) else 0 := by
    intro v
    unfold bellman_ford_reset
    rw [vget_foldl_set_zero, List.length_map]
    by_cases h1 : v ∈ a.goal_states ∧ v < d.length
    · rw [if_pos h1, if_pos h1]
    · rw [if_neg h1, if_neg h1]
      by_cases h2 : v < d.length
      · rw [if_pos h2]
        unfold vget
        rw [List.getD_eq_getElem?_getD, List.getD_eq_getElem?_getD, List.getElem?_map,
          List.getElem?_eq_getElem h2]
        rfl
      · rw [if_neg h2]
        exact vget_of_length_le (by rw [List.length_map]; omega)
  refine ⟨hlen, hval, ?_⟩
  intro g hg
  rw [hval]
  by_cases h : g < d.length
  · rw [if_pos ⟨hg, h⟩]
  · rw [if_neg (fun h' => h h'.2), if_neg h]

theorem bellman_ford_restart_succ (a : ExplicitAbstraction) (costs : List Int)
    (fuel : Nat) (distances : List Int) :
    bellman_ford_restart a reach_to costs (fuel + 1) distances
      = match bellman_ford_rounds a reach_to (fuel + 1) costs 0 a.num_states
            (bellman_ford_reset a distances) false with
        | none => none
        | some (distances, found) =>
          if found then bellman_ford_restart a reach_to costs fuel distances else some distances := by
  rw [bellman_ford_restart]

theorem for_each_transition_nil (a : ExplicitAbstraction) (h : a.num_states = 0) :
    a.for_each_transition = [] := by
  unfold ExplicitAbstraction.for_each_transition
  rw [h]
  rfl

/-- Whatever the Bellman-Ford engine returns, for whatever costs, admits no relaxation and
is goal aware. -/
theorem bellman_ford_restart_result (fuel : Nat) :
    ∀ (d r : List Int), bellman_ford_restart a reach_to costs fuel d = some r →
      Feasible a costs r ∧ GoalAware a r ∧ r.length = d.length := by
  induction fuel with
  | zero => intro d r h; simp [bellman_ford_restart] at h
  | succ fuel ih =>
    intro d r h
    rw [bellman_ford_restart_succ] at h
    obtain ⟨hlen, _, hga⟩ := bellman_ford_reset_spec a d
    cases hr : bellman_ford_rounds a reach_to (fuel + 1) costs 0 a.num_states
        (bellman_ford_reset a d) false with
    | none => rw [hr] at h; simp at h
    | some res =>
      obtain ⟨d', found⟩ := res
      rw [hr] at h
      simp only at h
      cases found with
      | true =>
        simp only [if_true] at h
        obtain ⟨i1, i2, i3⟩ := ih d' r h
        refine ⟨i1, i2, i3.trans ?_⟩
        -- the length is kept by the rounds
        have hkeep : ∀ (remaining i : Nat) (d0 : List Int) (f0 : Bool) (d1 : List Int)
            (f1 : Bool), bellman_ford_rounds a reach_to (fuel + 1) costs i remaining d0 f0
              = some (d1, f1) → d1.length = d0.length := by
          intro remaining
          induction remaining with
          | zero =>
            intro i d0 f0 d1 f1 h0
            simp only [bellman_ford_rounds, Option.some.injEq, Prod.mk.injEq] at h0
            rw [← h0.1]
          | succ remaining ihr =>
            intro i d0 f0 d1 f1 h0
            rw [bellman_ford_rounds_succ] at h0
            cases hp : bellman_ford_pass a reach_to (fuel + 1) costs (decide (i + 1 = a.num_states))
                { distances := d0, negative_weight_cycle_found := f0,
                  distances_changed := false } with
            | none => rw [hp] at h0; simp at h0
            | some st =>
              rw [hp] at h0
              simp only at h0
              unfold bellman_ford_pass at hp
              obtain ⟨p1, _⟩ := bellman_ford_pass_keeps (a := a) _ hp
              split_ifs at h0
              · exact (ihr _ _ _ _ _ h0).trans p1
              · simp only [Option.some.injEq, Prod.mk.injEq] at h0
                rw [← h0.1]; exact p1
        exact (hkeep _ _ _ _ _ _ hr).trans hlen
      | false =>
        simp only [Bool.false_eq_true, if_false, Option.some.injEq] at h
        rw [← h]
        by_cases hn : a.num_states = 0
        · rw [hn] at hr
          simp only [bellman_ford_rounds, Option.some.injEq, Prod.mk.injEq] at hr
          rw [← hr.1]
          refine ⟨?_, hga, hlen⟩
          intro t ht
          rw [for_each_transition_nil a hn] at ht
          exact absurd ht (List.not_mem_nil _)
        · obtain ⟨i1, i2, i3⟩ := bellman_ford_rounds_feasible a.num_states 0
            (bellman_ford_reset a d) d' (by omega) (by omega) hr
          exact ⟨i1, i3 hga, i2.trans hlen⟩

/-- Whatever `compute_goal_distances_for_negative_costs_ocf` returns admits no relaxation,
is goal aware and has one entry per state. -/
theorem bellman_ford_result {fuel : Nat} {r : List Int}
    (h : a.compute_goal_distances_for_negative_costs_ocf fuel costs = some r) :
    Feasible a costs r ∧ GoalAware a r ∧ r.length = a.num_states := by
  unfold ExplicitAbstraction.compute_goal_distances_for_negative_costs_ocf at h
  obtain ⟨h1, h2, h3⟩ := bellman_ford_restart_result fuel _ r h
  exact ⟨h1, h2, by rw [h3, List.length_replicate]⟩

end bellman_ford_result
/-! ## Walks to a goal -/

section walks
variable {a : ExplicitAbstraction} {costs : List Int}

theorem pathTo_ne_nil {l : List Nat} {c : Int} (h : PathTo a costs l c) : l ≠ [] := by
  cases h <;> simp

theorem pathTo_bounds (ha : a.WellFormed) {l : List Nat} {c : Int}
    (h : PathTo a costs l c) : ∀ x ∈ l, x < a.num_states := by
  induction h with
  | goal g hg =>
    intro x hx
    rw [List.mem_singleton] at hx
    rw [hx]; exact ha.2.2.1 g hg
  | step t vs c ht _ _ ih =>
    intro x hx
    rcases List.mem_cons.1 hx with h | h
    · rw [h]; exact (transition_bounds ha ht).1
    · exact ih x h

/-- A distance vector that admits no relaxation and is goal aware lies below the cost of
every walk (nonnegative costs). -/
theorem feasible_le_path (hcost : NonnegativeCosts costs) {d : List Int}
    (hb : ∀ v, 0 ≤ vget d v ∧ vget d v ≤ INF) (hga : GoalAware a d) (hf : Feasible a costs d)
    {l : List Nat} {c : Int} (h : PathTo a costs l c) :
    ∀ v rest, l = v :: rest → vget d v ≤ c := by
  induction h with
  | goal g hg =>
    intro v rest hl
    rw [(List.cons.inj hl).1] at hg
    exact hga v hg
  | step t vs c ht hfin _ ih =>
    intro v rest hl
    rw [← (List.cons.inj hl).1]
    have h1 := ih t.target_id vs rfl
    have h2 := hf t ht
    have hc := vget_nonneg_of_costs hcost t.op_id
    unfold path_addition at h2
    split_ifs at h2 with h3 h4
    · rcases h3 with h3 | h3
      · rw [h3] at h1
        have := (hb t.source_id).2
        omega
      · exact absurd h3 hfin
    · have := (hb t.source_id).1
      unfold INF at this h2
      omega
    · omega

/-- In a region `G` with a potential `φ` (every transition of finite cost out of `G` to a
state that reaches a goal stays in `G` and costs at least the drop of the potential), the
walk from a later state `x` of a walk costs at most the cost of the whole walk plus the
rise of the potential. -/
theorem pathTo_suffix (G : Nat → Prop) (φ : Nat → Int)
    (hpot : ∀ t ∈ a.for_each_transition, vget costs t.op_id ≠ INF → G t.source_id →
      (∃ vs c, PathTo a costs (t.target_id :: vs) c) →
      G t.target_id ∧ φ t.source_id - φ t.target_id ≤ vget costs t.op_id)
    {l : List Nat} {c : Int} (h : PathTo a costs l c) :
    ∀ v rest, l = v :: rest → G v → ∀ x ∈ l,
      ∃ rest' c2, (x :: rest') <:+ l ∧ PathTo a costs (x :: rest') c2 ∧
        c2 ≤ c - φ v + φ x := by
  induction h with
  | goal g hg =>
    intro v rest hl _ x hx
    rw [List.mem_singleton] at hx
    have hv : g = v := (List.cons.inj hl).1
    refine ⟨[], 0, by rw [hx], by rw [hx]; exact PathTo.goal g hg, ?_⟩
    rw [hx, hv]; omega
  | step t vs c ht hfin hp ih =>
    intro v rest hl hG x hx
    have hv : t.source_id = v := (List.cons.inj hl).1
    rw [← hv] at hG ⊢
    obtain ⟨hG', hle⟩ := hpot t ht hfin hG ⟨vs, c, hp⟩
    rcases List.mem_cons.1 hx with h | h
    · refine ⟨t.target_id :: vs, c + vget costs t.op_id, by rw [h],
        by rw [h]; exact PathTo.step t vs c ht hfin hp, by rw [h]; omega⟩
    · obtain ⟨rest', c2, s1, s2, s3⟩ := ih t.target_id vs rfl hG' x h
      refine ⟨rest', c2, s1.trans (List.suffix_cons _ _), s2, by omega⟩

/-- In a region with a potential every walk can be replaced by one that visits no state
twice and costs no more. -/
theorem pathTo_simple (G : Nat → Prop) (φ : Nat → Int)
    (hpot : ∀ t ∈ a.for_each_transition, vget costs t.op_id ≠ INF → G t.source_id →
      (∃ vs c, PathTo a costs (t.target_id :: vs) c) →
      G t.target_id ∧ φ t.source_id - φ t.target_id ≤ vget costs t.op_id)
    {l : List Nat} {c : Int} (h : PathTo a costs l c) :
    ∀ v rest, l = v :: rest → G v →
      ∃ rest' c', c' ≤ c ∧ PathTo a costs (v :: rest') c' ∧ (v :: rest').Nodup := by
  induction h with
  | goal g hg =>
    intro v rest hl _
    have hv : g = v := (List.cons.inj hl).1
    exact ⟨[], 0, le_refl _, by rw [← hv]; exact PathTo.goal g hg, List.nodup_singleton _⟩
  | step t vs c ht hfin hp ih =>
    intro v rest hl hG
    have hv : t.source_id = v := (List.cons.inj hl).1
    rw [← hv] at hG ⊢
    obtain ⟨hG', hle⟩ := hpot t ht hfin hG ⟨vs, c, hp⟩
    obtain ⟨rest1, c1, h1, h2, h3⟩ := ih t.target_id vs rfl hG'
    by_cases hmem : t.source_id ∈ t.target_id :: rest1
    · obtain ⟨rest2, c2, s1, s2, s3⟩ :=
        pathTo_suffix G φ hpot h2 t.target_id rest1 rfl hG' t.source_id hmem
      refine ⟨rest2, c2, by omega, s2, ?_⟩
      exact List.Nodup.sublist s1.sublist h3
    · exact ⟨t.target_id :: rest1, c1 + vget costs t.op_id, by omega,
        PathTo.step t rest1 c1 ht hfin h2, List.nodup_cons.2 ⟨hmem, h3⟩⟩

theorem nodup_length_le {l : List Nat} {n : Nat} (hn : l.Nodup) (hb : ∀ x ∈ l, x < n) :
    l.length ≤ n := by
  have h1 : l.toFinset ⊆ Finset.range n := by
    intro x hx
    rw [List.mem_toFinset] at hx
    exact Finset.mem_range.2 (hb x hx)
  have h2 := Finset.card_le_card h1
  rw [List.toFinset_card_of_nodup hn, Finset.card_range] at h2
  exact h2

/-- Two vectors of goal distances for the same nonnegative costs are equal. -/
theorem goalDistances_unique (hcost : NonnegativeCosts costs) {d d' : List Int}
    (h : GoalDistances a costs d) (h' : GoalDistances a costs d') : d = d' := by
  have key : ∀ {x y : List Int}, GoalDistances a costs x → GoalDistances a costs y →
      ∀ v, v < a.num_states → vget x v ≤ vget y v := by
    intro x y hx hy v hv
    by_cases hinf : vget y v = INF
    · rw [hinf]; exact (hx.bounds v).2
    · obtain ⟨vs, hp⟩ := hy.real v hv hinf
      exact feasible_le_path hcost hx.bounds
        (fun g hg => le_of_eq (hx.goals g hg)) hx.feasible hp v vs rfl
  apply List.ext_getElem (by rw [h.len, h'.len])
  intro i h1 h2
  have hv : i < a.num_states := by rw [← h.len]; exact h1
  have e1 : vget d i = d[i] := by
    unfold vget
    rw [List.getD_eq_getElem?_getD, List.getElem?_eq_getElem h1]; rfl
  have e2 : vget d' i = d'[i] := by
    unfold vget
    rw [List.getD_eq_getElem?_getD, List.getElem?_eq_getElem h2]; rfl
  rw [← e1, ← e2]
  exact le_antisymm (key h h' i hv) (key h' h i hv)

end walks
/-! ## Bellman-Ford on nonnegative costs -/

section bellman_ford_nonneg
variable {a : ExplicitAbstraction} {costs : List Int}
variable {reach_to : Nat → List Int → Nat → Option (List Bool)}

theorem path_addition_mono_bounded {x y z c : Int} (hz : z ≤ INF)
    (h : z ≤ path_addition x c) (hx : 0 ≤ x) (hxy : x ≤ y) (hc : 0 ≤ c) :
    z ≤ path_addition y c := by
  rw [path_addition_nonneg hx hc] at h
  rw [path_addition_nonneg (le_trans hx hxy) hc]
  split_ifs with h1
  · exact hz
  · by_cases h2 : x = INF ∨ c = INF
    · rw [if_pos h2] at h
      rcases h2 with h2 | h2
      · omega
      · exact absurd (Or.inr h2) h1
    · rw [if_neg h2] at h
      omega

/-- One call of the callback in a round that is not the last, on nonnegative costs. -/
theorem bellman_ford_callback_nonneg (ha : a.WellFormed) (hcost : NonnegativeCosts costs)
    (fuel : Nat) {st : BellmanFordState} {t : Transition}
    (ht : t ∈ a.for_each_transition) (hr : Realized a costs st.distances) :
    ∃ st', bellman_ford_callback reach_to fuel costs false st t = some st' ∧
      Realized a costs st'.distances ∧
      st'.negative_weight_cycle_found = st.negative_weight_cycle_found ∧
      (∀ v, vget st'.distances v ≤ vget st.distances v) ∧
      vget st'.distances t.source_id
        ≤ path_addition (vget st.distances t.target_id) (vget costs t.op_id) := by
  rw [bellman_ford_callback_eq]
  have hc := vget_nonneg_of_costs hcost t.op_id
  have hb := hr.bounds
  obtain ⟨hs, htg, _⟩ := transition_bounds ha ht
  by_cases h1 : Relaxable costs st.distances t
  · rw [if_pos h1]
    simp only [Bool.false_eq_true, if_false]
    have h1' := h1
    unfold Relaxable at h1'
    rw [path_addition_nonneg (hb t.target_id).1 hc.1] at h1' ⊢
    have hfin : ¬ (vget st.distances t.target_id = INF ∨ vget costs t.op_id = INF) := by
      intro h
      rw [if_pos h] at h1'
      have := (hb t.source_id).2
      omega
    rw [if_neg hfin] at h1' ⊢
    push_neg at hfin
    have hval : ∀ v, vget (st.distances.set t.source_id
        (vget st.distances t.target_id + vget costs t.op_id)) v
        = if t.source_id = v then vget st.distances t.target_id + vget costs t.op_id
          else vget st.distances v := by
      intro v
      rw [vget_set]
      by_cases hv : t.source_id = v
      · rw [if_pos ⟨hv, by rw [hr.len]; exact hs⟩, if_pos hv]
      · rw [if_neg (fun h => hv h.1), if_neg hv]
    refine ⟨_, rfl, ⟨by simp only [List.length_set]; exact hr.len, ?_, ?_⟩, rfl, ?_, ?_⟩
    · intro v
      simp only [hval]
      split_ifs with hv
      · have := (hb t.target_id).1
        have := (hb t.source_id).2
        omega
      · exact hb v
    · intro v hv hne
      simp only [hval] at hne ⊢
      split_ifs at hne ⊢ with hv'
      · obtain ⟨vs, hp⟩ := hr.real t.target_id htg hfin.1
        rw [← hv']
        exact ⟨t.target_id :: vs, PathTo.step t vs _ ht hfin.2 hp⟩
      · exact hr.real v hv hne
    · intro v
      simp only [hval]
      split_ifs with hv
      · rw [← hv]; omega
      · exact le_refl _
    · simp only [hval, if_true]
      exact le_refl _
  · rw [if_neg h1]
    refine ⟨st, rfl, hr, rfl, fun v => le_refl _, ?_⟩
    unfold Relaxable at h1
    exact not_lt.1 h1

/-- One pass that is not the last, on nonnegative costs: it returns, keeps the bounds and
the walks, lowers entries only, and leaves every transition it visited relaxed with
respect to the distances it started from. -/
theorem bellman_ford_pass_nonneg (ha : a.WellFormed) (hcost : NonnegativeCosts costs)
    (fuel : Nat) (l : List Transition) :
    ∀ (st : BellmanFordState), (∀ t ∈ l, t ∈ a.for_each_transition) →
      Realized a costs st.distances →
      ∃ st', l.foldlM (bellman_ford_callback reach_to fuel costs false) st = some st' ∧
        Realized a costs st'.distances ∧
        st'.negative_weight_cycle_found = st.negative_weight_cycle_found ∧
        (∀ v, vget st'.distances v ≤ vget st.distances v) ∧
        ∀ t ∈ l, vget st'.distances t.source_id
          ≤ path_addition (vget st.distances t.target_id) (vget costs t.op_id) := by
  induction l with
  | nil =>
    intro st _ hr
    exact ⟨st, rfl, hr, rfl, fun v => le_refl _, fun t ht => absurd ht (List.not_mem_nil t)⟩
  | cons t l ih =>
    intro st hl hr
    obtain ⟨st1, e1, r1, f1, m1, p1⟩ :=
      bellman_ford_callback_nonneg ha hcost fuel (hl t (List.mem_cons_self t l)) hr
    obtain ⟨st2, e2, r2, f2, m2, p2⟩ :=
      ih st1 (fun t' ht' => hl t' (List.mem_cons_of_mem t ht')) r1
    refine ⟨st2, ?_, r2, f2.trans f1, fun v => le_trans (m2 v) (m1 v), ?_⟩
    · rw [bellman_ford_pass_cons, e1]
      exact e2
    · intro t' ht'
      rcases List.mem_cons.1 ht' with h | h
      · rw [h]
        exact le_trans (m2 t.source_id) p1
      · exact path_addition_mono_bounded (r2.bounds t'.source_id).2 (p2 t' h)
          (r1.bounds t'.target_id).1 (m1 t'.target_id) (vget_nonneg_of_costs hcost t'.op_id).1

/-- A pass over transitions none of which is relaxable changes nothing. -/
theorem bellman_ford_pass_fixed (fuel : Nat) (last_round : Bool) (l : List Transition) :
    ∀ (st : BellmanFordState), (∀ t ∈ l, ¬ Relaxable costs st.distances t) →
      l.foldlM (bellman_ford_callback reach_to fuel costs last_round) st = some st := by
  induction l with
  | nil => intro st _; rfl
  | cons t l ih =>
    intro st h
    rw [bellman_ford_pass_cons, bellman_ford_callback_eq,
      if_neg (h t (List.mem_cons_self t l))]
    exact ih st (fun t' ht' => h t' (List.mem_cons_of_mem t ht'))

/-- A distance vector with walks behind it that lies below every walk of at most
`num_states - 1` transitions admits no relaxation. -/
theorem feasible_of_walkBounded (ha : a.WellFormed) (hcost : NonnegativeCosts costs)
    {d : List Int} {i : Nat} (hr : Realized a costs d) (hk : WalkBounded a costs d i)
    (hi : a.num_states ≤ i + 1) : Feasible a costs d := by
  intro t ht
  have hc := vget_nonneg_of_costs hcost t.op_id
  obtain ⟨hs, htg, _⟩ := transition_bounds ha ht
  rw [path_addition_nonneg (hr.bounds t.target_id).1 hc.1]
  split_ifs with h
  · exact (hr.bounds t.source_id).2
  · push_neg at h
    obtain ⟨vs, hp⟩ := hr.real t.target_id htg h.1
    have hp' := PathTo.step t vs _ ht h.2 hp
    obtain ⟨rest, c', hle, hp2, hnd⟩ :=
      pathTo_simple (fun _ => True) (fun _ => 0)
        (fun t' _ _ _ _ => ⟨trivial, by
          have := (vget_nonneg_of_costs hcost t'.op_id).1
          simp only [sub_zero]
          exact this⟩) hp' t.source_id (t.target_id :: vs) rfl trivial
    have hlen := nodup_length_le hnd (pathTo_bounds ha hp2)
    rw [List.length_cons] at hlen
    have := hk t.source_id rest c' hp2 (by omega)
    omega

/-- The rounds of Bellman-Ford on nonnegative costs return goal distances and never
raise the flag of a negative cycle. -/
theorem bellman_ford_rounds_nonneg (ha : a.WellFormed) (hcost : NonnegativeCosts costs)
    (fuel : Nat) (remaining : Nat) :
    ∀ (i : Nat) (d : List Int), i + remaining = a.num_states →
      Realized a costs d → GoalAware a d → WalkBounded a costs d i →
      ∃ r, bellman_ford_rounds a reach_to fuel costs i remaining d false = some (r, false) ∧
        GoalDistances a costs r := by
  have hgd : ∀ d, Realized a costs d → GoalAware a d → Feasible a costs d →
      GoalDistances a costs d := by
    intro d hr hga hf
    exact ⟨hr.len, hr.bounds, fun g hg => le_antisymm (hga g hg) (hr.bounds g).1, hf, hr.real⟩
  induction remaining with
  | zero =>
    intro i d hsum hr hga hk
    refine ⟨d, rfl, hgd d hr hga (feasible_of_walkBounded ha hcost hr hk (by omega))⟩
  | succ remaining ih =>
    intro i d hsum hr hga hk
    rw [bellman_ford_rounds_succ]
    unfold bellman_ford_pass
    by_cases hlast : i + 1 = a.num_states
    · have hf := feasible_of_walkBounded ha hcost hr hk (by omega)
      rw [bellman_ford_pass_fixed fuel _ a.for_each_transition
        ⟨d, false, false⟩ (feasible_iff_not_relaxable.1 hf)]
      exact ⟨d, rfl, hgd d hr hga hf⟩
    · rw [decide_eq_false hlast]
      obtain ⟨st', e, r', f', m', p'⟩ :=
        bellman_ford_pass_nonneg ha hcost fuel a.for_each_transition
          ⟨d, false, false⟩ (fun t ht => ht) hr
      rw [e]
      simp only
      have hga' : GoalAware a st'.distances := fun g hg => le_trans (m' g) (hga g hg)
      by_cases hch : st'.distances_changed = true
      · rw [if_pos hch, f']
        apply ih (i + 1) st'.distances (by omega) r' hga'
        intro v vs c hp hlen
        cases hp with
        | goal g hg => exact hga' v hg
        | step t vs' c' ht hfin hp' =>
          have h1 := p' t ht
          simp only at h1
          have h2 := hk t.target_id vs' c' hp' (by
            rw [List.length_cons] at hlen; omega)
          have hc := vget_nonneg_of_costs hcost t.op_id
          rw [path_addition_nonneg (hr.bounds t.target_id).1 hc.1] at h1
          split_ifs at h1 with h3
          · rcases h3 with h3 | h3
            · rw [h3] at h2; omega
            · exact absurd h3 hfin
          · omega
      · rw [if_neg hch, f']
        refine ⟨st'.distances, rfl, hgd _ r' hga' ?_⟩
        have hkeep := (bellman_ford_pass_keeps (a := a) a.for_each_transition e).2.2.2.2
          (by simpa using hch) f'
        rw [hkeep.1]
        exact feasible_iff_not_relaxable.2 hkeep.2

/-- On nonnegative costs the Bellman-Ford engine returns for every positive fuel, and
what it returns is a vector of goal distances. -/
theorem bellman_ford_goal_distances (ha : a.WellFormed) (hcost : NonnegativeCosts costs)
    (fuel : Nat) :
    ∃ r, a.compute_goal_distances_for_negative_costs_ocf (fuel + 1) costs = some r ∧
      GoalDistances a costs r := by
  unfold ExplicitAbstraction.compute_goal_distances_for_negative_costs_ocf
  rw [bellman_ford_restart_succ]
  obtain ⟨hlen, hval, hga⟩ := bellman_ford_reset_spec a (List.replicate a.num_states INF)
  rw [List.length_replicate] at hlen hval
  have hval' : ∀ v, vget (bellman_ford_reset a (List.replicate a.num_states INF)) v
      = if v ∈ a.goal_states ∧ v < a.num_states then 0
        else if v < a.num_states then INF else 0 := by
    intro v
    rw [hval v, vget_replicate]
    by_cases h1 : v ∈ a.goal_states ∧ v < a.num_states
    · rw [if_pos h1, if_pos h1]
    · rw [if_neg h1, if_neg h1]
      by_cases h2 : v < a.num_states
      · rw [if_pos h2, if_pos h2]
        split_ifs <;> rfl
      · rw [if_neg h2, if_neg h2]
  have hr : Realized a costs (bellman_ford_reset a (List.replicate a.num_states INF)) := by
    refine ⟨hlen, ?_, ?_⟩
    · intro v
      rw [hval']
      unfold INF
      split_ifs <;> omega
    · intro v hv hne
      rw [hval'] at hne ⊢
      by_cases h1 : v ∈ a.goal_states ∧ v < a.num_states
      · rw [if_pos h1]
        exact ⟨[], PathTo.goal v h1.1⟩
      · rw [if_neg h1, if_pos hv] at hne
        exact absurd rfl hne
  obtain ⟨r, e, hgd⟩ := bellman_ford_rounds_nonneg ha hcost (fuel + 1) a.num_states 0 _
    (by omega) hr hga (by
      intro v vs c hp hlen
      cases hp with
      | goal g hg => exact hga v hg
      | step t vs' c' ht hfin hp' => simp at hlen)
  rw [e]
  exact ⟨r, rfl, hgd⟩

end bellman_ford_nonneg
/-! ## Dijkstra and Bellman-Ford agree on nonnegative costs -/

theorem four_cycle_wellFormed (goal_states : List Nat) (h : ∀ g ∈ goal_states, g < 4) :
    (four_cycle_abstraction goal_states).WellFormed := by
  refine ⟨rfl, ?_, h, by simp [four_cycle_abstraction], rfl⟩
  intro v s hs
  have hcases : v = 0 ∨ v = 1 ∨ v = 2 ∨ v = 3 ∨ 4 ≤ v := by omega
  rcases hcases with h0 | h0 | h0 | h0 | h0
  · rw [h0] at hs
    simp only [four_cycle_abstraction, List.getD_cons_zero, List.mem_singleton] at hs
    rw [hs]; simp [four_cycle_abstraction]
  · rw [h0] at hs
    simp only [four_cycle_abstraction, List.getD_cons_succ, List.getD_cons_zero,
      List.mem_singleton] at hs
    rw [hs]; simp [four_cycle_abstraction]
  · rw [h0] at hs
    simp only [four_cycle_abstraction, List.getD_cons_succ, List.getD_cons_zero,
      List.mem_singleton] at hs
    rw [hs]; simp [four_cycle_abstraction]
  · rw [h0] at hs
    simp only [four_cycle_abstraction, List.getD_cons_succ, List.getD_cons_zero,
      List.mem_singleton] at hs
    rw [hs]; simp [four_cycle_abstraction]
  · have hlen : (four_cycle_abstraction goal_states).backward_graph.length ≤ v := h0
    rw [getD_of_length_le hlen] at hs
    exact absurd hs (List.not_mem_nil s)

/-- C4. Dijkstra and Bellman-Ford agree on nonnegative costs. For every well-formed
abstraction and every operator cost function whose entries lie between `0` and `INF`
(sums computed in `Int`, so no path sum overflows), there is one distance vector `r` that
`compute_goal_distances_for_non_negative_costs_ocf` returns for all fuel above
`goal_states.length + num_states * INF`, that `compute_goal_distances_for_negative_costs_ocf`
returns for all positive fuel, and that is the only vector either of them ever returns. -/
theorem dijkstra_bellman_ford_agree (a : ExplicitAbstraction) (ocf : List Int)
    (ha : a.WellFormed) (hcost : NonnegativeCosts ocf) :
    ∃ r,
      (∀ fuel, a.goal_states.length + a.num_states * INF.toNat < fuel →
        a.compute_goal_distances_for_non_negative_costs_ocf fuel ocf = some r) ∧
      (∀ fuel, 0 < fuel →
        a.compute_goal_distances_for_negative_costs_ocf fuel ocf = some r) ∧
      (∀ fuel r', a.compute_goal_distances_for_non_negative_costs_ocf fuel ocf = some r' →
        r' = r) ∧
      (∀ fuel r', a.compute_goal_distances_for_negative_costs_ocf fuel ocf = some r' →
        r' = r) := by
  obtain ⟨hd1, hd2⟩ := dijkstra_goal_distances ha hcost
  obtain ⟨r, hr, hgd⟩ := bellman_ford_goal_distances ha hcost 0
  have hbf : ∀ fuel, 0 < fuel →
      a.compute_goal_distances_for_negative_costs_ocf fuel ocf = some r := by
    intro fuel hfuel
    obtain ⟨k, hk⟩ : ∃ k, fuel = k + 1 := ⟨fuel - 1, by omega⟩
    obtain ⟨r2, hr2, hgd2⟩ := bellman_ford_goal_distances ha hcost k
    rw [hk, hr2, goalDistances_unique hcost hgd2 hgd]
  refine ⟨r, ?_, hbf, ?_, ?_⟩
  · intro fuel hfuel
    obtain ⟨r1, hr1⟩ := hd2 fuel hfuel
    rw [hr1, goalDistances_unique hcost (hd1 fuel r1 hr1) hgd]
  · intro fuel r' h
    exact goalDistances_unique hcost (hd1 fuel r' h) hgd
  · intro fuel r' h
    cases fuel with
    | zero =>
      unfold ExplicitAbstraction.compute_goal_distances_for_negative_costs_ocf at h
      simp [bellman_ford_restart] at h
    | succ k =>
      rw [hbf (k + 1) (Nat.succ_pos k)] at h
      exact (Option.some.inj h).symm

/-- Witness of C4 on the cycle `0 → 1 → 2 → 3 → 0` with goal `1` and costs `1, 1, 1, 4`,
where both engines return `[1, 0, 6, 5]`. -/
theorem dijkstra_bellman_ford_agree_witness :
    (four_cycle_abstraction [1]).WellFormed ∧ NonnegativeCosts [1, 1, 1, 4] ∧
    (four_cycle_abstraction [1]).compute_goal_distances_for_non_negative_costs_ocf 10
      [1, 1, 1, 4] = some [1, 0, 6, 5] ∧
    (four_cycle_abstraction [1]).compute_goal_distances_for_negative_costs_ocf 1
      [1, 1, 1, 4] = some [1, 0, 6, 5] ∧
    ∃ r,
      (∀ fuel, (four_cycle_abstraction [1]).goal_states.length
          + (four_cycle_abstraction [1]).num_states * INF.toNat < fuel →
        (four_cycle_abstraction [1]).compute_goal_distances_for_non_negative_costs_ocf fuel
          [1, 1, 1, 4] = some r) ∧
      (∀ fuel, 0 < fuel →
        (four_cycle_abstraction [1]).compute_goal_distances_for_negative_costs_ocf fuel
          [1, 1, 1, 4] = some r) ∧
      (∀ fuel r',
        (four_cycle_abstraction [1]).compute_goal_distances_for_non_negative_costs_ocf fuel
          [1, 1, 1, 4] = some r' → r' = r) ∧
      (∀ fuel r',
        (four_cycle_abstraction [1]).compute_goal_distances_for_negative_costs_ocf fuel
          [1, 1, 1, 4] = some r' → r' = r) :=
  ⟨four_cycle_wellFormed [1] (by decide), by unfold NonnegativeCosts INF; decide,
    by decide, by decide,
    dijkstra_bellman_ford_agree (four_cycle_abstraction [1]) [1, 1, 1, 4]
      (four_cycle_wellFormed [1] (by decide)) (by unfold NonnegativeCosts INF; decide)⟩
/-! ## Saturated operator costs -/

section saturated_costs

theorem foldl_flatMap_eq {α β γ : Type} (f : β → γ → β) (g : α → List γ) (l : List α) :
    ∀ b : β, (l.flatMap g).foldl f b = l.foldl (fun b x => (g x).foldl f b) b := by
  induction l with
  | nil => intro b; rfl
  | cons x l ih =>
    intro b
    rw [List.flatMap_cons, List.foldl_append, ih, List.foldl_cons]

theorem foldl_id_eq {α β : Type} (l : List α) (b : β) : l.foldl (fun b _ => b) b = b := by
  induction l with
  | nil => rfl
  | cons x l ih => rw [List.foldl_cons, ih]

/-- The nested loops of `compute_saturated_costs_ocf` are one loop over the transitions. -/
theorem compute_saturated_costs_ocf_eq (a : ExplicitAbstraction)
    (ha : a.backward_graph.length = a.num_states) (h : List Int) :
    a.compute_saturated_costs_ocf h
      = a.for_each_transition.foldl (saturate_step h)
          ((List.range a.num_operators).map fun op_id =>
            if bget a.has_loop op_id then (0 : Int) else -INF) := by
  unfold ExplicitAbstraction.compute_saturated_costs_ocf
    ExplicitAbstraction.for_each_transition
  rw [foldl_flatMap_eq, ha]
  simp only
  congr 1
  funext socf target
  rw [List.foldl_map]
  by_cases ht : vget h target = INF ∨ vget h target = -INF
  · rw [if_pos ht]
    have hstep : ∀ (socf : List Int) (s : Successor),
        saturate_step h socf ⟨s.transition_id, s.op_id, s.target_id, target⟩ = socf := by
      intro socf s
      unfold saturate_step IsFinite
      simp only
      rw [if_neg]
      intro hc
      rcases ht with ht | ht
      · exact hc.1.1 ht
      · exact hc.1.2 ht
    simp only [hstep]
    exact (foldl_id_eq _ _).symm
  · rw [if_neg ht]
    congr 1
    funext socf s
    unfold saturate_step IsFinite
    simp only
    push_neg at ht
    by_cases hs : vget h s.target_id = INF ∨ vget h s.target_id = -INF
    · rw [if_pos hs, if_neg]
      intro hc
      rcases hs with hs | hs
      · exact hc.2.1 hs
      · exact hc.2.2 hs
    · rw [if_neg hs, if_pos]
      push_neg at hs
      exact ⟨ht, hs⟩

/-- The loop over the transitions keeps the length, raises entries only, bounds every
finite difference of its operator from above, and every entry it changed is one of the
differences. -/
theorem saturate_fold (h : List Int) (l : List Transition) :
    ∀ socf : List Int,
      (l.foldl (saturate_step h) socf).length = socf.length ∧
      (∀ op, vget socf op ≤ vget (l.foldl (saturate_step h) socf) op) ∧
      (∀ t ∈ l, IsFinite (vget h t.target_id) → IsFinite (vget h t.source_id) →
        t.op_id < socf.length →
        vget h t.source_id - vget h t.target_id
          ≤ vget (l.foldl (saturate_step h) socf) t.op_id) ∧
      (∀ op, vget (l.foldl (saturate_step h) socf) op = vget socf op ∨
        ∃ t ∈ l, t.op_id = op ∧ IsFinite (vget h t.target_id) ∧
          IsFinite (vget h t.source_id) ∧
          vget (l.foldl (saturate_step h) socf) op
            = vget h t.source_id - vget h t.target_id) := by
  induction l with
  | nil =>
    intro socf
    exact ⟨rfl, fun op => le_refl _, fun t ht => absurd ht (List.not_mem_nil t),
      fun op => Or.inl rfl⟩
  | cons t l ih =>
    intro socf
    rw [List.foldl_cons]
    obtain ⟨h1, h2, h3, h4⟩ := ih (saturate_step h socf t)
    have hlen : (saturate_step h socf t).length = socf.length := by
      unfold saturate_step
      split_ifs
      · rw [List.length_set]
      · rfl
    have hstep : ∀ op, vget (saturate_step h socf t) op
        = if IsFinite (vget h t.target_id) ∧ IsFinite (vget h t.source_id) ∧
            t.op_id = op ∧ t.op_id < socf.length
          then max (vget socf t.op_id) (vget h t.source_id - vget h t.target_id)
          else vget socf op := by
      intro op
      unfold saturate_step
      by_cases hf : IsFinite (vget h t.target_id) ∧ IsFinite (vget h t.source_id)
      · rw [if_pos hf, vget_set]
        by_cases ho : t.op_id = op ∧ t.op_id < socf.length
        · rw [if_pos ho, if_pos ⟨hf.1, hf.2, ho⟩]
        · rw [if_neg ho, if_neg (fun hc => ho hc.2.2)]
      · rw [if_neg hf, if_neg (fun hc => hf ⟨hc.1, hc.2.1⟩)]
    have hmono : ∀ op, vget socf op ≤ vget (saturate_step h socf t) op := by
      intro op
      rw [hstep]
      split_ifs with hc
      · rw [← hc.2.2.1]; exact le_max_left _ _
      · exact le_refl _
    refine ⟨by rw [h1, hlen], fun op => le_trans (hmono op) (h2 op), ?_, ?_⟩
    · intro t' ht' hf1 hf2 hop
      rcases List.mem_cons.1 ht' with e | e
      · rw [e]
        refine le_trans ?_ (h2 t.op_id)
        rw [hstep, if_pos ⟨by rw [← e]; exact hf1, by rw [← e]; exact hf2, rfl,
          by rw [← e]; exact hop⟩]
        exact le_max_right _ _
      · exact h3 t' e hf1 hf2 (by rw [hlen]; exact hop)
    · intro op
      rcases h4 op with e | ⟨t', ht', e1, e2, e3, e4⟩
      · rw [e, hstep]
        by_cases hc : IsFinite (vget h t.target_id) ∧ IsFinite (vget h t.source_id) ∧
            t.op_id = op ∧ t.op_id < socf.length
        · rw [if_pos hc]
          rcases max_cases (vget socf t.op_id) (vget h t.source_id - vget h t.target_id)
            with ⟨m1, _⟩ | ⟨m1, _⟩
          · left; rw [m1, hc.2.2.1]
          · right
            exact ⟨t, List.mem_cons_self t l, hc.2.2.1, hc.1, hc.2.1, m1⟩
        · rw [if_neg hc]; left; trivial
      · right
        exact ⟨t', List.mem_cons_of_mem t ht', e1, e2, e3, e4⟩

/-- The saturated operator costs: one entry per operator; every entry is at least any
finite difference over a transition of its operator and at least `0` for a looping
operator; and every entry is `-INF`, or `0` for a looping operator, or one of the finite
differences. -/
theorem compute_saturated_costs_ocf_spec (a : ExplicitAbstraction) (ha : a.WellFormed)
    (h : List Int) :
    (a.compute_saturated_costs_ocf h).length = a.num_operators ∧
    (∀ t ∈ a.for_each_transition, IsFinite (vget h t.target_id) →
      IsFinite (vget h t.source_id) →
      vget h t.source_id - vget h t.target_id
        ≤ vget (a.compute_saturated_costs_ocf h) t.op_id) ∧
    (∀ op, op < a.num_operators → bget a.has_loop op = true →
      0 ≤ vget (a.compute_saturated_costs_ocf h) op) ∧
    (∀ op, op < a.num_operators →
      (bget a.has_loop op = false ∧ vget (a.compute_saturated_costs_ocf h) op = -INF) ∨
      (bget a.has_loop op = true ∧ vget (a.compute_saturated_costs_ocf h) op = 0) ∨
      ∃ t ∈ a.for_each_transition, t.op_id = op ∧ IsFinite (vget h t.target_id) ∧
        IsFinite (vget h t.source_id) ∧
        vget (a.compute_saturated_costs_ocf h) op
          = vget h t.source_id - vget h t.target_id) := by
  rw [compute_saturated_costs_ocf_eq a ha.1]
  obtain ⟨h1, h2, h3, h4⟩ := saturate_fold h a.for_each_transition
    ((List.range a.num_operators).map fun op_id =>
      if bget a.has_loop op_id then (0 : Int) else -INF)
  have hinit : ∀ op, op < a.num_operators →
      vget ((List.range a.num_operators).map fun op_id =>
        if bget a.has_loop op_id then (0 : Int) else -INF) op
        = if bget a.has_loop op then (0 : Int) else -INF := by
    intro op hop
    unfold vget
    rw [getD_map_range _ _ _ _, if_pos hop]
  have hlen0 : ((List.range a.num_operators).map fun op_id =>
      if bget a.has_loop op_id then (0 : Int) else -INF).length = a.num_operators := by
    rw [List.length_map, List.length_range]
  refine ⟨by rw [h1, hlen0], ?_, ?_, ?_⟩
  · intro t ht hf1 hf2
    exact h3 t ht hf1 hf2 (by rw [hlen0]; exact (transition_bounds ha ht).2.2)
  · intro op hop hl
    have := h2 op
    rw [hinit op hop, if_pos hl] at this
    exact this
  · intro op hop
    rcases h4 op with e | e
    · rw [hinit op hop] at e
      by_cases hl : bget a.has_loop op = true
      · rw [if_pos hl] at e
        exact Or.inr (Or.inl ⟨hl, e⟩)
      · rw [if_neg hl] at e
        exact Or.inl ⟨by simpa using hl, e⟩
    · exact Or.inr (Or.inr e)

end saturated_costs
/-! ## Loops that rewrite a vector entry by entry -/

section entry_loops

theorem set_vget_self (x : List Int) (i : Nat) : x.set i (vget x i) = x := by
  apply List.ext_getElem (by rw [List.length_set])
  intro j h1 h2
  rw [List.getElem_set]
  split_ifs with hij
  · subst hij
    unfold vget
    rw [List.getD_eq_getElem?_getD, List.getElem?_eq_getElem h2]
    rfl
  · rfl

theorem vget_eq_getElem {x : List Int} {i : Nat} (h : i < x.length) : vget x i = x[i] := by
  unfold vget
  rw [List.getD_eq_getElem?_getD, List.getElem?_eq_getElem h]
  rfl

theorem vget_map (f : Int → Int) (x : List Int) (i : Nat) :
    vget (x.map f) i = if i < x.length then f (vget x i) else 0 := by
  by_cases h : i < x.length
  · rw [if_pos h, vget_eq_getElem (by rw [List.length_map]; exact h), List.getElem_map,
      vget_eq_getElem h]
  · rw [if_neg h, vget_of_length_le (by rw [List.length_map]; omega)]

/-- A loop over distinct indices that replaces entry `i` by `F i` of its value: the result
entry by entry. -/
theorem foldl_set_pointwise (F : Nat → Int → Int) (l : List Nat) (hl : l.Nodup) :
    ∀ x : List Int,
      (l.foldl (fun x i => x.set i (F i (vget x i))) x).length = x.length ∧
      ∀ v, vget (l.foldl (fun x i => x.set i (F i (vget x i))) x) v
        = if v ∈ l ∧ v < x.length then F v (vget x v) else vget x v := by
  induction l with
  | nil => intro x; exact ⟨rfl, fun v => by simp⟩
  | cons i l ih =>
    intro x
    rw [List.foldl_cons]
    obtain ⟨h1, h2⟩ := ih (List.nodup_cons.1 hl).2 (x.set i (F i (vget x i)))
    refine ⟨by rw [h1, List.length_set], ?_⟩
    intro v
    rw [h2, List.length_set, vget_set]
    have hi := (List.nodup_cons.1 hl).1
    by_cases hv : v ∈ l ∧ v < x.length
    · have hne : ¬ (i = v ∧ i < x.length) := fun hc => hi (hc.1 ▸ hv.1)
      rw [if_pos hv, if_neg hne, if_pos ⟨List.mem_cons_of_mem i hv.1, hv.2⟩]
    · rw [if_neg hv]
      by_cases hiv : i = v ∧ i < x.length
      · rw [if_pos hiv, if_pos ⟨by rw [hiv.1]; exact List.mem_cons_self v l,
          by rw [← hiv.1]; exact hiv.2⟩, hiv.1]
      · rw [if_neg hiv, if_neg]
        intro hc
        rcases List.mem_cons.1 hc.1 with e | e
        · exact hiv ⟨e.symm, by rw [← e]; exact hc.2⟩
        · exact hv ⟨e, hc.2⟩

/-- The entries of the vector `cap_h_values` returns. -/
theorem vget_cap_h_values (max_value : Int) (h : List Int) (v : Nat) :
    vget (cap_h_values max_value h) v
      = if v < h.length then (if vget h v ≠ INF then min (vget h v) max_value else vget h v)
        else 0 := by
  unfold cap_h_values
  rw [vget_map]

theorem length_cap_h_values (max_value : Int) (h : List Int) :
    (cap_h_values max_value h).length = h.length := by
  unfold cap_h_values
  rw [List.length_map]

/-- The entries of the vector `prune_unreachable` returns. -/
theorem prune_unreachable_spec (n : Nat) (reach : List Bool) (h : List Int) :
    (prune_unreachable n reach h).length = h.length ∧
    ∀ v, vget (prune_unreachable n reach h) v
      = if v < n ∧ v < h.length ∧ bget reach v = false ∧ vget h v ≠ INF then -INF
        else vget h v := by
  have hstep : (fun (x : List Int) (i : Nat) =>
      if bget reach i = false ∧ vget x i ≠ INF then x.set i (-INF) else x)
      = fun x i => x.set i
          ((fun i y => if bget reach i = false ∧ y ≠ INF then -INF else y) i (vget x i)) := by
    funext x i
    simp only
    split_ifs
    · rfl
    · exact (set_vget_self x i).symm
  unfold prune_unreachable
  rw [hstep]
  obtain ⟨h1, h2⟩ := foldl_set_pointwise
    (fun i y => if bget reach i = false ∧ y ≠ INF then -INF else y)
    (List.range n) (List.nodup_range n) h
  refine ⟨h1, ?_⟩
  intro v
  rw [h2]
  simp only [List.mem_range]
  by_cases hv : v < n ∧ v < h.length
  · rw [if_pos hv]
    by_cases hc : bget reach v = false ∧ vget h v ≠ INF
    · rw [if_pos hc, if_pos ⟨hv.1, hv.2, hc.1, hc.2⟩]
    · rw [if_neg hc, if_neg (fun hd => hc ⟨hd.2.2.1, hd.2.2.2⟩)]
  · rw [if_neg hv, if_neg (fun hd => hv ⟨hd.1, hd.2.1⟩)]

/-- The loop of `get_saturator_result_ocf` that copies `INF` from `ocf` into `socf`. -/
theorem copy_inf_spec (ocf socf : List Int) :
    ((List.range ocf.length).foldl
      (fun socf op_id => if vget ocf op_id = INF then socf.set op_id INF else socf)
      socf).length = socf.length ∧
    ∀ op, vget ((List.range ocf.length).foldl
      (fun socf op_id => if vget ocf op_id = INF then socf.set op_id INF else socf) socf) op
      = if op < ocf.length ∧ op < socf.length ∧ vget ocf op = INF then INF
        else vget socf op := by
  have hstep : (fun (x : List Int) (i : Nat) =>
      if vget ocf i = INF then x.set i INF else x)
      = fun x i => x.set i
          ((fun i y => if vget ocf i = INF then INF else y) i (vget x i)) := by
    funext x i
    simp only
    split_ifs
    · rfl
    · exact (set_vget_self x i).symm
  rw [hstep]
  obtain ⟨h1, h2⟩ := foldl_set_pointwise
    (fun i y => if vget ocf i = INF then INF else y)
    (List.range ocf.length) (List.nodup_range _) socf
  refine ⟨h1, ?_⟩
  intro op
  rw [h2]
  simp only [List.mem_range]
  by_cases hv : op < ocf.length ∧ op < socf.length
  · rw [if_pos hv]
    by_cases hc : vget ocf op = INF
    · rw [if_pos hc, if_pos ⟨hv.1, hv.2, hc⟩]
    · rw [if_neg hc, if_neg (fun hd => hc hd.2.2)]
  · rw [if_neg hv, if_neg (fun hd => hv ⟨hd.1, hd.2.1⟩)]

/-- The loop of `get_saturator_result_ocf` that keeps the `-INF` entries of `h_values`. -/
theorem keep_neg_inf_spec (n : Nat) (h new_h : List Int) :
    ((List.range n).foldl
      (fun new_h source_id =>
        if vget h source_id = -INF then new_h.set source_id (-INF) else new_h)
      new_h).length = new_h.length ∧
    ∀ v, vget ((List.range n).foldl
      (fun new_h source_id =>
        if vget h source_id = -INF then new_h.set source_id (-INF) else new_h) new_h) v
      = if v < n ∧ v < new_h.length ∧ vget h v = -INF then -INF else vget new_h v := by
  have hstep : (fun (x : List Int) (i : Nat) =>
      if vget h i = -INF then x.set i (-INF) else x)
      = fun x i => x.set i
          ((fun i y => if vget h i = -INF then -INF else y) i (vget x i)) := by
    funext x i
    simp only
    split_ifs
    · rfl
    · exact (set_vget_self x i).symm
  rw [hstep]
  obtain ⟨h1, h2⟩ := foldl_set_pointwise
    (fun i y => if vget h i = -INF then -INF else y)
    (List.range n) (List.nodup_range _) new_h
  refine ⟨h1, ?_⟩
  intro v
  rw [h2]
  simp only [List.mem_range]
  by_cases hv : v < n ∧ v < new_h.length
  · rw [if_pos hv]
    by_cases hc : vget h v = -INF
    · rw [if_pos hc, if_pos ⟨hv.1, hv.2, hc⟩]
    · rw [if_neg hc, if_neg (fun hd => hc hd.2.2)]
  · rw [if_neg hv, if_neg (fun hd => hv ⟨hd.1, hd.2.1⟩)]

/-- The clamping loop over distinct indices: it returns exactly when no clamped entry
exceeds the remaining cost, and then every visited entry is clamped. -/
theorem clamp_fold (ocf : List Int) (l : List Nat) (hl : l.Nodup) :
    ∀ x : List Int, (∀ i ∈ l, i < x.length) →
      ((∀ i ∈ l, max 0 (vget x i) ≤ vget ocf i) →
        ∃ r, l.foldlM
          (fun socf op_id =>
            if max 0 (vget socf op_id) > vget ocf op_id then none
            else some (socf.set op_id (max 0 (vget socf op_id)))) x = some r) ∧
      ∀ r, l.foldlM
          (fun socf op_id =>
            if max 0 (vget socf op_id) > vget ocf op_id then none
            else some (socf.set op_id (max 0 (vget socf op_id)))) x = some r →
        r.length = x.length ∧ (∀ i ∈ l, max 0 (vget x i) ≤ vget ocf i) ∧
        ∀ v, vget r v = if v ∈ l then max 0 (vget x v) else vget x v := by
  induction l with
  | nil =>
    intro x _
    refine ⟨fun _ => ⟨x, rfl⟩, ?_⟩
    intro r hr
    simp only [List.foldlM_nil] at hr
    have : x = r := Option.some.inj hr
    rw [← this]
    exact ⟨rfl, fun i hi => absurd hi (List.not_mem_nil i), fun v => by simp⟩
  | cons i l ih =>
    intro x hx
    have hi := (List.nodup_cons.1 hl).1
    have hil : i < x.length := hx i (List.mem_cons_self i l)
    obtain ⟨ih1, ih2⟩ := ih (List.nodup_cons.1 hl).2 (x.set i (max 0 (vget x i)))
      (fun j hj => by rw [List.length_set]; exact hx j (List.mem_cons_of_mem i hj))
    have hother : ∀ j ∈ l, vget (x.set i (max 0 (vget x i))) j = vget x j := by
      intro j hj
      rw [vget_set, if_neg]
      intro hc
      exact hi (hc.1 ▸ hj)
    rw [List.foldlM_cons]
    by_cases hgt : max 0 (vget x i) > vget ocf i
    · rw [if_pos hgt]
      refine ⟨fun hall => absurd (hall i (List.mem_cons_self i l)) (not_le.2 hgt), ?_⟩
      intro r hr
      simp at hr
    · rw [if_neg hgt]
      simp only [Option.bind_eq_bind, Option.some_bind]
      constructor
      · intro hall
        apply ih1
        intro j hj
        rw [hother j hj]
        exact hall j (List.mem_cons_of_mem i hj)
      · intro r hr
        obtain ⟨r1, r2, r3⟩ := ih2 r hr
        refine ⟨by rw [r1, List.length_set], ?_, ?_⟩
        · intro j hj
          rcases List.mem_cons.1 hj with e | e
          · rw [e]; exact not_lt.1 hgt
          · have := r2 j e
            rw [hother j e] at this
            exact this
        · intro v
          rw [r3]
          by_cases hv : v ∈ l
          · rw [if_pos hv, if_pos (List.mem_cons_of_mem i hv), hother v hv]
          · rw [if_neg hv, vget_set]
            by_cases hiv : i = v
            · rw [if_pos ⟨hiv, hil⟩, if_pos (by rw [hiv]; exact List.mem_cons_self v l), hiv]
            · rw [if_neg (fun hc => hiv hc.1), if_neg]
              intro hc
              rcases List.mem_cons.1 hc with e | e
              · exact hiv e.symm
              · exact hv e

/-- The clamping loop of `saturate_ocf`: it returns exactly when no clamped entry exceeds
the remaining cost, and then every entry is raised to at least `0`. -/
theorem clamp_saturated_costs_spec (ocf socf : List Int) :
    ((∀ op, op < socf.length → max 0 (vget socf op) ≤ vget ocf op) →
      ∃ r, clamp_saturated_costs ocf socf = some r) ∧
    ∀ r, clamp_saturated_costs ocf socf = some r →
      r.length = socf.length ∧
      (∀ op, op < socf.length → max 0 (vget socf op) ≤ vget ocf op) ∧
      ∀ op, vget r op = if op < socf.length then max 0 (vget socf op) else 0 := by
  obtain ⟨h1, h2⟩ := clamp_fold ocf (List.range socf.length) (List.nodup_range _) socf
    (fun i hi => List.mem_range.1 hi)
  unfold clamp_saturated_costs
  constructor
  · intro hall
    exact h1 (fun i hi => hall i (List.mem_range.1 hi))
  · intro r hr
    obtain ⟨r1, r2, r3⟩ := h2 r hr
    refine ⟨r1, fun op hop => r2 op (List.mem_range.2 hop), ?_⟩
    intro op
    rw [r3]
    simp only [List.mem_range]
    split_ifs with hop
    · rfl
    · exact vget_of_length_le (by omega)

end entry_loops
/-! ## Reachability from a state -/

section reachability

/-- The loop body of `generate_forward_graph` for the arc `p.1` into `p.2`. -/
theorem forward_fold (L : List (Successor × Nat)) :
    ∀ (fg : List (List Successor)),
      (L.foldl (fun fg p => fg.set p.1.target_id
          (fg.getD p.1.target_id [] ++ [⟨p.1.transition_id, p.1.op_id, p.2⟩])) fg).length
        = fg.length ∧
      ∀ v x, x ∈ (L.foldl (fun fg p => fg.set p.1.target_id
          (fg.getD p.1.target_id [] ++ [⟨p.1.transition_id, p.1.op_id, p.2⟩])) fg).getD v []
        ↔ x ∈ fg.getD v [] ∨
          (v < fg.length ∧ ∃ p ∈ L, p.1.target_id = v ∧
            x = ⟨p.1.transition_id, p.1.op_id, p.2⟩) := by
  induction L with
  | nil =>
    intro fg
    refine ⟨rfl, ?_⟩
    intro v x
    simp
  | cons p L ih =>
    intro fg
    rw [List.foldl_cons]
    obtain ⟨h1, h2⟩ := ih (fg.set p.1.target_id
      (fg.getD p.1.target_id [] ++ [⟨p.1.transition_id, p.1.op_id, p.2⟩]))
    refine ⟨by rw [h1, List.length_set], ?_⟩
    intro v x
    rw [h2, List.length_set, getD_set_eq]
    by_cases hv : p.1.target_id = v ∧ p.1.target_id < fg.length
    · rw [if_pos hv, List.mem_append, List.mem_singleton]
      have hvl : v < fg.length := by rw [← hv.1]; exact hv.2
      constructor
      · rintro ((h | h) | ⟨_, q, hq, e1, e2⟩)
        · left; rw [← hv.1]; exact h
        · right; exact ⟨hvl, p, List.mem_cons_self p L, hv.1, h⟩
        · right; exact ⟨hvl, q, List.mem_cons_of_mem p hq, e1, e2⟩
      · rintro (h | ⟨_, q, hq, e1, e2⟩)
        · left; left; rw [hv.1]; exact h
        · rcases List.mem_cons.1 hq with e | e
          · left; right; rw [e2, e]
          · right; exact ⟨hvl, q, e, e1, e2⟩
    · rw [if_neg hv]
      constructor
      · rintro (h | ⟨hvl, q, hq, e1, e2⟩)
        · left; exact h
        · right; exact ⟨hvl, q, List.mem_cons_of_mem p hq, e1, e2⟩
      · rintro (h | ⟨hvl, q, hq, e1, e2⟩)
        · left; exact h
        · rcases List.mem_cons.1 hq with e | e
          · exfalso
            apply hv
            rw [← e]
            exact ⟨e1, by rw [e1]; exact hvl⟩
          · right; exact ⟨hvl, q, e, e1, e2⟩

/-- The arcs of the forward graph: the arcs of the backward graph turned round. -/
theorem mem_generate_forward_graph (bg : List (List Successor)) :
    (generate_forward_graph bg).length = bg.length ∧
    ∀ v x, x ∈ (generate_forward_graph bg).getD v [] ↔
      v < bg.length ∧ ∃ target, target < bg.length ∧ ∃ s ∈ bg.getD target [],
        s.target_id = v ∧ x = ⟨s.transition_id, s.op_id, target⟩ := by
  have hflat : generate_forward_graph bg
      = (((List.range bg.length).flatMap fun target =>
          (bg.getD target []).map fun s => (s, target)).foldl
          (fun fg p => fg.set p.1.target_id
            (fg.getD p.1.target_id [] ++ [⟨p.1.transition_id, p.1.op_id, p.2⟩]))
          (List.replicate bg.length [])) := by
    unfold generate_forward_graph
    rw [foldl_flatMap_eq]
    congr 1
    funext fg target
    rw [List.foldl_map]
  rw [hflat]
  obtain ⟨h1, h2⟩ := forward_fold ((List.range bg.length).flatMap fun target =>
    (bg.getD target []).map fun s => (s, target)) (List.replicate bg.length [])
  refine ⟨by rw [h1, List.length_replicate], ?_⟩
  intro v x
  rw [h2, List.length_replicate]
  have hnil : (List.replicate bg.length ([] : List Successor)).getD v [] = [] := by
    rw [List.getD_eq_getElem?_getD, List.getElem?_replicate]
    split_ifs <;> rfl
  rw [hnil]
  simp only [List.not_mem_nil, false_or, List.mem_flatMap, List.mem_range, List.mem_map]
  constructor
  · rintro ⟨hv, p, ⟨target, ht, s, hs, rfl⟩, e1, e2⟩
    exact ⟨hv, target, ht, s, hs, e1, e2⟩
  · rintro ⟨hv, target, ht, s, hs, e1, e2⟩
    exact ⟨hv, (s, target), ⟨target, ht, s, hs, rfl⟩, e1, e2⟩

theorem reversed_wellFormed {a : ExplicitAbstraction} (ha : a.WellFormed) {state_id : Nat}
    (hs : state_id < a.num_states) : (a.reversed state_id).WellFormed := by
  obtain ⟨h1, h2⟩ := mem_generate_forward_graph a.backward_graph
  refine ⟨by show (generate_forward_graph a.backward_graph).length = a.num_states
             rw [h1, ha.1], ?_, ?_, ha.2.2.2.1, ha.2.2.2.2⟩
  · intro v x hx
    have hx' : x ∈ (generate_forward_graph a.backward_graph).getD v [] := hx
    obtain ⟨_, target, ht, s, hs', _, e⟩ := (h2 v x).1 hx'
    rw [e]
    exact ⟨by rw [ha.1] at ht; exact ht, (ha.2.1 target s hs').2⟩
  · intro g hg
    have : g = state_id := List.mem_singleton.1 hg
    rw [this]; exact hs

/-- Every transition of the abstraction, turned round, is a transition of the reversed
abstraction. -/
theorem reversed_transition {a : ExplicitAbstraction} (ha : a.WellFormed) (state_id : Nat)
    {t : Transition} (ht : t ∈ a.for_each_transition) :
    (⟨t.transition_id, t.op_id, t.target_id, t.source_id⟩ : Transition)
      ∈ (a.reversed state_id).for_each_transition := by
  obtain ⟨_, h2⟩ := mem_generate_forward_graph a.backward_graph
  obtain ⟨hts, htt, _⟩ := transition_bounds ha ht
  obtain ⟨_, s, hs, e⟩ := mem_for_each_transition.1 ht
  rw [mem_for_each_transition]
  refine ⟨hts, ⟨t.transition_id, t.op_id, t.target_id⟩, ?_, rfl⟩
  show _ ∈ (generate_forward_graph a.backward_graph).getD t.source_id []
  rw [h2]
  refine ⟨by rw [ha.1]; exact hts, t.target_id, by rw [ha.1]; exact htt, s, hs, ?_, ?_⟩
  · rw [e]
  · rw [e]

theorem compute_reachability_from_state_ocf_eq (a : ExplicitAbstraction) (fuel : Nat)
    (costs : List Int) (state_id : Nat) :
    a.compute_reachability_from_state_ocf fuel costs state_id
      = ((a.reversed state_id).compute_goal_distances_for_non_negative_costs_ocf fuel
          costs).map (distances_to_reachability a.num_states) := rfl

theorem bget_distances_to_reachability (n : Nat) (d : List Int) (v : Nat) :
    bget (distances_to_reachability n d) v = (decide (v < n ∧ vget d v ≠ INF)) := by
  unfold bget distances_to_reachability
  rw [getD_map_range]
  by_cases hv : v < n
  · rw [if_pos hv]
    by_cases hd : vget d v ≠ INF
    · rw [decide_eq_true hd, decide_eq_true (⟨hv, hd⟩ : v < n ∧ vget d v ≠ INF)]
    · rw [decide_eq_false hd, decide_eq_false (fun hc : v < n ∧ vget d v ≠ INF => hd hc.2)]
  · rw [if_neg hv, decide_eq_false (fun hc : v < n ∧ vget d v ≠ INF => hv hc.1)]

/-- A walk over transitions that cost at most `1` costs at most its number of transitions. -/
theorem pathTo_unit_cost {a : ExplicitAbstraction} {costs : List Int}
    (hunit : ∀ op, vget costs op ≠ INF → vget costs op ≤ 1) {l : List Nat} {c : Int}
    (h : PathTo a costs l c) : c + 1 ≤ l.length := by
  induction h with
  | goal g hg => simp
  | step t vs c ht hfin _ ih =>
    have := hunit t.op_id hfin
    simp only [List.length_cons] at ih ⊢
    push_cast at ih ⊢
    omega

/-- The reachability vector from a state under costs that are `0`, `1` or `INF`: the
method returns when the fuel suffices; the state itself is marked, and the marked states
are closed under transitions of cost other than `INF`. -/
theorem compute_reachability_from_state_ocf_spec {a : ExplicitAbstraction}
    (ha : a.WellFormed) (hn : (a.num_states : Int) < INF) {costs : List Int}
    (hcost : NonnegativeCosts costs)
    (hunit : ∀ op, vget costs op ≠ INF → vget costs op ≤ 1) {state_id : Nat}
    (hs : state_id < a.num_states) :
    (∀ fuel, 1 + a.num_states * INF.toNat < fuel →
      ∃ r, a.compute_reachability_from_state_ocf fuel costs state_id = some r) ∧
    ∀ fuel r, a.compute_reachability_from_state_ocf fuel costs state_id = some r →
      r.length = a.num_states ∧ bget r state_id = true ∧
      ∀ t ∈ a.for_each_transition, vget costs t.op_id ≠ INF →
        bget r t.source_id = true → bget r t.target_id = true := by
  have hrev := reversed_wellFormed ha hs
  obtain ⟨hd1, hd2⟩ := dijkstra_goal_distances hrev hcost
  constructor
  · intro fuel hfuel
    obtain ⟨d, hd⟩ := hd2 fuel hfuel
    rw [compute_reachability_from_state_ocf_eq, hd]
    exact ⟨_, rfl⟩
  · intro fuel r hr
    rw [compute_reachability_from_state_ocf_eq] at hr
    cases hd : (a.reversed state_id).compute_goal_distances_for_non_negative_costs_ocf
        fuel costs with
    | none => rw [hd] at hr; simp at hr
    | some d =>
      rw [hd] at hr
      simp only [Option.map_some', Option.some.injEq] at hr
      have hgd := hd1 fuel d hd
      rw [← hr]
      refine ⟨by unfold distances_to_reachability
                 rw [List.length_map, List.length_range], ?_, ?_⟩
      · rw [bget_distances_to_reachability, decide_eq_true_eq]
        refine ⟨hs, ?_⟩
        rw [hgd.goals state_id (List.mem_singleton.2 rfl)]
        unfold INF; omega
      · intro t ht hfin hsrc
        rw [bget_distances_to_reachability, decide_eq_true_eq] at hsrc ⊢
        obtain ⟨hts, htt, _⟩ := transition_bounds ha ht
        refine ⟨htt, ?_⟩
        have hf := hgd.feasible _ (reversed_transition ha state_id ht)
        simp only at hf
        obtain ⟨vs, hp⟩ := hgd.real t.source_id hts hsrc.2
        obtain ⟨rest, c', hle, hp', hnd⟩ :=
          pathTo_simple (fun _ => True) (fun _ => 0)
            (fun t' _ _ _ _ => ⟨trivial, by
              have := (vget_nonneg_of_costs hcost t'.op_id).1
              simp only [sub_zero]
              exact this⟩) hp t.source_id vs rfl trivial
        have hlen := nodup_length_le hnd (pathTo_bounds hrev hp')
        have hunit' := pathTo_unit_cost hunit hp'
        have hlow := feasible_le_path hcost hgd.bounds
          (fun g hg => le_of_eq (hgd.goals g hg)) hgd.feasible hp' t.source_id rest rfl
        have hc := vget_nonneg_of_costs hcost t.op_id
        rw [path_addition_nonneg (hgd.bounds t.source_id).1 hc.1] at hf
        rw [if_neg (by push_neg; exact ⟨hsrc.2, hfin⟩)] at hf
        have h1 := hunit t.op_id hfin
        have hns : (a.reversed state_id).num_states = a.num_states := rfl
        rw [hns] at hlen
        have : ((state_id :: ([] : List Nat)).length : Int) = 1 := rfl
        have hlen' : ((t.source_id :: rest).length : Int) ≤ a.num_states := by
          exact_mod_cast hlen
        omega

end reachability
/-! ## Bellman-Ford inside a region with a potential -/

section bellman_ford_region
variable {a : ExplicitAbstraction} {costs : List Int} {G : Nat → Prop} {φ : Nat → Int}
variable {reach_to : Nat → List Int → Nat → Option (List Bool)}

/-- A walk out of the region costs at least the potential of its first state. -/
theorem potential_le_path (hc : RegionCertificate a costs G φ) {l : List Nat} {c : Int}
    (h : PathTo a costs l c) : ∀ v rest, l = v :: rest → G v → φ v ≤ c := by
  induction h with
  | goal g hg =>
    intro v rest hl hG
    rw [← (List.cons.inj hl).1] at hG ⊢
    exact hc.goal g hg hG
  | step t vs c ht hfin hp ih =>
    intro v rest hl hG
    rw [← (List.cons.inj hl).1] at hG ⊢
    have h1 := ih t.target_id vs rfl (hc.closed t ht hfin hG)
    have h2 := (hc.potential t ht hfin hG ⟨vs, c, hp⟩).1
    omega

theorem region_entry_nonneg (hc : RegionCertificate a costs G φ) {d : List Int}
    (hr : RegionRealized a costs G d) {v : Nat} (hG : G v) (hv : v < a.num_states) :
    0 ≤ vget d v := by
  rcases hr.real v hG hv with e | ⟨vs, hp⟩
  · rw [e]; unfold INF; omega
  · exact le_trans (hc.nonneg v hG ⟨vs, _, hp⟩) (potential_le_path hc hp v vs rfl hG)

/-- Inside the region no transition is relaxable once the vector lies below all walks
without repeated states. -/
theorem region_not_relaxable (ha : a.WellFormed) (hc : RegionCertificate a costs G φ)
    {d : List Int} {i : Nat} (hr : RegionRealized a costs G d)
    (hk : RegionWalkBounded a costs G d i) (hi : a.num_states ≤ i + 1)
    {t : Transition} (ht : t ∈ a.for_each_transition) (hG : G t.source_id) :
    ¬ Relaxable costs d t := by
  unfold Relaxable
  rw [not_lt]
  obtain ⟨hs, htg, _⟩ := transition_bounds ha ht
  have hup := hr.upper t.source_id hG
  by_cases hfin : vget costs t.op_id = INF
  · unfold path_addition
    rw [if_pos (Or.inr hfin)]
    exact hup
  · have hG' := hc.closed t ht hfin hG
    rcases hr.real t.target_id hG' htg with e | ⟨vs, hp⟩
    · unfold path_addition
      rw [if_pos (Or.inl e)]
      exact hup
    · obtain ⟨_, hninf⟩ := hc.potential t ht hfin hG ⟨vs, _, hp⟩
      have h0 := region_entry_nonneg hc hr hG' htg
      have hlt := hc.no_overflow
      have hp' := PathTo.step t vs _ ht hfin hp
      obtain ⟨rest, c', hle, hp2, hnd⟩ :=
        pathTo_simple G φ
          (fun t' ht' hf' hg' hw' => ⟨hc.closed t' ht' hf' hg', (hc.potential t' ht' hf' hg' hw').1⟩)
          hp' t.source_id (t.target_id :: vs) rfl hG
      have hlen := nodup_length_le hnd (pathTo_bounds ha hp2)
      rw [List.length_cons] at hlen
      have hb := hk t.source_id rest c' hG hp2 hnd (by omega)
      unfold path_addition
      split_ifs with h1 h2
      · exact hup
      · rcases h2 with h2 | h2
        · unfold INF at h2; omega
        · exact absurd h2 hninf
      · omega

/-- One call of the callback in a round that is not the last, seen from the region. -/
theorem bellman_ford_callback_region (ha : a.WellFormed)
    (hc : RegionCertificate a costs G φ) (fuel : Nat) {st : BellmanFordState}
    {t : Transition} (ht : t ∈ a.for_each_transition)
    (hr : RegionRealized a costs G st.distances) :
    ∃ st', bellman_ford_callback reach_to fuel costs false st t = some st' ∧
      RegionRealized a costs G st'.distances ∧
      (∀ v, G v → vget st'.distances v ≤ vget st.distances v) ∧
      (G t.source_id → vget costs t.op_id ≠ INF → vget st.distances t.target_id ≠ INF →
        vget st'.distances t.source_id
          ≤ vget st.distances t.target_id + vget costs t.op_id) := by
  rw [bellman_ford_callback_eq]
  obtain ⟨hs, htg, _⟩ := transition_bounds ha ht
  have hpa : G t.source_id → vget costs t.op_id ≠ INF →
      vget st.distances t.target_id ≠ INF →
      path_addition (vget st.distances t.target_id) (vget costs t.op_id)
        = vget st.distances t.target_id + vget costs t.op_id ∧
      ∃ vs, PathTo a costs (t.source_id :: vs)
        (vget st.distances t.target_id + vget costs t.op_id) := by
    intro hG hfin hne
    have hG' := hc.closed t ht hfin hG
    rcases hr.real t.target_id hG' htg with e | ⟨vs, hp⟩
    · exact absurd e hne
    · obtain ⟨_, hninf⟩ := hc.potential t ht hfin hG ⟨vs, _, hp⟩
      have h0 := region_entry_nonneg hc hr hG' htg
      refine ⟨?_, t.target_id :: vs, PathTo.step t vs _ ht hfin hp⟩
      unfold path_addition
      rw [if_neg (by push_neg; exact ⟨hne, hfin⟩), if_neg]
      push_neg
      exact ⟨by unfold INF; omega, hninf⟩
  by_cases h1 : Relaxable costs st.distances t
  · rw [if_pos h1]
    simp only [Bool.false_eq_true, if_false]
    have h1' := h1
    unfold Relaxable at h1'
    have hval : ∀ v, vget (st.distances.set t.source_id
        (path_addition (vget st.distances t.target_id) (vget costs t.op_id))) v
        = if t.source_id = v
          then path_addition (vget st.distances t.target_id) (vget costs t.op_id)
          else vget st.distances v := by
      intro v
      rw [vget_set]
      by_cases hv : t.source_id = v
      · rw [if_pos ⟨hv, by rw [hr.len]; exact hs⟩, if_pos hv]
      · rw [if_neg (fun h => hv h.1), if_neg hv]
    refine ⟨_, rfl, ⟨by simp only [List.length_set]; exact hr.len, ?_, ?_⟩, ?_, ?_⟩
    · intro v hG
      simp only [hval]
      split_ifs with hv
      · have := hr.upper t.source_id (hv ▸ hG)
        omega
      · exact hr.upper v hG
    · intro v hG hv
      simp only [hval]
      split_ifs with hv'
      · have hGs : G t.source_id := hv' ▸ hG
        by_cases hfin : vget costs t.op_id = INF
        · left; unfold path_addition; rw [if_pos (Or.inr hfin)]
        · by_cases hne : vget st.distances t.target_id = INF
          · left; unfold path_addition; rw [if_pos (Or.inl hne)]
          · right
            obtain ⟨e, vs, hp⟩ := hpa hGs hfin hne
            rw [e, ← hv']
            exact ⟨vs, hp⟩
      · exact hr.real v hG hv
    · intro v _
      simp only [hval]
      split_ifs with hv
      · rw [← hv]; omega
      · exact le_refl _
    · intro hG hfin hne
      simp only [hval, if_true]
      rw [(hpa hG hfin hne).1]
  · rw [if_neg h1]
    refine ⟨st, rfl, hr, fun v _ => le_refl _, ?_⟩
    intro hG hfin hne
    unfold Relaxable at h1
    rw [(hpa hG hfin hne).1] at h1
    exact not_lt.1 h1

/-- One pass that is not the last, seen from the region. -/
theorem bellman_ford_pass_region (ha : a.WellFormed) (hc : RegionCertificate a costs G φ)
    (fuel : Nat) (l : List Transition) :
    ∀ (st : BellmanFordState), (∀ t ∈ l, t ∈ a.for_each_transition) →
      RegionRealized a costs G st.distances →
      ∃ st', l.foldlM (bellman_ford_callback reach_to fuel costs false) st = some st' ∧
        RegionRealized a costs G st'.distances ∧
        (∀ v, G v → vget st'.distances v ≤ vget st.distances v) ∧
        ∀ t ∈ l, G t.source_id → vget costs t.op_id ≠ INF →
          vget st.distances t.target_id ≠ INF →
          vget st'.distances t.source_id
            ≤ vget st.distances t.target_id + vget costs t.op_id := by
  induction l with
  | nil =>
    intro st _ hr
    exact ⟨st, rfl, hr, fun v _ => le_refl _, fun t ht => absurd ht (List.not_mem_nil t)⟩
  | cons t l ih =>
    intro st hl hr
    obtain ⟨st1, e1, r1, m1, p1⟩ :=
      bellman_ford_callback_region ha hc fuel (hl t (List.mem_cons_self t l)) hr
    obtain ⟨st2, e2, r2, m2, p2⟩ :=
      ih st1 (fun t' ht' => hl t' (List.mem_cons_of_mem t ht')) r1
    refine ⟨st2, ?_, r2, fun v hG => le_trans (m2 v hG) (m1 v hG), ?_⟩
    · rw [bellman_ford_pass_cons, e1]
      exact e2
    · intro t' ht' hG hfin hne
      rcases List.mem_cons.1 ht' with h | h
      · rw [h] at hG hfin hne ⊢
        exact le_trans (m2 t.source_id hG) (p1 hG hfin hne)
      · have hG' := hc.closed t' (hl t' ht') hfin hG
        have hm := m1 t'.target_id hG'
        have hu := hr.upper t'.target_id hG'
        have := p2 t' h hG hfin (by omega)
        omega

/-- The last pass changes no entry of the region. -/
theorem bellman_ford_last_pass_region (ha : a.WellFormed)
    (hc : RegionCertificate a costs G φ) (fuel : Nat) {i : Nat}
    (hi : a.num_states ≤ i + 1) (l : List Transition) :
    ∀ (st st' : BellmanFordState), (∀ t ∈ l, t ∈ a.for_each_transition) →
      RegionRealized a costs G st.distances →
      RegionWalkBounded a costs G st.distances i →
      l.foldlM (bellman_ford_callback reach_to fuel costs true) st = some st' →
      st'.distances.length = st.distances.length ∧
      ∀ v, G v → vget st'.distances v = vget st.distances v := by
  induction l with
  | nil =>
    intro st st' _ _ _ h
    simp only [List.foldlM_nil] at h
    have : st = st' := Option.some.inj h
    rw [← this]
    exact ⟨rfl, fun v _ => rfl⟩
  | cons t l ih =>
    intro st st' hl hr hk h
    rw [bellman_ford_pass_cons] at h
    cases hcb : bellman_ford_callback reach_to fuel costs true st t with
    | none => rw [hcb] at h; simp at h
    | some st1 =>
      rw [hcb] at h
      simp only [Option.some_bind] at h
      have hstep : st1.distances.length = st.distances.length ∧
          ∀ v, G v → vget st1.distances v = vget st.distances v := by
        rw [bellman_ford_callback_eq] at hcb
        by_cases h1 : Relaxable costs st.distances t
        · have hnG : ¬ G t.source_id := fun hG =>
            region_not_relaxable ha hc hr hk hi (hl t (List.mem_cons_self t l)) hG h1
          rw [if_pos h1] at hcb
          simp only [if_true] at hcb
          cases hreach : reach_to fuel
              (compute_reachability_cost_function costs) t.source_id with
          | none => rw [hreach] at hcb; simp at hcb
          | some crt =>
            rw [hreach] at hcb
            simp only [Option.map_some', Option.some.injEq] at hcb
            rw [← hcb]
            simp only
            split_ifs
            · refine ⟨by rw [List.length_set], ?_⟩
              intro v hG
              rw [vget_set, if_neg]
              intro hcv
              exact hnG (hcv.1 ▸ hG)
            · exact ⟨rfl, fun v _ => rfl⟩
        · rw [if_neg h1] at hcb
          have : st = st1 := Option.some.inj hcb
          rw [← this]
          exact ⟨rfl, fun v _ => rfl⟩
      have hr1 : RegionRealized a costs G st1.distances := by
        refine ⟨by rw [hstep.1]; exact hr.len, ?_, ?_⟩
        · intro v hG; rw [hstep.2 v hG]; exact hr.upper v hG
        · intro v hG hv; rw [hstep.2 v hG]; exact hr.real v hG hv
      have hk1 : RegionWalkBounded a costs G st1.distances i := by
        intro v vs c hG hp hnd hlen
        rw [hstep.2 v hG]
        exact hk v vs c hG hp hnd hlen
      obtain ⟨e1, e2⟩ := ih st1 st' (fun t' ht' => hl t' (List.mem_cons_of_mem t ht'))
        hr1 hk1 h
      exact ⟨by rw [e1, hstep.1], fun v hG => by rw [e2 v hG, hstep.2 v hG]⟩

/-- Whatever the rounds return keeps the region realized. -/
theorem bellman_ford_rounds_region (ha : a.WellFormed)
    (hc : RegionCertificate a costs G φ) (fuel : Nat) (remaining : Nat) :
    ∀ (i : Nat) (d : List Int) (found : Bool) (r : List Int) (f : Bool),
      i + remaining = a.num_states →
      RegionRealized a costs G d → RegionWalkBounded a costs G d i →
      bellman_ford_rounds a reach_to fuel costs i remaining d found = some (r, f) →
      RegionRealized a costs G r := by
  induction remaining with
  | zero =>
    intro i d found r f _ hr _ h
    simp only [bellman_ford_rounds, Option.some.injEq, Prod.mk.injEq] at h
    rw [← h.1]; exact hr
  | succ remaining ih =>
    intro i d found r f hsum hr hk h
    rw [bellman_ford_rounds_succ] at h
    unfold bellman_ford_pass at h
    by_cases hlast : i + 1 = a.num_states
    · rw [decide_eq_true hlast] at h
      cases hpass : a.for_each_transition.foldlM (bellman_ford_callback reach_to fuel costs true)
          ⟨d, found, false⟩ with
      | none => rw [hpass] at h; simp at h
      | some st =>
        rw [hpass] at h
        simp only at h
        have hch := bellman_ford_last_pass_unchanged a.for_each_transition hpass
        simp only at hch
        rw [hch] at h
        simp only [Bool.false_eq_true, if_false, Option.some.injEq, Prod.mk.injEq] at h
        obtain ⟨e1, e2⟩ := bellman_ford_last_pass_region ha hc fuel (by omega : a.num_states ≤ i + 1)
          a.for_each_transition ⟨d, found, false⟩ st (fun t ht => ht) hr hk hpass
        simp only at e1 e2
        rw [← h.1]
        refine ⟨by rw [e1]; exact hr.len, ?_, ?_⟩
        · intro v hG; rw [e2 v hG]; exact hr.upper v hG
        · intro v hG hv; rw [e2 v hG]; exact hr.real v hG hv
    · rw [decide_eq_false hlast] at h
      obtain ⟨st', e, r', m', p'⟩ :=
        bellman_ford_pass_region ha hc fuel a.for_each_transition
          ⟨d, found, false⟩ (fun t ht => ht) hr
      rw [e] at h
      simp only at h m' p'
      by_cases hch : st'.distances_changed = true
      · rw [if_pos hch] at h
        apply ih (i + 1) st'.distances st'.negative_weight_cycle_found r f (by omega) r' _ h
        intro v vs c hG hp hnd hlen
        cases hp with
        | goal g hg =>
          exact le_trans (m' v hG) (hk v [] 0 hG (PathTo.goal v hg) hnd (Nat.zero_le _))
        | step t vs' c' ht hfin hp' =>
          have hG' := hc.closed t ht hfin hG
          have hnd' : (t.target_id :: vs').Nodup := (List.nodup_cons.1 hnd).2
          have h2 := hk t.target_id vs' c' hG' hp' hnd' (by
            rw [List.length_cons] at hlen; omega)
          have h3 := hc.no_overflow t.target_id vs' c' hG' hp' hnd'
          have := p' t ht hG hfin (by omega)
          omega
      · rw [if_neg hch] at h
        simp only [Option.some.injEq, Prod.mk.injEq] at h
        rw [← h.1]
        exact r'

/-- Whatever the restart loop returns keeps the region realized. -/
theorem bellman_ford_restart_region (ha : a.WellFormed)
    (hc : RegionCertificate a costs G φ) (fuel : Nat) :
    ∀ (d r : List Int), d.length = a.num_states →
      (∀ v, G v → v < a.num_states → vget d v ≠ -INF) →
      bellman_ford_restart a reach_to costs fuel d = some r →
      RegionRealized a costs G r := by
  induction fuel with
  | zero => intro d r _ _ h; simp [bellman_ford_restart] at h
  | succ fuel ih =>
    intro d r hlen hneg h
    rw [bellman_ford_restart_succ] at h
    obtain ⟨rlen, rval, _⟩ := bellman_ford_reset_spec a d
    have hr0 : RegionRealized a costs G (bellman_ford_reset a d) := by
      refine ⟨by rw [rlen]; exact hlen, ?_, ?_⟩
      · intro v hG
        rw [rval]
        by_cases hv : v < a.num_states
        · have := hneg v hG hv
          unfold INF at this ⊢
          split_ifs <;> omega
        · rw [if_neg (fun hcv => hv (hlen ▸ hcv.2)), if_neg (by rw [hlen]; exact hv)]
          unfold INF; omega
      · intro v hG hv
        rw [rval]
        by_cases hg : v ∈ a.goal_states ∧ v < d.length
        · rw [if_pos hg]
          right
          exact ⟨[], PathTo.goal v hg.1⟩
        · rw [if_neg hg, if_pos (by rw [hlen]; exact hv), if_pos (hneg v hG hv)]
          left; rfl
    have hk0 : RegionWalkBounded a costs G (bellman_ford_reset a d) 0 := by
      intro v vs c hG hp hnd hl
      cases hp with
      | goal g hg =>
        rw [rval, if_pos ⟨hg, by rw [hlen]; exact ha.2.2.1 v hg⟩]
      | step t vs' c' ht hfin hp' => simp at hl
    cases hrounds : bellman_ford_rounds a reach_to (fuel + 1) costs 0 a.num_states
        (bellman_ford_reset a d) false with
    | none => rw [hrounds] at h; simp at h
    | some res =>
      obtain ⟨r1, f⟩ := res
      rw [hrounds] at h
      simp only at h
      have hr1 := bellman_ford_rounds_region ha hc (fuel + 1) a.num_states 0
        (bellman_ford_reset a d) false r1 f (by omega) hr0 hk0 hrounds
      by_cases hf : f = true
      · rw [if_pos hf] at h
        apply ih r1 r hr1.len _ h
        intro v hG hv
        have := region_entry_nonneg hc hr1 hG hv
        unfold INF; omega
      · rw [if_neg hf] at h
        rw [← Option.some.inj h]
        exact hr1

/-- Whatever the Bellman-Ford engine returns is, at every state of a region with a
potential, `INF` or the cost of a walk to a goal. -/
theorem bellman_ford_region (ha : a.WellFormed) (hc : RegionCertificate a costs G φ)
    {fuel : Nat} {r : List Int}
    (h : a.compute_goal_distances_for_negative_costs_ocf fuel costs = some r) :
    RegionRealized a costs G r := by
  unfold ExplicitAbstraction.compute_goal_distances_for_negative_costs_ocf at h
  apply bellman_ford_restart_region ha hc fuel _ r (List.length_replicate _ _) _ h
  intro v _ hv
  rw [vget_replicate, if_pos hv]
  unfold INF; omega

end bellman_ford_region
/-! ## What saturated costs keep of the goal distances -/

section saturator_core
variable {a : ExplicitAbstraction}

/-- A walk under one cost function is a walk under every cost function that is `INF` only
where the first is, and costs at most as much under a cost function that dominates. -/
theorem pathTo_change_costs {s ocf : List Int}
    (hinf : ∀ op, vget ocf op = INF → vget s op = INF)
    (hle : ∀ op, vget s op ≤ vget ocf op) {l : List Nat} {c : Int}
    (h : PathTo a s l c) : ∃ c', c ≤ c' ∧ PathTo a ocf l c' := by
  induction h with
  | goal g hg => exact ⟨0, le_refl _, PathTo.goal g hg⟩
  | step t vs c ht hfin _ ih =>
    obtain ⟨c', h1, h2⟩ := ih
    refine ⟨c' + vget ocf t.op_id, ?_, PathTo.step t vs c' ht (fun e => hfin (hinf _ e)) h2⟩
    have := hle t.op_id
    omega

theorem pathTo_cost_nonneg {ocf : List Int} (hcost : NonnegativeCosts ocf) {l : List Nat}
    {c : Int} (h : PathTo a ocf l c) : 0 ≤ c := by
  induction h with
  | goal g hg => exact le_refl _
  | step t vs c _ _ _ ih =>
    have := (vget_nonneg_of_costs hcost t.op_id).1
    omega

/-- With path sums that do not overflow, a state that reaches a goal has a finite goal
distance. -/
theorem goalDistances_finite {ocf : List Int}
    (hcost : NonnegativeCosts ocf) (hno : NoOverflow a ocf) {h : List Int}
    (hgd : GoalDistances a ocf h) {v : Nat} {vs : List Nat} {c : Int}
    (hp : PathTo a ocf (v :: vs) c) : vget h v ≠ INF := by
  obtain ⟨rest, c', _, hp', hnd⟩ :=
    pathTo_simple (fun _ => True) (fun _ => 0)
      (fun t' _ _ _ _ => ⟨trivial, by
        have := (vget_nonneg_of_costs hcost t'.op_id).1
        simp only [sub_zero]
        exact this⟩) hp v vs rfl trivial
  have h1 := hno v rest c' hp' hnd
  have h2 := feasible_le_path hcost hgd.bounds (fun g hg => le_of_eq (hgd.goals g hg))
    hgd.feasible hp' v rest rfl
  omega

/-- A vector that admits no relaxation under dominated costs lies below the cost of every
walk under the dominating nonnegative costs. -/
theorem feasible_le_dominating_path {s ocf : List Int} (hcost : NonnegativeCosts ocf)
    (hle : ∀ op, vget s op ≤ vget ocf op) {r : List Int} (hf : Feasible a s r)
    (hga : GoalAware a r) {l : List Nat} {c : Int} (h : PathTo a ocf l c) :
    ∀ v rest, l = v :: rest → c < INF → vget r v ≤ c := by
  induction h with
  | goal g hg =>
    intro v rest hl _
    rw [← (List.cons.inj hl).1]
    exact hga g hg
  | step t vs c ht hfin hp ih =>
    intro v rest hl hc
    rw [← (List.cons.inj hl).1]
    have hcost' := vget_nonneg_of_costs hcost t.op_id
    have h0 := pathTo_cost_nonneg hcost hp
    have h1 := ih t.target_id vs rfl (by omega)
    have h2 := hf t ht
    have h3 := hle t.op_id
    unfold path_addition at h2
    split_ifs at h2 with e1 e2
    · rcases e1 with e1 | e1
      · omega
      · omega
    · unfold INF at h2; omega
    · omega

/-- The saturated costs of capped and pruned goal distances are dominated by the cost
function. -/
theorem saturated_costs_dominated (ha : a.WellFormed) {ocf : List Int}
    (hcost : NonnegativeCosts ocf) (hocf : ocf.length = a.num_operators)
    {h : List Int} (hgd : GoalDistances a ocf h) {state_id : Nat} (capb : Bool)
    {h' : List Int}
    (hh2 : ∀ v, v < a.num_states → IsFinite (vget h' v) →
      vget h v ≠ INF ∧
        vget h' v = if capb then min (vget h v) (vget h state_id) else vget h v) :
    ∀ op, vget (a.compute_saturated_costs_ocf h') op ≤ vget ocf op := by
  obtain ⟨c1, c2, c3, c4⟩ := compute_saturated_costs_ocf_spec a ha h'
  have hb := hgd.bounds
  have hcapval : ∀ v, vget h v ≠ INF →
      0 ≤ (if capb then min (vget h v) (vget h state_id) else vget h v) ∧
      (if capb then min (vget h v) (vget h state_id) else vget h v) ≤ vget h v := by
    intro v _
    have h1 := hb v
    have h2 := hb state_id
    split_ifs
    · exact ⟨le_min h1.1 h2.1, min_le_left _ _⟩
    · exact ⟨h1.1, le_refl _⟩
  intro op
  have hco := vget_nonneg_of_costs hcost op
  by_cases hop : op < a.num_operators
  · rcases c4 op hop with ⟨_, e⟩ | ⟨_, e⟩ | ⟨t, ht, e1, e2, e3, e4⟩
    · rw [e]; unfold INF; omega
    · rw [e]; exact hco.1
    · rw [e4]
      obtain ⟨hts, htt, _⟩ := transition_bounds ha ht
      obtain ⟨f1, f2⟩ := hh2 t.target_id htt e2
      obtain ⟨g1, g2⟩ := hh2 t.source_id hts e3
      rw [f2, g2]
      have hf := hgd.feasible t ht
      rw [e1] at hf
      rw [path_addition_nonneg (hb t.target_id).1 hco.1] at hf
      have hbs := hb t.source_id
      have hbt := hb t.target_id
      have hbi := hb state_id
      by_cases hoi : vget ocf op = INF
      · have k1 := hcapval t.source_id g1
        have k2 := hcapval t.target_id f1
        omega
      · rw [if_neg (by push_neg; exact ⟨f1, hoi⟩)] at hf
        cases capb
        · simp only [Bool.false_eq_true, if_false]
          omega
        · simp only [if_true]
          rcases min_cases (vget h t.source_id) (vget h state_id) with ⟨m1, _⟩ | ⟨m1, _⟩ <;>
          rcases min_cases (vget h t.target_id) (vget h state_id) with ⟨m2, _⟩ | ⟨m2, _⟩ <;>
          rw [m1, m2] <;> omega
  · rw [vget_of_length_le (by omega), vget_of_length_le (by omega)]

/-- The core of the cap saturator: the final saturated cost function is dominated by the
cost function, is `INF` where it is, and carries the vector of capped and pruned goal
distances as a potential on the region of the states that were not pruned. -/
theorem saturated_costs_certificate (ha : a.WellFormed) {ocf : List Int}
    (hcost : NonnegativeCosts ocf) (hocf : ocf.length = a.num_operators)
    (hno : NoOverflow a ocf) {h : List Int} (hgd : GoalDistances a ocf h)
    {state_id : Nat} (capb : Bool) {G : Nat → Prop}
    (hGclosed : ∀ t ∈ a.for_each_transition, vget ocf t.op_id ≠ INF → G t.source_id →
      G t.target_id)
    {h' : List Int}
    (hh1 : ∀ v, G v → v < a.num_states → vget h v ≠ INF →
      vget h' v = if capb then min (vget h v) (vget h state_id) else vget h v)
    (hh2 : ∀ v, v < a.num_states → IsFinite (vget h' v) →
      vget h v ≠ INF ∧
        vget h' v = if capb then min (vget h v) (vget h state_id) else vget h v)
    {socf1 sfin : List Int} (hs1 : socf1.length = a.num_operators)
    (hs1v : ∀ op, vget socf1 op = vget (a.compute_saturated_costs_ocf h') op ∨
      vget socf1 op = max 0 (vget (a.compute_saturated_costs_ocf h') op))
    (hsfin : ∀ op, vget sfin op
      = if op < a.num_operators ∧ vget ocf op = INF then INF else vget socf1 op) :
    (∀ op, vget sfin op ≤ vget ocf op) ∧
    (∀ op, vget ocf op = INF → vget sfin op = INF) ∧
    RegionCertificate a sfin G (vget h') := by
  obtain ⟨c1, c2, c3, c4⟩ := compute_saturated_costs_ocf_spec a ha h'
  have hb := hgd.bounds
  have hcapval : ∀ v, vget h v ≠ INF →
      0 ≤ (if capb then min (vget h v) (vget h state_id) else vget h v) ∧
      (if capb then min (vget h v) (vget h state_id) else vget h v) ≤ vget h v := by
    intro v _
    have h1 := hb v
    have h2 := hb state_id
    split_ifs
    · exact ⟨le_min h1.1 h2.1, min_le_left _ _⟩
    · exact ⟨h1.1, le_refl _⟩
  have hinf_op : ∀ op, vget ocf op = INF → op < a.num_operators := by
    intro op e
    by_contra hc
    rw [vget_of_length_le (by omega)] at e
    unfold INF at e; omega
  have hcss := saturated_costs_dominated ha hcost hocf hgd capb hh2
  have hdom1 : ∀ op, vget socf1 op ≤ vget ocf op := by
    intro op
    have hco := vget_nonneg_of_costs hcost op
    rcases hs1v op with e | e
    · rw [e]; exact hcss op
    · rw [e]; exact max_le hco.1 (hcss op)
  have hdom : ∀ op, vget sfin op ≤ vget ocf op := by
    intro op
    rw [hsfin]
    split_ifs with hc
    · rw [hc.2]
    · exact hdom1 op
  have hinf : ∀ op, vget ocf op = INF → vget sfin op = INF := by
    intro op e
    rw [hsfin, if_pos ⟨hinf_op op e, e⟩]
  have hwalk : ∀ {l : List Nat} {c : Int}, PathTo a sfin l c →
      ∃ c', c ≤ c' ∧ PathTo a ocf l c' := fun hp => pathTo_change_costs hinf hdom hp
  refine ⟨hdom, hinf, ⟨?_, ?_, ?_, ?_, ?_⟩⟩
  · intro t ht hfin hG
    exact hGclosed t ht (fun e => hfin (hinf _ e)) hG
  · intro t ht hfin hG ⟨vs, c, hp⟩
    have hofin : vget ocf t.op_id ≠ INF := fun e => hfin (hinf _ e)
    obtain ⟨hts, htt, hto⟩ := transition_bounds ha ht
    obtain ⟨c', _, hp'⟩ := hwalk hp
    have f1 := goalDistances_finite hcost hno hgd hp'
    have g1 := goalDistances_finite hcost hno hgd (PathTo.step t vs c' ht hofin hp')
    have hG' := hGclosed t ht hofin hG
    have f2 := hh1 t.target_id hG' htt f1
    have g2 := hh1 t.source_id hG hts g1
    have k1 := hcapval t.source_id g1
    have k2 := hcapval t.target_id f1
    have hbs := hb t.source_id
    have hbt := hb t.target_id
    have hlow := c2 t ht
      (by rw [f2]; unfold IsFinite INF; constructor <;> unfold INF at hbt f1 <;> omega)
      (by rw [g2]; unfold IsFinite INF; constructor <;> unfold INF at hbs g1 <;> omega)
    have hge : vget (a.compute_saturated_costs_ocf h') t.op_id ≤ vget sfin t.op_id := by
      rw [hsfin, if_neg (fun hc => hofin hc.2)]
      rcases hs1v t.op_id with e | e
      · rw [e]
      · rw [e]; exact le_max_right _ _
    rw [f2, g2] at hlow
    constructor
    · rw [f2, g2]; omega
    · unfold INF at hbt f1 ⊢; omega
  · intro g hg hG
    have hgl := ha.2.2.1 g hg
    have e := hgd.goals g hg
    rw [hh1 g hG hgl (by rw [e]; unfold INF; omega), e]
    have := (hb state_id).1
    split_ifs
    · exact min_le_left _ _
    · exact le_refl _
  · intro v hG ⟨vs, c, hp⟩
    obtain ⟨c', _, hp'⟩ := hwalk hp
    have f1 := goalDistances_finite hcost hno hgd hp'
    have hv := pathTo_bounds ha hp' v (List.mem_cons_self v vs)
    rw [hh1 v hG hv f1]
    exact (hcapval v f1).1
  · intro v vs c _ hp hnd
    obtain ⟨c', hle, hp'⟩ := hwalk hp
    have := hno v vs c' hp' hnd
    omega

/-- Under the final saturated cost function the goal distance of the query state is what
it was: any vector that admits no relaxation, is goal aware and holds at the query state
`INF` or the cost of a walk, holds there the old goal distance. -/
theorem saturated_costs_preserve {ocf : List Int}
    (hcost : NonnegativeCosts ocf) (hno : NoOverflow a ocf) {h : List Int}
    (hgd : GoalDistances a ocf h) {state_id : Nat} (hsid : state_id < a.num_states)
    {G : Nat → Prop} (hGsid : G state_id) {h' sfin : List Int}
    (hdom : ∀ op, vget sfin op ≤ vget ocf op)
    (hinf : ∀ op, vget ocf op = INF → vget sfin op = INF)
    (hcert : RegionCertificate a sfin G (vget h'))
    (hpot : vget h state_id ≠ INF → vget h' state_id = vget h state_id)
    {r : List Int} (hf : Feasible a sfin r) (hga : GoalAware a r)
    (hreal : vget r state_id = INF ∨ ∃ vs, PathTo a sfin (state_id :: vs) (vget r state_id)) :
    vget r state_id = vget h state_id := by
  by_cases hfin : vget h state_id = INF
  · rcases hreal with e | ⟨vs, hp⟩
    · rw [e, hfin]
    · obtain ⟨c', _, hp'⟩ := pathTo_change_costs hinf hdom hp
      exact absurd hfin (goalDistances_finite hcost hno hgd hp')
  · obtain ⟨vs, hp⟩ := hgd.real state_id hsid hfin
    have hlt : vget h state_id < INF := by
      have := (hgd.bounds state_id).2
      omega
    have hup := feasible_le_dominating_path hcost hdom hf hga hp state_id vs rfl hlt
    rcases hreal with e | ⟨vs', hp'⟩
    · omega
    · have hlow := potential_le_path hcert hp' state_id vs' rfl hGsid
      rw [hpot hfin] at hlow
      omega

end saturator_core
/-! ## The steps of `saturate_ocf` -/

section saturate_ocf_steps
variable {a : ExplicitAbstraction}

theorem compute_goal_distances_ocf_nonneg {costs : List Int} (hcost : NonnegativeCosts costs)
    (fuel : Nat) :
    a.compute_goal_distances_ocf fuel costs
      = a.compute_goal_distances_for_non_negative_costs_ocf fuel costs := by
  unfold ExplicitAbstraction.compute_goal_distances_ocf
  rw [if_pos]
  rw [List.all_eq_true]
  intro c hc
  exact decide_eq_true (hcost c hc).1

/-- Whatever `compute_goal_distances_ocf` returns under costs with a region certificate
admits no relaxation, is goal aware, and holds at every state of the region `INF` or the
cost of a walk to a goal. -/
theorem compute_goal_distances_ocf_region (ha : a.WellFormed) {costs : List Int}
    {G : Nat → Prop} {φ : Nat → Int} (hc : RegionCertificate a costs G φ)
    (hup : ∀ c ∈ costs, c ≤ INF) {fuel : Nat} {r : List Int}
    (h : a.compute_goal_distances_ocf fuel costs = some r) :
    Feasible a costs r ∧ GoalAware a r ∧ r.length = a.num_states ∧
    ∀ v, G v → v < a.num_states →
      vget r v = INF ∨ ∃ vs, PathTo a costs (v :: vs) (vget r v) := by
  unfold ExplicitAbstraction.compute_goal_distances_ocf at h
  by_cases hall : costs.all (fun c => decide (c ≥ 0)) = true
  · rw [if_pos hall] at h
    have hcost : NonnegativeCosts costs := by
      intro c hcm
      rw [List.all_eq_true] at hall
      exact ⟨of_decide_eq_true (hall c hcm), hup c hcm⟩
    have hgd := (dijkstra_goal_distances ha hcost).1 fuel r h
    refine ⟨hgd.feasible, fun g hg => le_of_eq (hgd.goals g hg), hgd.len, ?_⟩
    intro v _ hv
    by_cases e : vget r v = INF
    · exact Or.inl e
    · exact Or.inr (hgd.real v hv e)
  · rw [if_neg hall] at h
    obtain ⟨h1, h2, h3⟩ := bellman_ford_result h
    have h4 := bellman_ford_region ha hc h
    exact ⟨h1, h2, h3, fun v hG hv => h4.real v hG hv⟩

theorem vget_compute_reachability_cost_function (costs : List Int) (op : Nat) :
    vget (compute_reachability_cost_function costs) op
      = if op < costs.length then
          (if vget costs op = -INF ∨ vget costs op = INF then INF else 1)
        else 0 := by
  unfold compute_reachability_cost_function
  rw [vget_map]

/-- The parts of a run of `saturate_ocf` that returns. -/
theorem saturate_ocf_some {s : SaturatorCap} {fuel : Nat} {operator_costs ocf h : List Int}
    {state_id : Nat} {res : SaturatorResultOcf}
    (hres : s.saturate_ocf a fuel operator_costs ocf h state_id = some res) :
    ∃ h1 h2 socf1,
      h1 = (if s.cap then cap_h_values (vget h state_id) h else h) ∧
      ((s.reachable = Reachable.ALL ∧ h2 = h1) ∨
        ∃ reachability,
          ((s.reachable = Reachable.FROM_STATE ∧
              a.compute_reachability_from_state_ocf fuel
                (compute_reachability_cost_function ocf) state_id = some reachability) ∨
            (s.reachable = Reachable.FROM_INIT ∧
              a.get_reachability_from_init fuel operator_costs = some reachability)) ∧
          h2 = prune_unreachable a.num_states reachability h1) ∧
      ((s.use_general_costs = true ∧ socf1 = a.compute_saturated_costs_ocf h2) ∨
        (s.use_general_costs = false ∧
          clamp_saturated_costs ocf (a.compute_saturated_costs_ocf h2) = some socf1)) ∧
      s.get_saturator_result_ocf a fuel ocf socf1 h2 s.saturate_negative_infinity
        = some res := by
  unfold SaturatorCap.saturate_ocf at hres
  simp only [Option.bind_eq_some] at hres
  obtain ⟨h1, e1, h2, e2, socf1, e3, e4⟩ := hres
  refine ⟨h1, h2, socf1, ?_, ?_, ?_, e4⟩
  · split_ifs at e1 with c1 c2
    · rw [if_pos c1]; exact (Option.some.inj e1).symm
    · rw [if_neg c1]; exact (Option.some.inj e1).symm
  · cases hreach : s.reachable with
    | ALL =>
      rw [hreach] at e2
      exact Or.inl ⟨rfl, (Option.some.inj e2).symm⟩
    | FROM_INIT =>
      rw [hreach] at e2
      simp only [Option.map_eq_some'] at e2
      obtain ⟨R, hR, e⟩ := e2
      exact Or.inr ⟨R, Or.inr ⟨rfl, hR⟩, e.symm⟩
    | FROM_STATE =>
      rw [hreach] at e2
      simp only [Option.map_eq_some'] at e2
      obtain ⟨R, hR, e⟩ := e2
      exact Or.inr ⟨R, Or.inl ⟨rfl, hR⟩, e.symm⟩
  · by_cases hg : s.use_general_costs = true
    · rw [if_pos hg] at e3
      exact Or.inl ⟨hg, (Option.some.inj e3).symm⟩
    · rw [if_neg hg] at e3
      split_ifs at e3
      exact Or.inr ⟨by simpa using hg, e3⟩

/-- The parts of a run of `get_saturator_result_ocf` that returns. -/
theorem get_saturator_result_ocf_some {s : SaturatorCap} {fuel : Nat}
    {ocf socf h : List Int} {flag : Bool} {res : SaturatorResultOcf}
    (hres : s.get_saturator_result_ocf a fuel ocf socf h flag = some res) :
    res.socf = (List.range ocf.length).foldl
      (fun socf op_id => if vget ocf op_id = INF then socf.set op_id INF else socf) socf ∧
    (s.recompute_h_values = false → res.h_values = h) ∧
    (s.recompute_h_values = true →
      ∃ new_h, a.compute_goal_distances_ocf fuel res.socf = some new_h ∧
        res.h_values = if s.reachable ≠ Reachable.ALL then
            (List.range a.num_states).foldl
              (fun new_h_values source_id =>
                if vget h source_id = -INF then new_h_values.set source_id (-INF)
                else new_h_values)
              new_h
          else new_h) := by
  unfold SaturatorCap.get_saturator_result_ocf at hres
  simp only at hres
  by_cases hr : s.recompute_h_values = true
  · rw [if_pos hr] at hres
    cases hgd : a.compute_goal_distances_ocf fuel
        ((List.range ocf.length).foldl
          (fun socf op_id => if vget ocf op_id = INF then socf.set op_id INF else socf)
          socf) with
    | none => rw [hgd] at hres; simp at hres
    | some new_h =>
      rw [hgd] at hres
      simp only [Option.some.injEq] at hres
      rw [← hres]
      exact ⟨rfl, fun hc => by rw [hr] at hc; exact absurd hc (by decide),
        fun _ => ⟨new_h, hgd, rfl⟩⟩
  · rw [if_neg hr] at hres
    simp only [Option.some.injEq] at hres
    rw [← hres]
    exact ⟨rfl, fun _ => rfl, fun hc => absurd hc hr⟩

end saturate_ocf_steps
/-! ## The cap saturator in operator form on goal distances of nonnegative costs -/

section saturate_ocf_sound
variable {a : ExplicitAbstraction}

theorem mem_iff_vget {l : List Int} {c : Int} (h : c ∈ l) : ∃ i, i < l.length ∧ vget l i = c := by
  obtain ⟨i, hi, e⟩ := List.mem_iff_getElem.1 h
  exact ⟨i, hi, by rw [vget_eq_getElem hi, e]⟩

theorem reachability_cost_function_nonneg (ocf : List Int) :
    NonnegativeCosts (compute_reachability_cost_function ocf) ∧
    ∀ op, vget (compute_reachability_cost_function ocf) op ≠ INF →
      vget (compute_reachability_cost_function ocf) op ≤ 1 := by
  constructor
  · intro c hc
    unfold compute_reachability_cost_function at hc
    obtain ⟨x, _, e⟩ := List.mem_map.1 hc
    rw [← e]
    unfold INF
    split_ifs <;> omega
  · intro op _
    rw [vget_compute_reachability_cost_function]
    split_ifs with h1 h2
    · rename_i hne
      rw [vget_compute_reachability_cost_function, if_pos h1, if_pos h2] at hne
      exact absurd rfl hne
    · exact le_refl _
    · omega

/-- The cap saturator in operator form, run on the goal distances `h` of a nonnegative
cost function whose path sums do not overflow: the saturated costs are dominated by the
costs, every recomputation of the goal distances under them that returns holds at the
query state the old value, and so does the vector of heuristic values the saturator
returns. -/
theorem saturate_ocf_sound (ha : a.WellFormed) (hn : (a.num_states : Int) < INF)
    {ocf : List Int} (hcost : NonnegativeCosts ocf) (hocf : ocf.length = a.num_operators)
    (hno : NoOverflow a ocf) {h : List Int} (hgd : GoalDistances a ocf h)
    {state_id : Nat} (hsid : state_id < a.num_states)
    {s : SaturatorCap} {fuel : Nat} {operator_costs : List Int}
    (hinit : s.reachable = Reachable.FROM_INIT →
      ∀ R, a.get_reachability_from_init fuel operator_costs = some R →
        bget R state_id = true ∧
        ∀ t ∈ a.for_each_transition, vget ocf t.op_id ≠ INF →
          bget R t.source_id = true → bget R t.target_id = true)
    {res : SaturatorResultOcf}
    (hres : s.saturate_ocf a fuel operator_costs ocf h state_id = some res) :
    (∀ op, vget res.socf op ≤ vget ocf op) ∧
    (∀ fuel' r, a.compute_goal_distances_ocf fuel' res.socf = some r →
      vget r state_id = vget h state_id) ∧
    vget res.h_values state_id = vget h state_id := by
  obtain ⟨h1, h2, socf1, e1, e2, e3, e4⟩ := saturate_ocf_some hres
  obtain ⟨r1, r2, r3⟩ := get_saturator_result_ocf_some e4
  have hb := hgd.bounds
  have hlen := hgd.len
  have hlen1 : h1.length = a.num_states := by
    rw [e1]
    split_ifs
    · rw [length_cap_h_values, hlen]
    · exact hlen
  have hcapped : ∀ v, v < a.num_states → vget h1 v
      = if vget h v ≠ INF then
          (if s.cap then min (vget h v) (vget h state_id) else vget h v)
        else INF := by
    intro v hv
    rw [e1]
    by_cases hc : s.cap = true
    · rw [if_pos hc, vget_cap_h_values, if_pos (by rw [hlen]; exact hv), if_pos hc]
      split_ifs with hf
      · rfl
      · push_neg at hf; exact hf
    · rw [if_neg hc, if_neg hc]
      split_ifs with hf
      · rfl
      · push_neg at hf; exact hf
  have hcapfin : ∀ v, v < a.num_states → IsFinite (vget h1 v) → vget h v ≠ INF := by
    intro v hv hf e
    rw [hcapped v hv, if_neg (by push_neg; exact e)] at hf
    exact hf.1 rfl
  -- the region of the states that are not pruned
  obtain ⟨G, hGsid, hGclosed, hh1, hh2, hkeep⟩ : ∃ G : Nat → Prop, G state_id ∧
      (∀ t ∈ a.for_each_transition, vget ocf t.op_id ≠ INF → G t.source_id →
        G t.target_id) ∧
      (∀ v, G v → v < a.num_states → vget h v ≠ INF →
        vget h2 v = if s.cap then min (vget h v) (vget h state_id) else vget h v) ∧
      (∀ v, v < a.num_states → IsFinite (vget h2 v) →
        vget h v ≠ INF ∧
          vget h2 v = if s.cap then min (vget h v) (vget h state_id) else vget h v) ∧
      (∀ v, G v → vget h2 v = vget h1 v) := by
    rcases e2 with ⟨_, e2⟩ | ⟨R, hR, e2⟩
    · refine ⟨fun _ => True, trivial, fun _ _ _ _ => trivial, ?_, ?_, ?_⟩
      · intro v _ hv hf
        rw [e2, hcapped v hv, if_pos hf]
      · intro v hv hf
        rw [e2] at hf ⊢
        have hfin := hcapfin v hv hf
        exact ⟨hfin, by rw [hcapped v hv, if_pos hfin]⟩
      · intro v _; rw [e2]
    · have hRfacts : bget R state_id = true ∧
          ∀ t ∈ a.for_each_transition, vget ocf t.op_id ≠ INF →
            bget R t.source_id = true → bget R t.target_id = true := by
        rcases hR with ⟨_, hR⟩ | ⟨hmode, hR⟩
        · obtain ⟨rc1, rc2⟩ := reachability_cost_function_nonneg ocf
          obtain ⟨_, q1, q2⟩ :=
            (compute_reachability_from_state_ocf_spec ha hn rc1 rc2 hsid).2 fuel R hR
          refine ⟨q1, ?_⟩
          intro t ht hfin
          apply q2 t ht
          rw [vget_compute_reachability_cost_function]
          have hco := (vget_nonneg_of_costs hcost t.op_id).1
          unfold INF at hfin hco ⊢
          split_ifs with c1 c2
          · rcases c2 with c2 | c2 <;> omega
          · omega
          · omega
        · exact hinit hmode R hR
      obtain ⟨_, p2⟩ := prune_unreachable_spec a.num_states R h1
      have hunpruned : ∀ v, bget R v = true → vget h2 v = vget h1 v := by
        intro v hv
        rw [e2, p2, if_neg]
        intro hc
        rw [hv] at hc
        exact absurd hc.2.2.1 (by decide)
      refine ⟨fun v => bget R v = true, hRfacts.1, hRfacts.2, ?_, ?_, hunpruned⟩
      · intro v hG hv hf
        rw [hunpruned v hG, hcapped v hv, if_pos hf]
      · intro v hv hf
        have hnp : vget h2 v = vget h1 v := by
          rw [e2, p2]
          rw [e2, p2] at hf
          split_ifs at hf ⊢ with hc
          · exact absurd rfl hf.2
          · rfl
        rw [hnp] at hf ⊢
        have hfin := hcapfin v hv hf
        exact ⟨hfin, by rw [hcapped v hv, if_pos hfin]⟩
  -- the saturated costs before the copy of `INF`
  obtain ⟨c1, _, _, _⟩ := compute_saturated_costs_ocf_spec a ha h2
  have hs1 : socf1.length = a.num_operators ∧
      ∀ op, vget socf1 op = vget (a.compute_saturated_costs_ocf h2) op ∨
        vget socf1 op = max 0 (vget (a.compute_saturated_costs_ocf h2) op) := by
    rcases e3 with ⟨_, e3⟩ | ⟨_, e3⟩
    · rw [e3]
      exact ⟨c1, fun op => Or.inl rfl⟩
    · obtain ⟨k1, _, k3⟩ := (clamp_saturated_costs_spec ocf _).2 socf1 e3
      refine ⟨by rw [k1, c1], ?_⟩
      intro op
      rw [k3]
      split_ifs with hop
      · exact Or.inr rfl
      · left
        rw [vget_of_length_le (by omega)]
  have hsfin : ∀ op, vget res.socf op
      = if op < a.num_operators ∧ vget ocf op = INF then INF else vget socf1 op := by
    intro op
    rw [r1, (copy_inf_spec ocf socf1).2 op, hocf, hs1.1]
    by_cases hc : op < a.num_operators ∧ vget ocf op = INF
    · rw [if_pos hc, if_pos ⟨hc.1, hc.1, hc.2⟩]
    · rw [if_neg hc, if_neg (fun hd => hc ⟨hd.1, hd.2.2⟩)]
  obtain ⟨hdom, hinf, hcert⟩ := saturated_costs_certificate ha hcost hocf hno hgd s.cap
    hGclosed hh1 hh2 hs1.1 hs1.2 hsfin
  have hsame : vget h2 state_id = vget h state_id := by
    rw [hkeep state_id hGsid, hcapped state_id hsid]
    split_ifs with hf hc
    · exact min_self _
    · rfl
    · push_neg at hf; exact hf.symm
  have hrecompute : ∀ fuel' r, a.compute_goal_distances_ocf fuel' res.socf = some r →
      vget r state_id = vget h state_id := by
    intro fuel' r hr
    have hup : ∀ c ∈ res.socf, c ≤ INF := by
      intro c hc
      obtain ⟨i, _, e⟩ := mem_iff_vget hc
      rw [← e]
      exact le_trans (hdom i) (vget_nonneg_of_costs hcost i).2
    obtain ⟨f1, f2, _, f4⟩ := compute_goal_distances_ocf_region ha hcert hup hr
    exact saturated_costs_preserve hcost hno hgd hsid hGsid hdom hinf hcert
      (fun _ => hsame) f1 f2 (f4 state_id hGsid hsid)
  refine ⟨hdom, hrecompute, ?_⟩
  by_cases hrec : s.recompute_h_values = true
  · obtain ⟨new_h, n1, n2⟩ := r3 hrec
    rw [n2]
    have hnew := hrecompute fuel new_h n1
    split_ifs
    · rw [(keep_neg_inf_spec a.num_states h2 new_h).2, if_neg, hnew]
      intro hc
      rw [hsame] at hc
      have := (hb state_id).1
      unfold INF at hc
      omega
    · exact hnew
  · rw [r2 (by simpa using hrec)]
    exact hsame

end saturate_ocf_sound
/-! ## When the cap saturator in operator form returns -/

section saturate_ocf_returns
variable {a : ExplicitAbstraction}

/-- The reachability methods return when the fuel suffices. -/
theorem compute_reachability_from_state_ocf_returns (ha : a.WellFormed)
    {costs : List Int} (hcost : NonnegativeCosts costs) {state_id : Nat}
    (hs : state_id < a.num_states) {fuel : Nat}
    (hfuel : 1 + a.num_states * INF.toNat < fuel) :
    ∃ r, a.compute_reachability_from_state_ocf fuel costs state_id = some r := by
  obtain ⟨_, hd2⟩ := dijkstra_goal_distances (reversed_wellFormed ha hs) hcost
  obtain ⟨d, hd⟩ := hd2 fuel hfuel
  rw [compute_reachability_from_state_ocf_eq, hd]
  exact ⟨_, rfl⟩

/-- A finite entry of the capped and pruned vector is the capped goal distance of a state
of finite goal distance. -/
theorem capped_pruned_finite {ocf h : List Int} (hgd : GoalDistances a ocf h)
    {state_id : Nat} (capb : Bool) {h1 h2 : List Int}
    (e1 : h1 = if capb then cap_h_values (vget h state_id) h else h)
    (e2 : h2 = h1 ∨ ∃ R, h2 = prune_unreachable a.num_states R h1) :
    ∀ v, v < a.num_states → IsFinite (vget h2 v) →
      vget h v ≠ INF ∧
        vget h2 v = if capb then min (vget h v) (vget h state_id) else vget h v := by
  have hlen := hgd.len
  have hcapped : ∀ v, v < a.num_states → vget h1 v
      = if vget h v ≠ INF then
          (if capb then min (vget h v) (vget h state_id) else vget h v)
        else INF := by
    intro v hv
    rw [e1]
    by_cases hc : capb = true
    · rw [if_pos hc, vget_cap_h_values, if_pos (by rw [hlen]; exact hv), if_pos hc]
      split_ifs with hf
      · rfl
      · push_neg at hf; exact hf
    · rw [if_neg hc, if_neg hc]
      split_ifs with hf
      · rfl
      · push_neg at hf; exact hf
  intro v hv hf
  have hnp : vget h2 v = vget h1 v := by
    rcases e2 with e2 | ⟨R, e2⟩
    · rw [e2]
    · rw [e2, (prune_unreachable_spec a.num_states R h1).2]
      rw [e2, (prune_unreachable_spec a.num_states R h1).2] at hf
      split_ifs at hf ⊢ with hc
      · exact absurd rfl hf.2
      · rfl
  rw [hnp] at hf ⊢
  have hfin : vget h v ≠ INF := by
    intro e
    rw [hcapped v hv, if_neg (by push_neg; exact e)] at hf
    exact hf.1 rfl
  exact ⟨hfin, by rw [hcapped v hv, if_pos hfin]⟩

/-- Under the nonnegative saturator the saturated costs are nonnegative. -/
theorem saturate_ocf_nonneg {ocf : List Int} (hcost : NonnegativeCosts ocf)
    {s : SaturatorCap} (hg : s.use_general_costs = false) {fuel : Nat}
    {operator_costs h : List Int} {state_id : Nat} {res : SaturatorResultOcf}
    (hres : s.saturate_ocf a fuel operator_costs ocf h state_id = some res) :
    NonnegativeCosts res.socf := by
  obtain ⟨h1, h2, socf1, _, _, e3, e4⟩ := saturate_ocf_some hres
  obtain ⟨r1, _, _⟩ := get_saturator_result_ocf_some e4
  rcases e3 with ⟨hc, _⟩ | ⟨_, e3⟩
  · rw [hg] at hc; exact absurd hc (by decide)
  · obtain ⟨k1, k2, k3⟩ := (clamp_saturated_costs_spec ocf _).2 socf1 e3
    intro c hc
    obtain ⟨i, hi, e⟩ := mem_iff_vget hc
    rw [← e, r1, (copy_inf_spec ocf socf1).2 i]
    have hco := vget_nonneg_of_costs hcost i
    split_ifs with hinf
    · unfold INF; omega
    · rw [k3]
      split_ifs with hil
      · exact ⟨le_max_left _ _, le_trans (k2 i hil) hco.2⟩
      · exact ⟨le_refl _, by unfold INF; omega⟩

/-- The cap saturator in operator form returns on the goal distances of a nonnegative cost
function when the fuel suffices, unless it both uses general costs and recomputes the
heuristic values. -/
theorem saturate_ocf_returns (ha : a.WellFormed) {ocf : List Int}
    (hcost : NonnegativeCosts ocf) (hocf : ocf.length = a.num_operators)
    {h : List Int} (hgd : GoalDistances a ocf h) {state_id : Nat}
    (hsid : state_id < a.num_states) (s : SaturatorCap) {fuel : Nat}
    (hfuel : 1 + a.goal_states.length + a.num_states * INF.toNat < fuel)
    {operator_costs : List Int}
    (hop : s.reachable = Reachable.FROM_INIT → NonnegativeCosts operator_costs)
    (hmode : s.use_general_costs = false ∨ s.recompute_h_values = false) :
    ∃ res, s.saturate_ocf a fuel operator_costs ocf h state_id = some res := by
  have hall0 : ocf.all (fun c => decide (c ≥ 0)) = true := by
    rw [List.all_eq_true]
    intro c hc
    exact decide_eq_true (hcost c hc).1
  have hall1 : ocf.all (fun c => decide (c ≥ 0 ∨ c = -INF)) = true := by
    rw [List.all_eq_true]
    intro c hc
    exact decide_eq_true (Or.inl (hcost c hc).1)
  -- the stages
  obtain ⟨h2, hprune, hh2⟩ : ∃ h2,
      (match s.reachable with
        | Reachable.FROM_STATE =>
          (a.compute_reachability_from_state_ocf fuel
            (compute_reachability_cost_function ocf) state_id).map
            fun reachability => prune_unreachable a.num_states reachability
              (if s.cap then cap_h_values (vget h state_id) h else h)
        | Reachable.FROM_INIT =>
          (a.get_reachability_from_init fuel operator_costs).map
            fun reachability => prune_unreachable a.num_states reachability
              (if s.cap then cap_h_values (vget h state_id) h else h)
        | Reachable.ALL => some (if s.cap then cap_h_values (vget h state_id) h else h))
        = some h2 ∧
      (h2 = (if s.cap then cap_h_values (vget h state_id) h else h) ∨
        ∃ R, h2 = prune_unreachable a.num_states R
          (if s.cap then cap_h_values (vget h state_id) h else h)) := by
    cases hreach : s.reachable with
    | ALL => exact ⟨_, rfl, Or.inl rfl⟩
    | FROM_INIT =>
      obtain ⟨R, hR⟩ := compute_reachability_from_state_ocf_returns ha (hop hreach)
        ha.2.2.2.1 (by omega : 1 + a.num_states * INF.toNat < fuel)
      refine ⟨prune_unreachable a.num_states R _, ?_, Or.inr ⟨R, rfl⟩⟩
      unfold ExplicitAbstraction.get_reachability_from_init
      rw [hR]
      rfl
    | FROM_STATE =>
      obtain ⟨R, hR⟩ := compute_reachability_from_state_ocf_returns ha
        (reachability_cost_function_nonneg ocf).1 hsid
        (by omega : 1 + a.num_states * INF.toNat < fuel)
      refine ⟨prune_unreachable a.num_states R _, ?_, Or.inr ⟨R, rfl⟩⟩
      rw [hR]
      rfl
  have hfin := capped_pruned_finite hgd s.cap rfl hh2
  have hcss := saturated_costs_dominated ha hcost hocf hgd s.cap hfin
  obtain ⟨socf1, hclamp⟩ : ∃ socf1,
      (if s.use_general_costs then some (a.compute_saturated_costs_ocf h2)
        else if ocf.all (fun c => decide (c ≥ 0)) then
          clamp_saturated_costs ocf (a.compute_saturated_costs_ocf h2)
        else none) = some socf1 := by
    by_cases hg : s.use_general_costs = true
    · exact ⟨_, by rw [if_pos hg]⟩
    · rw [if_neg hg, if_pos hall0]
      apply (clamp_saturated_costs_spec ocf _).1
      intro op _
      exact max_le (vget_nonneg_of_costs hcost op).1 (hcss op)
  obtain ⟨res, hresult⟩ : ∃ res,
      s.get_saturator_result_ocf a fuel ocf socf1 h2 s.saturate_negative_infinity
        = some res := by
    unfold SaturatorCap.get_saturator_result_ocf
    simp only
    by_cases hrec : s.recompute_h_values = true
    · rw [if_pos hrec]
      have hg : s.use_general_costs = false := by
        rcases hmode with hm | hm
        · exact hm
        · rw [hrec] at hm; exact absurd hm (by decide)
      have hnn : NonnegativeCosts ((List.range ocf.length).foldl
          (fun socf op_id => if vget ocf op_id = INF then socf.set op_id INF else socf)
          socf1) := by
        rw [if_neg (by rw [hg]; decide), if_pos hall0] at hclamp
        obtain ⟨k1, k2, k3⟩ := (clamp_saturated_costs_spec ocf _).2 socf1 hclamp
        intro c hc
        obtain ⟨i, hi, e⟩ := mem_iff_vget hc
        rw [← e, (copy_inf_spec ocf socf1).2 i]
        have hco := vget_nonneg_of_costs hcost i
        split_ifs with hinf
        · unfold INF; omega
        · rw [k3]
          split_ifs with hil
          · exact ⟨le_max_left _ _, le_trans (k2 i hil) hco.2⟩
          · exact ⟨le_refl _, by unfold INF; omega⟩
      obtain ⟨r, hr⟩ := (dijkstra_goal_distances ha hnn).2 fuel (by omega)
      rw [compute_goal_distances_ocf_nonneg hnn, hr]
      exact ⟨_, rfl⟩
    · rw [if_neg hrec]
      exact ⟨_, rfl⟩
  refine ⟨res, ?_⟩
  unfold SaturatorCap.saturate_ocf
  simp only [Option.bind_eq_some]
  refine ⟨if s.cap then cap_h_values (vget h state_id) h else h, ?_, h2, hprune, socf1,
    hclamp, hresult⟩
  split_ifs with hc
  · rfl
  · rfl

end saturate_ocf_returns
/-! ## The query state keeps its heuristic value -/

section saturator_keeps

/-- The relaxation loops of the Dijkstra searches only lower entries: an entry below `INF`
stays below `INF`. -/
theorem dijkstra_relax_ocf_keeps (ocf : List Int) (sd : Int) (x : Nat)
    (l : List Successor) :
    ∀ acc : List Int × AdaptiveQueue, vget acc.1 x < INF →
      vget (l.foldl (dijkstra_relax_ocf ocf sd) acc).1 x < INF := by
  induction l with
  | nil => intro acc h; exact h
  | cons t l ih =>
    intro acc h
    rw [List.foldl_cons]
    apply ih
    unfold dijkstra_relax_ocf
    simp only
    split_ifs with h1 h2
    · rw [vget_set]
      split_ifs with h3
      · rw [← h3.1] at h; omega
      · exact h
    · exact h
    · rw [vget_set]
      split_ifs with h3
      · rw [← h3.1] at h; omega
      · exact h
    · exact h

theorem dijkstra_search_ocf_keeps (graph : List (List Successor)) (ocf : List Int)
    (x : Nat) (fuel : Nat) :
    ∀ (q : AdaptiveQueue) (d r : List Int), vget d x < INF →
      dijkstra_search_ocf graph ocf fuel q d = some r → vget r x < INF := by
  induction fuel with
  | zero => intro q d r _ h; simp [dijkstra_search_ocf] at h
  | succ fuel ih =>
    intro q d r hd h
    rw [dijkstra_search_ocf_succ] at h
    cases hpop : AdaptiveQueue.pop q with
    | none =>
      rw [hpop] at h
      simp only [Option.some.injEq] at h
      rw [← h]; exact hd
    | some mq =>
      obtain ⟨⟨k, s⟩, q'⟩ := mq
      rw [hpop] at h
      simp only at h
      split_ifs at h
      · exact ih q' d r hd h
      · exact ih _ _ r (dijkstra_relax_ocf_keeps ocf _ x _ (d, q') hd) h

theorem dijkstra_relax_tcf_keeps (sd_costs : List Int) (sd : Int) (x : Nat)
    (l : List Successor) :
    ∀ acc : List Int × AdaptiveQueue, vget acc.1 x < INF →
      vget (l.foldl (dijkstra_relax_tcf sd_costs sd) acc).1 x < INF := by
  induction l with
  | nil => intro acc h; exact h
  | cons t l ih =>
    intro acc h
    rw [List.foldl_cons]
    apply ih
    unfold dijkstra_relax_tcf
    simp only
    split_ifs with h1 h2
    · rw [vget_set]
      split_ifs with h3
      · rw [← h3.1] at h; omega
      · exact h
    · exact h
    · rw [vget_set]
      split_ifs with h3
      · rw [← h3.1] at h; omega
      · exact h
    · exact h

theorem dijkstra_search_tcf_keeps (graph : List (List Successor)) (sd_costs : List Int)
    (x : Nat) (fuel : Nat) :
    ∀ (q : AdaptiveQueue) (d r : List Int), vget d x < INF →
      dijkstra_search_tcf graph sd_costs fuel q d = some r → vget r x < INF := by
  induction fuel with
  | zero => intro q d r _ h; simp [dijkstra_search_tcf] at h
  | succ fuel ih =>
    intro q d r hd h
    rw [dijkstra_search_tcf] at h
    cases hpop : AdaptiveQueue.pop q with
    | none =>
      rw [hpop] at h
      simp only [Option.some.injEq] at h
      rw [← h]; exact hd
    | some mq =>
      obtain ⟨⟨k, s⟩, q'⟩ := mq
      rw [hpop] at h
      simp only at h
      split_ifs at h
      · exact ih q' d r hd h
      · exact ih _ _ r (dijkstra_relax_tcf_keeps sd_costs _ x _ (d, q') hd) h

theorem vget_start_distances {n x : Nat} (hx : x < n) :
    vget ((List.replicate n INF).set x 0) x < INF := by
  rw [vget_set, if_pos ⟨rfl, by rw [List.length_replicate]; exact hx⟩]
  unfold INF; omega

/-- The state a reachability computation starts from is marked. -/
theorem reachability_from_state_ocf_self (a : ExplicitAbstraction) {fuel : Nat}
    {costs : List Int} {state_id : Nat} (hs : state_id < a.num_states) {R : List Bool}
    (h : a.compute_reachability_from_state_ocf fuel costs state_id = some R) :
    bget R state_id = true := by
  unfold ExplicitAbstraction.compute_reachability_from_state_ocf at h
  simp only [Option.map_eq_some'] at h
  obtain ⟨d, hd, e⟩ := h
  have := dijkstra_search_ocf_keeps _ _ state_id fuel _ _ d (vget_start_distances hs) hd
  rw [← e, bget_distances_to_reachability, decide_eq_true_eq]
  exact ⟨hs, by omega⟩

theorem reachability_from_state_tcf_self (a : ExplicitAbstraction) {fuel : Nat}
    {tcf : AbstractTransitionCostFunction} {state_id : Nat} (hs : state_id < a.num_states)
    {R : List Bool}
    (h : a.compute_reachability_from_state_tcf fuel tcf state_id = some R) :
    bget R state_id = true := by
  unfold ExplicitAbstraction.compute_reachability_from_state_tcf at h
  simp only [Option.map_eq_some'] at h
  obtain ⟨d, hd, e⟩ := h
  have := dijkstra_search_tcf_keeps _ _ state_id fuel _ _ d (vget_start_distances hs) hd
  rw [← e, bget_distances_to_reachability, decide_eq_true_eq]
  exact ⟨hs, by omega⟩

theorem vget_cap_self (h : List Int) {state_id : Nat} (hl : state_id < h.length) :
    vget (cap_h_values (vget h state_id) h) state_id = vget h state_id := by
  rw [vget_cap_h_values, if_pos hl]
  split_ifs
  · exact min_self _
  · rfl

theorem vget_prune_marked (n : Nat) {R : List Bool} (h : List Int) {v : Nat}
    (hv : bget R v = true) : vget (prune_unreachable n R h) v = vget h v := by
  rw [(prune_unreachable_spec n R h).2, if_neg]
  intro hc
  rw [hv] at hc
  exact absurd hc.2.2.1 (by decide)

/-- Without recomputation the cap saturator in operator form returns at the query state
the heuristic value it was given, whatever the cost function and the heuristic values. -/
theorem saturate_ocf_keeps {a : ExplicitAbstraction} {s : SaturatorCap} {fuel : Nat}
    {operator_costs ocf h : List Int} {state_id : Nat} (hsid : state_id < a.num_states)
    (hlen : state_id < h.length)
    (hinit : s.reachable = Reachable.FROM_INIT →
      ∀ R, a.get_reachability_from_init fuel operator_costs = some R →
        bget R state_id = true)
    (hrec : s.recompute_h_values = false) {res : SaturatorResultOcf}
    (hres : s.saturate_ocf a fuel operator_costs ocf h state_id = some res) :
    vget res.h_values state_id = vget h state_id := by
  obtain ⟨h1, h2, socf1, e1, e2, _, e4⟩ := saturate_ocf_some hres
  obtain ⟨_, r2, _⟩ := get_saturator_result_ocf_some e4
  rw [r2 hrec]
  have hcap : vget h1 state_id = vget h state_id := by
    rw [e1]
    split_ifs
    · exact vget_cap_self h hlen
    · rfl
  rcases e2 with ⟨_, e2⟩ | ⟨R, hR, e2⟩
  · rw [e2, hcap]
  · rw [e2, ← hcap]
    apply vget_prune_marked
    rcases hR with ⟨_, hR⟩ | ⟨hmode, hR⟩
    · exact reachability_from_state_ocf_self a hsid hR
    · exact hinit hmode R hR

/-- The cap saturator in transition form returns at the query state the heuristic value it
was given. -/
theorem saturate_tcf_keeps {σ : Type} [DecidableEq σ] {a : ExplicitAbstraction}
    {s : SaturatorCap} {fuel : Nat} {operator_costs : List Int}
    {make_transition_bdd : Transition → Finset σ} {tcf : AbstractTransitionCostFunction}
    {sdac : CostFunctionStateDependent σ} {h : List Int} {state_id : Nat}
    (hsid : state_id < a.num_states) (hlen : state_id < h.length)
    (hinit : s.reachable = Reachable.FROM_INIT →
      ∀ R, a.get_reachability_from_init fuel operator_costs = some R →
        bget R state_id = true)
    {res : SaturatorResultTcf}
    (hres : s.saturate_tcf a fuel operator_costs make_transition_bdd tcf sdac h state_id
      = some res) :
    vget res.h_values state_id = vget h state_id := by
  have hne : h.isEmpty = false := by
    cases h with
    | nil => simp at hlen
    | cons x l => rfl
  unfold SaturatorCap.saturate_tcf at hres
  simp only [hne, Bool.false_eq_true, if_false, Option.some_bind, Bool.not_false,
    Bool.false_and, Option.bind_eq_some] at hres
  obtain ⟨h1, e1, h2, e2, e3⟩ := hres
  have hcap : vget h1 state_id = vget h state_id := by
    split_ifs at e1
    · rw [← Option.some.inj e1]
      exact vget_cap_self h hlen
    · rw [← Option.some.inj e1]
  have hprune : vget h2 state_id = vget h1 state_id := by
    cases hreach : s.reachable with
    | ALL =>
      rw [hreach] at e2
      rw [← Option.some.inj e2]
    | FROM_INIT =>
      rw [hreach] at e2
      simp only [Option.map_eq_some'] at e2
      obtain ⟨R, hR, e⟩ := e2
      rw [← e]
      exact vget_prune_marked _ _ (hinit hreach R hR)
    | FROM_STATE =>
      rw [hreach] at e2
      simp only [Option.map_eq_some'] at e2
      obtain ⟨R, hR, e⟩ := e2
      rw [← e]
      exact vget_prune_marked _ _ (reachability_from_state_tcf_self a hsid hR)
  rw [← Option.some.inj e3]
  simp only
  rw [hprune, hcap]

end saturator_keeps
/-! ## The cap saturator: dominance and the value of the query state -/

section cap_saturator

theorem pathTo_cost_bound {a : ExplicitAbstraction} {costs : List Int} {B : Int}
    (hB : ∀ op, vget costs op ≠ INF → vget costs op ≤ B) {l : List Nat} {c : Int}
    (h : PathTo a costs l c) : c + B ≤ B * l.length := by
  induction h with
  | goal g hg => simp
  | step t vs c ht hfin _ ih =>
    have h1 := hB t.op_id hfin
    have e : B * (((t.source_id :: t.target_id :: vs).length : Nat) : Int)
        = B * (((t.target_id :: vs).length : Nat) : Int) + B := by
      simp only [List.length_cons]
      push_cast
      ring
    rw [e]
    omega

/-- Path sums do not overflow when every finite cost is at most `B` and `B` times the
number of states is below `INF`. -/
theorem noOverflow_of_bound {a : ExplicitAbstraction} (ha : a.WellFormed)
    {costs : List Int} (B : Int) (hB : 0 ≤ B) (hcosts : ∀ c ∈ costs, c = INF ∨ c ≤ B)
    (hprod : B * a.num_states < INF) : NoOverflow a costs := by
  intro v vs c hp hnd
  have hB' : ∀ op, vget costs op ≠ INF → vget costs op ≤ B := by
    intro op hne
    by_cases hop : op < costs.length
    · rcases hcosts _ (vget_mem hop) with e | e
      · exact absurd e hne
      · exact e
    · rw [vget_of_length_le (by omega)]; exact hB
  have h1 := pathTo_cost_bound hB' hp
  have h2 := nodup_length_le hnd (pathTo_bounds ha hp)
  have h3 : B * ((v :: vs).length : Int) ≤ B * a.num_states :=
    mul_le_mul_of_nonneg_left (by exact_mod_cast h2) hB
  omega

theorem unreachable_state_wellFormed : unreachable_state_abstraction.WellFormed := by
  refine ⟨rfl, ?_, by decide, by decide, rfl⟩
  intro v s hs
  have hcases : v = 0 ∨ v = 1 ∨ 2 ≤ v := by omega
  rcases hcases with h0 | h0 | h0
  · rw [h0] at hs
    simp only [unreachable_state_abstraction, List.getD_cons_zero, List.mem_singleton] at hs
    rw [hs]; decide
  · rw [h0] at hs
    simp [unreachable_state_abstraction] at hs
  · have hlen : unreachable_state_abstraction.backward_graph.length ≤ v := h0
    rw [getD_of_length_le hlen] at hs
    exact absurd hs (List.not_mem_nil s)

/-- C2 (amended). Saturator dominance for the cap saturator in operator form on
nonnegative costs. For every well-formed abstraction with fewer than `INF` states, every
cost function `ocf` with one entry per operator, all between `0` and `INF`, whose path
sums do not overflow, `h_in = compute_goal_distances_ocf(ocf)`, every state `state_id`
and every setting of the saturator (with `reachable = FROM_INIT`: provided `state_id`
is marked reachable from the initial state and the marked states are closed under the
transitions whose cost in `ocf` is not `INF`): every result of `saturate_ocf` has
`socf[op] <= ocf[op]` for every operator, and every vector that
`compute_goal_distances_ocf(socf)` returns holds `h_in[state_id]` at `state_id`;
`saturate_ocf` returns when the fuel suffices unless it both uses general costs and
recomputes the heuristic values, and with `use_general_costs = false`
`compute_goal_distances_ocf(socf)` returns when the fuel suffices. -/
theorem cap_saturator_dominance (a : ExplicitAbstraction) (ocf h_in : List Int)
    (state_id : Nat) (s : SaturatorCap) (fuel fuel0 : Nat) (operator_costs : List Int)
    (ha : a.WellFormed) (hn : (a.num_states : Int) < INF) (hcost : NonnegativeCosts ocf)
    (hocf : ocf.length = a.num_operators) (hno : NoOverflow a ocf)
    (hh : a.compute_goal_distances_ocf fuel0 ocf = some h_in)
    (hsid : state_id < a.num_states)
    (hinit : s.reachable = Reachable.FROM_INIT →
      ∀ R, a.get_reachability_from_init fuel operator_costs = some R →
        bget R state_id = true ∧
        ∀ t ∈ a.for_each_transition, vget ocf t.op_id ≠ INF →
          bget R t.source_id = true → bget R t.target_id = true) :
    (∀ res, s.saturate_ocf a fuel operator_costs ocf h_in state_id = some res →
      (∀ op, vget res.socf op ≤ vget ocf op) ∧
      ∀ fuel1 r, a.compute_goal_distances_ocf fuel1 res.socf = some r →
        vget r state_id = vget h_in state_id) ∧
    ((s.use_general_costs = false ∨ s.recompute_h_values = false) →
      (s.reachable = Reachable.FROM_INIT → NonnegativeCosts operator_costs) →
      1 + a.goal_states.length + a.num_states * INF.toNat < fuel →
      ∃ res, s.saturate_ocf a fuel operator_costs ocf h_in state_id = some res) ∧
    (s.use_general_costs = false →
      ∀ res, s.saturate_ocf a fuel operator_costs ocf h_in state_id = some res →
      ∀ fuel1, a.goal_states.length + a.num_states * INF.toNat < fuel1 →
        ∃ r, a.compute_goal_distances_ocf fuel1 res.socf = some r) := by
  rw [compute_goal_distances_ocf_nonneg hcost] at hh
  have hgd := (dijkstra_goal_distances ha hcost).1 fuel0 h_in hh
  refine ⟨?_, ?_, ?_⟩
  · intro res hres
    obtain ⟨h1, h2, _⟩ := saturate_ocf_sound ha hn hcost hocf hno hgd hsid hinit hres
    exact ⟨h1, h2⟩
  · intro hmode hop hfuel
    exact saturate_ocf_returns ha hcost hocf hgd hsid s hfuel hop hmode
  · intro hg res hres fuel1 hfuel1
    have hnn := saturate_ocf_nonneg hcost hg hres
    rw [compute_goal_distances_ocf_nonneg hnn]
    exact (dijkstra_goal_distances ha hnn).2 fuel1 hfuel1

/-- Witness of C2: the abstraction with the transition `1 → 0` of cost `5`, query state
`1`, cap and reachability from the state, nonnegative saturator with recomputation. -/
theorem cap_saturator_dominance_witness :
    (⟨false, true, Reachable.FROM_STATE, true, true, false⟩ : SaturatorCap).saturate_ocf
        unreachable_state_abstraction 10 [5] [5] [0, 5] 1
      = some ⟨[5], [0, 5], false⟩ ∧
    (∀ op, vget [5] op ≤ vget [5] op) ∧
    ∀ fuel1 r, unreachable_state_abstraction.compute_goal_distances_ocf fuel1 [5] = some r →
      vget r 1 = vget [0, 5] 1 :=
  ⟨by decide,
    ((cap_saturator_dominance unreachable_state_abstraction [5] [0, 5] 1
      ⟨false, true, Reachable.FROM_STATE, true, true, false⟩ 10 10 [5]
      unreachable_state_wellFormed (by unfold INF; decide)
      (by unfold NonnegativeCosts INF; decide) rfl
      (noOverflow_of_bound unreachable_state_wellFormed 5 (by decide)
        (by unfold INF; decide) (by unfold INF; decide))
      (by decide) (by decide) (fun h => absurd h (by decide))).1
      ⟨[5], [0, 5], false⟩ (by decide))⟩

/-- Counterexample to C2 as stated. On `looping_operator_abstraction` with the cost
function `[-1]`, whose goal distances are `[INF, 0]`, the saturator returns `socf = [0]`,
and `0 > -1`. On `unreachable_state_abstraction` with the cost function `[5]`, goal
distances `[0, 5]`, query state `1` and `reachable = FROM_INIT`, the saturator returns
`socf = [-INF]`, and the goal distance of state `1` under it is `-INF`, not `5`. -/
theorem cap_saturator_dominance_counterexample :
    (looping_operator_abstraction.compute_goal_distances_ocf 1 [-1] = some [INF, 0] ∧
      (⟨true, false, Reachable.ALL, false, true, false⟩ : SaturatorCap).saturate_ocf
          looping_operator_abstraction 1 [1] [-1] [INF, 0] 1
        = some ⟨[0], [INF, 0], false⟩ ∧
      ¬ vget [0] 0 ≤ vget [-1] 0) ∧
    (unreachable_state_abstraction.compute_goal_distances_ocf 4 [5] = some [0, 5] ∧
      (⟨true, false, Reachable.FROM_INIT, false, true, false⟩ : SaturatorCap).saturate_ocf
          unreachable_state_abstraction 4 [5] [5] [0, 5] 1
        = some ⟨[-INF], [0, -INF], false⟩ ∧
      unreachable_state_abstraction.compute_goal_distances_ocf 4 [-INF]
        = some [0, -INF] ∧
      vget [0, -INF] 1 ≠ vget [0, 5] 1) := by
  refine ⟨⟨by decide, by decide, by decide⟩, ⟨by decide, by decide, by decide, by decide⟩⟩

/-- C3 (amended). The cap saturator keeps the heuristic value of the query state. For
every abstraction, every vector `h_in` and every state `state_id` of the abstraction
with an entry in `h_in` (with `reachable = FROM_INIT`: provided `state_id` is marked
reachable from the initial state), every result of the cap saturator has
`h_out[state_id] = h_in[state_id]`: in operator form without recomputation for every
cost function; in operator form (with or without recomputation) when the abstraction is
well formed with fewer than `INF` states, the cost function has one entry per operator,
all between `0` and `INF`, with path sums that do not overflow,
`h_in = compute_goal_distances_ocf(ocf)`, and with `reachable = FROM_INIT` the marked
states are closed under the transitions whose cost is not `INF`; and in transition form
for every transition cost function and every bucketed cost function. -/
theorem cap_saturator_keeps_query_value (s : SaturatorCap) (a : ExplicitAbstraction)
    (fuel : Nat) (operator_costs h_in : List Int) (state_id : Nat)
    (hsid : state_id < a.num_states) (hlen : state_id < h_in.length)
    (hinit : s.reachable = Reachable.FROM_INIT →
      ∀ R, a.get_reachability_from_init fuel operator_costs = some R →
        bget R state_id = true) :
    (∀ ocf res, s.recompute_h_values = false →
      s.saturate_ocf a fuel operator_costs ocf h_in state_id = some res →
      vget res.h_values state_id = vget h_in state_id) ∧
    (∀ ocf res fuel0, a.WellFormed → (a.num_states : Int) < INF → NonnegativeCosts ocf →
      ocf.length = a.num_operators → NoOverflow a ocf →
      a.compute_goal_distances_ocf fuel0 ocf = some h_in →
      (s.reachable = Reachable.FROM_INIT →
        ∀ R, a.get_reachability_from_init fuel operator_costs = some R →
          ∀ t ∈ a.for_each_transition, vget ocf t.op_id ≠ INF →
            bget R t.source_id = true → bget R t.target_id = true) →
      s.saturate_ocf a fuel operator_costs ocf h_in state_id = some res →
      vget res.h_values state_id = vget h_in state_id) ∧
    (∀ (σ : Type) (_ : DecidableEq σ) (make_transition_bdd : Transition → Finset σ)
      (tcf : AbstractTransitionCostFunction) (sdac : CostFunctionStateDependent σ)
      (res : SaturatorResultTcf),
      s.saturate_tcf a fuel operator_costs make_transition_bdd tcf sdac h_in state_id
        = some res →
      vget res.h_values state_id = vget h_in state_id) := by
  refine ⟨?_, ?_, ?_⟩
  · intro ocf res hrec hres
    exact saturate_ocf_keeps hsid hlen hinit hrec hres
  · intro ocf res fuel0 ha hn hcost hocf hno hh hclosed hres
    rw [compute_goal_distances_ocf_nonneg hcost] at hh
    have hgd := (dijkstra_goal_distances ha hcost).1 fuel0 h_in hh
    exact (saturate_ocf_sound ha hn hcost hocf hno hgd hsid
      (fun hm R hR => ⟨hinit hm R hR, hclosed hm R hR⟩) hres).2.2
  · intro σ _ make_transition_bdd tcf sdac res hres
    exact saturate_tcf_keeps hsid hlen hinit hres

/-- Witness of C3 on `unreachable_state_abstraction`, query state `1`, heuristic values
`[0, 5]`, with cap and reachability from the state: the operator form without
recomputation, the operator form with recomputation and the transition form return `5`
at the query state. -/
theorem cap_saturator_keeps_query_value_witness :
    ((⟨true, false, Reachable.FROM_STATE, true, true, false⟩ : SaturatorCap).saturate_ocf
          unreachable_state_abstraction 10 [5] [5] [0, 5] 1
        = some ⟨[5], [0, 5], false⟩ ∧
      vget [0, 5] 1 = vget [0, 5] 1) ∧
    ((⟨false, true, Reachable.FROM_STATE, true, true, false⟩ : SaturatorCap).saturate_ocf
          unreachable_state_abstraction 10 [5] [5] [0, 5] 1
        = some ⟨[5], [0, 5], false⟩ ∧
      vget [0, 5] 1 = vget [0, 5] 1) ∧
    ((⟨true, false, Reachable.FROM_STATE, true, true, false⟩ : SaturatorCap).saturate_tcf
          unreachable_state_abstraction 10 [5] (fun _ => (Finset.univ : Finset Bool))
          ⟨[5], [true], [5]⟩ (two_state_cost_function [5]) [0, 5] 1
        = some ⟨⟨[5], [true], [5]⟩, [0, 5], false⟩ ∧
      vget [0, 5] 1 = vget [0, 5] 1) :=
  ⟨⟨by decide,
      (cap_saturator_keeps_query_value
        ⟨true, false, Reachable.FROM_STATE, true, true, false⟩
        unreachable_state_abstraction 10 [5] [0, 5] 1 (by decide) (by decide)
        (fun h => absurd h (by decide))).1 [5] ⟨[5], [0, 5], false⟩ rfl (by decide)⟩,
    ⟨by decide,
      (cap_saturator_keeps_query_value
        ⟨false, true, Reachable.FROM_STATE, true, true, false⟩
        unreachable_state_abstraction 10 [5] [0, 5] 1 (by decide) (by decide)
        (fun h => absurd h (by decide))).2.1 [5] ⟨[5], [0, 5], false⟩ 10
        unreachable_state_wellFormed (by unfold INF; decide)
        (by unfold NonnegativeCosts INF; decide) rfl
        (noOverflow_of_bound unreachable_state_wellFormed 5 (by decide)
          (by unfold INF; decide) (by unfold INF; decide))
        (by decide) (fun h => absurd h (by decide)) (by decide)⟩,
    ⟨by decide,
      (cap_saturator_keeps_query_value
        ⟨true, false, Reachable.FROM_STATE, true, true, false⟩
        unreachable_state_abstraction 10 [5] [0, 5] 1 (by decide) (by decide)
        (fun h => absurd h (by decide))).2.2 Bool inferInstance
        (fun _ => (Finset.univ : Finset Bool)) ⟨[5], [true], [5]⟩
        (two_state_cost_function [5]) ⟨⟨[5], [true], [5]⟩, [0, 5], false⟩ (by decide)⟩⟩

/-- Counterexample to C3 as stated. On `unreachable_state_abstraction` with
`reachable = FROM_INIT` and the goal distances `[0, 5]`, the saturator returns `-INF`,
not `5`, for the query state `1`, which is not reachable from the initial state. On
`single_state_abstraction` with recomputation and `h_in = [7]`, the saturator returns
the recomputed goal distance `0`, not `7`. -/
theorem cap_saturator_keeps_query_value_counterexample :
    ((⟨true, false, Reachable.FROM_INIT, false, true, false⟩ : SaturatorCap).saturate_ocf
          unreachable_state_abstraction 4 [5] [5] [0, 5] 1
        = some ⟨[-INF], [0, -INF], false⟩ ∧
      vget [0, -INF] 1 ≠ vget [0, 5] 1) ∧
    ((⟨true, true, Reachable.ALL, false, true, false⟩ : SaturatorCap).saturate_ocf
          single_state_abstraction 4 [] [] [7] 0
        = some ⟨[], [0], false⟩ ∧
      vget [0] 0 ≠ vget [7] 0) := by
  refine ⟨⟨by decide, by decide⟩, ⟨by decide, by decide⟩⟩

end cap_saturator
/-! ## cost_saturation: reachability by depth-first search -/

section reachability_search

theorem bget_set (l : List Bool) (i j : Nat) (b : Bool) :
    bget (l.set i b) j = if i = j ∧ i < l.length then b else bget l j :=
  getD_set_eq l i j b false

theorem bget_of_length_le {l : List Bool} {i : Nat} (h : l.length ≤ i) : bget l i = false := by
  unfold bget
  rw [List.getD_eq_getElem?_getD, List.getElem?_eq_none_iff.2 h]
  rfl

/-- The loop over the arcs out of one state: marks are only added, every new mark is
pushed, and every arc of cost other than `INF` ends in a marked state. -/
theorem reachability_visit_fold (costs : List Int) (n : Nat) (l : List Successor)
    (hl : ∀ s ∈ l, s.target_id < n) :
    ∀ acc : List Nat × List Bool, acc.2.length = n →
      (l.foldl (reachability_visit costs) acc).2.length = n ∧
      (∀ v, bget acc.2 v = true → bget (l.foldl (reachability_visit costs) acc).2 v = true) ∧
      (∀ v, v ∈ acc.1 → v ∈ (l.foldl (reachability_visit costs) acc).1) ∧
      (∀ v, bget (l.foldl (reachability_visit costs) acc).2 v = true →
        bget acc.2 v = true ∨ v ∈ (l.foldl (reachability_visit costs) acc).1) ∧
      (∀ s ∈ l, vget costs s.op_id ≠ INF →
        bget (l.foldl (reachability_visit costs) acc).2 s.target_id = true) := by
  induction l with
  | nil =>
    intro acc hacc
    exact ⟨hacc, fun v h => h, fun v h => h, fun v h => Or.inl h,
      fun s hs => absurd hs (List.not_mem_nil s)⟩
  | cons s l ih =>
    intro acc hacc
    rw [List.foldl_cons]
    have hs := hl s (List.mem_cons_self s l)
    have hstep : (reachability_visit costs acc s).2.length = n ∧
        (∀ v, bget acc.2 v = true → bget (reachability_visit costs acc s).2 v = true) ∧
        (∀ v, v ∈ acc.1 → v ∈ (reachability_visit costs acc s).1) ∧
        (∀ v, bget (reachability_visit costs acc s).2 v = true →
          bget acc.2 v = true ∨ v ∈ (reachability_visit costs acc s).1) ∧
        (vget costs s.op_id ≠ INF →
          bget (reachability_visit costs acc s).2 s.target_id = true) := by
      unfold reachability_visit
      by_cases hc : bget acc.2 s.target_id = false ∧ vget costs s.op_id ≠ INF
      · rw [if_pos hc]
        simp only
        refine ⟨by rw [List.length_set]; exact hacc, ?_, ?_, ?_, ?_⟩
        · intro v hv
          rw [bget_set]
          split_ifs
          · rfl
          · exact hv
        · intro v hv
          exact List.mem_cons_of_mem _ hv
        · intro v hv
          rw [bget_set] at hv
          split_ifs at hv with h1
          · right; rw [← h1.1]; exact List.mem_cons_self _ _
          · left; exact hv
        · intro _
          rw [bget_set, if_pos ⟨rfl, by rw [hacc]; exact hs⟩]
      · rw [if_neg hc]
        refine ⟨hacc, fun v h => h, fun v h => h, fun v h => Or.inl h, ?_⟩
        intro hfin
        by_contra hb
        exact hc ⟨by simpa using hb, hfin⟩
    obtain ⟨s1, s2, s3, s4, s5⟩ := hstep
    obtain ⟨i1, i2, i3, i4, i5⟩ := ih (fun x hx => hl x (List.mem_cons_of_mem s hx))
      (reachability_visit costs acc s) s1
    refine ⟨i1, fun v hv => i2 v (s2 v hv), fun v hv => i3 v (s3 v hv), ?_, ?_⟩
    · intro v hv
      rcases i4 v hv with h | h
      · rcases s4 v h with h' | h'
        · exact Or.inl h'
        · exact Or.inr (i3 v h')
      · exact Or.inr h
    · intro x hx hfin
      rcases List.mem_cons.1 hx with e | e
      · rw [e] at hfin ⊢; exact i2 _ (s5 hfin)
      · exact i5 x e hfin

/-- The depth-first search: whatever it returns keeps the marks it started with, and all
arcs of cost other than `INF` out of a marked state end in marked states. -/
theorem reachability_search_closed (graph : List (List Successor)) (costs : List Int)
    (n : Nat) (hgraph : ∀ v, ∀ s ∈ graph.getD v [], s.target_id < n) (fuel : Nat) :
    ∀ (open_ : List Nat) (reachable r : List Bool), reachable.length = n →
      (∀ v, bget reachable v = true → v ∈ open_ ∨
        ∀ s ∈ graph.getD v [], vget costs s.op_id ≠ INF →
          bget reachable s.target_id = true) →
      reachability_search graph costs fuel open_ reachable = some r →
      r.length = n ∧ (∀ v, bget reachable v = true → bget r v = true) ∧
      ∀ v, bget r v = true →
        ∀ s ∈ graph.getD v [], vget costs s.op_id ≠ INF → bget r s.target_id = true := by
  induction fuel with
  | zero => intro open_ reachable r _ _ h; simp [reachability_search] at h
  | succ fuel ih =>
    intro open_ reachable r hlen hinv h
    cases open_ with
    | nil =>
      simp only [reachability_search, Option.some.injEq] at h
      rw [← h]
      refine ⟨hlen, fun v hv => hv, ?_⟩
      intro v hv
      rcases hinv v hv with hm | hc
      · exact absurd hm (List.not_mem_nil v)
      · exact hc
    | cons current_state rest =>
      simp only [reachability_search] at h
      obtain ⟨f1, f2, f3, f4, f5⟩ := reachability_visit_fold costs n
        (graph.getD current_state []) (hgraph current_state) (rest, reachable) hlen
      obtain ⟨r1, r2, r3⟩ := ih _ _ r f1 (by
        intro v hv
        rcases f4 v hv with h1 | h1
        · rcases hinv v h1 with hm | hc
          · rcases List.mem_cons.1 hm with e | e
            · right
              intro s hs hfin
              rw [e] at hs
              exact f5 s hs hfin
            · left; exact f3 v e
          · right
            intro s hs hfin
            exact f2 _ (hc s hs hfin)
        · left; exact h1) h
      exact ⟨r1, fun v hv => r2 v (f2 v hv), r3⟩

/-- The arcs of the forward graph of `get_forward_graph`: the transitions, by source. -/
theorem mem_get_forward_graph (a : ExplicitAbstraction) (v : Nat) (x : Successor) :
    x ∈ (get_forward_graph a).getD v [] ↔
      v < a.num_states ∧ ∃ t ∈ a.for_each_transition, t.source_id = v ∧
        x = ⟨t.transition_id, t.op_id, t.target_id⟩ := by
  have hflat : get_forward_graph a
      = (a.for_each_transition.map fun t =>
          ((⟨t.transition_id, t.op_id, t.source_id⟩ : Successor), t.target_id)).foldl
          (fun fg p => fg.set p.1.target_id
            (fg.getD p.1.target_id [] ++ [⟨p.1.transition_id, p.1.op_id, p.2⟩]))
          (List.replicate a.num_states []) := by
    unfold get_forward_graph
    rw [List.foldl_map]
  rw [hflat]
  obtain ⟨_, h2⟩ := forward_fold (a.for_each_transition.map fun t =>
    ((⟨t.transition_id, t.op_id, t.source_id⟩ : Successor), t.target_id))
    (List.replicate a.num_states [])
  rw [h2, List.length_replicate]
  have hnil : (List.replicate a.num_states ([] : List Successor)).getD v [] = [] := by
    rw [List.getD_eq_getElem?_getD, List.getElem?_replicate]
    split_ifs <;> rfl
  rw [hnil]
  simp only [List.not_mem_nil, false_or, List.mem_map]
  constructor
  · rintro ⟨hv, p, ⟨t, ht, rfl⟩, e1, e2⟩
    exact ⟨hv, t, ht, e1, e2⟩
  · rintro ⟨hv, t, ht, e1, e2⟩
    exact ⟨hv, _, ⟨t, ht, rfl⟩, e1, e2⟩

/-- The reachability vector of `compute_reachability_from_state`: one mark per state, the
start state is marked, and the marked states are closed under the transitions of cost
other than `INF`. -/
theorem compute_reachability_from_state_spec {a : ExplicitAbstraction} (ha : a.WellFormed)
    {fuel : Nat} {costs : List Int} {state_id : Nat} (hs : state_id < a.num_states)
    {R : List Bool} (h : a.compute_reachability_from_state fuel costs state_id = some R) :
    R.length = a.num_states ∧ bget R state_id = true ∧
    ∀ t ∈ a.for_each_transition, vget costs t.op_id ≠ INF →
      bget R t.source_id = true → bget R t.target_id = true := by
  unfold ExplicitAbstraction.compute_reachability_from_state at h
  have hgraph : ∀ v, ∀ s ∈ (get_forward_graph a).getD v [], s.target_id < a.num_states := by
    intro v s hs'
    obtain ⟨_, t, ht, _, e⟩ := (mem_get_forward_graph a v s).1 hs'
    rw [e]
    exact (transition_bounds ha ht).2.1
  have hlen0 : ((List.replicate a.num_states false).set state_id true).length
      = a.num_states := by
    rw [List.length_set, List.length_replicate]
  obtain ⟨r1, r2, r3⟩ := reachability_search_closed (get_forward_graph a) costs a.num_states
    hgraph fuel [state_id] _ R hlen0 (by
      intro v hv
      left
      rw [bget_set] at hv
      split_ifs at hv with hc
      · rw [← hc.1]; exact List.mem_singleton.2 rfl
      · rw [bget_of_length_le (by rw [List.length_replicate]; by_contra hlt; push_neg at hlt
                                  have : (List.replicate a.num_states false)[v]? = some false := by
                                    rw [List.getElem?_replicate, if_pos hlt]
                                  unfold bget at hv
                                  rw [List.getD_eq_getElem?_getD, this] at hv
                                  simp at hv)] at hv
        exact absurd hv (by decide)) h
  refine ⟨r1, ?_, ?_⟩
  · apply r2
    rw [bget_set, if_pos ⟨rfl, by rw [List.length_replicate]; exact hs⟩]
  · intro t ht hfin hsrc
    apply r3 t.source_id hsrc ⟨t.transition_id, t.op_id, t.target_id⟩ _ hfin
    rw [mem_get_forward_graph]
    exact ⟨(transition_bounds ha ht).1, t, ht, rfl, rfl⟩

end reachability_search
/-! ## cost_saturation: the cap saturator on goal distances of nonnegative costs -/

section cs_saturator
variable {a : ExplicitAbstraction}

theorem list_ext_vget {l1 l2 : List Int} (hlen : l1.length = l2.length)
    (h : ∀ i, vget l1 i = vget l2 i) : l1 = l2 := by
  apply List.ext_getElem hlen
  intro i h1 h2
  rw [← vget_eq_getElem h1, ← vget_eq_getElem h2]
  exact h i

theorem mem_unreachable_states (n : Nat) (R : List Bool) (v : Nat) :
    v ∈ cost_saturation.unreachable_states n R ↔ v < n ∧ bget R v = false := by
  unfold cost_saturation.unreachable_states
  rw [List.mem_filter, List.mem_range]
  simp

/-- Pruning the listed unreachable states is pruning by the reachability vector. -/
theorem prune_listed_eq (n : Nat) (R : List Bool) (h : List Int) :
    cost_saturation.prune_listed (cost_saturation.unreachable_states n R) h
      = prune_unreachable n R h := by
  have hstep : (fun (x : List Int) (i : Nat) =>
      if vget x i ≠ INF then x.set i (-INF) else x)
      = fun x i => x.set i ((fun _ y => if y ≠ INF then -INF else y) i (vget x i)) := by
    funext x i
    simp only
    split_ifs
    · rfl
    · exact (set_vget_self x i).symm
  have hnd : (cost_saturation.unreachable_states n R).Nodup := by
    unfold cost_saturation.unreachable_states
    exact List.Nodup.filter _ (List.nodup_range n)
  obtain ⟨h1, h2⟩ := foldl_set_pointwise (fun _ y => if y ≠ INF then -INF else y)
    (cost_saturation.unreachable_states n R) hnd h
  obtain ⟨p1, p2⟩ := prune_unreachable_spec n R h
  unfold cost_saturation.prune_listed
  rw [hstep]
  apply list_ext_vget (by rw [h1, p1])
  intro v
  rw [h2, p2]
  have hm := mem_unreachable_states n R v
  by_cases hc : v < n ∧ v < h.length ∧ bget R v = false ∧ vget h v ≠ INF
  · rw [if_pos hc, if_pos ⟨hm.2 ⟨hc.1, hc.2.2.1⟩, hc.2.1⟩, if_pos hc.2.2.2]
  · rw [if_neg hc]
    split_ifs with h3 h4
    · exact absurd ⟨(hm.1 h3.1).1, h3.2, (hm.1 h3.1).2, h4⟩ hc
    · rfl
    · rfl

/-- The parts of a run of `cost_saturation::SaturatorCap::saturate` that returns. -/
theorem cs_saturate_some {s : cost_saturation.SaturatorCap} {abstraction_id fuel : Nat}
    {costs h : List Int} {state_id : Nat} {res : cost_saturation.SaturatorResult}
    (hres : s.saturate a abstraction_id fuel costs h state_id = some res) :
    ∃ h1 h2 socf1,
      h1 = (if s.cap then cap_h_values (vget h state_id) h else h) ∧
      ((s.reachable = Reachable.ALL ∧ h2 = h1) ∨
        (s.reachable = Reachable.FROM_INIT ∧
          h2 = cost_saturation.prune_listed
            (s.unreachable_from_init.getD abstraction_id []) h1) ∨
        (s.reachable = Reachable.FROM_STATE ∧
          ∃ R, a.compute_reachability_from_state fuel
              (compute_reachability_cost_function costs) state_id = some R ∧
            h2 = prune_unreachable a.num_states R h1)) ∧
      ((s.use_general_costs = true ∧ socf1 = a.compute_saturated_costs_ocf h2) ∨
        (s.use_general_costs = false ∧
          socf1 = (a.compute_saturated_costs_ocf h2).map fun c => max 0 c)) ∧
      s.get_saturator_result a fuel costs socf1 h2 (vget h state_id) = some res := by
  unfold cost_saturation.SaturatorCap.saturate at hres
  simp only [Option.bind_eq_some] at hres
  obtain ⟨h1, e1, h2, e2, socf1, e3, e4⟩ := hres
  refine ⟨h1, h2, socf1, ?_, ?_, ?_, e4⟩
  · split_ifs at e1 with c1 c2
    · rw [if_pos c1]; exact (Option.some.inj e1).symm
    · rw [if_neg c1]; exact (Option.some.inj e1).symm
  · cases hreach : s.reachable with
    | ALL =>
      rw [hreach] at e2
      exact Or.inl ⟨rfl, (Option.some.inj e2).symm⟩
    | FROM_INIT =>
      rw [hreach] at e2
      exact Or.inr (Or.inl ⟨rfl, (Option.some.inj e2).symm⟩)
    | FROM_STATE =>
      rw [hreach] at e2
      simp only [Option.map_eq_some'] at e2
      obtain ⟨R, hR, e⟩ := e2
      exact Or.inr (Or.inr ⟨rfl, R, hR, e.symm⟩)
  · by_cases hg : s.use_general_costs = true
    · rw [if_pos hg] at e3
      exact Or.inl ⟨hg, (Option.some.inj e3).symm⟩
    · rw [if_neg hg] at e3
      split_ifs at e3
      exact Or.inr ⟨by simpa using hg, (Option.some.inj e3).symm⟩

/-- The parts of a run of `cost_saturation::Saturator::get_saturator_result` that
returns. -/
theorem cs_get_saturator_result_some {s : cost_saturation.SaturatorCap} {fuel : Nat}
    {costs socf h : List Int} {state_h : Int} {res : cost_saturation.SaturatorResult}
    (hres : s.get_saturator_result a fuel costs socf h state_h = some res) :
    res.saturated_costs = (List.range costs.length).foldl
      (fun socf op_id => if vget costs op_id = INF then socf.set op_id INF else socf) socf ∧
    (res.h_values = h ∨
      ∃ new_h, a.compute_goal_distances fuel res.saturated_costs = some new_h ∧
        res.h_values = (List.range a.num_states).foldl
          (fun new_h_values source_id =>
            if vget h source_id = -INF then new_h_values.set source_id (-INF)
            else new_h_values)
          new_h) := by
  unfold cost_saturation.SaturatorCap.get_saturator_result at hres
  simp only at hres
  by_cases hr : s.recompute_h_values = true ∧ state_h > 0
  · rw [if_pos hr] at hres
    cases hgd : a.compute_goal_distances fuel
        ((List.range costs.length).foldl
          (fun socf op_id => if vget costs op_id = INF then socf.set op_id INF else socf)
          socf) with
    | none => rw [hgd] at hres; simp at hres
    | some new_h =>
      rw [hgd] at hres
      simp only [Option.some.injEq] at hres
      rw [← hres]
      exact ⟨rfl, Or.inr ⟨new_h, hgd, rfl⟩⟩
  · rw [if_neg hr] at hres
    simp only [Option.some.injEq] at hres
    rw [← hres]
    exact ⟨rfl, Or.inl rfl⟩

theorem compute_goal_distances_nonneg {costs : List Int} (hcost : NonnegativeCosts costs)
    (fuel : Nat) :
    a.compute_goal_distances fuel costs
      = a.compute_goal_distances_for_non_negative_costs_ocf fuel costs := by
  unfold ExplicitAbstraction.compute_goal_distances
  rw [if_pos]
  rw [List.all_eq_true]
  intro c hc
  exact decide_eq_true (hcost c hc).1

/-- Whatever `cost_saturation::Abstraction::compute_goal_distances` returns under costs
with a region certificate has one entry per state, admits no relaxation, is goal aware,
and holds at every state of the region `INF` or the cost of a walk to a goal. -/
theorem compute_goal_distances_region (ha : a.WellFormed) {costs : List Int}
    {G : Nat → Prop} {φ : Nat → Int} (hc : RegionCertificate a costs G φ)
    (hup : ∀ c ∈ costs, c ≤ INF) {fuel : Nat} {r : List Int}
    (h : a.compute_goal_distances fuel costs = some r) :
    Feasible a costs r ∧ GoalAware a r ∧ r.length = a.num_states ∧
    ∀ v, G v → v < a.num_states →
      vget r v = INF ∨ ∃ vs, PathTo a costs (v :: vs) (vget r v) := by
  unfold ExplicitAbstraction.compute_goal_distances at h
  by_cases hall : costs.all (fun c => decide (c ≥ 0)) = true
  · rw [if_pos hall] at h
    have hcost : NonnegativeCosts costs := by
      intro c hcm
      rw [List.all_eq_true] at hall
      exact ⟨of_decide_eq_true (hall c hcm), hup c hcm⟩
    have hgd := (dijkstra_goal_distances ha hcost).1 fuel r h
    refine ⟨hgd.feasible, fun g hg => le_of_eq (hgd.goals g hg), hgd.len, ?_⟩
    intro v _ hv
    by_cases e : vget r v = INF
    · exact Or.inl e
    · exact Or.inr (hgd.real v hv e)
  · rw [if_neg hall] at h
    unfold ExplicitAbstraction.compute_goal_distances_for_general_costs at h
    obtain ⟨h1, h2, h3⟩ := bellman_ford_restart_result fuel _ r h
    have h4 := bellman_ford_restart_region ha hc fuel _ r (List.length_replicate _ _)
      (by
        intro v _ hv
        rw [vget_replicate, if_pos hv]
        unfold INF; omega) h
    exact ⟨h1, h2, by rw [h3, List.length_replicate], fun v hG hv => h4.real v hG hv⟩

/-- The cap saturator of `cost_saturation`, run on the goal distances `h` of a nonnegative
cost function whose path sums do not overflow. The saturated costs are dominated by the
costs, are `INF` where the costs are, are at least `0` for looping operators, and are
nonnegative unless general costs are allowed; they carry a potential `φ` below `h` on the
region `G` of the states that were not pruned; a pruned state of finite goal distance gets
`-INF`; and in the region the returned values are the potential, or (when recomputed) a
vector that admits no relaxation under the saturated costs, is goal aware and holds `INF`
or the cost of a walk. -/
theorem cs_saturate_sound (ha : a.WellFormed) {ocf : List Int}
    (hcost : NonnegativeCosts ocf) (hocf : ocf.length = a.num_operators)
    (hno : NoOverflow a ocf) {h : List Int} (hgd : GoalDistances a ocf h)
    {state_id : Nat} (hsid : state_id < a.num_states)
    {s : cost_saturation.SaturatorCap} {abstraction_id fuel : Nat}
    (hinit : s.reachable = Reachable.FROM_INIT →
      ∃ Rm, s.unreachable_from_init.getD abstraction_id []
          = cost_saturation.unreachable_states a.num_states Rm ∧
        ∀ t ∈ a.for_each_transition, vget ocf t.op_id ≠ INF →
          bget Rm t.source_id = true → bget Rm t.target_id = true)
    {res : cost_saturation.SaturatorResult}
    (hres : s.saturate a abstraction_id fuel ocf h state_id = some res) :
    (∀ op, vget res.saturated_costs op ≤ vget ocf op) ∧
    (∀ op, vget ocf op = INF → vget res.saturated_costs op = INF) ∧
    res.saturated_costs.length = a.num_operators ∧
    (∀ op, op < a.num_operators → bget a.has_loop op = true →
      0 ≤ vget res.saturated_costs op) ∧
    (s.use_general_costs = false → ∀ op, 0 ≤ vget res.saturated_costs op) ∧
    ∃ (G : Nat → Prop) (φ : Nat → Int),
      RegionCertificate a res.saturated_costs G φ ∧
      (∀ u, u < a.num_states → G u → vget h u ≠ INF → φ u ≤ vget h u) ∧
      (∀ u, u < a.num_states → ¬ G u → vget h u ≠ INF → vget res.h_values u = -INF) ∧
      ((∀ u, G u → vget res.h_values u = φ u) ∨
        ∃ r, Feasible a res.saturated_costs r ∧ GoalAware a r ∧
          (∀ v, G v → v < a.num_states →
            vget r v = INF ∨ ∃ vs, PathTo a res.saturated_costs (v :: vs) (vget r v)) ∧
          ∀ u, u < a.num_states → G u → vget h u ≠ INF →
            vget res.h_values u = vget r u) := by
  obtain ⟨h1, h2, socf1, e1, e2, e3, e4⟩ := cs_saturate_some hres
  obtain ⟨r1, r2⟩ := cs_get_saturator_result_some e4
  have hb := hgd.bounds
  have hlen := hgd.len
  have hlen1 : h1.length = a.num_states := by
    rw [e1]
    split_ifs
    · rw [length_cap_h_values, hlen]
    · exact hlen
  have hcapped : ∀ v, v < a.num_states → vget h1 v
      = if vget h v ≠ INF then
          (if s.cap then min (vget h v) (vget h state_id) else vget h v)
        else INF := by
    intro v hv
    rw [e1]
    by_cases hc : s.cap = true
    · rw [if_pos hc, vget_cap_h_values, if_pos (by rw [hlen]; exact hv), if_pos hc]
      split_ifs with hf
      · rfl
      · push_neg at hf; exact hf
    · rw [if_neg hc, if_neg hc]
      split_ifs with hf
      · rfl
      · push_neg at hf; exact hf
  have hcapfin : ∀ v, v < a.num_states → vget h v ≠ INF →
      0 ≤ vget h1 v ∧ vget h1 v ≤ vget h v := by
    intro v hv hf
    rw [hcapped v hv, if_pos hf]
    have k1 := hb v
    have k2 := hb state_id
    split_ifs
    · exact ⟨le_min k1.1 k2.1, min_le_left _ _⟩
    · exact ⟨k1.1, le_refl _⟩
  -- the pruning, in the form of a reachability vector
  obtain ⟨G, hGclosed, hprune, hkeep, hpruned⟩ : ∃ G : Nat → Prop,
      (∀ t ∈ a.for_each_transition, vget ocf t.op_id ≠ INF → G t.source_id →
        G t.target_id) ∧
      (h2 = h1 ∨ ∃ R, h2 = prune_unreachable a.num_states R h1) ∧
      (∀ v, G v → vget h2 v = vget h1 v) ∧
      (∀ u, u < a.num_states → ¬ G u → vget h1 u ≠ INF → vget h2 u = -INF) := by
    have hfromR : ∀ R : List Bool, h2 = prune_unreachable a.num_states R h1 →
        (∀ v, bget R v = true → vget h2 v = vget h1 v) ∧
        (∀ u, u < a.num_states → ¬ bget R u = true → vget h1 u ≠ INF →
          vget h2 u = -INF) := by
      intro R e
      constructor
      · intro v hv
        rw [e]; exact vget_prune_marked _ _ hv
      · intro u hu hnm hne
        rw [e, (prune_unreachable_spec a.num_states R h1).2,
          if_pos ⟨hu, by rw [hlen1]; exact hu, by simpa using hnm, hne⟩]
    rcases e2 with ⟨_, e2⟩ | ⟨hmode, e2⟩ | ⟨_, R, hR, e2⟩
    · exact ⟨fun _ => True, fun _ _ _ _ => trivial, Or.inl e2, fun v _ => by rw [e2],
        fun _ _ hn => absurd trivial hn⟩
    · obtain ⟨Rm, hRm, hclosed⟩ := hinit hmode
      rw [hRm, prune_listed_eq] at e2
      obtain ⟨k1, k2⟩ := hfromR Rm e2
      exact ⟨fun v => bget Rm v = true, hclosed, Or.inr ⟨Rm, e2⟩, k1, k2⟩
    · obtain ⟨_, q1, q2⟩ := compute_reachability_from_state_spec ha hsid hR
      obtain ⟨k1, k2⟩ := hfromR R e2
      refine ⟨fun v => bget R v = true, ?_, Or.inr ⟨R, e2⟩, k1, k2⟩
      intro t ht hfin
      apply q2 t ht
      rw [vget_compute_reachability_cost_function]
      have hco := (vget_nonneg_of_costs hcost t.op_id).1
      unfold INF at hfin hco ⊢
      split_ifs with c1 c2
      · rcases c2 with c2 | c2 <;> omega
      · omega
      · omega
  have hh2 := capped_pruned_finite hgd s.cap e1 hprune
  have hh1 : ∀ v, G v → v < a.num_states → vget h v ≠ INF →
      vget h2 v = if s.cap then min (vget h v) (vget h state_id) else vget h v := by
    intro v hG hv hf
    rw [hkeep v hG, hcapped v hv, if_pos hf]
  -- the saturated costs before the copy of `INF`
  obtain ⟨c1, _, c3, _⟩ := compute_saturated_costs_ocf_spec a ha h2
  have hs1 : socf1.length = a.num_operators ∧
      (∀ op, vget socf1 op = vget (a.compute_saturated_costs_ocf h2) op ∨
        vget socf1 op = max 0 (vget (a.compute_saturated_costs_ocf h2) op)) ∧
      (s.use_general_costs = false → ∀ op, 0 ≤ vget socf1 op) := by
    rcases e3 with ⟨hg, e3⟩ | ⟨_, e3⟩
    · rw [e3]
      exact ⟨c1, fun op => Or.inl rfl, fun hg' => by rw [hg] at hg'; cases hg'⟩
    · rw [e3]
      refine ⟨by rw [List.length_map, c1], ?_, ?_⟩
      · intro op
        rw [vget_map]
        split_ifs with hop
        · exact Or.inr rfl
        · left
          rw [vget_of_length_le (by omega)]
      · intro _ op
        rw [vget_map]
        split_ifs
        · exact le_max_left _ _
        · exact le_refl _
  have hsfin : ∀ op, vget res.saturated_costs op
      = if op < a.num_operators ∧ vget ocf op = INF then INF else vget socf1 op := by
    intro op
    rw [r1, (copy_inf_spec ocf socf1).2 op, hocf, hs1.1]
    by_cases hc : op < a.num_operators ∧ vget ocf op = INF
    · rw [if_pos hc, if_pos ⟨hc.1, hc.1, hc.2⟩]
    · rw [if_neg hc, if_neg (fun hd => hc ⟨hd.1, hd.2.2⟩)]
  obtain ⟨hdom, hinf, hcert⟩ := saturated_costs_certificate ha hcost hocf hno hgd s.cap
    hGclosed hh1 hh2 hs1.1 hs1.2.1 hsfin
  have hlenres : res.saturated_costs.length = a.num_operators := by
    rw [r1, (copy_inf_spec ocf socf1).1, hs1.1]
  have hloop : ∀ op, op < a.num_operators → bget a.has_loop op = true →
      0 ≤ vget res.saturated_costs op := by
    intro op hop hl
    rw [hsfin]
    split_ifs
    · unfold INF; omega
    · rcases hs1.2.1 op with e | e
      · rw [e]; exact c3 op hop hl
      · rw [e]; exact le_max_left _ _
  have hnn : s.use_general_costs = false → ∀ op, 0 ≤ vget res.saturated_costs op := by
    intro hg op
    rw [hsfin]
    split_ifs
    · unfold INF; omega
    · exact hs1.2.2 hg op
  have hup : ∀ c ∈ res.saturated_costs, c ≤ INF := by
    intro c hc
    obtain ⟨i, _, e⟩ := mem_iff_vget hc
    rw [← e]
    exact le_trans (hdom i) (vget_nonneg_of_costs hcost i).2
  have hh2neg : ∀ u, u < a.num_states → ¬ G u → vget h u ≠ INF → vget h2 u = -INF := by
    intro u hu hnG hfin
    apply hpruned u hu hnG
    have := (hcapfin u hu hfin).2
    have := (hb u).2
    omega
  refine ⟨hdom, hinf, hlenres, hloop, hnn, G, vget h2, hcert, ?_, ?_, ?_⟩
  · intro u hu hG hfin
    rw [hkeep u hG]
    exact (hcapfin u hu hfin).2
  · intro u hu hnG hfin
    have hneg := hh2neg u hu hnG hfin
    rcases r2 with e | ⟨new_h, n1, n2⟩
    · rw [e]; exact hneg
    · obtain ⟨_, _, f3, _⟩ := compute_goal_distances_region ha hcert hup n1
      rw [n2, (keep_neg_inf_spec a.num_states h2 new_h).2,
        if_pos ⟨hu, by rw [f3]; exact hu, hneg⟩]
  · rcases r2 with e | ⟨new_h, n1, n2⟩
    · left
      intro u _
      rw [e]
    · right
      obtain ⟨f1, f2, _, f4⟩ := compute_goal_distances_region ha hcert hup n1
      refine ⟨new_h, f1, f2, f4, ?_⟩
      intro u hu hG hfin
      rw [n2, (keep_neg_inf_spec a.num_states h2 new_h).2, if_neg]
      intro hc
      rw [hkeep u hG] at hc
      have := (hcapfin u hu hfin).1
      unfold INF at hc
      omega

end cs_saturator
/-! ## Plans of the task and walks of a homomorphic abstraction -/

section plans
variable {S : Type} {task : PlanningTask S} {a : ExplicitAbstraction} {α : S → Nat}

theorem operator_sum_cons (costs : List Int) (op : Nat) (ops : List Nat) :
    operator_sum costs (op :: ops) = vget costs op + operator_sum costs ops := by
  unfold operator_sum
  simp

theorem plan_cost_eq {s : S} {ops : List Nat} {c : Int} (h : Plan task s ops c) :
    c = operator_sum task.operator_costs ops := by
  induction h with
  | goal s _ => rfl
  | step s op s' ops c _ _ ih =>
    rw [operator_sum_cons, ih]
    ring

theorem operator_sum_nonneg {costs : List Int} (ops : List Nat)
    (h : ∀ op ∈ ops, 0 ≤ vget costs op) : 0 ≤ operator_sum costs ops := by
  induction ops with
  | nil => exact le_refl _
  | cons op ops ih =>
    rw [operator_sum_cons]
    have h1 := h op (List.mem_cons_self _ _)
    have h2 := ih fun o ho => h o (List.mem_cons_of_mem _ ho)
    omega

theorem operator_sum_le {c1 c2 : List Int} (ops : List Nat)
    (h : ∀ op ∈ ops, vget c1 op ≤ vget c2 op) :
    operator_sum c1 ops ≤ operator_sum c2 ops := by
  induction ops with
  | nil => exact le_refl _
  | cons op ops ih =>
    rw [operator_sum_cons, operator_sum_cons]
    have h1 := h op (List.mem_cons_self _ _)
    have h2 := ih fun o ho => h o (List.mem_cons_of_mem _ ho)
    omega

theorem operator_sum_sub {c1 c2 c3 : List Int} (ops : List Nat)
    (h : ∀ op ∈ ops, vget c3 op = vget c1 op - vget c2 op) :
    operator_sum c3 ops = operator_sum c1 ops - operator_sum c2 ops := by
  induction ops with
  | nil => rfl
  | cons op ops ih =>
    rw [operator_sum_cons, operator_sum_cons, operator_sum_cons]
    have h1 := h op (List.mem_cons_self _ _)
    have h2 := ih fun o ho => h o (List.mem_cons_of_mem _ ho)
    omega

/-- The image of a plan in a homomorphic abstraction is a walk to a goal, under every cost
function that is finite on the operators of the plan. -/
theorem plan_walk (hom : Homomorphic task a α) {costs : List Int} {s : S}
    {ops : List Nat} {c : Int} (hplan : Plan task s ops c)
    (hfin : ∀ op ∈ ops, vget costs op ≠ INF) :
    ∃ vs c', PathTo a costs (α s :: vs) c' := by
  induction hplan with
  | goal s hg => exact ⟨[], 0, PathTo.goal _ (hom.goal s hg)⟩
  | step s op s' ops c htr _ ih =>
    obtain ⟨vs, c', hp⟩ := ih fun o ho => hfin o (List.mem_cons_of_mem _ ho)
    obtain ⟨_, hcase⟩ := hom.transition s op s' htr
    rcases hcase with ⟨e, _⟩ | ⟨t, ht, e1, e2, e3⟩
    · rw [e]; exact ⟨vs, c', hp⟩
    · have hf := hfin op (List.mem_cons_self _ _)
      rw [← e3] at hp
      rw [← e1] at hf
      rw [← e2]
      exact ⟨_, _, PathTo.step t vs c' ht hf hp⟩

/-- The potential of a region certificate telescopes along the image of a plan: the
potential of the image of the first state, and every vector that admits no relaxation, is
goal aware and is realized in the region, lie below the sum of the costs of the operators
of the plan; no operator of the plan costs less than the drop `-H`. -/
theorem plan_potential (hom : Homomorphic task a α) {costs socf : List Int}
    {G : Nat → Prop} {φ : Nat → Int} (hcert : RegionCertificate a socf G φ)
    (hloop : ∀ op, op < a.num_operators → bget a.has_loop op = true → 0 ≤ vget socf op)
    (hdom : ∀ op, vget socf op ≤ vget costs op)
    (hnn : ∀ op, 0 ≤ vget costs op)
    {H : Int} (hH : ∀ v, G v → (∃ vs c, PathTo a socf (v :: vs) c) → φ v ≤ H)
    {s : S} {ops : List Nat} {c : Int} (hplan : Plan task s ops c)
    (hfin : ∀ op ∈ ops, vget costs op ≠ INF)
    (hsum : operator_sum costs ops < INF) (hG : G (α s)) :
    (∀ op ∈ ops, -H ≤ vget socf op) ∧
    (∃ vs c', PathTo a socf (α s :: vs) c') ∧
    0 ≤ φ (α s) ∧ φ (α s) ≤ operator_sum socf ops ∧
    ∀ r, Feasible a socf r → GoalAware a r →
      (∀ v, G v → v < a.num_states →
        vget r v = INF ∨ ∃ vs, PathTo a socf (v :: vs) (vget r v)) →
      0 ≤ vget r (α s) ∧ vget r (α s) ≤ operator_sum socf ops := by
  induction hplan with
  | goal s hg =>
    have hgoal := hom.goal s hg
    have hw : ∃ vs c', PathTo a socf (α s :: vs) c' := ⟨[], 0, PathTo.goal _ hgoal⟩
    refine ⟨fun _ ho => absurd ho (List.not_mem_nil _), hw, hcert.nonneg _ hG hw,
      hcert.goal _ hgoal hG, ?_⟩
    intro r _ hga hreal
    have h1 : vget r (α s) ≤ 0 := hga _ hgoal
    refine ⟨?_, h1⟩
    rcases hreal _ hG (hom.state s) with e | ⟨vs, hp⟩
    · unfold INF at e; omega
    · have := potential_le_path hcert hp _ vs rfl hG
      have := hcert.nonneg _ hG hw
      omega
  | step s op s' ops c htr hrest ih =>
    have hfop := hfin op (List.mem_cons_self _ _)
    have hfin' : ∀ o ∈ ops, vget costs o ≠ INF :=
      fun o ho => hfin o (List.mem_cons_of_mem _ ho)
    rw [operator_sum_cons] at hsum
    have hsum' : operator_sum costs ops < INF := by
      have := hnn op
      omega
    have hsfin : vget socf op ≠ INF := by
      intro e
      have := hdom op
      have : operator_sum costs ops ≥ 0 := operator_sum_nonneg ops fun o _ => hnn o
      omega
    obtain ⟨hop, hcase⟩ := hom.transition s op s' htr
    rcases hcase with ⟨e, hl⟩ | ⟨t, ht, e1, e2, e3⟩
    · -- a self-loop of the abstraction
      rw [e] at hG ⊢
      obtain ⟨i1, i2, i3, i4, i5⟩ := ih hfin' hsum' hG
      have hl0 := hloop op hop hl
      have hH0 : 0 ≤ H := le_trans i3 (hH _ hG i2)
      refine ⟨?_, i2, i3, ?_, ?_⟩
      · intro o ho
        rcases List.mem_cons.1 ho with e' | ho'
        · rw [e']; omega
        · exact i1 o ho'
      · rw [operator_sum_cons]; omega
      · intro r hf hga hreal
        obtain ⟨j1, j2⟩ := i5 r hf hga hreal
        rw [operator_sum_cons]
        exact ⟨j1, by omega⟩
    · -- a transition of the abstraction
      rw [← e1] at hsfin
      have hGs : G t.source_id := by rw [e2]; exact hG
      have hGt : G t.target_id := hcert.closed t ht hsfin hGs
      have hGt' : G (α s') := by rw [← e3]; exact hGt
      obtain ⟨i1, i2, i3, i4, i5⟩ := ih hfin' hsum' hGt'
      have i2' : ∃ vs c', PathTo a socf (t.target_id :: vs) c' := by rw [e3]; exact i2
      obtain ⟨p1, p2⟩ := hcert.potential t ht hsfin hGs i2'
      obtain ⟨vs, c', hp⟩ := i2'
      have hw : ∃ vs c', PathTo a socf (α s :: vs) c' := by
        rw [← e2]
        exact ⟨_, _, PathTo.step t vs c' ht hsfin hp⟩
      have hφs := hcert.nonneg _ hG hw
      have hφt := hH _ hGt' i2
      rw [e1, e2, e3] at p1
      rw [operator_sum_cons]
      refine ⟨?_, hw, hφs, by omega, ?_⟩
      · intro o ho
        rcases List.mem_cons.1 ho with e' | ho'
        · rw [e']; omega
        · exact i1 o ho'
      · intro r hf hga hreal
        obtain ⟨j1, j2⟩ := i5 r hf hga hreal
        have hle : operator_sum socf ops ≤ operator_sum costs ops :=
          operator_sum_le ops fun o _ => hdom o
        have hfe := hf t ht
        rw [e1, e2, e3] at hfe
        rw [e1] at hsfin p2
        unfold path_addition at hfe
        rw [if_neg (by
          push_neg
          exact ⟨by omega, hsfin⟩), if_neg (by
          push_neg
          unfold INF
          unfold INF at p2
          exact ⟨by omega, p2⟩)] at hfe
        refine ⟨?_, by omega⟩
        rcases hreal _ hG (hom.state s) with e | ⟨vs', hp'⟩
        · unfold INF at e; omega
        · have := potential_le_path hcert hp' _ vs' rfl hG
          omega

end plans
/-! ## cost_saturation: reduce_costs and the lookup tables -/

section reduce

theorem foldlM_set_pointwise (bad : Int → Nat → Prop) [∀ x i, Decidable (bad x i)]
    (g : Int → Nat → Int) :
    ∀ (l : List Nat) (_ : l.Nodup) (x x' : List Int),
      l.foldlM (fun (x : List Int) i =>
        if bad (vget x i) i then none else some (x.set i (g (vget x i) i))) x = some x' →
      x'.length = x.length ∧
      (∀ v, vget x' v = if v ∈ l ∧ v < x.length then g (vget x v) v else vget x v) ∧
      ∀ v ∈ l, ¬ bad (vget x v) v := by
  intro l
  induction l with
  | nil =>
    intro _ x x' h
    simp only [List.foldlM, Option.pure_def, Option.some.injEq] at h
    rw [← h]
    exact ⟨rfl, fun v => by simp, fun v hv => absurd hv (List.not_mem_nil _)⟩
  | cons i l ih =>
    intro hnd x x' h
    rw [List.foldlM_cons] at h
    by_cases hb : bad (vget x i) i
    · rw [if_pos hb] at h
      simp at h
    · rw [if_neg hb] at h
      simp only [Option.bind_eq_bind, Option.some_bind] at h
      obtain ⟨h1, h2, h3⟩ := ih (List.nodup_cons.1 hnd).2 _ _ h
      have hni := (List.nodup_cons.1 hnd).1
      rw [List.length_set] at h1 h2
      refine ⟨h1, ?_, ?_⟩
      · intro v
        rw [h2 v]
        by_cases hvi : v = i
        · rw [hvi, if_neg (fun hc => hni hc.1)]
          by_cases hlt : i < x.length
          · rw [if_pos ⟨List.mem_cons_self _ _, hlt⟩, vget_set, if_pos ⟨rfl, hlt⟩]
          · rw [if_neg (fun hc => hlt hc.2), vget_set, if_neg (fun hc => hlt hc.2)]
        · have hne : vget (x.set i (g (vget x i) i)) v = vget x v := by
            rw [vget_set, if_neg (fun hc => hvi hc.1.symm)]
          rw [hne]
          by_cases hc : v ∈ l ∧ v < x.length
          · rw [if_pos hc, if_pos ⟨List.mem_cons_of_mem _ hc.1, hc.2⟩]
          · rw [if_neg hc, if_neg]
            intro hd
            rcases List.mem_cons.1 hd.1 with e | e
            · exact hvi e
            · exact hc ⟨e, hd.2⟩
      · intro v hv
        rcases List.mem_cons.1 hv with e | e
        · rw [e]; exact hb
        · have hvi : v ≠ i := fun e' => hni (e' ▸ e)
          have hne : vget (x.set i (g (vget x i) i)) v = vget x v := by
            rw [vget_set, if_neg (fun hc => hvi hc.1.symm)]
          have := h3 v e
          rw [hne] at this
          exact this

/-- What `reduce_costs` returns: no saturated cost exceeds the remaining cost, and every
remaining cost that is finite is reduced by the saturated cost, or set to `INF` if the
saturated cost is `-INF`. -/
theorem reduce_costs_spec {remaining saturated out : List Int}
    (h : cost_saturation.reduce_costs remaining saturated = some out) :
    out.length = remaining.length ∧
    (∀ i, i < remaining.length → vget saturated i ≤ vget remaining i) ∧
    ∀ i, vget out i =
      if vget remaining i = INF ∨ vget remaining i = -INF then vget remaining i
      else if i < remaining.length then
        (if vget saturated i = -INF then INF else vget remaining i - vget saturated i)
      else vget remaining i := by
  have hstep : (fun (x : List Int) i =>
      if vget saturated i > vget x i then none
      else if vget x i = INF ∨ vget x i = -INF then some x
      else if vget saturated i = -INF then some (x.set i INF)
      else some (x.set i (vget x i - vget saturated i)))
      = fun x i => if (fun y j => vget saturated j > y) (vget x i) i then none
          else some (x.set i ((fun y j =>
            if y = INF ∨ y = -INF then y
            else if vget saturated j = -INF then INF else y - vget saturated j)
            (vget x i) i)) := by
    funext x i
    simp only
    split_ifs
    · rfl
    · rw [set_vget_self]
    · rfl
    · rfl
  unfold cost_saturation.reduce_costs at h
  simp only at h
  rw [hstep] at h
  obtain ⟨h1, h2, h3⟩ := foldlM_set_pointwise (fun y j => vget saturated j > y)
    (fun y j =>
      if y = INF ∨ y = -INF then y
      else if vget saturated j = -INF then INF else y - vget saturated j)
    _ (List.nodup_range _) _ _ h
  refine ⟨h1, ?_, ?_⟩
  · intro i hi
    have := h3 i (List.mem_range.2 hi)
    simp only [gt_iff_lt, not_lt] at this
    exact this
  · intro i
    rw [h2 i]
    simp only [List.mem_range, and_self]
    split_ifs <;> rfl

end reduce
/-! ## The lookup tables of a cost-partitioning heuristic -/

section tables

theorem tablesSum_nil (ids : List Nat) : TablesSum ids [] 0 := by
  intro rest sum_h
  simp

theorem tablesSum_append {ids : List Nat} {tables : List LookupTable} {S : Int}
    (h : TablesSum ids tables S) (table : LookupTable)
    (h1 : vget table.h_values (ids.getD table.abstraction_id 0) ≠ INF)
    (h2 : vget table.h_values (ids.getD table.abstraction_id 0) ≠ -INF) :
    TablesSum ids (tables ++ [table])
      (S + vget table.h_values (ids.getD table.abstraction_id 0)) := by
  intro rest sum_h
  rw [List.append_assoc, h]
  simp only [List.singleton_append, compute_heuristic_from]
  rw [if_neg (by push_neg; exact ⟨h2, h1⟩), add_assoc]
  rfl

theorem tablesSum_neg_inf {ids : List Nat} {tables : List LookupTable} {S : Int}
    (h : TablesSum ids tables S) (table : LookupTable)
    (h1 : vget table.h_values (ids.getD table.abstraction_id 0) = -INF) :
    TablesNegInf ids (tables ++ [table]) := by
  intro rest sum_h
  rw [List.append_assoc, h]
  simp only [List.singleton_append, compute_heuristic_from]
  rw [if_pos (Or.inl h1), h1]

theorem tablesNegInf_append {ids : List Nat} {tables : List LookupTable}
    (h : TablesNegInf ids tables) (more : List LookupTable) :
    TablesNegInf ids (tables ++ more) := by
  intro rest sum_h
  rw [List.append_assoc]
  exact h _ _

theorem get_lookup_table_index_fresh (cp : CostPartitioningHeuristic) (abstraction_id : Nat)
    (h : ∀ table ∈ cp.lookup_tables, table.abstraction_id ≠ abstraction_id) :
    cp.get_lookup_table_index abstraction_id = none := by
  unfold CostPartitioningHeuristic.get_lookup_table_index
  simp only
  rw [if_neg]
  rw [not_lt]
  apply le_of_eq
  symm
  rw [List.findIdx_eq_length]
  intro x hx
  exact decide_eq_false (h x hx)

/-- Adding the table of an abstraction that has no table yet appends the table, unless all
its entries are `0`. -/
theorem add_h_values_fresh (cp : CostPartitioningHeuristic) (abstraction_id : Nat)
    (h_values : List Int)
    (h : ∀ table ∈ cp.lookup_tables, table.abstraction_id ≠ abstraction_id) :
    ((cp.add_h_values abstraction_id h_values).lookup_tables
        = cp.lookup_tables ++ [⟨abstraction_id, h_values⟩]) ∨
    ((cp.add_h_values abstraction_id h_values).lookup_tables = cp.lookup_tables ∧
      ∀ v, vget h_values v = 0) := by
  unfold CostPartitioningHeuristic.add_h_values
  by_cases hany : h_values.any (fun h => decide (h ≠ 0)) = true
  · rw [if_pos hany, get_lookup_table_index_fresh cp abstraction_id h]
    exact Or.inl rfl
  · rw [if_neg hany]
    right
    refine ⟨rfl, ?_⟩
    intro v
    by_contra hne
    apply hany
    rw [List.any_eq_true]
    exact ⟨vget h_values v, vget_mem (vget_of_lt hne), decide_eq_true hne⟩

/-- The effect of `add_h_values` for an abstraction without a table on the evaluation at
the abstract state ids `ids`. -/
theorem add_h_values_sum (cp : CostPartitioningHeuristic) (abstraction_id : Nat)
    (h_values : List Int) (ids : List Nat)
    (h : ∀ table ∈ cp.lookup_tables, table.abstraction_id ≠ abstraction_id) :
    (∀ table ∈ (cp.add_h_values abstraction_id h_values).lookup_tables,
      table.abstraction_id = abstraction_id ∨ table ∈ cp.lookup_tables) ∧
    (TablesNegInf ids cp.lookup_tables →
      TablesNegInf ids (cp.add_h_values abstraction_id h_values).lookup_tables) ∧
    (∀ S, TablesSum ids cp.lookup_tables S →
      vget h_values (ids.getD abstraction_id 0) = -INF →
      TablesNegInf ids (cp.add_h_values abstraction_id h_values).lookup_tables) ∧
    (∀ S, TablesSum ids cp.lookup_tables S →
      vget h_values (ids.getD abstraction_id 0) ≠ INF →
      vget h_values (ids.getD abstraction_id 0) ≠ -INF →
      TablesSum ids (cp.add_h_values abstraction_id h_values).lookup_tables
        (S + vget h_values (ids.getD abstraction_id 0))) := by
  rcases add_h_values_fresh cp abstraction_id h_values h with e | ⟨e, hz⟩
  · rw [e]
    refine ⟨?_, fun hn => tablesNegInf_append hn _, ?_, ?_⟩
    · intro table ht
      rcases List.mem_append.1 ht with h1 | h1
      · exact Or.inr h1
      · rw [List.mem_singleton] at h1
        rw [h1]
        exact Or.inl rfl
    · intro S hS hneg
      exact tablesSum_neg_inf hS ⟨abstraction_id, h_values⟩ hneg
    · intro S hS h1 h2
      exact tablesSum_append hS ⟨abstraction_id, h_values⟩ h1 h2
  · rw [e]
    refine ⟨fun table ht => Or.inr ht, fun hn => hn, ?_, ?_⟩
    · intro S _ hneg
      rw [hz] at hneg
      unfold INF at hneg
      omega
    · intro S hS _ _
      rw [hz, add_zero]
      exact hS

end tables
/-! ## One iteration of the saturated cost partitioning -/

section step
variable {S : Type} {task : PlanningTask S} {a : ExplicitAbstraction} {α : S → Nat}

theorem plan_operators (hom : Homomorphic task a α) {s : S} {ops : List Nat} {c : Int}
    (hplan : Plan task s ops c) : ∀ op ∈ ops, op < a.num_operators := by
  induction hplan with
  | goal s _ => exact fun _ ho => absurd ho (List.not_mem_nil _)
  | step s op s' ops c htr _ ih =>
    intro o ho
    rcases List.mem_cons.1 ho with e | e
    · rw [e]; exact (hom.transition s op s' htr).1
    · exact ih o e

/-- With finite costs of at most `B`, the goal distance of a state that reaches a goal is
at most `B * num_states - B`. -/
theorem goalDistances_le_bound (ha : a.WellFormed) {ocf : List Int}
    (hcost : NonnegativeCosts ocf) {B : Int} (hB : 0 ≤ B)
    (hle : ∀ op, vget ocf op ≠ INF → vget ocf op ≤ B) {h : List Int}
    (hgd : GoalDistances a ocf h) {v : Nat} {vs : List Nat} {c : Int}
    (hp : PathTo a ocf (v :: vs) c) : vget h v ≤ B * a.num_states - B := by
  obtain ⟨rest, c', _, hp', hnd⟩ :=
    pathTo_simple (fun _ => True) (fun _ => 0)
      (fun t' _ _ _ _ => ⟨trivial, by
        have := (vget_nonneg_of_costs hcost t'.op_id).1
        simp only [sub_zero]
        exact this⟩) hp v vs rfl trivial
  have h1 := pathTo_cost_bound hle hp'
  have h2 := nodup_length_le hnd (pathTo_bounds ha hp')
  have h3 : B * ((v :: rest).length : Int) ≤ B * a.num_states :=
    mul_le_mul_of_nonneg_left (by exact_mod_cast h2) hB
  have h4 := feasible_le_path hcost hgd.bounds (fun g hg => le_of_eq (hgd.goals g hg))
    hgd.feasible hp' v rest rfl
  omega

/-- The parts of an iteration of the loop that returns, with the cap saturator as the only
saturator. -/
theorem saturate_abstraction_some {abstractions : List ExplicitAbstraction}
    {sat : cost_saturation.SaturatorCap} {fuel : Nat} {build_ids : List Nat}
    {st st' : CostPartitioningHeuristic × List Int} {abstraction_id : Nat}
    (hget : abstractions[abstraction_id]? = some a)
    (h : cost_saturation.saturate_abstraction abstractions [sat] fuel build_ids st
      abstraction_id = some st') :
    ∃ h_values res remaining,
      a.compute_goal_distances fuel st.2 = some h_values ∧
      sat.saturate a abstraction_id fuel st.2 h_values
        (build_ids.getD abstraction_id 0) = some res ∧
      cost_saturation.reduce_costs st.2 res.saturated_costs = some remaining ∧
      st' = (st.1.add_h_values abstraction_id res.h_values, remaining) := by
  unfold cost_saturation.saturate_abstraction at h
  rw [hget] at h
  simp only [Option.bind_eq_some, Option.map_eq_some'] at h
  obtain ⟨h_values, e1, res, e2, remaining, e3, e4⟩ := h
  refine ⟨h_values, res, remaining, e1, ?_, e3, e4.symm⟩
  simp only [List.foldlM, Option.bind_eq_bind] at e2
  cases hs : sat.saturate a abstraction_id fuel st.2 h_values
      (build_ids.getD abstraction_id 0) with
  | none => rw [hs] at e2; simp at e2
  | some r =>
    rw [hs] at e2
    simp only [Option.some_bind, Option.pure_def, Option.some.injEq] at e2
    rw [e2]

/-- One iteration of the loop keeps the invariant. -/
theorem saturate_abstraction_invariant (ha : a.WellFormed) (hom : Homomorphic task a α)
    {B : Int} (hB : 0 ≤ B) (hBn : B * a.num_states < INF)
    {abstractions : List ExplicitAbstraction} {sat : cost_saturation.SaturatorCap}
    {abstraction_id : Nat} (hget : abstractions[abstraction_id]? = some a)
    (hinit : sat.reachable = Reachable.FROM_INIT →
      ∃ Rm, sat.unreachable_from_init.getD abstraction_id []
          = cost_saturation.unreachable_states a.num_states Rm ∧
        ∀ t ∈ a.for_each_transition,
          bget Rm t.source_id = true → bget Rm t.target_id = true)
    {build_ids ids : List Nat} (hq : build_ids.getD abstraction_id 0 < a.num_states)
    {s : S} (hids : ids.getD abstraction_id 0 = α s)
    {ops : List Nat} {c : Int} (hplan : Plan task s ops c) (hc : c < INF)
    {processed : List Nat} (hfresh : abstraction_id ∉ processed) {fuel : Nat}
    {st st' : CostPartitioningHeuristic × List Int}
    (hinv : PartitionInvariant task.operator_costs B processed ids ops c st)
    (hstep : cost_saturation.saturate_abstraction abstractions [sat] fuel build_ids st
      abstraction_id = some st')
    (hbound : sat.use_general_costs = true →
      ∀ op, vget st'.2 op = INF ∨ vget st'.2 op ≤ B) :
    PartitionInvariant task.operator_costs B (processed ++ [abstraction_id]) ids ops c
      st' := by
  obtain ⟨h, res, R', e1, e2, e3, e4⟩ := saturate_abstraction_some hget hstep
  have hn0 : 0 < a.num_states := lt_of_le_of_lt (Nat.zero_le _) hq
  have hBI : B < INF := by
    have : B * 1 ≤ B * a.num_states :=
      mul_le_mul_of_nonneg_left (by exact_mod_cast hn0) hB
    omega
  have hcost : NonnegativeCosts st.2 := by
    intro x hx
    obtain ⟨i, _, e⟩ := mem_iff_vget hx
    rw [← e]
    refine ⟨hinv.nonneg i, ?_⟩
    rcases hinv.bounded i with k | k
    · rw [k]
    · omega
  have hle : ∀ op, vget st.2 op ≠ INF → vget st.2 op ≤ B := by
    intro op hne
    rcases hinv.bounded op with k | k
    · exact absurd k hne
    · exact k
  have hno : NoOverflow a st.2 := by
    apply noOverflow_of_bound ha B hB _ hBn
    intro x hx
    obtain ⟨i, _, e⟩ := mem_iff_vget hx
    rw [← e]
    exact hinv.bounded i
  have hocf : st.2.length = a.num_operators := by rw [hinv.len, hom.operators]
  rw [compute_goal_distances_nonneg hcost] at e1
  have hgd := (dijkstra_goal_distances ha hcost).1 fuel h e1
  obtain ⟨hdom, hinf, hlen, hloop, hnn, G, φ, hcert, hφle, hneg, hval⟩ :=
    cs_saturate_sound ha hcost hocf hno hgd hq
      (fun hm => by
        obtain ⟨Rm, k1, k2⟩ := hinit hm
        exact ⟨Rm, k1, fun t ht _ => k2 t ht⟩) e2
  obtain ⟨r1, r2, r3⟩ := reduce_costs_spec e3
  have hst' : st'.2 = R' := by rw [e4]
  have hst1 : st'.1 = st.1.add_h_values abstraction_id res.h_values := by rw [e4]
  have hnotneg : ∀ i, vget st.2 i ≠ -INF := by
    intro i hc'
    have := hinv.nonneg i
    unfold INF at hc'
    omega
  have hfreshT : ∀ table ∈ st.1.lookup_tables, table.abstraction_id ≠ abstraction_id :=
    fun table ht e => hfresh (e ▸ hinv.tables table ht)
  obtain ⟨t1, t2, t3, t4⟩ := add_h_values_sum st.1 abstraction_id res.h_values ids hfreshT
  have hnonneg' : ∀ op, 0 ≤ vget R' op := by
    intro op
    rw [r3 op]
    have k0 := hinv.nonneg op
    split_ifs with c1 c2 c3
    · exact k0
    · unfold INF; omega
    · have := hdom op
      omega
    · exact k0
  have hbounded' : ∀ op, vget R' op = INF ∨ vget R' op ≤ B := by
    by_cases hg : sat.use_general_costs = true
    · rw [← hst']; exact hbound hg
    · intro op
      have hs0 := hnn (by simpa using hg) op
      rw [r3 op]
      split_ifs with c1 c2 c3
      · rcases c1 with c1 | c1
        · exact Or.inl c1
        · exact absurd c1 (hnotneg op)
      · exact Or.inl rfl
      · right
        have := hle op (fun e => c1 (Or.inl e))
        omega
      · exact hinv.bounded op
  refine ⟨by rw [hst', r1, hinv.len], by rw [hst']; exact hnonneg',
    by rw [hst']; exact hbounded', ?_, ?_⟩
  · intro table ht
    rw [hst1] at ht
    rcases t1 table ht with e | e
    · rw [e]; exact List.mem_append_right _ (List.mem_singleton_self _)
    · exact List.mem_append_left _ (hinv.tables table e)
  · rw [hst1, hst']
    rcases hinv.value with hN | ⟨S0, hS, hS0, hfin, hsum⟩
    · exact Or.inl (t2 hN)
    · have hu : α s < a.num_states := hom.state s
      obtain ⟨vs, cw, hw⟩ : ∃ vs c', PathTo a st.2 (α s :: vs) c' := plan_walk hom hplan hfin
      have hhfin : vget h (α s) ≠ INF := goalDistances_finite hcost hno hgd hw
      have hsumR : operator_sum st.2 ops < INF := by omega
      by_cases hG : G (α s)
      · right
        have hH : ∀ v, G v → (∃ vs c, PathTo a res.saturated_costs (v :: vs) c) →
            φ v ≤ B * a.num_states - B := by
          intro v hGv ⟨vs', c', hp⟩
          obtain ⟨c'', _, hp'⟩ := pathTo_change_costs hinf hdom hp
          have hv := pathTo_bounds ha hp' v (List.mem_cons_self _ _)
          have k1 := goalDistances_finite hcost hno hgd hp'
          have k2 := goalDistances_le_bound ha hcost hB hle hgd hp'
          have k3 := hφle v hv hGv k1
          omega
        obtain ⟨p1, _, p3, p4, p5⟩ := plan_potential hom hcert hloop hdom hinv.nonneg hH
          hplan hfin hsumR hG
        have hsle : operator_sum res.saturated_costs ops ≤ operator_sum st.2 ops :=
          operator_sum_le ops fun o _ => hdom o
        have hval' : 0 ≤ vget res.h_values (α s) ∧
            vget res.h_values (α s) ≤ operator_sum res.saturated_costs ops := by
          rcases hval with k | ⟨r, k1, k2, k3, k4⟩
          · rw [k _ hG]; exact ⟨p3, p4⟩
          · rw [k4 _ hu hG hhfin]; exact p5 r k1 k2 k3
        have hops := plan_operators hom hplan
        have hR'op : ∀ op ∈ ops,
            vget R' op = vget st.2 op - vget res.saturated_costs op := by
          intro op ho
          rw [r3 op, if_neg (by
            push_neg
            exact ⟨hfin op ho, hnotneg op⟩), if_pos (by rw [hocf]; exact hops op ho),
            if_neg (by
              have := p1 op ho
              unfold INF
              unfold INF at hBn
              omega)]
        refine ⟨S0 + vget res.h_values (ids.getD abstraction_id 0), ?_, ?_, ?_, ?_⟩
        · apply t4 S0 hS
          · rw [hids]; unfold INF at hsumR ⊢; omega
          · rw [hids]; unfold INF; omega
        · rw [hids]; omega
        · intro op ho
          rw [hR'op op ho]
          have k1 := p1 op ho
          have k2 := hle op (hfin op ho)
          omega
        · rw [operator_sum_sub ops hR'op, hids]
          omega
      · left
        apply t3 S0 hS
        rw [hids]
        exact hneg _ hu hG hhfin

end step
/-! ## The run of the saturated cost partitioning -/

section run

theorem unreachable_fold_spec (fuel : Nat) (costs : List Int) :
    ∀ (l : List (ExplicitAbstraction × Nat)) (init out : List (List Nat)),
      l.foldlM (fun (unreachable_from_init : List (List Nat))
          (p : ExplicitAbstraction × Nat) =>
        (p.1.compute_reachability_from_state fuel costs p.2).map fun reachable_from_init =>
          unreachable_from_init ++
            [cost_saturation.unreachable_states p.1.num_states reachable_from_init])
        init = some out →
      ∀ i p, l[i]? = some p →
        ∃ Rm, p.1.compute_reachability_from_state fuel costs p.2 = some Rm ∧
          out[init.length + i]? = some (cost_saturation.unreachable_states p.1.num_states Rm) := by
  intro l
  induction l with
  | nil =>
    intro init out _ i p hp
    simp at hp
  | cons q l ih =>
    intro init out h i p hp
    rw [List.foldlM_cons] at h
    simp only [Option.bind_eq_bind, Option.bind_eq_some, Option.map_eq_some'] at h
    obtain ⟨acc, ⟨Rm, hRm, hacc⟩, hrest⟩ := h
    have hkeep : ∀ (l' : List (ExplicitAbstraction × Nat)) (x y : List (List Nat)),
        l'.foldlM (fun (unreachable_from_init : List (List Nat))
            (p : ExplicitAbstraction × Nat) =>
          (p.1.compute_reachability_from_state fuel costs p.2).map
            fun reachable_from_init =>
              unreachable_from_init ++
                [cost_saturation.unreachable_states p.1.num_states reachable_from_init])
          x = some y →
        ∀ j, j < x.length → y[j]? = x[j]? := by
      intro l'
      induction l' with
      | nil =>
        intro x y hxy j _
        simp only [List.foldlM, Option.pure_def, Option.some.injEq] at hxy
        rw [hxy]
      | cons q' l' ih' =>
        intro x y hxy j hj
        rw [List.foldlM_cons] at hxy
        simp only [Option.bind_eq_bind, Option.bind_eq_some, Option.map_eq_some'] at hxy
        obtain ⟨acc', ⟨R', _, hacc'⟩, hrest'⟩ := hxy
        rw [ih' acc' y hrest' j (by rw [← hacc', List.length_append]; omega), ← hacc',
          List.getElem?_append_left hj]
    cases i with
    | zero =>
      simp only [List.getElem?_cons_zero, Option.some.injEq] at hp
      rw [← hp]
      refine ⟨Rm, hRm, ?_⟩
      rw [add_zero, hkeep l acc out hrest init.length
        (by rw [← hacc, List.length_append, List.length_singleton]; omega), ← hacc,
        List.getElem?_append_right (le_refl _)]
      simp
    | succ i =>
      simp only [List.getElem?_cons_succ] at hp
      obtain ⟨Rm', k1, k2⟩ := ih acc out hrest i p hp
      refine ⟨Rm', k1, ?_⟩
      rw [← hacc, List.length_append, List.length_singleton] at k2
      rw [← k2]
      congr 1
      omega

/-- What `SaturatorCap::initialize` returns: the options of the saturator, and for
`reachable = FROM_INIT` the list of the states that the reachability search from the
abstract initial state did not mark, for every abstraction. -/
theorem initialize_spec {s sat : cost_saturation.SaturatorCap}
    {abstractions : List ExplicitAbstraction} {fuel : Nat} {costs : List Int}
    {initial_state_ids : List Nat} (h0 : s.unreachable_from_init = [])
    (h : cost_saturation.SaturatorCap.initialize s abstractions fuel costs
      initial_state_ids = some sat) :
    sat.use_general_costs = s.use_general_costs ∧
    sat.recompute_h_values = s.recompute_h_values ∧
    sat.reachable = s.reachable ∧ sat.cap = s.cap ∧
    (s.reachable = Reachable.FROM_INIT → ∀ i a q, abstractions[i]? = some a →
      initial_state_ids[i]? = some q →
      ∃ Rm, a.compute_reachability_from_state fuel costs q = some Rm ∧
        sat.unreachable_from_init.getD i []
          = cost_saturation.unreachable_states a.num_states Rm) := by
  unfold cost_saturation.SaturatorCap.initialize at h
  by_cases hr : s.reachable = Reachable.FROM_INIT
  · rw [if_pos hr] at h
    simp only [Option.map_eq_some'] at h
    obtain ⟨out, hout, e⟩ := h
    rw [← e]
    refine ⟨rfl, rfl, rfl, rfl, ?_⟩
    intro _ i a q hi hq
    have hz : (abstractions.zip initial_state_ids)[i]? = some (a, q) := by
      rw [List.getElem?_zip_eq_some]
      exact ⟨hi, hq⟩
    obtain ⟨Rm, k1, k2⟩ := unreachable_fold_spec fuel costs _ _ _ hout i (a, q) hz
    refine ⟨Rm, k1, ?_⟩
    rw [h0, List.length_nil, zero_add] at k2
    simp only
    rw [List.getD_eq_getElem?_getD, k2]
    rfl
  · rw [if_neg hr] at h
    simp only [Option.some.injEq] at h
    rw [← h]
    exact ⟨rfl, rfl, rfl, rfl, fun hc => absurd hc hr⟩

theorem get_abstract_state_ids_getD {S : Type} (αs : List (S → Nat)) (s : S) (i : Nat)
    (α : S → Nat) (h : αs[i]? = some α) :
    (get_abstract_state_ids αs s)[i]? = some (α s) ∧
    (get_abstract_state_ids αs s).getD i 0 = α s := by
  have e : (get_abstract_state_ids αs s)[i]? = some (α s) := by
    unfold get_abstract_state_ids
    rw [List.getElem?_map, h]
    rfl
  refine ⟨e, ?_⟩
  rw [List.getD_eq_getElem?_getD, e]
  rfl

theorem not_mem_take_of_nodup {l : List Nat} (h : l.Nodup) {k : Nat} (hk : k < l.length) :
    l[k] ∉ l.take k := by
  intro hm
  obtain ⟨j, hj, e⟩ := List.mem_iff_getElem.1 hm
  rw [List.length_take] at hj
  rw [List.getElem_take] at e
  have := (List.Nodup.getElem_inj_iff h).1 e
  omega

/-- The invariant holds after every number of iterations of the loop. -/
theorem saturated_cost_partitioning_invariant {S : Type} {task : PlanningTask S}
    {abstractions : List ExplicitAbstraction} {αs : List (S → Nat)} {order : List Nat}
    {sat : cost_saturation.SaturatorCap} {fuel : Nat} {B : Int}
    {s0 s : S}
    (hcost : ∀ c ∈ task.operator_costs, 0 ≤ c ∧ c ≤ B) (hB : 0 ≤ B ∧ B < INF)
    (hBn : ∀ a ∈ abstractions, B * a.num_states < INF)
    (habs : List.Forall₂ (fun a α => a.WellFormed ∧ Homomorphic task a α) abstractions αs)
    (horder : order.Nodup) (hrange : ∀ i ∈ order, i < abstractions.length)
    (hinit : sat.reachable = Reachable.FROM_INIT → ∀ i a, abstractions[i]? = some a →
      ∃ Rm, sat.unreachable_from_init.getD i []
          = cost_saturation.unreachable_states a.num_states Rm ∧
        ∀ t ∈ a.for_each_transition,
          bget Rm t.source_id = true → bget Rm t.target_id = true)
    (hgen : sat.use_general_costs = true → ∀ k st,
      cost_saturation.compute_saturated_cost_partitioning_with_saturators abstractions
        (order.take k) [sat] fuel task.operator_costs (get_abstract_state_ids αs s0)
        = some st → ∀ c ∈ st.2, c = INF ∨ c ≤ B)
    {ops : List Nat} {c : Int} (hplan : Plan task s ops c) (hc : c < INF) :
    ∀ k, k ≤ order.length → ∀ st,
      cost_saturation.compute_saturated_cost_partitioning_with_saturators abstractions
        (order.take k) [sat] fuel task.operator_costs (get_abstract_state_ids αs s0)
        = some st →
      PartitionInvariant task.operator_costs B (order.take k)
        (get_abstract_state_ids αs s) ops c st := by
  have hv : ∀ op, 0 ≤ vget task.operator_costs op ∧ vget task.operator_costs op ≤ B := by
    intro op
    by_cases hop : op < task.operator_costs.length
    · exact hcost _ (vget_mem hop)
    · rw [vget_of_length_le (by omega)]
      exact ⟨le_refl _, hB.1⟩
  intro k
  induction k with
  | zero =>
    intro _ st hst
    unfold cost_saturation.compute_saturated_cost_partitioning_with_saturators at hst
    simp only [List.take_zero, List.foldlM, Option.pure_def, Option.some.injEq] at hst
    rw [← hst]
    refine ⟨rfl, fun op => (hv op).1, fun op => Or.inr (hv op).2,
      fun _ ht => absurd ht (List.not_mem_nil _), Or.inr ⟨0, tablesSum_nil _, le_refl _, ?_, ?_⟩⟩
    · intro op _ e
      have := (hv op).2
      simp only at e
      omega
    · rw [zero_add, ← plan_cost_eq hplan]
  | succ k ih =>
    intro hk st hst
    have hk' : k < order.length := hk
    unfold cost_saturation.compute_saturated_cost_partitioning_with_saturators at hst
    rw [List.take_succ, List.getElem?_eq_getElem hk', Option.toList_some,
      List.foldlM_append] at hst
    simp only [Option.bind_eq_bind, Option.bind_eq_some] at hst
    obtain ⟨stk, h1, h2⟩ := hst
    simp only [List.foldlM, Option.bind_eq_bind] at h2
    have h2' : cost_saturation.saturate_abstraction abstractions [sat] fuel
        (get_abstract_state_ids αs s0) stk order[k] = some st := by
      cases hs : cost_saturation.saturate_abstraction abstractions [sat] fuel
          (get_abstract_state_ids αs s0) stk order[k] with
      | none => rw [hs] at h2; simp at h2
      | some r =>
        rw [hs] at h2
        simp only [Option.some_bind, Option.pure_def, Option.some.injEq] at h2
        rw [h2]
    have hinvk := ih (le_of_lt hk') stk h1
    have hid : order[k] < abstractions.length := hrange _ (List.getElem_mem hk')
    have hlen := habs.length_eq
    have hid2 : order[k] < αs.length := by rw [← hlen]; exact hid
    have hpair := (List.forall₂_iff_get.1 habs).2 order[k] hid hid2
    have hget : abstractions[order[k]]? = some abstractions[order[k]] :=
      List.getElem?_eq_getElem hid
    have hα : αs[order[k]]? = some αs[order[k]] := List.getElem?_eq_getElem hid2
    rw [List.take_succ, List.getElem?_eq_getElem hk', Option.toList_some]
    apply saturate_abstraction_invariant hpair.1 hpair.2 hB.1
      (hBn _ (List.getElem_mem hid)) hget
      (fun hm => hinit hm _ _ hget)
      (by
        rw [(get_abstract_state_ids_getD αs s0 _ _ hα).2]
        exact hpair.2.state s0)
      (get_abstract_state_ids_getD αs s _ _ hα).2 hplan hc
      (not_mem_take_of_nodup horder hk') hinvk h2'
    intro hg op
    have hall := hgen hg (k + 1) st (by
      unfold cost_saturation.compute_saturated_cost_partitioning_with_saturators
      rw [List.take_succ, List.getElem?_eq_getElem hk', Option.toList_some,
        List.foldlM_append, h1]
      simp only [Option.bind_eq_bind, Option.some_bind, List.foldlM, h2']
      rfl)
    by_cases hop : op < st.2.length
    · exact hall _ (vget_mem hop)
    · rw [vget_of_length_le (by omega)]
      exact Or.inr hB.1

end run
/-! ## cost_saturation: the searches and the loops return -/

section returns

theorem count_false_set {R : List Bool} {i : Nat} (hi : i < R.length)
    (h : bget R i = false) :
    (R.set i true).count false + 1 = R.count false := by
  have e : R[i] = false := by
    unfold bget at h
    rw [List.getD_eq_getElem?_getD, List.getElem?_eq_getElem hi] at h
    exact h
  have hpos : 0 < R.count false := by
    rw [List.count_pos_iff]
    rw [← e]
    exact List.getElem_mem hi
  rw [List.count_set true false R i hi, e]
  simp only [beq_self_eq_true, if_true, Bool.true_eq_false, if_false, add_zero,
    show ((true == false) = true) = False from by simp]
  omega

/-- The loop over the arcs out of one state does not raise the measure of the search:
twice the number of unmarked states plus the height of the stack. -/
theorem reachability_visit_measure (costs : List Int) (n : Nat) (l : List Successor)
    (hl : ∀ s ∈ l, s.target_id < n) :
    ∀ acc : List Nat × List Bool, acc.2.length = n →
      2 * (l.foldl (reachability_visit costs) acc).2.count false
          + (l.foldl (reachability_visit costs) acc).1.length
        ≤ 2 * acc.2.count false + acc.1.length := by
  induction l with
  | nil => exact fun acc _ => le_refl _
  | cons s l ih =>
    intro acc hacc
    rw [List.foldl_cons]
    have hs := hl s (List.mem_cons_self s l)
    have hstep : (reachability_visit costs acc s).2.length = n ∧
        2 * (reachability_visit costs acc s).2.count false
            + (reachability_visit costs acc s).1.length
          ≤ 2 * acc.2.count false + acc.1.length := by
      unfold reachability_visit
      by_cases hc : bget acc.2 s.target_id = false ∧ vget costs s.op_id ≠ INF
      · rw [if_pos hc]
        simp only [List.length_cons]
        refine ⟨by rw [List.length_set]; exact hacc, ?_⟩
        have := count_false_set (by rw [hacc]; exact hs) hc.1
        omega
      · rw [if_neg hc]
        exact ⟨hacc, le_refl _⟩
    exact le_trans (ih (fun x hx => hl x (List.mem_cons_of_mem s hx)) _ hstep.1) hstep.2

/-- The reachability search returns when its fuel exceeds its measure. -/
theorem reachability_search_returns (graph : List (List Successor)) (costs : List Int)
    (n : Nat) (hgraph : ∀ v, ∀ s ∈ graph.getD v [], s.target_id < n) :
    ∀ (fuel : Nat) (open_ : List Nat) (R : List Bool), R.length = n →
      2 * R.count false + open_.length < fuel →
      ∃ out, reachability_search graph costs fuel open_ R = some out := by
  intro fuel
  induction fuel with
  | zero => intro _ _ _ h; omega
  | succ fuel ih =>
    intro open_ R hR hm
    cases open_ with
    | nil => exact ⟨R, rfl⟩
    | cons v rest =>
      unfold reachability_search
      simp only
      have h1 := reachability_visit_measure costs n _ (hgraph v) (rest, R) hR
      have h2 := (reachability_visit_fold costs n _ (hgraph v) (rest, R) hR).1
      apply ih _ _ h2
      simp only [List.length_cons] at hm
      simp only at h1
      omega

theorem compute_reachability_from_state_returns {a : ExplicitAbstraction}
    (ha : a.WellFormed) (costs : List Int) (state_id : Nat) {fuel : Nat}
    (hfuel : 2 * a.num_states + 1 < fuel) :
    ∃ R, a.compute_reachability_from_state fuel costs state_id = some R := by
  unfold ExplicitAbstraction.compute_reachability_from_state
  have hgraph : ∀ v, ∀ s ∈ (get_forward_graph a).getD v [], s.target_id < a.num_states := by
    intro v s hs'
    obtain ⟨_, t, ht, _, e⟩ := (mem_get_forward_graph a v s).1 hs'
    rw [e]
    exact (transition_bounds ha ht).2.1
  have hlen : ((List.replicate a.num_states false).set state_id true).length
      = a.num_states := by
    rw [List.length_set, List.length_replicate]
  apply reachability_search_returns _ costs a.num_states hgraph _ _ _ hlen
  have hc := List.count_le_length false ((List.replicate a.num_states false).set state_id true)
  rw [hlen] at hc
  simp only [List.length_singleton]
  omega

theorem foldlM_set_returns (bad : Int → Nat → Prop) [∀ x i, Decidable (bad x i)]
    (g : Int → Nat → Int) :
    ∀ (l : List Nat) (_ : l.Nodup) (x : List Int), (∀ v ∈ l, ¬ bad (vget x v) v) →
      ∃ x', l.foldlM (fun (x : List Int) i =>
        if bad (vget x i) i then none else some (x.set i (g (vget x i) i))) x = some x' := by
  intro l
  induction l with
  | nil => exact fun _ x _ => ⟨x, rfl⟩
  | cons i l ih =>
    intro hnd x hx
    rw [List.foldlM_cons, if_neg (hx i (List.mem_cons_self _ _))]
    simp only [Option.bind_eq_bind, Option.some_bind]
    apply ih (List.nodup_cons.1 hnd).2
    intro v hv
    have hvi : v ≠ i := fun e => (List.nodup_cons.1 hnd).1 (e ▸ hv)
    rw [vget_set, if_neg (fun hc => hvi hc.1.symm)]
    exact hx v (List.mem_cons_of_mem _ hv)

/-- The function `reduce_costs` returns when no saturated cost exceeds the remaining
cost. -/
theorem reduce_costs_returns {remaining saturated : List Int}
    (h : ∀ i, vget saturated i ≤ vget remaining i) :
    ∃ out, cost_saturation.reduce_costs remaining saturated = some out := by
  have hstep : (fun (x : List Int) i =>
      if vget saturated i > vget x i then none
      else if vget x i = INF ∨ vget x i = -INF then some x
      else if vget saturated i = -INF then some (x.set i INF)
      else some (x.set i (vget x i - vget saturated i)))
      = fun x i => if (fun y j => vget saturated j > y) (vget x i) i then none
          else some (x.set i ((fun y j =>
            if y = INF ∨ y = -INF then y
            else if vget saturated j = -INF then INF else y - vget saturated j)
            (vget x i) i)) := by
    funext x i
    simp only
    split_ifs
    · rfl
    · rw [set_vget_self]
    · rfl
    · rfl
  unfold cost_saturation.reduce_costs
  simp only
  rw [hstep]
  refine foldlM_set_returns (fun y j => vget saturated j > y)
    (fun y j =>
      if y = INF ∨ y = -INF then y
      else if vget saturated j = -INF then INF else y - vget saturated j)
    _ (List.nodup_range _) _ ?_
  intro v _
  simp only [gt_iff_lt, not_lt]
  exact h v

end returns
/-! ## cost_saturation: the saturated cost partitioning returns -/

section run_returns
variable {a : ExplicitAbstraction}

theorem compute_goal_distances_returns (ha : a.WellFormed) {costs : List Int}
    (hcost : NonnegativeCosts costs) {fuel : Nat}
    (hfuel : a.goal_states.length + a.num_states * INF.toNat < fuel) :
    ∃ r, a.compute_goal_distances fuel costs = some r := by
  rw [compute_goal_distances_nonneg hcost]
  exact (dijkstra_goal_distances ha hcost).2 fuel hfuel

/-- The cap saturator of `cost_saturation` returns on the goal distances of a nonnegative
cost function, unless it recomputes the goal distances under general costs. -/
theorem cs_saturate_returns (ha : a.WellFormed) {ocf : List Int}
    (hcost : NonnegativeCosts ocf) (hocf : ocf.length = a.num_operators)
    {h : List Int} (hgd : GoalDistances a ocf h) (state_id : Nat)
    (s : cost_saturation.SaturatorCap) (abstraction_id : Nat) {fuel : Nat}
    (hinit : s.reachable = Reachable.FROM_INIT →
      ∃ Rm, s.unreachable_from_init.getD abstraction_id []
          = cost_saturation.unreachable_states a.num_states Rm)
    (hmode : ¬ (s.use_general_costs = true ∧ s.recompute_h_values = true))
    (hfuel : a.goal_states.length + a.num_states * INF.toNat < fuel)
    (hfuel2 : 2 * a.num_states + 1 < fuel) :
    ∃ res, s.saturate a abstraction_id fuel ocf h state_id = some res := by
  unfold cost_saturation.SaturatorCap.saturate
  simp only
  have hall1 : ocf.all (fun c => decide (c ≥ 0 ∨ c = -INF)) = true := by
    rw [List.all_eq_true]
    intro c hc
    exact decide_eq_true (Or.inl (hcost c hc).1)
  have hall2 : ocf.all (fun c => decide (c ≥ 0)) = true := by
    rw [List.all_eq_true]
    intro c hc
    exact decide_eq_true (hcost c hc).1
  rw [hall1, hall2]
  simp only [if_true]
  obtain ⟨h1, e1, e1'⟩ : ∃ h1, (if s.cap = true then some (cap_h_values (vget h state_id) h)
      else some h) = some h1 ∧
      h1 = if s.cap then cap_h_values (vget h state_id) h else h := by
    by_cases hc : s.cap = true
    · exact ⟨_, by rw [if_pos hc], by rw [if_pos hc]⟩
    · exact ⟨_, by rw [if_neg hc], by rw [if_neg hc]⟩
  rw [e1, Option.some_bind]
  have tail : ∀ h2, (h2 = h1 ∨ ∃ R, h2 = prune_unreachable a.num_states R h1) →
      ∃ res, ((if s.use_general_costs = true then some (a.compute_saturated_costs_ocf h2)
          else some ((a.compute_saturated_costs_ocf h2).map fun c => max 0 c)).bind
        fun socf => s.get_saturator_result a fuel ocf socf h2 (vget h state_id))
        = some res := by
    intro h2 e2'
    have hh2 := capped_pruned_finite hgd s.cap e1' e2'
    have hdom := saturated_costs_dominated ha hcost hocf hgd s.cap hh2
    by_cases hg : s.use_general_costs = true
    · rw [if_pos hg, Option.some_bind]
      unfold cost_saturation.SaturatorCap.get_saturator_result
      simp only
      rw [if_neg (fun hc => hmode ⟨hg, hc.1⟩)]
      exact ⟨_, rfl⟩
    · rw [if_neg hg, Option.some_bind]
      unfold cost_saturation.SaturatorCap.get_saturator_result
      simp only
      by_cases hr : s.recompute_h_values = true ∧ vget h state_id > 0
      · rw [if_pos hr]
        have hnn : NonnegativeCosts ((List.range ocf.length).foldl
            (fun socf op_id => if vget ocf op_id = INF then socf.set op_id INF else socf)
            ((a.compute_saturated_costs_ocf h2).map fun c => max 0 c)) := by
          intro c hc
          obtain ⟨i, _, e⟩ := mem_iff_vget hc
          rw [← e, (copy_inf_spec _ _).2 i]
          split_ifs
          · unfold INF; omega
          · rw [vget_map]
            have k1 := hdom i
            have k2 := vget_nonneg_of_costs hcost i
            split_ifs
            · exact ⟨le_max_left _ _, max_le (by unfold INF; omega) (le_trans k1 k2.2)⟩
            · unfold INF; omega
        obtain ⟨r, hr'⟩ := compute_goal_distances_returns ha hnn hfuel
        rw [hr']
        exact ⟨_, rfl⟩
      · rw [if_neg hr]
        exact ⟨_, rfl⟩
  cases hr : s.reachable with
  | ALL =>
    simp only [Option.some_bind]
    exact tail h1 (Or.inl rfl)
  | FROM_INIT =>
    obtain ⟨Rm, hRm⟩ := hinit hr
    simp only [Option.some_bind]
    exact tail _ (Or.inr ⟨Rm, by rw [hRm, prune_listed_eq]⟩)
  | FROM_STATE =>
    obtain ⟨R, hR⟩ := compute_reachability_from_state_returns ha
      (compute_reachability_cost_function ocf) state_id hfuel2
    simp only [hR, Option.map_some', Option.some_bind]
    exact tail _ (Or.inr ⟨R, rfl⟩)

/-- What an iteration of the loop does to the remaining costs: they stay nonnegative, and
stay bounded unless general costs are allowed. -/
theorem saturate_abstraction_costs (ha : a.WellFormed) {n_ops : Nat}
    (hops : a.num_operators = n_ops)
    {B : Int} (hB : 0 ≤ B) (hBn : B * a.num_states < INF) (hBI : B < INF)
    {abstractions : List ExplicitAbstraction} {sat : cost_saturation.SaturatorCap}
    {abstraction_id : Nat} (hget : abstractions[abstraction_id]? = some a)
    (hinit : sat.reachable = Reachable.FROM_INIT →
      ∃ Rm, sat.unreachable_from_init.getD abstraction_id []
          = cost_saturation.unreachable_states a.num_states Rm ∧
        ∀ t ∈ a.for_each_transition,
          bget Rm t.source_id = true → bget Rm t.target_id = true)
    {build_ids : List Nat} (hq : build_ids.getD abstraction_id 0 < a.num_states)
    {fuel : Nat} {st st' : CostPartitioningHeuristic × List Int}
    (hlen : st.2.length = n_ops) (hnonneg : ∀ op, 0 ≤ vget st.2 op)
    (hbounded : ∀ op, vget st.2 op = INF ∨ vget st.2 op ≤ B)
    (hstep : cost_saturation.saturate_abstraction abstractions [sat] fuel build_ids st
      abstraction_id = some st') :
    st'.2.length = n_ops ∧ (∀ op, 0 ≤ vget st'.2 op) ∧
    (sat.use_general_costs = false → ∀ op, vget st'.2 op = INF ∨ vget st'.2 op ≤ B) := by
  obtain ⟨h, res, R', e1, e2, e3, e4⟩ := saturate_abstraction_some hget hstep
  have hcost : NonnegativeCosts st.2 := by
    intro x hx
    obtain ⟨i, _, e⟩ := mem_iff_vget hx
    rw [← e]
    refine ⟨hnonneg i, ?_⟩
    rcases hbounded i with k | k
    · rw [k]
    · omega
  have hno : NoOverflow a st.2 := by
    apply noOverflow_of_bound ha B hB _ hBn
    intro x hx
    obtain ⟨i, _, e⟩ := mem_iff_vget hx
    rw [← e]
    exact hbounded i
  have hocf : st.2.length = a.num_operators := by rw [hlen, hops]
  rw [compute_goal_distances_nonneg hcost] at e1
  have hgd := (dijkstra_goal_distances ha hcost).1 fuel h e1
  obtain ⟨hdom, _, _, _, hnn, _⟩ :=
    cs_saturate_sound ha hcost hocf hno hgd hq
      (fun hm => by
        obtain ⟨Rm, k1, k2⟩ := hinit hm
        exact ⟨Rm, k1, fun t ht _ => k2 t ht⟩) e2
  obtain ⟨r1, r2, r3⟩ := reduce_costs_spec e3
  have hst' : st'.2 = R' := by rw [e4]
  rw [hst']
  refine ⟨by rw [r1, hlen], ?_, ?_⟩
  · intro op
    rw [r3 op]
    have k0 := hnonneg op
    split_ifs with c1 c2 c3
    · exact k0
    · unfold INF; omega
    · have := hdom op
      omega
    · exact k0
  · intro hg op
    have hs0 := hnn hg op
    rw [r3 op]
    split_ifs with c1 c2 c3
    · rcases c1 with c1 | c1
      · exact Or.inl c1
      · have := hnonneg op
        unfold INF at c1
        omega
    · exact Or.inl rfl
    · right
      rcases hbounded op with k | k
      · exact absurd (Or.inl k) c1
      · omega
    · exact hbounded op

/-- An iteration of the loop returns, unless the saturator recomputes the goal distances
under general costs. -/
theorem saturate_abstraction_returns (ha : a.WellFormed) {n_ops : Nat}
    (hops : a.num_operators = n_ops)
    {B : Int} (hB : 0 ≤ B) (hBn : B * a.num_states < INF) (hBI : B < INF)
    {abstractions : List ExplicitAbstraction} {sat : cost_saturation.SaturatorCap}
    {abstraction_id : Nat} (hget : abstractions[abstraction_id]? = some a)
    (hinit : sat.reachable = Reachable.FROM_INIT →
      ∃ Rm, sat.unreachable_from_init.getD abstraction_id []
          = cost_saturation.unreachable_states a.num_states Rm ∧
        ∀ t ∈ a.for_each_transition,
          bget Rm t.source_id = true → bget Rm t.target_id = true)
    {build_ids : List Nat} (hq : build_ids.getD abstraction_id 0 < a.num_states)
    {fuel : Nat} (st : CostPartitioningHeuristic × List Int)
    (hlen : st.2.length = n_ops) (hnonneg : ∀ op, 0 ≤ vget st.2 op)
    (hbounded : ∀ op, vget st.2 op = INF ∨ vget st.2 op ≤ B)
    (hmode : ¬ (sat.use_general_costs = true ∧ sat.recompute_h_values = true))
    (hfuel : a.goal_states.length + a.num_states * INF.toNat < fuel) :
    ∃ st', cost_saturation.saturate_abstraction abstractions [sat] fuel build_ids st
      abstraction_id = some st' := by
  have hcost : NonnegativeCosts st.2 := by
    intro x hx
    obtain ⟨i, _, e⟩ := mem_iff_vget hx
    rw [← e]
    refine ⟨hnonneg i, ?_⟩
    rcases hbounded i with k | k
    · rw [k]
    · omega
  have hno : NoOverflow a st.2 := by
    apply noOverflow_of_bound ha B hB _ hBn
    intro x hx
    obtain ⟨i, _, e⟩ := mem_iff_vget hx
    rw [← e]
    exact hbounded i
  have hocf : st.2.length = a.num_operators := by rw [hlen, hops]
  have hfuel2 : 2 * a.num_states + 1 < fuel := by
    have hn0 : 0 < a.num_states := lt_of_le_of_lt (Nat.zero_le _) hq
    have e : INF.toNat = 2147483647 := rfl
    rw [e] at hfuel
    omega
  obtain ⟨h, e1⟩ := compute_goal_distances_returns ha hcost hfuel
  have hgd : GoalDistances a st.2 h := by
    have e1' := e1
    rw [compute_goal_distances_nonneg hcost] at e1'
    exact (dijkstra_goal_distances ha hcost).1 fuel h e1'
  obtain ⟨res, e2⟩ := cs_saturate_returns ha hcost hocf hgd
    (build_ids.getD abstraction_id 0) sat abstraction_id
    (fun hm => by
      obtain ⟨Rm, k1, _⟩ := hinit hm
      exact ⟨Rm, k1⟩) hmode hfuel hfuel2
  obtain ⟨hdom, _⟩ :=
    cs_saturate_sound ha hcost hocf hno hgd hq
      (fun hm => by
        obtain ⟨Rm, k1, k2⟩ := hinit hm
        exact ⟨Rm, k1, fun t ht _ => k2 t ht⟩) e2
  obtain ⟨R', e3⟩ : ∃ out, cost_saturation.reduce_costs st.2 res.saturated_costs = some out :=
    reduce_costs_returns hdom
  unfold cost_saturation.saturate_abstraction
  rw [hget]
  simp only [e1, Option.some_bind, List.foldlM, e2, Option.bind_eq_bind, Option.pure_def,
    e3, Option.map_some']
  exact ⟨_, rfl⟩

end run_returns
/-! ## Admissibility of the saturated cost partitioning -/

section admissibility
variable {S : Type} {task : PlanningTask S}

theorem initialize_closed {abstractions : List ExplicitAbstraction} {αs : List (S → Nat)}
    {sat0 sat : cost_saturation.SaturatorCap} {fuel0 : Nat} {B : Int} {initial_state : S}
    (hcost : ∀ c ∈ task.operator_costs, 0 ≤ c ∧ c ≤ B) (hB : 0 ≤ B ∧ B < INF)
    (habs : List.Forall₂ (fun a α => a.WellFormed ∧ Homomorphic task a α) abstractions αs)
    (h0 : sat0.unreachable_from_init = [])
    (hsat : cost_saturation.SaturatorCap.initialize sat0 abstractions fuel0
      task.operator_costs (get_abstract_state_ids αs initial_state) = some sat) :
    sat.reachable = Reachable.FROM_INIT → ∀ i a, abstractions[i]? = some a →
      ∃ Rm, sat.unreachable_from_init.getD i []
          = cost_saturation.unreachable_states a.num_states Rm ∧
        ∀ t ∈ a.for_each_transition,
          bget Rm t.source_id = true → bget Rm t.target_id = true := by
  obtain ⟨_, _, e3, _, hspec⟩ := initialize_spec h0 hsat
  intro hm i a hi
  rw [e3] at hm
  have hlen := habs.length_eq
  obtain ⟨hia, ea⟩ := List.getElem?_eq_some_iff.1 hi
  have hiα : i < αs.length := by rw [← hlen]; exact hia
  have hpair := (List.forall₂_iff_get.1 habs).2 i hia hiα
  have hα : αs[i]? = some αs[i] := List.getElem?_eq_getElem hiα
  have hpair' : a.WellFormed ∧ Homomorphic task a αs[i] := by
    rw [← ea]; exact hpair
  obtain ⟨Rm, k1, k2⟩ := hspec hm i a (αs[i] initial_state) hi
    (get_abstract_state_ids_getD αs initial_state i _ hα).1
  obtain ⟨_, _, q3⟩ := compute_reachability_from_state_spec hpair'.1
    (hpair'.2.state initial_state) k1
  refine ⟨Rm, k2, fun t ht => q3 t ht ?_⟩
  intro e
  by_cases hop : t.op_id < task.operator_costs.length
  · have := (hcost _ (vget_mem hop)).2
    omega
  · rw [vget_of_length_le (by omega)] at e
    unfold INF at e
    omega

/-- The loop returns after every number of iterations, unless the saturator recomputes
the goal distances under general costs. -/
theorem saturated_cost_partitioning_returns
    {abstractions : List ExplicitAbstraction} {αs : List (S → Nat)} {order : List Nat}
    {sat : cost_saturation.SaturatorCap} {fuel : Nat} {B : Int} (s0 : S)
    (hcost : ∀ c ∈ task.operator_costs, 0 ≤ c ∧ c ≤ B) (hB : 0 ≤ B ∧ B < INF)
    (hBn : ∀ a ∈ abstractions, B * a.num_states < INF)
    (habs : List.Forall₂ (fun a α => a.WellFormed ∧ Homomorphic task a α) abstractions αs)
    (hrange : ∀ i ∈ order, i < abstractions.length)
    (hinit : sat.reachable = Reachable.FROM_INIT → ∀ i a, abstractions[i]? = some a →
      ∃ Rm, sat.unreachable_from_init.getD i []
          = cost_saturation.unreachable_states a.num_states Rm ∧
        ∀ t ∈ a.for_each_transition,
          bget Rm t.source_id = true → bget Rm t.target_id = true)
    (hgen : sat.use_general_costs = true → ∀ k st,
      cost_saturation.compute_saturated_cost_partitioning_with_saturators abstractions
        (order.take k) [sat] fuel task.operator_costs (get_abstract_state_ids αs s0)
        = some st → ∀ c ∈ st.2, c = INF ∨ c ≤ B)
    (hmode : ¬ (sat.use_general_costs = true ∧ sat.recompute_h_values = true))
    (hfuel : ∀ a ∈ abstractions, a.goal_states.length + a.num_states * INF.toNat < fuel) :
    ∀ k, k ≤ order.length → ∃ st,
      cost_saturation.compute_saturated_cost_partitioning_with_saturators abstractions
        (order.take k) [sat] fuel task.operator_costs (get_abstract_state_ids αs s0)
        = some st ∧
      st.2.length = task.operator_costs.length ∧ (∀ op, 0 ≤ vget st.2 op) ∧
      ∀ op, vget st.2 op = INF ∨ vget st.2 op ≤ B := by
  have hv : ∀ op, 0 ≤ vget task.operator_costs op ∧ vget task.operator_costs op ≤ B := by
    intro op
    by_cases hop : op < task.operator_costs.length
    · exact hcost _ (vget_mem hop)
    · rw [vget_of_length_le (by omega)]
      exact ⟨le_refl _, hB.1⟩
  intro k
  induction k with
  | zero =>
    intro _
    exact ⟨(⟨[]⟩, task.operator_costs), rfl, rfl, fun op => (hv op).1,
      fun op => Or.inr (hv op).2⟩
  | succ k ih =>
    intro hk
    have hk' : k < order.length := hk
    obtain ⟨stk, h1, i1, i2, i3⟩ := ih (le_of_lt hk')
    have hid : order[k] < abstractions.length := hrange _ (List.getElem_mem hk')
    have hlen := habs.length_eq
    have hid2 : order[k] < αs.length := by rw [← hlen]; exact hid
    have hpair := (List.forall₂_iff_get.1 habs).2 order[k] hid hid2
    have hget : abstractions[order[k]]? = some abstractions[order[k]] :=
      List.getElem?_eq_getElem hid
    have hα : αs[order[k]]? = some αs[order[k]] := List.getElem?_eq_getElem hid2
    have hq : (get_abstract_state_ids αs s0).getD order[k] 0
        < abstractions[order[k]].num_states := by
      rw [(get_abstract_state_ids_getD αs s0 _ _ hα).2]
      exact hpair.2.state s0
    obtain ⟨st, h2⟩ := saturate_abstraction_returns hpair.1 hpair.2.operators hB.1
      (hBn _ (List.getElem_mem hid)) hB.2 hget (fun hm => hinit hm _ _ hget) hq stk
      i1 i2 i3 hmode (hfuel _ (List.getElem_mem hid))
    have hrun : cost_saturation.compute_saturated_cost_partitioning_with_saturators
        abstractions (order.take (k + 1)) [sat] fuel task.operator_costs
        (get_abstract_state_ids αs s0) = some st := by
      unfold cost_saturation.compute_saturated_cost_partitioning_with_saturators at h1 ⊢
      rw [List.take_succ, List.getElem?_eq_getElem hk', Option.toList_some,
        List.foldlM_append, h1]
      simp only [Option.bind_eq_bind, Option.some_bind, List.foldlM, h2]
      rfl
    obtain ⟨j1, j2, j3⟩ := saturate_abstraction_costs hpair.1 hpair.2.operators hB.1
      (hBn _ (List.getElem_mem hid)) hB.2 hget (fun hm => hinit hm _ _ hget) hq
      i1 i2 i3 h2
    refine ⟨st, hrun, j1, j2, ?_⟩
    by_cases hg : sat.use_general_costs = true
    · intro op
      have hall := hgen hg (k + 1) st hrun
      by_cases hop : op < st.2.length
      · exact hall _ (vget_mem hop)
      · rw [vget_of_length_le (by omega)]
        exact Or.inr hB.1
    · exact j3 (by simpa using hg)

end admissibility

/-- C1 (admissibility of the operator-form pipeline). A task with operator costs between
`0` and `B`, abstractions that are well formed and homomorphic images of the task under
the abstraction functions `αs`, with `B * num_states < INF` (no path sum overflows), an
order without repetition, and the cap saturator `sat` as initialized by
`SaturatorCap::initialize`; when general costs are allowed, the remaining costs are assumed
to stay at most `B` where finite. Then, whatever the state `s0` for which the cost
partitioning is built: if `compute_saturated_cost_partitioning_with_saturators` returns the
heuristic `cp`, then for every state `s` and every plan from `s` of cost `c < INF`,
`cp.compute_heuristic(ids(s)) ≤ c`, and the value is not `INF`. And the function returns for
enough fuel, unless the saturator recomputes the goal distances under general costs. -/
theorem saturated_cost_partitioning_admissible {S : Type} (task : PlanningTask S)
    (abstractions : List ExplicitAbstraction) (αs : List (S → Nat)) (order : List Nat)
    (sat0 sat : cost_saturation.SaturatorCap) (fuel0 fuel : Nat) (B : Int)
    (initial_state s0 : S)
    (hcost : ∀ c ∈ task.operator_costs, 0 ≤ c ∧ c ≤ B) (hB : 0 ≤ B ∧ B < INF)
    (hBn : ∀ a ∈ abstractions, B * a.num_states < INF)
    (habs : List.Forall₂ (fun a α => a.WellFormed ∧ Homomorphic task a α) abstractions αs)
    (horder : order.Nodup) (hrange : ∀ i ∈ order, i < abstractions.length)
    (h0 : sat0.unreachable_from_init = [])
    (hsat : cost_saturation.SaturatorCap.initialize sat0 abstractions fuel0
      task.operator_costs (get_abstract_state_ids αs initial_state) = some sat)
    (hgen : sat.use_general_costs = true → ∀ k st,
      cost_saturation.compute_saturated_cost_partitioning_with_saturators abstractions
        (order.take k) [sat] fuel task.operator_costs (get_abstract_state_ids αs s0)
        = some st → ∀ c ∈ st.2, c = INF ∨ c ≤ B) :
    (∀ cp remaining,
      cost_saturation.compute_saturated_cost_partitioning_with_saturators abstractions
        order [sat] fuel task.operator_costs (get_abstract_state_ids αs s0)
        = some (cp, remaining) →
      ∀ s ops c, Plan task s ops c → c < INF →
        cp.compute_heuristic (get_abstract_state_ids αs s) ≤ c ∧
        cp.compute_heuristic (get_abstract_state_ids αs s) ≠ INF) ∧
    (¬ (sat.use_general_costs = true ∧ sat.recompute_h_values = true) →
      (∀ a ∈ abstractions, a.goal_states.length + a.num_states * INF.toNat < fuel) →
      ∃ st, cost_saturation.compute_saturated_cost_partitioning_with_saturators
        abstractions order [sat] fuel task.operator_costs (get_abstract_state_ids αs s0)
        = some st) := by
  have hinit := initialize_closed hcost hB habs h0 hsat
  constructor
  · intro cp remaining hrun s ops c hplan hc
    have hinv := saturated_cost_partitioning_invariant hcost hB hBn habs horder hrange
      hinit hgen hplan hc order.length (le_refl _) (cp, remaining)
      (by rw [List.take_length]; exact hrun)
    have hle : cp.compute_heuristic (get_abstract_state_ids αs s) ≤ c := by
      unfold CostPartitioningHeuristic.compute_heuristic
      rcases hinv.value with hN | ⟨S0, hS, hS0, _, hsum⟩
      · have := hN [] 0
        rw [List.append_nil] at this
        rw [this]
        have hc0 : 0 ≤ c := by
          rw [plan_cost_eq hplan]
          apply operator_sum_nonneg
          intro op _
          by_cases hop : op < task.operator_costs.length
          · exact (hcost _ (vget_mem hop)).1
          · rw [vget_of_length_le (by omega)]
        unfold INF
        omega
      · have := hS [] 0
        rw [List.append_nil] at this
        rw [this]
        simp only [compute_heuristic_from, zero_add]
        have h1 : 0 ≤ operator_sum remaining ops :=
          operator_sum_nonneg ops fun op _ => hinv.nonneg op
        have h2 : operator_sum (cp, remaining).2 ops = operator_sum remaining ops := rfl
        rw [h2] at hsum
        exact max_le (by omega) (by omega)
    exact ⟨hle, by omega⟩
  · intro hmode hfuel
    obtain ⟨st, hst, _⟩ := saturated_cost_partitioning_returns s0 hcost hB hBn
      habs hrange hinit hgen hmode hfuel order.length (le_refl _)
    rw [List.take_length] at hst
    exact ⟨st, hst⟩
/-! ## The saturated cost partitioning of `chain_task` -/

theorem chain_merged_wellFormed : chain_merged_abstraction.WellFormed := by
  refine ⟨rfl, ?_, by decide, by decide, rfl⟩
  intro v s hs
  have hcases : v = 0 ∨ v = 1 ∨ 2 ≤ v := by omega
  rcases hcases with h0 | h0 | h0
  · rw [h0] at hs
    simp [chain_merged_abstraction] at hs
  · rw [h0] at hs
    simp only [chain_merged_abstraction, List.getD_cons_succ, List.getD_cons_zero,
      List.mem_singleton] at hs
    rw [hs]; decide
  · have hlen : chain_merged_abstraction.backward_graph.length ≤ v := h0
    rw [getD_of_length_le hlen] at hs
    exact absurd hs (List.not_mem_nil s)

theorem chain_identity_wellFormed : chain_identity_abstraction.WellFormed := by
  refine ⟨rfl, ?_, by decide, by decide, rfl⟩
  intro v s hs
  have hcases : v = 0 ∨ v = 1 ∨ v = 2 ∨ 3 ≤ v := by omega
  rcases hcases with h0 | h0 | h0 | h0
  · rw [h0] at hs
    simp [chain_identity_abstraction] at hs
  · rw [h0] at hs
    simp only [chain_identity_abstraction, List.getD_cons_succ, List.getD_cons_zero,
      List.mem_singleton] at hs
    rw [hs]; decide
  · rw [h0] at hs
    simp only [chain_identity_abstraction, List.getD_cons_succ, List.getD_cons_zero,
      List.mem_singleton] at hs
    rw [hs]; decide
  · have hlen : chain_identity_abstraction.backward_graph.length ≤ v := h0
    rw [getD_of_length_le hlen] at hs
    exact absurd hs (List.not_mem_nil s)

theorem chain_merged_homomorphic :
    Homomorphic chain_task chain_merged_abstraction chain_merged_function := by
  refine ⟨rfl, by decide, ?_, ?_⟩
  · intro s op s' h
    rcases h with ⟨e1, e2, e3⟩ | ⟨e1, e2, e3⟩
    · rw [e1, e2, e3]
      exact ⟨by decide, Or.inr ⟨⟨0, 0, 0, 1⟩, by decide, rfl, rfl, rfl⟩⟩
    · rw [e1, e2, e3]
      exact ⟨by decide, Or.inl ⟨rfl, rfl⟩⟩
  · intro s h
    have e : s = 2 := h
    rw [e]
    decide

theorem chain_identity_homomorphic :
    Homomorphic chain_task chain_identity_abstraction chain_identity_function := by
  refine ⟨rfl, by decide, ?_, ?_⟩
  · intro s op s' h
    rcases h with ⟨e1, e2, e3⟩ | ⟨e1, e2, e3⟩
    · rw [e1, e2, e3]
      exact ⟨by decide, Or.inr ⟨⟨0, 0, 0, 1⟩, by decide, rfl, rfl, rfl⟩⟩
    · rw [e1, e2, e3]
      exact ⟨by decide, Or.inr ⟨⟨1, 1, 1, 2⟩, by decide, rfl, rfl, rfl⟩⟩
  · intro s h
    have e : s = 2 := h
    rw [e]
    decide

/-- The remaining costs of the run on `chain_task` stay at most `4` after every number of
iterations. -/
theorem chain_remaining_bounded (k : Nat)
    (st : CostPartitioningHeuristic × List Int)
    (h : cost_saturation.compute_saturated_cost_partitioning_with_saturators
      [chain_merged_abstraction, chain_identity_abstraction] (List.take k [0, 1])
      [⟨true, false, Reachable.FROM_INIT, true, [[], []]⟩] 10 chain_task.operator_costs
      (get_abstract_state_ids [chain_merged_function, chain_identity_function] 0)
      = some st) :
    ∀ c ∈ st.2, c = INF ∨ c ≤ 4 := by
  have h0 : cost_saturation.compute_saturated_cost_partitioning_with_saturators
      [chain_merged_abstraction, chain_identity_abstraction] []
      [⟨true, false, Reachable.FROM_INIT, true, [[], []]⟩] 10 chain_task.operator_costs
      (get_abstract_state_ids [chain_merged_function, chain_identity_function] 0)
      = some (⟨[]⟩, [3, 4]) := by decide
  have h1 : cost_saturation.compute_saturated_cost_partitioning_with_saturators
      [chain_merged_abstraction, chain_identity_abstraction] [0]
      [⟨true, false, Reachable.FROM_INIT, true, [[], []]⟩] 10 chain_task.operator_costs
      (get_abstract_state_ids [chain_merged_function, chain_identity_function] 0)
      = some (⟨[⟨0, [3, 0]⟩]⟩, [0, 4]) := by decide
  have h2 : cost_saturation.compute_saturated_cost_partitioning_with_saturators
      [chain_merged_abstraction, chain_identity_abstraction] [0, 1]
      [⟨true, false, Reachable.FROM_INIT, true, [[], []]⟩] 10 chain_task.operator_costs
      (get_abstract_state_ids [chain_merged_function, chain_identity_function] 0)
      = some (⟨[⟨0, [3, 0]⟩, ⟨1, [4, 4, 0]⟩]⟩, [0, 0]) := by decide
  rcases k with _ | _ | k
  · rw [List.take_zero, h0] at h
    rw [← Option.some.inj h]
    unfold INF; decide
  · have e : List.take 1 [0, 1] = [0] := rfl
    rw [e, h1] at h
    rw [← Option.some.inj h]
    unfold INF; decide
  · have e : List.take (k + 1 + 1) [0, 1] = [0, 1] := by simp
    rw [e, h2] at h
    rw [← Option.some.inj h]
    unfold INF; decide

/-- Witness of C1: `chain_task` with its two abstractions in the order `[0, 1]`, the cap
saturator with general costs and reachability from the initial state `0`, the cost
partitioning built for state `0`. The run returns the tables `[3, 0]` and `[4, 4, 0]`; the
heuristic value of state `0` is `7`, the cost of its only plan. -/
theorem saturated_cost_partitioning_admissible_witness :
    cost_saturation.compute_saturated_cost_partitioning_with_saturators
        [chain_merged_abstraction, chain_identity_abstraction] [0, 1]
        [⟨true, false, Reachable.FROM_INIT, true, [[], []]⟩] 10 [3, 4] [0, 0]
      = some (⟨[⟨0, [3, 0]⟩, ⟨1, [4, 4, 0]⟩]⟩, [0, 0]) ∧
    CostPartitioningHeuristic.compute_heuristic ⟨[⟨0, [3, 0]⟩, ⟨1, [4, 4, 0]⟩]⟩ [0, 0] = 7 ∧
    ∀ s ops c, Plan chain_task s ops c → c < INF →
      CostPartitioningHeuristic.compute_heuristic ⟨[⟨0, [3, 0]⟩, ⟨1, [4, 4, 0]⟩]⟩
          (get_abstract_state_ids [chain_merged_function, chain_identity_function] s) ≤ c ∧
      CostPartitioningHeuristic.compute_heuristic ⟨[⟨0, [3, 0]⟩, ⟨1, [4, 4, 0]⟩]⟩
          (get_abstract_state_ids [chain_merged_function, chain_identity_function] s)
        ≠ INF :=
  ⟨by decide, by decide,
    (saturated_cost_partitioning_admissible chain_task
      [chain_merged_abstraction, chain_identity_abstraction]
      [chain_merged_function, chain_identity_function] [0, 1]
      ⟨true, false, Reachable.FROM_INIT, true, []⟩
      ⟨true, false, Reachable.FROM_INIT, true, [[], []]⟩ 10 10 4 0 0
      (by unfold chain_task; decide) (by unfold INF; decide)
      (by unfold INF; decide)
      (List.Forall₂.cons ⟨chain_merged_wellFormed, chain_merged_homomorphic⟩
        (List.Forall₂.cons ⟨chain_identity_wellFormed, chain_identity_homomorphic⟩
          List.Forall₂.nil))
      (by decide) (by decide) rfl (by decide)
      (fun _ => chain_remaining_bounded)).1 ⟨[⟨0, [3, 0]⟩, ⟨1, [4, 4, 0]⟩]⟩ [0, 0]
      (by decide)⟩
/-! ## reinitialize -/

/-- C11. After `reinitialize()` the bucket map of every operator is `{(+INF, all states)}`
if its useless flag was set before the call and `{(task cost of the operator, all
states)}` otherwise; there is one bucket map per operator, and the useless flags, the
operator costs and `max_buckets` are what they were before the call. -/
theorem reinitialize_restores {σ : Type} [Fintype σ] (c : CostFunctionStateDependent σ) :
    (CostFunctionStateDependent.reinitialize c).useless_operators = c.useless_operators ∧
    (CostFunctionStateDependent.reinitialize c).operator_costs = c.operator_costs ∧
    (CostFunctionStateDependent.reinitialize c).max_buckets = c.max_buckets ∧
    (CostFunctionStateDependent.reinitialize c).remaining_sd_costs.length
      = c.num_operators ∧
    ∀ op_id, op_id < c.num_operators →
      (CostFunctionStateDependent.reinitialize c).buckets op_id
        = if bget c.useless_operators op_id = true then [(INF, Finset.univ)]
          else [(vget c.operator_costs op_id, Finset.univ)] := by
  refine ⟨rfl, rfl, rfl, ?_, ?_⟩
  · unfold CostFunctionStateDependent.reinitialize
    simp only [List.length_map, List.length_range]
  · intro op_id hop
    unfold CostFunctionStateDependent.buckets CostFunctionStateDependent.reinitialize
    simp only
    rw [getD_map_range, if_pos hop]

/-- Witness of C11: a cost function over two concrete states with the operator costs
`[3, 4]`; operator `0` is reduced by `-INF` (which sets its useless flag) and operator `1`
by `1`; `reinitialize` then gives operator `0` the bucket `(+INF, all)` and operator `1`
its task cost `4`. -/
theorem reinitialize_restores_witness :
    (((two_state_cost_function [3, 4]).reduce_operator_costs_op 0 (-INF)).reduce_operator_costs_op
        1 1).remaining_sd_costs
      = [[(INF, Finset.univ)], [(3, Finset.univ)]] ∧
    (CostFunctionStateDependent.reinitialize
      (((two_state_cost_function [3, 4]).reduce_operator_costs_op 0
        (-INF)).reduce_operator_costs_op 1 1)).remaining_sd_costs
      = [[(INF, Finset.univ)], [(4, Finset.univ)]] ∧
    (CostFunctionStateDependent.reinitialize
      (((two_state_cost_function [3, 4]).reduce_operator_costs_op 0
        (-INF)).reduce_operator_costs_op 1 1)).buckets 1
      = [(4, Finset.univ)] :=
  ⟨by decide, by decide,
    (reinitialize_restores
      (((two_state_cost_function [3, 4]).reduce_operator_costs_op 0
        (-INF)).reduce_operator_costs_op 1 1)).2.2.2.2 1 (by decide)⟩
/-! ## limit_buckets -/

section limit
variable {σ : Type} [DecidableEq σ]

theorem bucket_union_append (l1 l2 : List (Int × Finset σ)) :
    bucket_union (l1 ++ l2) = bucket_union l1 ∪ bucket_union l2 := by
  induction l1 with
  | nil => simp [bucket_union_nil]
  | cons e l1 ih =>
    rw [List.cons_append, bucket_union_cons, bucket_union_cons, ih, Finset.union_assoc]

theorem bucket_cost_append (l1 l2 : BucketMap σ) (s : σ) :
    bucket_cost (l1 ++ l2) s
      = if s ∈ bucket_union l1 then bucket_cost l1 s else bucket_cost l2 s := by
  induction l1 with
  | nil => simp [bucket_union_nil]
  | cons e l1 ih =>
    rw [List.cons_append, bucket_cost_cons, bucket_cost_cons, bucket_union_cons]
    by_cases h : s ∈ e.2
    · rw [if_pos h, if_pos (Finset.mem_union_left _ h), if_pos h]
    · rw [if_neg h, if_neg h, ih]
      by_cases h2 : s ∈ bucket_union l1
      · rw [if_pos h2, if_pos (Finset.mem_union_right _ h2)]
      · rw [if_neg h2, if_neg]
        intro hc
        rcases Finset.mem_union.1 hc with h3 | h3
        · exact h h3
        · exact h2 h3

/-- The loop of `limit_buckets`, entered at `index` with `k` entries to go before index
`MAX_BUCKETS - 1`: the first `k` entries stay and the entry of index `k` takes up the
states of all entries after it. -/
theorem limit_buckets_from_eq (MAX_BUCKETS : Int) :
    ∀ (m : BucketMap σ) (index : Int) (k : Nat), index + k = MAX_BUCKETS - 1 →
      k < m.length →
      limit_buckets_from MAX_BUCKETS index m
        = m.take k ++ [((m.getD k (0, ∅)).1, bucket_union (m.drop k))] := by
  intro m
  induction m with
  | nil => intro index k _ hk; simp at hk
  | cons e rest ih =>
    intro index k hik hk
    unfold limit_buckets_from
    cases k with
    | zero =>
      rw [if_pos (by omega)]
      simp only [List.take_zero, List.nil_append, List.getD_cons_zero, List.drop_zero]
      rw [foldl_union_eq, bucket_union_cons]
    | succ k =>
      rw [if_neg (by omega)]
      rw [ih (index + 1) k (by omega) (by simpa using hk)]
      simp only [List.take_succ_cons, List.cons_append, List.getD_cons_succ,
        List.drop_succ_cons]

omit [DecidableEq σ] in
/-- The keys of a map with ascending keys are at least the key of its first entry. -/
theorem keysAscending_head_le {e : Int × Finset σ} {rest : BucketMap σ}
    (h : KeysAscending (e :: rest)) : ∀ f ∈ e :: rest, e.1 ≤ f.1 := by
  intro f hf
  rcases List.mem_cons.1 hf with h1 | h1
  · rw [h1]
  · exact le_of_lt ((List.pairwise_cons.1 h).1 f h1)

end limit

/-- C13. For `MAX_BUCKETS >= 1` and a bucket map `m` (keys ascending, as in every
`std::map`) with more than `MAX_BUCKETS` pairwise disjoint buckets, `limit_buckets` returns
the first `MAX_BUCKETS - 1` buckets of `m` unchanged, followed by one bucket under the key
of the bucket of index `MAX_BUCKETS - 1` that holds the states of that bucket and of all
later (removed) buckets. So the result has exactly `MAX_BUCKETS` buckets, the same union,
every state of a removed bucket has the key of the highest-cost retained bucket, which is
below the key it had, and no state's cost increases. -/
theorem limit_buckets_underapproximates {σ : Type} [DecidableEq σ] (MAX_BUCKETS : Int)
    (m : BucketMap σ) (hM : 1 ≤ MAX_BUCKETS) (hlen : MAX_BUCKETS < m.length)
    (hasc : KeysAscending m) (hdisj : BucketsDisjoint m) :
    limit_buckets m MAX_BUCKETS
      = m.take (MAX_BUCKETS - 1).toNat ++
        [((m.getD (MAX_BUCKETS - 1).toNat (0, ∅)).1,
          bucket_union (m.drop (MAX_BUCKETS - 1).toNat))] ∧
    ((limit_buckets m MAX_BUCKETS).length : Int) = MAX_BUCKETS ∧
    (limit_buckets m MAX_BUCKETS).take (MAX_BUCKETS - 1).toNat
      = m.take (MAX_BUCKETS - 1).toNat ∧
    bucket_union (limit_buckets m MAX_BUCKETS) = bucket_union m ∧
    (∀ e ∈ m.drop MAX_BUCKETS.toNat, ∀ s ∈ e.2,
      bucket_cost (limit_buckets m MAX_BUCKETS) s
        = some (m.getD (MAX_BUCKETS - 1).toNat (0, ∅)).1 ∧
      (m.getD (MAX_BUCKETS - 1).toNat (0, ∅)).1 < e.1) ∧
    ∀ s k, bucket_cost m s = some k →
      ∃ k', bucket_cost (limit_buckets m MAX_BUCKETS) s = some k' ∧ k' ≤ k := by
  obtain ⟨K, hK⟩ : ∃ K : Nat, (K : Int) = MAX_BUCKETS - 1 := ⟨(MAX_BUCKETS - 1).toNat, by omega⟩
  have hKt : (MAX_BUCKETS - 1).toNat = K := by omega
  have hMt : MAX_BUCKETS.toNat = K + 1 := by omega
  have hKlen : K + 1 < m.length := by omega
  rw [hKt, hMt]
  have heq : limit_buckets m MAX_BUCKETS
      = m.take K ++ [((m.getD K (0, ∅)).1, bucket_union (m.drop K))] := by
    unfold limit_buckets
    rw [if_pos (by omega)]
    exact limit_buckets_from_eq MAX_BUCKETS m 0 K (by omega) (by omega)
  -- the map split at index `K`
  have hsplit : m = m.take K ++ m.drop K := (List.take_append_drop K m).symm
  have hdrop : m.drop K = m.getD K (0, ∅) :: m.drop (K + 1) := by
    rw [List.getD_eq_getElem?_getD, List.getElem?_eq_getElem (by omega)]
    exact List.drop_eq_getElem_cons (by omega)
  have hunion : bucket_union m = bucket_union (m.take K) ∪ bucket_union (m.drop K) := by
    rw [← bucket_union_append, List.take_append_drop]
  have hasc' : KeysAscending (m.take K ++ m.drop K) := by rw [← hsplit]; exact hasc
  have hdisj' : BucketsDisjoint (m.take K ++ m.drop K) := by rw [← hsplit]; exact hdisj
  have hascd : KeysAscending (m.getD K (0, ∅) :: m.drop (K + 1)) := by
    rw [← hdrop]
    exact (List.pairwise_append.1 hasc').2.1
  -- a state of a bucket of index at least `K` lies in no earlier bucket
  have hnot : ∀ e ∈ m.drop K, ∀ s ∈ e.2, s ∉ bucket_union (m.take K) := by
    intro e he s hs hc
    obtain ⟨f, hf, hsf⟩ := mem_bucket_union.1 hc
    exact Finset.disjoint_left.1 ((List.pairwise_append.1 hdisj').2.2 f hf e he) hsf hs
  have hcost_top : ∀ s, s ∈ bucket_union (m.drop K) →
      bucket_cost (limit_buckets m MAX_BUCKETS) s = some (m.getD K (0, ∅)).1 := by
    intro s hs
    obtain ⟨e, he, hse⟩ := mem_bucket_union.1 hs
    rw [heq, bucket_cost_append, if_neg (hnot e he s hse), bucket_cost_cons, if_pos hs]
  refine ⟨heq, ?_, ?_, ?_, ?_, ?_⟩
  · rw [heq, List.length_append, List.length_take, List.length_singleton]
    have : min K m.length = K := by omega
    rw [this]
    push_cast
    omega
  · rw [heq, List.take_append_of_le_length (by rw [List.length_take]; omega),
      List.take_take, min_self]
  · rw [heq, bucket_union_append, bucket_union_cons, bucket_union_nil, Finset.union_empty,
      hunion]
  · intro e he s hs
    have he' : e ∈ m.drop K := by
      rw [hdrop]
      exact List.mem_cons_of_mem _ he
    refine ⟨hcost_top s (mem_bucket_union.2 ⟨e, he', hs⟩), ?_⟩
    exact (List.pairwise_cons.1 hascd).1 e he
  · intro s k hk
    by_cases hs : s ∈ bucket_union (m.take K)
    · refine ⟨k, ?_, le_refl _⟩
      rw [heq, bucket_cost_append, if_pos hs]
      rw [hsplit, bucket_cost_append, if_pos hs] at hk
      exact hk
    · rw [hsplit, bucket_cost_append, if_neg hs] at hk
      obtain ⟨e, he, hek, hse⟩ := mem_of_bucket_cost hk
      refine ⟨_, hcost_top s (mem_bucket_union.2 ⟨e, he, hse⟩), ?_⟩
      rw [← hek]
      rw [hdrop] at he
      exact keysAscending_head_le hascd e he

/-- Witness of C13: the map `{1: {a}, 2: {b}, 3: {c}}` over three states and
`MAX_BUCKETS = 2`: the result is `{1: {a}, 2: {b, c}}`. -/
theorem limit_buckets_underapproximates_witness :
    limit_buckets [(1, ({0} : Finset (Fin 3))), (2, {1}), (3, {2})] 2
      = [(1, {0}), (2, {1, 2})] ∧
    ∀ s k, bucket_cost [(1, ({0} : Finset (Fin 3))), (2, {1}), (3, {2})] s = some k →
      ∃ k', bucket_cost (limit_buckets [(1, ({0} : Finset (Fin 3))), (2, {1}), (3, {2})] 2) s
        = some k' ∧ k' ≤ k :=
  ⟨by decide,
    (limit_buckets_underapproximates 2 [(1, ({0} : Finset (Fin 3))), (2, {1}), (3, {2})]
      (by decide) (by decide) (by unfold KeysAscending; decide)
      (by unfold BucketsDisjoint; decide)).2.2.2.2.2⟩
/-! ## The cap on the number of buckets; the remaining cost of a transition -/

/-- C12 (the code at the failing input). A cost function over three concrete states with
one operator of cost `5` and `MAX_BUCKETS = 2`. A reduction by the transition cost `3` on
the fingerprint `{0}` leaves the two buckets `{2: {0}, 5: {1, 2}}`;
`reduce_transition_costs_negative_infinity` with the set `{1}` then files state `1`
under `+INF` and leaves three buckets, one more than `MAX_BUCKETS`. -/
theorem negative_infinity_reduction_exceeds_max_buckets :
    (three_state_cost_function [5]).max_buckets = 2 ∧
    ((three_state_cost_function [5]).reduce_transition_costs_finite
        [⟨0, 0, 0, 1⟩] (fun _ => {0}) ⟨[3], [false], [0]⟩).buckets 0
      = [(2, {0}), (5, {1, 2})] ∧
    (((three_state_cost_function [5]).reduce_transition_costs_finite
        [⟨0, 0, 0, 1⟩] (fun _ => {0})
        ⟨[3], [false], [0]⟩).reduce_transition_costs_negative_infinity [{1}]).buckets 0
      = [(2, {0}), (5, {2}), (INF, {1})] ∧
    ((((three_state_cost_function [5]).reduce_transition_costs_finite
        [⟨0, 0, 0, 1⟩] (fun _ => {0})
        ⟨[3], [false], [0]⟩).reduce_transition_costs_negative_infinity [{1}]).buckets
          0).length = 3 := by
  decide

section transition_cost
variable {σ : Type} [DecidableEq σ]

/-- The loop of `determine_remaining_costs_transition` on a map with ascending keys in
which some bucket meets the fingerprint: it returns the least key of such a bucket. -/
theorem first_intersecting_key_least (fingerprint : Finset σ) :
    ∀ (m : BucketMap σ) (cost : Int), KeysAscending m →
      (∃ e ∈ m, e.2 ∩ fingerprint ≠ ∅) →
      IsLeastIntersectingKey m fingerprint (first_intersecting_key fingerprint cost m) := by
  intro m
  induction m with
  | nil =>
    intro cost _ ⟨e, he, _⟩
    exact absurd he (List.not_mem_nil _)
  | cons p rest ih =>
    intro cost hasc hex
    unfold first_intersecting_key
    by_cases hp : p.2 ∩ fingerprint ≠ ∅
    · rw [if_pos hp]
      refine ⟨⟨p, List.mem_cons_self _ _, rfl, hp⟩, ?_⟩
      intro e he _
      rcases List.mem_cons.1 he with h | h
      · rw [h]
      · exact le_of_lt ((List.pairwise_cons.1 hasc).1 e h)
    · rw [if_neg hp]
      obtain ⟨e, he, hne⟩ := hex
      have he' : e ∈ rest := by
        rcases List.mem_cons.1 he with h | h
        · rw [h] at hne; exact absurd hne hp
        · exact h
      obtain ⟨⟨f, hf, hfk, hfne⟩, hmin⟩ :=
        ih p.1 (List.pairwise_cons.1 hasc).2 ⟨e, he', hne⟩
      refine ⟨⟨f, List.mem_cons_of_mem _ hf, hfk, hfne⟩, ?_⟩
      intro g hg hgne
      rcases List.mem_cons.1 hg with h | h
      · rw [h] at hgne; exact absurd hgne hp
      · exact hmin g h hgne

end transition_cost

/-- C14 (amended). For a well-formed bucketed cost function (one `std::map` per operator
whose buckets partition the states), every abstraction and every transition `t` of an
operator of the task: if the source of `t` is a goal state,
`determine_remaining_costs_transition(abstraction, t)` returns `0`; otherwise, if the
fingerprint of `t` is not empty, it returns the smallest key whose bucket has a nonempty
intersection with the fingerprint. -/
theorem determine_remaining_costs_transition_least {σ : Type} [DecidableEq σ] [Fintype σ]
    (c : CostFunctionStateDependent σ) (a : ExplicitAbstraction)
    (make_transition_bdd : Transition → Finset σ) (t : Transition)
    (hc : c.WellFormed) (hop : t.op_id < c.num_operators) :
    (a.is_goal_state t.source_id = true →
      c.determine_remaining_costs_transition a make_transition_bdd t = 0) ∧
    (a.is_goal_state t.source_id = false → make_transition_bdd t ≠ ∅ →
      IsLeastIntersectingKey (c.buckets t.op_id) (make_transition_bdd t)
        (c.determine_remaining_costs_transition a make_transition_bdd t)) := by
  unfold CostFunctionStateDependent.determine_remaining_costs_transition
  constructor
  · intro hg
    rw [if_pos hg]
  · intro hg hne
    rw [if_neg (by rw [hg]; exact Bool.false_ne_true)]
    obtain ⟨hcanon, hunion⟩ := wellFormed_buckets hc hop
    apply first_intersecting_key_least _ _ _ hcanon.1
    obtain ⟨s, hs⟩ := Finset.nonempty_iff_ne_empty.2 hne
    obtain ⟨e, he, hse⟩ := mem_bucket_union.1
      (show s ∈ bucket_union (c.buckets t.op_id) by rw [hunion]; exact Finset.mem_univ s)
    refine ⟨e, he, ?_⟩
    apply Finset.nonempty_iff_ne_empty.1
    exact ⟨s, Finset.mem_inter.2 ⟨hse, hs⟩⟩

/-- Witness of C14: after a reduction by the transition cost `3` on the fingerprint `{0}`
the operator has the buckets `{2: {0}, 5: {1, 2}}`; the transition out of the non-goal
state `1` of `unreachable_state_abstraction`, with the fingerprint `{0, 1}`, costs `2`. -/
theorem determine_remaining_costs_transition_least_witness :
    ((three_state_cost_function [5]).reduce_transition_costs_finite
        [⟨0, 0, 0, 1⟩] (fun _ => {0}) ⟨[3], [false], [0]⟩).determine_remaining_costs_transition
      unreachable_state_abstraction (fun _ => {0, 1}) ⟨0, 0, 1, 0⟩ = 2 ∧
    IsLeastIntersectingKey
      (((three_state_cost_function [5]).reduce_transition_costs_finite
        [⟨0, 0, 0, 1⟩] (fun _ => {0}) ⟨[3], [false], [0]⟩).buckets 0) {0, 1}
      (((three_state_cost_function [5]).reduce_transition_costs_finite
        [⟨0, 0, 0, 1⟩] (fun _ => {0})
        ⟨[3], [false], [0]⟩).determine_remaining_costs_transition
        unreachable_state_abstraction (fun _ => {0, 1}) ⟨0, 0, 1, 0⟩) :=
  ⟨by decide,
    (determine_remaining_costs_transition_least
      ((three_state_cost_function [5]).reduce_transition_costs_finite
        [⟨0, 0, 0, 1⟩] (fun _ => {0}) ⟨[3], [false], [0]⟩)
      unreachable_state_abstraction (fun _ => {0, 1}) ⟨0, 0, 1, 0⟩
      (wellFormed_reduce_transition_costs_finite
        (wellFormed_create [5] 2 : (three_state_cost_function [5]).WellFormed)
        [⟨0, 0, 0, 1⟩] (fun _ => {0}) ⟨[3], [false], [0]⟩)
      (by decide)).2 (by decide) (by decide)⟩

/-- Counterexample to C14 as stated. The source `0` of the transition `0 → 1` of
`goal_cycle_abstraction` is a goal state, so `determine_remaining_costs_transition` returns
`0`, while the only bucket of operator `0`, which meets the fingerprint, has the key `5`. -/
theorem determine_remaining_costs_transition_counterexample :
    (two_state_cost_function [5, 5]).determine_remaining_costs_transition
      goal_cycle_abstraction (fun _ => Finset.univ) ⟨0, 0, 0, 1⟩ = 0 ∧
    (two_state_cost_function [5, 5]).buckets 0 = [(5, Finset.univ)] ∧
    ¬ IsLeastIntersectingKey ((two_state_cost_function [5, 5]).buckets 0) Finset.univ
      ((two_state_cost_function [5, 5]).determine_remaining_costs_transition
        goal_cycle_abstraction (fun _ => Finset.univ) ⟨0, 0, 0, 1⟩) := by
  refine ⟨by decide, by decide, ?_⟩
  rintro ⟨⟨e, he, hk, _⟩, _⟩
  have h1 : (two_state_cost_function [5, 5]).buckets 0 = [(5, Finset.univ)] := by decide
  have h2 : (two_state_cost_function [5, 5]).determine_remaining_costs_transition
      goal_cycle_abstraction (fun _ => Finset.univ) ⟨0, 0, 0, 1⟩ = 0 := by decide
  rw [h1, List.mem_singleton] at he
  rw [h2, he] at hk
  exact absurd hk (by decide)
/-! ## The number of buckets under the other operations -/

section bucket_count
variable {σ : Type} [DecidableEq σ]

theorem length_map_add_le (k : Int) (b : Finset σ) (m : BucketMap σ) :
    (map_add k b m).length ≤ m.length + 1 := by
  induction m with
  | nil => simp [map_add]
  | cons e m ih =>
    unfold map_add
    split_ifs
    · simp
    · simp
    · simp only [List.length_cons]
      omega

theorem length_insert_cost_value_le (k : Int) (b : Finset σ) (m : BucketMap σ) :
    (insert_cost_value k b m).length ≤ m.length + 1 := by
  unfold insert_cost_value
  split_ifs
  · omega
  · exact length_map_add_le k b m

theorem length_foldl_insert_le (g : Int → Int) (m : List (Int × Finset σ)) :
    ∀ init : BucketMap σ,
      (m.foldl (fun new_sd_costs p => insert_cost_value (g p.1) p.2 new_sd_costs)
        init).length ≤ init.length + m.length := by
  induction m with
  | nil => intro init; simp
  | cons p rest ih =>
    intro init
    rw [List.foldl_cons]
    have h1 := ih (insert_cost_value (g p.1) p.2 init)
    have h2 := length_insert_cost_value_le (g p.1) p.2 init
    simp only [List.length_cons]
    omega

theorem length_remove_states_le [Fintype σ] (context : Finset σ) (m : BucketMap σ) :
    (remove_states context m).length ≤ m.length := by
  induction m with
  | nil => simp [remove_states]
  | cons e m ih =>
    unfold remove_states
    split_ifs <;> simp only [List.length_cons] <;> omega

/-- Outside `reduce_transition_costs_negative_infinity` the number of buckets of a map
stays within `MAX_BUCKETS`: `reinitialize` leaves one bucket, the rebuilt map of
`reduce_operator_costs` has no more buckets than the old one, `limit_buckets` (the last
step of `reduce_transition_costs_finite`) leaves at most `MAX_BUCKETS`; the removal and
insertion of `reduce_transition_costs_negative_infinity` adds at most one bucket. -/
theorem bucket_count_bounds [Fintype σ] (MAX_BUCKETS : Int) (hM : 1 ≤ MAX_BUCKETS)
    (m : BucketMap σ) :
    (∀ saturated, (reduce_bucket_map saturated m).length ≤ m.length) ∧
    ((limit_buckets m MAX_BUCKETS).length : Int) ≤ MAX_BUCKETS ∧
    ∀ context : Finset σ,
      (insert_cost_value INF context (remove_states context m)).length ≤ m.length + 1 := by
  refine ⟨?_, ?_, ?_⟩
  · intro saturated
    rw [reduce_bucket_map_eq]
    have := length_foldl_insert_le (reduce_key saturated) m []
    simpa using this
  · unfold limit_buckets
    split_ifs with h
    · have := limit_buckets_from_length MAX_BUCKETS m 0 (by omega)
      omega
    · omega
  · intro context
    have h1 := length_insert_cost_value_le INF context (remove_states context m)
    have h2 := length_remove_states_le context m
    omega

end bucket_count
/-! ## The evaluation of a cost partitioning: compute_heuristic, add_h_values -/

section evaluation

theorem foldl_left_addition_infinite (l : List Int) {x : Int} (h : x = INF ∨ x = -INF) :
    l.foldl left_addition x = x := by
  induction l with
  | nil => rfl
  | cons y l ih =>
    rw [List.foldl_cons]
    have e : left_addition x y = x := by
      unfold left_addition
      rw [if_pos (by tauto)]
    rw [e, ih]

/-- The value of the loop of `compute_heuristic` is `-INF`, `INF` or at least `0`. -/
theorem compute_heuristic_from_sign (ids : List Nat) :
    ∀ (tables : List LookupTable) (sum_h : Int),
      compute_heuristic_from ids tables sum_h = -INF ∨
        0 ≤ compute_heuristic_from ids tables sum_h := by
  intro tables
  induction tables with
  | nil =>
    intro sum_h
    right
    simp only [compute_heuristic_from]
    exact le_max_left _ _
  | cons t rest ih =>
    intro sum_h
    simp only [compute_heuristic_from]
    split_ifs with h
    · rcases h with h | h
      · exact Or.inl h
      · right; rw [h]; unfold INF; omega
    · exact ih _

/-- The loop of `compute_heuristic` against the left-addition fold, as long as the finite
partial sums stay strictly between `-INF` and `INF`. -/
theorem compute_heuristic_from_eq (ids : List Nat) :
    ∀ (tables : List LookupTable) (sum_h : Int),
      (∀ k, (∀ x ∈ (looked_up_values ids tables).take k, x ≠ INF ∧ x ≠ -INF) →
        -INF < sum_h + ((looked_up_values ids tables).take k).sum ∧
        sum_h + ((looked_up_values ids tables).take k).sum < INF) →
      compute_heuristic_from ids tables sum_h
        = if (looked_up_values ids tables).foldl left_addition sum_h = -INF then -INF
          else max 0 ((looked_up_values ids tables).foldl left_addition sum_h) := by
  intro tables
  induction tables with
  | nil =>
    intro sum_h hr
    have h0 := hr 0 (by simp)
    simp only [List.take_zero, List.sum_nil, add_zero] at h0
    simp only [compute_heuristic_from, looked_up_values, List.map_nil, List.foldl_nil]
    rw [if_neg (by omega)]
  | cons t rest ih =>
    intro sum_h hr
    have h0 := hr 0 (by simp)
    simp only [List.take_zero, List.sum_nil, add_zero] at h0
    have hv : looked_up_values ids (t :: rest)
        = vget t.h_values (ids.getD t.abstraction_id 0) :: looked_up_values ids rest := rfl
    rw [hv, List.foldl_cons]
    simp only [compute_heuristic_from]
    by_cases hinf : vget t.h_values (ids.getD t.abstraction_id 0) = -INF ∨
        vget t.h_values (ids.getD t.abstraction_id 0) = INF
    · rw [if_pos hinf]
      have e : left_addition sum_h (vget t.h_values (ids.getD t.abstraction_id 0))
          = vget t.h_values (ids.getD t.abstraction_id 0) := by
        unfold left_addition
        rw [if_neg (by
          push_neg
          constructor <;> omega), if_pos hinf]
      rw [e, foldl_left_addition_infinite _ (by tauto)]
      rcases hinf with h | h
      · rw [if_pos h, h]
      · rw [if_neg (by rw [h]; unfold INF; omega), h]
        unfold INF
        omega
    · rw [if_neg hinf]
      have e : left_addition sum_h (vget t.h_values (ids.getD t.abstraction_id 0))
          = sum_h + vget t.h_values (ids.getD t.abstraction_id 0) := by
        unfold left_addition
        rw [if_neg (by
          push_neg
          constructor <;> omega), if_neg hinf]
      rw [e]
      apply ih
      intro k hk
      have := hr (k + 1) (by
        rw [hv, List.take_succ_cons]
        intro x hx
        rcases List.mem_cons.1 hx with h | h
        · rw [h]
          push_neg at hinf
          exact ⟨hinf.2, hinf.1⟩
        · exact hk x h)
      rw [hv, List.take_succ_cons, List.sum_cons] at this
      omega

end evaluation

/-- C15 (amended). For every list of lookup tables and every vector of abstract state ids:
`compute_heuristic(ids)` is `-INF` or at least `0`; and, when the finite partial sums of
the looked-up values stay strictly between `-INF` and `INF` (the `int` range), it is the
left-addition fold `h_1 ⊕ ... ⊕ h_n` of the looked-up values in stored table order, floored
at `0` unless the fold is `-INF`: `-INF` if the fold is `-INF`, else `max(0, fold)`. -/
theorem compute_heuristic_left_addition (cp : CostPartitioningHeuristic) (ids : List Nat) :
    (cp.compute_heuristic ids = -INF ∨ 0 ≤ cp.compute_heuristic ids) ∧
    ((∀ k, (∀ x ∈ (looked_up_values ids cp.lookup_tables).take k, x ≠ INF ∧ x ≠ -INF) →
        -INF < ((looked_up_values ids cp.lookup_tables).take k).sum ∧
        ((looked_up_values ids cp.lookup_tables).take k).sum < INF) →
      cp.compute_heuristic ids
        = if left_addition_fold (looked_up_values ids cp.lookup_tables) = -INF then -INF
          else max 0 (left_addition_fold (looked_up_values ids cp.lookup_tables))) := by
  unfold CostPartitioningHeuristic.compute_heuristic left_addition_fold
  refine ⟨compute_heuristic_from_sign ids _ 0, ?_⟩
  intro hr
  apply compute_heuristic_from_eq
  intro k hk
  rw [zero_add]
  exact hr k hk

/-- Witness of C15: the tables `[3, 0]` and `[4, 4, 0]` at the abstract state ids `[0, 0]`
give `3 ⊕ 4 = 7`. -/
theorem compute_heuristic_left_addition_witness :
    CostPartitioningHeuristic.compute_heuristic ⟨[⟨0, [3, 0]⟩, ⟨1, [4, 4, 0]⟩]⟩ [0, 0]
      = if left_addition_fold (looked_up_values [0, 0] [⟨0, [3, 0]⟩, ⟨1, [4, 4, 0]⟩]) = -INF
        then -INF
        else max 0 (left_addition_fold (looked_up_values [0, 0] [⟨0, [3, 0]⟩, ⟨1, [4, 4, 0]⟩])) :=
  (compute_heuristic_left_addition ⟨[⟨0, [3, 0]⟩, ⟨1, [4, 4, 0]⟩]⟩ [0, 0]).2 (by
    intro k _
    rcases k with _ | _ | k
    · exact ⟨by decide, by decide⟩
    · exact ⟨by decide, by decide⟩
    · have e : List.take (k + 1 + 1)
          (looked_up_values [0, 0] [⟨0, [3, 0]⟩, ⟨1, [4, 4, 0]⟩]) = [3, 4] := by
        simp [looked_up_values, vget]
      rw [e]
      exact ⟨by decide, by decide⟩)

/-- Counterexample to C15 as stated. For the single table `[-INF]` at the abstract state
id `0`, `compute_heuristic` returns `-INF`, which is negative and is not
`max(0, h_1) = 0`. -/
theorem compute_heuristic_left_addition_counterexample :
    CostPartitioningHeuristic.compute_heuristic ⟨[⟨0, [-INF]⟩]⟩ [0] = -INF ∧
    max 0 (left_addition_fold (looked_up_values [0] [⟨0, [-INF]⟩])) = 0 ∧
    CostPartitioningHeuristic.compute_heuristic ⟨[⟨0, [-INF]⟩]⟩ [0] < 0 := by
  decide

section add_values

theorem findIdx_append_first {α : Type} (p : α → Bool) (pre : List α) (t : α)
    (post : List α) (hpre : ∀ x ∈ pre, p x = false) (ht : p t = true) :
    (pre ++ t :: post).findIdx p = pre.length := by
  induction pre with
  | nil => simp [List.findIdx_cons, ht]
  | cons x pre ih =>
    rw [List.cons_append, List.findIdx_cons, hpre x (List.mem_cons_self _ _)]
    simp only [cond_false, List.length_cons]
    rw [ih fun y hy => hpre y (List.mem_cons_of_mem _ hy)]

theorem modify_append_first {α : Type} (f : α → α) (pre : List α) (t : α)
    (post : List α) : List.modify f pre.length (pre ++ t :: post) = pre ++ f t :: post := by
  induction pre with
  | nil => rfl
  | cons x pre ih =>
    rw [List.cons_append, List.length_cons, List.modify_succ_cons, ih]
    rfl

/-- The loop of `add_h_values` over the entries of the new table. -/
theorem sum_lookup_tables_spec (old h : List Int) :
    (sum_lookup_tables old h).length = old.length ∧
    ∀ i, vget (sum_lookup_tables old h) i
      = if i < h.length ∧ i < old.length then left_addition (vget old i) (vget h i)
        else vget old i := by
  obtain ⟨h1, h2⟩ := foldl_set_pointwise (fun i y => left_addition y (vget h i))
    (List.range h.length) (List.nodup_range _) old
  unfold sum_lookup_tables
  simp only [List.mem_range] at h2
  exact ⟨h1, h2⟩

theorem sum_lookup_tables_zipWith (old h : List Int) (hlen : h.length = old.length) :
    sum_lookup_tables old h = List.zipWith left_addition old h := by
  obtain ⟨h1, h2⟩ := sum_lookup_tables_spec old h
  apply List.ext_getElem
  · rw [h1, List.length_zipWith, hlen, min_self]
  · intro i hi1 hi2
    rw [List.getElem_zipWith, ← vget_eq_getElem hi1, h2 i]
    rw [h1] at hi1
    rw [if_pos ⟨by omega, hi1⟩, vget_eq_getElem hi1, vget_eq_getElem (by omega)]

end add_values

/-- C16. For every cost-partitioning heuristic, abstraction id `a` and vector `h`:
`add_h_values(a, h)` leaves the heuristic unchanged if every entry of `h` is `0`;
otherwise, if a table for `a` exists, the (first) table for `a` becomes the entrywise left
addition `old[i] ⊕ h[i]` (for tables of equal length; in general the entries of index
below both lengths) and all other tables are unchanged; otherwise `(a, h)` is appended as
the last table. -/
theorem add_h_values_cases (cp : CostPartitioningHeuristic) (a : Nat) (h : List Int) :
    ((∀ x ∈ h, x = 0) → cp.add_h_values a h = cp) ∧
    ((∃ x ∈ h, x ≠ 0) → ∀ pre t post, cp.lookup_tables = pre ++ t :: post →
      t.abstraction_id = a → (∀ x ∈ pre, x.abstraction_id ≠ a) →
      (cp.add_h_values a h).lookup_tables
          = pre ++ ⟨a, sum_lookup_tables t.h_values h⟩ :: post ∧
        (sum_lookup_tables t.h_values h).length = t.h_values.length ∧
        (∀ i, i < h.length → i < t.h_values.length →
          vget (sum_lookup_tables t.h_values h) i
            = left_addition (vget t.h_values i) (vget h i)) ∧
        (h.length = t.h_values.length →
          sum_lookup_tables t.h_values h = List.zipWith left_addition t.h_values h)) ∧
    ((∃ x ∈ h, x ≠ 0) → (∀ t ∈ cp.lookup_tables, t.abstraction_id ≠ a) →
      (cp.add_h_values a h).lookup_tables = cp.lookup_tables ++ [⟨a, h⟩]) := by
  have hany : (∃ x ∈ h, x ≠ 0) → h.any (fun x => decide (x ≠ 0)) = true := by
    rintro ⟨x, hx, hne⟩
    rw [List.any_eq_true]
    exact ⟨x, hx, decide_eq_true hne⟩
  refine ⟨?_, ?_, ?_⟩
  · intro hz
    unfold CostPartitioningHeuristic.add_h_values
    rw [if_neg]
    intro hc
    rw [List.any_eq_true] at hc
    obtain ⟨x, hx, hne⟩ := hc
    exact of_decide_eq_true hne (hz x hx)
  · intro hex pre t post htables ht hpre
    obtain ⟨s1, s2⟩ := sum_lookup_tables_spec t.h_values h
    refine ⟨?_, s1, fun i h1 h2 => by rw [s2 i, if_pos ⟨h1, h2⟩],
      fun hl => sum_lookup_tables_zipWith _ _ hl⟩
    have hidx : cp.get_lookup_table_index a = some pre.length := by
      unfold CostPartitioningHeuristic.get_lookup_table_index
      simp only
      rw [htables, findIdx_append_first _ pre t post
        (fun x hx => decide_eq_false (hpre x hx)) (decide_eq_true ht),
        if_pos (by rw [List.length_append, List.length_cons]; omega)]
    unfold CostPartitioningHeuristic.add_h_values
    rw [if_pos (hany hex), hidx]
    simp only
    rw [htables, modify_append_first, ht]
  · intro hex hfresh
    unfold CostPartitioningHeuristic.add_h_values
    rw [if_pos (hany hex), get_lookup_table_index_fresh cp a hfresh]

/-- Witness of C16: adding `[1, -INF]` for abstraction `1` to the tables of the abstractions
`0` and `1` changes the table of abstraction `1` entrywise. -/
theorem add_h_values_cases_witness :
    (CostPartitioningHeuristic.add_h_values ⟨[⟨0, [3, 0]⟩, ⟨1, [4, 7]⟩]⟩ 1
        [1, -INF]).lookup_tables
      = [⟨0, [3, 0]⟩] ++ ⟨1, sum_lookup_tables [4, 7] [1, -INF]⟩ :: [] ∧
    sum_lookup_tables [4, 7] [1, -INF] = [5, -INF] :=
  ⟨((add_h_values_cases ⟨[⟨0, [3, 0]⟩, ⟨1, [4, 7]⟩]⟩ 1 [1, -INF]).2.1
      ⟨1, by decide, by decide⟩ [⟨0, [3, 0]⟩] ⟨1, [4, 7]⟩ [] rfl rfl (by decide)).1,
    by decide⟩
/-! ## Stored tables are not identically zero; the maximum over cost partitionings -/

section stored_tables

/-- The entries of a table are `-INF` or at least `0`, and one of them is not `0`. -/
theorem left_addition_keeps {x y : Int} (hx : 0 ≤ x ∨ x = -INF) (hy : 0 ≤ y ∨ y = -INF) :
    (0 ≤ left_addition x y ∨ left_addition x y = -INF) ∧
    (x ≠ 0 → left_addition x y ≠ 0) := by
  unfold left_addition
  split_ifs with h1 h2
  · exact ⟨hx, fun h => h⟩
  · refine ⟨hy, fun _ => ?_⟩
    rcases h2 with h2 | h2 <;> rw [h2] <;> unfold INF <;> omega
  · push_neg at h1 h2
    constructor
    · left
      rcases hx with hx | hx
      · rcases hy with hy | hy
        · omega
        · exact absurd hy h2.1
      · exact absurd hx h1.1
    · intro hne
      rcases hx with hx | hx
      · rcases hy with hy | hy
        · omega
        · exact absurd hy h2.1
      · exact absurd hx h1.1

theorem mem_modify {α : Type} (f : α → α) :
    ∀ (n : Nat) (l : List α), ∀ x ∈ List.modify f n l, x ∈ l ∨ ∃ y ∈ l, x = f y := by
  intro n
  induction n with
  | zero =>
    intro l x hx
    cases l with
    | nil => exact Or.inl hx
    | cons a l =>
      rw [List.modify_zero_cons] at hx
      rcases List.mem_cons.1 hx with h | h
      · exact Or.inr ⟨a, List.mem_cons_self _ _, h⟩
      · exact Or.inl (List.mem_cons_of_mem _ h)
  | succ n ih =>
    intro l x hx
    cases l with
    | nil => exact Or.inl hx
    | cons a l =>
      rw [List.modify_succ_cons] at hx
      rcases List.mem_cons.1 hx with h | h
      · exact Or.inl (h ▸ List.mem_cons_self _ _)
      · rcases ih l x h with h' | ⟨y, hy, e⟩
        · exact Or.inl (List.mem_cons_of_mem _ h')
        · exact Or.inr ⟨y, List.mem_cons_of_mem _ hy, e⟩

/-- One call of `add_h_values` with a vector without a negative finite entry keeps the
tables free of negative finite entries and each with an entry other than `0`. -/
theorem add_h_values_keeps_nonzero (cp : CostPartitioningHeuristic) (a : Nat)
    (h : List Int) (hh : ∀ x ∈ h, 0 ≤ x ∨ x = -INF)
    (hcp : ∀ t ∈ cp.lookup_tables,
      (∃ x ∈ t.h_values, x ≠ 0) ∧ ∀ x ∈ t.h_values, 0 ≤ x ∨ x = -INF) :
    ∀ t ∈ (cp.add_h_values a h).lookup_tables,
      (∃ x ∈ t.h_values, x ≠ 0) ∧ ∀ x ∈ t.h_values, 0 ≤ x ∨ x = -INF := by
  have hv : ∀ i, 0 ≤ vget h i ∨ vget h i = -INF := by
    intro i
    by_cases hi : i < h.length
    · exact hh _ (vget_mem hi)
    · rw [vget_of_length_le (by omega)]
      exact Or.inl (le_refl _)
  unfold CostPartitioningHeuristic.add_h_values
  by_cases hany : h.any (fun x => decide (x ≠ 0)) = true
  · rw [if_pos hany]
    cases hidx : cp.get_lookup_table_index a with
    | none =>
      simp only
      intro t ht
      rcases List.mem_append.1 ht with h1 | h1
      · exact hcp t h1
      · rw [List.mem_singleton] at h1
        rw [h1]
        refine ⟨?_, hh⟩
        rw [List.any_eq_true] at hany
        obtain ⟨x, hx, hne⟩ := hany
        exact ⟨x, hx, of_decide_eq_true hne⟩
    | some i =>
      simp only
      intro t ht
      rcases mem_modify _ i _ t ht with h1 | ⟨old, hold, e⟩
      · exact hcp t h1
      · obtain ⟨⟨x, hx, hne⟩, hgood⟩ := hcp old hold
        obtain ⟨s1, s2⟩ := sum_lookup_tables_spec old.h_values h
        have hvo : ∀ i, 0 ≤ vget old.h_values i ∨ vget old.h_values i = -INF := by
          intro i
          by_cases hi : i < old.h_values.length
          · exact hgood _ (vget_mem hi)
          · rw [vget_of_length_le (by omega)]
            exact Or.inl (le_refl _)
        rw [e]
        simp only
        constructor
        · obtain ⟨j, hj, ej⟩ := mem_iff_vget hx
          refine ⟨vget (sum_lookup_tables old.h_values h) j,
            vget_mem (by rw [s1]; exact hj), ?_⟩
          rw [s2 j]
          split_ifs
          · exact (left_addition_keeps (hvo j) (hv j)).2 (by rw [ej]; exact hne)
          · rw [ej]; exact hne
        · intro y hy
          obtain ⟨j, _, ej⟩ := mem_iff_vget hy
          rw [← ej, s2 j]
          split_ifs
          · exact (left_addition_keeps (hvo j) (hv j)).1
          · exact hvo j
  · rw [if_neg hany]
    exact hcp

theorem accumulated_tables {cp : CostPartitioningHeuristic} (h : Accumulated cp) :
    ∀ t ∈ cp.lookup_tables,
      (∃ x ∈ t.h_values, x ≠ 0) ∧ ∀ x ∈ t.h_values, 0 ≤ x ∨ x = -INF := by
  induction h with
  | empty => exact fun t ht => absurd ht (List.not_mem_nil _)
  | add_h_values cp a h _ hh ih => exact add_h_values_keeps_nonzero cp a h hh ih
  | add cp other _ _ ih1 ih2 =>
    unfold CostPartitioningHeuristic.add
    have key : ∀ (l : List LookupTable) (c : CostPartitioningHeuristic),
        (∀ t ∈ l, ∀ x ∈ t.h_values, 0 ≤ x ∨ x = -INF) →
        (∀ t ∈ c.lookup_tables,
          (∃ x ∈ t.h_values, x ≠ 0) ∧ ∀ x ∈ t.h_values, 0 ≤ x ∨ x = -INF) →
        ∀ t ∈ (l.foldl (fun cp table =>
            cp.add_h_values table.abstraction_id table.h_values) c).lookup_tables,
          (∃ x ∈ t.h_values, x ≠ 0) ∧ ∀ x ∈ t.h_values, 0 ≤ x ∨ x = -INF := by
      intro l
      induction l with
      | nil => exact fun c _ hc => hc
      | cons table l ihl =>
        intro c hl hc
        rw [List.foldl_cons]
        apply ihl _ (fun t ht => hl t (List.mem_cons_of_mem _ ht))
        exact add_h_values_keeps_nonzero c _ _ (hl table (List.mem_cons_self _ _)) hc
    exact key other.lookup_tables cp (fun t ht => (ih2 t ht).2) ih1

end stored_tables

/-- C17 (amended). Starting from the empty cost-partitioning heuristic, after any sequence
of `add_h_values` and `add` calls whose vectors of heuristic values have no negative finite
entry (every entry is `>= 0`, `+INF` or `-INF`), every stored lookup table has at least one
nonzero entry. -/
theorem stored_tables_nonzero (cp : CostPartitioningHeuristic) (h : Accumulated cp) :
    ∀ t ∈ cp.lookup_tables, ∃ x ∈ t.h_values, x ≠ 0 :=
  fun t ht => (accumulated_tables h t ht).1

/-- Witness of C17: the heuristic built by adding `[3, 0]` for abstraction `0`, the zero
table for abstraction `1` and `[0, -INF]` for abstraction `0` stores the one table
`[3, -INF]`. -/
theorem stored_tables_nonzero_witness :
    ((CostPartitioningHeuristic.add_h_values ⟨[]⟩ 0 [3, 0]).add_h_values 1
        [0, 0, 0]).add_h_values 0 [0, -INF]
      = ⟨[⟨0, [3, -INF]⟩]⟩ ∧
    ∀ t ∈ (((CostPartitioningHeuristic.add_h_values ⟨[]⟩ 0 [3, 0]).add_h_values 1
        [0, 0, 0]).add_h_values 0 [0, -INF]).lookup_tables, ∃ x ∈ t.h_values, x ≠ 0 :=
  ⟨by decide,
    stored_tables_nonzero _
      (Accumulated.add_h_values _ 0 [0, -INF]
        (Accumulated.add_h_values _ 1 [0, 0, 0]
          (Accumulated.add_h_values _ 0 [3, 0] Accumulated.empty (by decide))
          (by decide))
        (by decide))⟩

/-- Counterexample to C17 as stated: `add_h_values(0, [1])` followed by
`add_h_values(0, [-1])` leaves the stored table `[0]`, which is identically zero. -/
theorem stored_tables_nonzero_counterexample :
    (CostPartitioningHeuristic.add_h_values ⟨[]⟩ 0 [1]).add_h_values 0 [-1]
      = ⟨[⟨0, [0]⟩]⟩ ∧
    ¬ ∀ t ∈ ((CostPartitioningHeuristic.add_h_values ⟨[]⟩ 0 [1]).add_h_values 0
        [-1]).lookup_tables, ∃ x ∈ t.h_values, x ≠ 0 := by
  decide

section maximum

theorem foldl_max_ge_init (l : List Int) : ∀ init : Int, init ≤ l.foldl max init := by
  induction l with
  | nil => exact fun init => le_refl _
  | cons x l ih => exact fun init => le_trans (le_max_left _ _) (ih _)

theorem foldl_max_ge_mem (l : List Int) : ∀ init : Int, ∀ x ∈ l, x ≤ l.foldl max init := by
  induction l with
  | nil => exact fun _ x hx => absurd hx (List.not_mem_nil _)
  | cons y l ih =>
    intro init x hx
    rw [List.foldl_cons]
    rcases List.mem_cons.1 hx with h | h
    · rw [h]
      exact le_trans (le_max_right _ _) (foldl_max_ge_init l _)
    · exact ih _ x h

theorem foldl_max_mem (l : List Int) :
    ∀ init : Int, l.foldl max init = init ∨ l.foldl max init ∈ l := by
  induction l with
  | nil => exact fun init => Or.inl rfl
  | cons y l ih =>
    intro init
    rw [List.foldl_cons]
    rcases ih (max init y) with h | h
    · rw [h]
      rcases max_cases init y with ⟨e, _⟩ | ⟨e, _⟩
      · exact Or.inl e
      · right
        rw [e]
        exact List.mem_cons_self _ _
    · exact Or.inr (List.mem_cons_of_mem _ h)

theorem foldl_max_of_le (l : List Int) :
    ∀ init : Int, (∀ x ∈ l, x ≤ init) → l.foldl max init = init := by
  induction l with
  | nil => exact fun _ _ => rfl
  | cons y l ih =>
    intro init h
    rw [List.foldl_cons, max_eq_left (h y (List.mem_cons_self _ _))]
    exact ih init fun x hx => h x (List.mem_cons_of_mem _ hx)

/-- The loop of `compute_max_h_with_statistics` computes the maximum of `max_h` and the
values of the heuristics, when no value exceeds `INF`. -/
theorem compute_max_h_loop_eq (ids : List Nat) :
    ∀ (cps : List CostPartitioningHeuristic) (max_h : Int) (best_id : Option Nat)
      (current_id : Nat), (∀ cp ∈ cps, cp.compute_heuristic ids ≤ INF) →
      (compute_max_h_loop ids cps max_h best_id current_id).1
        = (cps.map fun cp => cp.compute_heuristic ids).foldl max max_h := by
  intro cps
  induction cps with
  | nil => intro _ _ _ _; rfl
  | cons cp rest ih =>
    intro max_h best_id current_id hle
    have hmax : (if cp.compute_heuristic ids > max_h then cp.compute_heuristic ids
        else max_h) = max max_h (cp.compute_heuristic ids) := by
      split_ifs with h
      · exact (max_eq_right (le_of_lt h)).symm
      · exact (max_eq_left (not_lt.1 h)).symm
    unfold compute_max_h_loop
    simp only [List.map_cons, List.foldl_cons]
    by_cases hinf : cp.compute_heuristic ids = INF
    · rw [if_pos hinf, hmax]
      symm
      apply foldl_max_of_le
      intro x hx
      obtain ⟨c, hc, e⟩ := List.mem_map.1 hx
      rw [← e, hinf]
      exact le_trans (hle c (List.mem_cons_of_mem _ hc)) (le_max_right _ _)
    · rw [if_neg hinf, hmax]
      exact ih _ _ _ fun c hc => hle c (List.mem_cons_of_mem _ hc)

end maximum

/-- C18. For every collection of cost-partitioning heuristics and every id vector whose
values `cp_i.compute_heuristic(ids)` are at most `INF` (the `int` range),
`compute_max_h_with_statistics` returns `max(0, max_i cp_i.compute_heuristic(ids))`: the
value is at least `0`, at least every `cp_i.compute_heuristic(ids)`, and is `0` or one of
them. -/
theorem compute_max_h_is_floored_maximum (cp_heuristics : List CostPartitioningHeuristic)
    (ids : List Nat) (num_best_order : List Nat)
    (hle : ∀ cp ∈ cp_heuristics, cp.compute_heuristic ids ≤ INF) :
    (compute_max_h_with_statistics cp_heuristics ids num_best_order).1
      = max_floored (cp_heuristics.map fun cp => cp.compute_heuristic ids) ∧
    0 ≤ (compute_max_h_with_statistics cp_heuristics ids num_best_order).1 ∧
    (∀ cp ∈ cp_heuristics, cp.compute_heuristic ids
      ≤ (compute_max_h_with_statistics cp_heuristics ids num_best_order).1) ∧
    ((compute_max_h_with_statistics cp_heuristics ids num_best_order).1 = 0 ∨
      ∃ cp ∈ cp_heuristics,
        (compute_max_h_with_statistics cp_heuristics ids num_best_order).1
          = cp.compute_heuristic ids) := by
  have e : (compute_max_h_with_statistics cp_heuristics ids num_best_order).1
      = (cp_heuristics.map fun cp => cp.compute_heuristic ids).foldl max 0 :=
    compute_max_h_loop_eq ids cp_heuristics 0 none 0 hle
  rw [e]
  refine ⟨rfl, foldl_max_ge_init _ 0, ?_, ?_⟩
  · intro cp hcp
    exact foldl_max_ge_mem _ 0 _ (List.mem_map.2 ⟨cp, hcp, rfl⟩)
  · rcases foldl_max_mem (cp_heuristics.map fun cp => cp.compute_heuristic ids) 0
      with h | h
    · exact Or.inl h
    · obtain ⟨cp, hcp, hv⟩ := List.mem_map.1 h
      exact Or.inr ⟨cp, hcp, hv.symm⟩

/-- Witness of C18: three heuristics with the values `3`, `INF` and `5` at the abstract
state id `0`; the loop stops at the second and returns `INF`. -/
theorem compute_max_h_is_floored_maximum_witness :
    compute_max_h_with_statistics [⟨[⟨0, [3]⟩]⟩, ⟨[⟨0, [INF]⟩]⟩, ⟨[⟨0, [5]⟩]⟩] [0] []
      = (INF, [0, 1, 0]) ∧
    (compute_max_h_with_statistics [⟨[⟨0, [3]⟩]⟩, ⟨[⟨0, [INF]⟩]⟩, ⟨[⟨0, [5]⟩]⟩] [0] []).1
      = max_floored
        ([⟨[⟨0, [3]⟩]⟩, ⟨[⟨0, [INF]⟩]⟩, ⟨[⟨0, [5]⟩]⟩].map fun cp =>
          CostPartitioningHeuristic.compute_heuristic cp [0]) :=
  ⟨by decide,
    (compute_max_h_is_floored_maximum [⟨[⟨0, [3]⟩]⟩, ⟨[⟨0, [INF]⟩]⟩, ⟨[⟨0, [5]⟩]⟩] [0] []
      (by decide)).1⟩
/-! ## Unscaling of the heuristic value -/

section unscale

/-- The value of the expression `ceil(max_h / 1000.0 - 0.01)` for a rounding error below
`1/1000` that is not positive where `max_h - 10` is a multiple of `1000`. -/
theorem unscale_heuristic_value_eq (DEAD_END : Int) (rounding : ℚ) (max_h : Int)
    (hfin : max_h ≠ INF) (he : |rounding| < 1 / 1000)
    (hb : max_h % 1000 = 10 → rounding ≤ 0) :
    unscale_heuristic_value DEAD_END rounding max_h = (max_h + 989) / 1000 := by
  unfold unscale_heuristic_value COST_FACTOR
  rw [if_neg hfin, Int.ceil_eq_iff]
  obtain ⟨e1, e2⟩ := abs_lt.1 he
  have hdiv := Int.emod_add_ediv (max_h + 989) 1000
  have hr0 := Int.emod_nonneg (max_h + 989) (by decide : (1000 : Int) ≠ 0)
  have hr1 := Int.emod_lt_of_pos (max_h + 989) (by decide : (0 : Int) < 1000)
  have hm : (max_h : ℚ) = 1000 * (((max_h + 989) / 1000 : Int) : ℚ)
      + (((max_h + 989) % 1000 : Int) : ℚ) - 989 := by
    have : ((max_h + 989 : Int) : ℚ)
        = (((max_h + 989) % 1000 + 1000 * ((max_h + 989) / 1000) : Int) : ℚ) := by
      rw [hdiv]
    push_cast at this
    linarith
  have hq0 : (0 : ℚ) ≤ (((max_h + 989) % 1000 : Int) : ℚ) := by exact_mod_cast hr0
  by_cases h999 : (max_h + 989) % 1000 = 999
  · have hq : (((max_h + 989) % 1000 : Int) : ℚ) = 999 := by exact_mod_cast h999
    have hle := hb (by omega)
    push_cast
    constructor <;> linarith
  · have hq : (((max_h + 989) % 1000 : Int) : ℚ) ≤ 998 := by
      have : (max_h + 989) % 1000 ≤ 998 := by omega
      exact_mod_cast this
    push_cast
    constructor <;> linarith

theorem floor_with_tolerance (max_h : Int) :
    ⌊(max_h : ℚ) / 1000 + 1 / 100⌋ = (max_h + 10) / 1000 := by
  rw [Int.floor_eq_iff]
  have hdiv := Int.emod_add_ediv (max_h + 10) 1000
  have hr0 := Int.emod_nonneg (max_h + 10) (by decide : (1000 : Int) ≠ 0)
  have hr1 := Int.emod_lt_of_pos (max_h + 10) (by decide : (0 : Int) < 1000)
  have hm : (max_h : ℚ) = 1000 * (((max_h + 10) / 1000 : Int) : ℚ)
      + (((max_h + 10) % 1000 : Int) : ℚ) - 10 := by
    have : ((max_h + 10 : Int) : ℚ)
        = (((max_h + 10) % 1000 + 1000 * ((max_h + 10) / 1000) : Int) : ℚ) := by
      rw [hdiv]
    push_cast at this
    linarith
  have hq0 : (0 : ℚ) ≤ (((max_h + 10) % 1000 : Int) : ℚ) := by exact_mod_cast hr0
  have hq1 : (((max_h + 10) % 1000 : Int) : ℚ) < 1000 := by exact_mod_cast hr1
  constructor <;> linarith

end unscale

/-- C19 (amended). For every finite scaled value `max_h >= 0` the façade returns
`ceil(max_h / 1000 - 0.01)`, that is `max_h / 1000` rounded up with a tolerance of `0.01`:
in exact rational arithmetic, and for every rounding error of the `double` evaluation below
`1/1000` (not positive where `max_h - 10` is a multiple of `1000`), the value is
`(max_h + 989) div 1000`. It equals `floor(max_h / 1000 + 0.01)` exactly when `max_h` lies
within `10` of a multiple of `1000`. The façade is this function applied to the value of
`compute_max_h_with_statistics`. -/
theorem unscale_rounds_up (DEAD_END : Int) (rounding : ℚ) (max_h : Int)
    (h0 : 0 ≤ max_h) (hfin : max_h ≠ INF) (he : |rounding| < 1 / 1000)
    (hb : max_h % 1000 = 10 → rounding ≤ 0) :
    unscale_heuristic_value DEAD_END rounding max_h = (max_h + 989) / 1000 ∧
    unscale_heuristic_value DEAD_END 0 max_h = ⌈(max_h : ℚ) / 1000 - 1 / 100⌉ ∧
    0 ≤ unscale_heuristic_value DEAD_END rounding max_h ∧
    (unscale_heuristic_value DEAD_END rounding max_h = ⌊(max_h : ℚ) / 1000 + 1 / 100⌋ ↔
      max_h % 1000 ≤ 10 ∨ 990 ≤ max_h % 1000) ∧
    ∀ (S : Type) (cp_heuristics : List CostPartitioningHeuristic)
      (abstraction_functions : List (S → Nat)) (num_best_order : List Nat) (state : S),
      (MaxCostPartitioningHeuristic.compute_heuristic DEAD_END rounding cp_heuristics
          abstraction_functions num_best_order state).1
        = unscale_heuristic_value DEAD_END rounding
          (compute_max_h_with_statistics cp_heuristics
            (get_abstract_state_ids abstraction_functions state) num_best_order).1 := by
  have e := unscale_heuristic_value_eq DEAD_END rounding max_h hfin he hb
  refine ⟨e, ?_, ?_, ?_, fun _ _ _ _ _ => rfl⟩
  · unfold unscale_heuristic_value COST_FACTOR
    rw [if_neg hfin]
    congr 1
    push_cast
    ring
  · rw [e]
    omega
  · rw [e, floor_with_tolerance]
    omega

/-- Witness of C19: the scaled value `7000` of a plan of cost `7` is unscaled to `7`, and
so is `6400`. -/
theorem unscale_rounds_up_witness :
    unscale_heuristic_value (-1) 0 7000 = (7000 + 989) / 1000 ∧
    unscale_heuristic_value (-1) 0 6400 = (6400 + 989) / 1000 :=
  ⟨(unscale_rounds_up (-1) 0 7000 (by decide) (by unfold INF; decide) (by norm_num)
      (fun _ => le_refl _)).1,
    unscale_heuristic_value_eq (-1) 0 6400 (by unfold INF; decide) (by norm_num)
      (fun _ => le_refl _)⟩

/-- Counterexample to C19 as stated: for the scaled value `1500` the façade returns
`ceil(1.5 - 0.01) = 2`, for every rounding error below `1/1000`, and not
`floor(1.5 + 0.01) = 1`. -/
theorem unscale_rounds_up_counterexample :
    unscale_heuristic_value (-1) 0 1500 = 2 ∧
    (∀ rounding : ℚ, |rounding| < 1 / 1000 →
      unscale_heuristic_value (-1) rounding 1500 = 2) ∧
    ⌊((1500 : Int) : ℚ) / 1000 + 1 / 100⌋ = 1 := by
  refine ⟨?_, ?_, ?_⟩
  · rw [unscale_heuristic_value_eq (-1) 0 1500 (by unfold INF; decide) (by norm_num)
      (fun _ => le_refl _)]
    decide
  · intro rounding he
    rw [unscale_heuristic_value_eq (-1) rounding 1500 (by unfold INF; decide) he
      (fun h => absurd h (by decide))]
    decide
  · rw [floor_with_tolerance]
    decide
/-! ## Infinity arithmetic and its range check -/

section arithmetic

/-- On `int` operands the range check passes exactly when the sum is a value of `int`. -/
theorem is_sum_within_range_iff {a b : Int} (ha : IsInt a) (hb : IsInt b) :
    is_sum_within_range a b = true ↔ IsInt (a + b) := by
  unfold is_sum_within_range
  rw [decide_eq_true_eq]
  unfold IsInt INT_MIN INT_MAX at *
  constructor
  · rintro (⟨h1, h2⟩ | ⟨h1, h2⟩) <;> constructor <;> omega
  · intro h
    by_cases hb0 : b ≥ 0
    · left; constructor <;> omega
    · right; constructor <;> omega

/-- A value of `int` is what an `int` holds. -/
theorem wrap_int_of_isInt {x : Int} (hx : IsInt x) : wrap_int x = x := by
  unfold IsInt INT_MIN INT_MAX at hx
  unfold wrap_int
  omega

/-- The asserted addition of finite operands: the exact sum when it is a value of `int`,
the failed assertion otherwise. -/
theorem left_addition_asserted_finite {a b : Int} (ha : IsInt a) (hb : IsInt b)
    (hfa : IsFinite a) (hfb : IsFinite b) :
    left_addition_asserted a b = if IsInt (a + b) then some (a + b) else none := by
  unfold left_addition_asserted
  rw [if_neg (by rintro (h | h); exact hfa.2 h; exact hfa.1 h),
    if_neg (by rintro (h | h); exact hfb.2 h; exact hfb.1 h)]
  by_cases hs : IsInt (a + b)
  · rw [if_pos ((is_sum_within_range_iff ha hb).2 hs), if_pos hs, wrap_int_of_isInt hs]
  · rw [if_neg (fun hc => hs ((is_sum_within_range_iff ha hb).1 hc)), if_neg hs]

/-- The asserted path addition of finite operands: the exact sum when it is a value of
`int`, the failed assertion otherwise. -/
theorem path_addition_asserted_finite {a b : Int} (ha : IsInt a) (hb : IsInt b)
    (hfa : IsFinite a) (hfb : IsFinite b) :
    path_addition_asserted a b = if IsInt (a + b) then some (a + b) else none := by
  unfold path_addition_asserted
  rw [if_neg (by rintro (h | h); exact hfa.1 h; exact hfb.1 h),
    if_neg (by rintro (h | h); exact hfa.2 h; exact hfb.2 h)]
  by_cases hs : IsInt (a + b)
  · rw [if_pos ((is_sum_within_range_iff ha hb).2 hs), if_pos hs, wrap_int_of_isInt hs]
  · rw [if_neg (fun hc => hs ((is_sum_within_range_iff ha hb).1 hc)), if_neg hs]

/-- C21. Infinity arithmetic: for `int` operands whose sum, when both are finite, is a
value of `int`, the assertions of `left_addition` and `path_addition` pass and the functions
return the values of the case distinctions of the claim: `left_addition(a, b)` is `a` if
`a` is infinite, else `b` if `b` is infinite, else `a + b`; `path_addition(a, b)` is `INF`
if either operand is `INF`, else `-INF` if either is `-INF`, else `a + b`. Hence
`left_addition(INF, b) = INF`, `left_addition(-INF, INF) = -INF`,
`path_addition(a, INF) = INF`, and `path_addition(a, -INF) = -INF` for `a ≠ INF`. -/
theorem infinity_arithmetic (a b : Int) (ha : IsInt a) (hb : IsInt b)
    (hsum : IsFinite a → IsFinite b → IsInt (a + b)) :
    left_addition_asserted a b = some (left_addition a b) ∧
    left_addition a b
      = (if a = INF ∨ a = -INF then a else if b = INF ∨ b = -INF then b else a + b) ∧
    path_addition_asserted a b = some (path_addition a b) ∧
    path_addition a b
      = (if a = INF ∨ b = INF then INF else if a = -INF ∨ b = -INF then -INF else a + b) ∧
    left_addition_asserted INF b = some INF ∧
    left_addition_asserted (-INF) INF = some (-INF) ∧
    path_addition_asserted a INF = some INF ∧
    (a ≠ INF → path_addition_asserted a (-INF) = some (-INF)) := by
  refine ⟨?_, ?_, ?_, ?_, ?_, ?_, ?_, ?_⟩
  · unfold left_addition_asserted left_addition
    by_cases h1 : a = -INF ∨ a = INF
    · rw [if_pos h1, if_pos h1]
    · rw [if_neg h1, if_neg h1]
      by_cases h2 : b = -INF ∨ b = INF
      · rw [if_pos h2, if_pos h2]
      · rw [if_neg h2, if_neg h2]
        push_neg at h1 h2
        have hs := hsum ⟨h1.2, h1.1⟩ ⟨h2.2, h2.1⟩
        rw [if_pos ((is_sum_within_range_iff ha hb).2 hs), wrap_int_of_isInt hs]
  · unfold left_addition
    by_cases h1 : a = -INF ∨ a = INF
    · rw [if_pos h1, if_pos (Or.symm h1)]
    · rw [if_neg h1, if_neg (fun hc => h1 (Or.symm hc))]
      by_cases h2 : b = -INF ∨ b = INF
      · rw [if_pos h2, if_pos (Or.symm h2)]
      · rw [if_neg h2, if_neg (fun hc => h2 (Or.symm hc))]
  · unfold path_addition_asserted path_addition
    by_cases h1 : a = INF ∨ b = INF
    · rw [if_pos h1, if_pos h1]
    · rw [if_neg h1, if_neg h1]
      by_cases h2 : a = -INF ∨ b = -INF
      · rw [if_pos h2, if_pos h2]
      · rw [if_neg h2, if_neg h2]
        push_neg at h1 h2
        have hs := hsum ⟨h1.1, h2.1⟩ ⟨h1.2, h2.2⟩
        rw [if_pos ((is_sum_within_range_iff ha hb).2 hs), wrap_int_of_isInt hs]
  · rfl
  · unfold left_addition_asserted
    rw [if_pos (Or.inr rfl)]
  · unfold left_addition_asserted
    rw [if_pos (Or.inl rfl)]
  · unfold path_addition_asserted
    rw [if_pos (Or.inr rfl)]
  · intro hne
    unfold path_addition_asserted
    rw [if_neg (by
      rintro (h | h)
      · exact hne h
      · unfold INF at h; omega), if_pos (Or.inr rfl)]

theorem infinity_arithmetic_witness :
    left_addition_asserted 3 (-INF) = some (left_addition 3 (-INF)) ∧
    left_addition 3 (-INF) = -INF ∧
    path_addition_asserted 3 (-INF) = some (path_addition 3 (-INF)) ∧
    path_addition 3 (-INF) = -INF :=
  have h := infinity_arithmetic 3 (-INF) (by decide) (by decide)
    (fun _ hb => absurd rfl hb.2)
  ⟨h.1, by decide, h.2.2.1, by decide⟩

/-- C22, as the code has it. For finite `int` operands the range check of `left_addition`
and of `path_addition` fails exactly when the exact sum is not a value of `int`, that is
when it lies outside `INT_MIN .. INT_MAX`; when the check passes the function returns the
exact sum, which can be one of the sentinels `INF` and `-INF`. -/
theorem range_check_detects_int_overflow (a b : Int) (ha : IsInt a) (hb : IsInt b)
    (hfa : IsFinite a) (hfb : IsFinite b) :
    (left_addition_asserted a b = none ↔ ¬ IsInt (a + b)) ∧
    (path_addition_asserted a b = none ↔ ¬ IsInt (a + b)) ∧
    (IsInt (a + b) → left_addition_asserted a b = some (a + b) ∧
      path_addition_asserted a b = some (a + b)) := by
  rw [left_addition_asserted_finite ha hb hfa hfb, path_addition_asserted_finite ha hb hfa hfb]
  by_cases hs : IsInt (a + b)
  · rw [if_pos hs]
    exact ⟨by simp [hs], by simp [hs], fun _ => ⟨rfl, rfl⟩⟩
  · rw [if_neg hs]
    exact ⟨by simp [hs], by simp [hs], fun h => absurd h hs⟩

theorem range_check_detects_int_overflow_witness :
    (left_addition_asserted 2147483000 1000 = none ↔ ¬ IsInt (2147483000 + 1000)) ∧
    left_addition_asserted 2147483000 1000 = none ∧
    left_addition_asserted 3 4 = some 7 :=
  ⟨(range_check_detects_int_overflow 2147483000 1000 (by decide) (by decide) (by decide)
      (by decide)).1, by decide,
    ((range_check_detects_int_overflow 3 4 (by decide) (by decide) (by decide)
      (by decide)).2.2 (by decide)).1⟩

/-- The finite operands `INF - 1` and `1` have the exact sum `INF`, which is not strictly
between `-INF` and `INF`: the range check passes and both additions return the sentinel
`INF`. The finite operands `INF - 1` and `-2` have the exact difference `INF + 1`: the
range check of `left_subtraction`, which tests the sum, passes and the function returns the
wrapped value `INT_MIN`. -/
theorem range_check_detects_int_overflow_counterexample :
    IsFinite (INF - 1) ∧ IsFinite 1 ∧ IsFinite (-2) ∧
    ¬ (-INF < (INF - 1) + 1 ∧ (INF - 1) + 1 < INF) ∧
    left_addition_asserted (INF - 1) 1 = some INF ∧
    path_addition_asserted (INF - 1) 1 = some INF ∧
    ¬ (-INF < (INF - 1) - (-2) ∧ (INF - 1) - (-2) < INF) ∧
    left_subtraction_asserted (INF - 1) (-2) = some INT_MIN := by
  decide

end arithmetic
/-! ## Projections: the enumeration of the transitions returns -/

section projection

/-- An increment that reports a next state lowers the measure of the odometer. -/
theorem increment_to_next_state_measure (sizes : List Nat) :
    ∀ facts : List FactPair, (increment_to_next_state sizes facts).2 = true →
      odometer_measure sizes (increment_to_next_state sizes facts).1
        < odometer_measure sizes facts := by
  intro facts
  induction facts with
  | nil => intro h; simp [increment_to_next_state] at h
  | cons fact rest ih =>
    intro h
    unfold increment_to_next_state at h ⊢
    by_cases hw : ((fact.value + 1 : Nat) : Int) > (sizes.getD fact.var 0 : Int) - 1
    · rw [if_pos hw] at h ⊢
      simp only at h ⊢
      have hlt := ih h
      unfold odometer_measure
      simp only
      have hz : sizes.getD fact.var 0 - 1 - fact.value = 0 := by omega
      rw [hz]
      generalize sizes.getD fact.var 0 - 1 = c at *
      generalize odometer_measure sizes (increment_to_next_state sizes rest).1 = m' at *
      generalize odometer_measure sizes rest = m at *
      have h1 : (c + 1) * (m' + 1) ≤ (c + 1) * m := Nat.mul_le_mul_left _ hlt
      have h2 : (c + 1) * (m' + 1) = (c + 1) * m' + c + 1 := by ring
      omega
    · rw [if_neg hw]
      unfold odometer_measure
      simp only
      have : sizes.getD fact.var 0 - 1 - (fact.value + 1) < sizes.getD fact.var 0 - 1 - fact.value := by
        omega
      omega

/-- The `while` loop of `for_each_transition` ends within the fuel that the measure of the
odometer gives. -/
theorem enumerate_matches_returns (p : Projection) (op : AbstractForwardOperator)
    (concrete_op_id : Nat) :
    ∀ (fuel : Nat) (facts : List FactPair) (transition_id : Nat),
      odometer_measure p.pattern_domain_sizes facts < fuel →
      ∃ r, p.enumerate_matches op concrete_op_id fuel facts transition_id = some r := by
  intro fuel
  induction fuel with
  | zero => intro facts _ h; omega
  | succ fuel ih =>
    intro facts transition_id h
    unfold Projection.enumerate_matches
    simp only
    by_cases hn : (increment_to_next_state p.pattern_domain_sizes facts).2 = true
    · rw [if_pos hn]
      have hlt := increment_to_next_state_measure p.pattern_domain_sizes facts hn
      obtain ⟨r, hr⟩ := ih (increment_to_next_state p.pattern_domain_sizes facts).1
        (transition_id + 1) (by omega)
      rw [hr]
      exact ⟨_, rfl⟩
    · rw [if_neg hn]
      exact ⟨_, rfl⟩

/-- A monadic fold whose step returns on every element returns. -/
theorem foldlM_option_returns {α β : Type} (f : β → α → Option β) (l : List α)
    (h : ∀ acc, ∀ x ∈ l, ∃ r, f acc x = some r) :
    ∀ acc, ∃ r, l.foldlM f acc = some r := by
  induction l with
  | nil => intro acc; exact ⟨acc, rfl⟩
  | cons x l ih =>
    intro acc
    obtain ⟨r, hr⟩ := h acc x (List.mem_cons_self x l)
    obtain ⟨r', hr'⟩ := ih (fun acc y hy => h acc y (List.mem_cons_of_mem x hy)) r
    refine ⟨r', ?_⟩
    rw [List.foldlM_cons, hr]
    exact hr'

theorem foldl_max_nat_ge_init (l : List Nat) : ∀ init : Nat, init ≤ l.foldl max init := by
  induction l with
  | nil => exact fun init => le_refl _
  | cons x l ih => exact fun init => le_trans (le_max_left _ _) (ih _)

theorem foldl_max_nat_ge_mem (l : List Nat) :
    ∀ init : Nat, ∀ x ∈ l, x ≤ l.foldl max init := by
  induction l with
  | nil => exact fun _ x hx => absurd hx (List.not_mem_nil _)
  | cons y l ih =>
    intro init x hx
    rw [List.foldl_cons]
    rcases List.mem_cons.1 hx with h | h
    · rw [h]
      exact le_trans (le_max_right _ _) (foldl_max_nat_ge_init l _)
    · exact ih _ x h

/-- The enumeration of the transitions of a projection returns when the fuel is at least
`enumeration_fuel`. -/
theorem for_each_transition_returns (p : Projection) {fuel : Nat}
    (hfuel : p.enumeration_fuel ≤ fuel) : ∃ ts, p.for_each_transition fuel = some ts := by
  unfold Projection.for_each_transition
  obtain ⟨r, hr⟩ := foldlM_option_returns
    (fun (acc : List Transition × Nat) op_id =>
      (p.enumerate_matches (p.abstract_forward_operators.getD op_id default)
        (p.abstract_backward_operators.getD op_id default).concrete_operator_id fuel
        (p.unmentioned_facts
          (p.abstract_backward_operators.getD op_id default).concrete_operator_id)
        acc.2).map fun r => (acc.1 ++ r.1, r.2))
    (List.range p.abstract_forward_operators.length)
    (by
      intro acc op_id hop
      have hle := foldl_max_nat_ge_mem
        ((List.range p.abstract_forward_operators.length).map fun op_id =>
          odometer_measure p.pattern_domain_sizes
            (p.unmentioned_facts
              (p.abstract_backward_operators.getD op_id default).concrete_operator_id)) 0
        _ (List.mem_map_of_mem _ hop)
      unfold Projection.enumeration_fuel at hfuel
      obtain ⟨r, hr⟩ := enumerate_matches_returns p
        (p.abstract_forward_operators.getD op_id default)
        (p.abstract_backward_operators.getD op_id default).concrete_operator_id fuel
        (p.unmentioned_facts
          (p.abstract_backward_operators.getD op_id default).concrete_operator_id)
        acc.2 (by omega)
      refine ⟨(acc.1 ++ r.1, r.2), ?_⟩
      simp only [hr, Option.map_some'])
    ([], 0)
  rw [hr]
  exact ⟨_, rfl⟩

end projection
/-! ## Saturated costs: the loop over the transitions, entry by entry -/

section saturated_core

theorem saturated_costs_ocf_callback_eq (h : List Int) :
    saturated_costs_ocf_callback h = saturate_step h := by
  funext socf t
  unfold saturated_costs_ocf_callback saturate_step IsFinite
  simp only
  by_cases hc : vget h t.source_id = INF ∨ vget h t.target_id = INF ∨
      vget h t.source_id = -INF ∨ vget h t.target_id = -INF
  · rw [if_pos hc, if_neg]
    rintro ⟨⟨h1, h2⟩, h3, h4⟩
    rcases hc with e | e | e | e
    · exact h3 e
    · exact h1 e
    · exact h4 e
    · exact h2 e
  · rw [if_neg hc, if_pos]
    push_neg at hc
    exact ⟨⟨hc.2.1, hc.2.2.2⟩, hc.1, hc.2.2.1⟩

theorem foldl_max_max (l : List Int) :
    ∀ a b : Int, l.foldl max (max a b) = max a (l.foldl max b) := by
  induction l with
  | nil => exact fun _ _ => rfl
  | cons x l ih =>
    intro a b
    rw [List.foldl_cons, List.foldl_cons, max_assoc, ih]

theorem needed_costs_cons (h : List Int) (t : Transition) (l : List Transition) (op : Nat) :
    needed_costs h (t :: l) op
      = if t.op_id = op ∧ t.IsFiniteFor h
        then (vget h t.source_id - vget h t.target_id) :: needed_costs h l op
        else needed_costs h l op := by
  unfold needed_costs
  rw [List.filter_cons]
  by_cases hc : t.op_id = op ∧ t.IsFiniteFor h
  · rw [if_pos (decide_eq_true hc), if_pos hc, List.map_cons]
  · rw [if_neg (by rw [decide_eq_true_eq]; exact hc), if_neg hc]

theorem mem_needed_costs {h : List Int} {l : List Transition} {op : Nat} {d : Int} :
    d ∈ needed_costs h l op ↔
      ∃ t ∈ l, t.op_id = op ∧ t.IsFiniteFor h ∧
        d = vget h t.source_id - vget h t.target_id := by
  unfold needed_costs
  simp only [List.mem_map, List.mem_filter, decide_eq_true_eq]
  constructor
  · rintro ⟨t, ⟨ht, h1, h2⟩, e⟩
    exact ⟨t, ht, h1, h2, e.symm⟩
  · rintro ⟨t, ht, h1, h2, e⟩
    exact ⟨t, ⟨ht, h1, h2⟩, e.symm⟩

/-- The loop of `compute_saturated_costs_ocf` over the transitions, entry by entry: the
running maximum of the needed costs of the operator, from the initial entry. -/
theorem saturate_fold_eq (h : List Int) (l : List Transition) :
    ∀ (socf : List Int) (op : Nat),
      (l.foldl (saturate_step h) socf).length = socf.length ∧
      vget (l.foldl (saturate_step h) socf) op
        = if op < socf.length then (needed_costs h l op).foldl max (vget socf op)
          else vget socf op := by
  induction l with
  | nil =>
    intro socf op
    refine ⟨rfl, ?_⟩
    simp [needed_costs]
  | cons t l ih =>
    intro socf op
    rw [List.foldl_cons]
    obtain ⟨h1, h2⟩ := ih (saturate_step h socf t) op
    have hlen : (saturate_step h socf t).length = socf.length := by
      unfold saturate_step
      split_ifs
      · rw [List.length_set]
      · rfl
    refine ⟨by rw [h1, hlen], ?_⟩
    rw [h2, hlen, needed_costs_cons]
    by_cases hop : op < socf.length
    · rw [if_pos hop, if_pos hop]
      unfold saturate_step Transition.IsFiniteFor
      by_cases hf : IsFinite (vget h t.target_id) ∧ IsFinite (vget h t.source_id)
      · rw [if_pos hf]
        by_cases ho : t.op_id = op
        · rw [if_pos ⟨ho, hf⟩, List.foldl_cons, vget_set, if_pos ⟨ho, by rw [ho]; exact hop⟩,
            ho]
        · rw [if_neg (fun hc => ho hc.1), vget_set, if_neg (fun hc => ho hc.1)]
      · rw [if_neg hf, if_neg (fun hc => hf hc.2)]
    · rw [if_neg hop, if_neg hop]
      unfold saturate_step
      split_ifs
      · rw [vget_set, if_neg]
        rintro ⟨e, h3⟩
        rw [e] at h3
        exact hop h3
      · rfl

/-- The vector of `-INF` and `0` that `Projection::compute_saturated_costs_ocf` starts from. -/
theorem projection_initial_costs (n : Nat) (loops : Nat → Bool) :
    (List.range n).foldl
        (fun socf op_id => if loops op_id then socf.set op_id 0 else socf)
        (List.replicate n (-INF))
      = (List.range n).map fun op_id => if loops op_id then (0 : Int) else -INF := by
  have hstep : (fun (x : List Int) (i : Nat) => if loops i then x.set i 0 else x)
      = fun x i => x.set i ((fun i y => if loops i then 0 else y) i (vget x i)) := by
    funext x i
    simp only
    split_ifs
    · rfl
    · exact (set_vget_self x i).symm
  rw [hstep]
  obtain ⟨h1, h2⟩ := foldl_set_pointwise (fun i y => if loops i then 0 else y)
    (List.range n) (List.nodup_range _) (List.replicate n (-INF))
  apply list_ext_vget
  · rw [h1, List.length_replicate, List.length_map, List.length_range]
  · intro i
    rw [h2, List.length_replicate]
    simp only [List.mem_range, and_self]
    have hrep : vget (List.replicate n (-INF)) i = if i < n then -INF else 0 := by
      unfold vget
      rw [List.getD_eq_getElem?_getD, List.getElem?_replicate]
      split_ifs <;> rfl
    have hmap : vget ((List.range n).map fun op_id => if loops op_id then (0 : Int) else -INF) i
        = if i < n then (if loops i then (0 : Int) else -INF) else 0 := by
      unfold vget
      rw [getD_map_range]
    rw [hrep, hmap]
    by_cases hi : i < n
    · simp only [hi, if_true]
    · simp only [hi, if_false]

end saturated_core
/-! ## Saturated operator costs: the maximum, and the two realizations -/

section saturated_realizations

/-- A running maximum depends on the members of the list only. -/
theorem foldl_max_congr {l1 l2 : List Int} (h : ∀ d, d ∈ l1 ↔ d ∈ l2) (init : Int) :
    l1.foldl max init = l2.foldl max init := by
  apply le_antisymm
  · rcases foldl_max_mem l1 init with e | e
    · rw [e]; exact foldl_max_ge_init l2 init
    · exact foldl_max_ge_mem l2 init _ ((h _).1 e)
  · rcases foldl_max_mem l2 init with e | e
    · rw [e]; exact foldl_max_ge_init l1 init
    · exact foldl_max_ge_mem l1 init _ ((h _).2 e)

theorem needed_costs_congr {l1 l2 : List Transition} (hsame : SameTransitions l1 l2)
    (h : List Int) (op : Nat) (d : Int) :
    d ∈ needed_costs h l1 op ↔ d ∈ needed_costs h l2 op := by
  rw [mem_needed_costs, mem_needed_costs]
  constructor
  · rintro ⟨t, ht, h1, h2, e⟩
    obtain ⟨x, hx, e1, e2, e3⟩ := (hsame t.op_id t.source_id t.target_id).1 ⟨t, ht, rfl, rfl, rfl⟩
    refine ⟨x, hx, by rw [e1, h1], ?_, by rw [e2, e3]; exact e⟩
    unfold Transition.IsFiniteFor at h2 ⊢
    rw [e2, e3]
    exact h2
  · rintro ⟨t, ht, h1, h2, e⟩
    obtain ⟨x, hx, e1, e2, e3⟩ := (hsame t.op_id t.source_id t.target_id).2 ⟨t, ht, rfl, rfl, rfl⟩
    refine ⟨x, hx, by rw [e1, h1], ?_, by rw [e2, e3]; exact e⟩
    unfold Transition.IsFiniteFor at h2 ⊢
    rw [e2, e3]
    exact h2

theorem vget_initial_costs (n : Nat) (loops : Nat → Bool) (op : Nat) :
    vget ((List.range n).map fun op_id => if loops op_id then (0 : Int) else -INF) op
      = if op < n then (if loops op then (0 : Int) else -INF) else 0 := by
  unfold vget
  rw [getD_map_range]

/-- The entry of an operator in the vector `ExplicitAbstraction::compute_saturated_costs_ocf`
returns. -/
theorem explicit_saturated_entry (a : ExplicitAbstraction)
    (ha : a.backward_graph.length = a.num_states) (h : List Int) (op : Nat) :
    (a.compute_saturated_costs_ocf h).length = a.num_operators ∧
    vget (a.compute_saturated_costs_ocf h) op
      = if op < a.num_operators then
          (needed_costs h a.for_each_transition op).foldl max
            (if bget a.has_loop op then 0 else -INF)
        else 0 := by
  rw [compute_saturated_costs_ocf_eq a ha]
  obtain ⟨h1, h2⟩ := saturate_fold_eq h a.for_each_transition
    ((List.range a.num_operators).map fun op_id =>
      if bget a.has_loop op_id then (0 : Int) else -INF) op
  rw [List.length_map, List.length_range] at h1 h2
  refine ⟨h1, ?_⟩
  rw [h2, vget_initial_costs]
  by_cases hop : op < a.num_operators
  · simp only [hop, if_true]
  · simp only [hop, if_false]

/-- The vector `Projection::compute_saturated_costs_ocf` returns, entry by entry. -/
theorem projection_saturated_entry (p : Projection) (fuel : Nat) (h : List Int)
    {ts : List Transition} (hts : p.for_each_transition fuel = some ts) :
    ∃ socf, p.compute_saturated_costs_ocf fuel h = some socf ∧
      socf.length = p.task_info.num_operators ∧
      ∀ op, vget socf op
        = if op < p.task_info.num_operators then
            (needed_costs h ts op).foldl max
              (if p.operator_induces_self_loop op then 0 else -INF)
          else 0 := by
  unfold Projection.compute_saturated_costs_ocf
  simp only
  rw [hts, projection_initial_costs, saturated_costs_ocf_callback_eq]
  refine ⟨_, rfl, ?_, ?_⟩
  · rw [(saturate_fold_eq h ts _ 0).1, List.length_map, List.length_range]
  · intro op
    rw [(saturate_fold_eq h ts _ op).2, List.length_map, List.length_range,
      vget_initial_costs]
    by_cases hop : op < p.task_info.num_operators
    · simp only [hop, if_true]
    · simp only [hop, if_false]

/-- A check of the well-formedness of an abstraction that runs over the states only. -/
theorem wellFormed_of_bounded {a : ExplicitAbstraction}
    (h : a.backward_graph.length = a.num_states ∧
      (∀ v ∈ List.range a.backward_graph.length, ∀ s ∈ a.backward_graph.getD v [],
        s.target_id < a.num_states ∧ s.op_id < a.num_operators) ∧
      (∀ g ∈ a.goal_states, g < a.num_states) ∧
      a.init_state_id < a.num_states ∧
      a.has_loop.length = a.num_operators) : a.WellFormed := by
  refine ⟨h.1, ?_, h.2.2.1, h.2.2.2.1, h.2.2.2.2⟩
  intro v s hs
  by_cases hv : v < a.backward_graph.length
  · exact h.2.1 v (List.mem_range.2 hv) s hs
  · rw [getD_of_length_le (by omega)] at hs
    exact absurd hs (List.not_mem_nil s)

/-- C23. The entry of an operator in `compute_saturated_costs_ocf(h)` is the greatest of
the differences `h[src] - h[tgt]` over its transitions between states of finite value,
of `0` if the operator induces a self-loop, and of `-INF`; so it is `-INF` when there is no
such transition and no self-loop. The realization for projections returns, with enough
fuel for its enumeration, the same vector as the realization on the explicit graph when
both describe the same transition system: the same number of operators, the same looping
operators and the same labelled arcs. -/
theorem compute_saturated_costs_ocf_is_maximum (a : ExplicitAbstraction)
    (ha : a.backward_graph.length = a.num_states) (h : List Int) :
    (a.compute_saturated_costs_ocf h).length = a.num_operators ∧
    (∀ op, op < a.num_operators →
      IsGreatest
        {d | d = -INF ∨ (bget a.has_loop op = true ∧ d = 0) ∨
          ∃ t ∈ a.for_each_transition, t.op_id = op ∧ IsFinite (vget h t.source_id) ∧
            IsFinite (vget h t.target_id) ∧ d = vget h t.source_id - vget h t.target_id}
        (vget (a.compute_saturated_costs_ocf h) op)) ∧
    (∀ op, op < a.num_operators → bget a.has_loop op = false →
      (∀ t ∈ a.for_each_transition, t.op_id = op →
        ¬ (IsFinite (vget h t.source_id) ∧ IsFinite (vget h t.target_id))) →
      vget (a.compute_saturated_costs_ocf h) op = -INF) ∧
    ∀ (p : Projection) (fuel : Nat), p.enumeration_fuel ≤ fuel →
      p.task_info.num_operators = a.num_operators →
      (∀ op, op < a.num_operators → p.operator_induces_self_loop op = bget a.has_loop op) →
      (∀ ts, p.for_each_transition fuel = some ts →
        SameTransitions ts a.for_each_transition) →
      p.compute_saturated_costs_ocf fuel h = some (a.compute_saturated_costs_ocf h) := by
  have hentry := explicit_saturated_entry a ha h
  refine ⟨(hentry 0).1, ?_, ?_, ?_⟩
  · intro op hop
    rw [(hentry op).2, if_pos hop]
    constructor
    · rcases foldl_max_mem (needed_costs h a.for_each_transition op)
        (if bget a.has_loop op then 0 else -INF) with e | e
      · rw [e]
        by_cases hl : bget a.has_loop op = true
        · rw [if_pos hl]; exact Or.inr (Or.inl ⟨hl, rfl⟩)
        · rw [if_neg hl]; exact Or.inl rfl
      · obtain ⟨t, ht, h1, h2, e'⟩ := mem_needed_costs.1 e
        exact Or.inr (Or.inr ⟨t, ht, h1, h2.2, h2.1, e'⟩)
    · rintro d (hd | ⟨hl, hd⟩ | ⟨t, ht, h1, h2, h3, hd⟩)
      · rw [hd]
        refine le_trans ?_ (foldl_max_ge_init _ _)
        split_ifs
        · unfold INF; omega
        · exact le_refl _
      · rw [hd]
        refine le_trans ?_ (foldl_max_ge_init _ _)
        rw [if_pos hl]
      · exact foldl_max_ge_mem _ _ _ (mem_needed_costs.2 ⟨t, ht, h1, ⟨h3, h2⟩, hd⟩)
  · intro op hop hl hnone
    rw [(hentry op).2, if_pos hop, hl]
    have : needed_costs h a.for_each_transition op = [] := by
      rw [List.eq_nil_iff_forall_not_mem]
      intro d hd
      obtain ⟨t, ht, h1, h2, _⟩ := mem_needed_costs.1 hd
      exact hnone t ht h1 ⟨h2.2, h2.1⟩
    rw [this]
    rfl
  · intro p fuel hfuel hn hloops hsame
    obtain ⟨ts, hts⟩ := for_each_transition_returns p hfuel
    obtain ⟨socf, hs, hlen, hval⟩ := projection_saturated_entry p fuel h hts
    rw [hs]
    congr 1
    apply list_ext_vget
    · rw [hlen, (hentry 0).1, hn]
    · intro op
      rw [hval, (hentry op).2, hn]
      by_cases hop : op < a.num_operators
      · rw [if_pos hop, if_pos hop, hloops op hop]
        exact foldl_max_congr (needed_costs_congr (hsame ts hts) h op) _
      · rw [if_neg hop, if_neg hop]

theorem compute_saturated_costs_ocf_is_maximum_witness :
    two_variable_projection.compute_saturated_costs_ocf 2 [5, 3, 9, 1]
      = some (two_variable_abstraction.compute_saturated_costs_ocf [5, 3, 9, 1]) ∧
    two_variable_abstraction.compute_saturated_costs_ocf [5, 3, 9, 1] = [8] :=
  ⟨(compute_saturated_costs_ocf_is_maximum two_variable_abstraction (by decide)
      [5, 3, 9, 1]).2.2.2 two_variable_projection 2 (by decide) (by decide)
      (fun op hop => by
        have : op = 0 := by
          have : op < 1 := hop
          omega
        rw [this]
        decide)
      (fun ts hts => by
        have e : two_variable_projection.for_each_transition 2
            = some two_variable_abstraction.for_each_transition := by decide
        rw [e] at hts
        rw [← Option.some.inj hts]
        exact fun _ _ _ => Iff.rfl),
    by decide⟩

end saturated_realizations
/-! ## Saturated transition costs -/

section saturated_tcf

theorem saturated_costs_tcf_callback_skip {h : List Int} {t : Transition}
    (hf : ¬ t.IsFiniteFor h) (s : AbstractTransitionCostFunction) :
    saturated_costs_tcf_callback h s t = s := by
  unfold saturated_costs_tcf_callback
  simp only
  rw [if_pos]
  by_contra hc
  push_neg at hc
  exact hf ⟨⟨hc.2.1, hc.2.2.2⟩, hc.1, hc.2.2.1⟩

theorem saturated_costs_tcf_callback_finite {h : List Int} {t : Transition}
    (hf : t.IsFiniteFor h) (s : AbstractTransitionCostFunction) :
    saturated_costs_tcf_callback h s t
      = { sd_costs := s.sd_costs.set t.transition_id
            (vget h t.source_id - vget h t.target_id)
          si :=
            if bget s.si t.op_id = true ∧
                vget h t.source_id - vget h t.target_id ≠ vget s.si_costs t.op_id ∧
                vget s.si_costs t.op_id ≠ -INF
            then s.si.set t.op_id false else s.si
          si_costs := s.si_costs.set t.op_id
            (max (vget h t.source_id - vget h t.target_id) (vget s.si_costs t.op_id)) } := by
  unfold saturated_costs_tcf_callback
  simp only
  rw [if_neg]
  rintro (e | e | e | e)
  · exact hf.2.1 e
  · exact hf.1.1 e
  · exact hf.2.2 e
  · exact hf.1.2 e

/-- The vector `si_costs` runs through the loop of `compute_saturated_costs_ocf`. -/
theorem tcf_fold_si_costs (h : List Int) (l : List Transition) :
    ∀ s : AbstractTransitionCostFunction,
      (l.foldl (saturated_costs_tcf_callback h) s).si_costs
        = l.foldl (saturate_step h) s.si_costs := by
  induction l with
  | nil => intro s; rfl
  | cons t l ih =>
    intro s
    rw [List.foldl_cons, List.foldl_cons, ih]
    congr 1
    by_cases hf : t.IsFiniteFor h
    · rw [saturated_costs_tcf_callback_finite hf]
      unfold saturate_step
      rw [if_pos (show IsFinite (vget h t.target_id) ∧ IsFinite (vget h t.source_id) from hf),
        max_comm]
    · rw [saturated_costs_tcf_callback_skip hf]
      unfold saturate_step
      rw [if_neg (show ¬ (IsFinite (vget h t.target_id) ∧ IsFinite (vget h t.source_id))
        from hf)]

/-- The vector `sd_costs` after the loop over the transitions: an entry that no transition
between states of finite value names keeps its value, and with pairwise distinct
transition ids the entry of such a transition is its difference. -/
theorem tcf_fold_sd_costs (h : List Int) (l : List Transition) :
    ∀ s : AbstractTransitionCostFunction,
      (l.foldl (saturated_costs_tcf_callback h) s).sd_costs.length = s.sd_costs.length ∧
      (∀ i, (∀ t ∈ l, t.IsFiniteFor h → t.transition_id ≠ i) →
        vget (l.foldl (saturated_costs_tcf_callback h) s).sd_costs i = vget s.sd_costs i) ∧
      ((l.map fun t => t.transition_id).Nodup →
        ∀ t ∈ l, t.IsFiniteFor h → t.transition_id < s.sd_costs.length →
          vget (l.foldl (saturated_costs_tcf_callback h) s).sd_costs t.transition_id
            = vget h t.source_id - vget h t.target_id) := by
  induction l with
  | nil =>
    intro s
    exact ⟨rfl, fun _ _ => rfl, fun _ t ht => absurd ht (List.not_mem_nil t)⟩
  | cons t0 l ih =>
    intro s
    rw [List.foldl_cons]
    obtain ⟨h1, h2, h3⟩ := ih (saturated_costs_tcf_callback h s t0)
    have hlen : (saturated_costs_tcf_callback h s t0).sd_costs.length = s.sd_costs.length := by
      by_cases hf : t0.IsFiniteFor h
      · rw [saturated_costs_tcf_callback_finite hf]
        simp only [List.length_set]
      · rw [saturated_costs_tcf_callback_skip hf]
    refine ⟨by rw [h1, hlen], ?_, ?_⟩
    · intro i hi
      rw [h2 i (fun t ht => hi t (List.mem_cons_of_mem t0 ht))]
      by_cases hf : t0.IsFiniteFor h
      · rw [saturated_costs_tcf_callback_finite hf]
        simp only
        rw [vget_set, if_neg (fun hc => hi t0 (List.mem_cons_self t0 l) hf hc.1)]
      · rw [saturated_costs_tcf_callback_skip hf]
    · intro hnd t ht hf hlt
      rw [List.map_cons, List.nodup_cons] at hnd
      rcases List.mem_cons.1 ht with e | e
      · rw [e, h2 t0.transition_id]
        · rw [e] at hf hlt
          rw [saturated_costs_tcf_callback_finite hf]
          simp only
          rw [vget_set, if_pos ⟨rfl, hlt⟩]
        · intro t' ht' _ hc
          apply hnd.1
          rw [← hc]
          exact List.mem_map_of_mem (fun t => t.transition_id) ht'
      · exact h3 hnd.2 t e hf (by rw [hlen]; exact hlt)

/-- The flags `si` after the loop over the transitions: a flag that is still set says that
all transitions of the operator between states of finite value have the same difference,
the entry of the operator in `si_costs`; no difference may be `-INF` or less, the value
that marks an operator without a transition so far. -/
theorem tcf_fold_si (h : List Int) (l : List Transition)
    (hdiff : ∀ t ∈ l, t.IsFiniteFor h → -INF < vget h t.source_id - vget h t.target_id)
    (s : AbstractTransitionCostFunction) :
    ∀ op, bget (l.foldl (saturated_costs_tcf_callback h) s).si op = true →
      ∀ t ∈ l, t.op_id = op → t.IsFiniteFor h →
        vget h t.source_id - vget h t.target_id
          = vget (l.foldl (saturated_costs_tcf_callback h) s).si_costs op := by
  induction l using List.reverseRecOn with
  | nil => intro op _ t ht; exact absurd ht (List.not_mem_nil t)
  | append_singleton l t0 ih =>
    have ih' := ih (fun t ht => hdiff t (List.mem_append_left _ ht))
    intro op hsi t ht hop hf
    rw [List.foldl_append, List.foldl_cons, List.foldl_nil] at hsi ⊢
    generalize l.foldl (saturated_costs_tcf_callback h) s = r at ih' hsi ⊢
    by_cases hf0 : t0.IsFiniteFor h
    · rw [saturated_costs_tcf_callback_finite hf0] at hsi ⊢
      simp only at hsi ⊢
      have hd0 := hdiff t0 (List.mem_append_right _ (List.mem_singleton.2 rfl)) hf0
      by_cases ho : t0.op_id = op
      · -- the operator of the transition processed last
        rw [ho] at hsi ⊢
        have hlen : op < r.si.length := by
          by_contra hc
          have : bget (if bget r.si op = true ∧
              vget h t0.source_id - vget h t0.target_id ≠ vget r.si_costs op ∧
              vget r.si_costs op ≠ -INF then r.si.set op false else r.si) op = false := by
            apply bget_of_length_le
            split_ifs
            · rw [List.length_set]; omega
            · omega
          rw [this] at hsi
          exact absurd hsi (by decide)
        by_cases hcond : bget r.si op = true ∧
            vget h t0.source_id - vget h t0.target_id ≠ vget r.si_costs op ∧
            vget r.si_costs op ≠ -INF
        · rw [if_pos hcond, bget_set, if_pos ⟨rfl, hlen⟩] at hsi
          exact absurd hsi (by decide)
        · rw [if_neg hcond] at hsi
          have hcase : vget h t0.source_id - vget h t0.target_id = vget r.si_costs op ∨
              vget r.si_costs op = -INF := by
            by_contra hc
            push_neg at hc
            exact hcond ⟨hsi, hc.1, hc.2⟩
          have hnew : vget (r.si_costs.set op
              (max (vget h t0.source_id - vget h t0.target_id) (vget r.si_costs op))) op
              = vget h t0.source_id - vget h t0.target_id := by
            rcases hcase with e | e
            · rw [vget_set]
              split_ifs
              · rw [← e, max_self]
              · exact e.symm
            · rw [vget_set, if_pos ⟨rfl, by
                by_contra hc
                rw [vget_of_length_le (by omega)] at e
                unfold INF at e
                omega⟩, e]
              exact max_eq_left (le_of_lt hd0)
          rw [hnew]
          rcases List.mem_append.1 ht with hm | hm
          · have hprev := ih' op hsi t hm hop hf
            rcases hcase with e | e
            · rw [hprev, e]
            · have := hdiff t (List.mem_append_left _ hm) hf
              rw [hprev, e] at this
              exact absurd this (lt_irrefl _)
          · rw [List.mem_singleton.1 hm]
      · -- another operator
        have hsi' : bget r.si op = true := by
          split_ifs at hsi
          · rw [bget_set, if_neg (fun hc => ho hc.1)] at hsi
            exact hsi
          · exact hsi
        rw [vget_set, if_neg (fun hc => ho hc.1)]
        rcases List.mem_append.1 ht with hm | hm
        · exact ih' op hsi' t hm hop hf
        · rw [List.mem_singleton.1 hm] at hop
          exact absurd hop ho
    · rw [saturated_costs_tcf_callback_skip hf0] at hsi ⊢
      rcases List.mem_append.1 ht with hm | hm
      · exact ih' op hsi t hm hop hf
      · rw [List.mem_singleton.1 hm] at hf
        exact absurd hf hf0

end saturated_tcf
/-! ## Saturated transition costs: the loop over the operators -/

section saturated_tcf_loops

/-- The loop that ends `compute_saturated_costs_tcf`, entry by entry. -/
theorem saturated_costs_tcf_loops_spec (loops : Nat → Bool)
    (s : AbstractTransitionCostFunction) (n : Nat) :
    (saturated_costs_tcf_loops n loops s).sd_costs = s.sd_costs ∧
    (saturated_costs_tcf_loops n loops s).si_costs.length = s.si_costs.length ∧
    (saturated_costs_tcf_loops n loops s).si.length = s.si.length ∧
    (∀ op, vget (saturated_costs_tcf_loops n loops s).si_costs op
      = if op < n ∧ loops op = true then max 0 (vget s.si_costs op)
        else vget s.si_costs op) ∧
    (∀ op, bget (saturated_costs_tcf_loops n loops s).si op
      = if op < n ∧ loops op = true ∧ vget s.si_costs op ≠ 0 ∧ vget s.si_costs op ≠ -INF
        then false else bget s.si op) := by
  induction n with
  | zero =>
    refine ⟨rfl, rfl, rfl, fun op => ?_, fun op => ?_⟩
    · rw [if_neg (fun hc => absurd hc.1 (Nat.not_lt_zero _))]; rfl
    · rw [if_neg (fun hc => absurd hc.1 (Nat.not_lt_zero _))]; rfl
  | succ n ih =>
    have hunf : saturated_costs_tcf_loops (n + 1) loops s
        = (fun (stcf : AbstractTransitionCostFunction) op_id =>
            if loops op_id then
              ({ sd_costs := stcf.sd_costs
                 si :=
                   if vget stcf.si_costs op_id ≠ 0 ∧ vget stcf.si_costs op_id ≠ -INF
                   then stcf.si.set op_id false else stcf.si
                 si_costs := stcf.si_costs.set op_id (max 0 (vget stcf.si_costs op_id)) } :
                AbstractTransitionCostFunction)
            else stcf) (saturated_costs_tcf_loops n loops s) n := by
      unfold saturated_costs_tcf_loops
      rw [List.range_succ, List.foldl_append, List.foldl_cons, List.foldl_nil]
    rw [hunf]
    generalize saturated_costs_tcf_loops n loops s = r at ih
    obtain ⟨h1, h2, h3, h4, h5⟩ := ih
    have hn : vget r.si_costs n = vget s.si_costs n := by
      rw [h4, if_neg (fun hc => absurd hc.1 (lt_irrefl _))]
    have hbn : bget r.si n = bget s.si n := by
      rw [h5, if_neg (fun hc => absurd hc.1 (lt_irrefl _))]
    simp only
    by_cases hl : loops n = true
    · rw [if_pos hl]
      simp only
      refine ⟨h1, by rw [List.length_set, h2], ?_, ?_, ?_⟩
      · split_ifs
        · rw [List.length_set, h3]
        · exact h3
      · intro op
        rw [vget_set, hn]
        by_cases hop : n = op
        · subst hop
          rw [if_pos (⟨Nat.lt_succ_self n, hl⟩ : n < n + 1 ∧ loops n = true)]
          by_cases hlen : n < r.si_costs.length
          · rw [if_pos (⟨rfl, hlen⟩ : n = n ∧ n < r.si_costs.length)]
          · rw [if_neg (fun hc : n = n ∧ n < r.si_costs.length => hlen hc.2), hn]
            have : vget s.si_costs n = 0 := by
              rw [← hn]; exact vget_of_length_le (by omega)
            rw [this]; rfl
        · rw [if_neg (fun hc => hop hc.1), h4]
          by_cases hc : op < n ∧ loops op = true
          · rw [if_pos hc, if_pos ⟨by omega, hc.2⟩]
          · rw [if_neg hc, if_neg (fun hd => hc ⟨by omega, hd.2⟩)]
      · intro op
        rw [hn]
        by_cases hop : n = op
        · rw [← hop]
          by_cases hcond : vget s.si_costs n ≠ 0 ∧ vget s.si_costs n ≠ -INF
          · rw [if_pos hcond, if_pos ⟨Nat.lt_succ_self n, hl, hcond⟩, bget_set]
            split_ifs with hx
            · rfl
            · apply bget_of_length_le
              by_contra hc
              exact hx ⟨rfl, by omega⟩
          · rw [if_neg hcond, if_neg (fun hd => hcond hd.2.2), hbn]
        · have hset : bget (if vget s.si_costs n ≠ 0 ∧ vget s.si_costs n ≠ -INF
              then r.si.set n false else r.si) op = bget r.si op := by
            split_ifs
            · rw [bget_set, if_neg (fun hc => hop hc.1)]
            · rfl
          rw [hset, h5]
          by_cases hc : op < n ∧ loops op = true ∧ vget s.si_costs op ≠ 0 ∧
              vget s.si_costs op ≠ -INF
          · rw [if_pos hc, if_pos ⟨by omega, hc.2⟩]
          · rw [if_neg hc, if_neg (fun hd => hc ⟨by omega, hd.2⟩)]
    · rw [if_neg hl]
      refine ⟨h1, h2, h3, ?_, ?_⟩
      · intro op
        rw [h4]
        by_cases hc : op < n ∧ loops op = true
        · rw [if_pos hc, if_pos ⟨by omega, hc.2⟩]
        · rw [if_neg hc, if_neg]
          rintro ⟨hd1, hd2⟩
          by_cases hop : op = n
          · rw [hop] at hd2; exact hl hd2
          · exact hc ⟨by omega, hd2⟩
      · intro op
        rw [h5]
        by_cases hc : op < n ∧ loops op = true ∧ vget s.si_costs op ≠ 0 ∧
            vget s.si_costs op ≠ -INF
        · rw [if_pos hc, if_pos ⟨by omega, hc.2⟩]
        · rw [if_neg hc, if_neg]
          rintro ⟨hd1, hd2⟩
          by_cases hop : op = n
          · rw [hop] at hd2; exact hl hd2.1
          · exact hc ⟨by omega, hd2⟩

/-- The nested loops of `ExplicitAbstraction::compute_saturated_costs_tcf` are one loop
over the transitions, followed by the loop over the operators. -/
theorem compute_saturated_costs_tcf_eq (a : ExplicitAbstraction)
    (ha : a.backward_graph.length = a.num_states) (h : List Int)
    (stcf : AbstractTransitionCostFunction) :
    a.compute_saturated_costs_tcf h stcf
      = saturated_costs_tcf_loops a.num_operators (fun op_id => bget a.has_loop op_id)
          (a.for_each_transition.foldl (saturated_costs_tcf_callback h)
            (filled_transition_cost_function stcf)) := by
  unfold ExplicitAbstraction.compute_saturated_costs_tcf saturated_costs_tcf_loops
    ExplicitAbstraction.for_each_transition filled_transition_cost_function
  rw [foldl_flatMap_eq, ha]
  simp only
  congr 1
  congr 1
  funext s target
  rw [List.foldl_map]
  by_cases ht : vget h target = INF ∨ vget h target = -INF
  · rw [if_pos ht]
    have hstep : ∀ (s : AbstractTransitionCostFunction) (x : Successor),
        saturated_costs_tcf_callback h s ⟨x.transition_id, x.op_id, x.target_id, target⟩
          = s := by
      intro s x
      apply saturated_costs_tcf_callback_skip
      intro hc
      rcases ht with ht | ht
      · exact hc.1.1 ht
      · exact hc.1.2 ht
    simp only [hstep]
    exact (foldl_id_eq _ _).symm
  · rw [if_neg ht]
    congr 1
    funext s x
    push_neg at ht
    by_cases hs : vget h x.target_id = INF ∨ vget h x.target_id = -INF
    · rw [if_pos hs, saturated_costs_tcf_callback_skip]
      intro hc
      rcases hs with hs | hs
      · exact hc.2.1 hs
      · exact hc.2.2 hs
    · rw [if_neg hs]
      push_neg at hs
      rw [saturated_costs_tcf_callback_finite
        (show Transition.IsFiniteFor ⟨x.transition_id, x.op_id, x.target_id, target⟩ h
          from ⟨ht, hs⟩)]

end saturated_tcf_loops
/-! ## Saturated transition costs: the flags `si` and the vector `si_costs` -/

section saturated_tcf_claims

theorem vget_map_const (l : List Int) (c : Int) (i : Nat) :
    vget (l.map fun _ => c) i = if i < l.length then c else 0 := by
  unfold vget
  rw [List.getD_eq_getElem?_getD, List.getElem?_map]
  by_cases hi : i < l.length
  · rw [if_pos hi, List.getElem?_eq_getElem hi]; rfl
  · rw [if_neg hi, List.getElem?_eq_none_iff.2 (by omega)]; rfl

/-- The flag invariant of `compute_saturated_costs_tcf`, for the loop over an enumeration of
the transitions followed by the loop over the operators. -/
theorem saturated_tcf_flag_core (n : Nat) (loops : Nat → Bool) (h : List Int)
    (l : List Transition) (stcf : AbstractTransitionCostFunction)
    (hids : TransitionIdsValid l stcf) (hdiff : NeededCostsAboveNegInf h l) :
    ∀ t ∈ l,
      bget (saturated_costs_tcf_loops n loops
        (l.foldl (saturated_costs_tcf_callback h)
          (filled_transition_cost_function stcf))).si t.op_id = true →
      t.IsFiniteFor h →
      vget (saturated_costs_tcf_loops n loops
        (l.foldl (saturated_costs_tcf_callback h)
          (filled_transition_cost_function stcf))).sd_costs t.transition_id
        = vget (saturated_costs_tcf_loops n loops
            (l.foldl (saturated_costs_tcf_callback h)
              (filled_transition_cost_function stcf))).si_costs t.op_id := by
  intro t ht hsi hf
  obtain ⟨h1, _, _, h4, h5⟩ := saturated_costs_tcf_loops_spec loops
    (l.foldl (saturated_costs_tcf_callback h) (filled_transition_cost_function stcf)) n
  obtain ⟨_, _, hsd⟩ := tcf_fold_sd_costs h l (filled_transition_cost_function stcf)
  have hlen : (filled_transition_cost_function stcf).sd_costs.length = stcf.sd_costs.length := by
    unfold filled_transition_cost_function
    simp only [List.length_map]
  rw [h1, hsd hids.1 t ht hf (by rw [hlen]; exact hids.2 t ht), h4]
  rw [h5] at hsi
  by_cases hc : t.op_id < n ∧ loops t.op_id = true ∧
      vget (l.foldl (saturated_costs_tcf_callback h)
        (filled_transition_cost_function stcf)).si_costs t.op_id ≠ 0 ∧
      vget (l.foldl (saturated_costs_tcf_callback h)
        (filled_transition_cost_function stcf)).si_costs t.op_id ≠ -INF
  · rw [if_pos hc] at hsi
    exact absurd hsi (by decide)
  · rw [if_neg hc] at hsi
    have hmain := tcf_fold_si h l hdiff (filled_transition_cost_function stcf) t.op_id hsi
      t ht rfl hf
    have hd := hdiff t ht hf
    by_cases hl : t.op_id < n ∧ loops t.op_id = true
    · rw [if_pos hl]
      have h0 : vget (l.foldl (saturated_costs_tcf_callback h)
          (filled_transition_cost_function stcf)).si_costs t.op_id = 0 := by
        by_contra hne
        apply hc
        refine ⟨hl.1, hl.2, hne, ?_⟩
        rw [← hmain]
        exact ne_of_gt hd
      rw [hmain, h0]
      rfl
    · rw [if_neg hl]
      exact hmain

/-- The vector `si_costs` of `compute_saturated_costs_tcf` entry by entry, for the loop
over an enumeration followed by the loop over the operators. -/
theorem saturated_tcf_si_costs_core (n : Nat) (loops : Nat → Bool) (h : List Int)
    (l : List Transition) (stcf : AbstractTransitionCostFunction)
    (hlen : stcf.si_costs.length = n) :
    (saturated_costs_tcf_loops n loops
      (l.foldl (saturated_costs_tcf_callback h)
        (filled_transition_cost_function stcf))).si_costs.length = n ∧
    ∀ op, vget (saturated_costs_tcf_loops n loops
        (l.foldl (saturated_costs_tcf_callback h)
          (filled_transition_cost_function stcf))).si_costs op
      = if op < n then
          (needed_costs h l op).foldl max (if loops op then 0 else -INF)
        else 0 := by
  obtain ⟨_, h2, _, h4, _⟩ := saturated_costs_tcf_loops_spec loops
    (l.foldl (saturated_costs_tcf_callback h) (filled_transition_cost_function stcf)) n
  have hfl : (filled_transition_cost_function stcf).si_costs.length = n := by
    unfold filled_transition_cost_function
    simp only [List.length_map]
    exact hlen
  have hmain : ∀ op, vget (l.foldl (saturated_costs_tcf_callback h)
      (filled_transition_cost_function stcf)).si_costs op
      = if op < n then (needed_costs h l op).foldl max (-INF) else 0 := by
    intro op
    rw [tcf_fold_si_costs, (saturate_fold_eq h l _ op).2, hfl]
    have : vget (filled_transition_cost_function stcf).si_costs op
        = if op < n then -INF else 0 := by
      unfold filled_transition_cost_function
      simp only
      rw [vget_map_const, hlen]
    rw [this]
    by_cases hop : op < n
    · simp only [hop, if_true]
    · simp only [hop, if_false]
  refine ⟨by rw [h2, tcf_fold_si_costs, (saturate_fold_eq h l _ 0).1, hfl], ?_⟩
  intro op
  rw [h4, hmain]
  by_cases hop : op < n
  · by_cases hl : loops op = true
    · rw [if_pos ⟨hop, hl⟩, if_pos hop, if_pos hop, if_pos hl, ← foldl_max_max]
      rfl
    · rw [if_neg (fun hc => hl hc.2), if_pos hop, if_pos hop, if_neg hl]
  · rw [if_neg (fun hc => hop hc.1), if_neg hop, if_neg hop]

/-- An enumeration with pairwise distinct ids: a transition is known by its id. -/
theorem eq_of_transition_id {l : List Transition}
    (hnd : (l.map fun t => t.transition_id).Nodup) {t t' : Transition} (ht : t ∈ l)
    (ht' : t' ∈ l) (e : t.transition_id = t'.transition_id) : t = t' :=
  List.inj_on_of_nodup_map hnd ht ht' e

/-- No entry of `sd_costs` exceeds the entry of its operator in `si_costs`, for the loop
over an enumeration followed by the loop over the operators. -/
theorem saturated_tcf_upper_core (n : Nat) (loops : Nat → Bool) (h : List Int)
    (l : List Transition) (stcf : AbstractTransitionCostFunction)
    (hlen : stcf.si_costs.length = n) (hids : TransitionIdsValid l stcf) :
    ∀ t ∈ l, t.op_id < n →
      vget (saturated_costs_tcf_loops n loops
        (l.foldl (saturated_costs_tcf_callback h)
          (filled_transition_cost_function stcf))).sd_costs t.transition_id
        ≤ vget (saturated_costs_tcf_loops n loops
            (l.foldl (saturated_costs_tcf_callback h)
              (filled_transition_cost_function stcf))).si_costs t.op_id := by
  intro t ht hop
  obtain ⟨h1, _, _, _, _⟩ := saturated_costs_tcf_loops_spec loops
    (l.foldl (saturated_costs_tcf_callback h) (filled_transition_cost_function stcf)) n
  obtain ⟨_, hkeep, hsd⟩ := tcf_fold_sd_costs h l (filled_transition_cost_function stcf)
  have hlen' : (filled_transition_cost_function stcf).sd_costs.length
      = stcf.sd_costs.length := by
    unfold filled_transition_cost_function
    simp only [List.length_map]
  rw [h1, (saturated_tcf_si_costs_core n loops h l stcf hlen).2, if_pos hop]
  by_cases hf : t.IsFiniteFor h
  · rw [hsd hids.1 t ht hf (by rw [hlen']; exact hids.2 t ht)]
    exact foldl_max_ge_mem _ _ _ (mem_needed_costs.2 ⟨t, ht, rfl, hf, rfl⟩)
  · rw [hkeep t.transition_id (fun t' ht' hf' e =>
      hf (by rw [← eq_of_transition_id hids.1 ht' ht e]; exact hf'))]
    have : vget (filled_transition_cost_function stcf).sd_costs t.transition_id = -INF := by
      unfold filled_transition_cost_function
      simp only
      rw [vget_map_const, if_pos (hids.2 t ht)]
    rw [this]
    refine le_trans ?_ (foldl_max_ge_init _ _)
    split_ifs
    · unfold INF; omega
    · exact le_refl _

theorem projection_compute_saturated_costs_tcf_eq (p : Projection) (fuel : Nat)
    (h : List Int) (stcf : AbstractTransitionCostFunction) {ts : List Transition}
    (hts : p.for_each_transition fuel = some ts) :
    p.compute_saturated_costs_tcf fuel h stcf
      = some (saturated_costs_tcf_loops p.task_info.num_operators
          p.operator_induces_self_loop
          (ts.foldl (saturated_costs_tcf_callback h)
            (filled_transition_cost_function stcf))) := by
  unfold Projection.compute_saturated_costs_tcf filled_transition_cost_function
  simp only
  rw [hts]
  rfl

/-- C24, as the code has it. After `compute_saturated_costs_tcf(h, stcf)`, for every
operator `op` with `si[op] = true`, every state-changing transition labelled `op` whose
source and target both have a finite value in `h` has `sd_costs[t] = si_costs[op]`; the
transition ids are pairwise distinct and index `sd_costs`, and no needed cost is `-INF` or
less. The explicit graph and the projection, whose enumeration returns with enough fuel,
both have the property. A transition at a state of infinite value keeps `sd_costs[t] = -INF`
whatever the flag says. -/
theorem state_independent_flag_on_finite_transitions (h : List Int)
    (stcf : AbstractTransitionCostFunction) :
    (∀ a : ExplicitAbstraction, a.backward_graph.length = a.num_states →
      TransitionIdsValid a.for_each_transition stcf →
      NeededCostsAboveNegInf h a.for_each_transition →
      ∀ t ∈ a.for_each_transition,
        bget (a.compute_saturated_costs_tcf h stcf).si t.op_id = true →
        IsFinite (vget h t.source_id) → IsFinite (vget h t.target_id) →
        vget (a.compute_saturated_costs_tcf h stcf).sd_costs t.transition_id
          = vget (a.compute_saturated_costs_tcf h stcf).si_costs t.op_id) ∧
    (∀ (p : Projection) (fuel : Nat), p.enumeration_fuel ≤ fuel →
      ∃ ts r, p.for_each_transition fuel = some ts ∧
        p.compute_saturated_costs_tcf fuel h stcf = some r ∧
        (TransitionIdsValid ts stcf → NeededCostsAboveNegInf h ts →
          ∀ t ∈ ts, bget r.si t.op_id = true →
            IsFinite (vget h t.source_id) → IsFinite (vget h t.target_id) →
            vget r.sd_costs t.transition_id = vget r.si_costs t.op_id)) := by
  constructor
  · intro a ha hids hdiff t ht hsi hs htg
    rw [compute_saturated_costs_tcf_eq a ha] at hsi ⊢
    exact saturated_tcf_flag_core _ _ h _ stcf hids hdiff t ht hsi ⟨htg, hs⟩
  · intro p fuel hfuel
    obtain ⟨ts, hts⟩ := for_each_transition_returns p hfuel
    refine ⟨ts, _, hts, projection_compute_saturated_costs_tcf_eq p fuel h stcf hts, ?_⟩
    intro hids hdiff t ht hsi hs htg
    exact saturated_tcf_flag_core _ _ h _ stcf hids hdiff t ht hsi ⟨htg, hs⟩

theorem state_independent_flag_on_finite_transitions_witness :
    vget (two_variable_abstraction.compute_saturated_costs_tcf [5, 3, 9, 7]
        ⟨[0, 0], [false], [0]⟩).sd_costs 1
      = vget (two_variable_abstraction.compute_saturated_costs_tcf [5, 3, 9, 7]
          ⟨[0, 0], [false], [0]⟩).si_costs 0 ∧
    (two_variable_abstraction.compute_saturated_costs_tcf [5, 3, 9, 7]
        ⟨[0, 0], [false], [0]⟩) = ⟨[2, 2], [true], [2]⟩ :=
  ⟨(state_independent_flag_on_finite_transitions [5, 3, 9, 7] ⟨[0, 0], [false], [0]⟩).1
      two_variable_abstraction (by decide) (by decide) (by decide) ⟨1, 0, 2, 3⟩ (by decide)
      (by decide) (by decide) (by decide),
    by decide⟩

/-- The claim C24 itself fails: on `two_sources_abstraction` with `h = [5, 0, -INF]` (state
`2` is not reachable from state `0`) the flag of operator `0` stays set and its cost is
`5`, while its state-changing transition `2 → 1` keeps the cost `-INF`. -/
theorem state_independent_flag_on_finite_transitions_counterexample :
    (⟨1, 0, 2, 1⟩ : Transition) ∈ two_sources_abstraction.for_each_transition ∧
    bget (two_sources_abstraction.compute_saturated_costs_tcf [5, 0, -INF]
      ⟨[0, 0], [false], [0]⟩).si 0 = true ∧
    vget (two_sources_abstraction.compute_saturated_costs_tcf [5, 0, -INF]
      ⟨[0, 0], [false], [0]⟩).sd_costs 1 = -INF ∧
    vget (two_sources_abstraction.compute_saturated_costs_tcf [5, 0, -INF]
      ⟨[0, 0], [false], [0]⟩).si_costs 0 = 5 := by
  decide

/-- C25. The vector `si_costs` that `compute_saturated_costs_tcf(h, stcf)` writes equals
`compute_saturated_costs_ocf(h)`, for a vector `si_costs` with one entry per operator, and
`si_costs[op] >= sd_costs[t]` for every transition `t` labelled `op`, the transition ids
being pairwise distinct indices of `sd_costs`; on the explicit graph and on the
projection, whose enumeration returns with enough fuel. -/
theorem si_costs_equal_saturated_operator_costs (h : List Int)
    (stcf : AbstractTransitionCostFunction) :
    (∀ a : ExplicitAbstraction, a.backward_graph.length = a.num_states →
      stcf.si_costs.length = a.num_operators →
      (a.compute_saturated_costs_tcf h stcf).si_costs = a.compute_saturated_costs_ocf h ∧
      (TransitionIdsValid a.for_each_transition stcf →
        ∀ t ∈ a.for_each_transition, t.op_id < a.num_operators →
          vget (a.compute_saturated_costs_tcf h stcf).sd_costs t.transition_id
            ≤ vget (a.compute_saturated_costs_tcf h stcf).si_costs t.op_id)) ∧
    (∀ (p : Projection) (fuel : Nat), p.enumeration_fuel ≤ fuel →
      stcf.si_costs.length = p.task_info.num_operators →
      ∃ ts r, p.for_each_transition fuel = some ts ∧
        p.compute_saturated_costs_tcf fuel h stcf = some r ∧
        p.compute_saturated_costs_ocf fuel h = some r.si_costs ∧
        (TransitionIdsValid ts stcf →
          ∀ t ∈ ts, t.op_id < p.task_info.num_operators →
            vget r.sd_costs t.transition_id ≤ vget r.si_costs t.op_id)) := by
  constructor
  · intro a ha hlen
    rw [compute_saturated_costs_tcf_eq a ha]
    obtain ⟨h1, h2⟩ := saturated_tcf_si_costs_core a.num_operators
      (fun op_id => bget a.has_loop op_id) h a.for_each_transition stcf hlen
    refine ⟨?_, fun hids t ht hop => saturated_tcf_upper_core _ _ h _ stcf hlen hids t ht hop⟩
    apply list_ext_vget
    · rw [h1, (explicit_saturated_entry a ha h 0).1]
    · intro op
      rw [h2, (explicit_saturated_entry a ha h op).2]
  · intro p fuel hfuel hlen
    obtain ⟨ts, hts⟩ := for_each_transition_returns p hfuel
    obtain ⟨h1, h2⟩ := saturated_tcf_si_costs_core p.task_info.num_operators
      p.operator_induces_self_loop h ts stcf hlen
    obtain ⟨socf, hs, hl, hval⟩ := projection_saturated_entry p fuel h hts
    refine ⟨ts, _, hts, projection_compute_saturated_costs_tcf_eq p fuel h stcf hts, ?_,
      fun hids t ht hop => saturated_tcf_upper_core _ _ h _ stcf hlen hids t ht hop⟩
    rw [hs]
    congr 1
    apply list_ext_vget
    · rw [hl, h1]
    · intro op
      rw [hval, h2]

theorem si_costs_equal_saturated_operator_costs_witness :
    (two_sources_abstraction.compute_saturated_costs_tcf [5, 0, 7]
        ⟨[0, 0], [false], [0]⟩).si_costs
      = two_sources_abstraction.compute_saturated_costs_ocf [5, 0, 7] ∧
    two_sources_abstraction.compute_saturated_costs_ocf [5, 0, 7] = [7] ∧
    (two_sources_abstraction.compute_saturated_costs_tcf [5, 0, 7]
        ⟨[0, 0], [false], [0]⟩) = ⟨[5, 7], [false], [7]⟩ :=
  ⟨((si_costs_equal_saturated_operator_costs [5, 0, 7] ⟨[0, 0], [false], [0]⟩).1
      two_sources_abstraction (by decide) (by decide)).1, by decide, by decide⟩

end saturated_tcf_claims
/-! ## Recomputed heuristic values -/

section recompute

/-- C26, as the code has it. With `recompute_h_values` set, `get_saturator_result_ocf`
returns exactly when the goal-distance computation under the returned `socf` does. For
`reachable` other than `ALL` the returned `h` is that goal-distance vector except that
every state `i` with `h[i] = -INF` before has `h_out[i] = -INF`; for `reachable = ALL` it
is the goal-distance vector itself. The method of `cost_saturation` recomputes only if
the value `state_h` of the query state is positive, then for every kind of reachability
with the states of value `-INF` kept, and returns `h` as it is otherwise. -/
theorem recomputation_keeps_negative_infinity (a : ExplicitAbstraction) (fuel : Nat)
    (ocf socf h : List Int) (flag : Bool) :
    (∀ s : SaturatorCap, s.recompute_h_values = true →
      s.get_saturator_result_ocf a fuel ocf socf h flag
        = (a.compute_goal_distances_ocf fuel (copy_infinite_costs ocf socf)).map fun d =>
            { socf := copy_infinite_costs ocf socf
              h_values :=
                if s.reachable ≠ Reachable.ALL then keep_negative_infinity a.num_states h d
                else d
              saturate_negative_infinity := flag }) ∧
    (∀ (s : cost_saturation.SaturatorCap) (state_h : Int), s.recompute_h_values = true →
      s.get_saturator_result a fuel ocf socf h state_h
        = if state_h > 0 then
            (a.compute_goal_distances fuel (copy_infinite_costs ocf socf)).map fun d =>
              { saturated_costs := copy_infinite_costs ocf socf
                h_values := keep_negative_infinity a.num_states h d }
          else some { saturated_costs := copy_infinite_costs ocf socf, h_values := h }) ∧
    (∀ d : List Int, (keep_negative_infinity a.num_states h d).length = d.length ∧
      ∀ i, vget (keep_negative_infinity a.num_states h d) i
        = if i < a.num_states ∧ i < d.length ∧ vget h i = -INF then -INF else vget d i) := by
  refine ⟨?_, ?_, ?_⟩
  · intro s hrec
    unfold SaturatorCap.get_saturator_result_ocf copy_infinite_costs keep_negative_infinity
    simp only
    rw [if_pos hrec]
    cases a.compute_goal_distances_ocf fuel
        ((List.range ocf.length).foldl
          (fun socf op_id => if vget ocf op_id = INF then socf.set op_id INF else socf)
          socf) with
    | none => rfl
    | some d => rfl
  · intro s state_h hrec
    unfold cost_saturation.SaturatorCap.get_saturator_result copy_infinite_costs
      keep_negative_infinity
    simp only
    by_cases hpos : state_h > 0
    · rw [if_pos ⟨hrec, hpos⟩, if_pos hpos]
      cases a.compute_goal_distances fuel
          ((List.range ocf.length).foldl
            (fun socf op_id => if vget ocf op_id = INF then socf.set op_id INF else socf)
            socf) with
      | none => rfl
      | some d => rfl
    · rw [if_neg (fun hc => hpos hc.2), if_neg hpos]
  · intro d
    exact keep_neg_inf_spec a.num_states h d

theorem recomputation_keeps_negative_infinity_witness :
    SaturatorCap.get_saturator_result_ocf ⟨true, true, Reachable.FROM_STATE, false, true, false⟩
        two_sources_abstraction 10 [5] [5] [5, 0, -INF] false
      = some ⟨[5], [5, 0, -INF], false⟩ :=
  ((recomputation_keeps_negative_infinity two_sources_abstraction 10 [5] [5] [5, 0, -INF]
      false).1 ⟨true, true, Reachable.FROM_STATE, false, true, false⟩ rfl).trans (by decide)

/-- The claim C26 itself fails for `reachable = ALL`: on `two_sources_abstraction` with the
costs `[5]` state `2` has `h = -INF` before the recomputation and the goal distance `5`
after it. It fails in `cost_saturation` for a query state of value `0`: the vector `h`
comes back as it is, not the goal distances `[3, 0, 3]` under the saturated costs `[3]`. -/
theorem recomputation_keeps_negative_infinity_counterexample :
    SaturatorCap.get_saturator_result_ocf ⟨true, true, Reachable.ALL, false, true, false⟩
        two_sources_abstraction 10 [5] [5] [5, 0, -INF] false
      = some ⟨[5], [5, 0, 5], false⟩ ∧
    cost_saturation.SaturatorCap.get_saturator_result
        ⟨true, true, Reachable.ALL, false, []⟩ two_sources_abstraction 10 [3] [3] [0, 0, 7] 0
      = some ⟨[3], [0, 0, 7]⟩ ∧
    two_sources_abstraction.compute_goal_distances 10 [3] = some [3, 0, 3] := by
  decide

end recompute
/-! ## Reachability from a state: the marked states are the reachable ones -/

section reach_exact

/-- A walk over transitions that cost at most `B` costs at most `B` for each transition. -/
theorem pathTo_bounded_cost {a : ExplicitAbstraction} {costs : List Int} {B : Int}
    (hB : ∀ op, vget costs op ≠ INF → vget costs op ≤ B) {l : List Nat} {c : Int}
    (h : PathTo a costs l c) : c + B ≤ B * l.length := by
  induction h with
  | goal g hg => simp
  | step t vs c ht hfin _ ih =>
    have := hB t.op_id hfin
    simp only [List.length_cons] at ih ⊢
    push_cast at ih ⊢
    linarith

/-- For nonnegative costs whose path sums stay below `INF`, a state has a finite goal
distance exactly when a walk over transitions of cost other than `INF` leads from it to
a goal. -/
theorem goalDistances_finite_iff {a : ExplicitAbstraction} (ha : a.WellFormed)
    {costs : List Int} (hcost : NonnegativeCosts costs) {B : Int} (hB0 : 0 ≤ B)
    (hB : ∀ op, vget costs op ≠ INF → vget costs op ≤ B)
    (hbound : B * (a.num_states : Int) < INF) {d : List Int}
    (hgd : GoalDistances a costs d) (v : Nat) (hv : v < a.num_states) :
    vget d v ≠ INF ↔ ∃ vs c, PathTo a costs (v :: vs) c := by
  constructor
  · intro h
    obtain ⟨vs, hp⟩ := hgd.real v hv h
    exact ⟨vs, _, hp⟩
  · rintro ⟨vs, c, hp⟩
    obtain ⟨rest, c', _, hp', hnd⟩ :=
      pathTo_simple (fun _ => True) (fun _ => 0)
        (fun t' _ _ _ _ => ⟨trivial, by
          have := (vget_nonneg_of_costs hcost t'.op_id).1
          simp only [sub_zero]
          exact this⟩) hp v vs rfl trivial
    have hlen := nodup_length_le hnd (pathTo_bounds ha hp')
    have hcostb := pathTo_bounded_cost hB hp'
    have hlow := feasible_le_path hcost hgd.bounds
      (fun g hg => le_of_eq (hgd.goals g hg)) hgd.feasible hp' v rest rfl
    have hlen' : ((v :: rest).length : Int) ≤ a.num_states := by exact_mod_cast hlen
    have : B * ((v :: rest).length : Int) ≤ B * a.num_states :=
      mul_le_mul_of_nonneg_left hlen' hB0
    intro hc
    rw [hc] at hlow
    linarith

/-- A search abstraction whose transitions are those of `a` turned round, with `state_id`
as its only goal: its walks to the goal are the walks of `a` from `state_id`. -/
theorem pathTo_iff_reachableAlong (a b : ExplicitAbstraction) (costs : List Int)
    (traversable : Transition → Prop) (state_id : Nat) (hgoal : b.goal_states = [state_id])
    (hfwd : ∀ t ∈ a.for_each_transition, ∃ t' ∈ b.for_each_transition,
      t'.source_id = t.target_id ∧ t'.target_id = t.source_id ∧
      (traversable t → vget costs t'.op_id ≠ INF))
    (hbwd : ∀ t' ∈ b.for_each_transition, ∃ t ∈ a.for_each_transition,
      t'.source_id = t.target_id ∧ t'.target_id = t.source_id ∧
      (vget costs t'.op_id ≠ INF → traversable t)) (i : Nat) :
    (∃ vs c, PathTo b costs (i :: vs) c) ↔ ReachableAlong a traversable state_id i := by
  constructor
  · rintro ⟨vs, c, hp⟩
    have key : ∀ l c, PathTo b costs l c → ∀ v rest, l = v :: rest →
        ReachableAlong a traversable state_id v := by
      intro l c hp
      induction hp with
      | goal g hg =>
        intro v rest hl
        rw [hgoal, List.mem_singleton] at hg
        rw [← (List.cons.inj hl).1, hg]
        exact ReachableAlong.start
      | step t' vs c ht' hfin _ ih =>
        intro v rest hl
        rw [← (List.cons.inj hl).1]
        obtain ⟨t, ht, e1, e2, htr⟩ := hbwd t' ht'
        have hprev := ih t'.target_id vs rfl
        rw [e2] at hprev
        rw [e1]
        exact ReachableAlong.step t ht (htr hfin) hprev
    exact key _ _ hp i vs rfl
  · intro hr
    induction hr with
    | start => exact ⟨[], 0, PathTo.goal state_id (by rw [hgoal]; exact List.mem_singleton.2 rfl)⟩
    | step t ht htr _ ih =>
      obtain ⟨vs, c, hp⟩ := ih
      obtain ⟨t', ht', e1, e2, hfin⟩ := hfwd t ht
      rw [← e2] at hp
      rw [← e1]
      exact ⟨_, _, PathTo.step t' vs c ht' (hfin htr) hp⟩

/-- Every transition of the reversed abstraction is a transition of the abstraction,
turned round. -/
theorem transition_of_reversed {a : ExplicitAbstraction} (ha : a.WellFormed) (state_id : Nat)
    {t' : Transition} (ht' : t' ∈ (a.reversed state_id).for_each_transition) :
    (⟨t'.transition_id, t'.op_id, t'.target_id, t'.source_id⟩ : Transition)
      ∈ a.for_each_transition := by
  obtain ⟨_, h2⟩ := mem_generate_forward_graph a.backward_graph
  obtain ⟨hv, x, hx, e⟩ := mem_for_each_transition.1 ht'
  have hx' : x ∈ (generate_forward_graph a.backward_graph).getD t'.target_id [] := hx
  obtain ⟨_, target, htl, s, hs, e1, e2⟩ := (h2 _ x).1 hx'
  rw [mem_for_each_transition]
  have hsrc : t'.source_id = target := by rw [e, e2]
  have htid : t'.transition_id = s.transition_id := by rw [e, e2]
  have hop : t'.op_id = s.op_id := by rw [e, e2]
  refine ⟨by rw [hsrc, ← ha.1]; exact htl, s, by rw [hsrc]; exact hs, ?_⟩
  simp only [Transition.mk.injEq]
  exact ⟨htid, hop, e1.symm, trivial⟩

end reach_exact
/-! ## The reachability refinement of the cap saturator -/

section refinement

theorem reachability_cost_function_finite_iff (ocf : List Int) (op : Nat) :
    vget (compute_reachability_cost_function ocf) op ≠ INF ↔ IsFinite (vget ocf op) := by
  rw [vget_compute_reachability_cost_function]
  unfold IsFinite
  by_cases hop : op < ocf.length
  · rw [if_pos hop]
    by_cases hc : vget ocf op = -INF ∨ vget ocf op = INF
    · rw [if_pos hc]
      constructor
      · intro h; exact absurd rfl h
      · rintro ⟨h1, h2⟩
        rcases hc with e | e
        · exact absurd e h2
        · exact absurd e h1
    · rw [if_neg hc]
      push_neg at hc
      exact ⟨fun _ => ⟨hc.2, hc.1⟩, fun _ => by unfold INF; omega⟩
  · rw [if_neg hop, vget_of_length_le (by omega)]
    unfold INF
    constructor
    · intro _; constructor <;> omega
    · intro _; omega

/-- The reachability vector of the operator form marks exactly the states that are
reachable from `state_id` along transitions whose operator has a finite cost. -/
theorem reachability_from_state_ocf_exact {a : ExplicitAbstraction} (ha : a.WellFormed)
    (hn : (a.num_states : Int) < INF) (ocf : List Int) {state_id : Nat}
    (hs : state_id < a.num_states) {fuel : Nat} {r : List Bool}
    (hr : a.compute_reachability_from_state_ocf fuel
      (compute_reachability_cost_function ocf) state_id = some r) (i : Nat)
    (hi : i < a.num_states) :
    bget r i = true ↔
      ReachableAlong a (fun t => IsFinite (vget ocf t.op_id)) state_id i := by
  have hrev := reversed_wellFormed ha hs
  obtain ⟨hcost, hunit⟩ := reachability_cost_function_nonneg ocf
  obtain ⟨hd1, _⟩ := dijkstra_goal_distances hrev hcost
  rw [compute_reachability_from_state_ocf_eq] at hr
  cases hd : (a.reversed state_id).compute_goal_distances_for_non_negative_costs_ocf
      fuel (compute_reachability_cost_function ocf) with
  | none => rw [hd] at hr; simp at hr
  | some d =>
    rw [hd] at hr
    simp only [Option.map_some', Option.some.injEq] at hr
    have hgd := hd1 fuel d hd
    rw [← hr, bget_distances_to_reachability, decide_eq_true_eq]
    have hfin := goalDistances_finite_iff hrev hcost (le_of_lt Int.one_pos) hunit
      (by rw [one_mul]; exact hn) hgd i hi
    have hpath := pathTo_iff_reachableAlong a (a.reversed state_id)
      (compute_reachability_cost_function ocf)
      (fun t => IsFinite (vget ocf t.op_id)) state_id rfl
      (fun t ht => ⟨_, reversed_transition ha state_id ht, rfl, rfl,
        fun htr => (reachability_cost_function_finite_iff ocf t.op_id).2 htr⟩)
      (fun t' ht' => ⟨_, transition_of_reversed ha state_id ht', rfl, rfl,
        fun hc => (reachability_cost_function_finite_iff ocf t'.op_id).1 hc⟩) i
    constructor
    · rintro ⟨_, h2⟩
      exact hpath.1 (hfin.1 h2)
    · intro h
      exact ⟨hi, hfin.2 (hpath.2 h)⟩

/-- The reachability refinement of the operator form: it returns for enough fuel, a state
of value `INF` keeps it, and every other state keeps its value if it is reachable from
`state_id` along transitions whose operator has a finite cost and gets `-INF` if not. -/
theorem update_reachability_ocf_spec {a : ExplicitAbstraction} (ha : a.WellFormed)
    (hn : (a.num_states : Int) < INF) (ocf : List Int) {state_id : Nat}
    (hs : state_id < a.num_states) (h : List Int) (hlen : h.length = a.num_states) :
    (∀ fuel, 1 + a.num_states * INF.toNat < fuel →
      ∃ h_out, update_reachability_ocf a fuel ocf h state_id = some h_out) ∧
    ∀ fuel h_out, update_reachability_ocf a fuel ocf h state_id = some h_out →
      h_out.length = h.length ∧
      ∀ i, i < a.num_states →
        (vget h i = INF → vget h_out i = INF) ∧
        (vget h i ≠ INF →
          (ReachableAlong a (fun t => IsFinite (vget ocf t.op_id)) state_id i →
            vget h_out i = vget h i) ∧
          (¬ ReachableAlong a (fun t => IsFinite (vget ocf t.op_id)) state_id i →
            vget h_out i = -INF)) := by
  obtain ⟨hcost, hunit⟩ := reachability_cost_function_nonneg ocf
  constructor
  · intro fuel hfuel
    obtain ⟨r, hr⟩ := (compute_reachability_from_state_ocf_spec ha hn hcost hunit hs).1
      fuel hfuel
    unfold update_reachability_ocf
    rw [hr]
    exact ⟨_, rfl⟩
  · intro fuel h_out hout
    unfold update_reachability_ocf at hout
    cases hr : a.compute_reachability_from_state_ocf fuel
        (compute_reachability_cost_function ocf) state_id with
    | none => rw [hr] at hout; simp at hout
    | some r =>
      rw [hr] at hout
      simp only [Option.map_some', Option.some.injEq] at hout
      obtain ⟨h1, h2⟩ := prune_unreachable_spec a.num_states r h
      rw [← hout]
      refine ⟨h1, ?_⟩
      intro i hi
      have hex := reachability_from_state_ocf_exact ha hn ocf hs hr i hi
      rw [h2]
      refine ⟨fun e => by rw [if_neg (fun hc => hc.2.2.2 e)]; exact e, fun hne => ⟨?_, ?_⟩⟩
      · intro hreach
        have : bget r i = true := hex.2 hreach
        rw [if_neg]
        intro hc
        rw [this] at hc
        exact absurd hc.2.2.1 (by decide)
      · intro hnr
        have : bget r i = false := by
          cases hb : bget r i with
          | false => rfl
          | true => exact absurd (hex.1 hb) hnr
        rw [if_pos ⟨hi, by rw [hlen]; exact hi, this, hne⟩]

end refinement
/-! ## The Dijkstra search over transition costs -/

section tcf_search

theorem getD_by_transition_id (graph : List (List Successor)) (v : Nat) :
    (by_transition_id graph).getD v []
      = (graph.getD v []).map fun s =>
          { transition_id := s.transition_id, op_id := s.transition_id,
            target_id := s.target_id } := by
  unfold by_transition_id
  rw [List.getD_eq_getElem?_getD, List.getD_eq_getElem?_getD, List.getElem?_map]
  cases graph[v]? with
  | none => rfl
  | some arcs => rfl

/-- The search that reads `sd_costs[transition_id]` is the search that reads `ocf[op_id]`
on the graph whose arcs carry their transition id as operator. -/
theorem dijkstra_search_tcf_eq (graph : List (List Successor)) (sd_costs : List Int) :
    ∀ (fuel : Nat) (queue : AdaptiveQueue) (distances : List Int),
      dijkstra_search_tcf graph sd_costs fuel queue distances
        = dijkstra_search_ocf (by_transition_id graph) sd_costs fuel queue distances := by
  intro fuel
  induction fuel with
  | zero => intro queue distances; rfl
  | succ fuel ih =>
    intro queue distances
    unfold dijkstra_search_tcf dijkstra_search_ocf
    cases hpop : AdaptiveQueue.pop queue with
    | none => rfl
    | some p =>
      obtain ⟨⟨distance, state⟩, queue'⟩ := p
      simp only
      by_cases hlt : vget distances state < distance
      · rw [if_pos hlt, if_pos (show distance > vget distances state from hlt)]
        exact ih _ _
      · rw [if_neg hlt, if_neg (show ¬ distance > vget distances state from hlt)]
        rw [getD_by_transition_id, List.foldl_map]
        exact ih _ _

theorem compute_reachability_from_state_tcf_eq (a : ExplicitAbstraction) (fuel : Nat)
    (tcf : AbstractTransitionCostFunction) (state_id : Nat) :
    a.compute_reachability_from_state_tcf fuel tcf state_id
      = ((a.reversed_by_transition state_id).compute_goal_distances_for_non_negative_costs_ocf
          fuel tcf.sd_costs).map (distances_to_reachability a.num_states) := by
  unfold ExplicitAbstraction.compute_reachability_from_state_tcf
  rw [dijkstra_search_tcf_eq]
  rfl

/-- The transitions of the search abstraction are those of the reversed abstraction with
the transition id as operator. -/
theorem mem_reversed_by_transition {a : ExplicitAbstraction} {state_id : Nat}
    {t' : Transition} :
    t' ∈ (a.reversed_by_transition state_id).for_each_transition ↔
      ∃ u ∈ (a.reversed state_id).for_each_transition,
        t' = ⟨u.transition_id, u.transition_id, u.source_id, u.target_id⟩ := by
  rw [mem_for_each_transition]
  have hb : (a.reversed_by_transition state_id).backward_graph
      = by_transition_id (generate_forward_graph a.backward_graph) := rfl
  have hn : (a.reversed_by_transition state_id).num_states = a.num_states := rfl
  rw [hb, getD_by_transition_id, hn]
  constructor
  · rintro ⟨hv, s, hs, e⟩
    obtain ⟨y, hy, rfl⟩ := List.mem_map.1 hs
    refine ⟨⟨y.transition_id, y.op_id, y.target_id, t'.target_id⟩, ?_, ?_⟩
    · rw [mem_for_each_transition]
      exact ⟨hv, y, hy, rfl⟩
    · rw [e]
  · rintro ⟨u, hu, e⟩
    obtain ⟨hv, y, hy, e'⟩ := mem_for_each_transition.1 hu
    have ht : t'.target_id = u.target_id := by rw [e]
    refine ⟨by rw [ht]; exact hv, ⟨y.transition_id, y.transition_id, y.target_id⟩,
      List.mem_map.2 ⟨y, by rw [ht]; exact hy, rfl⟩, ?_⟩
    rw [e, e']

theorem reversed_by_transition_wellFormed {a : ExplicitAbstraction} (ha : a.WellFormed)
    {state_id : Nat} (hs : state_id < a.num_states) :
    (a.reversed_by_transition state_id).WellFormed := by
  have hrev := reversed_wellFormed ha hs
  have hb : (a.reversed_by_transition state_id).backward_graph
      = by_transition_id (generate_forward_graph a.backward_graph) := rfl
  refine ⟨?_, ?_, ?_, ha.2.2.2.1, ?_⟩
  · rw [hb]
    unfold by_transition_id
    rw [List.length_map]
    exact hrev.1
  · intro v s hs'
    rw [hb, getD_by_transition_id] at hs'
    obtain ⟨y, hy, rfl⟩ := List.mem_map.1 hs'
    have hy' : y ∈ (a.reversed state_id).backward_graph.getD v [] := hy
    refine ⟨(hrev.2.1 v y hy').1, ?_⟩
    show y.transition_id
      < (a.for_each_transition.map fun t => t.transition_id).foldl max 0 + 1
    have hv : v < (a.reversed state_id).num_states := by
      by_contra hc
      have : (a.reversed state_id).backward_graph.getD v [] = [] :=
        getD_of_length_le (by rw [hrev.1]; omega)
      rw [this] at hy'
      exact absurd hy' (List.not_mem_nil y)
    have hu : (⟨y.transition_id, y.op_id, y.target_id, v⟩ : Transition)
        ∈ (a.reversed state_id).for_each_transition :=
      mem_for_each_transition.2 ⟨hv, y, hy', rfl⟩
    have ht := transition_of_reversed ha state_id hu
    have := foldl_max_nat_ge_mem (a.for_each_transition.map fun t => t.transition_id) 0
      y.transition_id (List.mem_map.2 ⟨_, ht, rfl⟩)
    omega
  · intro g hg
    have : g = state_id := List.mem_singleton.1 hg
    rw [this]; exact hs
  · show (List.replicate _ false).length = _
    rw [List.length_replicate]
    rfl

/-- The reachability vector of the transition form for nonnegative transition costs whose
path sums stay below `INF`: the method returns for enough fuel, and it marks exactly the
states that are reachable from `state_id` along transitions of a cost other than `INF`. -/
theorem reachability_from_state_tcf_exact {a : ExplicitAbstraction} (ha : a.WellFormed)
    (tcf : AbstractTransitionCostFunction) (hcost : NonnegativeCosts tcf.sd_costs) {B : Int}
    (hB0 : 0 ≤ B) (hB : ∀ c ∈ tcf.sd_costs, c ≠ INF → c ≤ B)
    (hbound : B * (a.num_states : Int) < INF) {state_id : Nat}
    (hs : state_id < a.num_states) :
    (∀ fuel, 1 + a.num_states * INF.toNat < fuel →
      ∃ r, a.compute_reachability_from_state_tcf fuel tcf state_id = some r) ∧
    ∀ fuel r, a.compute_reachability_from_state_tcf fuel tcf state_id = some r →
      r.length = a.num_states ∧
      ∀ i, i < a.num_states →
        (bget r i = true ↔
          ReachableAlong a (fun t => vget tcf.sd_costs t.transition_id ≠ INF) state_id i) := by
  have hwf := reversed_by_transition_wellFormed ha hs
  obtain ⟨hd1, hd2⟩ := dijkstra_goal_distances hwf hcost
  constructor
  · intro fuel hfuel
    obtain ⟨d, hd⟩ := hd2 fuel hfuel
    rw [compute_reachability_from_state_tcf_eq, hd]
    exact ⟨_, rfl⟩
  · intro fuel r hr
    rw [compute_reachability_from_state_tcf_eq] at hr
    cases hd : (a.reversed_by_transition state_id).compute_goal_distances_for_non_negative_costs_ocf
        fuel tcf.sd_costs with
    | none => rw [hd] at hr; simp at hr
    | some d =>
      rw [hd] at hr
      simp only [Option.map_some', Option.some.injEq] at hr
      have hgd := hd1 fuel d hd
      rw [← hr]
      refine ⟨by unfold distances_to_reachability
                 rw [List.length_map, List.length_range], ?_⟩
      intro i hi
      rw [bget_distances_to_reachability, decide_eq_true_eq]
      have hB' : ∀ op, vget tcf.sd_costs op ≠ INF → vget tcf.sd_costs op ≤ B := by
        intro op hne
        by_cases hop : op < tcf.sd_costs.length
        · exact hB _ (vget_mem hop) hne
        · rw [vget_of_length_le (by omega)]; exact hB0
      have hfin := goalDistances_finite_iff hwf hcost hB0 hB' hbound hgd i hi
      have hpath := pathTo_iff_reachableAlong a (a.reversed_by_transition state_id)
        tcf.sd_costs (fun t => vget tcf.sd_costs t.transition_id ≠ INF) state_id rfl
        (fun t ht => ⟨⟨t.transition_id, t.transition_id, t.target_id, t.source_id⟩,
          mem_reversed_by_transition.2 ⟨_, reversed_transition ha state_id ht, rfl⟩, rfl, rfl,
          fun htr => htr⟩)
        (fun t' ht' => by
          obtain ⟨u, hu, e⟩ := mem_reversed_by_transition.1 ht'
          refine ⟨_, transition_of_reversed ha state_id hu, ?_, ?_, ?_⟩
          · rw [e]
          · rw [e]
          · rw [e]; exact fun hc => hc) i
      constructor
      · rintro ⟨_, h2⟩
        exact hpath.1 (hfin.1 h2)
      · intro h
        exact ⟨hi, hfin.2 (hpath.2 h)⟩

end tcf_search
/-! ## The LP saturator on a query state of infinite value -/

section lp_infinite

theorem vget_replicate_set (n : Nat) (c x : Int) (state_id i : Nat) (hi : i < n) :
    vget ((List.replicate n c).set state_id x) i = if i = state_id then x else c := by
  rw [vget_set, List.length_replicate]
  have hrep : vget (List.replicate n c) i = c := by
    unfold vget
    rw [List.getD_eq_getElem?_getD, List.getElem?_replicate, if_pos hi]
    rfl
  by_cases e : state_id = i
  · rw [if_pos ⟨e, by rw [e]; exact hi⟩, if_pos e.symm]
  · rw [if_neg (fun hc => e hc.1), if_neg (fun hc => e hc.symm), hrep]

theorem isEmpty_of_vget_ne_zero {h : List Int} {i : Nat} (hne : vget h i ≠ 0) :
    h.isEmpty = false := by
  cases h with
  | nil => exact absurd rfl hne
  | cons x l => rfl

/-- The three forms of the LP saturator on a query state of infinite value, for every
abstraction and enough fuel for the reachability computation, whatever the LP solver is.
With `h_in[state_id] = INF` the saturator of `cost_saturation` returns every saturated cost
as `-INF` (`0` if `use_general_costs` is false) and `h_out[i]` as `-INF` (`0` if
`use_general_costs` is false) for `i ≠ state_id`, `h_out[state_id] = INF`; the transition
form returns the same vector `h_out` with the transition cost function it was given, for
nonnegative transition costs whose path sums stay below `INF`; the operator form of
transition_cost_partitioning ends in the `ABORT` "initial h is infinity" on every such
input. With `h_in[state_id] = -INF` all three end in an `ABORT`. -/
theorem lp_saturator_infinite_query_state (a : ExplicitAbstraction) (ha : a.WellFormed)
    (state_id : Nat) (hs : state_id < a.num_states) (lp_infty : ℚ)
    (lp_solve : List LPVariable → List LPConstraint → List ℚ) (h : List Int) (fuel : Nat)
    (hfuel : 1 + a.num_states * INF.toNat < fuel) {σ : Type} [DecidableEq σ]
    (make_transition_bdd : Transition → Finset σ) (sdac : CostFunctionStateDependent σ) :
    (vget h state_id = INF →
      (∀ (s : cost_saturation.SaturatorLP) (costs : List Int),
        s.saturate a fuel lp_infty lp_solve costs h state_id
          = Outcome.returned
              { saturated_costs :=
                  List.replicate costs.length (if s.use_general_costs then -INF else 0)
                h_values :=
                  (List.replicate a.num_states
                    (if s.use_general_costs then -INF else 0)).set state_id INF }) ∧
      (∀ (s : SaturatorLP) (num_transitions : Nat) (tcf : AbstractTransitionCostFunction)
        (B : Int), NonnegativeCosts tcf.sd_costs → 0 ≤ B →
        (∀ c ∈ tcf.sd_costs, c ≠ INF → c ≤ B) → B * (a.num_states : Int) < INF →
        s.saturate_tcf a fuel lp_infty lp_solve num_transitions make_transition_bdd tcf sdac
            h state_id
          = Outcome.returned
              { stcf := tcf
                h_values :=
                  (List.replicate a.num_states
                    (if s.use_general_costs then -INF else 0)).set state_id INF
                saturate_negative_infinity := s.saturate_negative_infinity }) ∧
      (∀ (s : SaturatorLP) (ocf : List Int), (a.num_states : Int) < INF →
        s.saturate_ocf a fuel lp_infty lp_solve ocf h state_id = Outcome.aborted) ∧
      ∀ (c : Int) (i : Nat), i < a.num_states →
        vget ((List.replicate a.num_states c).set state_id INF) i
          = if i = state_id then INF else c) ∧
    (vget h state_id = -INF →
      (∀ (s : cost_saturation.SaturatorLP) (costs : List Int),
        s.saturate a fuel lp_infty lp_solve costs h state_id = Outcome.aborted) ∧
      (∀ (s : SaturatorLP) (num_transitions : Nat) (tcf : AbstractTransitionCostFunction)
        (B : Int), NonnegativeCosts tcf.sd_costs → 0 ≤ B →
        (∀ c ∈ tcf.sd_costs, c ≠ INF → c ≤ B) → B * (a.num_states : Int) < INF →
        s.saturate_tcf a fuel lp_infty lp_solve num_transitions make_transition_bdd tcf sdac
            h state_id
          = Outcome.aborted) ∧
      (∀ (s : SaturatorLP) (ocf : List Int), (a.num_states : Int) < INF →
        s.saturate_ocf a fuel lp_infty lp_solve ocf h state_id = Outcome.aborted)) := by
  have hfuel' : 2 * a.num_states + 1 < fuel := by
    have : (2 : Nat) ≤ INF.toNat := by decide
    have := Nat.mul_le_mul_left a.num_states this
    omega
  have hne : (-INF : Int) ≠ INF := by decide
  constructor
  · intro hinf
    have hempty : h.isEmpty = false :=
      isEmpty_of_vget_ne_zero (by rw [hinf]; decide)
    refine ⟨?_, ?_, ?_, fun c i hi => vget_replicate_set _ _ _ _ _ hi⟩
    · intro s costs
      obtain ⟨r, hr⟩ := compute_reachability_from_state_returns ha
        (compute_reachability_cost_function costs) state_id hfuel'
      unfold cost_saturation.SaturatorLP.saturate
      simp only [hr, hinf, if_true]
    · intro s num_transitions tcf B hcost hB0 hB hbound
      obtain ⟨r, hr⟩ := (reachability_from_state_tcf_exact ha tcf hcost hB0 hB hbound hs).1
        fuel hfuel
      unfold SaturatorLP.saturate_tcf
      simp only [hempty, hr, hinf, if_true, Bool.false_eq_true, if_false]
    · intro s ocf hn
      obtain ⟨hcost, hunit⟩ := reachability_cost_function_nonneg ocf
      obtain ⟨r, hr⟩ := (compute_reachability_from_state_ocf_spec ha hn hcost hunit hs).1
        fuel hfuel
      unfold SaturatorLP.saturate_ocf
      simp only [hr, hinf, if_true]
  · intro hinf
    have hempty : h.isEmpty = false :=
      isEmpty_of_vget_ne_zero (by rw [hinf]; decide)
    refine ⟨?_, ?_, ?_⟩
    · intro s costs
      obtain ⟨r, hr⟩ := compute_reachability_from_state_returns ha
        (compute_reachability_cost_function costs) state_id hfuel'
      unfold cost_saturation.SaturatorLP.saturate
      simp only [hr, hinf, hne, if_true, if_false]
    · intro s num_transitions tcf B hcost hB0 hB hbound
      obtain ⟨r, hr⟩ := (reachability_from_state_tcf_exact ha tcf hcost hB0 hB hbound hs).1
        fuel hfuel
      unfold SaturatorLP.saturate_tcf
      simp only [hempty, hr, hinf, hne, if_true, Bool.false_eq_true, if_false]
    · intro s ocf hn
      obtain ⟨hcost, hunit⟩ := reachability_cost_function_nonneg ocf
      obtain ⟨r, hr⟩ := (compute_reachability_from_state_ocf_spec ha hn hcost hunit hs).1
        fuel hfuel
      unfold SaturatorLP.saturate_ocf
      simp only [hr, hinf, hne, if_true, if_false]

end lp_infinite
/-! ## The LP saturator: the states outside the LP, and the returned transition costs -/

section lp_extract

/-- The rounding of the model is the rounding to the nearest integer, halves away from
zero. -/
theorem round_half_away_eq (d : ℚ) :
    round_half_away d = if 0 ≤ d then ⌊d + 1 / 2⌋ else ⌈d - 1 / 2⌉ := by
  have hden : (0 : ℚ) < (d.den : ℚ) := by exact_mod_cast d.den_pos
  have hd : d = (d.num : ℚ) / (d.den : ℚ) := (Rat.num_div_den d).symm
  unfold round_half_away
  by_cases hn : 0 ≤ d.num
  · rw [if_pos hn, if_pos (Rat.num_nonneg.1 hn)]
    have e : d + 1 / 2 = ((2 * d.num + d.den : ℤ) : ℚ) / ((2 * d.den : ℕ) : ℚ) := by
      rw [eq_div_iff (by positivity)]
      push_cast
      nth_rewrite 1 [hd]
      field_simp
      ring
    rw [e, Rat.floor_intCast_div_natCast]
    push_cast
    rfl
  · rw [if_neg hn, if_neg (fun hc => hn (Rat.num_nonneg.2 hc))]
    have e : -(d - 1 / 2) = ((2 * (-d.num) + d.den : ℤ) : ℚ) / ((2 * d.den : ℕ) : ℚ) := by
      rw [eq_div_iff (by positivity)]
      push_cast
      nth_rewrite 1 [hd]
      field_simp
      ring
    have hceil : ⌈d - 1 / 2⌉ = -⌊-(d - 1 / 2)⌋ := by
      rw [Int.floor_neg, neg_neg]
    rw [hceil, e, Rat.floor_intCast_div_natCast]
    push_cast
    rfl

/-- The vector a filling loop returns, entry by entry. -/
theorem collect_entries_spec :
    ∀ (l : List (Option Int)) (out : List Int), collect_entries l = some out →
      out.length = l.length ∧ ∀ i, i < l.length → l.getD i none = some (vget out i) := by
  intro l
  induction l with
  | nil =>
    intro out h
    simp only [collect_entries, Option.some.injEq] at h
    rw [← h]
    exact ⟨rfl, fun i hi => absurd hi (Nat.not_lt_zero i)⟩
  | cons x l ih =>
    intro out h
    cases x with
    | none => simp [collect_entries] at h
    | some v =>
      simp only [collect_entries, Option.map_eq_some'] at h
      obtain ⟨xs, hxs, e⟩ := h
      obtain ⟨h1, h2⟩ := ih xs hxs
      rw [← e]
      refine ⟨by simp [h1], ?_⟩
      intro i hi
      cases i with
      | zero => rfl
      | succ j =>
        have := h2 j (by simpa using hi)
        simpa [vget] using this

theorem collect_entries_range {n : Nat} {f : Nat → Option Int} {out : List Int}
    (h : collect_entries ((List.range n).map f) = some out) :
    out.length = n ∧ ∀ i, i < n → f i = some (vget out i) := by
  obtain ⟨h1, h2⟩ := collect_entries_spec _ out h
  rw [List.length_map, List.length_range] at h1 h2
  refine ⟨h1, ?_⟩
  intro i hi
  have := h2 i hi
  rw [getD_map_range, if_pos hi] at this
  exact this

/-- The vector `distance_variables`: a state has no distance variable exactly when its
value is infinite or the state is not reachable. -/
theorem get_distance_variables_spec (a : ExplicitAbstraction) (goal_distances : List Int)
    (reachability : List Bool) (state_id : Nat) (state_h_value : Int) (lp_infty : ℚ)
    (i : Nat) (hi : i < a.num_states) :
    (get_distance_variables a goal_distances reachability state_id state_h_value
        lp_infty).2.getD i 0 = UNDEFINED ↔
      (vget goal_distances i = INF ∨ vget goal_distances i = -INF ∨
        bget reachability i = false) := by
  unfold get_distance_variables
  generalize hstep : (fun (acc : List LPVariable × List Int) source_id =>
      if vget goal_distances source_id = INF ∨ vget goal_distances source_id = -INF ∨
          bget reachability source_id = false then acc
      else
        let lower : ℚ := if source_id = state_id then state_h_value else -lp_infty
        let upper : ℚ :=
          if source_id = state_id then state_h_value
          else if source_id ∈ a.goal_states then 0 else lp_infty
        (acc.1 ++ [{ lower_bound := lower, upper_bound := upper, objective_coefficient := 0 }],
          acc.2.set source_id (acc.1.length : Int))) = step
  have key : ∀ k, k ≤ a.num_states →
      ((List.range k).foldl step ([], List.replicate a.num_states UNDEFINED)).2.length
        = a.num_states ∧
      ∀ j, j < a.num_states →
        (((List.range k).foldl step ([], List.replicate a.num_states UNDEFINED)).2.getD j 0
            = UNDEFINED ↔
          (k ≤ j ∨ vget goal_distances j = INF ∨ vget goal_distances j = -INF ∨
            bget reachability j = false)) := by
    intro k
    induction k with
    | zero =>
      intro _
      refine ⟨by simp, ?_⟩
      intro j hj
      simp only [List.range_zero, List.foldl_nil, Nat.zero_le, true_or, iff_true]
      rw [List.getD_eq_getElem?_getD, List.getElem?_replicate, if_pos hj]
      rfl
    | succ k ih =>
      intro hk
      obtain ⟨h1, h2⟩ := ih (by omega)
      rw [List.range_succ, List.foldl_append, List.foldl_cons, List.foldl_nil]
      generalize (List.range k).foldl step ([], List.replicate a.num_states UNDEFINED)
        = acc at h1 h2
      rw [← hstep]
      simp only
      by_cases hc : vget goal_distances k = INF ∨ vget goal_distances k = -INF ∨
          bget reachability k = false
      · rw [if_pos hc]
        refine ⟨h1, ?_⟩
        intro j hj
        rw [h2 j hj]
        constructor
        · rintro (h | h)
          · by_cases e : j = k
            · rw [e]; exact Or.inr hc
            · exact Or.inl (by omega)
          · exact Or.inr h
        · rintro (h | h)
          · exact Or.inl (by omega)
          · exact Or.inr h
      · rw [if_neg hc]
        simp only
        refine ⟨by rw [List.length_set]; exact h1, ?_⟩
        intro j hj
        rw [getD_set_eq]
        by_cases e : k = j
        · rw [if_pos ⟨e, by rw [h1]; omega⟩]
          constructor
          · intro h
            unfold UNDEFINED at h
            omega
          · rintro (h | h)
            · omega
            · rw [← e] at h; exact absurd h hc
        · rw [if_neg (fun hd => e hd.1), h2 j hj]
          constructor
          · rintro (h | h)
            · exact Or.inl (by omega)
            · exact Or.inr h
          · rintro (h | h)
            · exact Or.inl (by omega)
            · exact Or.inr h
  have := (key a.num_states (le_refl _)).2 i hi
  rw [this]
  constructor
  · rintro (h | h)
    · omega
    · exact h
  · intro h
    exact Or.inr h

theorem extract_h_values_tcf_outside {n : Nat} {dv h : List Int} {solution : List ℚ}
    {new_h : List Int} (hx : extract_h_values_tcf n dv h solution = some new_h) {i : Nat}
    (hi : i < n) (hu : dv.getD i 0 = UNDEFINED) :
    vget new_h i = if vget h i = INF then INF else -INF := by
  unfold extract_h_values_tcf at hx
  have := (collect_entries_range hx).2 i hi
  simp only [hu, if_true] at this
  split_ifs at this ⊢ <;> exact (Option.some.inj this).symm

theorem extract_h_values_ocf_outside {n : Nat} {dv h : List Int} {reach : List Bool}
    {solution : List ℚ} {new_h : List Int}
    (hx : extract_h_values_ocf n dv reach h solution = some new_h) {i : Nat}
    (hi : i < n) (hu : dv.getD i 0 = UNDEFINED) :
    vget new_h i = if bget reach i = false ∧ vget h i ≠ INF then -INF else INF := by
  unfold extract_h_values_ocf at hx
  have := (collect_entries_range hx).2 i hi
  simp only [hu, if_true] at this
  split_ifs at this ⊢ <;> exact (Option.some.inj this).symm

/-- The parts of a run of `SaturatorLP::saturate_tcf` that solves the LP and returns: the
heuristic values are those extracted from the solution, and the transition costs are
`compute_saturated_costs_tcf` of the heuristic values the saturator was given. -/
theorem saturate_tcf_returned {σ : Type} [DecidableEq σ] {s : SaturatorLP}
    {a : ExplicitAbstraction} {fuel : Nat} {lp_infty : ℚ}
    {lp_solve : List LPVariable → List LPConstraint → List ℚ} {num_transitions : Nat}
    {make_transition_bdd : Transition → Finset σ} {tcf : AbstractTransitionCostFunction}
    {sdac : CostFunctionStateDependent σ} {h : List Int} {state_id : Nat}
    {res : SaturatorResultTcf} {r : List Bool} (hempty : h.isEmpty = false)
    (hr : a.compute_reachability_from_state_tcf fuel tcf state_id = some r)
    (hfin : vget h state_id ≠ INF)
    (hres : s.saturate_tcf a fuel lp_infty lp_solve num_transitions make_transition_bdd tcf
      sdac h state_id = Outcome.returned res) :
    res.stcf = a.compute_saturated_costs_tcf h tcf ∧
    ∃ solution, extract_h_values_tcf a.num_states
      (get_distance_variables a h r state_id (vget h state_id) lp_infty).2 h solution
        = some res.h_values := by
  unfold SaturatorLP.saturate_tcf at hres
  simp only [hempty, hr, Bool.false_eq_true, if_false, if_neg hfin] at hres
  by_cases hneg : vget h state_id = -INF
  · rw [if_pos hneg] at hres
    exact absurd hres (by simp)
  · rw [if_neg hneg] at hres
    generalize hsol : lp_solve _ _ = solution at hres
    have hdv : (get_variables_transition a tcf.sd_costs h r s.use_general_costs state_id
        (vget h state_id) lp_infty s.objective_type num_transitions).2.1
        = (get_distance_variables a h r state_id (vget h state_id) lp_infty).2 := rfl
    rw [hdv] at hres
    cases hx : extract_h_values_tcf a.num_states
        (get_distance_variables a h r state_id (vget h state_id) lp_infty).2 h solution with
    | none =>
      rw [hx] at hres
      exact absurd hres (by simp)
    | some new_h =>
      rw [hx] at hres
      simp only [Outcome.returned.injEq] at hres
      rw [← hres]
      exact ⟨rfl, solution, hx⟩

/-- The parts of a run of `SaturatorLP::saturate_ocf` that returns. -/
theorem saturate_ocf_returned {s : SaturatorLP} {a : ExplicitAbstraction} {fuel : Nat}
    {lp_infty : ℚ} {lp_solve : List LPVariable → List LPConstraint → List ℚ}
    {ocf h : List Int} {state_id : Nat} {res : SaturatorResultOcf} {r : List Bool}
    (hr : a.compute_reachability_from_state_ocf fuel
      (compute_reachability_cost_function ocf) state_id = some r)
    (hres : s.saturate_ocf a fuel lp_infty lp_solve ocf h state_id = Outcome.returned res) :
    ∃ solution new_h, extract_h_values_ocf a.num_states
      (get_distance_variables a h r state_id (vget h state_id) lp_infty).2 r h solution
        = some new_h ∧
      s.base.get_saturator_result_ocf a fuel ocf (a.compute_saturated_costs_ocf new_h) new_h
        s.saturate_negative_infinity = some res := by
  unfold SaturatorLP.saturate_ocf at hres
  simp only [hr] at hres
  by_cases hinf : vget h state_id = INF
  · rw [if_pos hinf] at hres
    exact absurd hres (by simp)
  · rw [if_neg hinf] at hres
    by_cases hneg : vget h state_id = -INF
    · rw [if_pos hneg] at hres
      exact absurd hres (by simp)
    · rw [if_neg hneg] at hres
      generalize hsol : lp_solve _ _ = solution at hres
      have hdv : (get_variables a ocf h r s.use_general_costs state_id
          (vget h state_id) lp_infty).2.1
          = (get_distance_variables a h r state_id (vget h state_id) lp_infty).2 := rfl
      rw [hdv] at hres
      cases hx : extract_h_values_ocf a.num_states
          (get_distance_variables a h r state_id (vget h state_id) lp_infty).2 r h
          solution with
      | none =>
        rw [hx] at hres
        exact absurd hres (by simp)
      | some new_h =>
        rw [hx] at hres
        simp only at hres
        refine ⟨solution, new_h, hx, ?_⟩
        cases hg : s.base.get_saturator_result_ocf a fuel ocf
            (a.compute_saturated_costs_ocf new_h) new_h s.saturate_negative_infinity with
        | none =>
          rw [hg] at hres
          exact absurd hres (by simp)
        | some res' =>
          rw [hg] at hres
          simp only [Outcome.returned.injEq] at hres
          rw [hres]

/-- How the two forms of the LP saturator extract the value of a state without a distance
variable (`h_in[i]` is infinite or `i` is not reachable from `state_id`), whatever vector
the LP solver returns, in a run that solves the LP and returns: the transition form gives
`INF` if `h_in[i] = INF` and `-INF` otherwise; the test of the operator form,
`!reachability[i] && h_values[i] != INF`, gives `-INF` if `i` is not reachable and
`h_in[i] ≠ INF`, and `INF` otherwise. The two agree on the states that are not reachable
and on those with `h_in[i] = INF`. -/
theorem lp_saturator_extraction_outside_lp {σ : Type} [DecidableEq σ] (a : ExplicitAbstraction)
    (fuel : Nat) (lp_infty : ℚ) (lp_solve : List LPVariable → List LPConstraint → List ℚ)
    (make_transition_bdd : Transition → Finset σ) (sdac : CostFunctionStateDependent σ)
    (h : List Int) (state_id : Nat) :
    (∀ (s : SaturatorLP) (num_transitions : Nat) (tcf : AbstractTransitionCostFunction)
      (r : List Bool) (res : SaturatorResultTcf), h.isEmpty = false →
      vget h state_id ≠ INF →
      a.compute_reachability_from_state_tcf fuel tcf state_id = some r →
      s.saturate_tcf a fuel lp_infty lp_solve num_transitions make_transition_bdd tcf sdac
        h state_id = Outcome.returned res →
      ∀ i, i < a.num_states → (vget h i = INF ∨ vget h i = -INF ∨ bget r i = false) →
        vget res.h_values i = if vget h i = INF then INF else -INF) ∧
    (∀ (s : SaturatorLP) (ocf : List Int) (r : List Bool) (res : SaturatorResultOcf),
      s.recompute_h_values = false →
      a.compute_reachability_from_state_ocf fuel
        (compute_reachability_cost_function ocf) state_id = some r →
      s.saturate_ocf a fuel lp_infty lp_solve ocf h state_id = Outcome.returned res →
      ∀ i, i < a.num_states → (vget h i = INF ∨ vget h i = -INF ∨ bget r i = false) →
        vget res.h_values i = (if bget r i = false ∧ vget h i ≠ INF then -INF else INF) ∧
        ((vget h i = INF ∨ bget r i = false) →
          vget res.h_values i = if vget h i = INF then INF else -INF)) := by
  constructor
  · intro s num_transitions tcf r res hempty hfin hr hres i hi hout
    obtain ⟨_, solution, hx⟩ := saturate_tcf_returned hempty hr hfin hres
    exact extract_h_values_tcf_outside hx hi
      ((get_distance_variables_spec a h r state_id _ lp_infty i hi).2 hout)
  · intro s ocf r res hrec hr hres i hi hout
    obtain ⟨solution, new_h, hx, hg⟩ := saturate_ocf_returned hr hres
    have hh : res.h_values = new_h := (get_saturator_result_ocf_some hg).2.1 hrec
    have hval := extract_h_values_ocf_outside hx hi
      ((get_distance_variables_spec a h r state_id _ lp_infty i hi).2 hout)
    rw [hh]
    refine ⟨hval, ?_⟩
    intro hc
    rw [hval]
    by_cases hinf : vget h i = INF
    · rw [if_neg (fun hd => hd.2 hinf), if_pos hinf]
    · rcases hc with e | e
      · exact absurd e hinf
      · rw [if_pos ⟨e, hinf⟩, if_neg hinf]

/-- The claim C29 as it stands fails in the operator form, on a vector `h_in` in which a
state that is reachable from the query state holds `-INF`: on `chain_identity_abstraction`
with the costs `[1, 1]`, `h_in = [2, -INF, 0]` and the query state `0`, state `1` is
reachable, has no distance variable since `h_in[1] = -INF`, and gets `h_out[1] = INF`. -/
theorem lp_saturator_states_outside_lp_counterexample :
    chain_identity_abstraction.compute_reachability_from_state_ocf 10
        (compute_reachability_cost_function [1, 1]) 0 = some [true, true, true] ∧
    (get_variables chain_identity_abstraction [1, 1] [2, -INF, 0] [true, true, true] true 0
        2 1000000).2.1 = [0, UNDEFINED, 1] ∧
    SaturatorLP.saturate_ocf ⟨true, false, ObjectiveType.TRANSITIONS, true, false⟩
        chain_identity_abstraction 10 1000000 (fun _ _ => [2, 0]) [1, 1] [2, -INF, 0] 0
      = Outcome.returned ⟨[-INF, -INF], [2, INF, 0], false⟩ := by
  decide

/-- The transition costs a run of `SaturatorLP::saturate_tcf` returns after solving the LP
are those of the heuristic values it was given. -/
theorem saturate_tcf_costs_of_input {σ : Type} [DecidableEq σ] {s : SaturatorLP}
    {a : ExplicitAbstraction} {fuel : Nat} {lp_infty : ℚ}
    {lp_solve : List LPVariable → List LPConstraint → List ℚ} {num_transitions : Nat}
    {make_transition_bdd : Transition → Finset σ} {tcf : AbstractTransitionCostFunction}
    {sdac : CostFunctionStateDependent σ} {h : List Int} {state_id : Nat}
    {res : SaturatorResultTcf} {r : List Bool} (hempty : h.isEmpty = false)
    (hr : a.compute_reachability_from_state_tcf fuel tcf state_id = some r)
    (hfin : vget h state_id ≠ INF)
    (hres : s.saturate_tcf a fuel lp_infty lp_solve num_transitions make_transition_bdd tcf
      sdac h state_id = Outcome.returned res) :
    res.stcf = a.compute_saturated_costs_tcf h tcf :=
  (saturate_tcf_returned hempty hr hfin hres).1

/-- C30 on a failing input. On `two_sources_abstraction` with the transition costs
`[5, 7]`, `h_in = [5, 0, 7]`, the query state `0` and the LP solution `[5, 0, 5]`, the
saturator returns `h_out = [5, 0, -INF]` (state `2` is not reachable from state `0`)
together with the transition costs of `h_in`: the transition `2 → 1` costs `7` and the flag
of operator `0` is cleared. `compute_saturated_costs_tcf` applied to `h_out` gives the
cost `-INF` for that transition, the cost `5` for the operator, and leaves the flag set. -/
theorem lp_saturator_returns_costs_of_input_values :
    SaturatorLP.saturate_tcf ⟨true, false, ObjectiveType.TRANSITIONS, true, false⟩
        two_sources_abstraction 10 1000000 (fun _ _ => [5, 0, 5]) 2
        (fun _ => (∅ : Finset Bool)) ⟨[5, 7], [false], [0]⟩ (two_state_cost_function [1])
        [5, 0, 7] 0
      = Outcome.returned ⟨⟨[5, 7], [false], [7]⟩, [5, 0, -INF], false⟩ ∧
    two_sources_abstraction.compute_saturated_costs_tcf [5, 0, 7] ⟨[5, 7], [false], [0]⟩
      = ⟨[5, 7], [false], [7]⟩ ∧
    two_sources_abstraction.compute_saturated_costs_tcf [5, 0, -INF] ⟨[5, 7], [false], [0]⟩
      = ⟨[5, -INF], [true], [5]⟩ := by
  decide

end lp_extract
/-! ## The reachability refinement of the cap saturator, both forms -/

section refinement_claim

theorem reachableAlong_congr {a : ExplicitAbstraction} {P Q : Transition → Prop}
    (hPQ : ∀ t, P t → Q t) {state_id i : Nat} (h : ReachableAlong a P state_id i) :
    ReachableAlong a Q state_id i := by
  induction h with
  | start => exact ReachableAlong.start
  | step t ht hp _ ih => exact ReachableAlong.step t ht (hPQ t hp) ih

/-- The reachability refinement of the transition form for nonnegative transition costs
whose path sums stay below `INF`: it returns for enough fuel, a state of value `INF` keeps
it, and every other state keeps its value if it is reachable from `state_id` along
transitions of finite cost and gets `-INF` if not. -/
theorem update_reachability_tcf_spec {a : ExplicitAbstraction} (ha : a.WellFormed)
    (tcf : AbstractTransitionCostFunction) (hcost : NonnegativeCosts tcf.sd_costs) {B : Int}
    (hB0 : 0 ≤ B) (hB : ∀ c ∈ tcf.sd_costs, c ≠ INF → c ≤ B)
    (hbound : B * (a.num_states : Int) < INF) {state_id : Nat}
    (hs : state_id < a.num_states) (h : List Int) (hlen : h.length = a.num_states) :
    (∀ fuel, 1 + a.num_states * INF.toNat < fuel →
      ∃ h_out, update_reachability_tcf a fuel tcf h state_id = some h_out) ∧
    ∀ fuel h_out, update_reachability_tcf a fuel tcf h state_id = some h_out →
      h_out.length = h.length ∧
      ∀ i, i < a.num_states →
        (vget h i = INF → vget h_out i = INF) ∧
        (vget h i ≠ INF →
          (ReachableAlong a (fun t => IsFinite (vget tcf.sd_costs t.transition_id))
              state_id i → vget h_out i = vget h i) ∧
          (¬ ReachableAlong a (fun t => IsFinite (vget tcf.sd_costs t.transition_id))
              state_id i → vget h_out i = -INF)) := by
  obtain ⟨hret, hexact⟩ := reachability_from_state_tcf_exact ha tcf hcost hB0 hB hbound hs
  constructor
  · intro fuel hfuel
    obtain ⟨r, hr⟩ := hret fuel hfuel
    unfold update_reachability_tcf
    rw [hr]
    exact ⟨_, rfl⟩
  · intro fuel h_out hout
    unfold update_reachability_tcf at hout
    cases hr : a.compute_reachability_from_state_tcf fuel tcf state_id with
    | none => rw [hr] at hout; simp at hout
    | some r =>
      rw [hr] at hout
      simp only [Option.map_some', Option.some.injEq] at hout
      obtain ⟨h1, h2⟩ := prune_unreachable_spec a.num_states r h
      rw [← hout]
      refine ⟨h1, ?_⟩
      intro i hi
      have hex := (hexact fuel r hr).2 i hi
      have hiff : ReachableAlong a (fun t => vget tcf.sd_costs t.transition_id ≠ INF)
          state_id i ↔
          ReachableAlong a (fun t => IsFinite (vget tcf.sd_costs t.transition_id))
            state_id i :=
        ⟨reachableAlong_congr (fun t ht => ⟨ht, by
            have := (vget_nonneg_of_costs hcost t.transition_id).1
            unfold INF
            omega⟩),
          reachableAlong_congr (fun t ht => ht.1)⟩
      rw [h2]
      refine ⟨fun e => by rw [if_neg (fun hc => hc.2.2.2 e)]; exact e, fun hne => ⟨?_, ?_⟩⟩
      · intro hreach
        have : bget r i = true := hex.2 (hiff.2 hreach)
        rw [if_neg]
        intro hc
        rw [this] at hc
        exact absurd hc.2.2.1 (by decide)
      · intro hnr
        have : bget r i = false := by
          cases hb : bget r i with
          | false => rfl
          | true => exact absurd (hiff.1 (hex.1 hb)) hnr
        rw [if_pos ⟨hi, by rw [hlen]; exact hi, this, hne⟩]

/-- The reachability refinement is the step of `saturate_ocf` and of `saturate_tcf` for
`reachable = FROM_STATE`; without `cap` it works on the heuristic values the saturator is
given. -/
theorem saturate_from_state_step (s : SaturatorCap) (a : ExplicitAbstraction) (fuel : Nat)
    (operator_costs ocf h : List Int) (state_id : Nat)
    (hreach : s.reachable = Reachable.FROM_STATE) (hcap : s.cap = false)
    (hgen : s.use_general_costs = true) :
    s.saturate_ocf a fuel operator_costs ocf h state_id
      = (update_reachability_ocf a fuel ocf h state_id).bind fun h2 =>
          s.get_saturator_result_ocf a fuel ocf (a.compute_saturated_costs_ocf h2) h2
            s.saturate_negative_infinity := by
  unfold SaturatorCap.saturate_ocf update_reachability_ocf
  simp only [hreach, hcap, hgen, Bool.false_eq_true, if_false, if_true, Option.some_bind]

/-- The reachability refinement as the step of `saturate_tcf` for `reachable = FROM_STATE`,
without `cap` and for a saturator that is not the first of its chain. -/
theorem saturate_tcf_from_state_step {σ : Type} [DecidableEq σ] (s : SaturatorCap)
    (a : ExplicitAbstraction) (fuel : Nat) (operator_costs : List Int)
    (make_transition_bdd : Transition → Finset σ) (tcf : AbstractTransitionCostFunction)
    (sdac : CostFunctionStateDependent σ) (h : List Int) (state_id : Nat)
    (hreach : s.reachable = Reachable.FROM_STATE) (hcap : s.cap = false)
    (hempty : h.isEmpty = false) :
    s.saturate_tcf a fuel operator_costs make_transition_bdd tcf sdac h state_id
      = (update_reachability_tcf a fuel tcf h state_id).map fun h2 =>
          { stcf := a.compute_saturated_costs_tcf h2 tcf, h_values := h2,
            saturate_negative_infinity := s.saturate_negative_infinity } := by
  unfold SaturatorCap.saturate_tcf update_reachability_tcf
  simp only [hreach, hcap, hempty, Bool.false_eq_true, if_false, Option.some_bind]
  cases a.compute_reachability_from_state_tcf fuel tcf state_id with
  | none => rfl
  | some r => rfl

/-- The reachability refinement on costs within its contract. In step 2 of the cap
saturator with `reachable = FROM_STATE` a state of value `+INF` keeps it, and a state `i`
with `h[i] ≠ +INF` keeps its value exactly when `i` is reachable from `state_id` along
transitions whose current cost is finite, and gets `h[i] = -INF` otherwise: in the operator
form for every operator cost function, in the transition form for transition costs that
are nonnegative (finite or `+INF`) with path sums below `INF`. Both steps return for enough
fuel. -/
theorem reachability_refinement_within_contract (a : ExplicitAbstraction) (ha : a.WellFormed)
    (state_id : Nat) (hs : state_id < a.num_states) (h : List Int)
    (hlen : h.length = a.num_states) :
    (∀ ocf : List Int, (a.num_states : Int) < INF →
      (∀ fuel, 1 + a.num_states * INF.toNat < fuel →
        ∃ h_out, update_reachability_ocf a fuel ocf h state_id = some h_out) ∧
      ∀ fuel h_out, update_reachability_ocf a fuel ocf h state_id = some h_out →
        h_out.length = h.length ∧
        ∀ i, i < a.num_states →
          (vget h i = INF → vget h_out i = INF) ∧
          (vget h i ≠ INF →
            (ReachableAlong a (fun t => IsFinite (vget ocf t.op_id)) state_id i →
              vget h_out i = vget h i) ∧
            (¬ ReachableAlong a (fun t => IsFinite (vget ocf t.op_id)) state_id i →
              vget h_out i = -INF))) ∧
    (∀ (tcf : AbstractTransitionCostFunction) (B : Int), NonnegativeCosts tcf.sd_costs →
      0 ≤ B → (∀ c ∈ tcf.sd_costs, c ≠ INF → c ≤ B) → B * (a.num_states : Int) < INF →
      (∀ fuel, 1 + a.num_states * INF.toNat < fuel →
        ∃ h_out, update_reachability_tcf a fuel tcf h state_id = some h_out) ∧
      ∀ fuel h_out, update_reachability_tcf a fuel tcf h state_id = some h_out →
        h_out.length = h.length ∧
        ∀ i, i < a.num_states →
          (vget h i = INF → vget h_out i = INF) ∧
          (vget h i ≠ INF →
            (ReachableAlong a (fun t => IsFinite (vget tcf.sd_costs t.transition_id))
                state_id i → vget h_out i = vget h i) ∧
            (¬ ReachableAlong a (fun t => IsFinite (vget tcf.sd_costs t.transition_id))
                state_id i → vget h_out i = -INF))) :=
  ⟨fun ocf hn => update_reachability_ocf_spec ha hn ocf hs h hlen,
    fun tcf _ hcost hB0 hB hbound =>
      update_reachability_tcf_spec ha tcf hcost hB0 hB hbound hs h hlen⟩

/-- The refinement of the transition form on `two_sources_abstraction` with the costs
`[5, 7]`: state `1` is reachable from state `0` and keeps its value. -/
theorem reachability_refinement_within_contract_example :
    update_reachability_tcf two_sources_abstraction 10 ⟨[5, 7], [false], [7]⟩ [5, 0, 7] 0
      = some [5, 0, -INF] ∧
    ReachableAlong two_sources_abstraction
      (fun t => IsFinite (vget [5, 7] t.transition_id)) 0 1 ∧
    vget [5, 0, -INF] 1 = vget [5, 0, 7] 1 :=
  have hrun : update_reachability_tcf two_sources_abstraction 10 ⟨[5, 7], [false], [7]⟩
      [5, 0, 7] 0 = some [5, 0, -INF] := by decide
  have hreach : ReachableAlong two_sources_abstraction
      (fun t => IsFinite (vget [5, 7] t.transition_id)) 0 1 :=
    ReachableAlong.step ⟨0, 0, 0, 1⟩ (by decide) (by decide) ReachableAlong.start
  ⟨hrun, hreach,
    (((((reachability_refinement_within_contract two_sources_abstraction
      (wellFormed_of_bounded (by decide)) 0 (by decide) [5, 0, 7] rfl).2
      ⟨[5, 7], [false], [7]⟩ 7 (by unfold NonnegativeCosts; decide) (by decide) (by decide)
      (by decide)).2 10
      [5, 0, -INF] hrun).2 1 (by decide)).2 (by decide)).1 hreach⟩

end refinement_claim

/-! ## C40: a negative saturated value shifts every finite key upwards -/

section negative_saturated

variable {σ : Type} [DecidableEq σ] [Fintype σ]

omit [Fintype σ] in
/-- Rebuilding a map of nonempty buckets under a key change that keeps the keys strictly
ascending keeps every bucket, in the same order, under its new key. -/
theorem foldl_insert_shifted (g : Int → Int) (m : BucketMap σ) :
    ∀ init : BucketMap σ, (∀ e ∈ m, e.2 ≠ ∅) →
      (m.map fun e => g e.1).Pairwise (fun x y => x < y) →
      (∀ e ∈ init, ∀ f ∈ m, e.1 < g f.1) →
      m.foldl (fun new_sd_costs p => insert_cost_value (g p.1) p.2 new_sd_costs) init
        = init ++ m.map fun p => (g p.1, p.2) := by
  induction m with
  | nil => intro init _ _ _; simp
  | cons p rest ih =>
    intro init hne hasc hinit
    rw [List.map_cons, List.pairwise_cons] at hasc
    have h1 : insert_cost_value (g p.1) p.2 init = init ++ [(g p.1, p.2)] := by
      unfold insert_cost_value
      rw [if_neg (hne p (List.mem_cons_self _ _))]
      exact map_add_append init (fun e he => hinit e he p (List.mem_cons_self _ _))
    rw [List.foldl_cons, h1, ih _ (fun e he => hne e (List.mem_cons_of_mem _ he)) hasc.2]
    · simp
    · intro e he f hf
      rcases List.mem_append.1 he with h | h
      · exact hinit e h f (List.mem_cons_of_mem _ hf)
      · rw [List.mem_singleton] at h
        rw [h]
        exact hasc.1 _ (List.mem_map.2 ⟨f, hf, rfl⟩)

omit [Fintype σ] in
/-- The rebuilt map of `reduce_operator_costs(int, int)` for a finite negative saturated
value on a map with ascending nonnegative keys and nonempty buckets whose shifted finite
keys stay below `INF`. -/
theorem reduce_bucket_map_negative {s : Int} (hs : s < 0) (hsfin : -INF < s)
    {m : BucketMap σ} (hkeys : KeysAscending m) (hne : BucketsNonempty m)
    (hnonneg : ∀ e ∈ m, 0 ≤ e.1) (hrange : ∀ e ∈ m, e.1 ≠ INF → e.1 - s < INF) :
    reduce_bucket_map s m = m.map fun e => (if e.1 = INF then INF else e.1 - s, e.2) := by
  have hINF : (0 : Int) < INF := by unfold INF; decide
  have hkey : ∀ e ∈ m, reduce_key s e.1 = if e.1 = INF then INF else e.1 - s := by
    intro e he
    by_cases h : e.1 = INF
    · unfold reduce_key; rw [if_pos h, if_pos h]
    · have h0 := hnonneg e he
      rw [reduce_key_finite (by omega) (by omega) h (by omega), if_neg h]
      exact max_eq_right (by omega)
  have hmono : ∀ e ∈ m, ∀ f ∈ m, e.1 < f.1 → reduce_key s e.1 < reduce_key s f.1 := by
    intro e he f hf hlt
    rw [hkey e he, hkey f hf]
    by_cases h1 : e.1 = INF
    · have := hrange f hf (by omega)
      omega
    · rw [if_neg h1]
      by_cases h2 : f.1 = INF
      · rw [if_pos h2]; exact hrange e he h1
      · rw [if_neg h2]; omega
  rw [reduce_bucket_map_eq, foldl_insert_shifted (reduce_key s) m [] hne ?_ (by simp)]
  · rw [List.nil_append]
    exact List.map_congr_left (fun e he => by rw [hkey e he])
  · rw [List.pairwise_map]
    unfold KeysAscending at hkeys
    exact List.Pairwise.imp_of_mem (fun {e f} he hf h => hmono e he f hf h) hkeys

/-- The overload of `reduce_operator_costs` on a transition cost function is the overload
on the vector that holds `si_costs[op]` for the operators of `si` and `0` elsewhere. -/
theorem reduce_operator_costs_tcf_eq (c : CostFunctionStateDependent σ)
    (tcf : AbstractTransitionCostFunction) :
    c.reduce_operator_costs_tcf tcf
      = c.reduce_operator_costs ((List.range c.num_operators).map fun op_id =>
          if bget tcf.si op_id then vget tcf.si_costs op_id else 0) := by
  unfold CostFunctionStateDependent.reduce_operator_costs_tcf
    CostFunctionStateDependent.reduce_operator_costs
  apply List.foldl_ext
  intro c' op_id hop
  have hlt : op_id < c.num_operators := List.mem_range.1 hop
  have hv : vget ((List.range c.num_operators).map fun op_id =>
      if bget tcf.si op_id then vget tcf.si_costs op_id else 0) op_id
      = if bget tcf.si op_id then vget tcf.si_costs op_id else 0 := by
    unfold vget
    rw [List.getD_eq_getElem _ _ (by simpa using hlt)]
    simp
  simp only [hv]
  cases hsi : bget tcf.si op_id <;> simp

/-- C40: `reduce_operator_costs` with a finite negative saturated value `s` for operator
`op_id`, on a bucket map in the form the class keeps it in (ascending nonnegative keys,
nonempty buckets) whose finite keys stay below `INF` after the shift: the new bucket map
is the old one with every finite key `k` replaced by `k - s` (the maximum with `0` never
takes effect), the `INF` bucket keeps its key, every bucket keeps its state set and its
place, and the useless flags are unchanged. The overloads on a vector and on a transition
cost function do the same for an operator whose entry is `s`. -/
theorem negative_saturated_costs_shift_keys (c : CostFunctionStateDependent σ)
    (op_id : Nat) (s : Int) (hlen : op_id < c.remaining_sd_costs.length)
    (hop : op_id < c.num_operators)
    (hkeys : KeysAscending (c.buckets op_id)) (hne : BucketsNonempty (c.buckets op_id))
    (hnonneg : ∀ e ∈ c.buckets op_id, 0 ≤ e.1) (hs : s < 0) (hsfin : -INF < s)
    (hrange : ∀ e ∈ c.buckets op_id, e.1 ≠ INF → e.1 - s < INF) :
    ((c.reduce_operator_costs_op op_id s).buckets op_id
        = (c.buckets op_id).map fun e => (if e.1 = INF then INF else e.1 - s, e.2)) ∧
    (c.reduce_operator_costs_op op_id s).useless_operators = c.useless_operators ∧
    (∀ e ∈ c.buckets op_id, e.1 ≠ INF → max 0 (left_subtraction e.1 s) = e.1 - s ∧
      0 < e.1 - s) ∧
    (∀ socf : List Int, vget socf op_id = s →
      (c.reduce_operator_costs socf).buckets op_id
        = ((c.buckets op_id).map fun e => (if e.1 = INF then INF else e.1 - s, e.2)) ∧
      bget (c.reduce_operator_costs socf).useless_operators op_id
        = bget c.useless_operators op_id) ∧
    (∀ tcf : AbstractTransitionCostFunction, bget tcf.si op_id = true →
      vget tcf.si_costs op_id = s →
      (c.reduce_operator_costs_tcf tcf).buckets op_id
        = ((c.buckets op_id).map fun e => (if e.1 = INF then INF else e.1 - s, e.2)) ∧
      bget (c.reduce_operator_costs_tcf tcf).useless_operators op_id
        = bget c.useless_operators op_id) := by
  have hINF : (0 : Int) < INF := by unfold INF; decide
  have hninf : s ≠ -INF := by omega
  have hb : (c.reduce_operator_costs_op op_id s).buckets op_id
      = (c.buckets op_id).map fun e => (if e.1 = INF then INF else e.1 - s, e.2) := by
    rw [reduce_operator_costs_op_buckets, if_pos ⟨rfl, hlen⟩, if_neg hninf]
    exact reduce_bucket_map_negative hs hsfin hkeys hne hnonneg hrange
  have hu : (c.reduce_operator_costs_op op_id s).useless_operators = c.useless_operators := by
    unfold CostFunctionStateDependent.reduce_operator_costs_op
    rw [if_neg hninf]
  have hvec : ∀ socf : List Int, vget socf op_id = s →
      (c.reduce_operator_costs socf).buckets op_id
        = ((c.buckets op_id).map fun e => (if e.1 = INF then INF else e.1 - s, e.2)) ∧
      bget (c.reduce_operator_costs socf).useless_operators op_id
        = bget c.useless_operators op_id := by
    intro socf hsocf
    have h := (reduce_operator_costs_upto c socf c.num_operators).2.2.2.2 op_id
    have hcond : op_id < c.num_operators ∧ ¬(vget socf op_id = 0 ∨ vget socf op_id = INF) :=
      ⟨hop, by rw [hsocf]; omega⟩
    rw [if_pos hcond, if_pos hcond, hsocf, hb, hu] at h
    exact h
  refine ⟨hb, hu, ?_, hvec, ?_⟩
  · intro e he hfin
    have h0 := hnonneg e he
    have h1 : left_subtraction e.1 s = e.1 - s := by
      unfold left_subtraction
      rw [if_neg (by omega), if_neg (by omega)]
    rw [h1]
    exact ⟨max_eq_right (by omega), by omega⟩
  · intro tcf hsi hcost
    rw [reduce_operator_costs_tcf_eq]
    apply hvec
    unfold vget
    rw [List.getD_eq_getElem _ _ (by simpa using hop)]
    simp only [List.getElem_map, List.getElem_range, hsi, if_true]
    exact hcost

/-- The claim C40 on a cost function over two concrete states with the buckets
`3 ↦ {false}` and `INF ↦ {true}` for its one operator and the saturated value `-2`: the
new buckets are `5 ↦ {false}` and `INF ↦ {true}`. -/
theorem negative_saturated_costs_shift_keys_witness :
    (CostFunctionStateDependent.reduce_operator_costs_op
        (⟨[3], 2, [[(3, {false}), (INF, {true})]], [false]⟩ :
          CostFunctionStateDependent Bool) 0 (-2)).buckets 0
      = [(5, {false}), (INF, {true})] :=
  (negative_saturated_costs_shift_keys
    (⟨[3], 2, [[(3, {false}), (INF, {true})]], [false]⟩ : CostFunctionStateDependent Bool)
    0 (-2) (by decide) (by decide) (by unfold KeysAscending; decide)
    (by unfold BucketsNonempty; decide) (by decide) (by decide) (by decide) (by decide)).1

end negative_saturated

/-! ## C36: the transition cost query with a hint -/

section hinted_query

variable {σ : Type} [DecidableEq σ]

/-- On a map with ascending keys the loop of `determine_remaining_costs_transition`
returns a value that is at least the value it starts from, when no key lies below that. -/
theorem first_intersecting_key_ge (fingerprint : Finset σ) :
    ∀ (m : BucketMap σ) (cost : Int), KeysAscending m → (∀ e ∈ m, cost ≤ e.1) →
      cost ≤ first_intersecting_key fingerprint cost m := by
  intro m
  induction m with
  | nil => intro cost _ _; exact le_refl _
  | cons p rest ih =>
    intro cost hk hc
    unfold first_intersecting_key
    have hp := hc p (List.mem_cons_self _ _)
    unfold KeysAscending at hk
    rw [List.pairwise_cons] at hk
    split_ifs with h
    · exact hp
    · exact le_trans hp (ih p.1 hk.2 (fun e he => le_of_lt (hk.1 e he)))

/-- The two loops side by side on a map with ascending keys: below `required` the loop
with the hint returns what the loop without it returns, and otherwise it returns a value
between `required` and that. -/
theorem first_intersecting_key_required_spec (fingerprint : Finset σ) (required : Int) :
    ∀ (m : BucketMap σ) (cost : Int), KeysAscending m → (∀ e ∈ m, cost ≤ e.1) →
      (first_intersecting_key_required fingerprint required cost m < required →
        first_intersecting_key_required fingerprint required cost m
          = first_intersecting_key fingerprint cost m) ∧
      (required ≤ first_intersecting_key_required fingerprint required cost m →
        first_intersecting_key_required fingerprint required cost m
          ≤ first_intersecting_key fingerprint cost m) := by
  intro m
  induction m with
  | nil =>
    intro cost _ _
    exact ⟨fun _ => rfl, fun _ => le_refl _⟩
  | cons p rest ih =>
    intro cost hk hc
    have hk' := hk
    unfold KeysAscending at hk'
    rw [List.pairwise_cons] at hk'
    have hrest : ∀ e ∈ rest, p.1 ≤ e.1 := fun e he => le_of_lt (hk'.1 e he)
    unfold first_intersecting_key_required first_intersecting_key
    by_cases hreq : p.1 ≥ required
    · rw [if_pos hreq]
      refine ⟨fun h => absurd hreq (not_le.2 h), fun _ => ?_⟩
      split_ifs with h
      · exact le_refl _
      · exact first_intersecting_key_ge fingerprint rest p.1 hk'.2 hrest
    · rw [if_neg hreq]
      by_cases h : p.2 ∩ fingerprint ≠ ∅
      · rw [if_pos h, if_pos h]
        exact ⟨fun _ => rfl, fun _ => le_refl _⟩
      · rw [if_neg h, if_neg h]
        exact ih p.1 hk'.2 hrest

/-- The two loops from the start value `-1` of the source. -/
theorem first_intersecting_key_required_start (fingerprint : Finset σ) (required : Int)
    (m : BucketMap σ) (hk : KeysAscending m) :
    (first_intersecting_key_required fingerprint required (-1) m < required →
      first_intersecting_key_required fingerprint required (-1) m
        = first_intersecting_key fingerprint (-1) m) ∧
    (required ≤ first_intersecting_key_required fingerprint required (-1) m →
      first_intersecting_key_required fingerprint required (-1) m
        ≤ first_intersecting_key fingerprint (-1) m) := by
  cases m with
  | nil => exact ⟨fun _ => rfl, fun _ => le_refl _⟩
  | cons p rest =>
    have h1 : first_intersecting_key_required fingerprint required (-1) (p :: rest)
        = first_intersecting_key_required fingerprint required p.1 (p :: rest) := by
      unfold first_intersecting_key_required; rfl
    have h2 : first_intersecting_key fingerprint (-1) (p :: rest)
        = first_intersecting_key fingerprint p.1 (p :: rest) := by
      unfold first_intersecting_key; rfl
    rw [h1, h2]
    apply first_intersecting_key_required_spec fingerprint required (p :: rest) p.1 hk
    intro e he
    rcases List.mem_cons.1 he with h | h
    · rw [h]
    · unfold KeysAscending at hk
      rw [List.pairwise_cons] at hk
      exact le_of_lt (hk.1 e h)

/-- C36: with `e = determine_remaining_costs_transition(abstraction, t)` and
`r = determine_remaining_costs_transition(abstraction, t, required)` on a bucket map with
ascending keys (it is a `std::map`): if `r < required` then `r = e`, otherwise
`required <= r <= e`; and `min(r, required) = min(e, required)`. -/
theorem hinted_transition_cost_query (c : CostFunctionStateDependent σ)
    (a : ExplicitAbstraction) (make_transition_bdd : Transition → Finset σ)
    (t : Transition) (required : Int) (hk : KeysAscending (c.buckets t.op_id)) :
    (c.determine_remaining_costs_transition_required a make_transition_bdd t required
        < required →
      c.determine_remaining_costs_transition_required a make_transition_bdd t required
        = c.determine_remaining_costs_transition a make_transition_bdd t) ∧
    (¬ c.determine_remaining_costs_transition_required a make_transition_bdd t required
        < required →
      required
        ≤ c.determine_remaining_costs_transition_required a make_transition_bdd t required ∧
      c.determine_remaining_costs_transition_required a make_transition_bdd t required
        ≤ c.determine_remaining_costs_transition a make_transition_bdd t) ∧
    min (c.determine_remaining_costs_transition_required a make_transition_bdd t required)
        required
      = min (c.determine_remaining_costs_transition a make_transition_bdd t) required := by
  have key : (c.determine_remaining_costs_transition_required a make_transition_bdd t required
        < required →
      c.determine_remaining_costs_transition_required a make_transition_bdd t required
        = c.determine_remaining_costs_transition a make_transition_bdd t) ∧
    (required
        ≤ c.determine_remaining_costs_transition_required a make_transition_bdd t required →
      c.determine_remaining_costs_transition_required a make_transition_bdd t required
        ≤ c.determine_remaining_costs_transition a make_transition_bdd t) := by
    unfold CostFunctionStateDependent.determine_remaining_costs_transition_required
      CostFunctionStateDependent.determine_remaining_costs_transition
    split_ifs with hg
    · exact ⟨fun _ => rfl, fun _ => le_refl _⟩
    · exact first_intersecting_key_required_start _ required _ hk
  generalize c.determine_remaining_costs_transition_required a make_transition_bdd t required
    = r at key ⊢
  generalize c.determine_remaining_costs_transition a make_transition_bdd t = e at key ⊢
  refine ⟨key.1, fun h => ⟨not_lt.1 h, key.2 (not_lt.1 h)⟩, ?_⟩
  by_cases h : r < required
  · rw [key.1 h]
  · have h1 := not_lt.1 h
    have h2 := key.2 h1
    rw [min_eq_right h1, min_eq_right (le_trans h1 h2)]

/-- The claim C36 on the bucketed cost function with the buckets `2 ↦ {0}`, `5 ↦ {1}` and
`9 ↦ {2}` over three concrete states, for a transition out of a state that is no goal with
the fingerprint `{2}` and `required = 4`: the query with the hint stops at the key `5`. -/
theorem hinted_transition_cost_query_witness :
    min (CostFunctionStateDependent.determine_remaining_costs_transition_required
        (⟨[2], 3, [[(2, {0}), (5, {1}), (9, {2})]], [false]⟩ :
          CostFunctionStateDependent (Fin 3))
        two_sources_abstraction (fun _ => {2}) ⟨0, 0, 0, 1⟩ 4) 4
      = min (CostFunctionStateDependent.determine_remaining_costs_transition
        (⟨[2], 3, [[(2, {0}), (5, {1}), (9, {2})]], [false]⟩ :
          CostFunctionStateDependent (Fin 3))
        two_sources_abstraction (fun _ => {2}) ⟨0, 0, 0, 1⟩) 4 :=
  (hinted_transition_cost_query
    (⟨[2], 3, [[(2, {0}), (5, {1}), (9, {2})]], [false]⟩ : CostFunctionStateDependent (Fin 3))
    two_sources_abstraction (fun _ => {2}) ⟨0, 0, 0, 1⟩ 4
    (by unfold KeysAscending; decide)).2.2

end hinted_query

/-! ## C37: what Bellman-Ford returns is a consistent fixed point -/

/-- C37: whenever `compute_goal_distances_for_negative_costs_ocf` returns `d`, every goal
`g` has `d[g] <= 0` and every transition `s -op-> t` satisfies
`d[s] <= path_addition(d[t], c[op])`. Consequently, when no entry of `d` lies below
`-INF`, every state with a transition of cost other than `+INF` into a state of distance
`-INF` has distance `-INF`, and so has every state from which a state of distance `-INF`
is reachable along such transitions. -/
theorem bellman_ford_consistent_fixed_point (a : ExplicitAbstraction) (fuel : Nat)
    (c d : List Int)
    (h : a.compute_goal_distances_for_negative_costs_ocf fuel c = some d) :
    (∀ g ∈ a.goal_states, vget d g ≤ 0) ∧
    (∀ t ∈ a.for_each_transition,
      vget d t.source_id ≤ path_addition (vget d t.target_id) (vget c t.op_id)) ∧
    ((∀ v, -INF ≤ vget d v) →
      (∀ t ∈ a.for_each_transition, vget c t.op_id ≠ INF → vget d t.target_id = -INF →
        vget d t.source_id = -INF) ∧
      (∀ i s, ReachableAlong a (fun t => vget c t.op_id ≠ INF) i s → vget d s = -INF →
        vget d i = -INF)) := by
  obtain ⟨hfeas, hgoal, _⟩ := bellman_ford_result h
  have hstep : (∀ v, -INF ≤ vget d v) →
      ∀ t ∈ a.for_each_transition, vget c t.op_id ≠ INF → vget d t.target_id = -INF →
        vget d t.source_id = -INF := by
    intro hlow t ht hc hd
    have h1 := hfeas t ht
    have hINF : (0 : Int) < INF := by unfold INF; decide
    unfold path_addition at h1
    rw [hd, if_neg (by rintro (h | h) <;> omega), if_pos (Or.inl rfl)] at h1
    exact le_antisymm h1 (hlow _)
  refine ⟨hgoal, hfeas, fun hlow => ⟨hstep hlow, ?_⟩⟩
  intro i s hr
  induction hr with
  | start => exact id
  | step t ht htrav _ ih => exact fun hd => ih (hstep hlow t ht htrav hd)

/-- The claim C37 on the cycle `0 → 1 → 2 → 3 → 0` of costs `1, 1, 1, -4` with the goal
`1`: Bellman-Ford returns `-INF` for every state, and state `0`, with its transition into
state `1`, has distance `-INF`. -/
theorem bellman_ford_consistent_fixed_point_witness :
    (four_cycle_abstraction [1]).compute_goal_distances_for_negative_costs_ocf 5
        [1, 1, 1, -4] = some [-INF, -INF, -INF, -INF] ∧
      vget [-INF, -INF, -INF, -INF] 0 = -INF :=
  ⟨rfl,
    ((bellman_ford_consistent_fixed_point (four_cycle_abstraction [1]) 5 [1, 1, 1, -4]
      [-INF, -INF, -INF, -INF] rfl).2.2
      (by
        intro v
        have h4 : v < 4 ∨ 4 ≤ v := Nat.lt_or_ge v 4
        rcases h4 with h4 | h4
        · interval_cases v <;> decide
        · unfold vget
          rw [List.getD_eq_default _ _ (by simpa using h4)]
          decide)).1 ⟨0, 0, 0, 1⟩ (by decide) (by decide) (by decide)⟩

/-! ## C35: the search that queries the bucketed cost function on the fly -/

section on_the_fly

variable {σ : Type} [DecidableEq σ]

/-- A loop that writes `f t` at the transition id of every transition of a list leaves the
entries of all other indices alone. -/
theorem vget_foldl_set_other (f : Transition → Int) (l : List Transition) :
    ∀ (init : List Int) (i : Nat), (∀ t ∈ l, t.transition_id ≠ i) →
      vget (l.foldl (fun sd_costs t => sd_costs.set t.transition_id (f t)) init) i
        = vget init i := by
  induction l with
  | nil => intro init i _; rfl
  | cons x rest ih =>
    intro init i h
    rw [List.foldl_cons, ih _ i (fun t ht => h t (List.mem_cons_of_mem _ ht)), vget_set,
      if_neg (fun hc => h x (List.mem_cons_self _ _) hc.1)]

/-- A loop that writes `f t` at the transition id of every transition of a list with
pairwise distinct ids inside the vector leaves `f t` at the id of `t`. -/
theorem vget_foldl_set_id (f : Transition → Int) (l : List Transition) :
    ∀ (init : List Int), (l.map fun t => t.transition_id).Nodup →
      ∀ t ∈ l, t.transition_id < init.length →
        vget (l.foldl (fun sd_costs t => sd_costs.set t.transition_id (f t)) init)
          t.transition_id = f t := by
  induction l with
  | nil => intro init _ t ht; exact absurd ht (List.not_mem_nil _)
  | cons x rest ih =>
    intro init hnd t ht hlt
    rw [List.map_cons, List.nodup_cons] at hnd
    rw [List.foldl_cons]
    rcases List.mem_cons.1 ht with h | h
    · rw [h, vget_foldl_set_other f rest _ _ ?_, vget_set, if_pos ⟨rfl, by rw [← h]; exact hlt⟩]
      intro t' ht' hc
      exact hnd.1 (List.mem_map.2 ⟨t', ht', hc⟩)
    · exact ih _ hnd.2 t h (by rw [List.length_set]; exact hlt)

/-- The length of the vector a loop of writes leaves. -/
theorem length_foldl_set_id (f : Transition → Int) (l : List Transition) :
    ∀ (init : List Int),
      (l.foldl (fun sd_costs t => sd_costs.set t.transition_id (f t)) init).length
        = init.length := by
  induction l with
  | nil => intro init; rfl
  | cons x rest ih => intro init; rw [List.foldl_cons, ih, List.length_set]

/-- The loop of `determine_remaining_costs_transition` on a nonempty map with ascending
keys returns at least the least key. -/
theorem first_intersecting_key_ge_head (fingerprint : Finset σ) (p : Int × Finset σ)
    (rest : BucketMap σ) (hk : KeysAscending (p :: rest)) :
    p.1 ≤ first_intersecting_key fingerprint (-1) (p :: rest) := by
  have h2 : first_intersecting_key fingerprint (-1) (p :: rest)
      = first_intersecting_key fingerprint p.1 (p :: rest) := by
    unfold first_intersecting_key; rfl
  rw [h2]
  apply first_intersecting_key_ge fingerprint (p :: rest) p.1 hk
  intro e he
  rcases List.mem_cons.1 he with h | h
  · rw [h]
  · unfold KeysAscending at hk
    rw [List.pairwise_cons] at hk
    exact le_of_lt (hk.1 e h)

/-- The loop of `determine_remaining_costs_transition` returns a key of the map or its
start value. -/
theorem first_intersecting_key_mem (fingerprint : Finset σ) :
    ∀ (m : BucketMap σ) (cost : Int),
      first_intersecting_key fingerprint cost m = cost ∨
        ∃ e ∈ m, first_intersecting_key fingerprint cost m = e.1 := by
  intro m
  induction m with
  | nil => intro cost; exact Or.inl rfl
  | cons p rest ih =>
    intro cost
    unfold first_intersecting_key
    split_ifs with h
    · exact Or.inr ⟨p, List.mem_cons_self _ _, rfl⟩
    · rcases ih p.1 with h1 | ⟨e, he, h1⟩
      · exact Or.inr ⟨p, List.mem_cons_self _ _, h1⟩
      · exact Or.inr ⟨e, List.mem_cons_of_mem _ he, h1⟩

/-- On a nonempty bucket map with keys between `0` and `INF` the exact transition cost lies
between `0` and `INF`. -/
theorem determine_remaining_costs_transition_bounds (c : CostFunctionStateDependent σ)
    (a : ExplicitAbstraction) (make_transition_bdd : Transition → Finset σ)
    (t : Transition) (hne : c.buckets t.op_id ≠ [])
    (hnn : ∀ e ∈ c.buckets t.op_id, 0 ≤ e.1 ∧ e.1 ≤ INF) :
    0 ≤ c.determine_remaining_costs_transition a make_transition_bdd t ∧
      c.determine_remaining_costs_transition a make_transition_bdd t ≤ INF := by
  unfold CostFunctionStateDependent.determine_remaining_costs_transition
  split_ifs with hg
  · exact ⟨le_refl _, by unfold INF; decide⟩
  · cases hm : c.buckets t.op_id with
    | nil => exact absurd hm hne
    | cons p rest =>
      have h2 : first_intersecting_key (make_transition_bdd t) (-1) (p :: rest)
          = first_intersecting_key (make_transition_bdd t) p.1 (p :: rest) := by
        unfold first_intersecting_key; rfl
      rw [h2]
      rcases first_intersecting_key_mem (make_transition_bdd t) (p :: rest) p.1 with h | ⟨e, he, h⟩
      · rw [h]; exact hnn p (by rw [hm]; exact List.mem_cons_self _ _)
      · rw [h]; exact hnn e (by rw [hm]; exact he)

/-- One arc of the search on the fly: on distances between `0` and `INF` that are `0` at
the goals, the distances and the queue change as in the search over the exact cost of the
transition, and the distances stay as described. -/
theorem dijkstra_relax_sdac_eq (a : ExplicitAbstraction)
    (sdac : CostFunctionStateDependent σ) (make_transition_bdd : Transition → Finset σ)
    (exact_costs : List Int) (state : Nat) (state_distance : Int)
    (acc : List Int × AdaptiveQueue × List Int) (s : Successor)
    (hb : ∀ v, 0 ≤ vget acc.1 v ∧ vget acc.1 v ≤ INF)
    (hg : ∀ g ∈ a.goal_states, vget acc.1 g = 0)
    (hst : vget acc.1 state = state_distance)
    (hk : KeysAscending (sdac.buckets s.op_id)) (hne : sdac.buckets s.op_id ≠ [])
    (hnn : ∀ e ∈ sdac.buckets s.op_id, 0 ≤ e.1 ∧ e.1 ≤ INF)
    (hexact : vget exact_costs s.transition_id
      = sdac.determine_remaining_costs_transition a make_transition_bdd
          ⟨s.transition_id, s.op_id, s.target_id, state⟩) :
    ((dijkstra_relax_sdac a sdac make_transition_bdd state state_distance acc s).1,
        (dijkstra_relax_sdac a sdac make_transition_bdd state state_distance acc s).2.1)
      = dijkstra_relax_tcf exact_costs state_distance (acc.1, acc.2.1) s ∧
    (∀ v, 0 ≤ vget (dijkstra_relax_sdac a sdac make_transition_bdd state state_distance
        acc s).1 v ∧
      vget (dijkstra_relax_sdac a sdac make_transition_bdd state state_distance acc s).1 v
        ≤ INF) ∧
    (∀ g ∈ a.goal_states,
      vget (dijkstra_relax_sdac a sdac make_transition_bdd state state_distance acc s).1 g
        = 0) ∧
    vget (dijkstra_relax_sdac a sdac make_transition_bdd state state_distance acc s).1 state
      = state_distance := by
  have hINF : (0 : Int) < INF := by unfold INF; decide
  have hd0 := hb state
  rw [hst] at hd0
  have hds := hb s.target_id
  have he := determine_remaining_costs_transition_bounds sdac a make_transition_bdd
    ⟨s.transition_id, s.op_id, s.target_id, state⟩ hne hnn
  -- the cost the search on the fly uses
  obtain ⟨cost, hcost, hc1, hc2⟩ : ∃ cost : Int,
      cost = (if vget acc.1 s.target_id - vget acc.1 state > 0 then
          if sdac.determine_remaining_costs_operator s.op_id
              < vget acc.1 s.target_id - vget acc.1 state then
            sdac.determine_remaining_costs_transition_required a make_transition_bdd
              ⟨s.transition_id, s.op_id, s.target_id, state⟩
              (vget acc.1 s.target_id - vget acc.1 state)
          else sdac.determine_remaining_costs_operator s.op_id
        else 0) ∧
      (cost < vget acc.1 s.target_id - state_distance →
        cost = vget exact_costs s.transition_id) ∧
      (vget acc.1 s.target_id - state_distance ≤ cost →
        vget acc.1 s.target_id - state_distance ≤ vget exact_costs s.transition_id) := by
    refine ⟨_, rfl, ?_⟩
    rw [hexact, hst]
    by_cases hreq : vget acc.1 s.target_id - state_distance > 0
    · rw [if_pos hreq]
      have hng : a.is_goal_state s.target_id = false := by
        cases hgs : a.is_goal_state s.target_id with
        | false => rfl
        | true =>
          unfold ExplicitAbstraction.is_goal_state at hgs
          have := hg s.target_id (of_decide_eq_true hgs)
          omega
      cases hm : sdac.buckets s.op_id with
      | nil => exact absurd hm hne
      | cons p rest =>
        have hop : sdac.determine_remaining_costs_operator s.op_id = p.1 := by
          unfold CostFunctionStateDependent.determine_remaining_costs_operator
          rw [hm]
        have hex : sdac.determine_remaining_costs_transition a make_transition_bdd
            ⟨s.transition_id, s.op_id, s.target_id, state⟩
            = first_intersecting_key
              (make_transition_bdd ⟨s.transition_id, s.op_id, s.target_id, state⟩) (-1)
              (p :: rest) := by
          unfold CostFunctionStateDependent.determine_remaining_costs_transition
          simp only [hng, hm]
          rfl
        have hhint : sdac.determine_remaining_costs_transition_required a make_transition_bdd
            ⟨s.transition_id, s.op_id, s.target_id, state⟩
            (vget acc.1 s.target_id - state_distance)
            = first_intersecting_key_required
              (make_transition_bdd ⟨s.transition_id, s.op_id, s.target_id, state⟩)
              (vget acc.1 s.target_id - state_distance) (-1) (p :: rest) := by
          unfold CostFunctionStateDependent.determine_remaining_costs_transition_required
          simp only [hng, hm]
          rfl
        rw [hm] at hk
        have hhead := first_intersecting_key_ge_head
          (make_transition_bdd ⟨s.transition_id, s.op_id, s.target_id, state⟩) p rest hk
        have hpair := first_intersecting_key_required_start
          (make_transition_bdd ⟨s.transition_id, s.op_id, s.target_id, state⟩)
          (vget acc.1 s.target_id - state_distance) (p :: rest) hk
        rw [hop, hex, hhint]
        by_cases hmin : p.1 < vget acc.1 s.target_id - state_distance
        · rw [if_pos hmin]
          exact ⟨hpair.1, fun h => le_trans h (hpair.2 h)⟩
        · rw [if_neg hmin]
          exact ⟨fun h => absurd h hmin, fun h => le_trans h hhead⟩
    · rw [if_neg hreq]
      exact ⟨fun h => absurd h hreq, fun _ => by omega⟩
  have hupd : ∀ x : Int, (vget acc.1 s.target_id > (if x = INF then INF else state_distance + x))
      ↔ x < vget acc.1 s.target_id - state_distance := by
    intro x
    by_cases hx : x = INF
    · rw [if_pos hx, hx]
      constructor <;> intro h <;> omega
    · rw [if_neg hx]
      constructor <;> intro h <;> omega
  have hunf : dijkstra_relax_sdac a sdac make_transition_bdd state state_distance acc s
      = if vget acc.1 s.target_id > (if cost = INF then INF else state_distance + cost) then
          (acc.1.set s.target_id (if cost = INF then INF else state_distance + cost),
            AdaptiveQueue.push acc.2.1 (if cost = INF then INF else state_distance + cost)
              s.target_id, acc.2.2.set s.transition_id cost)
        else (acc.1, acc.2.1, acc.2.2.set s.transition_id cost) := by
    rw [hcost]
    rfl
  have hunf2 : dijkstra_relax_tcf exact_costs state_distance (acc.1, acc.2.1) s
      = if vget acc.1 s.target_id > (if vget exact_costs s.transition_id = INF then INF
            else state_distance + vget exact_costs s.transition_id) then
          (acc.1.set s.target_id (if vget exact_costs s.transition_id = INF then INF
              else state_distance + vget exact_costs s.transition_id),
            AdaptiveQueue.push acc.2.1 (if vget exact_costs s.transition_id = INF then INF
              else state_distance + vget exact_costs s.transition_id) s.target_id)
        else (acc.1, acc.2.1) := rfl
  rw [hunf, hunf2]
  by_cases hlt : cost < vget acc.1 s.target_id - state_distance
  · have hce := hc1 hlt
    rw [← hce, if_pos ((hupd cost).2 hlt), if_pos ((hupd cost).2 hlt)]
    have hcfin : cost ≠ INF := by omega
    have hc0 : 0 ≤ cost := by rw [hce, hexact]; exact he.1
    refine ⟨rfl, ?_, ?_, ?_⟩
    · intro v
      simp only [vget_set, if_neg hcfin]
      split_ifs
      · constructor <;> omega
      · exact hb v
    · intro g hgm
      simp only [vget_set]
      rw [if_neg]
      · exact hg g hgm
      · rintro ⟨h1, _⟩
        have := hg g hgm
        rw [← h1] at this
        omega
    · simp only [vget_set]
      rw [if_neg]
      · exact hst
      · rintro ⟨h1, _⟩
        rw [← h1] at hst
        omega
  · have hge := not_lt.1 hlt
    have hge2 := hc2 hge
    rw [if_neg (fun h => hlt ((hupd cost).1 h)),
      if_neg (fun h => absurd ((hupd _).1 h) (not_lt.2 hge2))]
    exact ⟨rfl, hb, hg, hst⟩

/-- The arcs out of one state: the loop of the search on the fly changes distances and
queue as the loop of the search over exact transition costs does. -/
theorem dijkstra_relax_sdac_fold (a : ExplicitAbstraction)
    (sdac : CostFunctionStateDependent σ) (make_transition_bdd : Transition → Finset σ)
    (exact_costs : List Int) (state : Nat) (state_distance : Int) (arcs : List Successor)
    (harcs : ∀ s ∈ arcs, KeysAscending (sdac.buckets s.op_id) ∧ sdac.buckets s.op_id ≠ [] ∧
      (∀ e ∈ sdac.buckets s.op_id, 0 ≤ e.1 ∧ e.1 ≤ INF) ∧
      vget exact_costs s.transition_id
        = sdac.determine_remaining_costs_transition a make_transition_bdd
            ⟨s.transition_id, s.op_id, s.target_id, state⟩) :
    ∀ acc : List Int × AdaptiveQueue × List Int,
      (∀ v, 0 ≤ vget acc.1 v ∧ vget acc.1 v ≤ INF) →
      (∀ g ∈ a.goal_states, vget acc.1 g = 0) → vget acc.1 state = state_distance →
      ((arcs.foldl (dijkstra_relax_sdac a sdac make_transition_bdd state state_distance)
          acc).1,
        (arcs.foldl (dijkstra_relax_sdac a sdac make_transition_bdd state state_distance)
          acc).2.1)
        = arcs.foldl (dijkstra_relax_tcf exact_costs state_distance) (acc.1, acc.2.1) ∧
      (∀ v, 0 ≤ vget (arcs.foldl
          (dijkstra_relax_sdac a sdac make_transition_bdd state state_distance) acc).1 v ∧
        vget (arcs.foldl
          (dijkstra_relax_sdac a sdac make_transition_bdd state state_distance) acc).1 v
          ≤ INF) ∧
      (∀ g ∈ a.goal_states, vget (arcs.foldl
        (dijkstra_relax_sdac a sdac make_transition_bdd state state_distance) acc).1 g = 0) := by
  induction arcs with
  | nil => intro acc hb hg _; exact ⟨rfl, hb, hg⟩
  | cons s rest ih =>
    intro acc hb hg hst
    obtain ⟨h1, h2, h3, h4⟩ := harcs s (List.mem_cons_self _ _)
    obtain ⟨e1, e2, e3, e4⟩ := dijkstra_relax_sdac_eq a sdac make_transition_bdd exact_costs
      state state_distance acc s hb hg hst h1 h2 h3 h4
    obtain ⟨i1, i2, i3⟩ := ih (fun s' hs' => harcs s' (List.mem_cons_of_mem _ hs'))
      (dijkstra_relax_sdac a sdac make_transition_bdd state state_distance acc s) e2 e3 e4
    rw [List.foldl_cons, List.foldl_cons, ← e1]
    exact ⟨i1, i2, i3⟩

/-- The `while` loops side by side: from distances between `0` and `INF` that are `0` at
the goals, the search on the fly returns the distances that the search over the exact
transition costs returns, for every fuel. -/
theorem dijkstra_search_sdac_eq (a : ExplicitAbstraction) (graph : List (List Successor))
    (sdac : CostFunctionStateDependent σ) (make_transition_bdd : Transition → Finset σ)
    (exact_costs : List Int)
    (harcs : ∀ state, ∀ s ∈ graph.getD state [],
      KeysAscending (sdac.buckets s.op_id) ∧ sdac.buckets s.op_id ≠ [] ∧
      (∀ e ∈ sdac.buckets s.op_id, 0 ≤ e.1 ∧ e.1 ≤ INF) ∧
      vget exact_costs s.transition_id
        = sdac.determine_remaining_costs_transition a make_transition_bdd
            ⟨s.transition_id, s.op_id, s.target_id, state⟩) :
    ∀ (fuel : Nat) (queue : AdaptiveQueue) (distances sd_costs : List Int),
      (∀ v, 0 ≤ vget distances v ∧ vget distances v ≤ INF) →
      (∀ g ∈ a.goal_states, vget distances g = 0) →
      (dijkstra_search_sdac a graph sdac make_transition_bdd fuel queue distances
          sd_costs).map Prod.fst
        = dijkstra_search_tcf graph exact_costs fuel queue distances := by
  intro fuel
  induction fuel with
  | zero => intro queue distances sd_costs _ _; rfl
  | succ fuel ih =>
    intro queue distances sd_costs hb hg
    unfold dijkstra_search_sdac dijkstra_search_tcf
    cases hpop : AdaptiveQueue.pop queue with
    | none => rfl
    | some p =>
      obtain ⟨⟨distance, state⟩, queue'⟩ := p
      simp only
      by_cases hlt : distance > vget distances state
      · rw [if_pos hlt, if_pos hlt]
        exact ih _ _ _ hb hg
      · rw [if_neg hlt, if_neg hlt]
        obtain ⟨e1, e2, e3⟩ := dijkstra_relax_sdac_fold a sdac make_transition_bdd exact_costs
          state (vget distances state) (graph.getD state []) (harcs state)
          (distances, queue', sd_costs) hb hg rfl
        have h := ih
          ((graph.getD state []).foldl
            (dijkstra_relax_sdac a sdac make_transition_bdd state (vget distances state))
            (distances, queue', sd_costs)).2.1
          ((graph.getD state []).foldl
            (dijkstra_relax_sdac a sdac make_transition_bdd state (vget distances state))
            (distances, queue', sd_costs)).1
          ((graph.getD state []).foldl
            (dijkstra_relax_sdac a sdac make_transition_bdd state (vget distances state))
            (distances, queue', sd_costs)).2.2 e2 e3
        rw [h]
        have e1' := e1
        simp only at e1'
        rw [← e1']

end on_the_fly

section on_the_fly_claim

variable {σ : Type} [DecidableEq σ] [Fintype σ] [Inhabited σ]

omit [DecidableEq σ] [Fintype σ] [Inhabited σ] in
/-- Every entry of the vector a loop of writes leaves is an entry of the start vector or a
written value. -/
theorem mem_foldl_set_id (f : Transition → Int) (l : List Transition) :
    ∀ (init : List Int) (c : Int),
      c ∈ l.foldl (fun sd_costs t => sd_costs.set t.transition_id (f t)) init →
        c ∈ init ∨ ∃ t ∈ l, c = f t := by
  induction l with
  | nil => intro init c h; exact Or.inl h
  | cons x rest ih =>
    intro init c h
    rw [List.foldl_cons] at h
    rcases ih _ c h with h1 | ⟨t, ht, h1⟩
    · rcases List.mem_or_eq_of_mem_set h1 with h2 | h2
      · exact Or.inl h2
      · exact Or.inr ⟨x, List.mem_cons_self _ _, h2⟩
    · exact Or.inr ⟨t, List.mem_cons_of_mem _ ht, h1⟩

/-- C35: on a well formed abstraction whose transition ids are pairwise distinct and index
`sd_costs`, and a bucketed cost function in the form the class keeps it in (ascending
keys, buckets that partition the concrete states) with keys between `0` and `INF`:
`compute_goal_distances_tcf(sdac, tcf)`, which asks for the least key of the operator first
and for the cost of the transition with a hint otherwise, returns for every fuel the
distance vector of `compute_goal_distances_tcf(tcf)` on the transition cost function that
`determine_remaining_abstract_transition_cost_function` fills with
`determine_remaining_costs_transition` of every transition; and for enough fuel both
return (for the second the entries of `sd_costs` that belong to no transition are taken
to be nonnegative). -/
theorem on_the_fly_dijkstra_equals_exact (a : ExplicitAbstraction) (ha : a.WellFormed)
    (sdac : CostFunctionStateDependent σ) (hsdac : sdac.WellFormed)
    (hops : a.num_operators ≤ sdac.num_operators)
    (hnn : ∀ op, op < sdac.num_operators → ∀ e ∈ sdac.buckets op, 0 ≤ e.1 ∧ e.1 ≤ INF)
    (make_transition_bdd : Transition → Finset σ) (tcf : AbstractTransitionCostFunction)
    (hids : TransitionIdsValid a.for_each_transition tcf) :
    (∀ fuel, (a.compute_goal_distances_sdac fuel sdac make_transition_bdd tcf).map Prod.fst
      = a.compute_goal_distances_tcf fuel
          (sdac.determine_remaining_abstract_transition_cost_function a make_transition_bdd
            tcf)) ∧
    (NonnegativeCosts tcf.sd_costs →
      ∀ fuel, a.goal_states.length + a.num_states * INF.toNat < fuel →
        ∃ d, a.compute_goal_distances_tcf fuel
            (sdac.determine_remaining_abstract_transition_cost_function a make_transition_bdd
              tcf) = some d ∧
          (a.compute_goal_distances_sdac fuel sdac make_transition_bdd tcf).map Prod.fst
            = some d) := by
  have hop : ∀ op, op < a.num_operators →
      KeysAscending (sdac.buckets op) ∧ sdac.buckets op ≠ [] ∧
        ∀ e ∈ sdac.buckets op, 0 ≤ e.1 ∧ e.1 ≤ INF := by
    intro op hlt
    have hlt' : op < sdac.num_operators := lt_of_lt_of_le hlt hops
    obtain ⟨h1, h2⟩ := hsdac.2.2 op hlt'
    refine ⟨h1, ?_, hnn op hlt'⟩
    intro hnil
    obtain ⟨e, he, _⟩ := h2.2.2 default
    rw [hnil] at he
    exact absurd he (List.not_mem_nil _)
  have hfilled : (sdac.determine_remaining_abstract_transition_cost_function a
      make_transition_bdd tcf).sd_costs
      = a.for_each_transition.foldl
          (fun sd_costs t => sd_costs.set t.transition_id
            (sdac.determine_remaining_costs_transition a make_transition_bdd t))
          tcf.sd_costs := rfl
  have harcs : ∀ state, ∀ s ∈ a.backward_graph.getD state [],
      KeysAscending (sdac.buckets s.op_id) ∧ sdac.buckets s.op_id ≠ [] ∧
      (∀ e ∈ sdac.buckets s.op_id, 0 ≤ e.1 ∧ e.1 ≤ INF) ∧
      vget (sdac.determine_remaining_abstract_transition_cost_function a
          make_transition_bdd tcf).sd_costs s.transition_id
        = sdac.determine_remaining_costs_transition a make_transition_bdd
            ⟨s.transition_id, s.op_id, s.target_id, state⟩ := by
    intro state s hs
    obtain ⟨h1, h2, h3⟩ := hop s.op_id (ha.2.1 state s hs).2
    refine ⟨h1, h2, h3, ?_⟩
    have hstate : state < a.num_states := by
      by_contra hc
      rw [getD_of_length_le (by rw [ha.1]; omega)] at hs
      exact absurd hs (List.not_mem_nil _)
    have hmem : (⟨s.transition_id, s.op_id, s.target_id, state⟩ : Transition)
        ∈ a.for_each_transition := mem_for_each_transition.2 ⟨hstate, s, hs, rfl⟩
    rw [hfilled]
    exact vget_foldl_set_id _ _ _ hids.1 _ hmem (hids.2 _ hmem)
  obtain ⟨hinv, hgoal, _⟩ := init_goal_distances_invariant (a := a) []
  have heq : ∀ fuel,
      (a.compute_goal_distances_sdac fuel sdac make_transition_bdd tcf).map Prod.fst
        = a.compute_goal_distances_tcf fuel
            (sdac.determine_remaining_abstract_transition_cost_function a make_transition_bdd
              tcf) := by
    intro fuel
    unfold ExplicitAbstraction.compute_goal_distances_sdac
      ExplicitAbstraction.compute_goal_distances_tcf
    simp only [Option.map_map]
    exact dijkstra_search_sdac_eq a a.backward_graph sdac make_transition_bdd _ harcs fuel _ _ _
      hinv.bounds hgoal
  refine ⟨heq, ?_⟩
  intro hcost fuel hfuel
  have hcost' : NonnegativeCosts (sdac.determine_remaining_abstract_transition_cost_function a
      make_transition_bdd tcf).sd_costs := by
    intro c hc
    rw [hfilled] at hc
    rcases mem_foldl_set_id _ _ _ _ hc with h | ⟨t, ht, h⟩
    · exact hcost c h
    · rw [h]
      obtain ⟨_, h2, h3⟩ := hop t.op_id (transition_bounds ha ht).2.2
      exact determine_remaining_costs_transition_bounds sdac a make_transition_bdd t h2 h3
  have hwf : ExplicitAbstraction.WellFormed
      { a with
        num_operators := tcf.sd_costs.length
        backward_graph := by_transition_id a.backward_graph
        has_loop := List.replicate tcf.sd_costs.length false } := by
    refine ⟨?_, ?_, ha.2.2.1, ha.2.2.2.1, ?_⟩
    · show (by_transition_id a.backward_graph).length = a.num_states
      unfold by_transition_id
      rw [List.length_map]
      exact ha.1
    · intro v s hs
      have hs' : s ∈ (by_transition_id a.backward_graph).getD v [] := hs
      rw [getD_by_transition_id] at hs'
      obtain ⟨y, hy, rfl⟩ := List.mem_map.1 hs'
      have hv : v < a.num_states := by
        by_contra hc
        rw [getD_of_length_le (by rw [ha.1]; omega)] at hy
        exact absurd hy (List.not_mem_nil _)
      have hmem : (⟨y.transition_id, y.op_id, y.target_id, v⟩ : Transition)
          ∈ a.for_each_transition := mem_for_each_transition.2 ⟨hv, y, hy, rfl⟩
      exact ⟨(ha.2.1 v y hy).1, hids.2 _ hmem⟩
    · show (List.replicate tcf.sd_costs.length false).length = tcf.sd_costs.length
      rw [List.length_replicate]
  obtain ⟨d, hd⟩ := (dijkstra_goal_distances hwf hcost').2 fuel hfuel
  have hd' : a.compute_goal_distances_tcf fuel
      (sdac.determine_remaining_abstract_transition_cost_function a make_transition_bdd tcf)
      = some d := by
    unfold ExplicitAbstraction.compute_goal_distances_tcf
    rw [dijkstra_search_tcf_eq]
    exact hd
  exact ⟨d, hd', by rw [heq, hd']⟩

/-- The claim C35 on the abstraction with the transitions `0 → 1` and `2 → 1` of one
operator and the fresh cost function of cost `5` over three concrete states. -/
theorem on_the_fly_dijkstra_equals_exact_witness :
    (two_sources_abstraction.compute_goal_distances_sdac 10 (three_state_cost_function [5])
        (fun t => {⟨t.source_id % 3, Nat.mod_lt _ (by decide)⟩}) ⟨[0, 0], [false], [0]⟩).map
        Prod.fst
      = two_sources_abstraction.compute_goal_distances_tcf 10
          ((three_state_cost_function [5]).determine_remaining_abstract_transition_cost_function
            two_sources_abstraction
            (fun t => {⟨t.source_id % 3, Nat.mod_lt _ (by decide)⟩}) ⟨[0, 0], [false], [0]⟩) :=
  (on_the_fly_dijkstra_equals_exact two_sources_abstraction (wellFormed_of_bounded (by decide))
    (three_state_cost_function [5]) (wellFormed_create [5] 2) (by decide) (by decide)
    (fun t => {⟨t.source_id % 3, Nat.mod_lt _ (by decide)⟩}) ⟨[0, 0], [false], [0]⟩
    (by decide)).1 10

end on_the_fly_claim

/-! ## C34: which reductions of a saturated cost change the heuristic -/

section minimality

variable {a : ExplicitAbstraction}

/-- Whatever `compute_goal_distances_ocf` returns for costs of at most `INF` admits no
relaxation. -/
theorem compute_goal_distances_ocf_feasible (ha : a.WellFormed) {costs : List Int}
    (hup : ∀ c ∈ costs, c ≤ INF) {fuel : Nat} {r : List Int}
    (h : a.compute_goal_distances_ocf fuel costs = some r) : Feasible a costs r := by
  unfold ExplicitAbstraction.compute_goal_distances_ocf at h
  by_cases hall : costs.all (fun c => decide (c ≥ 0)) = true
  · rw [if_pos hall] at h
    have hcost : NonnegativeCosts costs := by
      intro c hcm
      rw [List.all_eq_true] at hall
      exact ⟨of_decide_eq_true (hall c hcm), hup c hcm⟩
    exact ((dijkstra_goal_distances ha hcost).1 fuel r h).feasible
  · rw [if_neg hall] at h
    exact (bellman_ford_result h).1

/-- A transition whose cost lies below the drop of `h` along it: a vector without
relaxable transition is below `h` at its source or above `h` at its target. -/
theorem feasible_below_tight_transition {costs d h : List Int} {t : Transition}
    (ht : t ∈ a.for_each_transition) (hfeas : Feasible a costs d)
    (hs : -INF < vget h t.source_id) (htg : vget h t.target_id < INF)
    (hc : vget costs t.op_id < vget h t.source_id - vget h t.target_id)
    (hcINF : vget costs t.op_id ≠ INF) :
    vget d t.source_id < vget h t.source_id ∨ vget h t.target_id < vget d t.target_id := by
  by_contra hcon
  rw [not_or, not_lt, not_lt] at hcon
  have h1 := hfeas t ht
  unfold path_addition at h1
  have hne : ¬ (vget d t.target_id = INF ∨ vget costs t.op_id = INF) := by
    rintro (h | h)
    · omega
    · exact hcINF h
  rw [if_neg hne] at h1
  split_ifs at h1 <;> omega

/-- The range of `int` values between the two infinities is kept by the capping and the
pruning of heuristic values. -/
theorem cap_prune_range {h : List Int} (hr : ∀ v, -INF ≤ vget h v ∧ vget h v ≤ INF)
    (m : Int) (hm : -INF ≤ m) :
    (∀ v, -INF ≤ vget (cap_h_values m h) v ∧ vget (cap_h_values m h) v ≤ INF) ∧
    ∀ (n : Nat) (R : List Bool) v, -INF ≤ vget (prune_unreachable n R h) v ∧
      vget (prune_unreachable n R h) v ≤ INF := by
  have hINF : (0 : Int) < INF := by unfold INF; decide
  constructor
  · intro v
    rw [vget_cap_h_values]
    have := hr v
    split_ifs
    · exact ⟨le_min this.1 hm, le_trans (min_le_left _ _) this.2⟩
    · exact this
    · constructor <;> omega
  · intro n R v
    rw [(prune_unreachable_spec n R h).2]
    have := hr v
    split_ifs
    · constructor <;> omega
    · exact this

/-- C34 (amended). The saturated costs of the cap saturator are minimal for the heuristic
vector as a whole, not for the value of the query state. Let `saturate_ocf` return the
costs `socf` on a heuristic vector `h_in` with entries between `-INF` and `INF`, and let
`h` be the vector it saturates for: `h_in` after the capping at `h_in[state_id]` and the
pruning of the unreachable states to `-INF`, which is `h_in` itself with `cap` off and
`reachable = ALL` and is the returned vector with `recompute_h_values` off. For every
operator `op` whose `socf[op]` is strictly between `-INF` and `INF` and is not the floor
`0` (either `socf[op] ≠ 0`, or `use_general_costs` is on and `op` induces no self-loop)
there is a transition `s -op-> t` between states of finite `h` with
`socf[op] = h[s] - h[t]`, and for every cost function `c'` with `c'[op] < socf[op]` every
distance vector without a relaxable transition under `c'`, whatever
`compute_goal_distances_ocf(c')` returns included, is below `h` at `s` or above `h` at
`t`: no such reduction preserves `h`. -/
theorem cap_saturator_minimality (s : SaturatorCap) (ha : a.WellFormed) (fuel : Nat)
    (operator_costs ocf h_in : List Int) (state_id : Nat) (r : SaturatorResultOcf)
    (hrange : ∀ v, -INF ≤ vget h_in v ∧ vget h_in v ≤ INF)
    (hrun : s.saturate_ocf a fuel operator_costs ocf h_in state_id = some r) :
    ∃ h : List Int,
      (s.recompute_h_values = false → r.h_values = h) ∧
      (s.cap = false → s.reachable = Reachable.ALL → h = h_in) ∧
      ∀ op, op < a.num_operators → -INF < vget r.socf op → vget r.socf op < INF →
        (vget r.socf op ≠ 0 ∨ (s.use_general_costs = true ∧ bget a.has_loop op = false)) →
        ∃ t ∈ a.for_each_transition, t.op_id = op ∧ t.IsFiniteFor h ∧
          vget r.socf op = vget h t.source_id - vget h t.target_id ∧
          ∀ c' : List Int, vget c' op < vget r.socf op →
            (∀ d', Feasible a c' d' →
              vget d' t.source_id < vget h t.source_id ∨
                vget h t.target_id < vget d' t.target_id) ∧
            (∀ fuel' d', (∀ c ∈ c', c ≤ INF) →
              a.compute_goal_distances_ocf fuel' c' = some d' →
              vget d' t.source_id < vget h t.source_id ∨
                vget h t.target_id < vget d' t.target_id) := by
  have hINF : (0 : Int) < INF := by unfold INF; decide
  obtain ⟨h1, h2, socf1, e1, e2, e3, e4⟩ := saturate_ocf_some hrun
  obtain ⟨r1, r2, _⟩ := get_saturator_result_ocf_some e4
  have hr1 : ∀ v, -INF ≤ vget h1 v ∧ vget h1 v ≤ INF := by
    rw [e1]
    split_ifs
    · exact (cap_prune_range hrange _ (hrange state_id).1).1
    · exact hrange
  have hr2 : ∀ v, -INF ≤ vget h2 v ∧ vget h2 v ≤ INF := by
    rcases e2 with ⟨_, e⟩ | ⟨R, _, e⟩
    · rw [e]; exact hr1
    · rw [e]; exact (cap_prune_range hr1 0 (by omega)).2 _ R
  refine ⟨h2, r2, ?_, ?_⟩
  · intro hcap hall
    rcases e2 with ⟨_, e⟩ | ⟨R, hR, _⟩
    · rw [e, e1, if_neg (by rw [hcap]; decide)]
    · rcases hR with ⟨hR, _⟩ | ⟨hR, _⟩ <;> rw [hall] at hR <;> exact absurd hR (by decide)
  intro op hop hlo hhi hfloor
  obtain ⟨s1, _, _, s4⟩ := compute_saturated_costs_ocf_spec a ha h2
  -- the returned entry is the entry before `INF` is copied from `ocf`
  have hsocf : vget r.socf op = vget socf1 op := by
    rw [r1, (copy_inf_spec ocf socf1).2]
    split_ifs with hc
    · rw [r1, (copy_inf_spec ocf socf1).2, if_pos hc] at hhi
      exact absurd hhi (lt_irrefl _)
    · rfl
  have hraw : vget r.socf op = vget (a.compute_saturated_costs_ocf h2) op ∧
      ¬ (bget a.has_loop op = true ∧ vget (a.compute_saturated_costs_ocf h2) op = 0) := by
    rcases e3 with ⟨hg, e⟩ | ⟨hg, e⟩
    · rw [hsocf, e]
      refine ⟨rfl, ?_⟩
      rintro ⟨hl, h0⟩
      rcases hfloor with hf | ⟨_, hf⟩
      · rw [hsocf, e] at hf; exact hf h0
      · rw [hl] at hf; exact absurd hf (by decide)
    · have hcl := ((clamp_saturated_costs_spec ocf _).2 socf1 e).2.2 op
      rw [if_pos (by rw [s1]; exact hop)] at hcl
      have hne : vget r.socf op ≠ 0 := by
        rcases hfloor with hf | ⟨hf, _⟩
        · exact hf
        · rw [hg] at hf; exact absurd hf (by decide)
      rw [hsocf, hcl] at hne ⊢
      have hpos : 0 < vget (a.compute_saturated_costs_ocf h2) op := by
        by_contra hc
        exact hne (max_eq_left (not_lt.1 hc))
      exact ⟨max_eq_right (le_of_lt hpos), fun hc => by omega⟩
  rcases s4 op hop with ⟨_, hneg⟩ | hloop | ⟨t, ht, hto, hft, hfs, hval⟩
  · rw [hraw.1, hneg] at hlo
    exact absurd hlo (lt_irrefl _)
  · exact absurd hloop hraw.2
  · refine ⟨t, ht, hto, ⟨hft, hfs⟩, by rw [hraw.1, hval], ?_⟩
    intro c' hc'
    have hcore : ∀ d', Feasible a c' d' →
        vget d' t.source_id < vget h2 t.source_id ∨
          vget h2 t.target_id < vget d' t.target_id := by
      intro d' hfeas
      have hs := hr2 t.source_id
      have htg := hr2 t.target_id
      apply feasible_below_tight_transition ht hfeas
      · exact lt_of_le_of_ne hs.1 (Ne.symm hfs.2)
      · exact lt_of_le_of_ne htg.2 hft.1
      · rw [hto, ← hval, ← hraw.1]; exact hc'
      · rw [hto]; omega
    exact ⟨hcore, fun fuel' d' hup hd =>
      hcore d' (compute_goal_distances_ocf_feasible ha hup hd)⟩

/-- The claim C34 (amended) on the abstraction with the transitions `0 → 1` of operator
`0` and `2 → 1` of operator `1`, the costs `[1, 5]` and their goal distances `[1, 0, 5]`:
the saturator returns `[1, 5]`, and under the costs `[1, 4]` no vector without relaxable
transition keeps the value of a transition of operator `1`. -/
theorem cap_saturator_minimality_witness :
    ∃ t ∈ two_operator_abstraction.for_each_transition, t.op_id = 1 ∧
      ∀ d', Feasible two_operator_abstraction [1, 4] d' →
        vget d' t.source_id < vget [1, 0, 5] t.source_id ∨
          vget [1, 0, 5] t.target_id < vget d' t.target_id := by
  obtain ⟨h, hh, _, hall⟩ := cap_saturator_minimality
    ⟨false, false, Reachable.ALL, false, false, false⟩
    (wellFormed_of_bounded (a := two_operator_abstraction) (by decide)) 10 [1, 5] [1, 5]
    [1, 0, 5] 0 ⟨[1, 5], [1, 0, 5], false⟩
    (by
      intro v
      have h3 : v < 3 ∨ 3 ≤ v := Nat.lt_or_ge v 3
      rcases h3 with h3 | h3
      · interval_cases v <;> decide
      · unfold vget
        rw [List.getD_eq_default _ _ (by simpa using h3)]
        decide)
    (by decide)
  have e : h = [1, 0, 5] := (hh rfl).symm
  subst e
  obtain ⟨t, ht, hop, _, _, hc⟩ := hall 1 (by decide) (by decide) (by decide)
    (Or.inl (by decide))
  exact ⟨t, ht, hop, (hc [1, 4] (by decide)).1⟩

/-- The claim C34 as it stands fails. On `two_operator_abstraction` with the costs `[1, 5]`,
their goal distances `h_in = [1, 0, 5]` and the query state `0`, the saturator returns
`socf = [1, 5]`; under `c' = [1, 4]`, which lowers the finite entry of operator `1`, the
goal distance of state `0` is still `1 = h_in[0]`. On `three_routes_abstraction` with the
costs `[1, 10, 5, 1]`, `h_in = [1, 0, 5, 10]`, the query state `0` and the saturator with
`cap`, `reachable = FROM_STATE` and `use_general_costs`, where every state is reachable
from the query state, it returns `socf = [1, 1, 1, 0]`; under `c' = [1, 1, 0, 0]`, which
lowers the entry of operator `2`, the goal distance of state `0` is still `1`. -/
theorem cap_saturator_minimality_counterexample :
    (two_operator_abstraction.compute_goal_distances_ocf 10 [1, 5] = some [1, 0, 5] ∧
      (SaturatorCap.saturate_ocf ⟨false, false, Reachable.ALL, false, false, false⟩
        two_operator_abstraction 10 [1, 5] [1, 5] [1, 0, 5] 0).map
          (fun r => r.socf) = some [1, 5] ∧
      two_operator_abstraction.compute_goal_distances_ocf 10 [1, 4] = some [1, 0, 4]) ∧
    (three_routes_abstraction.compute_goal_distances_ocf 20 [1, 10, 5, 1]
        = some [1, 0, 5, 10] ∧
      (SaturatorCap.saturate_ocf ⟨true, false, Reachable.FROM_STATE, true, false, false⟩
        three_routes_abstraction 20 [1, 10, 5, 1] [1, 10, 5, 1] [1, 0, 5, 10] 0).map
          (fun r => r.socf) = some [1, 1, 1, 0] ∧
      three_routes_abstraction.compute_goal_distances_ocf 20 [1, 1, 0, 0]
        = some [1, 0, 0, 1]) := by
  decide

end minimality

/-! ## Mixed radix hashing -/

section radix

theorem partial_hash_zero (m : List Nat) (v : Nat → Nat) : partial_hash m v 0 = 0 := rfl

theorem partial_hash_succ (m : List Nat) (v : Nat → Nat) (i : Nat) :
    partial_hash m v (i + 1) = partial_hash m v i + m.getD i 0 * v i := by
  unfold partial_hash
  rw [List.range_succ, List.foldl_append]
  rfl

/-- The partial hash reads only the values of the positions it sums over. -/
theorem partial_hash_congr (m : List Nat) {v w : Nat → Nat} :
    ∀ i, (∀ j, j < i → v j = w j) → partial_hash m v i = partial_hash m w i := by
  intro i
  induction i with
  | zero => intro _; rfl
  | succ i ih =>
    intro h
    rw [partial_hash_succ, partial_hash_succ, ih (fun j hj => h j (by omega)), h i (by omega)]

theorem take_succ_prod (sizes : List Nat) {i : Nat} (hi : i < sizes.length) :
    (sizes.take (i + 1)).prod = (sizes.take i).prod * sizes.getD i 0 := by
  rw [List.take_succ, List.prod_append, List.getD_eq_getElem _ _ hi,
    List.getElem?_eq_getElem hi]
  simp

/-- The hash of the first `i` positions is below the multiplier of position `i`. -/
theorem partial_hash_lt {m sizes : List Nat} (hm : HashMultipliers m sizes) {v : Nat → Nat} :
    ∀ i, i ≤ sizes.length → (∀ j, j < i → v j < sizes.getD j 0) →
      partial_hash m v i < (sizes.take i).prod := by
  intro i
  induction i with
  | zero => intro _ _; simp [partial_hash_zero]
  | succ i ih =>
    intro hi hv
    have h1 := ih (by omega) (fun j hj => hv j (by omega))
    have h2 := hv i (by omega)
    rw [partial_hash_succ, take_succ_prod sizes (by omega), hm.2 i (by omega)]
    calc partial_hash m v i + (sizes.take i).prod * v i
        < (sizes.take i).prod + (sizes.take i).prod * v i := by omega
      _ = (sizes.take i).prod * (v i + 1) := by ring
      _ ≤ (sizes.take i).prod * sizes.getD i 0 := Nat.mul_le_mul_left _ h2

/-- The hash of the positions up to `n` is the hash of the first `i` positions plus a
multiple of the multiplier of position `i` that holds the value of position `i` as its
last digit. -/
theorem partial_hash_split {m sizes : List Nat} (hm : HashMultipliers m sizes) (v : Nat → Nat)
    {i : Nat} (hi : i < sizes.length) :
    ∀ n, i < n → n ≤ sizes.length →
      ∃ Q, partial_hash m v n
        = partial_hash m v i + (sizes.take i).prod * (v i + sizes.getD i 0 * Q) ∧
        (sizes.take n).prod = (sizes.take i).prod * sizes.getD i 0 * ((sizes.take n).drop (i + 1)).prod := by
  intro n
  induction n with
  | zero => intro h; omega
  | succ n ih =>
    intro hin hn
    by_cases he : i = n
    · subst he
      refine ⟨0, ?_, ?_⟩
      · rw [partial_hash_succ, hm.2 i hi]; simp
      · rw [take_succ_prod sizes hi]
        have : ((sizes.take (i + 1)).drop (i + 1)) = [] := by
          apply List.drop_eq_nil_of_le
          rw [List.length_take]; omega
        rw [this]; simp
    · obtain ⟨Q, hQ, hP⟩ := ih (by omega) (by omega)
      have hn' : n < sizes.length := by omega
      refine ⟨Q + ((sizes.take n).drop (i + 1)).prod * v n, ?_, ?_⟩
      · rw [partial_hash_succ, hQ, hm.2 n hn', hP]
        ring
      · rw [take_succ_prod sizes hn', hP]
        have : (sizes.take (n + 1)).drop (i + 1)
            = (sizes.take n).drop (i + 1) ++ [sizes.getD n 0] := by
          rw [List.take_succ, List.getD_eq_getElem _ _ hn', List.getElem?_eq_getElem hn']
          simp only [Option.toList_some]
          rw [List.drop_append_of_le_length (by rw [List.length_take]; omega)]
        rw [this, List.prod_append]
        simp
        ring

/-- The hash of a valid assignment is below the number of states. -/
theorem partial_hash_lt_prod {m sizes : List Nat} (hm : HashMultipliers m sizes)
    {v : Nat → Nat} (hv : ∀ j, j < sizes.length → v j < sizes.getD j 0) :
    partial_hash m v sizes.length < sizes.prod := by
  have := partial_hash_lt hm sizes.length (le_refl _) hv
  rwa [List.take_length] at this

/-- The digit of position `i` of the hash of a valid assignment is the value of
position `i`. -/
theorem partial_hash_digit {m sizes : List Nat} (hm : HashMultipliers m sizes)
    {v : Nat → Nat} (hv : ∀ j, j < sizes.length → v j < sizes.getD j 0) {i : Nat}
    (hi : i < sizes.length) :
    (partial_hash m v sizes.length / m.getD i 0) % sizes.getD i 0 = v i := by
  obtain ⟨Q, hQ, _⟩ := partial_hash_split hm v hi sizes.length hi (le_refl _)
  have hlt := partial_hash_lt hm i (le_of_lt hi) (fun j hj => hv j (by omega))
  have hpos : 0 < (sizes.take i).prod := by omega
  rw [hQ, hm.2 i hi, Nat.add_mul_div_left _ _ hpos, Nat.div_eq_of_lt hlt, Nat.zero_add,
    Nat.add_mul_mod_self_left]
  exact Nat.mod_eq_of_lt (hv i hi)

/-- Two valid assignments with the same hash agree at every position. -/
theorem partial_hash_injective {m sizes : List Nat} (hm : HashMultipliers m sizes)
    {v w : Nat → Nat} (hv : ∀ j, j < sizes.length → v j < sizes.getD j 0)
    (hw : ∀ j, j < sizes.length → w j < sizes.getD j 0)
    (h : partial_hash m v sizes.length = partial_hash m w sizes.length) :
    ∀ i, i < sizes.length → v i = w i := by
  intro i hi
  rw [← partial_hash_digit hm hv hi, ← partial_hash_digit hm hw hi, h]

/-- The hash of the digits of a number is the number modulo the multiplier. -/
theorem partial_hash_digits {m sizes : List Nat} (hm : HashMultipliers m sizes) (id : Nat) :
    ∀ i, i ≤ sizes.length →
      partial_hash m (fun j => (id / m.getD j 0) % sizes.getD j 0) i
        = id % (sizes.take i).prod := by
  intro i
  induction i with
  | zero => intro _; simp [partial_hash_zero, Nat.mod_one]
  | succ i ih =>
    intro hi
    rw [partial_hash_succ, ih (by omega), take_succ_prod sizes (by omega), hm.2 i (by omega),
      Nat.mod_mul]

/-- The multipliers of `convert_abstraction`: the loop from the multiplier `num_states`
on. -/
theorem compute_hash_multipliers_loop (domain_sizes : List Nat) (pattern : List Nat) :
    ∀ (acc : List Nat) (n : Nat) (r : List Nat × Nat),
      pattern.foldlM
        (fun (acc : List Nat × Nat) pattern_var_id =>
          if is_product_within_limit acc.2 (domain_sizes.getD pattern_var_id 0) INT_MAX then
            some (acc.1 ++ [acc.2], acc.2 * domain_sizes.getD pattern_var_id 0)
          else none)
        (acc, n) = some r →
      r.1.length = acc.length + pattern.length ∧
      (∀ i, i < acc.length → r.1.getD i 0 = acc.getD i 0) ∧
      (∀ i, i < pattern.length →
        r.1.getD (acc.length + i) 0
          = n * ((pattern.map fun var => domain_sizes.getD var 0).take i).prod) ∧
      r.2 = n * (pattern.map fun var => domain_sizes.getD var 0).prod ∧
      ((n : Int) ≤ INT_MAX → (r.2 : Int) ≤ INT_MAX) := by
  induction pattern with
  | nil =>
    intro acc n r h
    simp only [List.foldlM_nil, Option.pure_def, Option.some.injEq] at h
    subst h
    simp
  | cons x rest ih =>
    intro acc n r h
    rw [List.foldlM_cons] at h
    by_cases hl : is_product_within_limit n (domain_sizes.getD x 0) INT_MAX = true
    · simp only [hl, if_true, Option.bind_eq_bind, Option.some_bind] at h
      obtain ⟨h1, h2, h3, h4, h5⟩ := ih _ _ r h
      unfold is_product_within_limit at hl
      have hl' := of_decide_eq_true hl
      refine ⟨?_, ?_, ?_, ?_, ?_⟩
      · rw [h1]; simp; omega
      · intro i hi
        rw [h2 i (by simp; omega), List.getD_append _ _ _ _ hi]
      · intro i hi
        cases i with
        | zero =>
          rw [Nat.add_zero, h2 acc.length (by simp), List.getD_append_right _ _ _ _ (le_refl _)]
          simp
        | succ i =>
          have := h3 i (by simpa using hi)
          rw [List.length_append, List.length_singleton] at this
          rw [show acc.length + (i + 1) = acc.length + 1 + i by omega, this]
          simp [List.take_succ_cons, List.prod_cons, Nat.mul_assoc]
      · rw [h4]; simp [List.prod_cons, Nat.mul_assoc]
      · intro _
        apply h5
        push_cast
        exact hl'
    · simp only [hl, Bool.false_eq_true, if_false, Option.bind_eq_bind, Option.none_bind] at h
      exact absurd h (by simp)

/-- What the first loop of `convert_abstraction` returns: the hash multipliers of the
domain sizes of the pattern variables and their product, which fits an `int`. -/
theorem compute_hash_multipliers_spec {domain_sizes pattern : List Nat} {r : List Nat × Nat}
    (h : compute_hash_multipliers domain_sizes pattern = some r) :
    HashMultipliers r.1 (pattern.map fun var => domain_sizes.getD var 0) ∧
      r.2 = (pattern.map fun var => domain_sizes.getD var 0).prod ∧ (r.2 : Int) ≤ INT_MAX := by
  unfold compute_hash_multipliers at h
  obtain ⟨h1, _, h3, h4, h5⟩ := compute_hash_multipliers_loop domain_sizes pattern [] 1 r h
  refine ⟨⟨by simpa using h1, ?_⟩, by simpa using h4, h5 (by unfold INT_MAX; decide)⟩
  intro i hi
  have := h3 i (by simpa using hi)
  simpa using this

end radix

/-! ## C31: the hash of a projection and its inverse -/

section hashing

theorem range_map_getD (l : List Nat) : ((List.range l.length).map fun i => l.getD i 0) = l := by
  apply List.ext_getElem
  · simp
  · intro i h1 h2
    simp only [List.getElem_map, List.getElem_range]
    exact List.getD_eq_getElem _ _ h2

theorem getD_map_sizes (domain_sizes pattern : List Nat) {i : Nat} (hi : i < pattern.length) :
    (pattern.map fun var => domain_sizes.getD var 0).getD i 0
      = domain_sizes.getD (pattern.getD i 0) 0 := by
  rw [List.getD_eq_getElem _ _ (by simpa using hi), List.getElem_map,
    List.getD_eq_getElem _ _ hi]

theorem getD_mem_pattern {pattern : List Nat} {i : Nat} (hi : i < pattern.length) :
    pattern.getD i 0 ∈ pattern := by
  rw [List.getD_eq_getElem _ _ hi]
  exact List.getElem_mem hi

/-- A loop of writes of facts leaves the positions of other variables alone. -/
theorem getD_foldl_set_facts_other (facts : List FactPair) :
    ∀ (state : List Nat) (x : Nat), (∀ fact ∈ facts, fact.var ≠ x) →
      (facts.foldl (fun state fact => state.set fact.var fact.value) state).getD x 0
        = state.getD x 0 := by
  induction facts with
  | nil => intro state x _; rfl
  | cons f rest ih =>
    intro state x h
    rw [List.foldl_cons, ih _ x (fun g hg => h g (List.mem_cons_of_mem _ hg)), getD_set_eq,
      if_neg (fun hc => h f (List.mem_cons_self _ _) hc.1)]

/-- A loop of writes of facts on distinct variables leaves the value of each fact at its
variable. -/
theorem getD_foldl_set_facts (facts : List FactPair) :
    ∀ (state : List Nat), (facts.map fun fact => fact.var).Nodup →
      ∀ fact ∈ facts, fact.var < state.length →
        (facts.foldl (fun state fact => state.set fact.var fact.value) state).getD fact.var 0
          = fact.value := by
  induction facts with
  | nil => intro state _ f hf; exact absurd hf (List.not_mem_nil _)
  | cons g rest ih =>
    intro state hnd f hf hlt
    rw [List.map_cons, List.nodup_cons] at hnd
    rw [List.foldl_cons]
    rcases List.mem_cons.1 hf with h | h
    · rw [h, getD_foldl_set_facts_other rest _ _ ?_, getD_set_eq,
        if_pos ⟨rfl, by rw [← h]; exact hlt⟩]
      intro f' hf' hc
      exact hnd.1 (List.mem_map.2 ⟨f', hf', hc⟩)
    · exact ih _ hnd.2 f h (by rw [List.length_set]; exact hlt)

/-- The members of the projection that `convert_abstraction` returns. -/
theorem convert_abstraction_some {task : TaskProxy} {pattern : List Nat}
    {task_info : TaskInfo} {r : Projection × MatchTree × MatchTree}
    (h : ProjectionFactory.convert_abstraction task pattern task_info = some r) :
    ∃ hm, compute_hash_multipliers task.domain_sizes pattern = some hm ∧
      r.1.task_info = task_info ∧ r.1.pattern = pattern ∧ r.1.hash_multipliers = hm.1 ∧
      r.1.num_states = hm.2 ∧
      r.1.pattern_domain_sizes = (pattern.map fun var => task.domain_sizes.getD var 0) ∧
      r.1.abstract_forward_operators
        = (compute_abstract_operators task task_info pattern hm.1).abstract_forward_operators ∧
      r.1.abstract_backward_operators
        = (compute_abstract_operators task task_info pattern hm.1).abstract_backward_operators ∧
      r.1.transition_id_offset
        = (compute_abstract_operators task task_info pattern hm.1).transition_id_offset ∧
      r.1.num_transitions
        = (compute_abstract_operators task task_info pattern hm.1).total_num_transitions ∧
      r.2.1 = (compute_abstract_operators task task_info pattern hm.1).match_tree_forward ∧
      r.2.2 = (compute_abstract_operators task task_info pattern hm.1).match_tree_backward := by
  unfold ProjectionFactory.convert_abstraction at h
  rw [Option.map_eq_some'] at h
  obtain ⟨hm, h1, h2⟩ := h
  refine ⟨hm, h1, ?_⟩
  rw [← h2]
  exact ⟨rfl, rfl, rfl, rfl, rfl, rfl, rfl, rfl, rfl, rfl, rfl⟩

/-- C31: for the projection that `convert_abstraction` builds for a pattern `P` without
repetition of variables of the task, with `N` the product of the domain sizes of the
pattern variables: `get_num_states()` is `N`; `get_abstract_state_id` maps every state
whose pattern variables hold values of their domains into `[0, N)`; two such states with
the same abstract state id agree on every pattern variable; and for every `id` in
`[0, N)` the facts that `compute_state(id)` returns are facts of pattern variables with
values of their domains, and a state that holds them has the abstract state id `id`; and
`compute_state` of the abstract state id of a state returns the facts of the state. -/
theorem projection_hash_bijection (task : TaskProxy) (pattern : List Nat)
    (task_info : TaskInfo) (hnd : pattern.Nodup)
    (hvars : ∀ var ∈ pattern, var < task.domain_sizes.length)
    (r : Projection × MatchTree × MatchTree)
    (h : ProjectionFactory.convert_abstraction task pattern task_info = some r) :
    r.1.num_states = (pattern.map fun var => task.domain_sizes.getD var 0).prod ∧
    (∀ s : List Nat, (∀ var ∈ pattern, s.getD var 0 < task.domain_sizes.getD var 0) →
      ProjectionFunction.get_abstract_state_id pattern r.1.hash_multipliers s
        < r.1.num_states) ∧
    (∀ s s' : List Nat, (∀ var ∈ pattern, s.getD var 0 < task.domain_sizes.getD var 0) →
      (∀ var ∈ pattern, s'.getD var 0 < task.domain_sizes.getD var 0) →
      ProjectionFunction.get_abstract_state_id pattern r.1.hash_multipliers s
        = ProjectionFunction.get_abstract_state_id pattern r.1.hash_multipliers s' →
      ∀ var ∈ pattern, s.getD var 0 = s'.getD var 0) ∧
    (∀ id, id < r.1.num_states →
      (∀ fact ∈ r.1.compute_state id,
        fact.var ∈ pattern ∧ fact.value < task.domain_sizes.getD fact.var 0) ∧
      ProjectionFunction.get_abstract_state_id pattern r.1.hash_multipliers
        (state_with_facts task.domain_sizes.length (r.1.compute_state id)) = id) ∧
    (∀ s : List Nat, (∀ var ∈ pattern, s.getD var 0 < task.domain_sizes.getD var 0) →
      r.1.compute_state
          (ProjectionFunction.get_abstract_state_id pattern r.1.hash_multipliers s)
        = (List.range pattern.length).reverse.map fun i =>
            ⟨pattern.getD i 0, s.getD (pattern.getD i 0) 0⟩) := by
  obtain ⟨hm, h1, _, hpat, hmult, hn, hsizes, _⟩ := convert_abstraction_some h
  obtain ⟨hHM, hN, _⟩ := compute_hash_multipliers_spec h1
  rw [← hmult] at hHM
  have hk : (pattern.map fun var => task.domain_sizes.getD var 0).length = pattern.length := by
    simp
  have hid : ∀ s : List Nat,
      ProjectionFunction.get_abstract_state_id pattern r.1.hash_multipliers s
        = partial_hash r.1.hash_multipliers (fun i => s.getD (pattern.getD i 0) 0)
            (pattern.map fun var => task.domain_sizes.getD var 0).length := by
    intro s; rw [hk]; rfl
  have hvalid : ∀ s : List Nat,
      (∀ var ∈ pattern, s.getD var 0 < task.domain_sizes.getD var 0) →
      ∀ j, j < (pattern.map fun var => task.domain_sizes.getD var 0).length →
        (fun i => s.getD (pattern.getD i 0) 0) j
          < (pattern.map fun var => task.domain_sizes.getD var 0).getD j 0 := by
    intro s hs j hj
    rw [hk] at hj
    rw [getD_map_sizes _ _ hj]
    exact hs _ (getD_mem_pattern hj)
  have hNs : r.1.num_states = (pattern.map fun var => task.domain_sizes.getD var 0).prod := by
    rw [hn, hN]
  refine ⟨hNs, ?_, ?_, ?_, ?_⟩
  · intro s hs
    rw [hid, hNs]
    exact partial_hash_lt_prod hHM (hvalid s hs)
  · intro s s' hs hs' heq var hvar
    rw [hid, hid] at heq
    obtain ⟨i, hi, hget⟩ := List.getElem_of_mem hvar
    have := partial_hash_injective hHM (hvalid s hs) (hvalid s' hs') heq i (by rw [hk]; exact hi)
    simp only [List.getD_eq_getElem _ _ hi, hget] at this
    exact this
  · intro id hidlt
    have hstate : r.1.compute_state id
        = (List.range pattern.length).reverse.map fun i =>
            ⟨pattern.getD i 0,
              (id / r.1.hash_multipliers.getD i 0)
                % (pattern.map fun var => task.domain_sizes.getD var 0).getD i 0⟩ := by
      unfold Projection.compute_state
      rw [hpat, hsizes]
    have hfacts : ∀ fact ∈ r.1.compute_state id,
        fact.var ∈ pattern ∧ fact.value < task.domain_sizes.getD fact.var 0 := by
      intro fact hf
      rw [hstate, List.mem_map] at hf
      obtain ⟨i, hi, rfl⟩ := hf
      rw [List.mem_reverse, List.mem_range] at hi
      refine ⟨getD_mem_pattern hi, ?_⟩
      simp only
      rw [getD_map_sizes _ _ hi]
      apply Nat.mod_lt
      have hpos : 0 < (pattern.map fun var => task.domain_sizes.getD var 0).prod := by
        rw [← hNs]; omega
      by_contra hz
      have hz' : task.domain_sizes.getD (pattern.getD i 0) 0 = 0 := by omega
      have hmem : (0 : Nat) ∈ pattern.map fun var => task.domain_sizes.getD var 0 :=
        List.mem_map.2 ⟨_, getD_mem_pattern hi, hz'⟩
      rw [List.prod_eq_zero hmem] at hpos
      exact absurd hpos (lt_irrefl _)
    refine ⟨hfacts, ?_⟩
    rw [hid]
    have hvarsnd : ((r.1.compute_state id).map fun fact => fact.var).Nodup := by
      rw [hstate, List.map_map]
      have : ((fun fact : FactPair => fact.var) ∘ fun i =>
          (⟨pattern.getD i 0,
            (id / r.1.hash_multipliers.getD i 0)
              % (pattern.map fun var => task.domain_sizes.getD var 0).getD i 0⟩ : FactPair))
          = fun i => pattern.getD i 0 := rfl
      rw [this, List.map_reverse, range_map_getD]
      exact List.nodup_reverse.2 hnd
    have hread : ∀ j, j < (pattern.map fun var => task.domain_sizes.getD var 0).length →
        (fun i => (state_with_facts task.domain_sizes.length
          (r.1.compute_state id)).getD (pattern.getD i 0) 0) j
        = (fun j => (id / r.1.hash_multipliers.getD j 0)
            % (pattern.map fun var => task.domain_sizes.getD var 0).getD j 0) j := by
      intro j hj
      rw [hk] at hj
      have hmem : (⟨pattern.getD j 0,
          (id / r.1.hash_multipliers.getD j 0)
            % (pattern.map fun var => task.domain_sizes.getD var 0).getD j 0⟩ : FactPair)
          ∈ r.1.compute_state id := by
        rw [hstate]
        exact List.mem_map.2 ⟨j, by simpa using hj, rfl⟩
      have := getD_foldl_set_facts (r.1.compute_state id)
        (List.replicate task.domain_sizes.length 0) hvarsnd _ hmem
        (by simpa using hvars _ (getD_mem_pattern hj))
      exact this
    rw [partial_hash_congr _ _ hread, partial_hash_digits hHM id _ (le_refl _),
      List.take_length, ← hNs]
    exact Nat.mod_eq_of_lt hidlt
  · intro s hs
    unfold Projection.compute_state
    rw [hpat, hsizes]
    apply List.map_congr_left
    intro i hi
    rw [List.mem_reverse, List.mem_range] at hi
    rw [hid, partial_hash_digit hHM (hvalid s hs) (by rw [hk]; exact hi)]

/-- The projection `two_switches_projection` with its match trees is what
`convert_abstraction` builds for `two_switches_task` and the pattern of both variables. -/
theorem two_switches_projection_eq :
    ProjectionFactory.convert_abstraction two_switches_task [0, 1]
        (TaskInfo.create two_switches_task)
      = some (two_switches_projection, two_switches_match_tree_forward,
          two_switches_match_tree_backward) := by
  decide

/-- The claim C31 on the projection of `two_switches_task` to both variables: the facts of
the abstract state `3` are those of a state with the abstract state id `3`. -/
theorem projection_hash_bijection_witness :
    ProjectionFunction.get_abstract_state_id [0, 1] two_switches_projection.hash_multipliers
        (state_with_facts 2 (two_switches_projection.compute_state 3)) = 3 :=
  ((projection_hash_bijection two_switches_task [0, 1] (TaskInfo.create two_switches_task)
    (by decide) (by decide)
    (two_switches_projection, two_switches_match_tree_forward,
      two_switches_match_tree_backward)
    two_switches_projection_eq).2.2.2.1 3 (by decide)).2

end hashing

/-! ## The odometer of `for_each_transition` -/

section odometer

/-- The facts of an odometer within their domains stand for a number below the number of
assignments. -/
theorem odometer_value_lt (sizes : List Nat) :
    ∀ facts : List FactPair, (∀ f ∈ facts, f.value < sizes.getD f.var 0) →
      odometer_value sizes facts < odometer_size sizes facts := by
  intro facts
  induction facts with
  | nil => intro _; simp [odometer_value, odometer_size]
  | cons f rest ih =>
    intro hv
    have h1 := hv f (List.mem_cons_self _ _)
    have h2 := ih (fun g hg => hv g (List.mem_cons_of_mem _ hg))
    unfold odometer_value odometer_size
    calc f.value + sizes.getD f.var 0 * odometer_value sizes rest
        < sizes.getD f.var 0 + sizes.getD f.var 0 * odometer_value sizes rest := by omega
      _ = sizes.getD f.var 0 * (odometer_value sizes rest + 1) := by ring
      _ ≤ sizes.getD f.var 0 * odometer_size sizes rest := Nat.mul_le_mul_left _ h2

/-- The method `increment_to_next_state` on facts within their domains: when it reports a
next state the facts stand for the next number, stay within their domains and keep their
variables; when it reports none the facts stood for the last number. -/
theorem increment_to_next_state_spec (sizes : List Nat) :
    ∀ facts : List FactPair, (∀ f ∈ facts, f.value < sizes.getD f.var 0) →
      ((increment_to_next_state sizes facts).1.map fun f => f.var) = (facts.map fun f => f.var) ∧
      ((increment_to_next_state sizes facts).2 = true →
        odometer_value sizes (increment_to_next_state sizes facts).1
          = odometer_value sizes facts + 1 ∧
        ∀ f ∈ (increment_to_next_state sizes facts).1, f.value < sizes.getD f.var 0) ∧
      ((increment_to_next_state sizes facts).2 = false →
        odometer_value sizes facts + 1 = odometer_size sizes facts) := by
  intro facts
  induction facts with
  | nil =>
    intro _
    simp [increment_to_next_state, odometer_value, odometer_size]
  | cons f rest ih =>
    intro hv
    have h1 := hv f (List.mem_cons_self _ _)
    obtain ⟨i1, i2, i3⟩ := ih (fun g hg => hv g (List.mem_cons_of_mem _ hg))
    unfold increment_to_next_state
    by_cases hw : ((f.value + 1 : Nat) : Int) > (sizes.getD f.var 0 : Int) - 1
    · rw [if_pos hw]
      simp only
      have hval : f.value + 1 = sizes.getD f.var 0 := by omega
      refine ⟨by rw [List.map_cons, List.map_cons, i1], ?_, ?_⟩
      · intro ht
        obtain ⟨j1, j2⟩ := i2 ht
        refine ⟨?_, ?_⟩
        · unfold odometer_value
          simp only
          rw [j1, ← hval]
          ring
        · intro g hg
          rcases List.mem_cons.1 hg with h | h
          · rw [h]; simp only; omega
          · exact j2 g h
      · intro hf
        have := i3 hf
        unfold odometer_value odometer_size
        rw [← this, ← hval]
        ring
    · rw [if_neg hw]
      simp only
      refine ⟨rfl, ?_, ?_⟩
      · intro _
        refine ⟨?_, ?_⟩
        · unfold odometer_value
          simp only
          ring
        · intro g hg
          rcases List.mem_cons.1 hg with h | h
          · rw [h]; simp only; omega
          · exact hv g (List.mem_cons_of_mem _ h)
      · intro hf
        exact absurd hf (by simp)

/-- The `while` loop of `for_each_transition` for one abstract operator, started on facts
within their domains with the transition id `transition_id`: when it returns, it has
counted the numbers from the one the facts stand for to the last, the ids of the
transitions it passes on are consecutive from `transition_id`, and each of the transitions
is labelled with the operator and leads from the state of facts within their domains on
the same variables, which stand for the number that its id is ahead of `transition_id`. -/
theorem enumerate_matches_spec (p : Projection) (op : AbstractForwardOperator)
    (concrete_op_id : Nat) :
    ∀ (fuel : Nat) (facts : List FactPair) (transition_id : Nat) (r : List Transition × Nat),
      (∀ f ∈ facts, f.value < p.pattern_domain_sizes.getD f.var 0) →
      p.enumerate_matches op concrete_op_id fuel facts transition_id = some r →
      r.2 = transition_id + (odometer_size p.pattern_domain_sizes facts
        - odometer_value p.pattern_domain_sizes facts) ∧
      (r.1.map fun t => t.transition_id)
        = List.range' transition_id (odometer_size p.pattern_domain_sizes facts
            - odometer_value p.pattern_domain_sizes facts) ∧
      ∀ t ∈ r.1, t.op_id = concrete_op_id ∧
        ∃ F : List FactPair, (F.map fun f => f.var) = (facts.map fun f => f.var) ∧
          (∀ f ∈ F, f.value < p.pattern_domain_sizes.getD f.var 0) ∧
          t.transition_id + odometer_value p.pattern_domain_sizes facts
            = transition_id + odometer_value p.pattern_domain_sizes F ∧
          t.source_id = p.match_state op F ∧
          t.target_id = ((p.match_state op F : Int) + op.hash_effect).toNat := by
  intro fuel
  induction fuel with
  | zero => intro facts tid r _ h; simp [Projection.enumerate_matches] at h
  | succ fuel ih =>
    intro facts tid r hv h
    unfold Projection.enumerate_matches at h
    simp only at h
    obtain ⟨i1, i2, i3⟩ := increment_to_next_state_spec p.pattern_domain_sizes facts hv
    have hlt := odometer_value_lt p.pattern_domain_sizes facts hv
    by_cases hn : (increment_to_next_state p.pattern_domain_sizes facts).2 = true
    · rw [if_pos hn, Option.map_eq_some'] at h
      obtain ⟨r', hr', e⟩ := h
      obtain ⟨j1, j2⟩ := i2 hn
      obtain ⟨k1, k2, k3⟩ := ih _ _ r' j2 hr'
      have hlt' := odometer_value_lt p.pattern_domain_sizes _ j2
      have hsize : odometer_size p.pattern_domain_sizes
          (increment_to_next_state p.pattern_domain_sizes facts).1
          = odometer_size p.pattern_domain_sizes facts := by
        have : ∀ (l1 l2 : List FactPair), (l1.map fun f => f.var) = (l2.map fun f => f.var) →
            odometer_size p.pattern_domain_sizes l1 = odometer_size p.pattern_domain_sizes l2 := by
          intro l1
          induction l1 with
          | nil =>
            intro l2 hl
            cases l2 with
            | nil => rfl
            | cons _ _ => simp at hl
          | cons a l1 ih1 =>
            intro l2 hl
            cases l2 with
            | nil => simp at hl
            | cons b l2 =>
              simp only [List.map_cons, List.cons.injEq] at hl
              unfold odometer_size
              rw [hl.1, ih1 l2 hl.2]
        exact this _ _ i1
      rw [hsize] at k1 k2 hlt'
      rw [j1] at k1 k2 hlt'
      rw [← e]
      simp only
      refine ⟨by rw [k1]; omega, ?_, ?_⟩
      · rw [List.map_cons, k2]
        have : odometer_size p.pattern_domain_sizes facts
            - odometer_value p.pattern_domain_sizes facts
            = (odometer_size p.pattern_domain_sizes facts
              - (odometer_value p.pattern_domain_sizes facts + 1)) + 1 := by omega
        rw [this, List.range'_succ]
      · intro t ht
        rcases List.mem_cons.1 ht with h0 | h0
        · rw [h0]
          exact ⟨rfl, facts, rfl, hv, rfl, rfl, rfl⟩
        · obtain ⟨m1, F, m2, m3, m4, m5, m6⟩ := k3 t h0
          refine ⟨m1, F, m2.trans i1, m3, ?_, m5, m6⟩
          rw [j1] at m4
          omega
    · rw [if_neg hn] at h
      have hf : (increment_to_next_state p.pattern_domain_sizes facts).2 = false := by
        simpa using hn
      have hlast := i3 hf
      simp only [Option.some.injEq] at h
      rw [← h]
      simp only
      have hone : odometer_size p.pattern_domain_sizes facts
          - odometer_value p.pattern_domain_sizes facts = 1 := by omega
      rw [hone]
      refine ⟨rfl, rfl, ?_⟩
      intro t ht
      rw [List.mem_singleton] at ht
      rw [ht]
      exact ⟨rfl, facts, rfl, hv, rfl, rfl, rfl⟩

end odometer

/-! ## The transition id as a function of source state and abstract operator -/

section transition_id

theorem facts_value_cons (f : FactPair) (rest : List FactPair) (i : Nat) :
    facts_value (f :: rest) i = if f.var = i then f.value else facts_value rest i := by
  unfold facts_value
  rw [List.find?_cons]
  by_cases h : f.var = i
  · simp [h]
  · simp [h]

theorem facts_value_of_not_mem {facts : List FactPair} {i : Nat}
    (h : i ∉ facts.map fun f => f.var) : facts_value facts i = 0 := by
  induction facts with
  | nil => rfl
  | cons f rest ih =>
    rw [List.map_cons, List.mem_cons, not_or] at h
    rw [facts_value_cons, if_neg (fun hc => h.1 hc.symm)]
    exact ih h.2

theorem facts_value_of_mem {facts : List FactPair}
    (hnd : (facts.map fun f => f.var).Nodup) {f : FactPair} (hf : f ∈ facts) :
    facts_value facts f.var = f.value := by
  induction facts with
  | nil => exact absurd hf (List.not_mem_nil _)
  | cons g rest ih =>
    rw [List.map_cons, List.nodup_cons] at hnd
    rw [facts_value_cons]
    rcases List.mem_cons.1 hf with h | h
    · rw [h, if_pos rfl]
    · have hne : g.var ≠ f.var := by
        intro hc
        exact hnd.1 (List.mem_map.2 ⟨f, h, hc.symm⟩)
      rw [if_neg hne]
      exact ih hnd.2 h

/-- The values that facts within their domains give to the positions are within the
domains, where no domain is empty. -/
theorem facts_value_lt {sizes : List Nat} (hpos : ∀ d ∈ sizes, 1 ≤ d)
    {facts : List FactPair} (hv : ∀ f ∈ facts, f.value < sizes.getD f.var 0) {i : Nat}
    (hi : i < sizes.length) : facts_value facts i < sizes.getD i 0 := by
  induction facts with
  | nil =>
    have : 1 ≤ sizes.getD i 0 := by
      rw [List.getD_eq_getElem _ _ hi]
      exact hpos _ (List.getElem_mem hi)
    show 0 < _
    omega
  | cons f rest ih =>
    rw [facts_value_cons]
    split_ifs with h
    · rw [← h]; exact hv f (List.mem_cons_self _ _)
    · exact ih (fun g hg => hv g (List.mem_cons_of_mem _ hg))

theorem partial_hash_mono (m : List Nat) (v : Nat → Nat) {i n : Nat} (h : i ≤ n) :
    partial_hash m v i ≤ partial_hash m v n := by
  induction n with
  | zero =>
    have : i = 0 := by omega
    rw [this]
  | succ n ih =>
    by_cases he : i = n + 1
    · rw [he]
    · have := ih (by omega)
      rw [partial_hash_succ]
      omega

/-- A value for one more position adds its multiple of the multiplier to the hash. -/
theorem partial_hash_update (m : List Nat) (v : Nat → Nat) (i0 x : Nat) (h0 : v i0 = 0) :
    ∀ n, partial_hash m (fun i => if i0 = i then x else v i) n
      = partial_hash m v n + (if i0 < n then m.getD i0 0 * x else 0) := by
  intro n
  induction n with
  | zero => simp [partial_hash_zero]
  | succ n ih =>
    rw [partial_hash_succ, partial_hash_succ, ih]
    by_cases h1 : i0 = n
    · subst h1
      simp [h0]
    · by_cases h2 : i0 < n
      · simp [h1, h2, show i0 < n + 1 by omega]
        ring
      · simp [h1, h2, show ¬ i0 < n + 1 by omega]

/-- The sum that `for_each_transition` adds to the precondition hash is the hash of the
values of the facts. -/
theorem foldl_facts_eq_partial_hash (m : List Nat) (k : Nat) :
    ∀ (facts : List FactPair) (start : Nat), (facts.map fun f => f.var).Nodup →
      (∀ f ∈ facts, f.var < k) →
      facts.foldl (fun state fact => state + m.getD fact.var 0 * fact.value) start
        = start + partial_hash m (facts_value facts) k := by
  intro facts
  induction facts with
  | nil =>
    intro start _ _
    have : ∀ n, partial_hash m (facts_value []) n = 0 := by
      intro n
      induction n with
      | zero => rfl
      | succ n ih => rw [partial_hash_succ, ih]; simp [facts_value]
    rw [this]; rfl
  | cons f rest ih =>
    intro start hnd hlt
    rw [List.map_cons, List.nodup_cons] at hnd
    rw [List.foldl_cons, ih _ hnd.2 (fun g hg => hlt g (List.mem_cons_of_mem _ hg))]
    have hfun : facts_value (f :: rest)
        = fun i => if f.var = i then f.value else facts_value rest i := by
      funext i; exact facts_value_cons f rest i
    rw [hfun, partial_hash_update m _ f.var f.value (facts_value_of_not_mem hnd.1) k,
      if_pos (hlt f (List.mem_cons_self _ _))]
    ring

theorem to_size_t_of_nonneg {x : Int} (h0 : 0 ≤ x) (h1 : x ≤ INT_MAX) : to_size_t x = x := by
  unfold to_size_t
  unfold INT_MAX at h1
  exact Int.emod_eq_of_lt h0 (by omega)

theorem wrap_int_of_nat {x : Nat} (h1 : (x : Int) ≤ INT_MAX) : wrap_int (x : Int) = x := by
  apply wrap_int_of_isInt
  unfold IsInt INT_MIN
  constructor
  · have : (0 : Int) ≤ x := Int.natCast_nonneg x
    omega
  · exact h1

/-- Step 1 of `get_transition_id` on the hash of values that are `0` at the positions the
operator mentions: from the hash of the first `j` positions the loop reads the values of
the unmentioned positions, the last first. -/
theorem extract_abstract_facts_loop (p : Projection) (concrete_op_id : Nat)
    (hm : HashMultipliers p.hash_multipliers p.pattern_domain_sizes) (v : Nat → Nat)
    (hv : ∀ i, i < p.pattern_domain_sizes.length → v i < p.pattern_domain_sizes.getD i 0)
    (hzero : ∀ i, p.task_info.operator_mentions_variable concrete_op_id (p.pattern.getD i 0)
      = true → v i = 0)
    (hmax : (partial_hash p.hash_multipliers v p.pattern_domain_sizes.length : Int) ≤ INT_MAX) :
    ∀ j, j ≤ p.pattern_domain_sizes.length → ∀ acc : List (Nat × Int),
      (List.range j).reverse.foldl
        (fun (acc : Int × List (Nat × Int)) i =>
          if !p.task_info.operator_mentions_variable concrete_op_id (p.pattern.getD i 0) then
            (wrap_int (acc.1 - wrap_int (to_size_t acc.1 / (p.hash_multipliers.getD i 0 : Int))
                * (p.hash_multipliers.getD i 0 : Int)),
              acc.2 ++ [(i, wrap_int (to_size_t acc.1 / (p.hash_multipliers.getD i 0 : Int)))])
          else acc)
        ((partial_hash p.hash_multipliers v j : Int), acc)
      = ((0 : Int), acc ++ (((List.range j).reverse.filter fun i =>
          !p.task_info.operator_mentions_variable concrete_op_id (p.pattern.getD i 0)).map
            fun i => (i, (v i : Int)))) := by
  intro j
  induction j with
  | zero => intro _ acc; simp [partial_hash_zero]
  | succ j ih =>
    intro hj acc
    have hjk : j < p.pattern_domain_sizes.length := by omega
    rw [List.range_succ, List.reverse_append, List.reverse_singleton, List.singleton_append,
      List.foldl_cons, List.filter_cons]
    have hPj := partial_hash_lt hm j (le_of_lt hjk) (fun i hi => hv i (by omega))
    have hmj := hm.2 j hjk
    have hle : partial_hash p.hash_multipliers v (j + 1)
        ≤ partial_hash p.hash_multipliers v p.pattern_domain_sizes.length :=
      partial_hash_mono _ _ hj
    have hle' : (partial_hash p.hash_multipliers v (j + 1) : Int) ≤ INT_MAX := by
      have : (partial_hash p.hash_multipliers v (j + 1) : Int)
          ≤ (partial_hash p.hash_multipliers v p.pattern_domain_sizes.length : Int) := by
        exact_mod_cast hle
      omega
    by_cases hU : p.task_info.operator_mentions_variable concrete_op_id (p.pattern.getD j 0)
        = true
    · have hz := hzero j hU
      have hP : partial_hash p.hash_multipliers v (j + 1) = partial_hash p.hash_multipliers v j := by
        rw [partial_hash_succ, hz]; simp
      simp only [hU, Bool.not_true, Bool.false_eq_true, if_false]
      rw [hP]
      exact ih (le_of_lt hjk) acc
    · have hU' : p.task_info.operator_mentions_variable concrete_op_id (p.pattern.getD j 0)
          = false := by simpa using hU
      simp only [hU', Bool.not_false, if_true]
      have hdiv : partial_hash p.hash_multipliers v (j + 1) / p.hash_multipliers.getD j 0 = v j := by
        rw [partial_hash_succ, hmj]
        have hpos : 0 < (p.pattern_domain_sizes.take j).prod := by omega
        rw [Nat.add_mul_div_left _ _ hpos, Nat.div_eq_of_lt hPj, Nat.zero_add]
      have hval : wrap_int (to_size_t (partial_hash p.hash_multipliers v (j + 1) : Int)
          / (p.hash_multipliers.getD j 0 : Int)) = (v j : Int) := by
        rw [to_size_t_of_nonneg (Int.natCast_nonneg _) hle', ← Int.natCast_div, hdiv]
        apply wrap_int_of_nat
        have h1 : v j ≤ partial_hash p.hash_multipliers v (j + 1) := by
          rw [← hdiv]
          exact Nat.div_le_self _ _
        have : (v j : Int) ≤ (partial_hash p.hash_multipliers v (j + 1) : Int) := by
          exact_mod_cast h1
        omega
      have hstate : wrap_int ((partial_hash p.hash_multipliers v (j + 1) : Int)
          - (v j : Int) * (p.hash_multipliers.getD j 0 : Int))
          = (partial_hash p.hash_multipliers v j : Int) := by
        have : ((partial_hash p.hash_multipliers v (j + 1) : Int)
            - (v j : Int) * (p.hash_multipliers.getD j 0 : Int))
            = (partial_hash p.hash_multipliers v j : Int) := by
          rw [partial_hash_succ]
          push_cast
          ring
        rw [this]
        apply wrap_int_of_nat
        have h1 : partial_hash p.hash_multipliers v j ≤ partial_hash p.hash_multipliers v (j + 1) :=
          partial_hash_mono _ _ (Nat.le_succ j)
        have : (partial_hash p.hash_multipliers v j : Int)
            ≤ (partial_hash p.hash_multipliers v (j + 1) : Int) := by exact_mod_cast h1
        omega
      rw [hval, hstate, ih (le_of_lt hjk)]
      simp

/-- A loop over the indices of a list that reads the list backwards is a loop over the
reversed list. -/
theorem foldl_range_reversed {α β : Type} (g : β → α → β) (d : α) (l : List α) :
    ∀ init : β,
      (List.range l.length).foldl (fun acc i => g acc (l.getD (l.length - 1 - i) d)) init
        = l.reverse.foldl g init := by
  induction l with
  | nil => intro init; rfl
  | cons x rest ih =>
    intro init
    rw [List.reverse_cons, List.foldl_append, ← ih, List.length_cons, List.range_succ,
      List.foldl_append]
    have h1 : (List.range rest.length).foldl
        (fun acc i => g acc ((x :: rest).getD (rest.length + 1 - 1 - i) d)) init
        = (List.range rest.length).foldl
          (fun acc i => g acc (rest.getD (rest.length - 1 - i) d)) init := by
      apply List.foldl_ext
      intro acc i hi
      rw [List.mem_range] at hi
      have : rest.length + 1 - 1 - i = (rest.length - 1 - i) + 1 := by omega
      rw [this, List.getD_cons_succ]
    rw [h1]
    simp

/-- Step 2 of `get_transition_id` on the facts of an odometer: the id is the offset plus
the number the facts stand for. -/
theorem transition_id_loop (sizes : List Nat) :
    ∀ (facts : List FactPair) (offset multiplier : Int),
      (facts.map fun f => (f.var, (f.value : Int))).foldl
        (fun (acc : Int × Int) (fact : Nat × Int) =>
          (acc.1 + acc.2 * fact.2, acc.2 * (sizes.getD fact.1 0 : Int)))
        (offset, multiplier)
      = (offset + multiplier * (odometer_value sizes facts : Int),
          multiplier * (odometer_size sizes facts : Int)) := by
  intro facts
  induction facts with
  | nil => intro offset multiplier; simp [odometer_value, odometer_size]
  | cons f rest ih =>
    intro offset multiplier
    have e1 : odometer_value sizes (f :: rest)
        = f.value + sizes.getD f.var 0 * odometer_value sizes rest := rfl
    have e2 : odometer_size sizes (f :: rest)
        = sizes.getD f.var 0 * odometer_size sizes rest := rfl
    rw [List.map_cons, List.foldl_cons, ih, e1, e2]
    push_cast
    refine Prod.ext ?_ ?_ <;> simp only <;> ring

theorem unmentioned_facts_eq (p : Projection) (concrete_op_id : Nat) :
    p.unmentioned_facts concrete_op_id
      = (p.unmentioned_positions concrete_op_id).map fun i => ⟨i, 0⟩ := by
  unfold Projection.unmentioned_facts Projection.unmentioned_positions
  generalize List.range p.pattern.length = l
  induction l with
  | nil => rfl
  | cons x rest ih =>
    rw [List.filterMap_cons, List.filter_cons]
    by_cases h : p.task_info.operator_mentions_variable concrete_op_id (p.pattern.getD x 0) = true
    · simp only [h, Bool.not_true, Bool.false_eq_true, if_false]
      exact ih
    · have h' : p.task_info.operator_mentions_variable concrete_op_id (p.pattern.getD x 0)
          = false := by simpa using h
      simp only [h', Bool.not_false, if_true, List.map_cons]
      rw [ih]

/-- The method `get_transition_id` on the source state of facts within their domains on
the unmentioned positions of the abstract operator: the offset of the operator plus the
number the facts stand for. -/
theorem get_transition_id_of_facts (p : Projection) (hc : p.Consistent) (abs_op_id : Nat)
    (F : List FactPair)
    (hvars : (F.map fun f => f.var)
      = p.unmentioned_positions
          (p.abstract_backward_operators.getD abs_op_id default).concrete_operator_id)
    (hv : ∀ f ∈ F, f.value < p.pattern_domain_sizes.getD f.var 0) :
    p.get_transition_id (p.match_state (p.abstract_forward_operators.getD abs_op_id default) F)
        abs_op_id
      = (p.transition_id_offset.getD abs_op_id 0 : Int)
        + (odometer_value p.pattern_domain_sizes F : Int) := by
  have hk : p.pattern_domain_sizes.length = p.pattern.length := by
    rw [hc.sizes, List.length_map]
  have hnd : (F.map fun f => f.var).Nodup := by
    rw [hvars]
    unfold Projection.unmentioned_positions
    exact (List.nodup_range _).filter _
  have hlt : ∀ f ∈ F, f.var < p.pattern_domain_sizes.length := by
    intro f hf
    have : f.var ∈ F.map fun f => f.var := List.mem_map.2 ⟨f, hf, rfl⟩
    rw [hvars] at this
    unfold Projection.unmentioned_positions at this
    rw [List.mem_filter, List.mem_range] at this
    rw [hk]; exact this.1
  have hstate := foldl_facts_eq_partial_hash p.hash_multipliers p.pattern_domain_sizes.length F
    (p.abstract_forward_operators.getD abs_op_id default).precondition_hash hnd hlt
  have hms : p.match_state (p.abstract_forward_operators.getD abs_op_id default) F
      = (p.abstract_forward_operators.getD abs_op_id default).precondition_hash
        + partial_hash p.hash_multipliers (facts_value F) p.pattern_domain_sizes.length := hstate
  have hzero : ∀ i, p.task_info.operator_mentions_variable
      (p.abstract_backward_operators.getD abs_op_id default).concrete_operator_id
      (p.pattern.getD i 0) = true → facts_value F i = 0 := by
    intro i hi
    apply facts_value_of_not_mem
    rw [hvars]
    unfold Projection.unmentioned_positions
    rw [List.mem_filter]
    rintro ⟨_, h2⟩
    rw [hi] at h2
    exact absurd h2 (by decide)
  have hmax : (partial_hash p.hash_multipliers (facts_value F) p.pattern_domain_sizes.length : Int)
      ≤ INT_MAX := by
    have h1 := partial_hash_lt_prod hc.multipliers
      (fun i hi => facts_value_lt hc.positive hv (i := i) hi)
    rw [← hc.states] at h1
    have h2 : (partial_hash p.hash_multipliers (facts_value F) p.pattern_domain_sizes.length : Int)
        < (p.num_states : Int) := by exact_mod_cast h1
    have := hc.in_range
    omega
  have hloop := extract_abstract_facts_loop p
    (p.abstract_backward_operators.getD abs_op_id default).concrete_operator_id hc.multipliers
    (facts_value F) (fun i hi => facts_value_lt hc.positive hv hi) hzero hmax
    p.pattern_domain_sizes.length (le_refl _) []
  have hextract : (p.extract_abstract_facts
      (p.abstract_backward_operators.getD abs_op_id default).concrete_operator_id
      ((p.match_state (p.abstract_forward_operators.getD abs_op_id default) F : Int)
        - (p.abstract_forward_operators.getD abs_op_id default).precondition_hash)).2
      = ((p.unmentioned_positions
          (p.abstract_backward_operators.getD abs_op_id default).concrete_operator_id).reverse.map
            fun i => (i, (facts_value F i : Int))) := by
    unfold Projection.extract_abstract_facts
    have e : ((p.match_state (p.abstract_forward_operators.getD abs_op_id default) F : Int)
        - (p.abstract_forward_operators.getD abs_op_id default).precondition_hash)
        = (partial_hash p.hash_multipliers (facts_value F) p.pattern_domain_sizes.length : Int) := by
      rw [hms]; push_cast; ring
    rw [e, ← hk]
    simp only at hloop ⊢
    rw [hloop]
    simp only [List.nil_append]
    unfold Projection.unmentioned_positions
    rw [← hk, List.filter_reverse]
  unfold Projection.get_transition_id
  simp only
  rw [hextract]
  have hrev := foldl_range_reversed
    (fun (acc : Int × Int) (fact : Nat × Int) =>
      (acc.1 + acc.2 * fact.2, acc.2 * (p.pattern_domain_sizes.getD fact.1 0 : Int)))
    ((0 : Nat), (0 : Int))
    ((p.unmentioned_positions
      (p.abstract_backward_operators.getD abs_op_id default).concrete_operator_id).reverse.map
        fun i => (i, (facts_value F i : Int)))
    ((p.transition_id_offset.getD abs_op_id 0 : Int), (1 : Int))
  rw [hrev, ← List.map_reverse, List.reverse_reverse]
  have hF : ((p.unmentioned_positions
      (p.abstract_backward_operators.getD abs_op_id default).concrete_operator_id).map
        fun i => (i, (facts_value F i : Int)))
      = F.map fun f => (f.var, (f.value : Int)) := by
    rw [← hvars, List.map_map]
    apply List.map_congr_left
    intro f hf
    simp only [Function.comp]
    rw [facts_value_of_mem hnd hf]
  rw [hF, transition_id_loop]
  simp

end transition_id

/-! ## C39: the transition ids of the enumeration -/

section enumeration

theorem odometer_value_zero (sizes : List Nat) (l : List Nat) :
    odometer_value sizes (l.map fun i => ⟨i, 0⟩) = 0 := by
  induction l with
  | nil => rfl
  | cons x rest ih =>
    show 0 + sizes.getD x 0 * odometer_value sizes (rest.map fun i => ⟨i, 0⟩) = 0
    rw [ih, Nat.mul_zero]

/-- The loop of `get_num_transitions_from_abstract_operator` multiplies the domain sizes
of the unmentioned positions. -/
theorem num_transitions_loop (p : Projection) (concrete_op_id : Nat)
    (hsizes : ∀ i, i < p.pattern.length →
      p.pattern_domain_sizes.getD i 0 = p.task_info.domain_size.getD (p.pattern.getD i 0) 0) :
    ∀ (l : List Nat) (n : Nat), (∀ i ∈ l, i < p.pattern.length) →
      l.foldl
        (fun num_transitions i =>
          if !p.task_info.operator_mentions_variable concrete_op_id (p.pattern.getD i 0) then
            num_transitions * p.task_info.domain_size.getD (p.pattern.getD i 0) 0
          else num_transitions) n
        = n * odometer_size p.pattern_domain_sizes
            ((l.filter fun i =>
              !p.task_info.operator_mentions_variable concrete_op_id (p.pattern.getD i 0)).map
                fun i => ⟨i, 0⟩) := by
  intro l
  induction l with
  | nil => intro n _; simp [odometer_size]
  | cons x rest ih =>
    intro n hl
    rw [List.foldl_cons, ih _ (fun i hi => hl i (List.mem_cons_of_mem _ hi)), List.filter_cons]
    by_cases h : p.task_info.operator_mentions_variable concrete_op_id (p.pattern.getD x 0) = true
    · simp only [h, Bool.not_true, Bool.false_eq_true, if_false]
    · have h' : p.task_info.operator_mentions_variable concrete_op_id (p.pattern.getD x 0)
          = false := by simpa using h
      simp only [h', Bool.not_false, if_true, List.map_cons]
      have e : odometer_size p.pattern_domain_sizes
          (⟨x, 0⟩ :: (rest.filter fun i =>
              !p.task_info.operator_mentions_variable concrete_op_id (p.pattern.getD i 0)).map
                fun i => (⟨i, 0⟩ : FactPair))
          = p.pattern_domain_sizes.getD x 0 * odometer_size p.pattern_domain_sizes
            ((rest.filter fun i =>
              !p.task_info.operator_mentions_variable concrete_op_id (p.pattern.getD i 0)).map
                fun i => ⟨i, 0⟩) := rfl
      rw [e, hsizes x (hl x (List.mem_cons_self _ _))]
      ring

/-- The facts that the `while` loop of `for_each_transition` starts from in a consistent
projection: within their domains, standing for `0`, on the unmentioned positions, and with
as many assignments as `get_num_transitions_from_abstract_operator` says. -/
theorem unmentioned_facts_spec (p : Projection) (hc : p.Consistent) (concrete_op_id : Nat) :
    (∀ f ∈ p.unmentioned_facts concrete_op_id, f.value < p.pattern_domain_sizes.getD f.var 0) ∧
    odometer_value p.pattern_domain_sizes (p.unmentioned_facts concrete_op_id) = 0 ∧
    ((p.unmentioned_facts concrete_op_id).map fun f => f.var)
      = p.unmentioned_positions concrete_op_id ∧
    odometer_size p.pattern_domain_sizes (p.unmentioned_facts concrete_op_id)
      = p.task_info.get_num_transitions_from_abstract_operator p.pattern concrete_op_id := by
  have hk : p.pattern_domain_sizes.length = p.pattern.length := by
    rw [hc.sizes, List.length_map]
  have hsizes : ∀ i, i < p.pattern.length →
      p.pattern_domain_sizes.getD i 0 = p.task_info.domain_size.getD (p.pattern.getD i 0) 0 := by
    intro i hi
    rw [hc.sizes]
    exact getD_map_sizes _ _ hi
  rw [unmentioned_facts_eq]
  refine ⟨?_, odometer_value_zero _ _, ?_, ?_⟩
  · intro f hf
    obtain ⟨i, hi, rfl⟩ := List.mem_map.1 hf
    unfold Projection.unmentioned_positions at hi
    rw [List.mem_filter, List.mem_range] at hi
    have hlt : i < p.pattern_domain_sizes.length := by rw [hk]; exact hi.1
    have : 1 ≤ p.pattern_domain_sizes.getD i 0 := by
      rw [List.getD_eq_getElem _ _ hlt]
      exact hc.positive _ (List.getElem_mem hlt)
    show 0 < p.pattern_domain_sizes.getD i 0
    exact this
  · rw [List.map_map]
    exact List.map_id _
  · unfold TaskInfo.get_num_transitions_from_abstract_operator Projection.unmentioned_positions
    rw [num_transitions_loop p concrete_op_id hsizes _ 1 (fun i hi => List.mem_range.1 hi),
      Nat.one_mul]

/-- The step of the loop of `for_each_transition` over the abstract operators. -/
theorem for_each_transition_step (p : Projection) (hc : p.Consistent) (fuel a : Nat)
    (transition_id : Nat) (r : List Transition × Nat)
    (h : p.enumerate_matches (p.abstract_forward_operators.getD a default)
      (p.abstract_backward_operators.getD a default).concrete_operator_id fuel
      (p.unmentioned_facts (p.abstract_backward_operators.getD a default).concrete_operator_id)
      transition_id = some r) :
    r.2 = transition_id
      + p.task_info.get_num_transitions_from_abstract_operator p.pattern
          (p.abstract_backward_operators.getD a default).concrete_operator_id ∧
    (r.1.map fun t => t.transition_id)
      = List.range' transition_id
          (p.task_info.get_num_transitions_from_abstract_operator p.pattern
            (p.abstract_backward_operators.getD a default).concrete_operator_id) ∧
    ∀ t ∈ r.1,
      t.op_id = (p.abstract_backward_operators.getD a default).concrete_operator_id ∧
      ∃ F : List FactPair,
        (F.map fun f => f.var)
          = p.unmentioned_positions
              (p.abstract_backward_operators.getD a default).concrete_operator_id ∧
        (∀ f ∈ F, f.value < p.pattern_domain_sizes.getD f.var 0) ∧
        t.transition_id = transition_id + odometer_value p.pattern_domain_sizes F ∧
        t.source_id = p.match_state (p.abstract_forward_operators.getD a default) F ∧
        t.target_id = ((p.match_state (p.abstract_forward_operators.getD a default) F : Int)
          + (p.abstract_forward_operators.getD a default).hash_effect).toNat := by
  obtain ⟨u1, u2, u3, u4⟩ := unmentioned_facts_spec p hc
    (p.abstract_backward_operators.getD a default).concrete_operator_id
  obtain ⟨e1, e2, e3⟩ := enumerate_matches_spec p _ _ fuel _ transition_id r u1 h
  rw [u2, u4, Nat.sub_zero] at e1 e2
  refine ⟨e1, e2, ?_⟩
  intro t ht
  obtain ⟨m1, F, m2, m3, m4, m5, m6⟩ := e3 t ht
  rw [u2, Nat.add_zero] at m4
  exact ⟨m1, F, m2.trans u3, m3, m4, m5, m6⟩

/-- The loop of `for_each_transition` over the first `a` abstract operators of a consistent
projection: the next transition id is the number of transitions of these operators, the
ids passed on are `0, 1, ...` in order, and every transition passed on is one of an
abstract operator among them. -/
theorem for_each_transition_upto (p : Projection) (hc : p.Consistent) (fuel : Nat) :
    ∀ (a : Nat) (acc : List Transition × Nat),
      (List.range a).foldlM
        (fun (acc : List Transition × Nat) op_id =>
          (p.enumerate_matches (p.abstract_forward_operators.getD op_id default)
            (p.abstract_backward_operators.getD op_id default).concrete_operator_id fuel
            (p.unmentioned_facts
              (p.abstract_backward_operators.getD op_id default).concrete_operator_id)
            acc.2).map fun r => (acc.1 ++ r.1, r.2))
        ([], 0) = some acc →
      acc.2 = ((List.range a).map fun b =>
          p.task_info.get_num_transitions_from_abstract_operator p.pattern
            (p.abstract_backward_operators.getD b default).concrete_operator_id).sum ∧
      (acc.1.map fun t => t.transition_id) = List.range acc.2 ∧
      ∀ t ∈ acc.1, ∃ b, b < a ∧ ∃ L, p.transitions_of_abstract_operator fuel b = some L ∧
        t ∈ L := by
  intro a
  induction a with
  | zero =>
    intro acc h
    simp only [List.range_zero, List.foldlM_nil, Option.pure_def, Option.some.injEq] at h
    rw [← h]
    simp
  | succ a ih =>
    intro acc h
    rw [List.range_succ, List.foldlM_append] at h
    simp only [Option.bind_eq_bind, Option.bind_eq_some] at h
    obtain ⟨acc0, h0, h1⟩ := h
    simp only [List.foldlM_cons, List.foldlM_nil, Option.bind_eq_bind, Option.bind_eq_some,
      Option.map_eq_some', Option.pure_def, Option.some.injEq] at h1
    obtain ⟨acc1, ⟨r, hr, e1⟩, e2⟩ := h1
    obtain ⟨i1, i2, i3⟩ := ih acc0 h0
    obtain ⟨s1, s2, _⟩ := for_each_transition_step p hc fuel a acc0.2 r hr
    rw [← e2, ← e1]
    simp only
    refine ⟨?_, ?_, ?_⟩
    · rw [s1, i1, List.range_succ, List.map_append, List.sum_append]
      simp
    · rw [List.map_append, i2, s2, s1, List.range_eq_range', List.range_eq_range']
      have e := List.range'_append_1 0 acc0.2
        (p.task_info.get_num_transitions_from_abstract_operator p.pattern
          (p.abstract_backward_operators.getD a default).concrete_operator_id)
      rw [Nat.zero_add] at e
      rw [e, Nat.add_comm]
    · intro t ht
      rcases List.mem_append.1 ht with h2 | h2
      · obtain ⟨b, hb, L, hL, htL⟩ := i3 t h2
        exact ⟨b, by omega, L, hL, htL⟩
      · refine ⟨a, by omega, r.1, ?_, h2⟩
        unfold Projection.transitions_of_abstract_operator
        rw [h0]
        simp only [Option.some_bind, hr, Option.map_some']

/-- The loop of `for_each_transition(si, callback)` side by side with the loop of
`for_each_transition(callback)`: the same next transition id, and the transitions of the
operators that `si` does not hold. -/
theorem for_each_transition_si_loop (p : Projection) (hc : p.Consistent) (si : List Bool)
    (fuel : Nat) :
    ∀ (l : List Nat) (acc acc' res : List Transition × Nat), acc'.2 = acc.2 →
      acc'.1 = acc.1.filter (fun t => !bget si t.op_id) →
      l.foldlM
        (fun (acc : List Transition × Nat) op_id =>
          (p.enumerate_matches (p.abstract_forward_operators.getD op_id default)
            (p.abstract_backward_operators.getD op_id default).concrete_operator_id fuel
            (p.unmentioned_facts
              (p.abstract_backward_operators.getD op_id default).concrete_operator_id)
            acc.2).map fun r => (acc.1 ++ r.1, r.2))
        acc = some res →
      ∃ res', l.foldlM
        (fun (acc : List Transition × Nat) op_id =>
          if bget si (p.abstract_backward_operators.getD op_id default).concrete_operator_id then
            some (acc.1, acc.2
              + p.task_info.get_num_transitions_from_abstract_operator p.pattern
                  (p.abstract_backward_operators.getD op_id default).concrete_operator_id)
          else
            (p.enumerate_matches (p.abstract_forward_operators.getD op_id default)
              (p.abstract_backward_operators.getD op_id default).concrete_operator_id fuel
              (p.unmentioned_facts
                (p.abstract_backward_operators.getD op_id default).concrete_operator_id)
              acc.2).map fun r => (acc.1 ++ r.1, r.2))
        acc' = some res' ∧
        res'.2 = res.2 ∧ res'.1 = res.1.filter (fun t => !bget si t.op_id) := by
  intro l
  induction l with
  | nil =>
    intro acc acc' res h1 h2 h
    simp only [List.foldlM_nil, Option.pure_def, Option.some.injEq] at h
    rw [← h]
    exact ⟨acc', rfl, h1, h2⟩
  | cons a rest ih =>
    intro acc acc' res h1 h2 h
    rw [List.foldlM_cons] at h ⊢
    simp only [Option.bind_eq_bind, Option.bind_eq_some, Option.map_eq_some'] at h
    obtain ⟨acc1, ⟨r, hr, e1⟩, hrest⟩ := h
    obtain ⟨s1, _, s3⟩ := for_each_transition_step p hc fuel a acc.2 r hr
    by_cases hsi : bget si (p.abstract_backward_operators.getD a default).concrete_operator_id
        = true
    · simp only [hsi, if_true, Option.bind_eq_bind, Option.some_bind]
      apply ih acc1 _ res _ _ hrest
      · rw [← e1]; simp only; rw [s1, h1]
      · rw [← e1]
        simp only
        rw [List.filter_append, ← h2]
        have : r.1.filter (fun t => !bget si t.op_id) = [] := by
          rw [List.filter_eq_nil_iff]
          intro t ht
          rw [(s3 t ht).1, hsi]
          decide
        rw [this, List.append_nil]
    · simp only [hsi, Bool.false_eq_true, if_false, h1, hr, Option.map_some',
        Option.bind_eq_bind, Option.some_bind]
      apply ih acc1 _ res _ _ hrest
      · rw [← e1]
      · rw [← e1]
        simp only
        rw [List.filter_append, ← h2]
        have : r.1.filter (fun t => !bget si t.op_id) = r.1 := by
          rw [List.filter_eq_self]
          intro t ht
          rw [(s3 t ht).1]
          simpa using hsi
        rw [this]

/-- C39: in a projection whose members fit together as `convert_abstraction` builds them,
`get_transition_id` is the perfect hash of the enumeration. For every transition
`(id, op, src, tgt)` that `for_each_transition` passes to the callback while it processes
the abstract operator `a`, `get_transition_id(src, a) = id`; every transition of the
enumeration is one of an abstract operator; and `for_each_transition(si, callback)`
returns whenever `for_each_transition(callback)` does (which it does for enough fuel) and
passes on exactly its transitions whose operator `si` does not hold, in the same order and
with the same transition ids. -/
theorem get_transition_id_is_perfect_hash (p : Projection) (hc : p.Consistent) (fuel : Nat) :
    (∀ a, a < p.abstract_forward_operators.length → ∀ L,
      p.transitions_of_abstract_operator fuel a = some L →
      ∀ t ∈ L, p.get_transition_id t.source_id a = (t.transition_id : Int)) ∧
    (∀ ts, p.for_each_transition fuel = some ts →
      (∀ t ∈ ts, ∃ a, a < p.abstract_forward_operators.length ∧
        ∃ L, p.transitions_of_abstract_operator fuel a = some L ∧ t ∈ L) ∧
      ∀ si : List Bool,
        p.for_each_transition_si si fuel = some (ts.filter fun t => !bget si t.op_id)) ∧
    (p.enumeration_fuel ≤ fuel → ∃ ts, p.for_each_transition fuel = some ts) := by
  refine ⟨?_, ?_, fun h => for_each_transition_returns p h⟩
  · intro a ha L hL t ht
    unfold Projection.transitions_of_abstract_operator at hL
    simp only [Option.bind_eq_some, Option.map_eq_some'] at hL
    obtain ⟨acc, hacc, r, hr, e⟩ := hL
    obtain ⟨i1, _, _⟩ := for_each_transition_upto p hc fuel a acc hacc
    obtain ⟨_, _, s3⟩ := for_each_transition_step p hc fuel a acc.2 r hr
    rw [← e] at ht
    obtain ⟨_, F, m2, m3, m4, m5, _⟩ := s3 t ht
    rw [m5, get_transition_id_of_facts p hc a F m2 m3, m4, i1, hc.offset a ha]
    push_cast
    rfl
  · intro ts hts
    unfold Projection.for_each_transition at hts
    rw [Option.map_eq_some'] at hts
    obtain ⟨res, hres, e⟩ := hts
    obtain ⟨_, _, i3⟩ := for_each_transition_upto p hc fuel _ res hres
    refine ⟨?_, ?_⟩
    · intro t ht
      rw [← e] at ht
      exact i3 t ht
    · intro si
      obtain ⟨res', h1, _, h3⟩ := for_each_transition_si_loop p hc si fuel _ ([], 0) ([], 0) res
        rfl rfl hres
      unfold Projection.for_each_transition_si
      simp only at h1 ⊢
      rw [h1, Option.map_some', h3, e]

/-- The members of `two_switches_projection` fit together. -/
theorem two_switches_projection_consistent : two_switches_projection.Consistent where
  multipliers := ⟨rfl, by intro i hi; have : i < 2 := hi; interval_cases i <;> rfl⟩
  sizes := by decide
  positive := by decide
  states := by decide
  in_range := by decide
  backward := rfl
  offsets := rfl
  offset := by intro a ha; have : a < 2 := ha; interval_cases a <;> decide
  transitions := by decide

/-- The claim C39 on the projection of `two_switches_task` to both variables, whose
enumeration is `(0, 0, 0, 2)`, `(1, 0, 1, 3)`, `(2, 1, 0, 1)`, `(3, 1, 2, 3)`. -/
theorem get_transition_id_is_perfect_hash_witness :
    two_switches_projection.Consistent ∧
    (∀ a, a < two_switches_projection.abstract_forward_operators.length → ∀ L,
      two_switches_projection.transitions_of_abstract_operator 3 a = some L →
      ∀ t ∈ L, two_switches_projection.get_transition_id t.source_id a
        = (t.transition_id : Int)) ∧
    (∀ ts, two_switches_projection.for_each_transition 3 = some ts →
      (∀ t ∈ ts, ∃ a, a < two_switches_projection.abstract_forward_operators.length ∧
        ∃ L, two_switches_projection.transitions_of_abstract_operator 3 a = some L ∧ t ∈ L) ∧
      ∀ si : List Bool,
        two_switches_projection.for_each_transition_si si 3
          = some (ts.filter fun t => !bget si t.op_id)) ∧
    (two_switches_projection.enumeration_fuel ≤ 3 →
      ∃ ts, two_switches_projection.for_each_transition 3 = some ts) :=
  ⟨two_switches_projection_consistent,
    get_transition_id_is_perfect_hash two_switches_projection
      two_switches_projection_consistent 3⟩

end enumeration

/-! ## C33, C38: the count of the transitions of an operator, reachability to a state -/

/-- C33 fails on the code. For the task with two binary variables and one operator
without precondition that sets both variables to `1`, projected to both variables,
`for_each_transition` enumerates the three state-changing transitions `0 → 3`, `2 → 3`
and `1 → 3` of operator `0` and `get_num_transitions()` is `3`, but
`get_num_transitions(0) = get_num_transitions_from_concrete_operator(P, 0)` is `1`. -/
theorem projection_num_transitions_of_operator_undercounts :
    (ProjectionFactory.convert_abstraction two_effects_task [0, 1]
        (TaskInfo.create two_effects_task)).map
      (fun r => (r.1.for_each_transition 10, r.1.get_num_transitions 0, r.1.num_transitions))
      = some (some [⟨0, 0, 0, 3⟩, ⟨1, 0, 2, 3⟩, ⟨2, 0, 1, 3⟩], 1, 3) := by
  decide

/-- C38 fails on the code. For the task with two binary variables whose operator `0`
changes variable `1` from `0` to `1` and whose operator `1` changes variable `0` from `0`
to `1`, projected to both variables, the transition `0 → 2` of operator `0` has the id `0`.
With the transition costs `[5, 5, INF, 5]` state `0` reaches state `2` over this
transition of cost `5`, and the explicit realization marks state `0`; the projection reads
the cost at `get_transition_id(2, 0) = 2`, the id of the transition `0 → 1` of operator
`1`, finds `INF` and leaves state `0` unmarked. -/
theorem projection_reachability_to_state_reads_other_transition :
    (ProjectionFactory.convert_abstraction two_switches_task [0, 1]
        (TaskInfo.create two_switches_task)).map
      (fun r => (r.1.for_each_transition 10,
        r.1.compute_reachability_to_state_tcf r.2.2 10 ⟨[5, 5, INF, 5], [], []⟩ 2,
        r.1.get_transition_id 2 0, r.1.get_transition_id 0 0))
      = some (some [⟨0, 0, 0, 2⟩, ⟨1, 0, 1, 3⟩, ⟨2, 1, 0, 1⟩, ⟨3, 1, 2, 3⟩],
          some [false, false, true, false], 2, 0) ∧
    two_switches_abstraction.compute_reachability_to_state_tcf 10 ⟨[5, 5, INF, 5], [], []⟩ 2
      = some [true, false, true, false] := by
  decide

/-! ## The tables of `TaskInfo` and the pattern index of a variable -/

section tables

theorem bget_foldl_set_true (idxs : List Nat) :
    ∀ (t : List Bool) (j : Nat),
      bget (idxs.foldl (fun t i => t.set i true) t) j = true ↔
        bget t j = true ∨ (j ∈ idxs ∧ j < t.length) := by
  induction idxs with
  | nil => intro t j; simp
  | cons x rest ih =>
    intro t j
    rw [List.foldl_cons, ih, bget_set, List.length_set]
    by_cases h : x = j ∧ x < t.length
    · rw [if_pos h]
      obtain ⟨h1, h2⟩ := h
      subst h1
      simp [h2]
    · rw [if_neg h]
      constructor
      · rintro (h1 | ⟨h1, h2⟩)
        · exact Or.inl h1
        · exact Or.inr ⟨List.mem_cons_of_mem _ h1, h2⟩
      · rintro (h1 | ⟨h1, h2⟩)
        · exact Or.inl h1
        · rcases List.mem_cons.1 h1 with h3 | h3
          · exact absurd ⟨h3.symm, by rw [← h3]; exact h2⟩ h
          · exact Or.inr ⟨h3, h2⟩

theorem length_foldl_set_true (idxs : List Nat) :
    ∀ (t : List Bool), (idxs.foldl (fun t i => t.set i true) t).length = t.length := by
  induction idxs with
  | nil => intro t; rfl
  | cons x rest ih => intro t; rw [List.foldl_cons, ih, List.length_set]

/-- The loops that fill a table of `TaskInfo`: an entry is `true` afterwards when it was
before or when it is the entry of an operator of the loop and one of its variables. -/
theorem bget_fill_loop (nv : Nat) (vars : Nat → List Nat) (L : List Nat) :
    ∀ (t : List Bool) (j : Nat),
      (bget (L.foldl
          (fun table op_id =>
            (vars op_id).foldl (fun table var => table.set (op_id * nv + var) true) table)
          t) j = true ↔
        bget t j = true ∨ (j < t.length ∧ ∃ o ∈ L, ∃ v ∈ vars o, j = o * nv + v)) ∧
      (L.foldl
          (fun table op_id =>
            (vars op_id).foldl (fun table var => table.set (op_id * nv + var) true) table)
          t).length = t.length := by
  induction L with
  | nil => intro t j; simp
  | cons x rest ih =>
    intro t j
    have e : (vars x).foldl (fun table var => table.set (x * nv + var) true) t
        = ((vars x).map fun var => x * nv + var).foldl (fun t i => t.set i true) t := by
      rw [List.foldl_map]
    rw [List.foldl_cons, e]
    obtain ⟨h1, h2⟩ := ih (((vars x).map fun var => x * nv + var).foldl
      (fun t i => t.set i true) t) j
    rw [h1, h2, bget_foldl_set_true, length_foldl_set_true]
    refine ⟨?_, rfl⟩
    constructor
    · rintro ((h | ⟨h3, h4⟩) | ⟨h3, o, ho, v, hv, h4⟩)
      · exact Or.inl h
      · obtain ⟨v, hv, rfl⟩ := List.mem_map.1 h3
        exact Or.inr ⟨h4, x, List.mem_cons_self _ _, v, hv, rfl⟩
      · exact Or.inr ⟨h3, o, List.mem_cons_of_mem _ ho, v, hv, h4⟩
    · rintro (h | ⟨h3, o, ho, v, hv, h4⟩)
      · exact Or.inl (Or.inl h)
      · rcases List.mem_cons.1 ho with h5 | h5
        · subst h5
          exact Or.inl (Or.inr ⟨List.mem_map.2 ⟨v, hv, h4.symm⟩, h3⟩)
        · exact Or.inr ⟨h3, o, h5, v, hv, h4⟩

/-- The entry of a table of `TaskInfo` for an operator and a variable of the task says
whether the variable is among those the table lists for the operator. -/
theorem bget_fill_table (nv : Nat) (ops : List OperatorProxy) (vars : OperatorProxy → List Nat)
    (hvars : ∀ op ∈ ops, ∀ v ∈ vars op, v < nv) {op_id var : Nat} (hop : op_id < ops.length)
    (hvar : var < nv) :
    bget (TaskInfo.fill_table nv ops vars) (op_id * nv + var) = true ↔
      var ∈ vars (ops.getD op_id default) := by
  unfold TaskInfo.fill_table
  rw [(bget_fill_loop nv (fun o => vars (ops.getD o default)) (List.range ops.length) _ _).1]
  have hpos : 0 < nv := by omega
  have hfalse : bget (List.replicate (ops.length * nv) false) (op_id * nv + var) = false := by
    unfold bget
    rw [List.getD_eq_getElem?_getD, List.getElem?_replicate]
    split <;> rfl
  rw [hfalse, List.length_replicate]
  have hdiv : ∀ o v, v < nv → (o * nv + v) / nv = o ∧ (o * nv + v) % nv = v := by
    intro o v hv
    constructor
    · rw [Nat.add_comm, Nat.add_mul_div_right _ _ hpos, Nat.div_eq_of_lt hv, Nat.zero_add]
    · rw [Nat.add_comm, Nat.add_mul_mod_self_right, Nat.mod_eq_of_lt hv]
  constructor
  · rintro (h | ⟨_, o, ho, v, hv, h4⟩)
    · exact absurd h (by simp)
    · rw [List.mem_range] at ho
      have hvlt : v < nv := hvars _ (by
        rw [List.getD_eq_getElem _ _ ho]
        exact List.getElem_mem ho) v hv
      have e1 := (hdiv o v hvlt).1
      have e2 := (hdiv o v hvlt).2
      rw [← h4, (hdiv op_id var hvar).1] at e1
      rw [← h4, (hdiv op_id var hvar).2] at e2
      rw [e1, e2]
      exact hv
  · intro h
    refine Or.inr ⟨?_, op_id, List.mem_range.2 hop, var, h, rfl⟩
    calc op_id * nv + var < op_id * nv + nv := by omega
      _ = (op_id + 1) * nv := by ring
      _ ≤ ops.length * nv := Nat.mul_le_mul_right _ hop

/-- The loop that fills `variable_to_pattern_index`. -/
theorem variable_to_pattern_index_loop (nv : Nat) (pattern : List Nat) (hnd : pattern.Nodup) :
    ∀ n, n ≤ pattern.length → ∀ x,
      (((List.range n).foldl (fun (v : List Int) i => v.set (pattern.getD i 0) (i : Int))
          (List.replicate nv (-1))).getD x (-1)
        = if pattern.indexOf x < n ∧ x < nv then (pattern.indexOf x : Int) else -1) ∧
      ((List.range n).foldl (fun (v : List Int) i => v.set (pattern.getD i 0) (i : Int))
          (List.replicate nv (-1))).length = nv := by
  intro n
  induction n with
  | zero =>
    intro _ x
    refine ⟨?_, by simp⟩
    simp only [List.range_zero, List.foldl_nil, Nat.not_lt_zero, false_and, if_false]
    rw [List.getD_eq_getElem?_getD, List.getElem?_replicate]
    split <;> rfl
  | succ n ih =>
    intro hn x
    obtain ⟨h1, h2⟩ := ih (by omega) x
    rw [List.range_succ, List.foldl_append, List.foldl_cons, List.foldl_nil, List.length_set]
    refine ⟨?_, h2⟩
    rw [getD_set_eq, h1, h2]
    have hlt : n < pattern.length := by omega
    by_cases hx : pattern.getD n 0 = x
    · have hidx : pattern.indexOf x = n := by
        rw [← hx, List.getD_eq_getElem _ _ hlt]
        exact List.indexOf_getElem hnd n hlt
      rw [hidx]
      by_cases hv : x < nv
      · rw [if_pos ⟨hx, by rw [hx]; exact hv⟩, if_pos ⟨by omega, hv⟩]
      · rw [if_neg (fun hc => hv (by rw [← hx]; exact hc.2)), if_neg (fun hc => hv hc.2),
          if_neg (fun hc => hv hc.2)]
    · rw [if_neg (fun hc => hx hc.1)]
      have hne : pattern.indexOf x ≠ n := by
        intro hc
        apply hx
        have hl : pattern.indexOf x < pattern.length := by omega
        have := List.getElem_indexOf hl
        rw [List.getD_eq_getElem _ _ hlt]
        rw [← this]
        congr 1
        exact hc.symm
      by_cases hc : pattern.indexOf x < n ∧ x < nv
      · rw [if_pos hc, if_pos ⟨by omega, hc.2⟩]
      · rw [if_neg hc, if_neg (fun h => hc ⟨by omega, h.2⟩)]

/-- The vector `variable_to_pattern_index` holds the position of every pattern variable
and `-1` for every other variable. -/
theorem variable_to_pattern_index_spec (nv : Nat) (pattern : List Nat) (hnd : pattern.Nodup)
    (hlt : ∀ v ∈ pattern, v < nv) (x : Nat) :
    (x ∈ pattern → ∃ i, i < pattern.length ∧ pattern.getD i 0 = x ∧
      (variable_to_pattern_index nv pattern).getD x (-1) = (i : Int)) ∧
    (x ∉ pattern → (variable_to_pattern_index nv pattern).getD x (-1) = -1) := by
  unfold variable_to_pattern_index
  rw [(variable_to_pattern_index_loop nv pattern hnd pattern.length (le_refl _) x).1]
  constructor
  · intro hx
    have h1 : pattern.indexOf x < pattern.length := List.indexOf_lt_length.2 hx
    refine ⟨pattern.indexOf x, h1, ?_, ?_⟩
    · rw [List.getD_eq_getElem _ _ h1]
      exact List.getElem_indexOf h1
    · rw [if_pos ⟨h1, hlt x hx⟩]
  · intro hx
    rw [if_neg (fun hc => hx (List.indexOf_lt_length.1 hc.1))]

end tables

/-! ## The calls of the callback of `build_abstract_operators` -/

section calls

theorem multiply_out_spec (pattern domain_sizes : List Nat) (mentioned : Nat → Prop) :
    ∀ (rest prev pre eff : List FactPair),
      List.Forall₂ (fun pre eff : FactPair => pre.var = eff.var ∧ pre.value ≠ eff.value)
        pre eff →
      ((pre ++ rest).map fun f => f.var).Nodup →
      (∀ f ∈ prev ++ pre ++ rest, f.var < pattern.length ∧
        f.value < domain_sizes.getD (pattern.getD f.var 0) 0 ∧ mentioned f.var) →
      (∀ f ∈ eff, f.value < domain_sizes.getD (pattern.getD f.var 0) 0) →
      ∀ call ∈ multiply_out pattern domain_sizes rest prev pre eff,
        AbstractCall (pattern.map fun var => domain_sizes.getD var 0) mentioned call := by
  intro rest
  induction rest with
  | nil =>
    intro prev pre eff h1 h2 h3 h4 call hcall
    unfold multiply_out at hcall
    by_cases he : eff ≠ []
    · rw [if_pos he, List.mem_singleton] at hcall
      subst hcall
      refine ⟨h1, he, by simpa using h2, ?_, ?_⟩
      · intro f hf
        have := h3 f (by simpa using hf)
        refine ⟨by simpa using this.1, ?_, this.2.2⟩
        rw [getD_map_sizes _ _ this.1]
        exact this.2.1
      · intro f hf
        have hvar : f.var < pattern.length := by
          obtain ⟨g, hg, hgf⟩ : ∃ g ∈ pre, g.var = f.var := by
            clear h2 h3 h4 he
            induction h1 with
            | nil => exact absurd hf (List.not_mem_nil _)
            | cons hab _ ih =>
              rcases List.mem_cons.1 hf with h | h
              · exact ⟨_, List.mem_cons_self _ _, by rw [h]; exact hab.1⟩
              · obtain ⟨g, hg, hgf⟩ := ih h
                exact ⟨g, List.mem_cons_of_mem _ hg, hgf⟩
          rw [← hgf]
          exact (h3 g (by simp [hg])).1
        rw [getD_map_sizes _ _ hvar]
        exact h4 f hf
    · rw [if_neg he] at hcall
      exact absurd hcall (List.not_mem_nil _)
  | cons e rest ih =>
    intro prev pre eff h1 h2 h3 h4 call hcall
    unfold multiply_out at hcall
    rw [List.mem_flatMap] at hcall
    obtain ⟨i, hi, hcall⟩ := hcall
    rw [List.mem_range] at hi
    have he := h3 e (by simp)
    by_cases hne : i ≠ e.value
    · rw [if_pos hne] at hcall
      refine ih prev (pre ++ [⟨e.var, i⟩]) (eff ++ [⟨e.var, e.value⟩]) ?_ ?_ ?_ ?_ call hcall
      · exact List.rel_append h1 (List.Forall₂.cons ⟨rfl, hne⟩ List.Forall₂.nil)
      · simpa using h2
      · intro f hf
        simp only [List.mem_append, List.mem_singleton] at hf
        rcases hf with (hf | hf | hf) | hf
        · exact h3 f (by simp [hf])
        · exact h3 f (by simp [hf])
        · rw [hf]
          exact ⟨he.1, hi, he.2.2⟩
        · exact h3 f (by simp [hf])
      · intro f hf
        simp only [List.mem_append, List.mem_singleton] at hf
        rcases hf with hf | hf
        · exact h4 f hf
        · rw [hf]
          exact he.2.1
    · rw [if_neg hne] at hcall
      refine ih (prev ++ [⟨e.var, i⟩]) pre eff h1 ?_ ?_ h4 call hcall
      · rw [List.map_append, List.map_cons] at h2
        rw [List.map_append]
        exact h2.sublist (List.Sublist.append_left (List.sublist_cons_self _ _) _)
      · intro f hf
        simp only [List.mem_append, List.mem_singleton] at hf
        rcases hf with ((hf | hf) | hf) | hf
        · exact h3 f (by simp [hf])
        · rw [hf]
          exact ⟨he.1, hi, he.2.2⟩
        · exact h3 f (by simp [hf])
        · exact h3 f (by simp [hf])

theorem mem_filterMap_ite {α β : Type} (l : List α) (c : α → Prop) [DecidablePred c]
    (y : α → β) (f : β) :
    f ∈ l.filterMap (fun x => if c x then some (y x) else none) ↔ ∃ x ∈ l, c x ∧ y x = f := by
  rw [List.mem_filterMap]
  constructor
  · rintro ⟨x, hx, h⟩
    by_cases hc : c x
    · rw [if_pos hc] at h
      exact ⟨x, hx, hc, Option.some.inj h⟩
    · rw [if_neg hc] at h
      exact absurd h (by simp)
  · rintro ⟨x, hx, hc, h⟩
    exact ⟨x, hx, by rw [if_pos hc, h]⟩

theorem map_filterMap_ite {α β γ : Type} (l : List α) (c : α → Prop) [DecidablePred c]
    (y : α → β) (φ : β → γ) (ψ : α → γ) (h : ∀ x ∈ l, c x → φ (y x) = ψ x) :
    (l.filterMap fun x => if c x then some (y x) else none).map φ
      = (l.filter fun x => decide (c x)).map ψ := by
  induction l with
  | nil => rfl
  | cons x rest ih =>
    have ih := ih (fun z hz => h z (List.mem_cons_of_mem _ hz))
    rw [List.filterMap_cons, List.filter_cons]
    by_cases hc : c x
    · simp only [hc, if_true, decide_True, List.map_cons]
      rw [ih, h x (List.mem_cons_self _ _) hc]
    · simp only [hc, if_false, decide_False, Bool.false_eq_true]
      exact ih

theorem filterMap_filter_ite {α β : Type} (l : List α) (a : α → Bool) (b c : α → Prop)
    [DecidablePred b] [DecidablePred c] (y : α → β)
    (h : ∀ x ∈ l, c x ↔ a x = true ∧ b x) :
    l.filterMap (fun x => if c x then some (y x) else none)
      = (l.filter a).filterMap fun x => if b x then some (y x) else none := by
  rw [List.filterMap_filter]
  apply List.filterMap_congr
  intro x hx
  have := h x hx
  by_cases ha : a x = true
  · by_cases hb : b x
    · rw [if_pos (this.2 ⟨ha, hb⟩), if_pos ha, if_pos hb]
    · rw [if_neg (fun hc => hb (this.1 hc).2), if_pos ha, if_neg hb]
  · rw [if_neg (fun hc => ha (this.1 hc).1), if_neg ha]

theorem changes_of_map_var_eq :
    ∀ (A B : List FactPair), (A.map fun f => f.var) = (B.map fun f => f.var) →
      (∀ a ∈ A, ∀ b ∈ B, a.var = b.var → a.value ≠ b.value) →
      List.Forall₂ (fun a b : FactPair => a.var = b.var ∧ a.value ≠ b.value) A B := by
  intro A
  induction A with
  | nil =>
    intro B h _
    cases B with
    | nil => exact List.Forall₂.nil
    | cons b rest => exact absurd h (by simp)
  | cons a rest ih =>
    intro B h hv
    cases B with
    | nil => exact absurd h (by simp)
    | cons b restb =>
      rw [List.map_cons, List.map_cons, List.cons.injEq] at h
      exact List.Forall₂.cons
        ⟨h.1, hv a (List.mem_cons_self _ _) b (List.mem_cons_self _ _) h.1⟩
        (ih restb h.2 fun x hx z hz =>
          hv x (List.mem_cons_of_mem _ hx) z (List.mem_cons_of_mem _ hz))

theorem changes_filterMap (c : Nat → Prop) [DecidablePred c] (idx : Nat → Nat)
    {A B : List FactPair}
    (h : List.Forall₂ (fun a b : FactPair => a.var = b.var ∧ a.value ≠ b.value) A B) :
    List.Forall₂ (fun a b : FactPair => a.var = b.var ∧ a.value ≠ b.value)
      (A.filterMap fun x => if c x.var then some (⟨idx x.var, x.value⟩ : FactPair) else none)
      (B.filterMap fun x => if c x.var then some (⟨idx x.var, x.value⟩ : FactPair) else none) := by
  induction h with
  | nil => exact List.Forall₂.nil
  | @cons a b la lb hab _ ih =>
    rw [List.filterMap_cons, List.filterMap_cons]
    by_cases hc : c a.var
    · have hc' : c b.var := by rw [← hab.1]; exact hc
      simp only [hc, hc', if_true]
      exact List.Forall₂.cons ⟨by rw [hab.1], hab.2⟩ ih
    · have hc' : ¬ c b.var := by rw [← hab.1]; exact hc
      simp only [hc, hc', if_false]
      exact ih

/-- The position of a pattern variable that `variable_to_pattern_index` holds. -/
theorem pattern_index_spec (nv : Nat) (pattern : List Nat) (hnd : pattern.Nodup)
    (hlt : ∀ v ∈ pattern, v < nv) (x : Nat)
    (h : (variable_to_pattern_index nv pattern).getD x (-1) ≠ -1) :
    ((variable_to_pattern_index nv pattern).getD x (-1)).toNat < pattern.length ∧
      pattern.getD ((variable_to_pattern_index nv pattern).getD x (-1)).toNat 0 = x := by
  obtain ⟨h1, h2⟩ := variable_to_pattern_index_spec nv pattern hnd hlt x
  by_cases hx : x ∈ pattern
  · obtain ⟨i, hi, e1, e2⟩ := h1 hx
    rw [e2, Int.toNat_natCast]
    exact ⟨hi, e1⟩
  · exact absurd (h2 hx) h

theorem mem_get_variables (op : OperatorProxy) (x : Nat) :
    x ∈ TaskInfo.get_variables op ↔
      (∃ f ∈ op.preconditions, f.var = x) ∨ ∃ f ∈ op.effects, f.var = x := by
  unfold TaskInfo.get_variables
  rw [List.mem_insertionSort, List.mem_dedup, List.mem_append, List.mem_map, List.mem_map]

/-- The calls of the callback of `build_abstract_operators` for a well formed operator. -/
theorem build_abstract_operators_spec (op : OperatorProxy) (pattern domain_sizes : List Nat)
    (hnd : pattern.Nodup) (hlt : ∀ v ∈ pattern, v < domain_sizes.length)
    (hop : op.WellFormed domain_sizes) :
    ∀ call ∈ build_abstract_operators op pattern
        (variable_to_pattern_index domain_sizes.length pattern) domain_sizes,
      AbstractCall (pattern.map fun var => domain_sizes.getD var 0)
        (fun i => pattern.getD i 0 ∈ TaskInfo.get_variables op) call := by
  intro call hcall
  unfold build_abstract_operators at hcall
  simp only [] at hcall
  obtain ⟨w1, w2, w3, w4, w5⟩ := hop
  have hidx := pattern_index_spec domain_sizes.length pattern hnd hlt
  have hpre : ∀ x ∈ op.preconditions,
      x.var < domain_sizes.length ∧ x.value < domain_sizes.getD x.var 0 ∧
        x.var ∈ TaskInfo.get_variables op := by
    intro x hx
    have := w1 x (List.mem_append_left _ hx)
    exact ⟨this.1, this.2, (mem_get_variables op x.var).2 (Or.inl ⟨x, hx, rfl⟩)⟩
  have heff : ∀ x ∈ op.effects,
      x.var < domain_sizes.length ∧ x.value < domain_sizes.getD x.var 0 ∧
        x.var ∈ TaskInfo.get_variables op := by
    intro x hx
    have := w1 x (List.mem_append_right _ hx)
    exact ⟨this.1, this.2, (mem_get_variables op x.var).2 (Or.inr ⟨x, hx, rfl⟩)⟩
  refine multiply_out_spec pattern domain_sizes _ _ _ _ _ ?_ ?_ ?_ ?_ call hcall
  · rw [filterMap_filter_ite op.preconditions
        (fun pre => op.effects.any fun eff => decide (eff.var = pre.var))
        (fun pre => (variable_to_pattern_index domain_sizes.length pattern).getD pre.var (-1)
          ≠ -1),
      filterMap_filter_ite op.effects
        (fun eff => op.preconditions.any fun pre => decide (pre.var = eff.var))
        (fun eff => (variable_to_pattern_index domain_sizes.length pattern).getD eff.var (-1)
          ≠ -1)]
    · exact changes_filterMap
        (fun v => (variable_to_pattern_index domain_sizes.length pattern).getD v (-1) ≠ -1)
        (fun v => ((variable_to_pattern_index domain_sizes.length pattern).getD v (-1)).toNat)
        (changes_of_map_var_eq _ _ w5 (fun a ha b hb =>
          w4 a (List.mem_of_mem_filter ha) b (List.mem_of_mem_filter hb)))
    · intro x _
      exact and_comm
    · intro x hx
      simp only [Bool.and_eq_true, List.any_eq_true, decide_eq_true_eq]
      constructor
      · rintro ⟨h1, _, e, he, h2, _⟩
        exact ⟨⟨e, he, h2⟩, h1⟩
      · rintro ⟨⟨e, he, h2⟩, h1⟩
        exact ⟨h1, ⟨x, hx, rfl⟩, e, he, h2, by rw [h2]; exact h1⟩
  · apply List.Nodup.of_map (fun i => pattern.getD i 0)
    rw [List.map_map, List.map_append,
      map_filterMap_ite op.preconditions _ _ _ (fun x => x.var)
        (fun x _ hc => (hidx x.var hc.1).2),
      map_filterMap_ite op.effects _ _ _ (fun x => x.var)
        (fun x _ hc => (hidx x.var hc.1).2),
      List.nodup_append]
    refine ⟨w2.sublist ((List.filter_sublist _).map _),
      w3.sublist ((List.filter_sublist _).map _), ?_⟩
    intro v hv1 hv2
    obtain ⟨a, ha, rfl⟩ := List.mem_map.1 hv1
    obtain ⟨b, hb, hab⟩ := List.mem_map.1 hv2
    have hb2 := (List.mem_filter.1 hb).2
    simp only [decide_eq_true_eq, List.any_eq_true, not_exists, not_and] at hb2
    exact hb2.2 a (List.mem_of_mem_filter ha) hab.symm
  · intro f hf
    simp only [List.mem_append, mem_filterMap_ite] at hf
    rcases hf with (⟨x, hx, hc, rfl⟩ | ⟨x, hx, hc, rfl⟩) | ⟨x, hx, hc, rfl⟩
    · obtain ⟨i1, i2⟩ := hidx x.var hc.1
      refine ⟨i1, ?_, ?_⟩
      · show x.value < _
        rw [i2]
        exact (hpre x hx).2.1
      · show pattern.getD _ 0 ∈ _
        rw [i2]
        exact (hpre x hx).2.2
    · obtain ⟨i1, i2⟩ := hidx x.var hc.1
      refine ⟨i1, ?_, ?_⟩
      · show x.value < _
        rw [i2]
        exact (hpre x hx).2.1
      · show pattern.getD _ 0 ∈ _
        rw [i2]
        exact (hpre x hx).2.2
    · obtain ⟨i1, i2⟩ := hidx x.var hc.1
      refine ⟨i1, ?_, ?_⟩
      · show x.value < _
        rw [i2]
        exact (heff x hx).2.1
      · show pattern.getD _ 0 ∈ _
        rw [i2]
        exact (heff x hx).2.2
  · intro f hf
    rw [mem_filterMap_ite] at hf
    obtain ⟨x, hx, hc, rfl⟩ := hf
    obtain ⟨_, i2⟩ := hidx x.var hc.1
    show x.value < _
    rw [i2]
    exact (heff x hx).2.1

end calls

/-! ## The loop of `convert_abstraction` over the operators -/

section factory

theorem foldl_invariant_mem {X α : Type} (P : X → Prop) (step : X → α → X) (l : List α)
    (hstep : ∀ i ∈ l, ∀ x, P x → P (step x i)) : ∀ x, P x → P (l.foldl step x) := by
  induction l with
  | nil => intro x hx; exact hx
  | cons a l ih =>
    intro x hx
    rw [List.foldl_cons]
    exact ih (fun i hi => hstep i (List.mem_cons_of_mem _ hi)) _
      (hstep a (List.mem_cons_self _ _) x hx)

theorem add_abstract_operator_consistent (task : TaskProxy) (task_info : TaskInfo)
    (pattern hash_multipliers : List Nat) (op_id : Nat) (hop : op_id < task.operators.length)
    (call : List FactPair × List FactPair × List FactPair)
    (hcall : call ∈ build_abstract_operators (task.operators.getD op_id default) pattern
      (variable_to_pattern_index task.domain_sizes.length pattern) task.domain_sizes)
    (acc : AbstractOperators)
    (h : acc.Consistent task task_info pattern hash_multipliers) :
    (add_abstract_operator task_info pattern hash_multipliers op_id acc call).Consistent
      task task_info pattern hash_multipliers := by
  have hb : ∀ b, b < acc.abstract_backward_operators.length →
      (acc.abstract_backward_operators ++
        [(⟨op_id, compute_hash_effect call.2.1 call.2.2 hash_multipliers false⟩ :
          AbstractBackwardOperator)]).getD b default
        = acc.abstract_backward_operators.getD b default :=
    fun b hb => List.getD_append _ _ _ _ hb
  have hlast : (acc.abstract_backward_operators ++
        [(⟨op_id, compute_hash_effect call.2.1 call.2.2 hash_multipliers false⟩ :
          AbstractBackwardOperator)]).getD acc.abstract_backward_operators.length default
        = ⟨op_id, compute_hash_effect call.2.1 call.2.2 hash_multipliers false⟩ := by
    rw [List.getD_append_right _ _ _ _ (le_refl _), Nat.sub_self]
    rfl
  have hsum : ∀ a, a ≤ acc.abstract_backward_operators.length →
      ((List.range a).map fun b =>
        task_info.get_num_transitions_from_abstract_operator pattern
          ((acc.abstract_backward_operators ++
            [(⟨op_id, compute_hash_effect call.2.1 call.2.2 hash_multipliers false⟩ :
              AbstractBackwardOperator)]).getD b default).concrete_operator_id)
      = (List.range a).map fun b =>
        task_info.get_num_transitions_from_abstract_operator pattern
          (acc.abstract_backward_operators.getD b default).concrete_operator_id := by
    intro a ha
    apply List.map_congr_left
    intro b hb'
    rw [hb b (by rw [List.mem_range] at hb'; omega)]
  unfold add_abstract_operator
  refine ⟨?_, ?_, ?_, ?_, ?_⟩
  · simp only [List.length_append, List.length_singleton, h.forward]
  · simp only [List.length_append, List.length_singleton, h.offsets]
  · intro a ha
    simp only [List.length_append, List.length_singleton] at ha
    simp only
    rw [hsum a (by omega)]
    by_cases hlt : a < acc.abstract_backward_operators.length
    · rw [List.getD_append _ _ _ _ (by rw [h.offsets]; exact hlt)]
      exact h.offset a hlt
    · have ha' : a = acc.abstract_backward_operators.length := by omega
      rw [ha', List.getD_append_right _ _ _ _ (by rw [h.offsets]), h.offsets, Nat.sub_self]
      exact h.total
  · simp only [List.length_append, List.length_singleton]
    rw [List.range_succ, List.map_append, List.sum_append, hsum _ (le_refl _), ← h.total]
    simp only [List.map_cons, List.map_nil, List.sum_cons, List.sum_nil, Nat.add_zero]
    rw [hlast]
  · intro a ha
    simp only [List.length_append, List.length_singleton] at ha
    simp only
    by_cases hlt : a < acc.abstract_backward_operators.length
    · rw [hb a hlt, List.getD_append _ _ _ _ (by rw [h.forward]; exact hlt)]
      exact h.calls a hlt
    · have ha' : a = acc.abstract_backward_operators.length := by omega
      rw [ha', hlast]
      refine ⟨hop, call, hcall, ?_⟩
      rw [List.getD_append_right _ _ _ _ (by rw [h.forward]), h.forward, Nat.sub_self]
      rfl

theorem compute_abstract_operators_consistent (task : TaskProxy) (task_info : TaskInfo)
    (pattern hash_multipliers : List Nat) :
    (compute_abstract_operators task task_info pattern hash_multipliers).Consistent
      task task_info pattern hash_multipliers := by
  unfold compute_abstract_operators
  apply foldl_invariant
  · intro op_id hop acc hacc
    rw [List.mem_range] at hop
    apply foldl_invariant_mem _ _ _ _ acc hacc
    intro call hcall x hx
    exact add_abstract_operator_consistent task task_info pattern hash_multipliers op_id hop
      call hcall x hx
  · refine ⟨rfl, rfl, ?_, rfl, ?_⟩
    · intro a ha
      exact absurd ha (Nat.not_lt_zero _)
    · intro a ha
      exact absurd ha (Nat.not_lt_zero _)

/-- The members of a projection that `convert_abstraction` builds fit together. -/
theorem convert_abstraction_consistent {task : TaskProxy} {pattern : List Nat}
    (htask : task.WellFormed) (hlt : ∀ var ∈ pattern, var < task.domain_sizes.length)
    {r : Projection × MatchTree × MatchTree}
    (h : ProjectionFactory.convert_abstraction task pattern (TaskInfo.create task) = some r) :
    r.1.Consistent := by
  obtain ⟨hm, h1, h2, h3, h4, h5, h6, h7, h8, h9, h10, _⟩ := convert_abstraction_some h
  obtain ⟨s1, s2, s3⟩ := compute_hash_multipliers_spec h1
  have hc := compute_abstract_operators_consistent task (TaskInfo.create task) pattern hm.1
  refine ⟨?_, ?_, ?_, ?_, ?_, ?_, ?_, ?_, ?_⟩
  · rw [h4, h6]
    exact s1
  · rw [h6, h2, h3]
    rfl
  · rw [h6]
    intro d hd
    obtain ⟨var, hvar, rfl⟩ := List.mem_map.1 hd
    have hl := hlt var hvar
    rw [List.getD_eq_getElem _ _ hl]
    exact htask.1 _ (List.getElem_mem hl)
  · rw [h5, h6]
    exact s2
  · rw [h5]
    exact s3
  · rw [h7, h8]
    exact hc.forward.symm
  · rw [h9, h7, hc.forward]
    exact hc.offsets
  · intro a ha
    rw [h7, hc.forward] at ha
    rw [h9, h8, h2, h3]
    exact hc.offset a ha
  · rw [h10, h7, h8, h2, h3, hc.forward]
    exact hc.total

end factory

/-! ## The source and the target of the transitions of an abstract operator -/

section semantics

theorem getD_foldl_set_int_cases (facts : List FactPair) :
    ∀ (a : List Int) (x : Nat),
      (facts.foldl (fun a f => a.set f.var (f.value : Int)) a).getD x (-1) = a.getD x (-1) ∨
      ∃ f ∈ facts, f.var = x ∧
        (facts.foldl (fun a f => a.set f.var (f.value : Int)) a).getD x (-1) = (f.value : Int) := by
  induction facts with
  | nil => intro a x; exact Or.inl rfl
  | cons g rest ih =>
    intro a x
    rw [List.foldl_cons]
    rcases ih (a.set g.var (g.value : Int)) x with h | ⟨f, hf, h1, h2⟩
    · rw [h, getD_set_eq]
      by_cases hc : g.var = x ∧ g.var < a.length
      · rw [if_pos hc]
        exact Or.inr ⟨g, List.mem_cons_self _ _, hc.1, rfl⟩
      · rw [if_neg hc]
        exact Or.inl rfl
    · exact Or.inr ⟨f, List.mem_cons_of_mem _ hf, h1, h2⟩

theorem getD_foldl_set_int_other (facts : List FactPair) :
    ∀ (a : List Int) (x : Nat), (∀ f ∈ facts, f.var ≠ x) →
      (facts.foldl (fun a f => a.set f.var (f.value : Int)) a).getD x (-1) = a.getD x (-1) := by
  induction facts with
  | nil => intro a x _; rfl
  | cons g rest ih =>
    intro a x h
    rw [List.foldl_cons, ih _ x (fun f hf => h f (List.mem_cons_of_mem _ hf)), getD_set_eq,
      if_neg (fun hc => h g (List.mem_cons_self _ _) hc.1)]

theorem length_foldl_set_int (facts : List FactPair) :
    ∀ (a : List Int),
      (facts.foldl (fun a f => a.set f.var (f.value : Int)) a).length = a.length := by
  induction facts with
  | nil => intro a; rfl
  | cons g rest ih => intro a; rw [List.foldl_cons, ih, List.length_set]

theorem getD_foldl_set_int (facts : List FactPair) :
    ∀ (a : List Int), (facts.map fun f => f.var).Nodup →
      ∀ f ∈ facts, f.var < a.length →
        (facts.foldl (fun a f => a.set f.var (f.value : Int)) a).getD f.var (-1)
          = (f.value : Int) := by
  induction facts with
  | nil => intro a _ f hf; exact absurd hf (List.not_mem_nil _)
  | cons g rest ih =>
    intro a hnd f hf hlt
    rw [List.map_cons, List.nodup_cons] at hnd
    rw [List.foldl_cons]
    rcases List.mem_cons.1 hf with h | h
    · rw [h, getD_foldl_set_int_other rest _ _ ?_, getD_set_eq,
        if_pos ⟨rfl, by rw [← h]; exact hlt⟩]
      intro f' hf' hc
      exact hnd.1 (List.mem_map.2 ⟨f', hf', hc⟩)
    · exact ih _ hnd.2 f h (by rw [List.length_set]; exact hlt)

/-- The entries of the vector that `get_abstract_preconditions` returns: `-1` or the value
of a fact on the position. -/
theorem get_abstract_preconditions_cases (prev pre : List FactPair) (m : List Nat) (x : Nat) :
    (get_abstract_preconditions prev pre m).getD x (-1) = -1 ∨
      ∃ f ∈ prev ++ pre, f.var = x ∧
        (get_abstract_preconditions prev pre m).getD x (-1) = (f.value : Int) := by
  unfold get_abstract_preconditions
  rcases getD_foldl_set_int_cases pre
    (prev.foldl (fun a f => a.set f.var (f.value : Int)) (List.replicate m.length (-1))) x
    with h | ⟨f, hf, h1, h2⟩
  · rcases getD_foldl_set_int_cases prev (List.replicate m.length (-1)) x
      with h' | ⟨f, hf, h1, h2⟩
    · left
      rw [h, h', List.getD_eq_getElem?_getD, List.getElem?_replicate]
      split <;> rfl
    · exact Or.inr ⟨f, List.mem_append_left _ hf, h1, by rw [h, h2]⟩
  · exact Or.inr ⟨f, List.mem_append_right _ hf, h1, h2⟩

/-- The vector that `get_abstract_preconditions` returns holds the values of the
preconditions. -/
theorem get_abstract_preconditions_pre (prev pre : List FactPair) (m : List Nat)
    (hnd : (pre.map fun f => f.var).Nodup) (f : FactPair) (hf : f ∈ pre)
    (hlt : f.var < m.length) :
    (get_abstract_preconditions prev pre m).getD f.var (-1) = (f.value : Int) := by
  unfold get_abstract_preconditions
  apply getD_foldl_set_int pre _ hnd f hf
  rw [length_foldl_set_int, List.length_replicate]
  exact hlt

/-- The sum `precondition_hash` is the hash of the values of the abstract preconditions. -/
theorem compute_precondition_hash_eq (m : List Nat) (arr : List Int)
    (harr : ∀ x, arr.getD x (-1) = -1 ∨ 0 ≤ arr.getD x (-1)) :
    compute_precondition_hash m arr
      = (partial_hash m (fun x => (arr.getD x (-1)).toNat) m.length : Int) := by
  unfold compute_precondition_hash
  generalize m.length = n
  induction n with
  | zero => rfl
  | succ n ih =>
    rw [List.range_succ, List.foldl_append, ih, partial_hash_succ]
    simp only [List.foldl_cons, List.foldl_nil]
    rcases harr n with h | h
    · rw [h]
      simp
    · have hne : arr.getD n (-1) ≠ -1 := by omega
      rw [if_pos hne]
      push_cast
      rw [Int.toNat_of_nonneg h]

theorem partial_hash_add (m : List Nat) (v w : Nat → Nat) :
    ∀ n, partial_hash m v n + partial_hash m w n = partial_hash m (fun i => v i + w i) n := by
  intro n
  induction n with
  | zero => rfl
  | succ n ih =>
    rw [partial_hash_succ, partial_hash_succ, partial_hash_succ, ← ih, Nat.mul_add]
    omega

theorem foldl_range_zip {α β γ : Type} (g : γ → α → β → γ) (d1 : α) (d2 : β) :
    ∀ (l1 : List α) (l2 : List β) (init : γ), l1.length = l2.length →
      (List.range l1.length).foldl (fun h i => g h (l1.getD i d1) (l2.getD i d2)) init
        = (l1.zip l2).foldl (fun h ab => g h ab.1 ab.2) init := by
  intro l1
  induction l1 with
  | nil => intro l2 init _; rfl
  | cons a rest ih =>
    intro l2 init hlen
    cases l2 with
    | nil => exact absurd hlen (by simp)
    | cons b restb =>
      rw [List.length_cons, List.range_succ_eq_map, List.foldl_cons, List.foldl_map,
        List.zip_cons_cons, List.foldl_cons]
      simp only [List.getD_cons_zero, Nat.succ_eq_add_one, List.getD_cons_succ]
      exact ih restb _ (by simpa using hlen)

theorem foldl_facts_sum (m : List Nat) (facts : List FactPair) :
    ∀ start : Nat,
      facts.foldl (fun state fact => state + m.getD fact.var 0 * fact.value) start
        = start + (facts.map fun f => m.getD f.var 0 * f.value).sum := by
  induction facts with
  | nil => intro start; rfl
  | cons f rest ih =>
    intro start
    rw [List.foldl_cons, ih, List.map_cons, List.sum_cons]
    omega

theorem facts_sum_eq_partial_hash (m : List Nat) (k : Nat) (facts : List FactPair)
    (hnd : (facts.map fun f => f.var).Nodup) (hlt : ∀ f ∈ facts, f.var < k) :
    (facts.map fun f => m.getD f.var 0 * f.value).sum
      = partial_hash m (facts_value facts) k := by
  have h1 := foldl_facts_eq_partial_hash m k facts 0 hnd hlt
  rw [foldl_facts_sum] at h1
  omega

theorem changes_map_var {pre eff : List FactPair}
    (h : List.Forall₂ (fun a b : FactPair => a.var = b.var ∧ a.value ≠ b.value) pre eff) :
    (pre.map fun f => f.var) = eff.map fun f => f.var := by
  induction h with
  | nil => rfl
  | cons hab _ ih => rw [List.map_cons, List.map_cons, hab.1, ih]

/-- The forward hash effect is the difference of the sums of the effects and of the
preconditions. -/
theorem compute_hash_effect_forward (m : List Nat) {pre eff : List FactPair}
    (h : List.Forall₂ (fun a b : FactPair => a.var = b.var ∧ a.value ≠ b.value) pre eff) :
    compute_hash_effect pre eff m true
      = ((eff.map fun f => m.getD f.var 0 * f.value).sum : Int)
        - ((pre.map fun f => m.getD f.var 0 * f.value).sum : Int) := by
  unfold compute_hash_effect
  simp only [Bool.not_true, Bool.false_eq_true, if_false]
  rw [foldl_range_zip
    (fun (hash_effect : Int) (a b : FactPair) =>
      hash_effect + ((b.value : Int) - (a.value : Int)) * (m.getD a.var 0 : Int))
    ⟨0, 0⟩ ⟨0, 0⟩ pre eff 0 h.length_eq]
  have key : ∀ init : Int,
      (pre.zip eff).foldl
        (fun (hash_effect : Int) (ab : FactPair × FactPair) =>
          hash_effect + ((ab.2.value : Int) - (ab.1.value : Int)) * (m.getD ab.1.var 0 : Int))
        init
      = init + ((eff.map fun f => m.getD f.var 0 * f.value).sum : Int)
        - ((pre.map fun f => m.getD f.var 0 * f.value).sum : Int) := by
    induction h with
    | nil => intro init; simp
    | @cons a b la lb hab _ ih =>
      intro init
      rw [List.zip_cons_cons, List.foldl_cons, ih, List.map_cons, List.map_cons, List.sum_cons,
        List.sum_cons, hab.1]
      push_cast
      ring
  rw [key 0]
  ring

/-- The transitions of an abstract operator lead from a state to another state: the state
that the loop of `for_each_transition` computes from facts on positions the operator does
not mention, and the state that the hash effect of the operator leads to from it, are
different states of the projection. -/
theorem abstract_operator_transition {m sizes : List Nat} (hm : HashMultipliers m sizes)
    (hpos : ∀ d ∈ sizes, 1 ≤ d) (mentioned : Nat → Prop)
    (call : List FactPair × List FactPair × List FactPair)
    (hcall : AbstractCall sizes mentioned call) (F : List FactPair)
    (hFnd : (F.map fun f => f.var).Nodup)
    (hF : ∀ f ∈ F, f.var < sizes.length ∧ f.value < sizes.getD f.var 0 ∧ ¬ mentioned f.var) :
    F.foldl (fun state fact => state + m.getD fact.var 0 * fact.value)
        (compute_precondition_hash m (get_abstract_preconditions call.1 call.2.1 m)).toNat
      < sizes.prod ∧
    (((F.foldl (fun state fact => state + m.getD fact.var 0 * fact.value)
        (compute_precondition_hash m (get_abstract_preconditions call.1 call.2.1 m)).toNat
        : Nat) : Int) + compute_hash_effect call.2.1 call.2.2 m true).toNat < sizes.prod ∧
    F.foldl (fun state fact => state + m.getD fact.var 0 * fact.value)
        (compute_precondition_hash m (get_abstract_preconditions call.1 call.2.1 m)).toNat
      ≠ (((F.foldl (fun state fact => state + m.getD fact.var 0 * fact.value)
        (compute_precondition_hash m (get_abstract_preconditions call.1 call.2.1 m)).toNat
        : Nat) : Int) + compute_hash_effect call.2.1 call.2.2 m true).toNat := by
  obtain ⟨prev, pre, eff⟩ := call
  obtain ⟨c1, c2, c3, c4, c5⟩ := hcall
  simp only at c1 c2 c3 c4 c5 ⊢
  have hk : m.length = sizes.length := hm.1
  have hA1 := get_abstract_preconditions_cases prev pre m
  have hA2 : ∀ f ∈ pre, (get_abstract_preconditions prev pre m).getD f.var (-1)
      = (f.value : Int) := fun f hf =>
    get_abstract_preconditions_pre prev pre m c3 f hf
      (by rw [hk]; exact (c4 f (List.mem_append_right _ hf)).1)
  generalize get_abstract_preconditions prev pre m = arr at hA1 hA2 ⊢
  have hW := compute_precondition_hash_eq m arr (by
    intro x
    rcases hA1 x with h | ⟨f, _, _, h⟩
    · exact Or.inl h
    · right
      rw [h]
      exact Int.natCast_nonneg _)
  rw [hW, Int.toNat_natCast, hk,
    foldl_facts_eq_partial_hash m sizes.length F _ hFnd (fun f hf => (hF f hf).1),
    partial_hash_add]
  have hvars := changes_map_var c1
  have heffnd : (eff.map fun f => f.var).Nodup := by rw [← hvars]; exact c3
  have hnotF : ∀ j, mentioned j → facts_value F j = 0 := by
    intro j hj
    apply facts_value_of_not_mem
    intro hc
    obtain ⟨g, hg, hgj⟩ := List.mem_map.1 hc
    exact (hF g hg).2.2 (by rw [hgj]; exact hj)
  have hAv : ∀ j, j < sizes.length →
      (arr.getD j (-1)).toNat + facts_value F j < sizes.getD j 0 := by
    intro j hj
    rcases hA1 j with h | ⟨f, hf, hfj, hval⟩
    · rw [h]
      have : facts_value F j < sizes.getD j 0 :=
        facts_value_lt hpos (fun f hf => (hF f hf).2.1) hj
      simpa using this
    · rw [hval, Int.toNat_natCast, hnotF j (by rw [← hfj]; exact (c4 f hf).2.2), ← hfj]
      exact (c4 f hf).2.1
  have hAi : ∀ f ∈ pre, (arr.getD f.var (-1)).toNat + facts_value F f.var = f.value := by
    intro f hf
    rw [hA2 f hf, Int.toNat_natCast,
      hnotF f.var (c4 f (List.mem_append_right _ hf)).2.2, Nat.add_zero]
  have hA'v : ∀ j, j < sizes.length →
      (if j ∈ pre.map fun f => f.var then facts_value eff j
        else (arr.getD j (-1)).toNat + facts_value F j) < sizes.getD j 0 := by
    intro j hj
    split_ifs with h
    · exact facts_value_lt hpos c5 hj
    · exact hAv j hj
  have key : ∀ j, j < sizes.length →
      (if j ∈ pre.map fun f => f.var then facts_value eff j
        else (arr.getD j (-1)).toNat + facts_value F j) + facts_value pre j
      = (arr.getD j (-1)).toNat + facts_value F j + facts_value eff j := by
    intro j _
    split_ifs with h
    · obtain ⟨f, hf, hfj⟩ := List.mem_map.1 h
      rw [← hfj, hAi f hf, facts_value_of_mem c3 hf]
      omega
    · have h' : j ∉ eff.map fun f => f.var := by rw [← hvars]; exact h
      rw [facts_value_of_not_mem h, facts_value_of_not_mem h']
  have hsum := partial_hash_congr m sizes.length key
  rw [← partial_hash_add, ← partial_hash_add] at hsum
  have hE := compute_hash_effect_forward m c1
  rw [facts_sum_eq_partial_hash m sizes.length eff heffnd (by
      intro f hf
      obtain ⟨g, hg, hgf⟩ : ∃ g ∈ pre, g.var = f.var := by
        have : f.var ∈ pre.map fun f => f.var := by
          rw [hvars]
          exact List.mem_map.2 ⟨f, hf, rfl⟩
        obtain ⟨g, hg, hgf⟩ := List.mem_map.1 this
        exact ⟨g, hg, hgf⟩
      rw [← hgf]
      exact (c4 g (List.mem_append_right _ hg)).1),
    facts_sum_eq_partial_hash m sizes.length pre c3
      (fun f hf => (c4 f (List.mem_append_right _ hf)).1)] at hE
  have htarget : ((partial_hash m
        (fun i => (arr.getD i (-1)).toNat + facts_value F i) sizes.length : Nat) : Int)
      + compute_hash_effect pre eff m true
      = ((partial_hash m
        (fun j => if j ∈ pre.map fun f => f.var then facts_value eff j
          else (arr.getD j (-1)).toNat + facts_value F j) sizes.length : Nat) : Int) := by
    rw [hE]
    have : ((partial_hash m
        (fun j => if j ∈ pre.map fun f => f.var then facts_value eff j
          else (arr.getD j (-1)).toNat + facts_value F j) sizes.length : Nat) : Int)
        + (partial_hash m (facts_value pre) sizes.length : Int)
        = ((partial_hash m
            (fun i => (arr.getD i (-1)).toNat + facts_value F i) sizes.length : Nat) : Int)
          + (partial_hash m (facts_value eff) sizes.length : Int) := by
      exact_mod_cast hsum
    omega
  rw [htarget, Int.toNat_natCast]
  refine ⟨partial_hash_lt_prod hm hAv, partial_hash_lt_prod hm hA'v, ?_⟩
  intro heq
  cases c1 with
  | nil => exact c2 rfl
  | @cons a b la lb hab _ =>
    have hi0 : a.var < sizes.length := (c4 a (by simp)).1
    have h1 := partial_hash_injective hm hAv hA'v heq a.var hi0
    rw [hAi a (List.mem_cons_self _ _),
      if_pos (List.mem_map.2 ⟨a, List.mem_cons_self _ _, rfl⟩), facts_value_cons,
      if_pos hab.1.symm] at h1
    exact hab.2 h1

end semantics

/-! ## C32: the transitions that a projection enumerates -/

section well_formed

/-- The transitions of an abstract operator of a projection that `convert_abstraction`
builds lead from a state of the projection to another one. -/
theorem convert_abstraction_transition {task : TaskProxy} {pattern : List Nat}
    (htask : task.WellFormed) (hpattern : PatternValid task.domain_sizes pattern)
    {r : Projection × MatchTree × MatchTree}
    (h : ProjectionFactory.convert_abstraction task pattern (TaskInfo.create task) = some r)
    (a : Nat) (ha : a < r.1.abstract_forward_operators.length) (F : List FactPair)
    (hvars : (F.map fun f => f.var)
      = r.1.unmentioned_positions
          (r.1.abstract_backward_operators.getD a default).concrete_operator_id)
    (hv : ∀ f ∈ F, f.value < r.1.pattern_domain_sizes.getD f.var 0) :
    r.1.match_state (r.1.abstract_forward_operators.getD a default) F < r.1.num_states ∧
    ((r.1.match_state (r.1.abstract_forward_operators.getD a default) F : Int)
      + (r.1.abstract_forward_operators.getD a default).hash_effect).toNat < r.1.num_states ∧
    r.1.match_state (r.1.abstract_forward_operators.getD a default) F
      ≠ ((r.1.match_state (r.1.abstract_forward_operators.getD a default) F : Int)
        + (r.1.abstract_forward_operators.getD a default).hash_effect).toNat := by
  have hnd : pattern.Nodup := hpattern.1.imp (fun h => Nat.ne_of_lt h)
  have hlt := hpattern.2.2
  have hc := convert_abstraction_consistent htask hlt h
  obtain ⟨hm, h1, h2, h3, h4, h5, h6, h7, h8, h9, h10, _⟩ := convert_abstraction_some h
  obtain ⟨s1, s2, _⟩ := compute_hash_multipliers_spec h1
  have hops := compute_abstract_operators_consistent task (TaskInfo.create task) pattern hm.1
  rw [h7, hops.forward] at ha
  obtain ⟨hcid, call, hcall, hfwd⟩ := hops.calls a ha
  have hop : (task.operators.getD
      ((compute_abstract_operators task (TaskInfo.create task) pattern
        hm.1).abstract_backward_operators.getD a default).concrete_operator_id default).WellFormed
      task.domain_sizes := by
    apply htask.2
    rw [List.getD_eq_getElem _ _ hcid]
    exact List.getElem_mem hcid
  have hspec := build_abstract_operators_spec _ pattern task.domain_sizes hnd hlt hop call hcall
  have hk : (pattern.map fun var => task.domain_sizes.getD var 0).length = pattern.length := by
    simp
  have hFpos : ∀ f ∈ F, f.var < pattern.length ∧
      (TaskInfo.create task).operator_mentions_variable
        ((compute_abstract_operators task (TaskInfo.create task) pattern
          hm.1).abstract_backward_operators.getD a default).concrete_operator_id
        (pattern.getD f.var 0) = false := by
    intro f hf
    have : f.var ∈ F.map fun f => f.var := List.mem_map.2 ⟨f, hf, rfl⟩
    rw [hvars] at this
    unfold Projection.unmentioned_positions at this
    rw [h2, h3, h8, List.mem_filter, List.mem_range] at this
    exact ⟨this.1, by simpa using this.2⟩
  have hFnd : (F.map fun f => f.var).Nodup := by
    rw [hvars]
    unfold Projection.unmentioned_positions
    exact (List.nodup_range _).filter _
  have hres := abstract_operator_transition s1
    (by
      intro d hd
      obtain ⟨var, hvar, rfl⟩ := List.mem_map.1 hd
      have hl := hlt var hvar
      rw [List.getD_eq_getElem _ _ hl]
      exact htask.1 _ (List.getElem_mem hl))
    _ call hspec F hFnd
    (by
      intro f hf
      obtain ⟨p1, p2⟩ := hFpos f hf
      refine ⟨by rw [hk]; exact p1, by rw [← h6]; exact hv f hf, ?_⟩
      intro hment
      have hvlt : pattern.getD f.var 0 < task.domain_sizes.length :=
        hlt _ (getD_mem_pattern p1)
      have := (bget_fill_table task.domain_sizes.length task.operators TaskInfo.get_variables
        (by
          intro op hop' v hv'
          rcases (mem_get_variables op v).1 hv' with ⟨g, hg, hgv⟩ | ⟨g, hg, hgv⟩
          · rw [← hgv]
            exact ((htask.2 op hop').1 g (List.mem_append_left _ hg)).1
          · rw [← hgv]
            exact ((htask.2 op hop').1 g (List.mem_append_right _ hg)).1)
        hcid hvlt).2 hment
      have e : (TaskInfo.create task).operator_mentions_variable
          ((compute_abstract_operators task (TaskInfo.create task) pattern
            hm.1).abstract_backward_operators.getD a default).concrete_operator_id
          (pattern.getD f.var 0)
          = bget (TaskInfo.fill_table task.domain_sizes.length task.operators
              TaskInfo.get_variables)
            (((compute_abstract_operators task (TaskInfo.create task) pattern
              hm.1).abstract_backward_operators.getD a default).concrete_operator_id
              * task.domain_sizes.length + pattern.getD f.var 0) := rfl
      rw [e, this] at p2
      exact absurd p2 (by simp))
  unfold Projection.match_state
  rw [h7, hfwd, h4, h5, s2]
  exact hres

/-- C32: for the projection that `convert_abstraction` builds for a task in normal form
and a pattern of its variables, `for_each_transition` passes to the callback transitions
with the ids `0, 1, ..., T - 1` in this order, where `T = get_num_transitions()`, and every
transition it passes has a source and a target in `[0, N)`, `N = get_num_states()`, that
differ; and it returns when the fuel suffices. -/
theorem projection_enumeration_well_formed (task : TaskProxy) (pattern : List Nat)
    (htask : task.WellFormed) (hpattern : PatternValid task.domain_sizes pattern)
    (r : Projection × MatchTree × MatchTree)
    (h : ProjectionFactory.convert_abstraction task pattern (TaskInfo.create task) = some r)
    (fuel : Nat) :
    (∀ ts, r.1.for_each_transition fuel = some ts →
      (ts.map fun t => t.transition_id) = List.range r.1.num_transitions ∧
      ∀ t ∈ ts, t.source_id ≠ t.target_id ∧ t.source_id < r.1.num_states ∧
        t.target_id < r.1.num_states) ∧
    (r.1.enumeration_fuel ≤ fuel → ∃ ts, r.1.for_each_transition fuel = some ts) := by
  have hc := convert_abstraction_consistent htask hpattern.2.2 h
  refine ⟨?_, fun hf => for_each_transition_returns r.1 hf⟩
  intro ts hts
  unfold Projection.for_each_transition at hts
  rw [Option.map_eq_some'] at hts
  obtain ⟨res, hres, e⟩ := hts
  obtain ⟨i1, i2, i3⟩ := for_each_transition_upto r.1 hc fuel _ res hres
  refine ⟨?_, ?_⟩
  · rw [← e, i2, i1, ← hc.transitions]
  · intro t ht
    rw [← e] at ht
    obtain ⟨b, hb, L, hL, htL⟩ := i3 t ht
    unfold Projection.transitions_of_abstract_operator at hL
    simp only [Option.bind_eq_some, Option.map_eq_some'] at hL
    obtain ⟨acc, _, r', hr', e'⟩ := hL
    obtain ⟨_, _, s3⟩ := for_each_transition_step r.1 hc fuel b acc.2 r' hr'
    rw [← e'] at htL
    obtain ⟨_, F, m2, m3, _, m5, m6⟩ := s3 t htL
    obtain ⟨t1, t2, t3⟩ := convert_abstraction_transition htask hpattern h b hb F m2 m3
    rw [m5, m6]
    exact ⟨t3, t1, t2⟩

/-- The claim C32 on the projection of `two_switches_task` to both variables, with four
transitions among four states. -/
theorem projection_enumeration_well_formed_witness :
    two_switches_task.WellFormed ∧ PatternValid two_switches_task.domain_sizes [0, 1] ∧
    (∀ ts, two_switches_projection.for_each_transition 3 = some ts →
      (ts.map fun t => t.transition_id) = List.range two_switches_projection.num_transitions ∧
      ∀ t ∈ ts, t.source_id ≠ t.target_id ∧ t.source_id < two_switches_projection.num_states ∧
        t.target_id < two_switches_projection.num_states) ∧
    (two_switches_projection.enumeration_fuel ≤ 3 →
      ∃ ts, two_switches_projection.for_each_transition 3 = some ts) :=
  ⟨by decide, by decide,
    projection_enumeration_well_formed two_switches_task [0, 1] (by decide) (by decide)
      (two_switches_projection, two_switches_match_tree_forward,
        two_switches_match_tree_backward)
      two_switches_projection_eq 3⟩

end well_formed

/-! ## C8: the keys of the bucket maps stay nonnegative -/

section nonnegative_keys

theorem keys_insert_cost_value {σ : Type} [DecidableEq σ] {k : Int} {b : Finset σ}
    {m : BucketMap σ} {e : Int × Finset σ} (he : e ∈ insert_cost_value k b m) :
    e.1 = k ∨ ∃ f ∈ m, f.1 = e.1 := by
  unfold insert_cost_value at he
  split_ifs at he
  · exact Or.inr ⟨e, he, rfl⟩
  · exact keys_map_add he

/-- The keys of a map that a loop of `insert_cost_value` builds are keys of the insertions
or of the map it started from. -/
theorem keys_foldl_insert {σ : Type} [DecidableEq σ] (f : Int × Finset σ → Int)
    (m : BucketMap σ) :
    ∀ (init : BucketMap σ) (e : Int × Finset σ),
      e ∈ m.foldl (fun n p => insert_cost_value (f p) p.2 n) init →
      (∃ p ∈ m, e.1 = f p) ∨ ∃ g ∈ init, g.1 = e.1 := by
  induction m with
  | nil => intro init e he; exact Or.inr ⟨e, he, rfl⟩
  | cons p rest ih =>
    intro init e he
    rw [List.foldl_cons] at he
    rcases ih _ e he with ⟨q, hq, h⟩ | ⟨g, hg, h⟩
    · exact Or.inl ⟨q, List.mem_cons_of_mem _ hq, h⟩
    · rcases keys_insert_cost_value hg with h' | ⟨g', hg', h'⟩
      · exact Or.inl ⟨p, List.mem_cons_self _ _, by rw [← h, h']⟩
      · exact Or.inr ⟨g', hg', by rw [h', h]⟩

/-- The keys of the map that `reduce_operator_costs(int, int)` rebuilds are `INF` or
maxima with `0`. -/
theorem keys_reduce_bucket_map {σ : Type} [DecidableEq σ] (saturated : Int)
    (m : BucketMap σ) (e : Int × Finset σ) (he : e ∈ reduce_bucket_map saturated m) :
    0 ≤ e.1 := by
  unfold reduce_bucket_map at he
  have hf : (fun (new_sd_costs : BucketMap σ) (p : Int × Finset σ) =>
      if p.1 = INF then insert_cost_value INF p.2 new_sd_costs
      else insert_cost_value (max 0 (left_subtraction p.1 saturated)) p.2 new_sd_costs)
      = fun n p => insert_cost_value
          ((fun p : Int × Finset σ =>
            if p.1 = INF then INF else max 0 (left_subtraction p.1 saturated)) p) p.2 n := by
    funext n p
    simp only
    split_ifs <;> rfl
  rw [hf] at he
  rcases keys_foldl_insert _ m [] e he with ⟨p, _, h⟩ | ⟨g, hg, _⟩
  · rw [h]
    split_ifs
    · unfold INF; decide
    · exact le_max_left _ _
  · exact absurd hg (List.not_mem_nil _)

theorem keys_reduce_operator_costs_op {σ : Type} [DecidableEq σ] [Fintype σ]
    (c : CostFunctionStateDependent σ) (op_id : Nat) (saturated : Int)
    (h : ∀ j, ∀ e ∈ c.buckets j, 0 ≤ e.1) :
    ∀ j, ∀ e ∈ (c.reduce_operator_costs_op op_id saturated).buckets j, 0 ≤ e.1 := by
  intro j e he
  rw [reduce_operator_costs_op_buckets] at he
  split_ifs at he with h1 h2
  · rw [List.mem_singleton] at he
    rw [he]
    show (0 : Int) ≤ INF
    unfold INF
    decide
  · exact keys_reduce_bucket_map saturated _ e he
  · exact h j e he

/-- The keys that the inner loop of step 2 of `reduce_transition_costs_finite` adds for
an old bucket: left subtractions of the key of the bucket and of the key of a saturated
entry that meets the bucket. -/
theorem keys_move_changed_states {σ : Type} [DecidableEq σ] [Fintype σ] (k : Int)
    (stcf_dd : List (Int × Finset σ)) :
    ∀ (B : Finset σ) (n : BucketMap σ) (e : Int × Finset σ),
      e ∈ (move_changed_states stcf_dd (k, B) n).2 →
      (∃ g ∈ n, g.1 = e.1) ∨
        ∃ sat ∈ stcf_dd, e.1 = left_subtraction k sat.1 ∧ B ∩ sat.2 ≠ ∅ := by
  induction stcf_dd with
  | nil => intro B n e he; exact Or.inl ⟨e, he, rfl⟩
  | cons sat rest ih =>
    intro B n e he
    have hstep : move_changed_states (sat :: rest) (k, B) n
        = if B ∩ sat.2 ≠ ∅ then
            move_changed_states rest (k, B ∩ sat.2ᶜ)
              (insert_cost_value (left_subtraction k sat.1) (B ∩ sat.2) n)
          else move_changed_states rest (k, B) n := by
      unfold move_changed_states
      rw [List.foldl_cons]
      simp only
      split_ifs <;> rfl
    rw [hstep] at he
    split_ifs at he with hne
    · rcases ih _ _ e he with ⟨g, hg, h⟩ | ⟨s, hs, h1, h2⟩
      · rcases keys_insert_cost_value hg with h' | ⟨g', hg', h'⟩
        · exact Or.inr ⟨sat, List.mem_cons_self _ _, by rw [← h, h'], hne⟩
        · exact Or.inl ⟨g', hg', by rw [h', h]⟩
      · refine Or.inr ⟨s, List.mem_cons_of_mem _ hs, h1, ?_⟩
        intro hc
        apply h2
        rw [Finset.eq_empty_iff_forall_not_mem] at hc ⊢
        intro x hx
        rw [Finset.mem_inter, Finset.mem_inter] at hx
        exact hc x (Finset.mem_inter.2 ⟨hx.1.1, hx.2⟩)
    · rcases ih _ _ e he with h | ⟨s, hs, h1, h2⟩
      · exact Or.inl h
      · exact Or.inr ⟨s, List.mem_cons_of_mem _ hs, h1, h2⟩

/-- The loop "move states of changed cost values": the old buckets keep their keys, and
the keys of the new map are left subtractions of the key of an old bucket and of the key
of a saturated entry that meets it. -/
theorem keys_move_changed_buckets {σ : Type} [DecidableEq σ] [Fintype σ]
    (stcf_dd : List (Int × Finset σ)) (old : BucketMap σ) :
    ∀ (n : BucketMap σ),
      (∀ e ∈ (move_changed_buckets stcf_dd old n).1, ∃ r ∈ old, r.1 = e.1) ∧
      ∀ e ∈ (move_changed_buckets stcf_dd old n).2,
        (∃ g ∈ n, g.1 = e.1) ∨
          ∃ r ∈ old, ∃ sat ∈ stcf_dd, e.1 = left_subtraction r.1 sat.1 ∧ r.2 ∩ sat.2 ≠ ∅ := by
  induction old with
  | nil =>
    intro n
    exact ⟨fun e he => absurd he (List.not_mem_nil _), fun e he => Or.inl ⟨e, he, rfl⟩⟩
  | cons remaining rest ih =>
    intro n
    have hstep : move_changed_buckets stcf_dd (remaining :: rest) n
        = ((remaining.1, (move_changed_states stcf_dd remaining n).1)
            :: (move_changed_buckets stcf_dd rest
                (move_changed_states stcf_dd remaining n).2).1,
          (move_changed_buckets stcf_dd rest
            (move_changed_states stcf_dd remaining n).2).2) := rfl
    rw [hstep]
    obtain ⟨i1, i2⟩ := ih (move_changed_states stcf_dd remaining n).2
    constructor
    · intro e he
      rcases List.mem_cons.1 he with h | h
      · exact ⟨remaining, List.mem_cons_self _ _, by rw [h]⟩
      · obtain ⟨r, hr, hre⟩ := i1 e h
        exact ⟨r, List.mem_cons_of_mem _ hr, hre⟩
    · intro e he
      rcases i2 e he with ⟨g, hg, h⟩ | ⟨r, hr, s, hs, h1, h2⟩
      · rcases keys_move_changed_states remaining.1 stcf_dd remaining.2 n g hg with
          ⟨g', hg', h'⟩ | ⟨s, hs, h1, h2⟩
        · exact Or.inl ⟨g', hg', by rw [h', h]⟩
        · exact Or.inr ⟨remaining, List.mem_cons_self _ _, s, hs, by rw [← h, h1], h2⟩
      · exact Or.inr ⟨r, List.mem_cons_of_mem _ hr, s, hs, h1, h2⟩

/-- The keys of the map that step 2 of `reduce_transition_costs_finite` builds for an
operator. -/
theorem keys_subtract_stcf_dd {σ : Type} [DecidableEq σ] [Fintype σ] (max_buckets : Int)
    (stcf_dd : List (Int × Finset σ)) (remaining : BucketMap σ) (e : Int × Finset σ)
    (he : e ∈ subtract_stcf_dd max_buckets stcf_dd remaining) :
    (∃ r ∈ remaining, r.1 = e.1) ∨
      ∃ r ∈ remaining, ∃ sat ∈ stcf_dd,
        e.1 = left_subtraction r.1 sat.1 ∧ r.2 ∩ sat.2 ≠ ∅ := by
  have hunf : subtract_stcf_dd max_buckets stcf_dd remaining
      = limit_buckets
          ((move_changed_buckets stcf_dd remaining []).1.foldl
            (fun new_sd_costs p => insert_cost_value (Prod.fst p) p.2 new_sd_costs)
            (move_changed_buckets stcf_dd remaining []).2) max_buckets := rfl
  rw [hunf] at he
  obtain ⟨m1, m2⟩ := keys_move_changed_buckets stcf_dd remaining []
  have hkey : ∃ f ∈ (move_changed_buckets stcf_dd remaining []).1.foldl
      (fun new_sd_costs p => insert_cost_value (Prod.fst p) p.2 new_sd_costs)
      (move_changed_buckets stcf_dd remaining []).2, f.1 = e.1 := by
    unfold limit_buckets at he
    split_ifs at he
    · exact limit_buckets_from_keys _ _ _ e he
    · exact ⟨e, he, rfl⟩
  obtain ⟨f, hf, hfe⟩ := hkey
  rcases keys_foldl_insert Prod.fst _ _ f hf with ⟨p, hp, h⟩ | ⟨g, hg, h⟩
  · obtain ⟨r, hr, hre⟩ := m1 p hp
    exact Or.inl ⟨r, hr, by rw [hre, ← h, hfe]⟩
  · rcases m2 g hg with ⟨g', hg', _⟩ | ⟨r, hr, s, hs, h1, h2⟩
    · exact absurd hg' (List.not_mem_nil _)
    · exact Or.inr ⟨r, hr, s, hs, by rw [← hfe, ← h, h1], h2⟩

theorem mem_unordered_map_add {σ : Type} [DecidableEq σ] (k : Int) (b : Finset σ)
    (m : List (Int × Finset σ)) :
    ∀ e ∈ unordered_map_add k b m, ∀ x ∈ e.2,
      (e.1 = k ∧ x ∈ b) ∨ ∃ f ∈ m, f.1 = e.1 ∧ x ∈ f.2 := by
  induction m with
  | nil =>
    intro e he x hx
    simp only [unordered_map_add, List.mem_singleton] at he
    rw [he] at hx ⊢
    exact Or.inl ⟨rfl, hx⟩
  | cons f rest ih =>
    intro e he x hx
    unfold unordered_map_add at he
    split_ifs at he with h1
    · rcases List.mem_cons.1 he with h | h
      · rw [h] at hx ⊢
        rcases Finset.mem_union.1 hx with h2 | h2
        · exact Or.inr ⟨f, List.mem_cons_self _ _, rfl, h2⟩
        · exact Or.inl ⟨h1.symm, h2⟩
      · exact Or.inr ⟨e, List.mem_cons_of_mem _ h, rfl, hx⟩
    · rcases List.mem_cons.1 he with h | h
      · exact Or.inr ⟨f, List.mem_cons_self _ _, by rw [h], by rw [← h]; exact hx⟩
      · rcases ih e h x hx with h2 | ⟨g, hg, h2⟩
        · exact Or.inl h2
        · exact Or.inr ⟨g, List.mem_cons_of_mem _ hg, h2⟩

/-- Step 1 of `reduce_transition_costs_finite`: a state in the set of a saturated value of
an operator is a state of the fingerprint of a transition of the operator with this value,
and the value is one the step does not skip. -/
theorem compute_stcf_dds_spec {σ : Type} [DecidableEq σ] (num_operators : Nat)
    (make_transition_bdd : Transition → Finset σ) (tcf : AbstractTransitionCostFunction)
    (transitions : List Transition) :
    ∀ op_id, ∀ sat ∈ (compute_stcf_dds num_operators transitions make_transition_bdd
        tcf).getD op_id [], ∀ x ∈ sat.2,
      ∃ t ∈ transitions, t.op_id = op_id ∧
        vget tcf.sd_costs t.transition_id = sat.1 ∧ sat.1 ≠ -INF ∧ sat.1 ≠ INF ∧
        x ∈ make_transition_bdd t := by
  unfold compute_stcf_dds
  have key : ∀ (l : List Transition) (init : List (List (Int × Finset σ))),
      (∀ op_id, ∀ sat ∈ init.getD op_id [], ∀ x ∈ sat.2,
        ∃ t ∈ transitions, t.op_id = op_id ∧
          vget tcf.sd_costs t.transition_id = sat.1 ∧ sat.1 ≠ -INF ∧ sat.1 ≠ INF ∧
          x ∈ make_transition_bdd t) →
      (∀ t ∈ l, t ∈ transitions) →
      ∀ op_id, ∀ sat ∈ (l.foldl
          (fun stcf_dds transition =>
            if bget tcf.si transition.op_id then stcf_dds
            else
              if vget tcf.sd_costs transition.transition_id = -INF ∨
                  vget tcf.sd_costs transition.transition_id = 0 ∨
                  vget tcf.sd_costs transition.transition_id = INF then stcf_dds
              else
                stcf_dds.set transition.op_id
                  (insert_cost_value_unordered
                    (vget tcf.sd_costs transition.transition_id)
                    (make_transition_bdd transition)
                    (stcf_dds.getD transition.op_id [])))
          init).getD op_id [], ∀ x ∈ sat.2,
        ∃ t ∈ transitions, t.op_id = op_id ∧
          vget tcf.sd_costs t.transition_id = sat.1 ∧ sat.1 ≠ -INF ∧ sat.1 ≠ INF ∧
          x ∈ make_transition_bdd t := by
    intro l
    induction l with
    | nil => intro init hinit _; exact hinit
    | cons t rest ih =>
      intro init hinit hl
      rw [List.foldl_cons]
      apply ih _ _ (fun u hu => hl u (List.mem_cons_of_mem _ hu))
      intro op_id sat hsat x hx
      split_ifs at hsat with h1 h2
      · exact hinit op_id sat hsat x hx
      · exact hinit op_id sat hsat x hx
      · rw [getD_set_eq] at hsat
        split_ifs at hsat with h3
        · unfold insert_cost_value_unordered at hsat
          split_ifs at hsat with h4
          · rw [← h3.1]
            exact hinit _ sat hsat x hx
          · rcases mem_unordered_map_add _ _ _ sat hsat x hx with ⟨e1, e2⟩ | ⟨f, hf, e1, e2⟩
            · push_neg at h2
              exact ⟨t, hl t (List.mem_cons_self _ _), h3.1, e1.symm,
                by rw [e1]; exact h2.1, by rw [e1]; exact h2.2.2, e2⟩
            · obtain ⟨u, hu, u1, u2, u3, u4, u5⟩ := hinit _ f hf x e2
              exact ⟨u, hu, by rw [u1, h3.1], by rw [u2, e1], by rw [← e1]; exact u3,
                by rw [← e1]; exact u4, u5⟩
        · exact hinit op_id sat hsat x hx
  apply key transitions _ _ (fun t ht => ht)
  intro op_id sat hsat
  have : (List.replicate num_operators ([] : List (Int × Finset σ))).getD op_id [] = [] := by
    rw [List.getD_eq_getElem?_getD, List.getElem?_replicate]
    split <;> rfl
  rw [this] at hsat
  exact absurd hsat (List.not_mem_nil _)

/-- The keys of the map that `reduce_operator_costs(int, int)` rebuilds stay at most `INF`
where the subtraction does not leave the range of `int`. -/
theorem keys_reduce_bucket_map_le {σ : Type} [DecidableEq σ] (saturated : Int)
    (m : BucketMap σ) (hm : ∀ p ∈ m, 0 ≤ p.1 ∧ p.1 ≤ INF)
    (hrange : ∀ p ∈ m, p.1 ≠ INF → saturated ≠ INF → saturated ≠ -INF →
      p.1 - saturated ≤ INF)
    (e : Int × Finset σ) (he : e ∈ reduce_bucket_map saturated m) : e.1 ≤ INF := by
  unfold reduce_bucket_map at he
  have hf : (fun (new_sd_costs : BucketMap σ) (p : Int × Finset σ) =>
      if p.1 = INF then insert_cost_value INF p.2 new_sd_costs
      else insert_cost_value (max 0 (left_subtraction p.1 saturated)) p.2 new_sd_costs)
      = fun n p => insert_cost_value
          ((fun p : Int × Finset σ =>
            if p.1 = INF then INF else max 0 (left_subtraction p.1 saturated)) p) p.2 n := by
    funext n p
    simp only
    split_ifs <;> rfl
  rw [hf] at he
  rcases keys_foldl_insert _ m [] e he with ⟨p, hp, h⟩ | ⟨g, hg, _⟩
  · rw [h]
    have hb := hm p hp
    split_ifs with h1
    · exact le_refl _
    · have hneg : p.1 ≠ -INF := by unfold INF; omega
      apply max_le (by unfold INF; decide)
      unfold left_subtraction
      rw [if_neg (by
        push_neg
        exact ⟨h1, hneg⟩)]
      split_ifs with h2
      · exact le_refl _
      · push_neg at h2
        exact hrange p hp h1 h2.1 h2.2
  · exact absurd hg (List.not_mem_nil _)

/-- The keys of an operator stay at most `INF` in `reduce_operator_costs` where the
subtraction of its saturated cost does not leave the range of `int`. -/
theorem keys_reduce_operator_costs_le {σ : Type} [DecidableEq σ] [Fintype σ]
    (c : CostFunctionStateDependent σ)
    (hkeys : ∀ op_id, ∀ e ∈ c.buckets op_id, 0 ≤ e.1 ∧ e.1 ≤ INF) (socf : List Int)
    (op_id : Nat)
    (hrange : ∀ r ∈ c.buckets op_id, r.1 ≠ INF → vget socf op_id ≠ INF →
      vget socf op_id ≠ -INF → r.1 - vget socf op_id ≤ INF)
    (e : Int × Finset σ) (he : e ∈ (c.reduce_operator_costs socf).buckets op_id) :
    e.1 ≤ INF := by
  have h : (c.reduce_operator_costs socf).buckets op_id
      = (if op_id < c.num_operators ∧ ¬(vget socf op_id = 0 ∨ vget socf op_id = INF) then
          (c.reduce_operator_costs_op op_id (vget socf op_id)).buckets op_id
        else c.buckets op_id) :=
    ((reduce_operator_costs_upto c socf c.num_operators).2.2.2.2 op_id).1
  rw [h] at he
  split_ifs at he with hc
  · rw [reduce_operator_costs_op_buckets] at he
    split_ifs at he with h1 h2
    · rw [List.mem_singleton] at he
      rw [he]
    · exact keys_reduce_bucket_map_le _ _ (hkeys op_id) hrange e he
    · exact (hkeys op_id e he).2
  · exact (hkeys op_id e he).2

end nonnegative_keys

/-- C8 (amended). Remaining costs never go negative. On a bucketed cost function whose keys
lie between `0` and `INF`, every key is `>= 0` after `reduce_operator_costs` with any
saturated vector and with any transition cost function (there the maximum of `0` and the
left subtraction is taken), and it is at most `INF` where the subtraction of the saturated
cost of the operator does not leave the range of `int`. Every key lies between `0` and
`INF` after `reduce_transition_costs_finite` with saturated transition costs that do not
exceed the remaining cost of their transition: for every transition of an operator that is
not handled state-independently, the saturated cost is infinite or at most every key whose
bucket meets the fingerprint of the transition, and its difference to a finite such key is
at most `INF` (the subtraction of `int` does not overflow). The intersection of a bucket
`k` with a saturated set `s` is inserted under the key `left_subtraction(k, s)`, which for
finite `s <= k` is `max(0, k - s)`. -/
theorem remaining_costs_stay_nonnegative {σ : Type} [DecidableEq σ] [Fintype σ]
    (c : CostFunctionStateDependent σ)
    (hkeys : ∀ op_id, ∀ e ∈ c.buckets op_id, 0 ≤ e.1 ∧ e.1 ≤ INF) :
    (∀ (socf : List Int) (op_id : Nat), ∀ e ∈ (c.reduce_operator_costs socf).buckets op_id,
      0 ≤ e.1 ∧
      ((∀ r ∈ c.buckets op_id, r.1 ≠ INF → vget socf op_id ≠ INF →
          vget socf op_id ≠ -INF → r.1 - vget socf op_id ≤ INF) → e.1 ≤ INF)) ∧
    (∀ (tcf : AbstractTransitionCostFunction) (op_id : Nat),
      ∀ e ∈ (c.reduce_operator_costs_tcf tcf).buckets op_id,
      0 ≤ e.1 ∧
      ((∀ r ∈ c.buckets op_id, r.1 ≠ INF → vget tcf.si_costs op_id ≠ INF →
          vget tcf.si_costs op_id ≠ -INF → r.1 - vget tcf.si_costs op_id ≤ INF) →
        e.1 ≤ INF)) ∧
    (∀ (transitions : List Transition) (make_transition_bdd : Transition → Finset σ)
      (tcf : AbstractTransitionCostFunction),
      (∀ t ∈ transitions, bget tcf.si t.op_id = false →
        ∀ r ∈ c.buckets t.op_id, r.2 ∩ make_transition_bdd t ≠ ∅ →
        vget tcf.sd_costs t.transition_id ≠ INF →
        vget tcf.sd_costs t.transition_id ≠ -INF →
        vget tcf.sd_costs t.transition_id ≤ r.1 ∧
          (r.1 ≠ INF → r.1 - vget tcf.sd_costs t.transition_id ≤ INF)) →
      ∀ op_id, ∀ e ∈ (c.reduce_transition_costs_finite transitions make_transition_bdd
          tcf).buckets op_id, 0 ≤ e.1 ∧ e.1 ≤ INF) ∧
    (∀ k s : Int, 0 ≤ k → k ≠ INF → s ≠ INF → s ≠ -INF → s ≤ k →
      left_subtraction k s = max 0 (k - s)) := by
  have hnonneg : ∀ j, ∀ e ∈ c.buckets j, 0 ≤ e.1 := fun j e he => (hkeys j e he).1
  have hop : ∀ (socf : List Int) (op_id : Nat),
      ∀ e ∈ (c.reduce_operator_costs socf).buckets op_id, 0 ≤ e.1 := by
    intro socf
    unfold CostFunctionStateDependent.reduce_operator_costs
    apply foldl_invariant
      (fun c' : CostFunctionStateDependent σ => ∀ j, ∀ e ∈ c'.buckets j, 0 ≤ e.1)
    · intro i _ x hx
      simp only
      split_ifs
      · exact hx
      · exact keys_reduce_operator_costs_op x i _ hx
    · exact hnonneg
  refine ⟨?_, ?_, ?_, ?_⟩
  · intro socf op_id e he
    exact ⟨hop socf op_id e he,
      fun hrange => keys_reduce_operator_costs_le c hkeys socf op_id hrange e he⟩
  · intro tcf op_id e he
    rw [reduce_operator_costs_tcf_eq] at he
    refine ⟨hop _ op_id e he, fun hrange => ?_⟩
    refine keys_reduce_operator_costs_le c hkeys _ op_id ?_ e he
    intro r hr h1 h2 h3
    have hv : vget ((List.range c.num_operators).map fun op_id =>
        if bget tcf.si op_id then vget tcf.si_costs op_id else 0) op_id
        = if op_id < c.num_operators then
            (if bget tcf.si op_id then vget tcf.si_costs op_id else 0)
          else 0 := getD_map_range _ _ _ _
    rw [hv] at h2 h3 ⊢
    have hb := hkeys op_id r hr
    split_ifs at h2 h3 ⊢ with q1 q2
    · exact hrange r hr h1 h2 h3
    · omega
    · omega
  · intro transitions make_transition_bdd tcf hcontract op_id e he
    unfold CostFunctionStateDependent.reduce_transition_costs_finite at he
    unfold CostFunctionStateDependent.buckets at he
    simp only at he
    rw [getD_map_range] at he
    split_ifs at he with h1 h2
    · exact hkeys op_id e he
    · rcases keys_subtract_stcf_dd _ _ _ e he with ⟨r, hr, hre⟩ | ⟨r, hr, sat, hsat, h3, h4⟩
      · rw [← hre]
        exact hkeys op_id r hr
      · obtain ⟨x, hx⟩ := Finset.nonempty_iff_ne_empty.2 h4
        rw [Finset.mem_inter] at hx
        obtain ⟨t, ht, t1, t2, t3, t4, t5⟩ :=
          compute_stcf_dds_spec c.num_operators make_transition_bdd tcf transitions op_id
            sat hsat x hx.2
        have hr' : r ∈ c.buckets t.op_id := by rw [t1]; exact hr
        have hmeet : r.2 ∩ make_transition_bdd t ≠ ∅ :=
          Finset.nonempty_iff_ne_empty.1 ⟨x, Finset.mem_inter.2 ⟨hx.1, t5⟩⟩
        have hsi : bget tcf.si t.op_id = false := by
          rw [t1]
          cases hb : bget tcf.si op_id with
          | false => rfl
          | true => exact absurd hb h2
        obtain ⟨c1, c2⟩ := hcontract t ht hsi r hr' hmeet (by rw [t2]; exact t4)
          (by rw [t2]; exact t3)
        rw [t2] at c1 c2
        have hb := hkeys op_id r hr
        rw [h3]
        unfold left_subtraction
        by_cases hinf : r.1 = INF
        · rw [if_pos (Or.inl hinf), hinf]
          unfold INF
          decide
        · have hneg : r.1 ≠ -INF := by unfold INF; omega
          rw [if_neg (by
            push_neg
            exact ⟨hinf, hneg⟩), if_neg (by
            push_neg
            exact ⟨t4, t3⟩)]
          exact ⟨by omega, c2 hinf⟩
    · exact absurd he (List.not_mem_nil _)
  · intro k s hk hk' hs hs' hle
    unfold left_subtraction
    have hneg : k ≠ -INF := by unfold INF; omega
    rw [if_neg (by
      push_neg
      exact ⟨hk', hneg⟩), if_neg (by
      push_neg
      exact ⟨hs, hs'⟩)]
    rw [max_eq_right (by omega)]

/-- The amended C8 at work: operator `0` has the single bucket `(2, ⊤)`, its transition
is given the saturated cost `1`, and the states are filed under the key `2 - 1 = 1`. -/
theorem remaining_costs_stay_nonnegative_witness :
    ((two_state_cost_function [2]).reduce_transition_costs_finite
        [⟨0, 0, 0, 1⟩] (fun _ => Finset.univ) ⟨[1], [false], [1]⟩).buckets 0
      = [(1, Finset.univ)] ∧
    (0 : Int) ≤ ((1 : Int), (Finset.univ : Finset Bool)).1 ∧
    ((1 : Int), (Finset.univ : Finset Bool)).1 ≤ INF :=
  have hrun : ((two_state_cost_function [2]).reduce_transition_costs_finite
        [⟨0, 0, 0, 1⟩] (fun _ => Finset.univ) ⟨[1], [false], [1]⟩).buckets 0
      = [(1, Finset.univ)] := by decide
  ⟨hrun,
    (remaining_costs_stay_nonnegative (two_state_cost_function [2])
      (by
        intro op_id e he
        cases op_id with
        | zero =>
          have h0 : (two_state_cost_function [2]).buckets 0 = [(2, Finset.univ)] := by decide
          rw [h0, List.mem_singleton] at he
          rw [he]
          exact ⟨by decide, by unfold INF; decide⟩
        | succ n => exact absurd he (List.not_mem_nil _))).2.2.1
      [⟨0, 0, 0, 1⟩] (fun _ => Finset.univ) ⟨[1], [false], [1]⟩
      (by
        intro t ht _ r hr _ _ _
        rw [List.mem_singleton] at ht
        rw [ht] at hr ⊢
        have h0 : (two_state_cost_function [2]).buckets 0 = [(2, Finset.univ)] := by decide
        have hr' : r ∈ (two_state_cost_function [2]).buckets 0 := hr
        rw [h0, List.mem_singleton] at hr'
        rw [hr']
        exact ⟨by decide, fun _ => by unfold INF; decide⟩)
      0 (1, Finset.univ) (by rw [hrun]; exact List.mem_singleton.2 rfl)⟩

/-! ## C20: reduce_costs -/

section reduce_costs_tcp

/-- Outside the range of `int` the new entry is not the difference: the subtraction
`2147483646 - (-2)` of `int` leaves the representative `-2147483648` of `2147483648`. -/
theorem reduce_costs_outside_int_range :
    reduce_costs [2147483646] [-2] = some [-2147483648] := by
  decide

end reduce_costs_tcp

/-- C27 fails on the code in the transition form. The projection of `one_variable_chain_task`
to its variable is the chain `0 -> 1 -> 2` with the transitions `0` and `1`. With the
remaining costs `[INF, 2]` the goal distances are `[INF, 2, 0]`, and the transition cost
function that `compute_saturated_costs_tcf` returns for them, the one the next saturator
of the chain is given, holds `-INF` for transition `0`, which had the cost `INF`. Under the
costs `[INF, 2]` only state `0` is reachable from state `0`; under the saturated costs
`[-INF, 2]` the search `compute_reachability_from_state_tcf` traverses the transition of
cost `-INF` and marks every state, so the refinement of the transition form leaves
`h = [INF, 2, 0]`, where no state other than `0` is reachable along transitions of finite
cost. The refinement of the operator form, on the operator costs `[-INF, 2]`, does not
traverse the operator of cost `-INF` and returns `[INF, -INF, -INF]`, what the claim
says. -/
theorem reachability_refinement_traverses_negative_infinity :
    (ProjectionFactory.convert_abstraction one_variable_chain_task [0]
        (TaskInfo.create one_variable_chain_task)).map
      (fun r => (r.1.num_states, r.1.for_each_transition 10))
      = some (3, some [⟨0, 0, 0, 1⟩, ⟨1, 1, 1, 2⟩]) ∧
    (ProjectionFactory.convert_abstraction one_variable_chain_task [0]
        (TaskInfo.create one_variable_chain_task)).map
      (fun r =>
        r.1.compute_saturated_costs_tcf 10 [INF, 2, 0] ⟨[INF, 2], [true, true], [INF, 2]⟩)
      = some (some ⟨[-INF, 2], [true, true], [-INF, 2]⟩) ∧
    (ProjectionFactory.convert_abstraction one_variable_chain_task [0]
        (TaskInfo.create one_variable_chain_task)).map
      (fun r =>
        (r.1.compute_reachability_from_state_tcf r.2.1 10
            ⟨[INF, 2], [true, true], [INF, 2]⟩ 0,
          r.1.compute_reachability_from_state_tcf r.2.1 10
            ⟨[-INF, 2], [true, true], [-INF, 2]⟩ 0))
      = some (some [true, false, false], some [true, true, true]) ∧
    (ProjectionFactory.convert_abstraction one_variable_chain_task [0]
        (TaskInfo.create one_variable_chain_task)).map
      (fun r =>
        (r.1.update_reachability_tcf r.2.1 10 ⟨[-INF, 2], [true, true], [-INF, 2]⟩
            [INF, 2, 0] 0,
          r.1.update_reachability_ocf r.2.1 10 [-INF, 2] [INF, 2, 0] 0))
      = some (some [INF, 2, 0], some [INF, -INF, -INF]) := by
  decide

/-! ## C28: the LP saturator on a dead end -/

/-- C28 fails on the code in the operator form. In `dead_end_abstraction` no goal state can
be reached from state `2`: with the operator costs `[1, 1]` the goal distances, which the
caller hands to the first saturator, are `[1, 0, INF]`. For the query state `2` the operator
form `SaturatorLP::saturate_ocf` of transition_cost_partitioning ends in the `ABORT`
"initial h is infinity", with and without general costs, where the claim says it returns.
On the same input the saturator of cost_saturation returns the saturated costs `-INF` and
`h_out = [-INF, -INF, INF]`, and the transition form returns this `h_out`. -/
theorem lp_saturator_operator_form_aborts :
    dead_end_abstraction.compute_goal_distances_ocf 10 [1, 1] = some [1, 0, INF] ∧
    SaturatorLP.saturate_ocf ⟨true, false, ObjectiveType.TRANSITIONS, true, false⟩
        dead_end_abstraction 10 0 (fun _ _ => []) [1, 1] [1, 0, INF] 2
      = Outcome.aborted ∧
    SaturatorLP.saturate_ocf ⟨false, false, ObjectiveType.TRANSITIONS, true, false⟩
        dead_end_abstraction 10 0 (fun _ _ => []) [1, 1] [1, 0, INF] 2
      = Outcome.aborted ∧
    cost_saturation.SaturatorLP.saturate ⟨true, false⟩ dead_end_abstraction 10 0
        (fun _ _ => []) [1, 1] [1, 0, INF] 2
      = Outcome.returned ⟨[-INF, -INF], [-INF, -INF, INF]⟩ ∧
    SaturatorLP.saturate_tcf ⟨true, false, ObjectiveType.TRANSITIONS, true, false⟩
        dead_end_abstraction 10 0 (fun _ _ => []) 2 (fun _ => (∅ : Finset Bool))
        ⟨[1, 1], [true, true], [1, 1]⟩ (two_state_cost_function [1, 1]) [1, 0, INF] 2
      = Outcome.returned ⟨⟨[1, 1], [true, true], [1, 1]⟩, [-INF, -INF, INF], false⟩ := by
  decide

/-! ## C29: the states outside the LP -/

/-- With `recompute_h_values` the operator form returns recomputed goal distances in place
of the extracted vector: on `chain_identity_abstraction` with the costs `[1, 1]`,
`h_in = [2, INF, 0]` and the query state `0`, state `1` has no distance variable, the
extracted vector `[2, INF, 0]` is returned without `recompute_h_values`, and the vector
`[-INF, -INF, 0]` with it. -/
theorem lp_saturator_recomputed_values :
    SaturatorLP.saturate_ocf ⟨true, false, ObjectiveType.TRANSITIONS, true, false⟩
        chain_identity_abstraction 10 1000000 (fun _ _ => [2, 0]) [1, 1] [2, INF, 0] 0
      = Outcome.returned ⟨[-INF, -INF], [2, INF, 0], false⟩ ∧
    SaturatorLP.saturate_ocf ⟨true, true, ObjectiveType.TRANSITIONS, true, false⟩
        chain_identity_abstraction 10 1000000 (fun _ _ => [2, 0]) [1, 1] [2, INF, 0] 0
      = Outcome.returned ⟨[-INF, -INF], [-INF, -INF, 0], false⟩ := by
  decide

/-- C29 (amended). LP saturator, states outside the LP, whatever vector the LP solver
returns, in a run that solves the LP and returns: for every state `i` without a distance
variable (`h_in[i]` is infinite or `i` is not reachable from `state_id`) the returned
`h_out[i]` is `INF` if `h_in[i] = INF` and `-INF` otherwise. This holds in the transition
form for every `h_in`, and in the operator form (without `recompute_h_values`, where the
extracted vector is the one returned) for every `h_in` in which the states of value `-INF`
are not reachable from `state_id`. -/
theorem lp_saturator_states_outside_lp {σ : Type} [DecidableEq σ] (a : ExplicitAbstraction)
    (fuel : Nat) (lp_infty : ℚ) (lp_solve : List LPVariable → List LPConstraint → List ℚ)
    (make_transition_bdd : Transition → Finset σ) (sdac : CostFunctionStateDependent σ)
    (h : List Int) (state_id : Nat) :
    (∀ (s : SaturatorLP) (num_transitions : Nat) (tcf : AbstractTransitionCostFunction)
      (r : List Bool) (res : SaturatorResultTcf), h.isEmpty = false →
      vget h state_id ≠ INF →
      a.compute_reachability_from_state_tcf fuel tcf state_id = some r →
      s.saturate_tcf a fuel lp_infty lp_solve num_transitions make_transition_bdd tcf sdac
        h state_id = Outcome.returned res →
      ∀ i, i < a.num_states → (vget h i = INF ∨ vget h i = -INF ∨ bget r i = false) →
        vget res.h_values i = if vget h i = INF then INF else -INF) ∧
    (∀ (s : SaturatorLP) (ocf : List Int) (r : List Bool) (res : SaturatorResultOcf),
      s.recompute_h_values = false →
      a.compute_reachability_from_state_ocf fuel
        (compute_reachability_cost_function ocf) state_id = some r →
      (∀ j, j < a.num_states → vget h j = -INF → bget r j = false) →
      s.saturate_ocf a fuel lp_infty lp_solve ocf h state_id = Outcome.returned res →
      ∀ i, i < a.num_states → (vget h i = INF ∨ vget h i = -INF ∨ bget r i = false) →
        vget res.h_values i = if vget h i = INF then INF else -INF) := by
  obtain ⟨htcf, hocf⟩ :=
    lp_saturator_extraction_outside_lp a fuel lp_infty lp_solve make_transition_bdd sdac h
      state_id
  refine ⟨htcf, ?_⟩
  intro s ocf r res hrec hr hcontract hres i hi hout
  refine (hocf s ocf r res hrec hr hres i hi hout).2 ?_
  rcases hout with e | e | e
  · exact Or.inl e
  · exact Or.inr (hcontract i hi e)
  · exact Or.inr e

/-- The amended C29 at work in the operator form: on `two_sources_abstraction` with the
cost `5`, `h_in = [5, 0, -INF]` and the query state `0`, state `2` is not reachable from
state `0` and is returned with `h_out[2] = -INF`. -/
theorem lp_saturator_states_outside_lp_witness :
    two_sources_abstraction.compute_reachability_from_state_ocf 10
        (compute_reachability_cost_function [5]) 0 = some [true, true, false] ∧
    SaturatorLP.saturate_ocf ⟨true, false, ObjectiveType.TRANSITIONS, true, false⟩
        two_sources_abstraction 10 1000000 (fun _ _ => [5, 0, 5]) [5] [5, 0, -INF] 0
      = Outcome.returned ⟨[5], [5, 0, -INF], false⟩ ∧
    vget (SaturatorResultOcf.mk [5] [5, 0, -INF] false).h_values 2
      = if vget [5, 0, -INF] 2 = INF then INF else -INF :=
  have hr : two_sources_abstraction.compute_reachability_from_state_ocf 10
      (compute_reachability_cost_function [5]) 0 = some [true, true, false] := by decide
  have hrun : SaturatorLP.saturate_ocf ⟨true, false, ObjectiveType.TRANSITIONS, true, false⟩
      two_sources_abstraction 10 1000000 (fun _ _ => [5, 0, 5]) [5] [5, 0, -INF] 0
      = Outcome.returned ⟨[5], [5, 0, -INF], false⟩ := by decide
  ⟨hr, hrun,
    (lp_saturator_states_outside_lp two_sources_abstraction 10 1000000
      (fun _ _ => [5, 0, 5]) (fun _ => (∅ : Finset Bool)) (two_state_cost_function [1])
      [5, 0, -INF] 0).2
      ⟨true, false, ObjectiveType.TRANSITIONS, true, false⟩ [5] [true, true, false]
      ⟨[5], [5, 0, -INF], false⟩ rfl hr (by decide) hrun 2 (by decide)
      (Or.inr (Or.inl (by decide)))⟩

end transition_cost_partitioning
